import Mathlib

namespace Csim

/-!
# Cache simulator (`src/cache_simulator/csim.c`)

Shallow embedding of `update`, `update_timestamp` and the record loop of `main`.

* `unsigned long long` values are naturals below `2 ^ 64`; a shift whose count is
  outside `0 .. 63` has no defined result and is modelled by `none`.
* The conversion of an `unsigned long long` to `int` keeps the low 32 bits
  (two's complement), see `toInt32`.
* The `int` counters and stamps are computed in the integers here; the namespace
  `Csim32` below adds the range of `int` to every operation (signed overflow and
  `1 << k` for `k ≥ 31` have no defined result).
* A set is the list of its `E` lines; the cache is the list of its `S = 2 ^ s` sets.
  An array access outside its bounds is modelled by `none`.
-/

/-- The struct `cache_line` of csim.c: four `int` fields. -/
structure cache_line where
  valid_bit : Int
  dirty_bit : Int
  tag : Int
  stamp : Int
deriving DecidableEq, Repr

/-- The globals `s`, `E`, `b` set from the command line. -/
structure Config where
  s : Nat
  E : Nat
  b : Nat
deriving DecidableEq, Repr

/-- The globals mutated while a trace is replayed: the cache and the six counters. -/
structure State where
  cache : List (List cache_line)
  hits_count : Int
  miss_count : Int
  eviction_count : Int
  dirty_eviction_bytes_count : Int
  dirty_active_bytes_count : Int
  double_ref_count : Int
deriving DecidableEq, Repr

/-- The constant `INT_MAX` of limits.h for a 32-bit `int`. -/
def INT_MAX : Int := 2147483647

/-- The constant `INT_MIN` of limits.h for a 32-bit `int`. -/
def INT_MIN : Int := -2147483648

/-- Conversion of an unsigned 64-bit value to a 32-bit `int`: the low 32 bits,
read in two's complement. -/
def toInt32 (n : Nat) : Int :=
  if n % 4294967296 < 2147483648 then ((n % 4294967296 : Nat) : Int)
  else ((n % 4294967296 : Nat) : Int) - 4294967296

/-- Left shift of an `unsigned long long` by an `int` count: defined for counts
`0 .. 63` only, the result is reduced modulo `2 ^ 64`. -/
def shl64 (a : Nat) (k : Int) : Option Nat :=
  if 0 ≤ k ∧ k < 64 then some ((a * 2 ^ k.toNat) % 2 ^ 64) else none

/-- Right shift of an `unsigned long long` by an `int` count: defined for counts
`0 .. 63` only. -/
def shr64 (a : Nat) (k : Int) : Option Nat :=
  if 0 ≤ k ∧ k < 64 then some (a / 2 ^ k.toNat) else none

/-- The expression `(address << (64-s-b)) >> (64-s)` of `update`. -/
def address_set_index (cfg : Config) (address : Nat) : Option Nat :=
  (shl64 address (64 - (cfg.s : Int) - (cfg.b : Int))).bind
    (fun t => shr64 t (64 - (cfg.s : Int)))

/-- The expression `address >> (s + b)` of `update`, stored in an `int`. -/
def address_tag (cfg : Config) (address : Nat) : Option Int :=
  (shr64 address ((cfg.s : Int) + (cfg.b : Int))).map toInt32

/-- Index of the first line satisfying `p`, scanning `i = 0, 1, ...` as the
`for` loops of `update` do. -/
def first_index (p : cache_line → Bool) : List cache_line → Option Nat
  | [] => none
  | l :: ls => if p l then some 0 else (first_index p ls).map (· + 1)

/-- The double-reference loop of `update` (lines 59-64): starting at index `j` with
the running pair `(min_stamp, min_stamp_id)`. -/
def scan_min : List cache_line → Nat → Int × Int → Int × Int
  | [], _, acc => acc
  | l :: ls, j, acc =>
    if l.stamp < acc.1 ∧ l.stamp ≠ -1 then scan_min ls (j + 1) (l.stamp, (j : Int))
    else scan_min ls (j + 1) acc

/-- The LRU loop of `update` (lines 122-127): starting at index `j` with the running
pair `(max_stamp, max_stamp_id)`. -/
def scan_max : List cache_line → Nat → Int × Int → Int × Int
  | [], _, acc => acc
  | l :: ls, j, acc =>
    if l.stamp > acc.1 ∧ l.stamp ≠ -1 then scan_max ls (j + 1) (l.stamp, (j : Int))
    else scan_max ls (j + 1) acc

/-- Replace set number `idx` of the cache. -/
def State.with_set (st : State) (idx : Nat) (set : List cache_line) : State :=
  { st with cache := st.cache.set idx set }

/-- The hit branch of `update` (lines 51-81) for the line `ln` found at index `i`
of the set `set`. -/
def update_hit (cfg : Config) (st : State) (idx : Nat) (set : List cache_line)
    (i : Nat) (ln : cache_line) (is_write : Bool) : State :=
  let was_clean : Bool := is_write && (ln.dirty_bit == 0)
  -- lines 52-57
  let ln1 : cache_line := if was_clean then { ln with dirty_bit := 1 } else ln
  let set1 := set.set i ln1
  let dirty_active := if was_clean then st.dirty_active_bytes_count + 2 ^ cfg.b
    else st.dirty_active_bytes_count
  -- lines 59-69
  let min_stamp_id := (scan_min set1 0 (INT_MAX, -1)).2
  let double_ref := if (i : Int) = min_stamp_id then st.double_ref_count + 1
    else st.double_ref_count
  -- lines 78-80
  { (st.with_set idx (set1.set i { ln1 with stamp := 0 })) with
    dirty_active_bytes_count := dirty_active
    double_ref_count := double_ref
    hits_count := st.hits_count + 1 }

/-- The cold-miss branch of `update` (lines 87-105) for the invalid line `ln` found
at index `i`. -/
def update_cold (cfg : Config) (st : State) (idx : Nat) (set : List cache_line)
    (i : Nat) (ln : cache_line) (address_tag : Int) (is_write : Bool) : State :=
  let ln1 : cache_line := if is_write then { ln with dirty_bit := 1 } else ln
  let dirty_active := if is_write then st.dirty_active_bytes_count + 2 ^ cfg.b
    else st.dirty_active_bytes_count
  { (st.with_set idx (set.set i { ln1 with valid_bit := 1, tag := address_tag, stamp := 0 })) with
    dirty_active_bytes_count := dirty_active
    miss_count := st.miss_count + 1 }

/-- The eviction branch of `update` (lines 110-147); `none` when `max_stamp_id` is
not an index of the set. -/
def update_evict (cfg : Config) (st : State) (idx : Nat) (set : List cache_line)
    (address_tag : Int) (is_write : Bool) : Option State :=
  let max_stamp_id := (scan_max set 0 (INT_MIN, -1)).2
  if max_stamp_id < 0 then none
  else
    match set[max_stamp_id.toNat]? with
    | none => none
    | some ln =>
      let st1 : State :=
        { st with eviction_count := st.eviction_count + 1, miss_count := st.miss_count + 1 }
      -- lines 129-144
      let ln1 : cache_line :=
        if ln.dirty_bit = 1 then (if is_write then ln else { ln with dirty_bit := 0 })
        else (if is_write then { ln with dirty_bit := 1 } else ln)
      let dirty_eviction := if ln.dirty_bit = 1 then st.dirty_eviction_bytes_count + 2 ^ cfg.b
        else st.dirty_eviction_bytes_count
      let dirty_active :=
        if ln.dirty_bit = 1 then
          (if is_write then st.dirty_active_bytes_count
           else st.dirty_active_bytes_count - 2 ^ cfg.b)
        else (if is_write then st.dirty_active_bytes_count + 2 ^ cfg.b
              else st.dirty_active_bytes_count)
      some { (st1.with_set idx
                (set.set max_stamp_id.toNat { ln1 with tag := address_tag, stamp := 0 })) with
             dirty_eviction_bytes_count := dirty_eviction
             dirty_active_bytes_count := dirty_active }

/-- The function `update(address, is_write)` of csim.c. -/
def update (cfg : Config) (st : State) (address : Nat) (is_write : Bool) : Option State :=
  match address_set_index cfg address, address_tag cfg address with
  | some idx, some atag =>
    match st.cache[idx]? with
    | none => none
    | some set =>
      match first_index (fun l => l.tag == atag) set with
      | some i =>
        match set[i]? with
        | some ln => some (update_hit cfg st idx set i ln is_write)
        | none => none
      | none =>
        match first_index (fun l => l.valid_bit == 0) set with
        | some i =>
          match set[i]? with
          | some ln => some (update_cold cfg st idx set i ln atag is_write)
          | none => none
        | none => update_evict cfg st idx set atag is_write
  | _, _ => none

/-- The function `update_timestamp` of csim.c: the stamp of every valid line grows by one. -/
def update_timestamp (st : State) : State :=
  { st with cache := st.cache.map (fun set =>
      set.map (fun l => if l.valid_bit = 1 then { l with stamp := l.stamp + 1 } else l)) }

/-- The type character of a trace record, as the `switch` of `main` reads it; `X` is
any other character (the `default` case). -/
inductive RecType where
  | I | L | M | S | X
deriving DecidableEq, Repr

/-- One parsed trace record: its type and its address. -/
structure Record where
  type : RecType
  address : Nat
deriving DecidableEq, Repr

/-- One iteration of the `while` loop of `main` (lines 243-260). -/
def step (cfg : Config) (st : State) (r : Record) : Option State :=
  (match r.type with
    | RecType.I => some st
    | RecType.L => update cfg st r.address false
    | RecType.M => (update cfg st r.address false).bind (fun st1 => update cfg st1 r.address true)
    | RecType.S => update cfg st r.address true
    | RecType.X => some st).map update_timestamp

/-- The `while` loop of `main` over a whole trace. -/
def run (cfg : Config) : State → List Record → Option State
  | st, [] => some st
  | st, r :: rs => (step cfg st r).bind (fun st1 => run cfg st1 rs)

/-- The cache and counters as `main` sets them up (lines 187, 223-235). -/
def init (cfg : Config) : State :=
  { cache := List.replicate (2 ^ cfg.s) (List.replicate cfg.E ⟨0, 0, -1, -1⟩)
    hits_count := 0, miss_count := 0, eviction_count := 0
    dirty_eviction_bytes_count := 0, dirty_active_bytes_count := 0, double_ref_count := 0 }

/-- Number of lines of the cache with `valid_bit = 1` and `dirty_bit = 1`. -/
def valid_dirty_lines (st : State) : Nat :=
  (st.cache.map (fun set => set.countP (fun l => l.valid_bit == 1 && l.dirty_bit == 1))).sum

/-- Number of records of a given type in a trace. -/
def count_type (t : RecType) (trace : List Record) : Nat :=
  trace.countP (fun r => r.type == t)

/-- States in which `update` can be called: the initial state, closed under calls of
`update` and of `update_timestamp` (a superset of the states `main` goes through). -/
inductive Reach (cfg : Config) : State → Prop where
  | init : Reach cfg (init cfg)
  | update {st st1 : State} (address : Nat) (is_write : Bool) :
      Reach cfg st → update cfg st address is_write = some st1 → Reach cfg st1
  | tick {st : State} : Reach cfg st → Reach cfg (update_timestamp st)

/-- Reference LRU model, following the spec's words: per set a recency-ordered list of
tags (most recent first) and the four counters the claim compares. -/
structure LruState where
  sets : Nat → List Nat
  hits : Int
  misses : Int
  evictions : Int
  double_refs : Int

/-- The empty reference cache. -/
def lru_init : LruState :=
  { sets := fun _ => [], hits := 0, misses := 0, evictions := 0, double_refs := 0 }

/-- One access of the reference model: `set_index = (A >> b) & (S - 1)`,
`tag = A >> (s + b)`; move-to-front on hit (a double reference when the tag is already
at the front), insert-at-front on miss, eviction from the tail when the set holds `E` tags. -/
def lru_access (cfg : Config) (st : LruState) (address : Nat) : LruState :=
  let idx := (address >>> cfg.b) &&& (2 ^ cfg.s - 1)
  let tag := address >>> (cfg.s + cfg.b)
  let l := st.sets idx
  if tag ∈ l then
    { st with
      sets := Function.update st.sets idx (tag :: l.erase tag)
      hits := st.hits + 1
      double_refs := if l.head? = some tag then st.double_refs + 1 else st.double_refs }
  else if l.length < cfg.E then
    { st with
      sets := Function.update st.sets idx (tag :: l)
      misses := st.misses + 1 }
  else
    { st with
      sets := Function.update st.sets idx (tag :: l.dropLast)
      misses := st.misses + 1
      evictions := st.evictions + 1 }

/-- One record in the reference model: `L` and `S` are one access, `M` is two accesses,
`I` and unknown types are skipped. -/
def lru_step (cfg : Config) (st : LruState) (r : Record) : LruState :=
  match r.type with
  | RecType.I => st
  | RecType.L => lru_access cfg st r.address
  | RecType.M => lru_access cfg (lru_access cfg st r.address) r.address
  | RecType.S => lru_access cfg st r.address
  | RecType.X => st

/-- A whole trace in the reference model. -/
def lru_run (cfg : Config) : LruState → List Record → LruState
  | st, [] => st
  | st, r :: rs => lru_run cfg (lru_step cfg st r) rs

/-- Shape of a cache built by `init` and kept by `update`: `2 ^ s` sets of `E` lines,
and every line whose valid bit is not 0 has a non-negative stamp. -/
def Shape (cfg : Config) (st : State) : Prop :=
  st.cache.length = 2 ^ cfg.s ∧
  ∀ set ∈ st.cache, set.length = cfg.E ∧ ∀ l ∈ set, l.valid_bit ≠ 0 → 0 ≤ l.stamp

/-- Exactly one of `hits_count` and `miss_count` grows by one between the two states. -/
def one_more_access (st st1 : State) : Prop :=
  (st1.hits_count = st.hits_count + 1 ∧ st1.miss_count = st.miss_count) ∨
  (st1.hits_count = st.hits_count ∧ st1.miss_count = st.miss_count + 1)

/-- Number of calls of `update` that a trace causes: one per `L` and `S` record, two
per `M` record. -/
def accesses (trace : List Record) : Nat :=
  count_type RecType.L trace + count_type RecType.S trace + 2 * count_type RecType.M trace

/-- The line `main` writes into every slot before the trace starts. -/
def emptyLine : cache_line := ⟨0, 0, -1, -1⟩

/-- The stamp simulator's set `lines` represents the recency list `l`: up to order the
set consists of the valid lines `ps`, listed by increasing stamp with tags `l`, and of
`n` never-used lines. All stamps of valid lines lie in `0 .. T`. -/
structure SetRel (T : Int) (lines : List cache_line) (l : List Nat)
    (ps : List cache_line) (n : Nat) : Prop where
  perm : lines.Perm (ps ++ List.replicate n emptyLine)
  tags : ps.map (·.tag) = l.map (fun t : Nat => (t : Int))
  valid : ∀ c ∈ ps, c.valid_bit = 1 ∧ 0 ≤ c.stamp ∧ c.stamp ≤ T
  sorted : (ps.map (·.stamp)).Pairwise (· < ·)
  nodup : l.Nodup

/-- All valid lines other than the one holding tag `t` were last touched by an earlier
record. -/
def Aged (t : Nat) (ps : List cache_line) : Prop :=
  ∀ c ∈ ps, c.tag ≠ (t : Int) → 1 ≤ c.stamp

/-- In the set `lines`, every valid line not holding tag `t` has a stamp of at least 1. -/
def AgedLines (t : Nat) (lines : List cache_line) : Prop :=
  ∀ c ∈ lines, c.valid_bit = 1 → c.tag ≠ (t : Int) → 1 ≤ c.stamp

/-- The per-line effect of `update_timestamp`. -/
def tick_line (l : cache_line) : cache_line :=
  if l.valid_bit = 1 then { l with stamp := l.stamp + 1 } else l

/-- The stamp simulator's state `st` represents the reference state `lst`. -/
def Sim (cfg : Config) (T : Int) (st : State) (lst : LruState) : Prop :=
  st.cache.length = 2 ^ cfg.s ∧
  (∀ idx lines, st.cache[idx]? = some lines →
    lines.length = cfg.E ∧ ∃ ps n, SetRel T lines (lst.sets idx) ps n) ∧
  st.hits_count = lst.hits ∧ st.miss_count = lst.misses ∧
  st.eviction_count = lst.evictions ∧ st.double_ref_count = lst.double_refs

/-- Every valid line of the cache has a stamp of at least 1 (the state between records). -/
def Fresh (st : State) : Prop :=
  ∀ lines ∈ st.cache, ∀ c ∈ lines, c.valid_bit = 1 → 1 ≤ c.stamp

/-- The state of the `s = 1, E = 1, b = 0` simulator after `L 0` and `k - 1` further
records that do not touch the cache. -/
def idle_state (k : Int) : State :=
  { cache := [[⟨1, 0, 0, k⟩], [⟨0, 0, -1, -1⟩]]
    hits_count := 0, miss_count := 1, eviction_count := 0
    dirty_eviction_bytes_count := 0, dirty_active_bytes_count := 0, double_ref_count := 0 }

/-- The six counters that `printSummary` reports. -/
def counters (st : State) : Int × Int × Int × Int × Int × Int :=
  (st.hits_count, st.miss_count, st.eviction_count, st.dirty_eviction_bytes_count,
    st.dirty_active_bytes_count, st.double_ref_count)

/-- A trace with all its `I` records deleted. -/
def without_I (trace : List Record) : List Record :=
  trace.filter (fun r => r.type != RecType.I)

/-- The line `l` with its stamp renamed by `f`. -/
def relabel_line (f : Int → Int) (l : cache_line) : cache_line := { l with stamp := f l.stamp }

/-- The state `st` with every stamp renamed by `f`. -/
def relabel (f : Int → Int) (st : State) : State :=
  { st with cache := st.cache.map (fun set => set.map (relabel_line f)) }

/-- A renaming of stamps that keeps their order and fixes the stamps `-1` and `0`. -/
def Renaming (f : Int → Int) : Prop := StrictMono f ∧ f (-1) = -1 ∧ f 0 = 0

/-- The renaming after `update_timestamp` has run on both states. -/
def shift_stamp (f : Int → Int) (x : Int) : Int := if 1 ≤ x then f (x - 1) + 1 else x

/-- The renaming after `update_timestamp` has run on the renamed state only. -/
def bump_stamp (f : Int → Int) (x : Int) : Int := if 1 ≤ x then f x + 1 else x

/-- The lines of a state reached from the empty cache after at most `T` records: the
valid bit is 0 or 1, a valid line has a stamp in `0 .. T`, the other lines have stamp
`-1` or `0`. -/
def LineOk (T : Int) (l : cache_line) : Prop :=
  (l.valid_bit = 0 ∨ l.valid_bit = 1) ∧ (l.valid_bit = 1 → 0 ≤ l.stamp) ∧
    (l.valid_bit = 0 → l.stamp = -1 ∨ l.stamp = 0) ∧ l.stamp ≤ T

/-- Every line of the cache satisfies `LineOk T`. -/
def Lines (T : Int) (st : State) : Prop := ∀ set ∈ st.cache, ∀ l ∈ set, LineOk T l

/-- A set of the cache as the replay of a trace leaves it: for some `k`, the lines before
index `k` are valid with a stamp of at least `m`, the lines from index `k` on have
`valid_bit = 0` and tag `-1`, with stamp `-1`, or with stamp `0` for the line at index
`k` itself when `ph` is set (an invalid line that an address of tag `-1` has hit); every
dirty bit is 0 or 1. -/
def SetOk (m : Int) (ph : Bool) (set : List cache_line) : Prop :=
  ∃ k : Nat, ∀ (j : Nat) (l : cache_line), set[j]? = some l →
    (l.dirty_bit = 0 ∨ l.dirty_bit = 1) ∧
    (j < k → l.valid_bit = 1 ∧ m ≤ l.stamp) ∧
    (k ≤ j → l.valid_bit = 0 ∧ l.tag = -1 ∧
      (l.stamp = -1 ∨ (ph = true ∧ l.stamp = 0 ∧ j = k)))

/-- Every set of the cache satisfies `SetOk m ph`. -/
def CacheOk (m : Int) (ph : Bool) (st : State) : Prop := ∀ set ∈ st.cache, SetOk m ph set

/-- No two lines of the set with `valid_bit = 1` have the same stamp. -/
def ValidDistinct (set : List cache_line) : Prop :=
  ∀ (i j : Nat) (li lj : cache_line), set[i]? = some li → set[j]? = some lj →
    li.valid_bit = 1 → lj.valid_bit = 1 → li.stamp = lj.stamp → i = j

/-- The state between two records: every set satisfies `SetOk 1 true` and
`ValidDistinct`. -/
def StampsOk (m : Int) (st : State) : Prop :=
  CacheOk m true st ∧ ∀ set ∈ st.cache, ValidDistinct set

end Csim

namespace Mm

/-!
# Dynamic memory allocator (`src/dynamic_mem_allocator/mm.c`)

Shallow embedding of the allocator over an explicit heap state.

* Memory is a map from byte addresses to 64-bit words; the allocator only reads and
  writes words at 8-byte aligned addresses. A pointer is a natural number, `NULL` is 0.
  The map is total: the word that `write_header` touches 16 bytes above a block of size
  0 (the epilogue) lies outside the heap and is simply another entry of the map.
* `size_t` and `word_t` arithmetic that can wrap is reduced modulo `2 ^ 64`.
* A loop over a free list takes fuel; the public functions pass the heap size in bytes.
  `none` is the result of running out of fuel, of indexing `seg_list` outside
  `0 .. 10`, and of the division by zero in `calloc`.
-/

/-- The allocator's globals together with the heap region of memlib. -/
structure Heap where
  /-- The word stored at each byte address. -/
  mem : Nat → Nat
  /-- First byte of the heap, `mem_heap_lo()`. -/
  heap_lo : Nat
  /-- First byte after the heap, `mem_heap_hi() + 1`. -/
  brk : Nat
  /-- First address the heap may not grow beyond. -/
  max_addr : Nat
  /-- The global `heap_start`. -/
  heap_start : Nat
  /-- The global array `seg_list` (indices `0 .. 10`). -/
  seg_list : Nat → Nat
  /-- The global `small_seg_list`. -/
  small_seg_list : Nat

def wsize : Nat := 8

def dsize : Nat := 16

def min_block_size : Nat := 16

def chunksize : Nat := 4096

def alloc_mask : Nat := 1

def size_mask : Nat := 0xFFFFFFFFFFFFFFF0

def prev_alloc_mask : Nat := 2

def prev_sseg_mask : Nat := 4

def seg_list_size : Nat := 11

def nth_fit : Nat := 25

/-- The 64-bit complement `~x` of a word. -/
def not64 (x : Nat) : Nat := 2 ^ 64 - 1 - x

/-- Store the word `v` at address `a`. -/
def Heap.write (h : Heap) (a v : Nat) : Heap :=
  { h with mem := fun x => if x = a then v else h.mem x }

/-- Fuel for one traversal of a free list: the heap size in bytes. -/
def Heap.fuel (h : Heap) : Nat := h.brk - h.heap_lo

/-- Modelled from the spec: memlib's `mem_sbrk` is not part of the sources. The heap
primitive `extend(n)` grows the region by `n` bytes and returns the old end, or fails
(`none` stands for the error value `(void *)-1`) when the region would pass `max_addr`. -/
def mem_sbrk (h : Heap) (incr : Nat) : Option (Heap × Nat) :=
  if h.brk + incr ≤ h.max_addr then some ({ h with brk := h.brk + incr }, h.brk) else none

/-- Modelled from the spec: memlib's `mem_heap_hi`, the last byte of the heap. -/
def mem_heap_hi (h : Heap) : Nat := h.brk - 1

/-- The function `max` of mm.c. -/
def max (x y : Nat) : Nat := if x > y then x else y

/-- The function `round_up` of mm.c, in `size_t` arithmetic. -/
def round_up (size n : Nat) : Nat := (n * (((size + (n - 1)) % 2 ^ 64) / n)) % 2 ^ 64

/-- The function `pack` of mm.c. -/
def pack (size : Nat) (alloc : Bool) : Nat := if alloc then size ||| alloc_mask else size

/-- The function `extract_size` of mm.c. -/
def extract_size (word : Nat) : Nat := word &&& size_mask

/-- The function `get_size` of mm.c. -/
def get_size (h : Heap) (block : Nat) : Nat := extract_size (h.mem block)

/-- The function `get_payload_size` of mm.c. -/
def get_payload_size (h : Heap) (block : Nat) : Nat :=
  (get_size h block + 2 ^ 64 - wsize) % 2 ^ 64

/-- The function `extract_alloc` of mm.c. -/
def extract_alloc (word : Nat) : Bool := (word &&& alloc_mask) != 0

/-- The function `get_alloc` of mm.c. -/
def get_alloc (h : Heap) (block : Nat) : Bool := extract_alloc (h.mem block)

/-- The function `get_prev_alloc` of mm.c. -/
def get_prev_alloc (h : Heap) (block : Nat) : Nat := h.mem block &&& prev_alloc_mask

/-- The function `get_prev_sseg` of mm.c. -/
def get_prev_sseg (h : Heap) (block : Nat) : Nat := h.mem block &&& prev_sseg_mask

/-- The function `find_next` of mm.c. -/
def find_next (h : Heap) (block : Nat) : Nat := block + get_size h block

/-- The function `find_next_free` of mm.c: the field `data.pointers.next`, 8 bytes into
the block. -/
def find_next_free (h : Heap) (block : Nat) : Nat := h.mem (block + 8)

/-- The function `find_prev_free` of mm.c: the field `data.pointers.prev`, 16 bytes into
the block. -/
def find_prev_free (h : Heap) (block : Nat) : Nat := h.mem (block + 16)

/-- The function `find_prev_footer` of mm.c. -/
def find_prev_footer (block : Nat) : Nat := block - 8

/-- The function `find_prev` of mm.c. -/
def find_prev (h : Heap) (block : Nat) : Nat :=
  if get_prev_sseg h block ≠ 0 then block - min_block_size
  else block - extract_size (h.mem (find_prev_footer block))

/-- The function `payload_to_header` of mm.c. -/
def payload_to_header (bp : Nat) : Nat := bp - 8

/-- The function `header_to_payload` of mm.c. -/
def header_to_payload (block : Nat) : Nat := block + 8

/-- The function `write_header` of mm.c. -/
def write_header (h : Heap) (block size : Nat) (alloc : Bool) : Heap :=
  let h1 := if (size &&& size_mask) ≤ min_block_size then
      h.write (block + dsize) (h.mem (block + dsize) ||| prev_sseg_mask)
    else h
  let h2 := h1.write block (pack size alloc)
  if alloc then
    h2.write (find_next h2 block) (h2.mem (find_next h2 block) ||| prev_alloc_mask)
  else h2

/-- The function `write_footer` of mm.c. -/
def write_footer (h : Heap) (block size : Nat) (alloc : Bool) : Heap :=
  if size ≤ min_block_size then h
  else h.write (block + 8 + get_size h block - dsize) (pack size alloc)

/-- The function `get_seg_list` of mm.c. -/
def get_seg_list (size : Nat) : Int :=
  if size > 16 ∧ size ≤ 32 then 0
  else if size > 32 ∧ size ≤ 64 then 1
  else if size > 64 ∧ size ≤ 128 then 2
  else if size > 128 ∧ size ≤ 256 then 3
  else if size > 256 ∧ size ≤ 512 then 4
  else if size > 512 ∧ size ≤ 1024 then 5
  else if size > 1024 ∧ size ≤ 2048 then 6
  else if size > 2048 ∧ size ≤ 4098 then 7
  else if size > 4098 ∧ size ≤ 8192 then 8
  else if size > 8192 ∧ size ≤ 16384 then 9
  else if size > 16384 then 10
  else -1

/-- Read `seg_list[i]`; `none` outside the array. -/
def seg_get (h : Heap) (i : Int) : Option Nat :=
  if 0 ≤ i ∧ i < 11 then some (h.seg_list i.toNat) else none

/-- Assign `seg_list[i] = v`; `none` outside the array. -/
def seg_set (h : Heap) (i : Int) (v : Nat) : Option Heap :=
  if 0 ≤ i ∧ i < 11 then
    some { h with seg_list := fun k => if k = i.toNat then v else h.seg_list k }
  else none

/-- The loop of `remove_freeblock` over `small_seg_list`: `b` is the loop variable and
`prev_free` the last block visited. -/
def remove_small_loop (h : Heap) (block : Nat) : Nat → Nat → Nat → Option Heap
  | 0, _, _ => none
  | fuel + 1, b, prev_free =>
    if b = 0 then some h
    else if b = block then
      if b = h.small_seg_list then some { h with small_seg_list := find_next_free h b }
      else some (h.write (prev_free + 8) (find_next_free h b))
    else remove_small_loop h block fuel (find_next_free h b) b

/-- The function `remove_freeblock` of mm.c. -/
def remove_freeblock (h : Heap) (block : Nat) : Option Heap :=
  let size := get_size h block
  if block ≠ 0 then
    if size ≤ min_block_size then
      remove_small_loop h block (h.fuel + 1) h.small_seg_list 0
    else
      let seg_list_index := get_seg_list size
      let prev_free := find_prev_free h block
      let next_free := find_next_free h block
      if prev_free = 0 ∧ next_free = 0 then seg_set h seg_list_index 0
      else if prev_free ≠ 0 ∧ next_free = 0 then
        some ((h.write (prev_free + 8) 0).write (block + 16) 0)
      else if prev_free = 0 ∧ next_free ≠ 0 then
        seg_set ((h.write (next_free + 16) 0).write (block + 8) 0) seg_list_index next_free
      else
        some ((h.write (prev_free + 8) next_free).write (next_free + 16) prev_free)
  else some h

/-- The function `insert_freeblock` of mm.c. -/
def insert_freeblock (h : Heap) (block : Nat) : Option Heap :=
  let size := get_size h block
  if size ≤ min_block_size then
    some { (h.write (block + 8) h.small_seg_list) with small_seg_list := block }
  else
    let seg_list_index := get_seg_list size
    (seg_get h seg_list_index).bind (fun root =>
      if root = 0 then
        (seg_set h seg_list_index block).map
          (fun h1 => (h1.write (block + 16) 0).write (block + 8) 0)
      else
        seg_set (((h.write (root + 16) block).write (block + 8) root).write (block + 16) 0)
          seg_list_index block)

/-- The function `coalesce` of mm.c. -/
def coalesce (h : Heap) (block : Nat) : Option (Heap × Nat) :=
  let next := find_next h block
  let next_alloc := get_alloc h next
  let prev_alloc : Bool := get_prev_alloc h block != 0
  let prev := if !prev_alloc then find_prev h block else 0
  let size := get_size h block
  if !prev_alloc && next_alloc then
    -- case 3
    let size := ((size + get_size h prev) % 2 ^ 64) ||| prev_alloc_mask
    (remove_freeblock h prev).bind (fun h1 =>
      let h2 := write_footer (write_header h1 prev size false) prev size false
      let h3 := if get_size h2 block = min_block_size then
          h2.write next (h2.mem next &&& not64 prev_sseg_mask)
        else h2
      (insert_freeblock h3 prev).map (fun h4 => (h4, prev)))
  else if prev_alloc && !next_alloc then
    -- case 2
    let size := ((size + get_size h next) % 2 ^ 64) ||| prev_alloc_mask
    (remove_freeblock h next).bind (fun h1 =>
      let h2 := write_footer (write_header h1 block size false) block size false
      let h3 := if get_size h2 next = min_block_size then
          h2.write (find_next h2 next) (h2.mem (find_next h2 next) &&& not64 prev_sseg_mask)
        else h2
      (insert_freeblock h3 block).map (fun h4 => (h4, block)))
  else if !prev_alloc && !next_alloc then
    -- case 4
    let size := ((size + (get_size h prev + get_size h next) % 2 ^ 64) % 2 ^ 64) |||
      prev_alloc_mask
    (remove_freeblock h prev).bind (fun h0 =>
      (remove_freeblock h0 next).bind (fun h1 =>
        let h2 := write_footer (write_header h1 prev size false) prev size false
        let h3 := if get_size h2 next = min_block_size then
            h2.write (find_next h2 next) (h2.mem (find_next h2 next) &&& not64 prev_sseg_mask)
          else h2
        (insert_freeblock h3 prev).map (fun h4 => (h4, prev))))
  else
    -- case 1
    (insert_freeblock h block).map (fun h4 => (h4, block))

/-- The function `place` of mm.c. -/
def place (h : Heap) (block asize : Nat) : Option Heap :=
  let csize := get_size h block
  let prev_alloc := get_prev_alloc h block
  let prev_sseg := get_prev_sseg h block
  if (csize + 2 ^ 64 - asize) % 2 ^ 64 ≥ min_block_size then
    (remove_freeblock h block).bind (fun h1 =>
      let h2 := write_header h1 block (asize ||| prev_alloc ||| prev_sseg) true
      let block_next := find_next h2 block
      let temp := if asize = min_block_size then
          ((csize + 2 ^ 64 - asize) % 2 ^ 64) ||| prev_sseg_mask ||| prev_alloc
        else ((csize + 2 ^ 64 - asize) % 2 ^ 64) ||| prev_alloc
      let h3 := write_footer (write_header h2 block_next temp false) block_next temp false
      let h4 := if (csize + 2 ^ 64 - asize) % 2 ^ 64 = min_block_size then
          h3.write (find_next h3 block_next)
            (h3.mem (find_next h3 block_next) ||| prev_sseg_mask)
        else h3
      insert_freeblock h4 block_next)
  else
    (remove_freeblock h block).map (fun h1 =>
      let h2 := write_header h1 block (csize ||| prev_alloc ||| prev_sseg) true
      if csize = min_block_size then
        h2.write (find_next h2 block) (h2.mem (find_next h2 block) ||| prev_sseg_mask)
      else h2)

/-- The locals of `find_fit` that live across loop iterations. `size_diff` is not
initialised in the source; it is first read after the first assignment. -/
structure FitState where
  block_bestfit : Nat
  if_firstfit : Bool
  n : Nat
  size_diff : Nat

/-- The loop of `find_fit` over `small_seg_list`: `some (some b)` is `return b`,
`some none` is the end of the loop. -/
def find_fit_small (h : Heap) (asize : Nat) : Nat → Nat → Option (Option Nat)
  | 0, _ => none
  | fuel + 1, block =>
    if block = 0 then some none
    else if asize ≤ get_size h block then some (some block)
    else find_fit_small h asize fuel (find_next_free h block)

/-- The inner loop of `find_fit` over one class list: `Sum.inl b` is `return b`,
`Sum.inr fs` is the end of the loop with the locals `fs`. -/
def find_fit_list (h : Heap) (asize : Nat) : Nat → Nat → FitState → Option (Nat ⊕ FitState)
  | 0, _, _ => none
  | fuel + 1, block, fs =>
    if block = 0 then some (Sum.inr fs)
    else if asize = get_size h block then some (Sum.inl block)
    else if asize < get_size h block then
      let fs1 : FitState := { fs with n := fs.n + 1 }
      let fs2 : FitState := if fs1.if_firstfit then
          { fs1 with block_bestfit := block, if_firstfit := false,
                     size_diff := get_size h block - asize }
        else fs1
      let fs3 : FitState := if get_size h block - asize < fs2.size_diff then
          { fs2 with block_bestfit := block }
        else fs2
      if fs3.n = nth_fit then some (Sum.inl fs3.block_bestfit)
      else find_fit_list h asize fuel (find_next_free h block) fs3
    else find_fit_list h asize fuel (find_next_free h block) fs

/-- The outer loop of `find_fit`: classes `index, index + 1, ...` while
`index < seg_list_size`; `count` bounds the number of iterations. -/
def find_fit_classes (h : Heap) (asize : Nat) : Nat → Int → FitState → Option Nat
  | 0, _, fs => some fs.block_bestfit
  | count + 1, index, fs =>
    if index < 11 then
      (seg_get h index).bind (fun root =>
        (find_fit_list h asize (h.fuel + 1) root fs).bind (fun r =>
          match r with
          | Sum.inl b => some b
          | Sum.inr fs1 => find_fit_classes h asize count (index + 1) fs1))
    else some fs.block_bestfit

/-- The function `find_fit` of mm.c. -/
def find_fit (h : Heap) (asize : Nat) : Option Nat :=
  let fs : FitState := ⟨0, true, 0, 0⟩
  let cls := get_seg_list asize
  if asize = min_block_size then
    (find_fit_small h asize (h.fuel + 1) h.small_seg_list).bind (fun r =>
      match r with
      | some b => some b
      | none => find_fit_classes h asize 12 0 fs)
  else find_fit_classes h asize 12 cls fs

/-- The function `extend_heap` of mm.c; the block `0` is `NULL`. -/
def extend_heap (h : Heap) (size : Nat) : Option (Heap × Nat) :=
  let epilogue := mem_heap_hi h - 7
  let prev_alloc := get_prev_alloc h epilogue
  let prev_sseg := get_prev_sseg h epilogue
  let size := round_up size dsize
  match mem_sbrk h size with
  | none => some (h, 0)
  | some (h1, bp) =>
    let block := payload_to_header bp
    let size := size ||| prev_alloc ||| prev_sseg
    let h2 := write_footer (write_header h1 block size false) block size false
    let block_next := find_next h2 block
    let h3 := write_header (h2.write block_next 0) block_next 0 true
    coalesce h3 block

/-- The function `mm_init` of mm.c. -/
def mm_init (h : Heap) : Option (Heap × Bool) :=
  match mem_sbrk h (2 * wsize) with
  | none => some (h, false)
  | some (h1, start) =>
    let h2 := (h1.write start (pack 0 true)).write (start + 8) (pack 0 true)
    let h3 := h2.write (start + 8) (h2.mem (start + 8) ||| prev_alloc_mask)
    let h4 : Heap := { h3 with heap_start := start + 8, small_seg_list := 0,
                               seg_list := fun _ => 0 }
    (extend_heap h4 chunksize).map (fun r => (r.1, r.2 != 0))

/-- The function `malloc` of mm.c; the pointer `0` is `NULL`. -/
def malloc (h : Heap) (size : Nat) : Option (Heap × Nat) :=
  (if h.heap_start = 0 then (mm_init h).map (·.1) else some h).bind (fun h1 =>
    if size = 0 then some (h1, 0)
    else
      let asize := round_up ((size + wsize) % 2 ^ 64) dsize
      (find_fit h1 asize).bind (fun block =>
        if block = 0 then
          let extendsize := max asize chunksize
          (extend_heap h1 extendsize).bind (fun r =>
            if r.2 = 0 then some (r.1, 0)
            else (place r.1 r.2 asize).map (fun h3 => (h3, header_to_payload r.2)))
        else (place h1 block asize).map (fun h3 => (h3, header_to_payload block))))

/-- The function `free` of mm.c. -/
def free (h : Heap) (bp : Nat) : Option Heap :=
  if bp = 0 then some h
  else
    let block := payload_to_header bp
    let size := get_size h block
    let prev_alloc := get_prev_alloc h block
    let prev_sseg := get_prev_sseg h block
    let size := size ||| prev_alloc ||| prev_sseg
    let h1 := write_footer (write_header h block size false) block size false
    let h2 := h1.write (find_next h1 block)
      (h1.mem (find_next h1 block) &&& not64 prev_alloc_mask)
    (coalesce h2 block).map (·.1)

/-- The byte at address `a`: bytes are stored little-endian in the 8-byte words. -/
def load_byte (h : Heap) (a : Nat) : Nat :=
  (h.mem (a - a % 8) / 2 ^ (8 * (a % 8))) % 256

/-- Store the byte `v` at address `a`, leaving the other bytes of its word unchanged. -/
def store_byte (h : Heap) (a v : Nat) : Heap :=
  let w := h.mem (a - a % 8)
  let k := 8 * (a % 8)
  h.write (a - a % 8) (w % 2 ^ k + (v % 256) * 2 ^ k + (w / 2 ^ (k + 8)) * 2 ^ (k + 8))

/-- The library function `memcpy(dst, src, n)` on non-overlapping regions. -/
def memcpy (h : Heap) (dst src : Nat) : Nat → Heap
  | 0 => h
  | n + 1 =>
    let h1 := memcpy h dst src n
    store_byte h1 (dst + n) (load_byte h (src + n))

/-- The library function `memset(dst, c, n)`. -/
def memset (h : Heap) (dst c : Nat) : Nat → Heap
  | 0 => h
  | n + 1 => store_byte (memset h dst c n) (dst + n) c

/-- The function `realloc` of mm.c. -/
def realloc (h : Heap) (ptr size : Nat) : Option (Heap × Nat) :=
  let block := payload_to_header ptr
  if size = 0 then (free h ptr).map (fun h1 => (h1, 0))
  else if ptr = 0 then malloc h size
  else
    (malloc h size).bind (fun r =>
      if r.2 = 0 then some (r.1, 0)
      else
        let copysize := get_payload_size r.1 block
        let copysize := if size < copysize then size else copysize
        let h2 := memcpy r.1 r.2 ptr copysize
        (free h2 ptr).map (fun h3 => (h3, r.2)))

/-- The function `calloc` of mm.c. -/
def calloc (h : Heap) (elements size : Nat) : Option (Heap × Nat) :=
  let asize := (elements * size) % 2 ^ 64
  if elements = 0 then none
  else if asize / elements ≠ size then some (h, 0)
  else
    (malloc h asize).bind (fun r =>
      if r.2 = 0 then some (r.1, 0)
      else some (memset r.1 r.2 0 asize, r.2))

/-- The allocator before `mm_init`: an empty heap at `lo` whose globals are zero. -/
def fresh (lo max_addr : Nat) (mem : Nat → Nat) : Heap :=
  { mem := mem, heap_lo := lo, brk := lo, max_addr := max_addr, heap_start := 0,
    seg_list := fun _ => 0, small_seg_list := 0 }

/-- The blocks met walking from `block` by `find_next` until a header of size 0:
address, size and allocation bit of each. -/
def walk (h : Heap) : Nat → Nat → List (Nat × Nat × Bool)
  | 0, _ => []
  | fuel + 1, block =>
    if get_size h block = 0 then []
    else (block, get_size h block, get_alloc h block) :: walk h fuel (find_next h block)

/-- A block of the heap as the header word describes it: address of the header, size,
and the three flag bits `cur_alloc`, `prev_alloc`, `prev_sseg`. -/
structure Blk where
  addr : Nat
  size : Nat
  alloc : Bool
  pa : Bool
  ps : Bool
deriving DecidableEq, Repr

/-- The value of the three flag bits. -/
def flags (al pa ps : Bool) : Nat :=
  (if al then 1 else 0) + (if pa then 2 else 0) + (if ps then 4 else 0)

/-- The header word of a block. -/
def Blk.hdr (b : Blk) : Nat := b.size + flags b.alloc b.pa b.ps

/-- Two physically adjacent blocks: `b` is a real block, `c` starts where `b` ends, and
the flags of `c` are consistent with `b` whenever the code relies on them. -/
def Adj (b c : Blk) : Prop :=
  c.addr = b.addr + b.size ∧ 0 < b.size ∧ (c.pa = false → b.alloc = false) ∧
  (c.pa = false → b.size = 16 → c.ps = true) ∧ (c.ps = true → b.size = 16)

/-- The prologue word, seen as an allocated pseudo-block of 8 bytes at `heap_lo`. -/
def prologue (lo : Nat) : Blk := ⟨lo, 8, true, true, false⟩

/-- A singly linked list in memory (`next` field 8 bytes into each block). -/
def SList (m : Nat → Nat) (head : Nat) (xs : List Nat) : Prop :=
  head = xs.headD 0 ∧ (∀ x ∈ xs, x ≠ 0) ∧ List.Chain' (fun x y => m (x + 8) = y) xs ∧
  (∀ x ∈ xs.getLast?, m (x + 8) = 0)

/-- A doubly linked list in memory (`prev` field 16 bytes into each block). -/
def DList (m : Nat → Nat) (head : Nat) (xs : List Nat) : Prop :=
  SList m head xs ∧ List.Chain' (fun x y => m (y + 16) = x) xs ∧
  (∀ x ∈ xs.head?, m (x + 16) = 0)

/-- The free blocks of `bs` that are in a list: address `a`, size `z`, not in `us`. -/
def Listed (bs : List Blk) (us : List Nat) (a z : Nat) : Prop :=
  ∃ b ∈ bs, b.addr = a ∧ b.size = z ∧ b.alloc = false ∧ a ∉ us

/-- The layout of the heap: `bs` lists the blocks in address order from `lo + 8`, the
last one being the epilogue (the only block of size 0) at `brk - 8`. -/
structure Geo (lo brk max_addr : Nat) (bs : List Blk) : Prop where
  lo_align : lo % 16 = 0
  lo_pos : 0 < lo
  max_le : max_addr ≤ 2 ^ 64
  brk_le : brk ≤ max_addr
  chain : List.Chain' Adj (prologue lo :: bs)
  sizes : ∀ b ∈ bs, b.size % 16 = 0 ∧ (b.size = 0 → b.alloc = true ∧ b.addr + 8 = brk) ∧
    (b.size ≠ 0 → 16 ≤ b.size)
  epi : ∃ e ∈ bs, e.size = 0

/-- The header of every block and the footer of every free block larger than 16 bytes
are in memory. -/
structure MemOk (m : Nat → Nat) (bs : List Blk) : Prop where
  hdrs : ∀ b ∈ bs, m b.addr = b.hdr
  footers : ∀ b ∈ bs, b.alloc = false → 16 < b.size →
    extract_size (m (b.addr + b.size - 8)) = b.size

/-- The class lists and the small list are well-formed linked lists in memory. -/
structure ListsOk (m : Nat → Nat) (seg_list : Nat → Nat) (small_seg_list : Nat)
    (fl : Nat → List Nat) (sl : List Nat) : Prop where
  seg : ∀ k < 11, DList m (seg_list k) (fl k)
  small : SList m small_seg_list sl

/-- The lists hold exactly the free blocks that are not in `us`, each in the list of its
size, without repetition. -/
structure SpecOk (bs : List Blk) (us : List Nat) (fl : Nat → List Nat) (sl : List Nat) :
    Prop where
  seg_mem : ∀ k < 11, ∀ x, x ∈ fl k ↔
    ∃ z, Listed bs us x z ∧ 16 < z ∧ get_seg_list z = (k : Int)
  small_mem : ∀ x, x ∈ sl ↔ Listed bs us x 16
  seg_nodup : ∀ k < 11, (fl k).Nodup
  small_nodup : sl.Nodup

/-- The heap invariant. `bs` lists the blocks in address order, `fl k` and `sl` are the
contents of the class lists and of the small list. The blocks whose address is in `us`
are free but in no list; the free blocks whose address is in `ex` may have their
`prev_alloc` bit clear. Both are empty between calls. -/
structure Inv (h : Heap) (bs : List Blk) (fl : Nat → List Nat) (sl : List Nat)
    (us ex : List Nat) : Prop where
  geo : Geo h.heap_lo h.brk h.max_addr bs
  start : h.heap_start = h.heap_lo + 8
  memok : MemOk h.mem bs
  lists : ListsOk h.mem h.seg_list h.small_seg_list fl sl
  spec : SpecOk bs us fl sl
  free_pa : ∀ b ∈ bs, b.alloc = false → b.addr ∉ ex → b.pa = true

/-- `b` lies entirely below `c`, and `b` is not empty. -/
def Below (b c : Blk) : Prop := b.addr + b.size ≤ c.addr ∧ b.addr < c.addr

/-- The `prev` half of a doubly linked list, with the block `p` before the first one. -/
def PrevOk (m : Nat → Nat) : Nat → List Nat → Prop
  | _, [] => True
  | p, x :: xs => m (x + 16) = p ∧ PrevOk m x xs

/-- Two heaps with the same globals and region, differing at most in memory. -/
def SameGlobals (h h1 : Heap) : Prop :=
  h1.heap_lo = h.heap_lo ∧ h1.brk = h.brk ∧ h1.max_addr = h.max_addr ∧
  h1.heap_start = h.heap_start ∧ h1.seg_list = h.seg_list ∧
  h1.small_seg_list = h.small_seg_list

/-- An address that is neither a header nor a footer of the blocks `bs`. -/
def PtrSafe (bs : List Blk) (w : Nat) : Prop :=
  (∀ c ∈ bs, c.addr ≠ w) ∧
  (∀ c ∈ bs, c.alloc = false → 16 < c.size → c.addr + c.size - 8 ≠ w)

/-- Allocated blocks of `bs` other than those at the addresses `X` are allocated blocks
of `bs1`, with the same size. -/
def Keeps (X : List Nat) (bs bs1 : List Blk) : Prop :=
  ∀ c ∈ bs, c.alloc = true → c.size ≠ 0 → c.addr ∉ X →
    ∃ c1 ∈ bs1, c1.addr = c.addr ∧ c1.size = c.size ∧ c1.alloc = true

/-- A result of `find_fit`: `NULL` or a free block of at least `asize` bytes. -/
def Fit (bs : List Blk) (asize r : Nat) : Prop :=
  r = 0 ∨ ∃ b ∈ bs, b.addr = r ∧ b.alloc = false ∧ asize ≤ b.size

/-- The live pointers are payload pointers of allocated blocks. -/
def Live (bs : List Blk) (live : List Nat) : Prop :=
  ∀ p ∈ live, ∃ b ∈ bs, b.alloc = true ∧ b.size ≠ 0 ∧ p = b.addr + 8

/-- The live list after `malloc` returned `p`. -/
def live_malloc (live : List Nat) (p : Nat) : List Nat := if p = 0 then live else p :: live

/-- The live list after `free(p)`. -/
def live_free (live : List Nat) (p : Nat) : List Nat := live.filter (· ≠ p)

/-- The live list after `realloc(p, size)` returned `q`. -/
def live_realloc (live : List Nat) (p size q : Nat) : List Nat :=
  if size = 0 then live.filter (· ≠ p)
  else if q = 0 then live
  else q :: live.filter (· ≠ p)

/-- The blocks met following `find_next_free` from `block` until `NULL`, as the loops of
mm.c over a free list do. -/
def free_list (h : Heap) : Nat → Nat → List Nat
  | 0, _ => []
  | fuel + 1, block =>
    if block = 0 then [] else block :: free_list h fuel (find_next_free h block)

/-- The implicit list of the heap: the blocks from `heap_start` up to the epilogue. -/
def heap_blocks (h : Heap) : List (Nat × Nat × Bool) := walk h h.fuel h.heap_start

/-- The members of the class list `seg_list[k]`. -/
def class_list (h : Heap) (k : Nat) : List Nat := free_list h (h.fuel + 1) (h.seg_list k)

/-- The members of `small_seg_list`. -/
def small_list (h : Heap) : List Nat := free_list h (h.fuel + 1) h.small_seg_list

/-- States of the allocator reached from a successful `mm_init` on an empty, 16-byte
aligned heap region by valid calls, with the list of live payload pointers: `malloc` and
`realloc` of at most `2 ^ 64 - 24` bytes, `calloc` of at least one element whose total
size does not fall in the last 24 values of `size_t`, `free` and `realloc` of `NULL` or a
live pointer, and stores of the user into the payload of a live block. -/
inductive Reach : Heap → List Nat → Prop where
  | init {h0 h : Heap} : h0.brk = h0.heap_lo → h0.heap_lo % 16 = 0 → 0 < h0.heap_lo →
      h0.max_addr ≤ 2 ^ 64 → mm_init h0 = some (h, true) → Reach h []
  | malloc {h h1 : Heap} {live : List Nat} {n p : Nat} : Reach h live → n ≤ 2 ^ 64 - 24 →
      malloc h n = some (h1, p) → Reach h1 (live_malloc live p)
  | calloc {h h1 : Heap} {live : List Nat} {k n p : Nat} : Reach h live → 1 ≤ k →
      (k * n ≤ 2 ^ 64 - 24 ∨ 2 ^ 64 ≤ k * n) → calloc h k n = some (h1, p) →
      Reach h1 (live_malloc live p)
  | realloc {h h1 : Heap} {live : List Nat} {p n q : Nat} : Reach h live →
      (p = 0 ∨ p ∈ live) → n ≤ 2 ^ 64 - 24 → realloc h p n = some (h1, q) →
      Reach h1 (live_realloc live p n q)
  | free {h h1 : Heap} {live : List Nat} {p : Nat} : Reach h live → (p = 0 ∨ p ∈ live) →
      free h p = some h1 → Reach h1 (live_free live p)
  | store {h : Heap} {live : List Nat} {p a v : Nat} : Reach h live → p ∈ live → p ≤ a →
      a < p + get_payload_size h (payload_to_header p) → Reach (store_byte h a v) live

/-- An empty heap region of one megabyte at address 4096. -/
def sample0 : Heap := fresh 4096 (2 ^ 20) (fun _ => 0)

/-- The heap after `mm_init` on `sample0`. -/
def sample1 : Heap := ((mm_init sample0).getD (sample0, false)).1

/-- The heap and the pointer after `malloc(1)` on `sample1`. -/
def sample2 : Heap × Nat := (malloc sample1 1).getD (sample1, 0)

/-- The heap and the pointer after `malloc(24)` on `sample2`. -/
def sample3 : Heap × Nat := (malloc sample2.1 24).getD (sample2.1, 0)

/-- The loop `for (b = heap_start; get_size(b) > 0; b = find_next(b))` of `mm_checkheap`
that looks for `block` among the blocks of the heap: the value of the flag it sets. -/
def exists_in_heap (h : Heap) (block : Nat) : Nat → Nat → Option Bool
  | 0, _ => none
  | fuel + 1, b =>
    if get_size h b > 0 then
      if b = block then some true else exists_in_heap h block fuel (find_next h b)
    else some false

/-- The loop of `mm_checkheap` over one free list (tests 1-4 for a class list, 5-8 for
`small_seg_list`): `some false` is `return false`, `some true` is the end of the loop.
A block missing from the heap is only reported, not returned. -/
def check_free_list (h : Heap) : Nat → Nat → Option Bool
  | 0, _ => none
  | fuel + 1, block =>
    if block = 0 then some true
    else if get_alloc h block then some false
    else if block < h.heap_lo ∨ block > mem_heap_hi h then some false
    else if get_size h block % 16 ≠ 0 ∨ get_size h block < 16 then some false
    else
      (exists_in_heap h block (h.fuel + 1) h.heap_start).bind (fun _ =>
        check_free_list h fuel (find_next_free h block))

/-- The loop of `mm_checkheap` over the class lists `index, index + 1, ...`. -/
def check_seg_lists (h : Heap) : Nat → Nat → Option Bool
  | 0, _ => some true
  | count + 1, index =>
    if index < seg_list_size then
      (check_free_list h (h.fuel + 1) (h.seg_list index)).bind (fun ok =>
        if ok then check_seg_lists h count (index + 1) else some false)
    else some true

/-- The loop `for (b = ...; b != NULL; b = find_next_free(b)) if (b == block) break`
of test 11: whether `block` is met. -/
def list_has (h : Heap) (block : Nat) : Nat → Nat → Option Bool
  | 0, _ => none
  | fuel + 1, b =>
    if b = 0 then some false
    else if b = block then some true
    else list_has h block fuel (find_next_free h b)

/-- The loop of test 11 over all class lists: the flag `free_list_is_complete` after
the lists `index, index + 1, ...` were searched, starting from the value `flag`. -/
def seg_lists_have (h : Heap) (block : Nat) : Nat → Nat → Bool → Option Bool
  | 0, _, flag => some flag
  | count + 1, index, flag =>
    if index < seg_list_size then
      (list_has h block (h.fuel + 1) (h.seg_list index)).bind (fun found =>
        seg_lists_have h block count (index + 1) (flag || found))
    else some flag

/-- The last loop of `mm_checkheap`, over the blocks of the heap (tests 9-12);
`complete` is the variable `free_list_is_complete`, which is never reset. -/
def check_blocks (h : Heap) : Nat → Nat → Bool → Option Bool
  | 0, _, _ => none
  | fuel + 1, block, complete =>
    if get_size h block > 0 then
      if block < h.heap_lo ∨ block > mem_heap_hi h then some false
      else if get_size h block % 16 ≠ 0 ∨ get_size h block < 16 then some false
      else if !get_alloc h block then
        if get_prev_alloc h block = 0 ∨ !get_alloc h (find_next h block) then some false
        else
          (seg_lists_have h block 11 0 complete).bind (fun c1 =>
            (if c1 = false then
                (list_has h block (h.fuel + 1) h.small_seg_list).map (fun f => c1 || f)
              else some c1).bind (fun c2 =>
              if c2 = false then some false
              else check_blocks h fuel (find_next h block) c2))
      else if block + get_size h block > find_next h block then some false
      else check_blocks h fuel (find_next h block) complete
    else some true

/-- The function `mm_checkheap` of mm.c. -/
def mm_checkheap (h : Heap) : Option Bool :=
  (check_seg_lists h 11 0).bind (fun ok1 =>
    if ok1 = false then some false
    else
      (check_free_list h (h.fuel + 1) h.small_seg_list).bind (fun ok2 =>
        if ok2 = false then some false
        else check_blocks h (h.fuel + 1) h.heap_start false))

/-- The heap after `mm_init` on an empty region at 4096 that has room for the first
chunk only (`max_addr = 4096 + 16 + 4096`). -/
def sample_full : Heap := ((mm_init (fresh 4096 8208 (fun _ => 0))).getD (sample0, false)).1

/-- The word at `w` lies in the payload of an allocated block of `bs` whose address is
not in `X`. -/
def Prot (X : List Nat) (bs : List Blk) (w : Nat) : Prop :=
  ∃ c ∈ bs, c.alloc = true ∧ c.addr ∉ X ∧ c.addr + 8 ≤ w ∧ w < c.addr + c.size

/-- The memories `m` and `m1` hold the same words in the payload of every allocated block
of `bs` whose address is not in `X`. -/
def PFrame (X : List Nat) (bs : List Blk) (m m1 : Nat → Nat) : Prop :=
  ∀ w, Prot X bs w → m1 w = m w

/-- The heap and the pointer after `malloc(10)` on `sample1`. -/
def sample4 : Heap × Nat := (malloc sample1 10).getD (sample1, 0)

/-- The heap `sample4` after the block was filled with the byte `0xAB`. -/
def sample5 : Heap := memset sample4.1 sample4.2 0xAB 10

/-- Well-formed free lists: `fl k` and `sl` are the members of the class lists and of the
small list, each a null-terminated list in memory without repetition whose members are
blocks of the heap region; a class list holds only free blocks whose size maps to that
class, the small list only free blocks of 16 bytes. -/
structure ListsWf (h : Heap) (fl : Nat → List Nat) (sl : List Nat) : Prop where
  seg : ∀ k < 11, SList h.mem (h.seg_list k) (fl k)
  small : SList h.mem h.small_seg_list sl
  seg_class : ∀ k < 11, ∀ x ∈ fl k,
    get_alloc h x = false ∧ 16 < get_size h x ∧ get_seg_list (get_size h x) = (k : Int)
  small_class : ∀ x ∈ sl, get_alloc h x = false ∧ get_size h x = 16
  seg_nodup : ∀ k < 11, (fl k).Nodup
  small_nodup : sl.Nodup
  seg_heap : ∀ k < 11, ∀ x ∈ fl k, h.heap_lo ≤ x ∧ x < h.brk
  small_heap : ∀ x ∈ sl, h.heap_lo ≤ x ∧ x < h.brk

/-- The block `x` is a member of one of the free lists. -/
def InLists (fl : Nat → List Nat) (sl : List Nat) (x : Nat) : Prop :=
  x ∈ sl ∨ ∃ k, k < 11 ∧ x ∈ fl k

/-- The address at which the walk over the heap from `block` stops: the first header of
size 0 (`none` when the fuel runs out before). -/
def walk_end (h : Heap) : Nat → Nat → Option Nat
  | 0, _ => none
  | fuel + 1, block =>
    if get_size h block = 0 then some block else walk_end h fuel (find_next h block)

/-- The heap after `mm_init`, `a = malloc(104)`, `malloc(1)`, `b = malloc(72)`,
`malloc(1)`, `c = malloc(120)`, `malloc(1)`, `free(a)`, `free(b)`, `free(c)` on `sample0`:
three free blocks of 112, 80 and 128 bytes separated by allocated blocks. -/
def sample_fit : Option Heap :=
  (mm_init sample0).bind (fun r =>
    (malloc r.1 104).bind (fun a => (malloc a.1 1).bind (fun s1 =>
    (malloc s1.1 72).bind (fun b => (malloc b.1 1).bind (fun s2 =>
    (malloc s2.1 120).bind (fun c => (malloc c.1 1).bind (fun s3 =>
    (free s3.1 a.2).bind (fun h1 => (free h1 b.2).bind (fun h2 => free h2 c.2)))))))))

/-- The heap after `mm_init`, `p = malloc(5000)`, `free(p)` and `malloc(4072)` on
`sample0`. -/
def sample_footer : Option Heap :=
  (mm_init sample0).bind (fun r =>
    (malloc r.1 5000).bind (fun m => (free m.1 m.2).bind (fun h =>
      (malloc h 4072).map (fun r => r.1))))

/-- The first half of `free`: the heap just before the call of `coalesce`, with the
header and the footer of `block` rewritten and the `prev_alloc` bit of the next block
cleared. -/
def free_mark (h : Heap) (block : Nat) : Heap :=
  let size := get_size h block ||| get_prev_alloc h block ||| get_prev_sseg h block
  let h1 := write_footer (write_header h block size false) block size false
  h1.write (find_next h1 block) (h1.mem (find_next h1 block) &&& not64 prev_alloc_mask)

/-- The heap after `mm_init`, `a = malloc(40)`, `malloc(1)` and `free(a)` on `sample0`, with
`seg_list[7]` then set to `NULL`: the free block at 4168 is left in no list. -/
def sample_unlisted : Option Heap :=
  (mm_init sample0).bind (fun r => (malloc r.1 40).bind (fun a => (malloc a.1 1).bind (fun b =>
    (free b.1 a.2).map (fun h =>
      { h with seg_list := fun k => if k = 7 then 0 else h.seg_list k }))))

/-- Size classes following the spec's words: the ranges `(16,32]`, `(32,64]`, ...,
`(2048,4098]`, `(4098,8192]`, `(8192,16384]`, `(16384,inf)` as pairs of an exclusive lower
bound and an inclusive upper bound (`none` for no upper bound). -/
def seg_ranges : List (Nat × Option Nat) :=
  [(16, some 32), (32, some 64), (64, some 128), (128, some 256), (256, some 512),
    (512, some 1024), (1024, some 2048), (2048, some 4098), (4098, some 8192),
    (8192, some 16384), (16384, none)]

/-- The range `r` contains `size`. -/
def in_seg_range (r : Nat × Option Nat) (size : Nat) : Prop :=
  r.1 < size ∧ ∀ hi, r.2 = some hi → size ≤ hi

/-- Power-of-two classification following the claim's words: the class of `get_seg_list`
with the boundary 4096 in place of 4098. -/
def seg_class_4096 (size : Nat) : Int :=
  if size > 16 ∧ size ≤ 32 then 0
  else if size > 32 ∧ size ≤ 64 then 1
  else if size > 64 ∧ size ≤ 128 then 2
  else if size > 128 ∧ size ≤ 256 then 3
  else if size > 256 ∧ size ≤ 512 then 4
  else if size > 512 ∧ size ≤ 1024 then 5
  else if size > 1024 ∧ size ≤ 2048 then 6
  else if size > 2048 ∧ size ≤ 4096 then 7
  else if size > 4096 ∧ size ≤ 8192 then 8
  else if size > 8192 ∧ size ≤ 16384 then 9
  else if size > 16384 then 10
  else -1

end Mm

namespace Trans

/-!
# The transpose functions of trans.c

* The arrays `A` (`N` rows of `M` ints) and `B` (`M` rows of `N` ints) are maps from two
  mathematical integers to an `int` value; `A i j` stands for `A[i][j]`. An access with
  an index outside the array has no defined result (`none`). An index expression such as
  `jj + 7` is computed in the integers: if the `int` addition overflowed, the index
  would be outside the array as well.
* The `int` additions of the loop headers (`ii + 16 < N`, `ii += 16`, `i++`, ...) are
  checked: signed overflow has no defined result (`none`).
* A loop takes fuel; the functions pass `2 ^ 32`, more than the number of values of an
  `int` counter that grows at every iteration.
-/

/-- The arrays `A` and `B` of a transpose function. -/
structure Arrays where
  A : Int → Int → Int
  B : Int → Int → Int

/-- Addition of two `int` values; `none` on signed overflow. -/
def iadd (a b : Int) : Option Int :=
  if -2147483648 ≤ a + b ∧ a + b ≤ 2147483647 then some (a + b) else none

/-- The load `A[i][j]` for `int A[N][M]`. -/
def getA (M N : Int) (s : Arrays) (i j : Int) : Option Int :=
  if 0 ≤ i ∧ i < N ∧ 0 ≤ j ∧ j < M then some (s.A i j) else none

/-- The load `B[j][i]` for `int B[M][N]`. -/
def getB (M N : Int) (s : Arrays) (j i : Int) : Option Int :=
  if 0 ≤ j ∧ j < M ∧ 0 ≤ i ∧ i < N then some (s.B j i) else none

/-- The store `B[j][i] = v` for `int B[M][N]`. -/
def setB (M N : Int) (s : Arrays) (j i v : Int) : Option Arrays :=
  if 0 ≤ j ∧ j < M ∧ 0 ≤ i ∧ i < N then
    some { s with B := fun j1 i1 => if j1 = j ∧ i1 = i then v else s.B j1 i1 }
  else none

/-- The fuel given to every loop. -/
def loop_fuel : Nat := 2 ^ 32

/-- The loop `for (...; cond(i); i += inc) body(i)` started with the counter at `i`: the
result is the final value of the counter and the final state. -/
def for_loop {σ : Type} (cond : Int → Option Bool) (inc : Int) (body : Int → σ → Option σ) :
    Nat → Int → σ → Option (Int × σ)
  | 0, _, _ => none
  | fuel + 1, i, s =>
    (cond i).bind (fun c =>
      if c then
        (body i s).bind (fun s1 =>
          (iadd i inc).bind (fun i1 => for_loop cond inc body fuel i1 s1))
      else some (i, s))

/-- The locals `val0`, ..., `val7` of the transpose functions. -/
structure Vals where
  val0 : Int
  val1 : Int
  val2 : Int
  val3 : Int
  val4 : Int
  val5 : Int
  val6 : Int
  val7 : Int

/-- The eight loads `val0 = A[i][jj]`, ..., `val7 = A[i][jj + 7]`. -/
def load_row (M N : Int) (s : Arrays) (i jj : Int) : Option Vals :=
  (getA M N s i jj).bind (fun val0 =>
  (getA M N s i (jj + 1)).bind (fun val1 =>
  (getA M N s i (jj + 2)).bind (fun val2 =>
  (getA M N s i (jj + 3)).bind (fun val3 =>
  (getA M N s i (jj + 4)).bind (fun val4 =>
  (getA M N s i (jj + 5)).bind (fun val5 =>
  (getA M N s i (jj + 6)).bind (fun val6 =>
  (getA M N s i (jj + 7)).bind (fun val7 =>
    some ⟨val0, val1, val2, val3, val4, val5, val6, val7⟩))))))))

/-- The eight stores `B[jj][i] = val0`, ..., `B[jj + 7][i] = val7`. -/
def store_col (M N : Int) (s : Arrays) (jj i : Int) (v : Vals) : Option Arrays :=
  (setB M N s jj i v.val0).bind (fun s =>
  (setB M N s (jj + 1) i v.val1).bind (fun s =>
  (setB M N s (jj + 2) i v.val2).bind (fun s =>
  (setB M N s (jj + 3) i v.val3).bind (fun s =>
  (setB M N s (jj + 4) i v.val4).bind (fun s =>
  (setB M N s (jj + 5) i v.val5).bind (fun s =>
  (setB M N s (jj + 6) i v.val6).bind (fun s =>
  setB M N s (jj + 7) i v.val7)))))))

/-- The eight loads of row `i` of `A` from column `jj` on, followed by the eight stores
into column `i` of `B` from row `jj` on. -/
def row8 (M N : Int) (s : Arrays) (i jj : Int) : Option Arrays :=
  (load_row M N s i jj).bind (fun v => store_col M N s jj i v)

/-- The function `trans_32_32` of trans.c. -/
def trans_32_32 (M N : Int) (s : Arrays) : Option Arrays :=
  (for_loop (fun jj => some (decide (jj < 32))) 8
    (fun jj s =>
      (for_loop (fun ii => some (decide (ii < 32))) 8
        (fun ii s =>
          (for_loop (fun i => (iadd ii 8).map (fun t => decide (i < t))) 1
            (fun i s => row8 M N s i jj) loop_fuel ii s).map (fun r => r.2))
        loop_fuel 0 s).map (fun r => r.2))
    loop_fuel 0 s).map (fun r => r.2)

/-- The eight stores of the first inner loop of `trans_64_64`. -/
def store1_64 (M N : Int) (s : Arrays) (ii jj i : Int) (v : Vals) : Option Arrays :=
  (setB M N s (jj + 0) (ii + i) v.val0).bind (fun s =>
  (setB M N s (jj + 1) (ii + i) v.val1).bind (fun s =>
  (setB M N s (jj + 2) (ii + i) v.val2).bind (fun s =>
  (setB M N s (jj + 3) (ii + i) v.val3).bind (fun s =>
  (setB M N s (jj + 0) (ii + 4 + i) v.val4).bind (fun s =>
  (setB M N s (jj + 1) (ii + 4 + i) v.val5).bind (fun s =>
  (setB M N s (jj + 2) (ii + 4 + i) v.val6).bind (fun s =>
  setB M N s (jj + 3) (ii + 4 + i) v.val7)))))))

/-- The first inner loop body of `trans_64_64`: row `ii + i` of the block of `A` goes to
the columns `ii + i` and `ii + 4 + i` of the first four rows of the block of `B`. -/
def step1_64 (M N : Int) (ii jj i : Int) (s : Arrays) : Option Arrays :=
  (load_row M N s (ii + i) jj).bind (fun v => store1_64 M N s ii jj i v)

/-- The eight loads of the second inner loop of `trans_64_64`: four from `B`, four from
`A`. -/
def load2_64 (M N : Int) (s : Arrays) (ii jj i : Int) : Option Vals :=
  (getB M N s (jj + i) (ii + 4)).bind (fun val0 =>
  (getB M N s (jj + i) (ii + 5)).bind (fun val1 =>
  (getB M N s (jj + i) (ii + 6)).bind (fun val2 =>
  (getB M N s (jj + i) (ii + 7)).bind (fun val3 =>
  (getA M N s (ii + 4) (jj + i)).bind (fun val4 =>
  (getA M N s (ii + 5) (jj + i)).bind (fun val5 =>
  (getA M N s (ii + 6) (jj + i)).bind (fun val6 =>
  (getA M N s (ii + 7) (jj + i)).bind (fun val7 =>
    some ⟨val0, val1, val2, val3, val4, val5, val6, val7⟩))))))))

/-- The eight stores of the second inner loop of `trans_64_64`. -/
def store2_64 (M N : Int) (s : Arrays) (ii jj i : Int) (v : Vals) : Option Arrays :=
  (setB M N s (jj + i) (ii + 4) v.val4).bind (fun s =>
  (setB M N s (jj + i) (ii + 5) v.val5).bind (fun s =>
  (setB M N s (jj + i) (ii + 6) v.val6).bind (fun s =>
  (setB M N s (jj + i) (ii + 7) v.val7).bind (fun s =>
  (setB M N s (jj + 4 + i) ii v.val0).bind (fun s =>
  (setB M N s (jj + 4 + i) (ii + 1) v.val1).bind (fun s =>
  (setB M N s (jj + 4 + i) (ii + 2) v.val2).bind (fun s =>
  setB M N s (jj + 4 + i) (ii + 3) v.val3)))))))

/-- The second inner loop body of `trans_64_64`. -/
def step2_64 (M N : Int) (ii jj i : Int) (s : Arrays) : Option Arrays :=
  (load2_64 M N s ii jj i).bind (fun v => store2_64 M N s ii jj i v)

/-- The statement `B[j][i] = A[i][j]`. -/
def copy (M N : Int) (i j : Int) (s : Arrays) : Option Arrays :=
  (getA M N s i j).bind (fun v => setB M N s j i v)

/-- The function `trans_64_64` of trans.c. -/
def trans_64_64 (M N : Int) (s : Arrays) : Option Arrays :=
  (for_loop (fun ii => some (decide (ii < N))) 8
    (fun ii s =>
      (for_loop (fun jj => some (decide (jj < M))) 8
        (fun jj s =>
          (for_loop (fun i => some (decide (i < 4))) 1 (step1_64 M N ii jj) loop_fuel 0 s).bind
            (fun r1 =>
          (for_loop (fun i => some (decide (i < 4))) 1 (step2_64 M N ii jj) loop_fuel 0
            r1.2).bind (fun r2 =>
          (for_loop (fun i => some (decide (i < 8))) 1
            (fun i s =>
              (for_loop (fun j => some (decide (j < 8))) 1
                (fun j s => copy M N (ii + i) (jj + j) s) loop_fuel 4 s).map (fun r => r.2))
            loop_fuel 4 r2.2).map (fun r => r.2))))
        loop_fuel 0 s).map (fun r => r.2))
    loop_fuel 0 s).map (fun r => r.2)

/-- The function `trans_61_67` of trans.c. The local `jj` is not initialised before the
first loop nest; it is `none` until the inner loop header assigns it. -/
def trans_61_67 (M N : Int) (s : Arrays) : Option Arrays :=
  (for_loop (fun ii => (iadd ii 16).map (fun t => decide (t < N))) 16
    (fun ii (st : Arrays × Option Int) =>
      (for_loop (fun jj => (iadd jj 16).map (fun t => decide (t < M))) 16
        (fun jj s =>
          (for_loop (fun i => (iadd ii 16).map (fun t => decide (i < t))) 1
            (fun i s => (row8 M N s i jj).bind (fun s1 => row8 M N s1 i (jj + 8)))
            loop_fuel ii s).map (fun r => r.2))
        loop_fuel 0 st.1).map (fun r => (r.2, some r.1)))
    loop_fuel 0 (s, none)).bind (fun r =>
  (for_loop (fun i => some (decide (i < N))) 1
    (fun i s =>
      (for_loop (fun j => some (decide (j < M))) 1 (fun j s => copy M N i j s)
        loop_fuel 0 s).map (fun r => r.2))
    loop_fuel r.1 r.2.1).bind (fun r2 =>
  (for_loop (fun i => some (decide (i < r.1))) 1
    (fun i s =>
      r.2.2.bind (fun jj =>
        (for_loop (fun j => some (decide (j < M))) 1 (fun j s => copy M N i j s)
          loop_fuel jj s).map (fun r => r.2)))
    loop_fuel 0 r2.2).map (fun r => r.2)))

/-- The function `transpose_submit` of trans.c. -/
def transpose_submit (M N : Int) (s : Arrays) : Option Arrays :=
  if M = 32 ∧ N = 32 then trans_32_32 M N s
  else if M = 64 ∧ N = 64 then trans_64_64 M N s
  else trans_61_67 M N s

/-- The inner loop of `is_transpose` over `j`: the result `some false` is `return 0`, and
`some true` is the normal exit of the loop. -/
def is_transpose_row (M N : Int) (s : Arrays) (i : Int) : Nat → Int → Option Bool
  | 0, _ => none
  | fuel + 1, j =>
    if j < M then
      (getA M N s i j).bind (fun a =>
        (getB M N s j i).bind (fun b =>
          if a ≠ b then some false
          else (iadd j 1).bind (fun j1 => is_transpose_row M N s i fuel j1)))
    else some true

/-- The outer loop of `is_transpose` over `i`. -/
def is_transpose_rows (M N : Int) (s : Arrays) : Nat → Int → Option Int
  | 0, _ => none
  | fuel + 1, i =>
    if i < N then
      (is_transpose_row M N s i loop_fuel 0).bind (fun ok =>
        if ok then (iadd i 1).bind (fun i1 => is_transpose_rows M N s fuel i1) else some 0)
    else some 1

/-- The function `is_transpose` of trans.c. -/
def is_transpose (M N : Int) (s : Arrays) : Option Int := is_transpose_rows M N s loop_fuel 0

/-- The array `B` agrees with the transpose of `A0` on the cells `D`, and `A` is `A0`. -/
def Agree (A0 : Int → Int → Int) (D : Int → Int → Prop) (s : Arrays) : Prop :=
  s.A = A0 ∧ ∀ i j, D i j → s.B j i = A0 i j

/-- The array of the examples: `A[i][j] = 61 * i + j`, and `B` full of zeros. -/
def sample_arrays : Arrays := ⟨fun i j => 61 * i + j, fun _ _ => 0⟩

end Trans

namespace Csim32

/-!
# Cache simulator with the `int` arithmetic of csim.c

The definitions of `Csim` compute the counters, the stamps, the set index and the powers
of two in the integers. The definitions of this namespace are the same functions with
every `int` operation of the source made explicit:

* `S = (1 << s)` and `1 << b` are `int` shifts of 1, defined for a count of at most 30;
* `hits_count++`, `stamp++`, `dirty_active_bytes_count += (1 << b)` and the like are
  defined when the result is between `INT_MIN` and `INT_MAX`; signed overflow has no
  defined result (`none`);
* `address_set_index` is an `int`: the 64-bit value is converted as the tag is (the low
  32 bits), and a negative index is outside the array.

When every operation is defined, the result is that of the function of `Csim`.
-/

/-- The `int` variable `address_set_index` of `update`: the value of the 64-bit
expression, converted to `int`; `none` when the `int` is negative. -/
def address_set_index (cfg : Csim.Config) (address : Nat) : Option Nat :=
  (Csim.address_set_index cfg address).bind (fun v =>
    if 0 ≤ Csim.toInt32 v then some (Csim.toInt32 v).toNat else none)

/-- The hit branch of `update` (lines 51-81). Its `int` operations: `1 << b` and
`dirty_active_bytes_count += ...` when a clean line is written, `double_ref_count++` on
a double reference, `hits_count++`. -/
def update_hit (cfg : Csim.Config) (st : Csim.State) (idx : Nat) (set : List Csim.cache_line)
    (i : Nat) (ln : Csim.cache_line) (is_write : Bool) : Option Csim.State :=
  let was_clean : Bool := is_write && (ln.dirty_bit == 0)
  let ln1 : Csim.cache_line := if was_clean then { ln with dirty_bit := 1 } else ln
  let min_stamp_id := (Csim.scan_min (set.set i ln1) 0 (Csim.INT_MAX, -1)).2
  if (was_clean = true →
        cfg.b ≤ 30 ∧ st.dirty_active_bytes_count + 2 ^ cfg.b ≤ Csim.INT_MAX) ∧
      ((i : Int) = min_stamp_id → st.double_ref_count + 1 ≤ Csim.INT_MAX) ∧
      st.hits_count + 1 ≤ Csim.INT_MAX then
    some (Csim.update_hit cfg st idx set i ln is_write)
  else none

/-- The cold-miss branch of `update` (lines 87-105). Its `int` operations: `1 << b` and
`dirty_active_bytes_count += ...` on a write, `miss_count++`. -/
def update_cold (cfg : Csim.Config) (st : Csim.State) (idx : Nat) (set : List Csim.cache_line)
    (i : Nat) (ln : Csim.cache_line) (address_tag : Int) (is_write : Bool) :
    Option Csim.State :=
  if (is_write = true →
        cfg.b ≤ 30 ∧ st.dirty_active_bytes_count + 2 ^ cfg.b ≤ Csim.INT_MAX) ∧
      st.miss_count + 1 ≤ Csim.INT_MAX then
    some (Csim.update_cold cfg st idx set i ln address_tag is_write)
  else none

/-- The eviction branch of `update` (lines 110-147). Its `int` operations:
`eviction_count++` and `miss_count++`, then, for the line `ln` at `max_stamp_id`,
`1 << b` with `dirty_eviction_bytes_count += ...` when `ln` is dirty, with
`dirty_active_bytes_count -= ...` when `ln` is dirty and the access is a read, and with
`dirty_active_bytes_count += ...` when `ln` is clean and the access is a write. -/
def update_evict (cfg : Csim.Config) (st : Csim.State) (idx : Nat)
    (set : List Csim.cache_line) (address_tag : Int) (is_write : Bool) : Option Csim.State :=
  let max_stamp_id := (Csim.scan_max set 0 (Csim.INT_MIN, -1)).2
  if st.eviction_count + 1 ≤ Csim.INT_MAX ∧ st.miss_count + 1 ≤ Csim.INT_MAX then
    if max_stamp_id < 0 then none
    else
      match set[max_stamp_id.toNat]? with
      | none => none
      | some ln =>
        if (ln.dirty_bit = 1 →
              cfg.b ≤ 30 ∧ st.dirty_eviction_bytes_count + 2 ^ cfg.b ≤ Csim.INT_MAX ∧
              (is_write = false →
                Csim.INT_MIN ≤ st.dirty_active_bytes_count - 2 ^ cfg.b)) ∧
            (ln.dirty_bit ≠ 1 → is_write = true →
              cfg.b ≤ 30 ∧ st.dirty_active_bytes_count + 2 ^ cfg.b ≤ Csim.INT_MAX) then
          Csim.update_evict cfg st idx set address_tag is_write
        else none
  else none

/-- The function `update(address, is_write)` of csim.c with `int` arithmetic. -/
def update (cfg : Csim.Config) (st : Csim.State) (address : Nat) (is_write : Bool) :
    Option Csim.State :=
  match Csim32.address_set_index cfg address, Csim.address_tag cfg address with
  | some idx, some atag =>
    match st.cache[idx]? with
    | none => none
    | some set =>
      match Csim.first_index (fun l => l.tag == atag) set with
      | some i =>
        match set[i]? with
        | some ln => Csim32.update_hit cfg st idx set i ln is_write
        | none => none
      | none =>
        match Csim.first_index (fun l => l.valid_bit == 0) set with
        | some i =>
          match set[i]? with
          | some ln => Csim32.update_cold cfg st idx set i ln atag is_write
          | none => none
        | none => Csim32.update_evict cfg st idx set atag is_write
  | _, _ => none

/-- The function `update_timestamp` of csim.c with `int` stamps: `stamp++` on a valid line
whose stamp is `INT_MAX` is a signed overflow. -/
def update_timestamp (st : Csim.State) : Option Csim.State :=
  if ∀ set ∈ st.cache, ∀ l ∈ set, l.valid_bit = 1 → l.stamp + 1 ≤ Csim.INT_MAX then
    some (Csim.update_timestamp st)
  else none

/-- One iteration of the `while` loop of `main` (lines 243-260) with `int` arithmetic. -/
def step (cfg : Csim.Config) (st : Csim.State) (r : Csim.Record) : Option Csim.State :=
  (match r.type with
    | Csim.RecType.I => some st
    | Csim.RecType.L => Csim32.update cfg st r.address false
    | Csim.RecType.M =>
      (Csim32.update cfg st r.address false).bind (fun st1 =>
        Csim32.update cfg st1 r.address true)
    | Csim.RecType.S => Csim32.update cfg st r.address true
    | Csim.RecType.X => some st).bind Csim32.update_timestamp

/-- The `while` loop of `main` over a whole trace with `int` arithmetic. -/
def run (cfg : Csim.Config) : Csim.State → List Csim.Record → Option Csim.State
  | st, [] => some st
  | st, r :: rs => (Csim32.step cfg st r).bind (fun st1 => run cfg st1 rs)

/-- The cache and counters as `main` sets them up (lines 187, 223-235): `S = (1 << s)` is
an `int` shift, defined for `s ≤ 30`. -/
def init (cfg : Csim.Config) : Option Csim.State :=
  if cfg.s ≤ 30 then some (Csim.init cfg) else none

/-- The counters after at most `a` calls of `update`: hits, misses, evictions and double
references are within `0 .. a`, the dirty bytes evicted within `0 .. 2^b * a` and the
dirty bytes active within `-2^b * a .. 2^b * a`. -/
def Bounded (cfg : Csim.Config) (a : Int) (st : Csim.State) : Prop :=
  (0 ≤ st.hits_count ∧ st.hits_count ≤ a) ∧ (0 ≤ st.miss_count ∧ st.miss_count ≤ a) ∧
  (0 ≤ st.eviction_count ∧ st.eviction_count ≤ a) ∧
  (0 ≤ st.double_ref_count ∧ st.double_ref_count ≤ a) ∧
  (0 ≤ st.dirty_eviction_bytes_count ∧ st.dirty_eviction_bytes_count ≤ 2 ^ cfg.b * a) ∧
  (-(2 ^ cfg.b * a) ≤ st.dirty_active_bytes_count ∧
    st.dirty_active_bytes_count ≤ 2 ^ cfg.b * a)

/-- The state of the `s = 1, E = 2, b = 0` simulator after `L 0` and `k - 1` further
records that do not touch the cache. -/
def idle_state2 (k : Int) : Csim.State :=
  { cache := [[⟨1, 0, 0, k⟩, ⟨0, 0, -1, -1⟩], [⟨0, 0, -1, -1⟩, ⟨0, 0, -1, -1⟩]]
    hits_count := 0, miss_count := 1, eviction_count := 0
    dirty_eviction_bytes_count := 0, dirty_active_bytes_count := 0, double_ref_count := 0 }

/-- The state of the `s = 1, E = 1, b = 0` simulator after a run of `M 0` records that
has counted `h` hits. -/
def modify_state (h : Int) : Csim.State :=
  { cache := [[⟨1, 1, 0, 1⟩], [⟨0, 0, -1, -1⟩]]
    hits_count := h, miss_count := 1, eviction_count := 0
    dirty_eviction_bytes_count := 0, dirty_active_bytes_count := 1, double_ref_count := h }

/-- The state that `idle_state2` becomes on a machine whose `stamp++` wraps around at
`INT_MAX`: line 0 of set 0 has the stamp `INT_MIN`. -/
def wrapped_state2 : Csim.State := idle_state2 Csim.INT_MIN

end Csim32


namespace Csim

/-! ## Basic facts about the scans -/

theorem first_index_some {p : cache_line → Bool} :
    ∀ {ls : List cache_line} {i : Nat}, first_index p ls = some i →
      ∃ ln, ls[i]? = some ln ∧ p ln = true
  | [], i, h => by simp [first_index] at h
  | l :: ls, i, h => by
    unfold first_index at h
    by_cases hp : p l = true
    · simp [hp] at h
      subst h
      exact ⟨l, by simp, hp⟩
    · simp [hp] at h
      obtain ⟨k, hk, rfl⟩ := h
      obtain ⟨ln, h1, h2⟩ := first_index_some hk
      exact ⟨ln, by simpa using h1, h2⟩

theorem first_index_none {p : cache_line → Bool} :
    ∀ {ls : List cache_line}, first_index p ls = none → ∀ l ∈ ls, p l = false
  | [], _, l, hl => by simp at hl
  | x :: ls, h, l, hl => by
    unfold first_index at h
    by_cases hp : p x = true
    · simp [hp] at h
    · simp [hp] at h
      rcases List.mem_cons.1 hl with rfl | hl
      · simpa using hp
      · exact first_index_none h l hl

theorem scan_max_range :
    ∀ (ls : List cache_line) (j : Nat) (acc : Int × Int),
      (scan_max ls j acc = acc ∧ ∀ l ∈ ls, ¬ (l.stamp > acc.1 ∧ l.stamp ≠ -1)) ∨
      ((j : Int) ≤ (scan_max ls j acc).2 ∧ (scan_max ls j acc).2 < (j : Int) + ls.length)
  | [], j, acc => by left; simp [scan_max]
  | l :: ls, j, acc => by
    unfold scan_max
    by_cases hc : l.stamp > acc.1 ∧ l.stamp ≠ -1
    · rw [if_pos hc]
      right
      rcases scan_max_range ls (j + 1) (l.stamp, (j : Int)) with ⟨h, _⟩ | ⟨h1, h2⟩
      · rw [h]; simp
      · simp only [List.length_cons]; push_cast at h1 h2 ⊢; omega
    · rw [if_neg hc]
      rcases scan_max_range ls (j + 1) acc with ⟨h, h'⟩ | ⟨h1, h2⟩
      · left
        refine ⟨h, ?_⟩
        intro x hx
        rcases List.mem_cons.1 hx with rfl | hx
        · exact hc
        · exact h' x hx
      · right; simp only [List.length_cons]; push_cast at h1 h2 ⊢; omega

/-! ## Shape invariant of the cache -/

theorem shape_init (cfg : Config) : Shape cfg (init cfg) := by
  refine ⟨by simp [init], ?_⟩
  intro set hset
  simp only [init, List.mem_replicate] at hset
  obtain ⟨_, rfl⟩ := hset
  refine ⟨by simp, ?_⟩
  intro l hl
  simp only [List.mem_replicate] at hl
  obtain ⟨_, rfl⟩ := hl
  simp

theorem shape_tick {cfg : Config} {st : State} (h : Shape cfg st) :
    Shape cfg (update_timestamp st) := by
  refine ⟨by simpa [update_timestamp] using h.1, ?_⟩
  intro set hset
  simp only [update_timestamp, List.mem_map] at hset
  obtain ⟨set0, hset0, rfl⟩ := hset
  obtain ⟨hlen, hst⟩ := h.2 set0 hset0
  refine ⟨by simpa using hlen, ?_⟩
  intro l hl
  simp only [List.mem_map] at hl
  obtain ⟨l0, hl0, rfl⟩ := hl
  have := hst l0 hl0
  by_cases hv : l0.valid_bit = 1
  · simp only [hv, if_true]
    intro _
    have := this (by rw [hv]; decide)
    omega
  · simpa [hv] using this

theorem shape_with_set {cfg : Config} {st : State} (h : Shape cfg st) (idx : Nat)
    (set : List cache_line) (hlen : set.length = cfg.E)
    (hst : ∀ l ∈ set, l.valid_bit ≠ 0 → 0 ≤ l.stamp) (c : List (List cache_line))
    (hc : c = st.cache.set idx set) :
    c.length = 2 ^ cfg.s ∧
      ∀ set ∈ c, set.length = cfg.E ∧ ∀ l ∈ set, l.valid_bit ≠ 0 → 0 ≤ l.stamp := by
  subst hc
  refine ⟨by simpa using h.1, ?_⟩
  intro x hx
  rcases List.mem_or_eq_of_mem_set hx with hx | rfl
  · exact h.2 x hx
  · exact ⟨hlen, hst⟩

theorem mem_set_cases {α : Type} {ls : List α} {i : Nat} {a x : α} (hx : x ∈ ls.set i a) :
    x ∈ ls ∨ x = a := List.mem_or_eq_of_mem_set hx

/-! ## The index and tag expressions are defined for `1 ≤ s`, `s + b < 64` -/

theorem address_set_index_some (cfg : Config) (hs : 1 ≤ cfg.s) (hsb : cfg.s + cfg.b < 64)
    (address : Nat) :
    address_set_index cfg address =
      some ((address * 2 ^ (64 - cfg.s - cfg.b)) % 2 ^ 64 / 2 ^ (64 - cfg.s)) := by
  unfold address_set_index shl64 shr64
  have h1 : (0 : Int) ≤ 64 - (cfg.s : Int) - (cfg.b : Int) ∧
      64 - (cfg.s : Int) - (cfg.b : Int) < 64 := by omega
  have h2 : (0 : Int) ≤ 64 - (cfg.s : Int) ∧ 64 - (cfg.s : Int) < 64 := by omega
  have e1 : (64 - (cfg.s : Int) - (cfg.b : Int)).toNat = 64 - cfg.s - cfg.b := by omega
  have e2 : (64 - (cfg.s : Int)).toNat = 64 - cfg.s := by omega
  simp only [if_pos h1, if_pos h2, Option.some_bind, e1, e2]

theorem set_index_lt (cfg : Config) (hs : 1 ≤ cfg.s) (hsb : cfg.s + cfg.b < 64)
    (address : Nat) :
    (address * 2 ^ (64 - cfg.s - cfg.b)) % 2 ^ 64 / 2 ^ (64 - cfg.s) < 2 ^ cfg.s := by
  have hlt : (address * 2 ^ (64 - cfg.s - cfg.b)) % 2 ^ 64 < 2 ^ 64 :=
    Nat.mod_lt _ (by positivity)
  rw [Nat.div_lt_iff_lt_mul (by positivity)]
  have : 2 ^ cfg.s * 2 ^ (64 - cfg.s) = 2 ^ 64 := by
    rw [← pow_add]; congr 1; omega
  rw [this]; exact hlt

theorem address_tag_some (cfg : Config) (hsb : cfg.s + cfg.b < 64) (address : Nat) :
    address_tag cfg address = some (toInt32 (address / 2 ^ (cfg.s + cfg.b))) := by
  unfold address_tag shr64
  have h1 : (0 : Int) ≤ (cfg.s : Int) + (cfg.b : Int) ∧ (cfg.s : Int) + (cfg.b : Int) < 64 := by
    omega
  have e1 : ((cfg.s : Int) + (cfg.b : Int)).toNat = cfg.s + cfg.b := by omega
  simp only [if_pos h1, Option.map_some', e1]

/-! ## One call of `update` -/

theorem update_hit_shape {cfg : Config} {st : State} (h : Shape cfg st) {idx : Nat}
    {set : List cache_line} (hset : set ∈ st.cache) (i : Nat) (ln : cache_line)
    (hln : ln ∈ set) (w : Bool) :
    Shape cfg (update_hit cfg st idx set i ln w) := by
  obtain ⟨hlen, hst⟩ := h.2 set hset
  apply shape_with_set h idx _ _ _ _ rfl
  · simpa using hlen
  · intro l hl hv
    rcases mem_set_cases hl with hl | rfl
    · rcases mem_set_cases hl with hl | rfl
      · exact hst l hl hv
      · by_cases hc : (w && ln.dirty_bit == 0) = true
        · simp only [hc, if_true] at hv ⊢
          exact hst ln hln hv
        · simp only [hc] at hv ⊢
          exact hst ln hln hv
    · simp

theorem update_cold_shape {cfg : Config} {st : State} (h : Shape cfg st) {idx : Nat}
    {set : List cache_line} (hset : set ∈ st.cache) (i : Nat) (ln : cache_line)
    (atag : Int) (w : Bool) :
    Shape cfg (update_cold cfg st idx set i ln atag w) := by
  obtain ⟨hlen, hst⟩ := h.2 set hset
  apply shape_with_set h idx _ _ _ _ rfl
  · simpa using hlen
  · intro l hl hv
    rcases mem_set_cases hl with hl | rfl
    · exact hst l hl hv
    · simp

theorem update_evict_spec {cfg : Config} (hE : 1 ≤ cfg.E) {st : State} (h : Shape cfg st)
    {idx : Nat} {set : List cache_line} (hset : set ∈ st.cache)
    (hall : ∀ l ∈ set, l.valid_bit ≠ 0) (atag : Int) (w : Bool) :
    ∃ st1, update_evict cfg st idx set atag w = some st1 ∧ Shape cfg st1 ∧
      st1.hits_count = st.hits_count ∧ st1.miss_count = st.miss_count + 1 := by
  obtain ⟨hlen, hst⟩ := h.2 set hset
  have hrange : (0 : Int) ≤ (scan_max set 0 (INT_MIN, -1)).2 ∧
      (scan_max set 0 (INT_MIN, -1)).2 < set.length := by
    rcases scan_max_range set 0 (INT_MIN, -1) with ⟨_, hno⟩ | hr
    · exfalso
      obtain ⟨l, hl⟩ : ∃ l, l ∈ set := by
        cases set with
        | nil => simp at hlen; omega
        | cons x xs => exact ⟨x, by simp⟩
      have h0 := hst l hl (hall l hl)
      apply hno l hl
      simp only [INT_MIN]
      constructor <;> omega
    · simpa using hr
  have hlt : (scan_max set 0 (INT_MIN, -1)).2.toNat < set.length := by omega
  unfold update_evict
  simp only [if_neg (not_lt.2 hrange.1), List.getElem?_eq_getElem hlt]
  refine ⟨_, rfl, ?_, rfl, rfl⟩
  apply shape_with_set h idx _ _ _ _ rfl
  · simpa using hlen
  · intro l hl hv
    rcases mem_set_cases hl with hl | rfl
    · exact hst l hl hv
    · simp

theorem update_spec {cfg : Config} (hs : 1 ≤ cfg.s) (hsb : cfg.s + cfg.b < 64)
    (hE : 1 ≤ cfg.E) {st : State} (h : Shape cfg st) (address : Nat) (w : Bool) :
    ∃ st1, update cfg st address w = some st1 ∧ Shape cfg st1 ∧ one_more_access st st1 := by
  unfold update
  rw [address_set_index_some cfg hs hsb, address_tag_some cfg hsb]
  have hidx := set_index_lt cfg hs hsb address
  rw [← h.1] at hidx
  simp only [List.getElem?_eq_getElem hidx]
  have hset : st.cache[(address * 2 ^ (64 - cfg.s - cfg.b)) % 2 ^ 64 / 2 ^ (64 - cfg.s)] ∈
      st.cache := List.getElem_mem _
  generalize st.cache[(address * 2 ^ (64 - cfg.s - cfg.b)) % 2 ^ 64 / 2 ^ (64 - cfg.s)] = set
    at hset
  cases hf : first_index (fun l => l.tag == toInt32 (address / 2 ^ (cfg.s + cfg.b))) set with
  | some i =>
    obtain ⟨ln, hln, _⟩ := first_index_some hf
    simp only [hln]
    exact ⟨_, rfl, update_hit_shape h hset i ln (List.getElem?_mem hln) w,
      Or.inl ⟨rfl, rfl⟩⟩
  | none =>
    cases hg : first_index (fun l => l.valid_bit == 0) set with
    | some i =>
      obtain ⟨ln, hln, _⟩ := first_index_some hg
      simp only [hln]
      exact ⟨_, rfl, update_cold_shape h hset i ln _ w, Or.inr ⟨rfl, rfl⟩⟩
    | none =>
      have hall : ∀ l ∈ set, l.valid_bit ≠ 0 := by
        intro l hl
        simpa using first_index_none hg l hl
      obtain ⟨st1, h1, h2, h3, h4⟩ := update_evict_spec hE h hset hall
        (toInt32 (address / 2 ^ (cfg.s + cfg.b))) w
      exact ⟨st1, h1, h2, Or.inr ⟨h3, h4⟩⟩

theorem reach_shape {cfg : Config} (hs : 1 ≤ cfg.s) (hsb : cfg.s + cfg.b < 64)
    (hE : 1 ≤ cfg.E) {st : State} (h : Reach cfg st) : Shape cfg st := by
  induction h with
  | init => exact shape_init cfg
  | @update st st1 a w _ hu ih =>
    obtain ⟨st2, h2, hsh, _⟩ := update_spec hs hsb hE ih a w
    rw [h2] at hu
    cases hu
    exact hsh
  | tick _ ih => exact shape_tick ih

/-! ## A whole trace -/

theorem accesses_cons (r : Record) (rs : List Record) :
    (accesses (r :: rs) : Int) =
      (match r.type with
        | RecType.I => 0 | RecType.L => 1 | RecType.M => 2 | RecType.S => 1
        | RecType.X => 0) + accesses rs := by
  obtain ⟨t, a⟩ := r
  cases t <;> simp [accesses, count_type, List.countP_cons] <;> ring

theorem step_spec {cfg : Config} (hs : 1 ≤ cfg.s) (hsb : cfg.s + cfg.b < 64)
    (hE : 1 ≤ cfg.E) {st : State} (h : Shape cfg st) (r : Record) :
    ∃ st1, step cfg st r = some st1 ∧ Shape cfg st1 ∧
      st1.hits_count + st1.miss_count = st.hits_count + st.miss_count +
        (match r.type with
          | RecType.I => 0 | RecType.L => 1 | RecType.M => 2 | RecType.S => 1
          | RecType.X => 0) := by
  obtain ⟨t, a⟩ := r
  cases t
  · exact ⟨_, rfl, shape_tick h, by simp [update_timestamp]⟩
  · obtain ⟨st1, h1, h2, h3⟩ := update_spec hs hsb hE h a false
    refine ⟨update_timestamp st1, by simp [step, h1], shape_tick h2, ?_⟩
    rcases h3 with ⟨e1, e2⟩ | ⟨e1, e2⟩ <;> simp [update_timestamp, e1, e2] <;> ring
  · obtain ⟨st1, h1, h2, h3⟩ := update_spec hs hsb hE h a false
    obtain ⟨st2, h4, h5, h6⟩ := update_spec hs hsb hE h2 a true
    refine ⟨update_timestamp st2, by simp [step, h1, h4], shape_tick h5, ?_⟩
    rcases h3 with ⟨e1, e2⟩ | ⟨e1, e2⟩ <;> rcases h6 with ⟨e3, e4⟩ | ⟨e3, e4⟩ <;>
      simp [update_timestamp, e1, e2, e3, e4] <;> ring
  · obtain ⟨st1, h1, h2, h3⟩ := update_spec hs hsb hE h a true
    refine ⟨update_timestamp st1, by simp [step, h1], shape_tick h2, ?_⟩
    rcases h3 with ⟨e1, e2⟩ | ⟨e1, e2⟩ <;> simp [update_timestamp, e1, e2] <;> ring
  · exact ⟨_, rfl, shape_tick h, by simp [update_timestamp]⟩

theorem run_spec {cfg : Config} (hs : 1 ≤ cfg.s) (hsb : cfg.s + cfg.b < 64)
    (hE : 1 ≤ cfg.E) :
    ∀ (trace : List Record) {st : State}, Shape cfg st →
      ∃ st1, run cfg st trace = some st1 ∧
        st1.hits_count + st1.miss_count = st.hits_count + st.miss_count + accesses trace
  | [], st, _ => ⟨st, rfl, by simp [accesses, count_type]⟩
  | r :: rs, st, h => by
    obtain ⟨st1, h1, h2, h3⟩ := step_spec hs hsb hE h r
    obtain ⟨st2, h4, h5⟩ := run_spec hs hsb hE rs h2
    refine ⟨st2, by simp [run, h1, h4], ?_⟩
    rw [h5, h3, accesses_cons]; ring

/-- With counters in the integers: for `s ≥ 1`, `s + b < 64` and `E ≥ 1`, every call of
`update` from a reachable state returns and adds one to exactly one of `hits_count` and `miss_count`, and a
whole trace run from the initial state ends with
`hits_count + miss_count = #L + #S + 2 * #M`. -/
theorem hits_plus_misses (cfg : Config) (hs : 1 ≤ cfg.s) (hsb : cfg.s + cfg.b < 64)
    (hE : 1 ≤ cfg.E) (trace : List Record) :
    (∀ st, Reach cfg st → ∀ (address : Nat) (is_write : Bool),
        ∃ st1, update cfg st address is_write = some st1 ∧
          ((st1.hits_count = st.hits_count + 1 ∧ st1.miss_count = st.miss_count) ∨
           (st1.hits_count = st.hits_count ∧ st1.miss_count = st.miss_count + 1))) ∧
    (∃ st, run cfg (init cfg) trace = some st ∧
        st.hits_count + st.miss_count =
          (count_type RecType.L trace : Int) + count_type RecType.S trace +
            2 * count_type RecType.M trace) := by
  constructor
  · intro st hst a w
    obtain ⟨st1, h1, _, h3⟩ := update_spec hs hsb hE (reach_shape hs hsb hE hst) a w
    exact ⟨st1, h1, h3⟩
  · obtain ⟨st1, h1, h2⟩ := run_spec hs hsb hE trace (shape_init cfg)
    refine ⟨st1, h1, ?_⟩
    rw [h2]
    simp [init, accesses]

theorem hits_plus_misses_example :
    (1 ≤ (⟨1, 1, 2⟩ : Config).s ∧ (⟨1, 1, 2⟩ : Config).s + (⟨1, 1, 2⟩ : Config).b < 64 ∧
      1 ≤ (⟨1, 1, 2⟩ : Config).E) ∧
    (∃ st, run ⟨1, 1, 2⟩ (init ⟨1, 1, 2⟩) [⟨RecType.M, 0⟩, ⟨RecType.I, 4⟩, ⟨RecType.L, 8⟩] =
        some st ∧
      st.hits_count + st.miss_count =
        (count_type RecType.L [⟨RecType.M, 0⟩, ⟨RecType.I, 4⟩, ⟨RecType.L, 8⟩] : Int) +
          count_type RecType.S [⟨RecType.M, 0⟩, ⟨RecType.I, 4⟩, ⟨RecType.L, 8⟩] +
          2 * count_type RecType.M [⟨RecType.M, 0⟩, ⟨RecType.I, 4⟩, ⟨RecType.L, 8⟩]) :=
  ⟨by decide,
    (hits_plus_misses ⟨1, 1, 2⟩ (by decide) (by decide) (by decide)
      [⟨RecType.M, 0⟩, ⟨RecType.I, 4⟩, ⟨RecType.L, 8⟩]).2⟩

/-- C2 (code bug): for `s = 0`, `E = 1`, `b = 0` the shift counts `64 - s - b` and `64 - s`
are 64, so the call `update(1, 0)` has no defined result and the run of the one-record
trace `L 1` does not end in a state with `hits_count + miss_count = 1`. -/
theorem C2_update_undefined_for_single_set :
    ¬ ∃ st, run ⟨0, 1, 0⟩ (init ⟨0, 1, 0⟩) [⟨RecType.L, 1⟩] = some st ∧
      st.hits_count + st.miss_count =
        (count_type RecType.L [⟨RecType.L, 1⟩] : Int) + count_type RecType.S [⟨RecType.L, 1⟩] +
          2 * count_type RecType.M [⟨RecType.L, 1⟩] := by
  rintro ⟨st, h, _⟩
  have : run ⟨0, 1, 0⟩ (init ⟨0, 1, 0⟩) [⟨RecType.L, 1⟩] = none := by decide
  rw [this] at h
  cases h

/-! ## Lists: replacing one element, up to permutation -/

theorem perm_cons_eraseIdx {α : Type} :
    ∀ {ls : List α} {i : Nat} {a : α}, ls[i]? = some a → ls.Perm (a :: ls.eraseIdx i)
  | [], i, a, h => by simp at h
  | x :: xs, 0, a, h => by
    simp at h; subst h; simp
  | x :: xs, i + 1, a, h => by
    simp only [List.getElem?_cons_succ] at h
    simp only [List.eraseIdx_cons_succ]
    exact ((perm_cons_eraseIdx h).cons x).trans (List.Perm.swap a x _)

theorem set_perm_cons_eraseIdx {α : Type} :
    ∀ {ls : List α} {i : Nat} {a : α} (b : α), ls[i]? = some a →
      (ls.set i b).Perm (b :: ls.eraseIdx i)
  | [], i, a, b, h => by simp at h
  | x :: xs, 0, a, b, h => by simp
  | x :: xs, i + 1, a, b, h => by
    simp only [List.getElem?_cons_succ] at h
    simp only [List.eraseIdx_cons_succ, List.set_cons_succ]
    exact ((set_perm_cons_eraseIdx b h).cons x).trans (List.Perm.swap b x _)

/-! ## The two stamp scans -/

theorem scan_min_spec :
    ∀ (ls : List cache_line) (j : Nat) (acc : Int × Int),
      (scan_min ls j acc = acc ∧ ∀ l ∈ ls, ¬ (l.stamp < acc.1 ∧ l.stamp ≠ -1)) ∨
      (∃ k ln, ls[k]? = some ln ∧ scan_min ls j acc = (ln.stamp, ((j + k : Nat) : Int)) ∧
        ln.stamp < acc.1 ∧ ln.stamp ≠ -1 ∧ ∀ l ∈ ls, l.stamp ≠ -1 → ln.stamp ≤ l.stamp)
  | [], j, acc => by left; simp [scan_min]
  | l :: ls, j, acc => by
    unfold scan_min
    by_cases hc : l.stamp < acc.1 ∧ l.stamp ≠ -1
    · rw [if_pos hc]
      right
      rcases scan_min_spec ls (j + 1) (l.stamp, (j : Int)) with
        ⟨h, hno⟩ | ⟨k, ln, hk, hres, hlt, hne, hmin⟩
      · refine ⟨0, l, by simp, by simpa using h, hc.1, hc.2, ?_⟩
        intro x hx hx1
        rcases List.mem_cons.1 hx with rfl | hx
        · exact le_refl _
        · have := hno x hx
          simp only [not_and_or, not_lt, not_not] at this
          rcases this with h1 | h1
          · exact h1
          · exact absurd h1 hx1
      · refine ⟨k + 1, ln, by simpa using hk, ?_, lt_trans hlt hc.1, hne, ?_⟩
        · rw [hres]; congr 2; omega
        · intro x hx hx1
          rcases List.mem_cons.1 hx with rfl | hx
          · exact le_of_lt hlt
          · exact hmin x hx hx1
    · rw [if_neg hc]
      rcases scan_min_spec ls (j + 1) acc with
        ⟨h, hno⟩ | ⟨k, ln, hk, hres, hlt, hne, hmin⟩
      · left
        refine ⟨h, ?_⟩
        intro x hx
        rcases List.mem_cons.1 hx with rfl | hx
        · exact hc
        · exact hno x hx
      · right
        refine ⟨k + 1, ln, by simpa using hk, ?_, hlt, hne, ?_⟩
        · rw [hres]; congr 2; omega
        · intro x hx hx1
          rcases List.mem_cons.1 hx with rfl | hx
          · simp only [not_and_or, not_lt, not_not] at hc
            rcases hc with h1 | h1
            · exact le_of_lt (lt_of_lt_of_le hlt h1)
            · exact absurd h1 hx1
          · exact hmin x hx hx1

theorem scan_max_spec :
    ∀ (ls : List cache_line) (j : Nat) (acc : Int × Int),
      (scan_max ls j acc = acc ∧ ∀ l ∈ ls, ¬ (l.stamp > acc.1 ∧ l.stamp ≠ -1)) ∨
      (∃ k ln, ls[k]? = some ln ∧ scan_max ls j acc = (ln.stamp, ((j + k : Nat) : Int)) ∧
        ln.stamp > acc.1 ∧ ln.stamp ≠ -1 ∧ ∀ l ∈ ls, l.stamp ≠ -1 → l.stamp ≤ ln.stamp)
  | [], j, acc => by left; simp [scan_max]
  | l :: ls, j, acc => by
    unfold scan_max
    by_cases hc : l.stamp > acc.1 ∧ l.stamp ≠ -1
    · rw [if_pos hc]
      right
      rcases scan_max_spec ls (j + 1) (l.stamp, (j : Int)) with
        ⟨h, hno⟩ | ⟨k, ln, hk, hres, hlt, hne, hmin⟩
      · refine ⟨0, l, by simp, by simpa using h, hc.1, hc.2, ?_⟩
        intro x hx hx1
        rcases List.mem_cons.1 hx with rfl | hx
        · exact le_refl _
        · have := hno x hx
          simp only [not_and_or, not_lt, not_not, gt_iff_lt] at this
          rcases this with h1 | h1
          · exact h1
          · exact absurd h1 hx1
      · refine ⟨k + 1, ln, by simpa using hk, ?_, lt_trans hc.1 hlt, hne, ?_⟩
        · rw [hres]; congr 2; omega
        · intro x hx hx1
          rcases List.mem_cons.1 hx with rfl | hx
          · exact le_of_lt hlt
          · exact hmin x hx hx1
    · rw [if_neg hc]
      rcases scan_max_spec ls (j + 1) acc with
        ⟨h, hno⟩ | ⟨k, ln, hk, hres, hlt, hne, hmin⟩
      · left
        refine ⟨h, ?_⟩
        intro x hx
        rcases List.mem_cons.1 hx with rfl | hx
        · exact hc
        · exact hno x hx
      · right
        refine ⟨k + 1, ln, by simpa using hk, ?_, hlt, hne, ?_⟩
        · rw [hres]; congr 2; omega
        · intro x hx hx1
          rcases List.mem_cons.1 hx with rfl | hx
          · simp only [not_and_or, not_lt, not_not, gt_iff_lt] at hc
            rcases hc with h1 | h1
            · exact le_of_lt (lt_of_le_of_lt h1 hlt)
            · exact absurd h1 hx1
          · exact hmin x hx hx1

theorem scan_min_congr :
    ∀ (ls ls1 : List cache_line) (j : Nat) (acc : Int × Int),
      ls.map (·.stamp) = ls1.map (·.stamp) → scan_min ls j acc = scan_min ls1 j acc
  | [], [], _, _, _ => rfl
  | [], _ :: _, _, _, h => by simp at h
  | _ :: _, [], _, _, h => by simp at h
  | x :: xs, y :: ys, j, acc, h => by
    simp only [List.map_cons, List.cons.injEq] at h
    unfold scan_min
    rw [h.1, scan_min_congr xs ys (j + 1) _ h.2, scan_min_congr xs ys (j + 1) acc h.2]

theorem first_index_eq_none {p : cache_line → Bool} :
    ∀ {ls : List cache_line}, (∀ l ∈ ls, p l = false) → first_index p ls = none
  | [], _ => rfl
  | x :: xs, h => by
    unfold first_index
    rw [if_neg (by simp [h x (by simp)])]
    rw [first_index_eq_none (fun l hl => h l (by simp [hl]))]
    rfl

theorem first_index_ne_none {p : cache_line → Bool} {ls : List cache_line} {c : cache_line}
    (hc : c ∈ ls) (hp : p c = true) : ∃ i, first_index p ls = some i := by
  cases h : first_index p ls with
  | none => have := first_index_none h c hc; rw [hp] at this; cases this
  | some i => exact ⟨i, rfl⟩

theorem SetRel.mem_lines {T : Int} {lines : List cache_line} {l : List Nat}
    {ps : List cache_line} {n : Nat} (h : SetRel T lines l ps n) {c : cache_line}
    (hc : c ∈ lines) : c ∈ ps ∨ c = emptyLine := by
  have := (h.perm.mem_iff).1 hc
  rcases List.mem_append.1 this with h1 | h1
  · exact Or.inl h1
  · exact Or.inr (List.eq_of_mem_replicate h1)

theorem SetRel.tag_mem {T : Int} {lines : List cache_line} {l : List Nat}
    {ps : List cache_line} {n : Nat} (h : SetRel T lines l ps n) {c : cache_line}
    (hc : c ∈ ps) : ∃ t ∈ l, c.tag = (t : Int) := by
  have : c.tag ∈ ps.map (·.tag) := List.mem_map_of_mem _ hc
  rw [h.tags] at this
  obtain ⟨t, ht, e⟩ := List.mem_map.1 this
  exact ⟨t, ht, e.symm⟩

theorem SetRel.length_eq {T : Int} {lines : List cache_line} {l : List Nat}
    {ps : List cache_line} {n : Nat} (h : SetRel T lines l ps n) :
    lines.length = l.length + n := by
  have h1 := h.perm.length_eq
  have h2 := congrArg List.length h.tags
  simp at h1 h2
  omega

/-- A tag that is not in the recency list matches no line of the set. -/
theorem SetRel.miss {T : Int} {lines : List cache_line} {l : List Nat}
    {ps : List cache_line} {n : Nat} (h : SetRel T lines l ps n) {t : Nat} (ht : t ∉ l) :
    first_index (fun c => c.tag == (t : Int)) lines = none := by
  apply first_index_eq_none
  intro c hc
  rcases h.mem_lines hc with h1 | rfl
  · obtain ⟨t1, ht1, e⟩ := h.tag_mem h1
    have : t1 ≠ t := fun e1 => ht (e1 ▸ ht1)
    simp only [e, beq_eq_false_iff_ne, ne_eq, Nat.cast_inj]
    exact this
  · simp only [emptyLine, beq_eq_false_iff_ne, ne_eq]
    omega

/-- Splitting the representation at a tag of the recency list. -/
theorem SetRel.split {T : Int} {lines : List cache_line} {l : List Nat}
    {ps : List cache_line} {n : Nat} (h : SetRel T lines l ps n) {t : Nat} (ht : t ∈ l) :
    ∃ l1 l2 p1 c p2, l = l1 ++ t :: l2 ∧ ps = p1 ++ c :: p2 ∧ t ∉ l1 ∧ t ∉ l2 ∧
      c.tag = (t : Int) ∧ p1.map (·.tag) = l1.map (fun t : Nat => (t : Int)) ∧
      p2.map (·.tag) = l2.map (fun t : Nat => (t : Int)) := by
  obtain ⟨l1, l2, rfl⟩ := List.append_of_mem ht
  have hnd := h.nodup
  rw [List.nodup_append] at hnd
  obtain ⟨_, hnd2, hdis⟩ := hnd
  have ht1 : t ∉ l1 := fun hm => hdis hm (by simp)
  have ht2 : t ∉ l2 := (List.nodup_cons.1 hnd2).1
  have htags := h.tags
  rw [List.map_append, List.map_eq_append_iff] at htags
  obtain ⟨p1, q, rfl, hp1, hq⟩ := htags
  rw [List.map_cons, List.map_eq_cons_iff] at hq
  obtain ⟨c, p2, rfl, hc, hp2⟩ := hq
  exact ⟨l1, l2, p1, c, p2, rfl, rfl, ht1, ht2, hc, hp1, hp2⟩

theorem map_tag_mem {p : List cache_line} {l : List Nat}
    (h : p.map (·.tag) = l.map (fun t : Nat => (t : Int))) {c : cache_line} (hc : c ∈ p)
    {t : Nat} (ht : c.tag = (t : Int)) : t ∈ l := by
  have : c.tag ∈ p.map (·.tag) := List.mem_map_of_mem _ hc
  rw [h, ht] at this
  obtain ⟨t1, ht1, e⟩ := List.mem_map.1 this
  have : t1 = t := by exact_mod_cast e
  exact this ▸ ht1

theorem map_set_same {α β : Type} (f : α → β) :
    ∀ {ls : List α} {i : Nat} {a b : α}, ls[i]? = some a → f b = f a →
      (ls.set i b).map f = ls.map f
  | [], _, _, _, h, _ => by simp at h
  | x :: xs, 0, a, b, h, e => by
    simp at h; subst h; simp [e]
  | x :: xs, i + 1, a, b, h, e => by
    simp only [List.getElem?_cons_succ] at h
    simp [map_set_same f h e]

/-- The hit branch on a represented set: the line found is the valid line holding the
tag, the double-reference test succeeds exactly when the tag heads the recency list, and
the new set represents the list after move-to-front. -/
theorem SetRel.hit {T : Int} {lines : List cache_line} {l : List Nat}
    {ps : List cache_line} {n : Nat} (h : SetRel T lines l ps n) (hT : T < INT_MAX)
    (hT0 : 0 ≤ T) {t : Nat} (ht : t ∈ l) (hA : Aged t ps) {i : Nat} {ln : cache_line}
    (hf : first_index (fun c => c.tag == (t : Int)) lines = some i)
    (hln : lines[i]? = some ln) (ln1 : cache_line) (hv : ln1.valid_bit = ln.valid_bit)
    (hs : ln1.stamp = ln.stamp) (htag : ln1.tag = ln.tag) :
    (((i : Int) = (scan_min (lines.set i ln1) 0 (INT_MAX, -1)).2) ↔ l.head? = some t) ∧
    ∃ ps1, SetRel T ((lines.set i ln1).set i { ln1 with stamp := 0 }) (t :: l.erase t) ps1 n ∧
      Aged t ps1 := by
  obtain ⟨l1, l2, p1, c, p2, rfl, rfl, ht1, ht2, hc, hp1, hp2⟩ := h.split ht
  -- the line found is `c`
  obtain ⟨ln', hln', hpl⟩ := first_index_some hf
  rw [hln] at hln'
  cases hln'
  have hlnt : ln.tag = (t : Int) := by simpa using hpl
  have hlnmem : ln ∈ lines := List.getElem?_mem hln
  have hlnc : ln = c := by
    rcases h.mem_lines hlnmem with hm | rfl
    · rcases List.mem_append.1 hm with hm | hm
      · exact absurd (map_tag_mem hp1 hm hlnt) ht1
      · rcases List.mem_cons.1 hm with hm | hm
        · exact hm
        · exact absurd (map_tag_mem hp2 hm hlnt) ht2
    · simp [emptyLine] at hlnt
  subst hlnc
  have hcv := h.valid ln (by simp)
  have hsorted := h.sorted
  simp only [List.map_append, List.map_cons, List.pairwise_append, List.pairwise_cons,
    List.mem_map, List.mem_cons, forall_exists_index, and_imp, forall_apply_eq_imp_iff₂,
    forall_eq_or_imp] at hsorted
  obtain ⟨hs1, ⟨hs2, hs3⟩, hs4⟩ := hsorted
  -- the other lines
  have hrest : (lines.eraseIdx i).Perm (p1 ++ p2 ++ List.replicate n emptyLine) := by
    have e1 := perm_cons_eraseIdx hln
    have e2 : (p1 ++ ln :: p2 ++ List.replicate n emptyLine).Perm
        (ln :: (p1 ++ p2 ++ List.replicate n emptyLine)) := by
      simp only [List.append_assoc, List.cons_append]
      exact List.perm_middle
    exact ((e1.symm.trans h.perm).trans e2).cons_inv
  have hnotrest : ln ∉ lines.eraseIdx i := by
    intro hm
    have hm := (hrest.mem_iff).1 hm
    simp only [List.mem_append] at hm
    rcases hm with (hm | hm) | hm
    · exact absurd (map_tag_mem hp1 hm hlnt) ht1
    · exact absurd (map_tag_mem hp2 hm hlnt) ht2
    · have := List.eq_of_mem_replicate hm
      rw [this] at hcv
      simp [emptyLine] at hcv
  have holdtag : ∀ x ∈ p1 ++ p2, x.tag ≠ (t : Int) := by
    intro x hx e
    rcases List.mem_append.1 hx with hm | hm
    · exact absurd (map_tag_mem hp1 hm e) ht1
    · exact absurd (map_tag_mem hp2 hm e) ht2
  constructor
  · -- the double-reference test
    have hcongr : scan_min (lines.set i ln1) 0 (INT_MAX, -1) = scan_min lines 0 (INT_MAX, -1) := by
      apply scan_min_congr
      exact map_set_same _ hln hs
    rw [hcongr]
    rcases scan_min_spec lines 0 (INT_MAX, -1) with ⟨_, hno⟩ | ⟨k, lnk, hk, hres, _, hne, hmin⟩
    · exfalso
      apply hno ln hlnmem
      exact ⟨by simpa using lt_of_le_of_lt hcv.2.2 hT, by omega⟩
    · rw [hres]
      simp only [Nat.zero_add, Nat.cast_inj]
      have hkmem : lnk ∈ lines := List.getElem?_mem hk
      have hkps : lnk ∈ p1 ++ ln :: p2 := by
        rcases h.mem_lines hkmem with hm | rfl
        · exact hm
        · simp [emptyLine] at hne
      constructor
      · intro e
        subst e
        rw [hln] at hk
        cases hk
        cases p1 with
        | nil =>
          cases l1 with
          | nil => simp
          | cons y ys => simp at hp1
        | cons x xs =>
          exfalso
          have h1 : x.stamp < ln.stamp := (hs4 x (by simp)).1
          have h2 := hmin x ((h.perm.mem_iff).2 (by simp))
            (by have := (h.valid x (by simp)).2.1; omega)
          omega
      · intro e
        have hl1 : l1 = [] := by
          cases l1 with
          | nil => rfl
          | cons y ys =>
            simp only [List.cons_append, List.head?_cons, Option.some.injEq] at e
            subst e
            simp at ht1
        subst hl1
        have hp1' : p1 = [] := by simpa using hp1
        subst hp1'
        have hk_eq : lnk = ln := by
          rcases List.mem_cons.1 (by simpa using hkps) with hm | hm
          · exact hm
          · exfalso
            have h1 : ln.stamp < lnk.stamp := hs2 lnk hm
            have h2 := hmin ln hlnmem (by omega)
            omega
        subst hk_eq
        by_contra hik
        apply hnotrest
        rw [List.mem_eraseIdx_iff_getElem?]
        exact ⟨k, fun e => hik (e ▸ rfl), hk⟩
  · refine ⟨{ ln1 with stamp := 0 } :: (p1 ++ p2), ?_, ?_⟩
    · constructor
      · rw [List.set_set]
        have e := set_perm_cons_eraseIdx ({ ln1 with stamp := 0 } : cache_line) hln
        exact e.trans (by simpa using hrest.cons ({ ln1 with stamp := 0 } : cache_line))
      · rw [List.erase_append_right _ ht1]
        simp [hp1, hp2, htag, hlnt]
      · intro x hx
        rcases List.mem_cons.1 hx with rfl | hm
        · exact ⟨by simpa [hv] using hcv.1, le_refl _, hT0⟩
        · exact h.valid x (by
            rcases List.mem_append.1 hm with hm | hm
            · simp [hm]
            · simp [hm])
      · simp only [List.map_cons, List.map_append, List.pairwise_cons, List.pairwise_append,
          List.mem_append, List.mem_map]
        refine ⟨?_, hs1, hs3, ?_⟩
        · rintro s (⟨x, hx, rfl⟩ | ⟨x, hx, rfl⟩)
          · have := hA x (by simp [hx]) (holdtag x (by simp [hx]))
            omega
          · have := hA x (by simp [hx]) (holdtag x (by simp [hx]))
            omega
        · rintro a ⟨x, hx, rfl⟩ b ⟨y, hy, rfl⟩
          exact (hs4 x hx).2 y hy
      · have hnd := h.nodup
        rw [List.erase_append_right _ ht1]
        simp only [List.erase_cons_head]
        rw [List.nodup_cons]
        refine ⟨by simp [ht1, ht2], ?_⟩
        exact hnd.sublist (by simp)
    · intro x hx hxt
      rcases List.mem_cons.1 hx with rfl | hm
      · simp [htag, hlnt] at hxt
      · exact hA x (by
          rcases List.mem_append.1 hm with hm | hm
          · simp [hm]
          · simp [hm]) hxt

/-- The cold-miss branch on a represented set: a never-used line exists exactly when the
recency list is shorter than the set, and filling it represents insert-at-front. -/
theorem SetRel.cold {T : Int} {lines : List cache_line} {l : List Nat}
    {ps : List cache_line} {n : Nat} (h : SetRel T lines l ps n) (hT0 : 0 ≤ T) {t : Nat}
    (ht : t ∉ l) (hA : Aged t ps) {i : Nat} {ln : cache_line}
    (hg : first_index (fun c => c.valid_bit == 0) lines = some i)
    (hln : lines[i]? = some ln) (ln1 : cache_line) :
    l.length < lines.length ∧
    ∃ ps1 n1, SetRel T (lines.set i { ln1 with valid_bit := 1, tag := (t : Int), stamp := 0 })
        (t :: l) ps1 n1 ∧ Aged t ps1 := by
  obtain ⟨ln', hln', hpl⟩ := first_index_some hg
  rw [hln] at hln'
  cases hln'
  have hv0 : ln.valid_bit = 0 := by simpa using hpl
  have hlnmem : ln ∈ lines := List.getElem?_mem hln
  have hle : ln = emptyLine := by
    rcases h.mem_lines hlnmem with hm | hm
    · have := (h.valid ln hm).1
      omega
    · exact hm
  subst hle
  have hn : 0 < n := by
    rcases Nat.eq_zero_or_pos n with h0 | h0
    · exfalso
      subst h0
      have hm := (h.perm.mem_iff).1 hlnmem
      simp only [List.replicate_zero, List.append_nil] at hm
      have := (h.valid _ hm).1
      omega
    · exact h0
  obtain ⟨m, rfl⟩ : ∃ m, n = m + 1 := ⟨n - 1, by omega⟩
  have hrest : (lines.eraseIdx i).Perm (ps ++ List.replicate m emptyLine) := by
    have e1 := perm_cons_eraseIdx hln
    have e2 : (ps ++ List.replicate (m + 1) emptyLine).Perm
        (emptyLine :: (ps ++ List.replicate m emptyLine)) := by
      simp only [List.replicate_succ]
      exact List.perm_middle
    exact ((e1.symm.trans h.perm).trans e2).cons_inv
  have holdtag : ∀ x ∈ ps, x.tag ≠ (t : Int) := by
    intro x hx e
    exact ht (map_tag_mem h.tags hx e)
  constructor
  · rw [h.length_eq]; omega
  · refine ⟨{ ln1 with valid_bit := 1, tag := (t : Int), stamp := 0 } :: ps, m, ?_, ?_⟩
    · constructor
      · have e := set_perm_cons_eraseIdx
          ({ ln1 with valid_bit := 1, tag := (t : Int), stamp := 0 } : cache_line) hln
        exact e.trans (by
          simpa using hrest.cons
            ({ ln1 with valid_bit := 1, tag := (t : Int), stamp := 0 } : cache_line))
      · simp [h.tags]
      · intro x hx
        rcases List.mem_cons.1 hx with rfl | hm
        · exact ⟨rfl, le_refl _, hT0⟩
        · exact h.valid x hm
      · simp only [List.map_cons, List.pairwise_cons, List.mem_map]
        refine ⟨?_, h.sorted⟩
        rintro s ⟨x, hx, rfl⟩
        have := hA x hx (holdtag x hx)
        omega
      · exact List.nodup_cons.2 ⟨ht, h.nodup⟩
    · intro x hx hxt
      rcases List.mem_cons.1 hx with rfl | hm
      · simp at hxt
      · exact hA x hm hxt

/-- The eviction branch on a represented set: with no never-used line the recency list is
full, the LRU scan finds the line holding the last tag of the list, and replacing it
represents eviction from the tail followed by insert-at-front. -/
theorem SetRel.evict {T : Int} {lines : List cache_line} {l : List Nat}
    {ps : List cache_line} {n : Nat} (h : SetRel T lines l ps n) (hT0 : 0 ≤ T) {t : Nat}
    (ht : t ∉ l) (hA : Aged t ps)
    (hg : first_index (fun c => c.valid_bit == 0) lines = none) (hne : lines ≠ []) :
    ¬ (l.length < lines.length) ∧
    ∃ (k : Nat) (ln : cache_line), (scan_max lines 0 (INT_MIN, -1)).2 = (k : Int) ∧
      lines[k]? = some ln ∧
      ∀ ln1 : cache_line, ln1.valid_bit = ln.valid_bit →
        ∃ ps1, SetRel T (lines.set k { ln1 with tag := (t : Int), stamp := 0 })
          (t :: l.dropLast) ps1 0 ∧ Aged t ps1 := by
  have hn : n = 0 := by
    rcases Nat.eq_zero_or_pos n with h0 | h0
    · exact h0
    · exfalso
      have hm : emptyLine ∈ lines := (h.perm.mem_iff).2 (by
        apply List.mem_append_right
        exact List.mem_replicate.2 ⟨by omega, rfl⟩)
      have := first_index_none hg _ hm
      simp [emptyLine] at this
  subst hn
  have hperm : lines.Perm ps := by simpa using h.perm
  have hpsne : ps ≠ [] := by
    intro e
    subst e
    exact hne hperm.eq_nil
  obtain ⟨p1, c, rfl⟩ : ∃ p1 c, ps = p1 ++ [c] :=
    ⟨ps.dropLast, ps.getLast hpsne, (List.dropLast_append_getLast hpsne).symm⟩
  have htags := h.tags
  have hlne : l ≠ [] := by
    intro e
    subst e
    simp at htags
  obtain ⟨l1, x, rfl⟩ : ∃ l1 x, l = l1 ++ [x] :=
    ⟨l.dropLast, l.getLast hlne, (List.dropLast_append_getLast hlne).symm⟩
  have hp1 : p1.map (·.tag) = l1.map (fun t : Nat => (t : Int)) := by
    have := congrArg List.dropLast htags
    simpa using this
  have hsorted := h.sorted
  simp only [List.map_append, List.map_cons, List.map_nil, List.pairwise_append,
    List.mem_map, forall_exists_index, and_imp, forall_apply_eq_imp_iff₂,
    List.mem_singleton, forall_eq] at hsorted
  obtain ⟨hs1, _, hs4⟩ := hsorted
  have hcmem : c ∈ lines := (hperm.mem_iff).2 (by simp)
  have hcv := h.valid c (by simp)
  constructor
  · rw [h.length_eq]; omega
  · rcases scan_max_spec lines 0 (INT_MIN, -1) with ⟨_, hno⟩ | ⟨k, lnk, hk, hres, _, hne1, hmax⟩
    · exfalso
      apply hno c hcmem
      simp only [INT_MIN]
      constructor <;> omega
    · have hkmem : lnk ∈ lines := List.getElem?_mem hk
      have hkc : lnk = c := by
        rcases List.mem_append.1 ((hperm.mem_iff).1 hkmem) with hm | hm
        · exfalso
          have h1 := hs4 lnk hm
          have h2 := hmax c hcmem (by omega)
          omega
        · simpa using hm
      subst hkc
      refine ⟨k, lnk, by rw [hres]; simp, hk, ?_⟩
      intro ln1 hv
      have hrest : (lines.eraseIdx k).Perm p1 := by
        have e1 := perm_cons_eraseIdx hk
        have e2 : (p1 ++ [lnk]).Perm (lnk :: p1) := List.perm_append_singleton _ _
        exact ((e1.symm.trans hperm).trans e2).cons_inv
      have holdtag : ∀ y ∈ p1, y.tag ≠ (t : Int) := by
        intro y hy e
        exact ht (by
          have := map_tag_mem hp1 hy e
          simp [this])
      refine ⟨{ ln1 with tag := (t : Int), stamp := 0 } :: p1, ?_, ?_⟩
      · constructor
        · have e := set_perm_cons_eraseIdx
            ({ ln1 with tag := (t : Int), stamp := 0 } : cache_line) hk
          exact e.trans (by
            simpa using hrest.cons ({ ln1 with tag := (t : Int), stamp := 0 } : cache_line))
        · simp [hp1]
        · intro y hy
          rcases List.mem_cons.1 hy with rfl | hm
          · exact ⟨by simpa [hv] using hcv.1, le_refl _, hT0⟩
          · exact h.valid y (by simp [hm])
        · simp only [List.map_cons, List.pairwise_cons, List.mem_map]
          refine ⟨?_, hs1⟩
          rintro s ⟨y, hy, rfl⟩
          have := hA y (by simp [hy]) (holdtag y hy)
          omega
        · have hnd := h.nodup
          simp only [List.dropLast_concat]
          refine List.nodup_cons.2 ⟨fun hm => ht (by simp [hm]), ?_⟩
          exact hnd.sublist (by simp)
      · intro y hy hyt
        rcases List.mem_cons.1 hy with rfl | hm
        · simp at hyt
        · exact hA y (by simp [hm]) hyt

/-! ## Address decoding: the code's expressions against the spec's -/

theorem set_index_eq (cfg : Config) (hs : 1 ≤ cfg.s) (hsb : cfg.s + cfg.b < 64)
    (address : Nat) :
    (address * 2 ^ (64 - cfg.s - cfg.b)) % 2 ^ 64 / 2 ^ (64 - cfg.s) =
      (address >>> cfg.b) &&& (2 ^ cfg.s - 1) := by
  rw [Nat.and_pow_two_sub_one_eq_mod, Nat.shiftRight_eq_div_pow]
  have e1 : (2 : Nat) ^ 64 = 2 ^ (64 - cfg.s - cfg.b) * 2 ^ (cfg.b + cfg.s) := by
    rw [← pow_add]; congr 1; omega
  have e2 : (2 : Nat) ^ (64 - cfg.s) = 2 ^ (64 - cfg.s - cfg.b) * 2 ^ cfg.b := by
    rw [← pow_add]; congr 1; omega
  rw [e1, e2, Nat.mul_comm address, Nat.mul_mod_mul_left,
    Nat.mul_div_mul_left _ _ (by positivity), pow_add, Nat.mod_mul_right_div_self]

theorem toInt32_small {n : Nat} (h : n < 2147483648) : toInt32 n = (n : Int) := by
  unfold toInt32
  have : n % 4294967296 = n := Nat.mod_eq_of_lt (by omega)
  rw [this, if_pos h]

theorem tag_eq (cfg : Config) {address : Nat} (ha : address < 2 ^ 31) :
    toInt32 (address / 2 ^ (cfg.s + cfg.b)) =
      ((address >>> (cfg.s + cfg.b) : Nat) : Int) := by
  rw [Nat.shiftRight_eq_div_pow]
  apply toInt32_small
  have : address / 2 ^ (cfg.s + cfg.b) ≤ address := Nat.div_le_self _ _
  norm_num at ha
  omega

/-! ## Ageing -/

theorem SetRel.aged_of_lines {T : Int} {lines : List cache_line} {l : List Nat}
    {ps : List cache_line} {n : Nat} (h : SetRel T lines l ps n) {t : Nat}
    (ha : AgedLines t lines) : Aged t ps := by
  intro c hc hct
  exact ha c ((h.perm.mem_iff).2 (List.mem_append_left _ hc)) (h.valid c hc).1 hct

theorem SetRel.lines_of_aged {T : Int} {lines : List cache_line} {l : List Nat}
    {ps : List cache_line} {n : Nat} (h : SetRel T lines l ps n) {t : Nat}
    (ha : Aged t ps) : AgedLines t lines := by
  intro c hc hv hct
  rcases h.mem_lines hc with hm | rfl
  · exact ha c hm hct
  · simp [emptyLine] at hv

theorem update_timestamp_cache (st : State) :
    (update_timestamp st).cache = st.cache.map (fun set => set.map tick_line) := rfl

theorem SetRel.tick {T : Int} {lines : List cache_line} {l : List Nat}
    {ps : List cache_line} {n : Nat} (h : SetRel T lines l ps n) :
    SetRel (T + 1) (lines.map tick_line) l (ps.map tick_line) n ∧
      ∀ c ∈ lines.map tick_line, c.valid_bit = 1 → 1 ≤ c.stamp := by
  have hval : ∀ c ∈ ps, tick_line c = { c with stamp := c.stamp + 1 } := by
    intro c hc
    simp [tick_line, (h.valid c hc).1]
  constructor
  · constructor
    · have := h.perm.map tick_line
      simpa [tick_line, emptyLine] using this
    · rw [← h.tags, List.map_map]
      apply List.map_congr_left
      intro c hc
      simp [hval c hc]
    · intro c hc
      obtain ⟨c0, hc0, rfl⟩ := List.mem_map.1 hc
      rw [hval c0 hc0]
      have := h.valid c0 hc0
      exact ⟨this.1, by simp; omega, by simp; omega⟩
    · have e : (ps.map tick_line).map (·.stamp) = (ps.map (·.stamp)).map (· + 1) := by
        rw [List.map_map, List.map_map]
        apply List.map_congr_left
        intro c hc
        simp [hval c hc]
      rw [e, List.pairwise_map]
      exact h.sorted.imp (by intro a b hab; omega)
    · exact h.nodup
  · intro c hc hv
    obtain ⟨c0, hc0, rfl⟩ := List.mem_map.1 hc
    rcases h.mem_lines hc0 with hm | rfl
    · rw [hval c0 hm]
      have := (h.valid c0 hm).2.1
      simp; omega
    · simp [tick_line, emptyLine] at hv

/-! ## The simulation relation between the two simulators -/

theorem sim_init (cfg : Config) : Sim cfg 0 (init cfg) lru_init ∧ Fresh (init cfg) := by
  refine ⟨⟨by simp [init], ?_, rfl, rfl, rfl, rfl⟩, ?_⟩
  · intro idx lines h
    have hm := List.getElem?_mem h
    simp only [init, List.mem_replicate] at hm
    obtain ⟨_, rfl⟩ := hm
    refine ⟨by simp, [], cfg.E, ?_⟩
    constructor
    · simp [emptyLine]
    · simp [lru_init]
    · simp
    · simp
    · simp [lru_init]
  · intro lines hl c hc hv
    simp only [init, List.mem_replicate] at hl
    obtain ⟨_, rfl⟩ := hl
    simp only [List.mem_replicate] at hc
    obtain ⟨_, rfl⟩ := hc
    simp at hv

theorem sim_tick {cfg : Config} {T : Int} {st : State} {lst : LruState}
    (h : Sim cfg T st lst) : Sim cfg (T + 1) (update_timestamp st) lst ∧
      Fresh (update_timestamp st) := by
  obtain ⟨h1, h2, h3⟩ := h
  refine ⟨⟨by simpa [update_timestamp_cache] using h1, ?_, h3⟩, ?_⟩
  · intro idx lines hl
    rw [update_timestamp_cache, List.getElem?_map] at hl
    cases h0 : st.cache[idx]? with
    | none => simp [h0] at hl
    | some lines0 =>
      simp only [h0, Option.map_some', Option.some.injEq] at hl
      subst hl
      obtain ⟨hlen, ps, n, hrel⟩ := h2 idx lines0 h0
      exact ⟨by simpa using hlen, ps.map tick_line, n, hrel.tick.1⟩
  · intro lines hl c hc hv
    rw [update_timestamp_cache] at hl
    obtain ⟨lines0, hl0, rfl⟩ := List.mem_map.1 hl
    obtain ⟨idx, hidx⟩ := List.getElem?_of_mem hl0
    obtain ⟨_, ps, n, hrel⟩ := h2 idx lines0 hidx
    exact hrel.tick.2 c hc hv

theorem sim_replace {cfg : Config} {T : Int} {st : State} {lst : LruState}
    (h : Sim cfg T st lst) {idx0 : Nat} {lines1 : List cache_line} {l1 : List Nat}
    {ps1 : List cache_line} {n1 : Nat} (hlen : lines1.length = cfg.E)
    (hrel : SetRel T lines1 l1 ps1 n1) {st1 : State} {lst1 : LruState}
    (hc : st1.cache = st.cache.set idx0 lines1)
    (hsets : lst1.sets = Function.update lst.sets idx0 l1)
    (h1 : st1.hits_count = lst1.hits) (h2 : st1.miss_count = lst1.misses)
    (h3 : st1.eviction_count = lst1.evictions)
    (h4 : st1.double_ref_count = lst1.double_refs) : Sim cfg T st1 lst1 := by
  refine ⟨by rw [hc]; simpa using h.1, ?_, h1, h2, h3, h4⟩
  intro idx lines hl
  rw [hc] at hl
  by_cases e : idx0 = idx
  · subst e
    rw [List.getElem?_set_self'] at hl
    cases h0 : st.cache[idx0]? with
    | none => simp [h0] at hl
    | some x =>
      simp [h0] at hl
      subst hl
      exact ⟨hlen, ps1, n1, by rw [hsets]; simpa using hrel⟩
  · rw [List.getElem?_set_ne e] at hl
    rw [hsets, Function.update_noteq (Ne.symm e)]
    exact h.2.1 idx lines hl

theorem aged_replace {st st1 : State} {idx0 : Nat} {lines1 : List cache_line} {t : Nat}
    (hc : st1.cache = st.cache.set idx0 lines1) (ha : AgedLines t lines1) :
    ∀ lines, st1.cache[idx0]? = some lines → AgedLines t lines := by
  intro lines hl
  rw [hc, List.getElem?_set_self'] at hl
  cases h0 : st.cache[idx0]? with
  | none => simp [h0] at hl
  | some x =>
    simp [h0] at hl
    subst hl
    exact ha

/-- One call of `update` against one access of the reference model. -/
theorem access_sim {cfg : Config} (hs : 1 ≤ cfg.s) (hsb : cfg.s + cfg.b < 64)
    (hE : 1 ≤ cfg.E) {T : Int} (hT0 : 0 ≤ T) (hT : T < INT_MAX) {st : State}
    {lst : LruState} (h : Sim cfg T st lst) {address : Nat} (ha : address < 2 ^ 31)
    (w : Bool)
    (hag : ∀ lines, st.cache[(address >>> cfg.b) &&& (2 ^ cfg.s - 1)]? = some lines →
      AgedLines (address >>> (cfg.s + cfg.b)) lines) :
    ∃ st1, update cfg st address w = some st1 ∧ Sim cfg T st1 (lru_access cfg lst address) ∧
      ∀ lines, st1.cache[(address >>> cfg.b) &&& (2 ^ cfg.s - 1)]? = some lines →
        AgedLines (address >>> (cfg.s + cfg.b)) lines := by
  have hidxlt : (address >>> cfg.b) &&& (2 ^ cfg.s - 1) < st.cache.length := by
    rw [h.1, ← set_index_eq cfg hs hsb]
    exact set_index_lt cfg hs hsb address
  unfold update
  rw [address_set_index_some cfg hs hsb, address_tag_some cfg hsb, set_index_eq cfg hs hsb,
    tag_eq cfg ha]
  generalize hidx : (address >>> cfg.b) &&& (2 ^ cfg.s - 1) = idx0 at hidxlt hag ⊢
  generalize hteq : address >>> (cfg.s + cfg.b) = t at hag ⊢
  have hl : st.cache[idx0]? = some st.cache[idx0] := List.getElem?_eq_getElem hidxlt
  generalize st.cache[idx0] = lines at hl
  obtain ⟨hlen, ps, n, hrel⟩ := h.2.1 idx0 lines hl
  have hAg := hrel.aged_of_lines (hag lines hl)
  have hlru : lru_access cfg lst address =
      (if t ∈ lst.sets idx0 then
        { lst with
          sets := Function.update lst.sets idx0 (t :: (lst.sets idx0).erase t)
          hits := lst.hits + 1
          double_refs := if (lst.sets idx0).head? = some t then lst.double_refs + 1
            else lst.double_refs }
      else if (lst.sets idx0).length < cfg.E then
        { lst with
          sets := Function.update lst.sets idx0 (t :: lst.sets idx0)
          misses := lst.misses + 1 }
      else
        { lst with
          sets := Function.update lst.sets idx0 (t :: (lst.sets idx0).dropLast)
          misses := lst.misses + 1
          evictions := lst.evictions + 1 }) := by
    unfold lru_access
    simp only [hidx, hteq]
  simp only [hl]
  by_cases ht : t ∈ lst.sets idx0
  · obtain ⟨l1, l2, p1, c, p2, _, hps, _, _, hct, _, _⟩ := hrel.split ht
    have hc : c ∈ lines := (hrel.perm.mem_iff).2 (by simp [hps])
    obtain ⟨i, hf⟩ := first_index_ne_none (p := fun l => l.tag == (t : Int)) hc (by simp [hct])
    obtain ⟨ln, hln, _⟩ := first_index_some hf
    simp only [hf, hln]
    obtain ⟨hdr, ps1, hrel1, hag1⟩ := hrel.hit hT hT0 ht hAg hf hln
      (if (w && ln.dirty_bit == 0) = true then { ln with dirty_bit := 1 } else ln)
      (by split <;> rfl) (by split <;> rfl) (by split <;> rfl)
    refine ⟨_, rfl, ?_, ?_⟩
    · rw [hlru, if_pos ht]
      refine sim_replace h (by simpa using hlen) hrel1 rfl rfl ?_ ?_ ?_ ?_
      · simp [update_hit, State.with_set, h.2.2.1]
      · simp [update_hit, State.with_set, h.2.2.2.1]
      · simp [update_hit, State.with_set, h.2.2.2.2.1]
      · simp only [update_hit, State.with_set]
        by_cases hd : (lst.sets idx0).head? = some t
        · rw [if_pos hd, if_pos (hdr.2 hd), h.2.2.2.2.2]
        · rw [if_neg hd, if_neg (fun e => hd (hdr.1 e)), h.2.2.2.2.2]
    · exact @aged_replace st _ _ _ _ rfl (hrel1.lines_of_aged hag1)
  · rw [hrel.miss ht]
    simp only []
    cases hg : first_index (fun l => l.valid_bit == 0) lines with
    | some i =>
      obtain ⟨ln, hln, _⟩ := first_index_some hg
      simp only [hln]
      obtain ⟨hlt, ps1, n1, hrel1, hag1⟩ := hrel.cold hT0 ht hAg hg hln
        (if w = true then { ln with dirty_bit := 1 } else ln)
      refine ⟨_, rfl, ?_, ?_⟩
      · rw [hlru, if_neg ht, if_pos (show (lst.sets idx0).length < cfg.E by rw [← hlen]; exact hlt)]
        refine sim_replace h (by simpa using hlen) hrel1 rfl rfl ?_ ?_ ?_ ?_
        · simp [update_cold, State.with_set, h.2.2.1]
        · simp [update_cold, State.with_set, h.2.2.2.1]
        · simp [update_cold, State.with_set, h.2.2.2.2.1]
        · simp [update_cold, State.with_set, h.2.2.2.2.2]
      · exact @aged_replace st _ _ _ _ rfl (hrel1.lines_of_aged hag1)
    | none =>
      simp only []
      have hne : lines ≠ [] := by
        intro e; subst e; simp at hlen; omega
      obtain ⟨hfull, k, ln, hk, hln, hrest⟩ := hrel.evict hT0 ht hAg hg hne
      unfold update_evict
      have hnn : ¬ ((k : Int) < 0) := by omega
      simp only [hk, if_neg hnn, Int.toNat_ofNat, hln]
      obtain ⟨ps1, hrel1, hag1⟩ := hrest
        (if ln.dirty_bit = 1 then (if w = true then ln else { ln with dirty_bit := 0 })
         else (if w = true then { ln with dirty_bit := 1 } else ln))
        (by split <;> split <;> rfl)
      refine ⟨_, rfl, ?_, ?_⟩
      · rw [hlru, if_neg ht, if_neg (show ¬ (lst.sets idx0).length < cfg.E by rw [← hlen]; exact hfull)]
        refine sim_replace h (by simpa using hlen) hrel1 rfl rfl ?_ ?_ ?_ ?_
        · simp [State.with_set, h.2.2.1]
        · simp [State.with_set, h.2.2.2.1]
        · simp [State.with_set, h.2.2.2.2.1]
        · simp [State.with_set, h.2.2.2.2.2]
      · exact @aged_replace st _ _ _ _ rfl (hrel1.lines_of_aged hag1)

theorem fresh_aged {st : State} (hf : Fresh st) (idx : Nat) (t : Nat) :
    ∀ lines, st.cache[idx]? = some lines → AgedLines t lines := by
  intro lines hl c hc hv _
  exact hf lines (List.getElem?_mem hl) c hc hv

/-- One record in both simulators. -/
theorem step_sim {cfg : Config} (hs : 1 ≤ cfg.s) (hsb : cfg.s + cfg.b < 64)
    (hE : 1 ≤ cfg.E) {T : Int} (hT0 : 0 ≤ T) (hT : T < INT_MAX) {st : State}
    {lst : LruState} (h : Sim cfg T st lst) (hf : Fresh st) (r : Record)
    (ha : r.address < 2 ^ 31) :
    ∃ st1, step cfg st r = some st1 ∧ Sim cfg (T + 1) st1 (lru_step cfg lst r) ∧
      Fresh st1 := by
  obtain ⟨ty, a⟩ := r
  simp only at ha
  cases ty
  · exact ⟨_, rfl, sim_tick h⟩
  · obtain ⟨st1, h1, h2, _⟩ := access_sim hs hsb hE hT0 hT h ha false (fresh_aged hf _ _)
    exact ⟨update_timestamp st1, by simp [step, h1], sim_tick h2⟩
  · obtain ⟨st1, h1, h2, h3⟩ := access_sim hs hsb hE hT0 hT h ha false (fresh_aged hf _ _)
    obtain ⟨st2, h4, h5, _⟩ := access_sim hs hsb hE hT0 hT h2 ha true h3
    exact ⟨update_timestamp st2, by simp [step, h1, h4], sim_tick h5⟩
  · obtain ⟨st1, h1, h2, _⟩ := access_sim hs hsb hE hT0 hT h ha true (fresh_aged hf _ _)
    exact ⟨update_timestamp st1, by simp [step, h1], sim_tick h2⟩
  · exact ⟨_, rfl, sim_tick h⟩

/-- A whole trace in both simulators. -/
theorem run_sim {cfg : Config} (hs : 1 ≤ cfg.s) (hsb : cfg.s + cfg.b < 64)
    (hE : 1 ≤ cfg.E) :
    ∀ (trace : List Record) {T : Int} {st : State} {lst : LruState}, 0 ≤ T →
      T + trace.length ≤ INT_MAX → Sim cfg T st lst → Fresh st →
      (∀ r ∈ trace, r.address < 2 ^ 31) →
      ∃ st1 T1, run cfg st trace = some st1 ∧ Sim cfg T1 st1 (lru_run cfg lst trace)
  | [], T, st, lst, _, _, h, _, _ => ⟨st, T, rfl, h⟩
  | r :: rs, T, st, lst, hT0, hT, h, hf, ha => by
    have hT' : T < INT_MAX := by
      simp only [List.length_cons] at hT
      push_cast at hT
      omega
    obtain ⟨st1, h1, h2, h3⟩ := step_sim hs hsb hE hT0 hT' h hf r (ha r (by simp))
    obtain ⟨st2, T2, h4, h5⟩ := run_sim hs hsb hE rs (T := T + 1) (by omega)
      (by simp only [List.length_cons] at hT; push_cast at hT; omega) h2 h3
      (fun x hx => ha x (by simp [hx]))
    exact ⟨st2, T2, by simp [run, h1, h4], h5⟩

/-- With counters and stamps in the integers: for `s ≥ 1`, `E ≥ 1`, `s + b < 64` and every
trace of fewer than
`2 ^ 31` records whose addresses are below `2 ^ 31`, the stamp-based simulator returns, and
its hits, misses, evictions and double references equal those of the reference LRU model
(recency list per set, move-to-front on hit, insert-at-front on miss, eviction from the
tail when full, double reference when the hit tag is already at the front). -/
theorem lru_refinement (cfg : Config) (hs : 1 ≤ cfg.s) (hE : 1 ≤ cfg.E)
    (hsb : cfg.s + cfg.b < 64) (trace : List Record)
    (haddr : ∀ r ∈ trace, r.address < 2 ^ 31) (hlen : trace.length < 2 ^ 31) :
    ∃ st, run cfg (init cfg) trace = some st ∧
      st.hits_count = (lru_run cfg lru_init trace).hits ∧
      st.miss_count = (lru_run cfg lru_init trace).misses ∧
      st.eviction_count = (lru_run cfg lru_init trace).evictions ∧
      st.double_ref_count = (lru_run cfg lru_init trace).double_refs := by
  obtain ⟨h0, hf0⟩ := sim_init cfg
  obtain ⟨st, T, h1, h2⟩ := run_sim hs hsb hE trace (T := 0) (le_refl _)
    (by simp only [INT_MAX]; norm_num at hlen; omega) h0 hf0 haddr
  exact ⟨st, h1, h2.2.2⟩

theorem lru_refinement_example :
    (1 ≤ (⟨1, 2, 2⟩ : Config).s ∧ 1 ≤ (⟨1, 2, 2⟩ : Config).E ∧
      (⟨1, 2, 2⟩ : Config).s + (⟨1, 2, 2⟩ : Config).b < 64 ∧
      (∀ r ∈ [(⟨RecType.S, 0⟩ : Record), ⟨RecType.M, 8⟩, ⟨RecType.L, 0⟩, ⟨RecType.I, 4⟩,
          ⟨RecType.L, 16⟩], r.address < 2 ^ 31) ∧
      [(⟨RecType.S, 0⟩ : Record), ⟨RecType.M, 8⟩, ⟨RecType.L, 0⟩, ⟨RecType.I, 4⟩,
          ⟨RecType.L, 16⟩].length < 2 ^ 31) ∧
    ∃ st, run ⟨1, 2, 2⟩ (init ⟨1, 2, 2⟩)
        [⟨RecType.S, 0⟩, ⟨RecType.M, 8⟩, ⟨RecType.L, 0⟩, ⟨RecType.I, 4⟩, ⟨RecType.L, 16⟩] =
          some st ∧
      st.hits_count = (lru_run ⟨1, 2, 2⟩ lru_init
        [⟨RecType.S, 0⟩, ⟨RecType.M, 8⟩, ⟨RecType.L, 0⟩, ⟨RecType.I, 4⟩, ⟨RecType.L, 16⟩]).hits ∧
      st.miss_count = (lru_run ⟨1, 2, 2⟩ lru_init
        [⟨RecType.S, 0⟩, ⟨RecType.M, 8⟩, ⟨RecType.L, 0⟩, ⟨RecType.I, 4⟩, ⟨RecType.L, 16⟩]).misses ∧
      st.eviction_count = (lru_run ⟨1, 2, 2⟩ lru_init
        [⟨RecType.S, 0⟩, ⟨RecType.M, 8⟩, ⟨RecType.L, 0⟩, ⟨RecType.I, 4⟩,
          ⟨RecType.L, 16⟩]).evictions ∧
      st.double_ref_count = (lru_run ⟨1, 2, 2⟩ lru_init
        [⟨RecType.S, 0⟩, ⟨RecType.M, 8⟩, ⟨RecType.L, 0⟩, ⟨RecType.I, 4⟩,
          ⟨RecType.L, 16⟩]).double_refs :=
  ⟨by decide,
    lru_refinement ⟨1, 2, 2⟩ (by decide) (by decide) (by decide)
      [⟨RecType.S, 0⟩, ⟨RecType.M, 8⟩, ⟨RecType.L, 0⟩, ⟨RecType.I, 4⟩, ⟨RecType.L, 16⟩]
      (by decide) (by decide)⟩

/-! ## The long idle trace -/

theorem run_idle (cfg : Config) :
    ∀ (n : Nat) (k : Int),
      run cfg (idle_state k) (List.replicate n ⟨RecType.I, 0⟩ ++ [⟨RecType.L, 0⟩]) =
        run cfg (idle_state (k + n)) [⟨RecType.L, 0⟩]
  | 0, k => by simp
  | n + 1, k => by
    have e : step cfg (idle_state k) ⟨RecType.I, 0⟩ = some (idle_state (k + 1)) := by
      simp [step, update_timestamp, idle_state]
    rw [List.replicate_succ, List.cons_append, run, e, Option.some_bind, run_idle cfg n (k + 1)]
    congr 2
    push_cast
    ring

theorem lru_run_idle (cfg : Config) (lst : LruState) (rs : List Record) :
    ∀ n : Nat, lru_run cfg lst (List.replicate n ⟨RecType.I, 0⟩ ++ rs) = lru_run cfg lst rs
  | 0 => by simp
  | n + 1 => by
    rw [List.replicate_succ, List.cons_append, lru_run]
    exact lru_run_idle cfg lst rs n

/-- The refinement fails on a trace of `2 ^ 31` records: after `L 0` and `2 ^ 31 - 2`
records that only age the cache, the line's stamp is `INT_MAX`, the scan
`stamp < min_stamp` starting from `INT_MAX` skips it, and the hit of the final `L 0` is
not counted as a double reference, while the reference model (tag at the front of the
list) counts one. All addresses are 0. -/
theorem idle_trace_not_double_ref :
    ∃ st, run ⟨1, 1, 0⟩ (init ⟨1, 1, 0⟩)
        (⟨RecType.L, 0⟩ :: (List.replicate 2147483646 ⟨RecType.I, 0⟩ ++ [⟨RecType.L, 0⟩])) =
          some st ∧
      st.double_ref_count = 0 ∧
      (lru_run ⟨1, 1, 0⟩ lru_init
        (⟨RecType.L, 0⟩ ::
          (List.replicate 2147483646 ⟨RecType.I, 0⟩ ++ [⟨RecType.L, 0⟩]))).double_refs = 1 := by
  have e1 : step ⟨1, 1, 0⟩ (init ⟨1, 1, 0⟩) ⟨RecType.L, 0⟩ = some (idle_state 1) := by decide
  have e2 : run ⟨1, 1, 0⟩ (idle_state (1 + (2147483646 : Nat))) [⟨RecType.L, 0⟩] =
      some { cache := [[⟨1, 0, 0, 1⟩], [⟨0, 0, -1, -1⟩]]
             hits_count := 1, miss_count := 1, eviction_count := 0
             dirty_eviction_bytes_count := 0, dirty_active_bytes_count := 0
             double_ref_count := 0 } := by decide
  have e3 := (run_idle ⟨1, 1, 0⟩ 2147483646 1).trans e2
  have e4 : (lru_run ⟨1, 1, 0⟩ lru_init
      (⟨RecType.L, 0⟩ ::
        (List.replicate 2147483646 ⟨RecType.I, 0⟩ ++ [⟨RecType.L, 0⟩]))).double_refs = 1 := by
    rw [lru_run, lru_run_idle]
    decide
  exact ⟨_, by rw [run, e1, Option.some_bind, e3], rfl, e4⟩

/-- C1 (code bug): with `s = 1, E = 1, b = 2`, the first call `update(0x7fffffff8, 1)` on
the empty cache decodes the tag `0xffffffff`, which is `-1` in the line's `int` field; the
hit loop matches the never-used line 0 of set 0 (tag `-1`), sets its dirty bit and adds
`B = 4` to `dirty_active_bytes_count`, although no line of the cache is valid. -/
theorem C1_dirty_bytes_without_valid_line :
    ∃ st, update ⟨1, 1, 2⟩ (init ⟨1, 1, 2⟩) 0x7fffffff8 true = some st ∧
      st.dirty_active_bytes_count = 4 ∧ st.hits_count = 1 ∧
      valid_dirty_lines st = 0 ∧ 2 ^ 2 * (valid_dirty_lines st : Int) = 0 :=
  ⟨_, rfl, rfl, rfl, rfl, rfl⟩

/-- C3 (code bug): with `s = 1, E = 1, b = 2`, after the record `L 0x7fffffff8` the call
`update(0x7fffffff8, 0)` counts a hit and a double reference on line 0 of set 0, whose
`valid_bit` is 0: the set has no valid line at all, before and after the call. -/
theorem C3_double_ref_on_invalid_line :
    ∃ st st1, run ⟨1, 1, 2⟩ (init ⟨1, 1, 2⟩) [⟨RecType.L, 0x7fffffff8⟩] = some st ∧
      update ⟨1, 1, 2⟩ st 0x7fffffff8 false = some st1 ∧
      st1.double_ref_count = st.double_ref_count + 1 ∧
      st1.hits_count = st.hits_count + 1 ∧
      st.cache = [[⟨0, 0, -1, 0⟩], [⟨0, 0, -1, -1⟩]] ∧
      st1.cache = [[⟨0, 0, -1, 0⟩], [⟨0, 0, -1, -1⟩]] :=
  ⟨_, _, rfl, rfl, rfl, rfl, rfl, rfl⟩

/-- C16 (code bug): with `s = 1, E = 1, b = 2` the addresses `0` and `0x800000000` decode
to the same set index 0, and their tags `A >> 3` are `0` and `2 ^ 32`. Stored in the
line's `int` field, `2 ^ 32` is `0`, so after `update(0, 0)` on the empty cache the call
`update(0x800000000, 0)` is counted as a hit although the two tags differ. -/
theorem C16_truncated_tag_hit :
    ∃ st1 st2, update ⟨1, 1, 2⟩ (init ⟨1, 1, 2⟩) 0 false = some st1 ∧
      update ⟨1, 1, 2⟩ st1 0x800000000 false = some st2 ∧
      st2.hits_count = st1.hits_count + 1 ∧ st2.miss_count = st1.miss_count ∧
      address_set_index ⟨1, 1, 2⟩ 0 = some 0 ∧
      address_set_index ⟨1, 1, 2⟩ 0x800000000 = some 0 ∧
      0x800000000 >>> (1 + 2) ≠ 0 >>> (1 + 2) ∧
      address_tag ⟨1, 1, 2⟩ 0x800000000 = address_tag ⟨1, 1, 2⟩ 0 :=
  ⟨_, _, rfl, rfl, rfl, rfl, rfl, rfl, by decide, rfl⟩

/-- C17 (code bug): for `s = 0` the set index expression `(A << (64-s-b)) >> (64-s)`
shifts right by 64, the width of the operand, and has no defined value, for every
address, every `E` and every `b`; the spec's index `(A >> b) & (2 ^ 0 - 1)` is 0. -/
theorem C17_set_index_undefined_for_single_set (E b A : Nat) :
    address_set_index ⟨0, E, b⟩ A = none ∧ (A >>> b) &&& (2 ^ 0 - 1) = 0 ∧
      update ⟨0, E, b⟩ (init ⟨0, E, b⟩) A false = none := by
  have h1 : address_set_index ⟨0, E, b⟩ A = none := by
    unfold address_set_index shl64 shr64
    by_cases hb : (0 : Int) ≤ 64 - ((0 : Nat) : Int) - (b : Int) ∧
        64 - ((0 : Nat) : Int) - (b : Int) < 64
    · simp only [if_pos hb, Option.some_bind]
      rw [if_neg]
      simp
    · simp only [if_neg hb, Option.none_bind]
  refine ⟨h1, by simp, ?_⟩
  unfold update
  rw [h1]

/-- C18 (code bug): with `s = 1, E = 1, b = 2`, the call `update(0x7fffffff8, 1)` on the
empty cache takes the hit branch for line 0 of set 0, whose `valid_bit` is 0: the state
reached has `hits_count = 1` and its line 0 of set 0 has `valid_bit = 0` together with
`dirty_bit = 1` and `stamp = 0`, so that the MRU scan of the next call, which skips only
stamps equal to `-1`, selects it. -/
theorem C18_invalid_line_hit :
    ∃ st, Reach ⟨1, 1, 2⟩ st ∧
      update ⟨1, 1, 2⟩ (init ⟨1, 1, 2⟩) 0x7fffffff8 true = some st ∧
      st.hits_count = 1 ∧ st.miss_count = 0 ∧
      st.cache = [[⟨0, 1, -1, 0⟩], [⟨0, 0, -1, -1⟩]] ∧
      (scan_min [⟨0, 1, -1, 0⟩] 0 (INT_MAX, -1)).2 = 0 :=
  ⟨_, Reach.update 0x7fffffff8 true Reach.init rfl, rfl, rfl, rfl, rfl, rfl⟩

theorem Renaming.shift {f : Int → Int} (hf : Renaming f) : Renaming (shift_stamp f) := by
  obtain ⟨hm, h1, h0⟩ := hf
  refine ⟨?_, by simp [shift_stamp], by simp [shift_stamp]⟩
  intro a b hab
  unfold shift_stamp
  by_cases ha : 1 ≤ a
  · rw [if_pos ha, if_pos (by omega)]
    have := hm (show a - 1 < b - 1 by omega)
    omega
  · rw [if_neg ha]
    by_cases hb : 1 ≤ b
    · rw [if_pos hb]
      have : f 0 ≤ f (b - 1) := hm.monotone (by omega)
      omega
    · rw [if_neg hb]; exact hab

theorem Renaming.bump {f : Int → Int} (hf : Renaming f) : Renaming (bump_stamp f) := by
  obtain ⟨hm, h1, h0⟩ := hf
  refine ⟨?_, by simp [bump_stamp], by simp [bump_stamp]⟩
  intro a b hab
  unfold bump_stamp
  by_cases ha : 1 ≤ a
  · rw [if_pos ha, if_pos (by omega)]
    have := hm hab
    omega
  · rw [if_neg ha]
    by_cases hb : 1 ≤ b
    · rw [if_pos hb]
      have : f 0 ≤ f b := hm.monotone (by omega)
      omega
    · rw [if_neg hb]; exact hab

theorem renaming_id : Renaming (fun x => x) := ⟨fun _ _ h => h, rfl, rfl⟩

theorem relabel_id (st : State) : relabel (fun x => x) st = st := by
  unfold relabel
  have : (fun set : List cache_line => set.map (relabel_line (fun x => x))) = id := by
    funext set
    have e : relabel_line (fun x => x) = id := by
      funext l; rfl
    rw [e, List.map_id]; rfl
  rw [this, List.map_id]

theorem counters_relabel (f : Int → Int) (st : State) :
    counters (relabel f st) = counters st := rfl

theorem first_index_relabel (f : Int → Int) (p : cache_line → Bool)
    (hp : ∀ l, p (relabel_line f l) = p l) :
    ∀ set : List cache_line, first_index p (set.map (relabel_line f)) = first_index p set
  | [] => rfl
  | l :: ls => by
    simp only [List.map_cons, first_index, hp, first_index_relabel f p hp ls]

theorem scan_min_relabel {f : Int → Int} (hf : Renaming f) :
    ∀ (set : List cache_line) (j : Nat) (acc acc1 : Int × Int),
      (∀ l ∈ set, l.stamp < INT_MAX ∧ f l.stamp < INT_MAX) →
      acc.2 = acc1.2 → ((acc.1 = INT_MAX ∧ acc1.1 = INT_MAX) ∨ acc.1 = f acc1.1) →
      (scan_min (set.map (relabel_line f)) j acc).2 = (scan_min set j acc1).2
  | [], j, acc, acc1, _, h2, _ => h2
  | l :: ls, j, acc, acc1, hb, h2, h1 => by
    have hl := hb l (List.mem_cons_self _ _)
    have hls : ∀ x ∈ ls, x.stamp < INT_MAX ∧ f x.stamp < INT_MAX :=
      fun x hx => hb x (List.mem_cons_of_mem _ hx)
    have hne : f l.stamp ≠ -1 ↔ l.stamp ≠ -1 := by
      have := @Function.Injective.ne_iff _ _ f hf.1.injective l.stamp (-1)
      rw [hf.2.1] at this
      exact this
    have hlt : f l.stamp < acc.1 ↔ l.stamp < acc1.1 := by
      rcases h1 with ⟨e1, e2⟩ | e
      · rw [e1, e2]; exact ⟨fun _ => hl.1, fun _ => hl.2⟩
      · rw [e]; exact hf.1.lt_iff_lt
    simp only [List.map_cons, scan_min]
    by_cases hc : l.stamp < acc1.1 ∧ l.stamp ≠ -1
    · rw [if_pos hc, if_pos (show (relabel_line f l).stamp < acc.1 ∧
        (relabel_line f l).stamp ≠ -1 from ⟨hlt.2 hc.1, hne.2 hc.2⟩)]
      exact scan_min_relabel hf ls (j + 1) _ _ hls rfl (Or.inr rfl)
    · rw [if_neg hc, if_neg (show ¬ ((relabel_line f l).stamp < acc.1 ∧
        (relabel_line f l).stamp ≠ -1) from fun h => hc ⟨hlt.1 h.1, hne.1 h.2⟩)]
      exact scan_min_relabel hf ls (j + 1) _ _ hls h2 h1

theorem scan_max_relabel {f : Int → Int} (hf : Renaming f) :
    ∀ (set : List cache_line) (j : Nat) (acc acc1 : Int × Int),
      (∀ l ∈ set, -1 ≤ l.stamp) →
      acc.2 = acc1.2 → ((acc.1 = INT_MIN ∧ acc1.1 = INT_MIN) ∨ acc.1 = f acc1.1) →
      (scan_max (set.map (relabel_line f)) j acc).2 = (scan_max set j acc1).2
  | [], j, acc, acc1, _, h2, _ => h2
  | l :: ls, j, acc, acc1, hb, h2, h1 => by
    have hl := hb l (List.mem_cons_self _ _)
    have hls : ∀ x ∈ ls, -1 ≤ x.stamp := fun x hx => hb x (List.mem_cons_of_mem _ hx)
    have hne : f l.stamp ≠ -1 ↔ l.stamp ≠ -1 := by
      have := @Function.Injective.ne_iff _ _ f hf.1.injective l.stamp (-1)
      rw [hf.2.1] at this
      exact this
    have hge : -1 ≤ f l.stamp := by
      have := hf.1.monotone hl
      rw [hf.2.1] at this
      exact this
    have hlt : f l.stamp > acc.1 ↔ l.stamp > acc1.1 := by
      rcases h1 with ⟨e1, e2⟩ | e
      · rw [e1, e2]
        unfold INT_MIN
        constructor <;> intro _ <;> omega
      · rw [e]; exact hf.1.lt_iff_lt
    simp only [List.map_cons, scan_max]
    by_cases hc : l.stamp > acc1.1 ∧ l.stamp ≠ -1
    · rw [if_pos hc, if_pos (show (relabel_line f l).stamp > acc.1 ∧
        (relabel_line f l).stamp ≠ -1 from ⟨hlt.2 hc.1, hne.2 hc.2⟩)]
      exact scan_max_relabel hf ls (j + 1) _ _ hls rfl (Or.inr rfl)
    · rw [if_neg hc, if_neg (show ¬ ((relabel_line f l).stamp > acc.1 ∧
        (relabel_line f l).stamp ≠ -1) from fun h => hc ⟨hlt.1 h.1, hne.1 h.2⟩)]
      exact scan_max_relabel hf ls (j + 1) _ _ hls h2 h1

theorem relabel_with_set (f : Int → Int) (st : State) (idx : Nat) (set : List cache_line) :
    relabel f (st.with_set idx set) = (relabel f st).with_set idx (set.map (relabel_line f)) := by
  unfold relabel State.with_set
  simp only [List.map_set]

theorem update_hit_relabel {f : Int → Int} (hf : Renaming f) (cfg : Config) (st : State)
    (idx : Nat) (set : List cache_line) (i : Nat) (ln : cache_line) (is_write : Bool)
    (hb : ∀ l ∈ set, l.stamp < INT_MAX ∧ f l.stamp < INT_MAX)
    (hln : ln.stamp < INT_MAX ∧ f ln.stamp < INT_MAX) :
    update_hit cfg (relabel f st) idx (set.map (relabel_line f)) i (relabel_line f ln) is_write =
      relabel f (update_hit cfg st idx set i ln is_write) := by
  unfold update_hit
  simp only []
  have e1 : (if (is_write && ((relabel_line f ln).dirty_bit == 0)) = true then
        { relabel_line f ln with dirty_bit := 1 } else relabel_line f ln) =
      relabel_line f (if (is_write && (ln.dirty_bit == 0)) = true then
        { ln with dirty_bit := 1 } else ln) := by
    have : (relabel_line f ln).dirty_bit = ln.dirty_bit := rfl
    rw [this]
    split <;> rfl
  rw [e1, ← List.map_set]
  have hb1 : ∀ l ∈ set.set i (if (is_write && (ln.dirty_bit == 0)) = true then
      { ln with dirty_bit := 1 } else ln), l.stamp < INT_MAX ∧ f l.stamp < INT_MAX := by
    intro l hl
    rcases List.mem_or_eq_of_mem_set hl with hl | rfl
    · exact hb l hl
    · split <;> exact hln
  rw [scan_min_relabel hf _ 0 (INT_MAX, -1) (INT_MAX, -1) hb1 rfl (Or.inl ⟨rfl, rfl⟩)]
  have e2 : ({ relabel_line f (if (is_write && (ln.dirty_bit == 0)) = true then
        { ln with dirty_bit := 1 } else ln) with stamp := 0 } : cache_line) =
      relabel_line f { (if (is_write && (ln.dirty_bit == 0)) = true then
        { ln with dirty_bit := 1 } else ln) with stamp := 0 } := by
    unfold relabel_line
    simp only [hf.2.2]
  rw [e2, ← List.map_set, ← relabel_with_set]
  rfl

theorem update_cold_relabel {f : Int → Int} (hf : Renaming f) (cfg : Config) (st : State)
    (idx : Nat) (set : List cache_line) (i : Nat) (ln : cache_line) (atag : Int)
    (is_write : Bool) :
    update_cold cfg (relabel f st) idx (set.map (relabel_line f)) i (relabel_line f ln) atag
        is_write =
      relabel f (update_cold cfg st idx set i ln atag is_write) := by
  unfold update_cold
  simp only []
  have e2 : ({ (if is_write = true then { relabel_line f ln with dirty_bit := 1 }
        else relabel_line f ln) with valid_bit := 1, tag := atag, stamp := 0 } : cache_line) =
      relabel_line f { (if is_write = true then { ln with dirty_bit := 1 } else ln) with
        valid_bit := 1, tag := atag, stamp := 0 } := by
    unfold relabel_line
    split <;> simp only [hf.2.2]
  rw [e2, ← List.map_set, ← relabel_with_set]
  rfl

theorem update_evict_relabel {f : Int → Int} (hf : Renaming f) (cfg : Config) (st : State)
    (idx : Nat) (set : List cache_line) (atag : Int) (is_write : Bool)
    (hb : ∀ l ∈ set, -1 ≤ l.stamp) :
    update_evict cfg (relabel f st) idx (set.map (relabel_line f)) atag is_write =
      (update_evict cfg st idx set atag is_write).map (relabel f) := by
  unfold update_evict
  simp only []
  rw [scan_max_relabel hf set 0 (INT_MIN, -1) (INT_MIN, -1) hb rfl (Or.inl ⟨rfl, rfl⟩)]
  by_cases hneg : (scan_max set 0 (INT_MIN, -1)).2 < 0
  · rw [if_pos hneg, if_pos hneg]; rfl
  · rw [if_neg hneg, if_neg hneg, List.getElem?_map]
    cases hg : set[(scan_max set 0 (INT_MIN, -1)).2.toNat]? with
    | none => rfl
    | some ln =>
      simp only [Option.map_some']
      have e2 : ({ (if (relabel_line f ln).dirty_bit = 1 then
            (if is_write = true then relabel_line f ln
              else { relabel_line f ln with dirty_bit := 0 })
            else (if is_write = true then { relabel_line f ln with dirty_bit := 1 }
              else relabel_line f ln)) with tag := atag, stamp := 0 } : cache_line) =
          relabel_line f { (if ln.dirty_bit = 1 then
            (if is_write = true then ln else { ln with dirty_bit := 0 })
            else (if is_write = true then { ln with dirty_bit := 1 } else ln)) with
              tag := atag, stamp := 0 } := by
        have : (relabel_line f ln).dirty_bit = ln.dirty_bit := rfl
        rw [this]
        unfold relabel_line
        split <;> split <;> simp only [hf.2.2]
      have e3 : (relabel_line f ln).dirty_bit = ln.dirty_bit := rfl
      rw [e2, e3]
      simp only [relabel, State.with_set, List.map_set]

theorem update_relabel {f : Int → Int} (hf : Renaming f) (cfg : Config) (st : State)
    (address : Nat) (is_write : Bool)
    (hb : ∀ set ∈ st.cache, ∀ l ∈ set,
      -1 ≤ l.stamp ∧ l.stamp < INT_MAX ∧ f l.stamp < INT_MAX) :
    update cfg (relabel f st) address is_write =
      (update cfg st address is_write).map (relabel f) := by
  unfold update
  cases hidx : address_set_index cfg address with
  | none => rfl
  | some idx =>
    cases htag : address_tag cfg address with
    | none => rfl
    | some atag =>
      simp only []
      have ec : (relabel f st).cache[idx]? = (st.cache[idx]?).map (List.map (relabel_line f)) := by
        unfold relabel
        simp only [List.getElem?_map]
      rw [ec]
      cases hset : st.cache[idx]? with
      | none => rfl
      | some set =>
        simp only [Option.map_some']
        have hmem : set ∈ st.cache := List.getElem?_mem hset
        have hbs := hb set hmem
        rw [first_index_relabel f (fun l => l.tag == atag) (fun _ => rfl),
          first_index_relabel f (fun l => l.valid_bit == 0) (fun _ => rfl)]
        cases hfi : first_index (fun l => l.tag == atag) set with
        | some i =>
          simp only [List.getElem?_map]
          cases hln : set[i]? with
          | none => rfl
          | some ln =>
            have hlm : ln ∈ set := List.getElem?_mem hln
            simp only [Option.map_some']
            rw [update_hit_relabel hf cfg st idx set i ln is_write
              (fun l hl => (hbs l hl).2) (hbs ln hlm).2]
        | none =>
          simp only []
          cases hfv : first_index (fun l => l.valid_bit == 0) set with
          | some i =>
            simp only [List.getElem?_map]
            cases hln : set[i]? with
            | none => rfl
            | some ln =>
              simp only [Option.map_some']
              rw [update_cold_relabel hf]
          | none =>
            simp only []
            exact update_evict_relabel hf cfg st idx set atag is_write
              (fun l hl => (hbs l hl).1)

theorem lines_with_set {T : Int} {st st1 : State} (h : Lines T st) (idx : Nat)
    (set : List cache_line) (hs : ∀ l ∈ set, LineOk T l)
    (hc : st1.cache = st.cache.set idx set) : Lines T st1 := by
  intro x hx
  rw [hc] at hx
  rcases List.mem_or_eq_of_mem_set hx with hx | rfl
  · exact h x hx
  · exact hs

theorem lines_update {T : Int} {cfg : Config} {st st1 : State} (h : Lines T st) (hT : 0 ≤ T)
    {address : Nat} {is_write : Bool} (hu : update cfg st address is_write = some st1) :
    Lines T st1 := by
  unfold update at hu
  cases hidx : address_set_index cfg address with
  | none => rw [hidx] at hu; cases hu
  | some idx =>
    cases htag : address_tag cfg address with
    | none => rw [hidx, htag] at hu; cases hu
    | some atag =>
      rw [hidx, htag] at hu
      simp only [] at hu
      cases hset : st.cache[idx]? with
      | none => rw [hset] at hu; cases hu
      | some set =>
        rw [hset] at hu
        simp only [] at hu
        have hmem : set ∈ st.cache := List.getElem?_mem hset
        have hbs := h set hmem
        cases hfi : first_index (fun l => l.tag == atag) set with
        | some i =>
          rw [hfi] at hu
          simp only [] at hu
          cases hln : set[i]? with
          | none => rw [hln] at hu; cases hu
          | some ln =>
            rw [hln] at hu
            have hlm : LineOk T ln := hbs ln (List.getElem?_mem hln)
            have e := Option.some.inj hu
            subst e
            refine lines_with_set h idx _ ?_ rfl
            intro l hl
            rcases List.mem_or_eq_of_mem_set hl with hl | rfl
            · rcases List.mem_or_eq_of_mem_set hl with hl | rfl
              · exact hbs l hl
              · split
                · exact ⟨hlm.1, hlm.2.1, hlm.2.2.1, hlm.2.2.2⟩
                · exact hlm
            · split
              · exact ⟨hlm.1, fun _ => le_refl _, fun _ => Or.inr rfl, hT⟩
              · exact ⟨hlm.1, fun _ => le_refl _, fun _ => Or.inr rfl, hT⟩
        | none =>
          rw [hfi] at hu
          simp only [] at hu
          cases hfv : first_index (fun l => l.valid_bit == 0) set with
          | some i =>
            rw [hfv] at hu
            simp only [] at hu
            cases hln : set[i]? with
            | none => rw [hln] at hu; cases hu
            | some ln =>
              rw [hln] at hu
              have e := Option.some.inj hu
              subst e
              refine lines_with_set h idx _ ?_ rfl
              intro l hl
              rcases List.mem_or_eq_of_mem_set hl with hl | rfl
              · exact hbs l hl
              · exact ⟨Or.inr rfl, fun _ => le_refl _, fun hv => by simp at hv, hT⟩
          | none =>
            rw [hfv] at hu
            simp only [] at hu
            unfold update_evict at hu
            simp only [] at hu
            by_cases hneg : (scan_max set 0 (INT_MIN, -1)).2 < 0
            · rw [if_pos hneg] at hu; cases hu
            · rw [if_neg hneg] at hu
              cases hln : set[(scan_max set 0 (INT_MIN, -1)).2.toNat]? with
              | none => rw [hln] at hu; cases hu
              | some ln =>
                rw [hln] at hu
                have hlm : LineOk T ln := hbs ln (List.getElem?_mem hln)
                have e := Option.some.inj hu
                subst e
                refine lines_with_set h idx _ ?_ rfl
                intro l hl
                rcases List.mem_or_eq_of_mem_set hl with hl | rfl
                · exact hbs l hl
                · split
                  · split
                    · exact ⟨hlm.1, fun _ => le_refl _, fun _ => Or.inr rfl, hT⟩
                    · exact ⟨hlm.1, fun _ => le_refl _, fun _ => Or.inr rfl, hT⟩
                  · split
                    · exact ⟨hlm.1, fun _ => le_refl _, fun _ => Or.inr rfl, hT⟩
                    · exact ⟨hlm.1, fun _ => le_refl _, fun _ => Or.inr rfl, hT⟩

theorem lines_tick {T : Int} {st : State} (h : Lines T st) :
    Lines (T + 1) (update_timestamp st) ∧ Fresh (update_timestamp st) := by
  constructor
  · intro set hset l hl
    rw [update_timestamp_cache] at hset
    obtain ⟨set0, hset0, rfl⟩ := List.mem_map.1 hset
    obtain ⟨l0, hl0, rfl⟩ := List.mem_map.1 hl
    have := h set0 hset0 l0 hl0
    unfold tick_line
    by_cases hv : l0.valid_bit = 1
    · rw [if_pos hv]
      have h1 := this.2.1 hv
      have h2 := this.2.2.2
      refine ⟨this.1, fun _ => ?_, fun h0 => ?_, ?_⟩
      · show 0 ≤ l0.stamp + 1
        omega
      · have h3 : l0.valid_bit = 0 := h0
        rw [hv] at h3
        cases h3
      · show l0.stamp + 1 ≤ T + 1
        omega
    · rw [if_neg hv]
      exact ⟨this.1, this.2.1, this.2.2.1, by have := this.2.2.2; omega⟩
  · intro set hset l hl hv
    rw [update_timestamp_cache] at hset
    obtain ⟨set0, hset0, rfl⟩ := List.mem_map.1 hset
    obtain ⟨l0, hl0, rfl⟩ := List.mem_map.1 hl
    have := h set0 hset0 l0 hl0
    unfold tick_line at hv ⊢
    by_cases hv0 : l0.valid_bit = 1
    · rw [if_pos hv0]
      have := this.2.1 hv0
      show 1 ≤ l0.stamp + 1
      omega
    · rw [if_neg hv0] at hv
      exact absurd hv hv0

theorem tick_relabel_both {f : Int → Int} (hf : Renaming f) {T : Int} {st : State}
    (h : Lines T st) :
    update_timestamp (relabel f st) = relabel (shift_stamp f) (update_timestamp st) := by
  have e : (update_timestamp (relabel f st)).cache =
      (relabel (shift_stamp f) (update_timestamp st)).cache := by
    show ((st.cache.map (fun set => set.map (relabel_line f))).map
        (fun set => set.map tick_line)) =
      (st.cache.map (fun set => set.map tick_line)).map
        (fun set => set.map (relabel_line (shift_stamp f)))
    rw [List.map_map, List.map_map]
    apply List.map_congr_left
    intro set hset
    simp only [Function.comp, List.map_map]
    apply List.map_congr_left
    intro l hl
    have hl1 := h set hset l hl
    simp only [Function.comp]
    unfold tick_line relabel_line shift_stamp
    by_cases hv : l.valid_bit = 1
    · have h0 := hl1.2.1 hv
      simp only [hv, if_true]
      rw [if_pos (by omega)]
      simp
    · rcases hl1.1 with h0 | h1
      · simp only [hv, if_false]
        rcases hl1.2.2.1 h0 with e | e
        · rw [e, hf.2.1]; simp
        · rw [e, hf.2.2]; simp
      · exact absurd h1 hv
  unfold update_timestamp relabel at e ⊢
  simp only [] at e ⊢
  rw [e]

theorem tick_relabel_left {f : Int → Int} (hf : Renaming f) {T : Int} {st : State}
    (h : Lines T st) (hfr : Fresh st) :
    update_timestamp (relabel f st) = relabel (bump_stamp f) st := by
  have e : (update_timestamp (relabel f st)).cache = (relabel (bump_stamp f) st).cache := by
    show ((st.cache.map (fun set => set.map (relabel_line f))).map
        (fun set => set.map tick_line)) =
      st.cache.map (fun set => set.map (relabel_line (bump_stamp f)))
    rw [List.map_map]
    apply List.map_congr_left
    intro set hset
    simp only [Function.comp, List.map_map]
    apply List.map_congr_left
    intro l hl
    have hl1 := h set hset l hl
    simp only [Function.comp]
    unfold tick_line relabel_line bump_stamp
    by_cases hv : l.valid_bit = 1
    · have h0 := hfr set hset l hl hv
      simp only [hv, if_true]
      rw [if_pos h0]
    · rcases hl1.1 with h0 | h1
      · simp only [hv, if_false]
        rcases hl1.2.2.1 h0 with e | e
        · rw [e, hf.2.1]; simp
        · rw [e, hf.2.2]; simp
      · exact absurd h1 hv
  unfold update_timestamp relabel at e ⊢
  simp only [] at e ⊢
  rw [e]

theorem lines_bounds {f : Int → Int} {T TL : Int} {st : State} (h : Lines T st)
    (hbf : ∀ x, x ≤ T → f x ≤ TL) (hT : T ≤ TL) (hTL : TL < 2147483647) :
    ∀ set ∈ st.cache, ∀ l ∈ set, -1 ≤ l.stamp ∧ l.stamp < INT_MAX ∧ f l.stamp < INT_MAX := by
  intro set hset l hl
  have hl1 := h set hset l hl
  have h1 := hbf l.stamp hl1.2.2.2
  have h2 := hl1.2.2.2
  unfold INT_MAX
  refine ⟨?_, by omega, by omega⟩
  rcases hl1.1 with h0 | h0
  · rcases hl1.2.2.1 h0 with e | e <;> omega
  · have := hl1.2.1 h0
    omega

/-- The part of `step` before `update_timestamp`, for a record that is not an `I`
record, commutes with a renaming of the stamps. -/
theorem access_relabel {f : Int → Int} (hf : Renaming f) (cfg : Config) {T TL : Int}
    {st : State} (h : Lines T st) (hbf : ∀ x, x ≤ T → f x ≤ TL) (h0 : 0 ≤ T) (hT : T ≤ TL)
    (hTL : TL < 2147483647) (r : Record) :
    step cfg (relabel f st) r = (step cfg st r).map (relabel (shift_stamp f)) ∧
      ∀ st1, step cfg st r = some st1 → Lines (T + 1) st1 ∧ Fresh st1 := by
  have hb := lines_bounds h hbf hT hTL
  have key : ∀ (o : Option State), (∀ st1, o = some st1 → Lines T st1) →
      ((o.map (relabel f)).map update_timestamp =
          (o.map update_timestamp).map (relabel (shift_stamp f)) ∧
        ∀ st1, o.map update_timestamp = some st1 → Lines (T + 1) st1 ∧ Fresh st1) := by
    intro o ho
    cases o with
    | none => exact ⟨rfl, fun st1 h1 => by cases h1⟩
    | some st2 =>
      have hl2 := ho st2 rfl
      refine ⟨?_, ?_⟩
      · simp only [Option.map_some']
        rw [tick_relabel_both hf hl2]
      · intro st1 h1
        simp only [Option.map_some', Option.some.injEq] at h1
        subst h1
        exact lines_tick hl2
  unfold step
  cases hr : r.type with
  | I =>
    simp only []
    have := key (some st) (fun st1 e => by cases e; exact h)
    simpa using this
  | X =>
    simp only []
    have := key (some st) (fun st1 e => by cases e; exact h)
    simpa using this
  | L =>
    simp only []
    rw [update_relabel hf cfg st r.address false hb]
    exact key _ (fun st1 e => lines_update h h0 e)
  | S =>
    simp only []
    rw [update_relabel hf cfg st r.address true hb]
    exact key _ (fun st1 e => lines_update h h0 e)
  | M =>
    simp only []
    rw [update_relabel hf cfg st r.address false hb]
    have e2 : ((update cfg st r.address false).map (relabel f)).bind
          (fun st1 => update cfg st1 r.address true) =
        ((update cfg st r.address false).bind
          (fun st1 => update cfg st1 r.address true)).map (relabel f) := by
      cases hu : update cfg st r.address false with
      | none => rfl
      | some st2 =>
        simp only [Option.map_some', Option.some_bind]
        exact update_relabel hf cfg st2 r.address true
          (lines_bounds (lines_update h h0 hu) hbf hT hTL)
    rw [e2]
    refine key _ ?_
    intro st1 e
    cases hu : update cfg st r.address false with
    | none => rw [hu] at e; cases e
    | some st2 =>
      rw [hu] at e
      exact lines_update (lines_update h h0 hu) h0 e

theorem run_relabel (cfg : Config) :
    ∀ (trace : List Record) (st : State) (f : Int → Int) (T TL : Int),
      Renaming f → Lines T st → Fresh st → (∀ x, x ≤ T → f x ≤ TL) → 0 ≤ T → T ≤ TL →
      TL + trace.length < 2147483648 →
      (run cfg (relabel f st) trace).map counters =
        (run cfg st (without_I trace)).map counters
  | [], st, f, T, TL, _, _, _, _, _, _, _ => rfl
  | r :: rs, st, f, T, TL, hf, h, hfr, hbf, h0, hT, hlen => by
    have hlen1 : TL + 1 + (rs.length : Int) < 2147483648 := by
      simp only [List.length_cons] at hlen
      push_cast at hlen
      omega
    have hTL : TL < 2147483647 := by omega
    by_cases hr : r.type = RecType.I
    · have e1 : without_I (r :: rs) = without_I rs := by
        unfold without_I
        rw [List.filter_cons_of_neg (by simp [hr])]
      have e2 : step cfg (relabel f st) r = some (relabel (bump_stamp f) st) := by
        unfold step
        rw [hr]
        simp only [Option.map_some']
        rw [tick_relabel_left hf h hfr]
      rw [e1, run, e2, Option.some_bind]
      refine run_relabel cfg rs st (bump_stamp f) T (TL + 1) hf.bump h hfr ?_ h0 (by omega) hlen1
      intro x hx
      unfold bump_stamp
      split
      · have := hbf x hx
        omega
      · omega
    · have e1 : without_I (r :: rs) = r :: without_I rs := by
        unfold without_I
        rw [List.filter_cons_of_pos (by simp [hr])]
      obtain ⟨e2, e3⟩ := access_relabel hf cfg h hbf h0 hT hTL r
      rw [e1, run, run, e2]
      cases hs : step cfg st r with
      | none => rfl
      | some st1 =>
        obtain ⟨hl1, hf1⟩ := e3 st1 hs
        simp only [Option.map_some', Option.some_bind]
        refine run_relabel cfg rs st1 (shift_stamp f) (T + 1) (TL + 1) hf.shift hl1 hf1 ?_
          (by omega) (by omega) hlen1
        intro x hx
        unfold shift_stamp
        split
        · have := hbf (x - 1) (by omega)
          omega
        · omega

theorem lines_init (cfg : Config) : Lines 0 (init cfg) ∧ Fresh (init cfg) := by
  constructor
  · intro set hset l hl
    simp only [init, List.mem_replicate] at hset
    obtain ⟨_, rfl⟩ := hset
    simp only [List.mem_replicate] at hl
    obtain ⟨_, rfl⟩ := hl
    refine ⟨Or.inl rfl, fun hv => ?_, fun _ => Or.inl rfl, by decide⟩
    have hv1 : (0 : Int) = 1 := hv
    cases hv1
  · intro set hset l hl hv
    simp only [init, List.mem_replicate] at hset
    obtain ⟨_, rfl⟩ := hset
    simp only [List.mem_replicate] at hl
    obtain ⟨_, rfl⟩ := hl
    cases hv

theorem without_I_idle (rs : List Record) :
    ∀ n : Nat, without_I (List.replicate n ⟨RecType.I, 0⟩ ++ rs) = without_I rs
  | 0 => by simp
  | n + 1 => by
    rw [List.replicate_succ, List.cons_append]
    have e : without_I (⟨RecType.I, 0⟩ :: (List.replicate n ⟨RecType.I, 0⟩ ++ rs)) =
        without_I (List.replicate n ⟨RecType.I, 0⟩ ++ rs) := by
      unfold without_I
      rw [List.filter_cons_of_neg (by simp)]
    rw [e]
    exact without_I_idle rs n

/-- C19 (amended): for every configuration and every trace of fewer than `2 ^ 31`
records, the six counters after the trace are those after the trace with all `I` records
deleted (both runs are undefined together); `update_timestamp` after an `I` record only
renames the stamps in an order-preserving way. -/
theorem C19_I_records_ignored (cfg : Config) (trace : List Record)
    (hlen : trace.length < 2147483648) :
    (run cfg (init cfg) trace).map counters =
      (run cfg (init cfg) (without_I trace)).map counters := by
  have h := run_relabel cfg trace (init cfg) (fun x => x) 0 0 renaming_id
    (lines_init cfg).1 (lines_init cfg).2 (fun x hx => hx) (le_refl _) (le_refl _)
    (by omega)
  rw [relabel_id] at h
  exact h

/-- The trace `M 0`, `I 4`, `S 8`, `I 0`, `L 0` with `s = 1, E = 1, b = 2`. -/
theorem C19_I_records_ignored_witness :
    [(⟨RecType.M, 0⟩ : Record), ⟨RecType.I, 4⟩, ⟨RecType.S, 8⟩, ⟨RecType.I, 0⟩,
      ⟨RecType.L, 0⟩].length < 2147483648 ∧
    (run ⟨1, 1, 2⟩ (init ⟨1, 1, 2⟩)
      [⟨RecType.M, 0⟩, ⟨RecType.I, 4⟩, ⟨RecType.S, 8⟩, ⟨RecType.I, 0⟩, ⟨RecType.L, 0⟩]).map
        counters =
      (run ⟨1, 1, 2⟩ (init ⟨1, 1, 2⟩)
        (without_I [⟨RecType.M, 0⟩, ⟨RecType.I, 4⟩, ⟨RecType.S, 8⟩, ⟨RecType.I, 0⟩,
          ⟨RecType.L, 0⟩])).map counters :=
  ⟨by decide, C19_I_records_ignored ⟨1, 1, 2⟩ _ (by decide)⟩

/-- C19 (as stated) fails on a trace of `2 ^ 31` records: with `s = 1, E = 1, b = 0`, after
`L 0` and `2 ^ 31 - 2` records `I 0` the line's stamp is `INT_MAX`, so the final `L 0` is a
hit that is not counted as a double reference; with the `I` records deleted the trace is
`L 0`, `L 0` and the second access is counted as one. -/
theorem C19_counterexample :
    (run ⟨1, 1, 0⟩ (init ⟨1, 1, 0⟩)
      (⟨RecType.L, 0⟩ :: (List.replicate 2147483646 ⟨RecType.I, 0⟩ ++ [⟨RecType.L, 0⟩]))).map
        counters = some (1, 1, 0, 0, 0, 0) ∧
    (run ⟨1, 1, 0⟩ (init ⟨1, 1, 0⟩)
      (without_I (⟨RecType.L, 0⟩ ::
        (List.replicate 2147483646 ⟨RecType.I, 0⟩ ++ [⟨RecType.L, 0⟩])))).map
        counters = some (1, 1, 0, 0, 0, 1) := by
  have e1 : step ⟨1, 1, 0⟩ (init ⟨1, 1, 0⟩) ⟨RecType.L, 0⟩ = some (idle_state 1) := by decide
  have e2 : run ⟨1, 1, 0⟩ (idle_state (1 + (2147483646 : Nat))) [⟨RecType.L, 0⟩] =
      some { cache := [[⟨1, 0, 0, 1⟩], [⟨0, 0, -1, -1⟩]]
             hits_count := 1, miss_count := 1, eviction_count := 0
             dirty_eviction_bytes_count := 0, dirty_active_bytes_count := 0
             double_ref_count := 0 } := by decide
  have e3 := (run_idle ⟨1, 1, 0⟩ 2147483646 1).trans e2
  have e4 : without_I (⟨RecType.L, 0⟩ ::
      (List.replicate 2147483646 ⟨RecType.I, 0⟩ ++ [⟨RecType.L, 0⟩])) =
      [⟨RecType.L, 0⟩, ⟨RecType.L, 0⟩] := by
    have : without_I (⟨RecType.L, 0⟩ ::
        (List.replicate 2147483646 ⟨RecType.I, 0⟩ ++ [⟨RecType.L, 0⟩])) =
        ⟨RecType.L, 0⟩ ::
          without_I (List.replicate 2147483646 ⟨RecType.I, 0⟩ ++ [⟨RecType.L, 0⟩]) := by
      unfold without_I
      rw [List.filter_cons_of_pos (by simp)]
    rw [this, without_I_idle]
    rfl
  constructor
  · rw [run, e1, Option.some_bind, e3]
    rfl
  · rw [e4]
    decide

theorem first_index_lt {p : cache_line → Bool} :
    ∀ {ls : List cache_line} {i : Nat}, first_index p ls = some i →
      ∀ (j : Nat) (l : cache_line), ls[j]? = some l → j < i → p l = false
  | [], i, h, _, _, _, _ => by simp [first_index] at h
  | x :: xs, i, h, j, l, hl, hj => by
    unfold first_index at h
    by_cases hp : p x = true
    · simp [hp] at h
      omega
    · simp [hp] at h
      obtain ⟨k, hk, rfl⟩ := h
      cases j with
      | zero =>
        simp at hl
        subst hl
        simpa using hp
      | succ j =>
        simp only [List.getElem?_cons_succ] at hl
        exact first_index_lt hk j l hl (by omega)

theorem first_index_set {p : cache_line → Bool} :
    ∀ {ls : List cache_line} {i : Nat} {a : cache_line}, i < ls.length →
      (∀ (j : Nat) (l : cache_line), ls[j]? = some l → j < i → p l = false) → p a = true →
      first_index p (ls.set i a) = some i
  | [], i, a, h, _, _ => by simp at h
  | x :: xs, 0, a, _, _, hp => by
    simp [first_index, hp]
  | x :: xs, i + 1, a, h, hlt, hp => by
    have hx : p x = false := hlt 0 x (by simp) (by omega)
    simp only [List.set_cons_succ, first_index, hx, Bool.false_eq_true, if_false]
    rw [first_index_set (by simpa using h)
      (fun j l hl hj => hlt (j + 1) l (by simpa using hl) (by omega)) hp]
    rfl

theorem first_index_map {p : cache_line → Bool} (f : cache_line → cache_line)
    (hf : ∀ l, p (f l) = p l) :
    ∀ ls : List cache_line, first_index p (ls.map f) = first_index p ls
  | [] => rfl
  | x :: xs => by
    simp only [List.map_cons, first_index, hf, first_index_map f hf xs]

theorem scan_min_stable :
    ∀ (ls : List cache_line) (j : Nat) (acc : Int × Int),
      (∀ l ∈ ls, acc.1 ≤ l.stamp ∨ l.stamp = -1) → scan_min ls j acc = acc
  | [], _, _, _ => rfl
  | x :: xs, j, acc, h => by
    unfold scan_min
    have hx := h x (by simp)
    rw [if_neg (by omega)]
    exact scan_min_stable xs (j + 1) acc (fun l hl => h l (by simp [hl]))

/-- The double-reference scan returns the index of the first line of least stamp. -/
theorem scan_min_at :
    ∀ (ls : List cache_line) (j : Nat) (acc : Int × Int) (i : Nat) (ln : cache_line),
      ls[i]? = some ln → ln.stamp ≠ -1 → ln.stamp < acc.1 →
      (∀ (k : Nat) (l : cache_line), ls[k]? = some l → k < i →
        ln.stamp < l.stamp ∨ l.stamp = -1) →
      (∀ (k : Nat) (l : cache_line), ls[k]? = some l → i < k →
        ln.stamp ≤ l.stamp ∨ l.stamp = -1) →
      scan_min ls j acc = (ln.stamp, ((j + i : Nat) : Int))
  | [], _, _, _, _, h, _, _, _, _ => by simp at h
  | x :: xs, j, acc, 0, ln, h, h1, h2, _, h4 => by
    simp at h
    subst h
    unfold scan_min
    rw [if_pos ⟨h2, h1⟩]
    rw [scan_min_stable xs (j + 1) _ (by
      intro l hl
      obtain ⟨k, hk⟩ := List.getElem?_of_mem hl
      exact h4 (k + 1) l (by simpa using hk) (by omega))]
    simp
  | x :: xs, j, acc, i + 1, ln, h, h1, h2, h3, h4 => by
    simp only [List.getElem?_cons_succ] at h
    have hx := h3 0 x (by simp) (by omega)
    have e : ((j + (i + 1) : Nat) : Int) = ((j + 1 + i : Nat) : Int) := by
      congr 1; omega
    unfold scan_min
    by_cases hc : x.stamp < acc.1 ∧ x.stamp ≠ -1
    · rw [if_pos hc, e]
      exact scan_min_at xs (j + 1) _ i ln h h1 (by
          show ln.stamp < x.stamp
          omega)
        (fun k l hl hk => h3 (k + 1) l (by simpa using hl) (by omega))
        (fun k l hl hk => h4 (k + 1) l (by simpa using hl) (by omega))
    · rw [if_neg hc, e]
      exact scan_min_at xs (j + 1) acc i ln h h1 h2
        (fun k l hl hk => h3 (k + 1) l (by simpa using hl) (by omega))
        (fun k l hl hk => h4 (k + 1) l (by simpa using hl) (by omega))

/-- The three ways in which a call of `update` returns. -/
theorem update_cases {cfg : Config} {st st1 : State} {address : Nat} {w : Bool}
    (hu : update cfg st address w = some st1) :
    ∃ idx atag set, address_set_index cfg address = some idx ∧
      address_tag cfg address = some atag ∧ st.cache[idx]? = some set ∧
      ((∃ i ln, first_index (fun l => l.tag == atag) set = some i ∧ set[i]? = some ln ∧
          st1 = update_hit cfg st idx set i ln w) ∨
       (∃ i ln, first_index (fun l => l.tag == atag) set = none ∧
          first_index (fun l => l.valid_bit == 0) set = some i ∧ set[i]? = some ln ∧
          st1 = update_cold cfg st idx set i ln atag w) ∨
       (first_index (fun l => l.tag == atag) set = none ∧
          first_index (fun l => l.valid_bit == 0) set = none ∧
          update_evict cfg st idx set atag w = some st1)) := by
  unfold update at hu
  cases hidx : address_set_index cfg address with
  | none => rw [hidx] at hu; cases hu
  | some idx =>
    cases htag : address_tag cfg address with
    | none => rw [hidx, htag] at hu; cases hu
    | some atag =>
      rw [hidx, htag] at hu
      simp only [] at hu
      cases hset : st.cache[idx]? with
      | none => rw [hset] at hu; cases hu
      | some set =>
        rw [hset] at hu
        simp only [] at hu
        refine ⟨idx, atag, set, rfl, rfl, hset, ?_⟩
        cases hf : first_index (fun l => l.tag == atag) set with
        | some i =>
          rw [hf] at hu
          simp only [] at hu
          cases hln : set[i]? with
          | none => rw [hln] at hu; cases hu
          | some ln =>
            rw [hln] at hu
            simp only [Option.some.injEq] at hu
            exact Or.inl ⟨i, ln, rfl, hln, hu.symm⟩
        | none =>
          rw [hf] at hu
          simp only [] at hu
          cases hv : first_index (fun l => l.valid_bit == 0) set with
          | some i =>
            rw [hv] at hu
            simp only [] at hu
            cases hln : set[i]? with
            | none => rw [hln] at hu; cases hu
            | some ln =>
              rw [hln] at hu
              simp only [Option.some.injEq] at hu
              exact Or.inr (Or.inl ⟨i, ln, rfl, rfl, hln, hu.symm⟩)
          | none =>
            rw [hv] at hu
            exact Or.inr (Or.inr ⟨rfl, rfl, hu⟩)

/-- A call of `update` replaces one line of one set: the new line has stamp 0 and the
tag of the address. -/
theorem update_set {cfg : Config} {st st1 : State} {address : Nat} {w : Bool}
    (hu : update cfg st address w = some st1) :
    ∃ idx atag set i old new, address_set_index cfg address = some idx ∧
      address_tag cfg address = some atag ∧ st.cache[idx]? = some set ∧
      set[i]? = some old ∧ st1.cache = st.cache.set idx (set.set i new) ∧
      new.stamp = 0 ∧ new.tag = atag ∧
      (new.dirty_bit = old.dirty_bit ∨ new.dirty_bit = 0 ∨ new.dirty_bit = 1) ∧
      ((first_index (fun l => l.tag == atag) set = some i ∧
          new.valid_bit = old.valid_bit ∧ old.tag = atag) ∨
       (first_index (fun l => l.tag == atag) set = none ∧
          first_index (fun l => l.valid_bit == 0) set = some i ∧ old.valid_bit = 0 ∧
          new.valid_bit = 1) ∨
       (first_index (fun l => l.tag == atag) set = none ∧
          first_index (fun l => l.valid_bit == 0) set = none ∧
          new.valid_bit = old.valid_bit)) := by
  obtain ⟨idx, atag, set, h1, h2, h3, hc⟩ := update_cases hu
  rcases hc with ⟨i, ln, hf, hln, rfl⟩ | ⟨i, ln, hf, hv, hln, rfl⟩ | ⟨hf, hv, he⟩
  · obtain ⟨ln', hln', hp⟩ := first_index_some hf
    rw [hln] at hln'
    cases hln'
    refine ⟨idx, atag, set, i, ln,
      { (if (w && (ln.dirty_bit == 0)) = true then { ln with dirty_bit := 1 } else ln) with
        stamp := 0 }, h1, h2, h3, hln, ?_, rfl, ?_, ?_, Or.inl ⟨hf, ?_, by simpa using hp⟩⟩
    · simp [update_hit, State.with_set, List.set_set]
    · show (if (w && (ln.dirty_bit == 0)) = true then { ln with dirty_bit := 1 } else ln).tag
        = atag
      split <;> simpa using hp
    · show (if (w && (ln.dirty_bit == 0)) = true then { ln with dirty_bit := 1 }
        else ln).dirty_bit = ln.dirty_bit ∨ _
      split
      · right; right; rfl
      · left; rfl
    · show (if (w && (ln.dirty_bit == 0)) = true then { ln with dirty_bit := 1 }
        else ln).valid_bit = ln.valid_bit
      split <;> rfl
  · obtain ⟨ln', hln', hp⟩ := first_index_some hv
    rw [hln] at hln'
    cases hln'
    refine ⟨idx, atag, set, i, ln,
      { (if w = true then { ln with dirty_bit := 1 } else ln) with
        valid_bit := 1, tag := atag, stamp := 0 }, h1, h2, h3, hln, ?_, rfl, rfl, ?_,
      Or.inr (Or.inl ⟨hf, hv, by simpa using hp, rfl⟩)⟩
    · simp [update_cold, State.with_set]
    · show (if w = true then { ln with dirty_bit := 1 } else ln).dirty_bit = ln.dirty_bit ∨ _
      split
      · right; right; rfl
      · left; rfl
  · unfold update_evict at he
    simp only [] at he
    by_cases hneg : (scan_max set 0 (INT_MIN, -1)).2 < 0
    · rw [if_pos hneg] at he; cases he
    · rw [if_neg hneg] at he
      cases hln : set[(scan_max set 0 (INT_MIN, -1)).2.toNat]? with
      | none => rw [hln] at he; cases he
      | some ln =>
        rw [hln] at he
        simp only [Option.some.injEq] at he
        subst he
        refine ⟨idx, atag, set, _, ln,
          { (if ln.dirty_bit = 1 then (if w = true then ln else { ln with dirty_bit := 0 })
              else (if w = true then { ln with dirty_bit := 1 } else ln)) with
            tag := atag, stamp := 0 }, h1, h2, h3, hln, ?_, rfl, rfl, ?_,
          Or.inr (Or.inr ⟨hf, hv, ?_⟩)⟩
        · simp [State.with_set]
        · show (if ln.dirty_bit = 1 then (if w = true then ln else { ln with dirty_bit := 0 })
              else (if w = true then { ln with dirty_bit := 1 } else ln)).dirty_bit
              = ln.dirty_bit ∨ _
          split <;> split <;> simp
        · show (if ln.dirty_bit = 1 then (if w = true then ln else { ln with dirty_bit := 0 })
              else (if w = true then { ln with dirty_bit := 1 } else ln)).valid_bit
              = ln.valid_bit
          split <;> split <;> rfl

theorem lt_of_getElem {α : Type} {ls : List α} {i : Nat} {a : α} (h : ls[i]? = some a) :
    i < ls.length := by
  by_contra hc
  rw [List.getElem?_eq_none (by omega)] at h
  cases h

theorem getElem_set_cases {α : Type} {ls : List α} {i j : Nat} {a x : α}
    (hx : (ls.set i a)[j]? = some x) : (j = i ∧ x = a) ∨ (j ≠ i ∧ ls[j]? = some x) := by
  by_cases e : j = i
  · subst e
    left
    have hlt : j < ls.length := by
      have := lt_of_getElem hx
      simpa using this
    rw [List.getElem?_set_self hlt] at hx
    simp only [Option.some.injEq] at hx
    exact ⟨rfl, hx.symm⟩
  · right
    rw [List.getElem?_set_ne (Ne.symm e)] at hx
    exact ⟨e, hx⟩

theorem cacheOk_weaken {ph : Bool} {st : State} (h : CacheOk 1 ph st) : CacheOk 0 ph st := by
  intro set hset
  obtain ⟨k, hk⟩ := h set hset
  refine ⟨k, fun j l hl => ?_⟩
  obtain ⟨h1, h2, h3⟩ := hk j l hl
  exact ⟨h1, fun hj => ⟨(h2 hj).1, by have := (h2 hj).2; omega⟩, h3⟩

/-- One call of `update` on a state between two records: the line that holds the tag of
the address afterwards is the first line with this tag, it has stamp 0, every other valid
line has a stamp of at least 1, and the invalid lines come after it. -/
theorem access_key {cfg : Config} {st st1 : State} {address : Nat} {w ph : Bool}
    (hok : CacheOk 1 ph st) (hu : update cfg st address w = some st1) :
    ∃ idx atag set1 i new, address_set_index cfg address = some idx ∧
      address_tag cfg address = some atag ∧ st1.cache[idx]? = some set1 ∧
      first_index (fun l => l.tag == atag) set1 = some i ∧ set1[i]? = some new ∧
      new.stamp = 0 ∧ (new.valid_bit = 1 ∨ atag = -1) ∧
      (∀ (j : Nat) (l : cache_line), set1[j]? = some l → j ≠ i →
        (l.valid_bit = 1 ∧ 1 ≤ l.stamp) ∨
        (l.valid_bit = 0 ∧ i < j ∧ (l.stamp = -1 ∨ (ph = true ∧ l.stamp = 0)))) ∧
      (∀ (j : Nat) (l : cache_line), set1[j]? = some l → l.dirty_bit = 0 ∨ l.dirty_bit = 1) ∧
      ((ph = true ∨ atag ≠ -1) → CacheOk 0 ph st1) := by
  obtain ⟨idx, atag, set, i, old, new, h1, h2, hset, hold, hcache, hst, htg, hdirty, hc⟩ :=
    update_set hu
  have hsetm : set ∈ st.cache := List.getElem?_mem hset
  obtain ⟨k, hk⟩ := hok set hsetm
  have hilt : i < set.length := lt_of_getElem hold
  have hidx : idx < st.cache.length := lt_of_getElem hset
  obtain ⟨od, ov, oi⟩ := hk i old hold
  have hpnew : (fun l : cache_line => l.tag == atag) new = true := by simp [htg]
  -- the lines before `i` do not hold the tag
  have hbefore : ∀ (j : Nat) (l : cache_line), set[j]? = some l → j < i →
      (fun l : cache_line => l.tag == atag) l = false := by
    rcases hc with ⟨hf, _, _⟩ | ⟨hf, _, _, _⟩ | ⟨hf, _, _⟩
    · exact first_index_lt hf
    · exact fun j l hl _ => first_index_none hf l (List.getElem?_mem hl)
    · exact fun j l hl _ => first_index_none hf l (List.getElem?_mem hl)
  -- an invalid line other than `i` comes after `i`
  have hafter : ∀ (j : Nat) (l : cache_line), set[j]? = some l → j ≠ i → k ≤ j → i < j := by
    intro j l hl hji hkj
    obtain ⟨_, _, li⟩ := hk j l hl
    obtain ⟨lv, lt, _⟩ := li hkj
    by_contra hnot
    have hj : j < i := by omega
    rcases hc with ⟨hf, _, hot⟩ | ⟨_, hv, _, _⟩ | ⟨_, hv, _⟩
    · by_cases hik : i < k
      · omega
      · have := (oi (by omega)).2.1
        have hp := first_index_lt hf j l hl hj
        simp only [beq_eq_false_iff_ne, ne_eq] at hp
        apply hp
        rw [lt, ← hot, this]
    · have hp := first_index_lt hv j l hl hj
      simp only [beq_eq_false_iff_ne, ne_eq] at hp
      exact hp lv
    · have hp := first_index_none hv l (List.getElem?_mem hl)
      simp only [beq_eq_false_iff_ne, ne_eq] at hp
      exact hp lv
  -- the new line is valid unless the tag is -1
  have hvalid : new.valid_bit = 1 ∨ (new.valid_bit = 0 ∧ atag = -1 ∧ i = k) := by
    rcases hc with ⟨hf, hnv, hot⟩ | ⟨_, hv, hov, hnv⟩ | ⟨_, hv, hnv⟩
    · by_cases hik : i < k
      · left; rw [hnv]; exact (ov hik).1
      · right
        obtain ⟨q1, q2, _⟩ := oi (by omega)
        refine ⟨by rw [hnv]; exact q1, by rw [← hot]; exact q2, ?_⟩
        by_contra hne
        have hkl : k < set.length := by omega
        have hlk := List.getElem?_eq_getElem hkl
        obtain ⟨_, _, ki⟩ := hk k _ hlk
        have hp := first_index_lt hf k _ hlk (by omega)
        simp only [beq_eq_false_iff_ne, ne_eq] at hp
        apply hp
        rw [(ki (le_refl _)).2.1, ← hot, q2]
    · left; exact hnv
    · left
      rw [hnv]
      by_cases hik : i < k
      · exact (ov hik).1
      · exfalso
        have hp := first_index_none hv old (List.getElem?_mem hold)
        simp only [beq_eq_false_iff_ne, ne_eq] at hp
        exact hp (oi (by omega)).1
  have hcold : new.valid_bit = 1 → ¬ i < k → i = k ∧ old.valid_bit = 0 := by
    intro hv1 hik
    have hov := (oi (by omega)).1
    refine ⟨?_, hov⟩
    rcases hc with ⟨_, hnv, _⟩ | ⟨_, hv, _, _⟩ | ⟨_, _, hnv⟩
    · rw [hnv, hov] at hv1; cases hv1
    · by_contra hne
      have hkl : k < set.length := by omega
      have hlk := List.getElem?_eq_getElem hkl
      obtain ⟨_, _, ki⟩ := hk k _ hlk
      have hp := first_index_lt hv k _ hlk (by omega)
      simp only [beq_eq_false_iff_ne, ne_eq] at hp
      exact hp (ki (le_refl _)).1
    · rw [hnv, hov] at hv1; cases hv1
  have hnd : new.dirty_bit = 0 ∨ new.dirty_bit = 1 := by
    rcases hdirty with e | e | e
    · rw [e]; exact od
    · exact Or.inl e
    · exact Or.inr e
  have hs1 : st1.cache[idx]? = some (set.set i new) := by
    rw [hcache, List.getElem?_set_self hidx]
  refine ⟨idx, atag, set.set i new, i, new, h1, h2, hs1, first_index_set hilt hbefore hpnew,
    List.getElem?_set_self hilt, hst, ?_, ?_, ?_, ?_⟩
  · rcases hvalid with e | e
    · exact Or.inl e
    · exact Or.inr e.2.1
  · intro j l hl hji
    rcases getElem_set_cases hl with ⟨e, _⟩ | ⟨_, hl0⟩
    · exact absurd e hji
    · obtain ⟨_, lv, li⟩ := hk j l hl0
      by_cases hjk : j < k
      · exact Or.inl (lv hjk)
      · right
        obtain ⟨q1, _, q3⟩ := li (by omega)
        refine ⟨q1, hafter j l hl0 hji (by omega), ?_⟩
        rcases q3 with e | ⟨e1, e2, _⟩
        · exact Or.inl e
        · exact Or.inr ⟨e1, e2⟩
  · intro j l hl
    rcases getElem_set_cases hl with ⟨_, e⟩ | ⟨_, hl0⟩
    · rw [e]; exact hnd
    · exact (hk j l hl0).1
  · intro hph set' hset'
    rw [hcache] at hset'
    rcases mem_set_cases hset' with hm | rfl
    · exact cacheOk_weaken hok set' hm
    · rcases hvalid with hv1 | ⟨hv0, hat, hik⟩
      · by_cases hik : i < k
        · refine ⟨k, fun j l hl => ?_⟩
          rcases getElem_set_cases hl with ⟨e, rfl⟩ | ⟨_, hl0⟩
          · subst e
            exact ⟨hnd, fun _ => ⟨hv1, by rw [hst]⟩, fun hkj => by omega⟩
          · obtain ⟨q1, q2, q3⟩ := hk j l hl0
            exact ⟨q1, fun hj => ⟨(q2 hj).1, by have := (q2 hj).2; omega⟩, q3⟩
        · obtain ⟨e, _⟩ := hcold hv1 hik
          refine ⟨k + 1, fun j l hl => ?_⟩
          rcases getElem_set_cases hl with ⟨e2, rfl⟩ | ⟨hji, hl0⟩
          · exact ⟨hnd, fun _ => ⟨hv1, by rw [hst]⟩, fun hkj => by omega⟩
          · obtain ⟨q1, q2, q3⟩ := hk j l hl0
            refine ⟨q1, fun hj => ?_, fun hkj => ?_⟩
            · have := q2 (by omega)
              exact ⟨this.1, by omega⟩
            · obtain ⟨r1, r2, r3⟩ := q3 (by omega)
              refine ⟨r1, r2, ?_⟩
              rcases r3 with e3 | ⟨_, _, e3⟩
              · exact Or.inl e3
              · omega
      · have hpt : ph = true := by
          rcases hph with e | e
          · exact e
          · exact absurd hat e
        refine ⟨k, fun j l hl => ?_⟩
        rcases getElem_set_cases hl with ⟨e2, rfl⟩ | ⟨hji, hl0⟩
        · refine ⟨hnd, fun hj => by omega, fun _ => ⟨hv0, by rw [htg, hat], ?_⟩⟩
          exact Or.inr ⟨hpt, hst, by omega⟩
        · obtain ⟨q1, q2, q3⟩ := hk j l hl0
          exact ⟨q1, fun hj => ⟨(q2 hj).1, by have := (q2 hj).2; omega⟩, q3⟩

theorem cacheOk_init (cfg : Config) (ph : Bool) : CacheOk 1 ph (init cfg) := by
  intro set hset
  simp only [init, List.mem_replicate] at hset
  obtain ⟨_, rfl⟩ := hset
  refine ⟨0, fun j l hl => ?_⟩
  have hm := List.getElem?_mem hl
  simp only [List.mem_replicate] at hm
  obtain ⟨_, rfl⟩ := hm
  exact ⟨Or.inl rfl, fun hj => by omega, fun _ => ⟨rfl, rfl, Or.inl rfl⟩⟩

theorem tick_line_tag (l : cache_line) : (tick_line l).tag = l.tag := by
  unfold tick_line
  split <;> rfl

theorem cacheOk_tick {ph : Bool} {st : State} (h : CacheOk 0 ph st) :
    CacheOk 1 ph (update_timestamp st) := by
  intro set hset
  rw [update_timestamp_cache] at hset
  obtain ⟨set0, hset0, rfl⟩ := List.mem_map.1 hset
  obtain ⟨k, hk⟩ := h set0 hset0
  refine ⟨k, fun j l hl => ?_⟩
  rw [List.getElem?_map] at hl
  cases hl0 : set0[j]? with
  | none => rw [hl0] at hl; cases hl
  | some l0 =>
    rw [hl0] at hl
    simp only [Option.map_some', Option.some.injEq] at hl
    subst hl
    obtain ⟨q1, q2, q3⟩ := hk j l0 hl0
    unfold tick_line
    by_cases hv : l0.valid_bit = 1
    · rw [if_pos hv]
      refine ⟨q1, fun hj => ⟨hv, ?_⟩, fun hkj => ?_⟩
      · have := (q2 hj).2
        show 1 ≤ l0.stamp + 1
        omega
      · have := (q3 hkj).1
        rw [hv] at this
        cases this
    · rw [if_neg hv]
      exact ⟨q1, fun hj => absurd (q2 hj).1 hv, q3⟩

/-- Replacing a line by one with the same valid bit, tag and stamp keeps `SetOk`. -/
theorem setOk_set_same {m : Int} {ph : Bool} {set : List cache_line} {i : Nat}
    {old new : cache_line} (h : SetOk m ph set) (hold : set[i]? = some old)
    (hv : new.valid_bit = old.valid_bit) (ht : new.tag = old.tag)
    (hs : new.stamp = old.stamp) (hd : new.dirty_bit = 0 ∨ new.dirty_bit = 1) :
    SetOk m ph (set.set i new) := by
  obtain ⟨k, hk⟩ := h
  refine ⟨k, fun j l hl => ?_⟩
  rcases getElem_set_cases hl with ⟨e, rfl⟩ | ⟨_, hl0⟩
  · subst e
    obtain ⟨_, q2, q3⟩ := hk j old hold
    rw [hv, ht, hs]
    exact ⟨hd, q2, q3⟩
  · exact hk j l hl0

/-- A call of `update` that finds the tag in the first line of least stamp is a hit that
counts as a double reference. -/
theorem hit_double_ref {cfg : Config} {st1 : State} {address : Nat} (w : Bool) {idx : Nat}
    {atag : Int} {set1 : List cache_line} {i : Nat} {ln : cache_line}
    (h1 : address_set_index cfg address = some idx)
    (h2 : address_tag cfg address = some atag) (hs : st1.cache[idx]? = some set1)
    (hf : first_index (fun l => l.tag == atag) set1 = some i) (hl : set1[i]? = some ln)
    (hs0 : ln.stamp ≠ -1) (hlt : ln.stamp < INT_MAX)
    (hb : ∀ (k : Nat) (l : cache_line), set1[k]? = some l → k < i →
      ln.stamp < l.stamp ∨ l.stamp = -1)
    (ha : ∀ (k : Nat) (l : cache_line), set1[k]? = some l → i < k →
      ln.stamp ≤ l.stamp ∨ l.stamp = -1) :
    ∃ st2 new, update cfg st1 address w = some st2 ∧
      st2.hits_count = st1.hits_count + 1 ∧ st2.miss_count = st1.miss_count ∧
      st2.double_ref_count = st1.double_ref_count + 1 ∧
      st2.cache = st1.cache.set idx (set1.set i new) ∧
      new.valid_bit = ln.valid_bit ∧ new.tag = ln.tag ∧ new.stamp = 0 ∧
      (new.dirty_bit = ln.dirty_bit ∨ new.dirty_bit = 1) ∧
      (w = true → ln.dirty_bit = 0 ∨ ln.dirty_bit = 1 → new.dirty_bit = 1) := by
  have hup : update cfg st1 address w = some (update_hit cfg st1 idx set1 i ln w) := by
    unfold update
    simp only [h1, h2, hs, hf, hl]
  have hscan : (scan_min (set1.set i (if (w && (ln.dirty_bit == 0)) = true
      then { ln with dirty_bit := 1 } else ln)) 0 (INT_MAX, -1)).2 = (i : Int) := by
    rw [scan_min_congr _ set1 0 _ (map_set_same (fun l : cache_line => l.stamp) hl
      (by split <;> rfl))]
    rw [scan_min_at set1 0 (INT_MAX, -1) i ln hl hs0 hlt hb ha]
    simp
  refine ⟨_, { (if (w && (ln.dirty_bit == 0)) = true then { ln with dirty_bit := 1 } else ln)
      with stamp := 0 }, hup, rfl, rfl, ?_, ?_, ?_, ?_, rfl, ?_, ?_⟩
  · show (if (i : Int) = (scan_min (set1.set i (if (w && (ln.dirty_bit == 0)) = true
      then { ln with dirty_bit := 1 } else ln)) 0 (INT_MAX, -1)).2
      then st1.double_ref_count + 1 else st1.double_ref_count) = st1.double_ref_count + 1
    rw [hscan, if_pos rfl]
  · simp [update_hit, State.with_set, List.set_set]
  · show (if (w && (ln.dirty_bit == 0)) = true then { ln with dirty_bit := 1 }
      else ln).valid_bit = ln.valid_bit
    split <;> rfl
  · show (if (w && (ln.dirty_bit == 0)) = true then { ln with dirty_bit := 1 }
      else ln).tag = ln.tag
    split <;> rfl
  · show (if (w && (ln.dirty_bit == 0)) = true then { ln with dirty_bit := 1 }
      else ln).dirty_bit = ln.dirty_bit ∨ _
    split
    · right; rfl
    · left; rfl
  · intro hw hd
    show (if (w && (ln.dirty_bit == 0)) = true then { ln with dirty_bit := 1 }
      else ln).dirty_bit = 1
    subst hw
    rcases hd with e | e
    · simp [e]
    · simp [e]

theorem small_tag_ne (cfg : Config) {address : Nat} (ha : address < 2 ^ 31) :
    toInt32 (address / 2 ^ (cfg.s + cfg.b)) ≠ -1 := by
  rw [tag_eq cfg ha]
  have h0 : (0 : Int) ≤ ((address >>> (cfg.s + cfg.b) : Nat) : Int) := Int.ofNat_nonneg _
  intro e
  rw [e] at h0
  exact absurd h0 (by decide)

/-- The two calls of `update` that an `M` record causes, from a state between two
records: the second call is a hit that counts as a double reference and leaves the line
dirty. -/
theorem m_record {cfg : Config} (hs : 1 ≤ cfg.s) (hsb : cfg.s + cfg.b < 64)
    (hE : 1 ≤ cfg.E) {st : State} {ph : Bool} (hsh : Shape cfg st) (hok : CacheOk 1 ph st)
    (address : Nat) (hph : ph = true ∨ address < 2 ^ 31) :
    ∃ st1 st2 idx atag set2 i ln, update cfg st address false = some st1 ∧
      update cfg st1 address true = some st2 ∧
      st2.hits_count = st1.hits_count + 1 ∧ st2.miss_count = st1.miss_count ∧
      st2.double_ref_count = st1.double_ref_count + 1 ∧
      address_set_index cfg address = some idx ∧ address_tag cfg address = some atag ∧
      st2.cache[idx]? = some set2 ∧
      first_index (fun l => l.tag == atag) set2 = some i ∧ set2[i]? = some ln ∧
      ln.dirty_bit = 1 ∧ Shape cfg st2 ∧ CacheOk 0 ph st2 := by
  obtain ⟨st1, hu1, hsh1, _⟩ := update_spec hs hsb hE hsh address false
  obtain ⟨idx, atag, set1, i, new, h1, h2, hs1, hf, hl, hst, _, hoth, hdirty, hok1⟩ :=
    access_key hok hu1
  have hat : ph = true ∨ atag ≠ -1 := by
    rcases hph with e | e
    · exact Or.inl e
    · right
      rw [address_tag_some cfg hsb] at h2
      cases h2
      exact small_tag_ne cfg e
  have hok1 := hok1 hat
  obtain ⟨st2, new2, hu2, c1, c2, c3, hcache, n1, n2, n3, n4, n5⟩ :=
    hit_double_ref true h1 h2 hs1 hf hl (by rw [hst]; decide) (by rw [hst]; decide)
      (by
        intro k l hkl hk
        rcases hoth k l hkl (by omega) with ⟨_, e⟩ | ⟨_, e, _⟩
        · left; rw [hst]; omega
        · omega)
      (by
        intro k l hkl hk
        rcases hoth k l hkl (by omega) with ⟨_, e⟩ | ⟨_, _, e | ⟨_, e⟩⟩
        · left; rw [hst]; omega
        · right; exact e
        · left; rw [hst, e])
  obtain ⟨st2', hu2', hsh2, _⟩ := update_spec hs hsb hE hsh1 address true
  rw [hu2] at hu2'
  cases hu2'
  have hidx : idx < st1.cache.length := lt_of_getElem hs1
  have hilt : i < set1.length := lt_of_getElem hl
  refine ⟨st1, st2, idx, atag, set1.set i new2, i, new2, hu1, hu2, c1, c2, c3, h1, h2,
    by rw [hcache, List.getElem?_set_self hidx], ?_, List.getElem?_set_self hilt,
    n5 rfl (hdirty i new hl), hsh2, ?_⟩
  · apply first_index_set hilt (first_index_lt hf)
    obtain ⟨ln', hln', hp⟩ := first_index_some hf
    rw [hl] at hln'
    cases hln'
    simp only [n2]
    exact hp
  · intro set' hset'
    rw [hcache] at hset'
    rcases mem_set_cases hset' with hm | rfl
    · exact hok1 set' hm
    · apply setOk_set_same (hok1 set1 (List.getElem?_mem hs1)) hl n1 n2 (by rw [n3, hst])
      rcases n4 with e | e
      · rw [e]; exact hdirty i new hl
      · exact Or.inr e

/-- One record keeps the shape of the cache and `CacheOk`. -/
theorem step_ok {cfg : Config} (hs : 1 ≤ cfg.s) (hsb : cfg.s + cfg.b < 64)
    (hE : 1 ≤ cfg.E) {st : State} {ph : Bool} (hsh : Shape cfg st) (hok : CacheOk 1 ph st)
    (r : Record) (hph : ph = true ∨ r.address < 2 ^ 31) :
    ∃ st1, step cfg st r = some st1 ∧ Shape cfg st1 ∧ CacheOk 1 ph st1 := by
  have hat : ∀ atag, address_tag cfg r.address = some atag → ph = true ∨ atag ≠ -1 := by
    intro atag h2
    rcases hph with e | e
    · exact Or.inl e
    · right
      rw [address_tag_some cfg hsb] at h2
      cases h2
      exact small_tag_ne cfg e
  have one : ∀ w, ∃ st1, update cfg st r.address w = some st1 ∧ Shape cfg st1 ∧
      CacheOk 0 ph st1 := by
    intro w
    obtain ⟨st1, hu1, hsh1, _⟩ := update_spec hs hsb hE hsh r.address w
    obtain ⟨idx, atag, set1, i, new, h1, h2, _, _, _, _, _, _, _, hok1⟩ := access_key hok hu1
    exact ⟨st1, hu1, hsh1, hok1 (hat atag h2)⟩
  obtain ⟨t, a⟩ := r
  cases t
  · exact ⟨_, rfl, shape_tick hsh, cacheOk_tick (cacheOk_weaken hok)⟩
  · obtain ⟨st1, hu1, hsh1, hok1⟩ := one false
    exact ⟨update_timestamp st1, by simp [step, hu1], shape_tick hsh1, cacheOk_tick hok1⟩
  · obtain ⟨st1, st2, _, _, _, _, _, hu1, hu2, _, _, _, _, _, _, _, _, _, hsh2, hok2⟩ :=
      m_record hs hsb hE hsh hok a hph
    exact ⟨update_timestamp st2, by simp [step, hu1, hu2], shape_tick hsh2,
      cacheOk_tick hok2⟩
  · obtain ⟨st1, hu1, hsh1, hok1⟩ := one true
    exact ⟨update_timestamp st1, by simp [step, hu1], shape_tick hsh1, cacheOk_tick hok1⟩
  · exact ⟨_, rfl, shape_tick hsh, cacheOk_tick (cacheOk_weaken hok)⟩

theorem run_ok {cfg : Config} (hs : 1 ≤ cfg.s) (hsb : cfg.s + cfg.b < 64) (hE : 1 ≤ cfg.E)
    (ph : Bool) :
    ∀ (trace : List Record) {st : State}, Shape cfg st → CacheOk 1 ph st →
      (ph = true ∨ ∀ r ∈ trace, r.address < 2 ^ 31) →
      ∃ st1, run cfg st trace = some st1 ∧ Shape cfg st1 ∧ CacheOk 1 ph st1
  | [], st, hsh, hok, _ => ⟨st, rfl, hsh, hok⟩
  | r :: rs, st, hsh, hok, hph => by
    obtain ⟨st1, h1, hsh1, hok1⟩ := step_ok hs hsb hE hsh hok r (by
      rcases hph with e | e
      · exact Or.inl e
      · exact Or.inr (e r (by simp)))
    obtain ⟨st2, h2, hsh2, hok2⟩ := run_ok hs hsb hE ph rs hsh1 hok1 (by
      rcases hph with e | e
      · exact Or.inl e
      · exact Or.inr (fun r hr => e r (by simp [hr])))
    exact ⟨st2, by simp [run, h1, h2], hsh2, hok2⟩

theorem run_append (cfg : Config) :
    ∀ (xs ys : List Record) (st : State),
      run cfg st (xs ++ ys) = (run cfg st xs).bind (fun st1 => run cfg st1 ys)
  | [], _, _ => rfl
  | x :: xs, ys, st => by
    simp only [List.cons_append, run]
    cases step cfg st x with
    | none => rfl
    | some st1 => simp only [Option.some_bind]; exact run_append cfg xs ys st1

/-- With counters and stamps in the integers: for `s ≥ 1`, `s + b < 64` and `E ≥ 1`, in the
state reached from the
empty cache by any trace and for every address `A`, the read access of an `M` record on
`A` returns, and the write access that follows is a hit (`hits_count` grows by one,
`miss_count` does not change) that adds one to `double_ref_count` and leaves the first
line holding the tag of `A` in the set of `A` with `dirty_bit = 1`; the record as a whole
is these two accesses followed by `update_timestamp`. The trace `M 0` with `s = 1`,
`E = 1`, `b = 2` ends with 1 hit, 1 miss, 4 dirty active bytes (and 1 double
reference). -/
theorem m_record_write_hits (cfg : Config) (hs : 1 ≤ cfg.s)
    (hsb : cfg.s + cfg.b < 64) (hE : 1 ≤ cfg.E) (trace : List Record) (A : Nat) :
    (∃ st st1 st2 idx atag set2 i ln, run cfg (init cfg) trace = some st ∧
      update cfg st A false = some st1 ∧ update cfg st1 A true = some st2 ∧
      step cfg st ⟨RecType.M, A⟩ = some (update_timestamp st2) ∧
      st2.hits_count = st1.hits_count + 1 ∧ st2.miss_count = st1.miss_count ∧
      st2.double_ref_count = st1.double_ref_count + 1 ∧
      address_set_index cfg A = some idx ∧ address_tag cfg A = some atag ∧
      st2.cache[idx]? = some set2 ∧
      first_index (fun l => l.tag == atag) set2 = some i ∧ set2[i]? = some ln ∧
      ln.dirty_bit = 1) ∧
    (run ⟨1, 1, 2⟩ (init ⟨1, 1, 2⟩) [⟨RecType.M, 0⟩]).map counters =
      some (1, 1, 0, 0, 4, 1) := by
  refine ⟨?_, by decide⟩
  obtain ⟨st, hrun, hsh, hok⟩ := run_ok hs hsb hE true trace (shape_init cfg)
    (cacheOk_init cfg true) (Or.inl rfl)
  obtain ⟨st1, st2, idx, atag, set2, i, ln, hu1, hu2, c1, c2, c3, h1, h2, hs2, hf, hl, hd,
    _, _⟩ := m_record hs hsb hE hsh hok A (Or.inl rfl)
  exact ⟨st, st1, st2, idx, atag, set2, i, ln, hrun, hu1, hu2, by simp [step, hu1, hu2],
    c1, c2, c3, h1, h2, hs2, hf, hl, hd⟩

theorem m_record_write_hits_example :
    (1 ≤ (⟨1, 2, 2⟩ : Config).s ∧ (⟨1, 2, 2⟩ : Config).s + (⟨1, 2, 2⟩ : Config).b < 64 ∧
      1 ≤ (⟨1, 2, 2⟩ : Config).E) ∧
    (∃ st st1 st2 idx atag set2 i ln,
      run ⟨1, 2, 2⟩ (init ⟨1, 2, 2⟩) [⟨RecType.L, 0⟩, ⟨RecType.S, 34359738360⟩] = some st ∧
      update ⟨1, 2, 2⟩ st 0 false = some st1 ∧ update ⟨1, 2, 2⟩ st1 0 true = some st2 ∧
      step ⟨1, 2, 2⟩ st ⟨RecType.M, 0⟩ = some (update_timestamp st2) ∧
      st2.hits_count = st1.hits_count + 1 ∧ st2.miss_count = st1.miss_count ∧
      st2.double_ref_count = st1.double_ref_count + 1 ∧
      address_set_index ⟨1, 2, 2⟩ 0 = some idx ∧ address_tag ⟨1, 2, 2⟩ 0 = some atag ∧
      st2.cache[idx]? = some set2 ∧
      first_index (fun l => l.tag == atag) set2 = some i ∧ set2[i]? = some ln ∧
      ln.dirty_bit = 1) :=
  ⟨by decide,
    (m_record_write_hits ⟨1, 2, 2⟩ (by decide) (by decide) (by decide)
      [⟨RecType.L, 0⟩, ⟨RecType.S, 34359738360⟩] 0).1⟩

/-- C29 (code bug): for `s = 0`, `E = 1`, `b = 2` the shift counts `64 - s - b` and
`64 - s` are 62 and 64; the shift by 64 has no defined result, so the read access of the
record `M 0` on the empty cache has none, and neither has the write access that should
hit. -/
theorem C29_M_record_undefined_for_single_set :
    ¬ ∃ st1 st2, update ⟨0, 1, 2⟩ (init ⟨0, 1, 2⟩) 0 false = some st1 ∧
      update ⟨0, 1, 2⟩ st1 0 true = some st2 ∧
      st2.hits_count = st1.hits_count + 1 := by
  rintro ⟨st1, st2, h, _⟩
  have : update ⟨0, 1, 2⟩ (init ⟨0, 1, 2⟩) 0 false = none := by decide
  rw [this] at h
  cases h

theorem getElem_map_tick {set : List cache_line} {k : Nat} {l : cache_line}
    (h : (set.map tick_line)[k]? = some l) : ∃ l0, set[k]? = some l0 ∧ l = tick_line l0 := by
  rw [List.getElem?_map] at h
  cases hl0 : set[k]? with
  | none => rw [hl0] at h; cases h
  | some l0 =>
    rw [hl0] at h
    simp only [Option.map_some', Option.some.injEq] at h
    exact ⟨l0, rfl, h.symm⟩

theorem step_load_store (cfg : Config) (st : State) (r : Record)
    (ht : r.type = RecType.L ∨ r.type = RecType.S) :
    step cfg st r = (update cfg st r.address (r.type == RecType.S)).map update_timestamp := by
  obtain ⟨t, a⟩ := r
  rcases ht with e | e
  · simp only at e
    subst e
    rfl
  · simp only at e
    subst e
    rfl

/-- With counters and stamps in the integers: for `s ≥ 1`, `E ≥ 1`, `s + b < 64` and a
trace whose addresses are all below
`2 ^ 31`, if the records `r1` and `r2` follow each other, both are of type `L` or `S` and
both reference the same address, then the access of `r2` returns and is a hit
(`hits_count` grows by one, `miss_count` does not change) that adds exactly one to
`double_ref_count`; the whole trace runs to the end. The trace `L 0`, `L 0` with `s = 1`,
`E = 1`, `b = 2` ends with 1 miss, 1 hit and 1 double reference. -/
theorem repeated_address_double_ref (cfg : Config) (hs : 1 ≤ cfg.s)
    (hE : 1 ≤ cfg.E) (hsb : cfg.s + cfg.b < 64) (pre post : List Record) (r1 r2 : Record)
    (hsmall : ∀ r ∈ pre ++ r1 :: r2 :: post, r.address < 2 ^ 31)
    (ht1 : r1.type = RecType.L ∨ r1.type = RecType.S)
    (ht2 : r2.type = RecType.L ∨ r2.type = RecType.S) (ha : r2.address = r1.address) :
    (∃ st1 st2 stf, run cfg (init cfg) (pre ++ [r1]) = some st1 ∧
      update cfg st1 r2.address (r2.type == RecType.S) = some st2 ∧
      step cfg st1 r2 = some (update_timestamp st2) ∧
      st2.hits_count = st1.hits_count + 1 ∧ st2.miss_count = st1.miss_count ∧
      st2.double_ref_count = st1.double_ref_count + 1 ∧
      run cfg (init cfg) (pre ++ r1 :: r2 :: post) = some stf) ∧
    (run ⟨1, 1, 2⟩ (init ⟨1, 1, 2⟩) [⟨RecType.L, 0⟩, ⟨RecType.L, 0⟩]).map counters =
      some (1, 1, 0, 0, 0, 1) := by
  refine ⟨?_, by decide⟩
  obtain ⟨st0, hrun0, hsh0, hok0⟩ := run_ok hs hsb hE false pre (shape_init cfg)
    (cacheOk_init cfg false) (Or.inr (fun r hr => hsmall r (by simp [hr])))
  have hr1 : r1.address < 2 ^ 31 := hsmall r1 (by simp)
  obtain ⟨sa, hu1, hsh1, _⟩ := update_spec hs hsb hE hsh0 r1.address (r1.type == RecType.S)
  obtain ⟨idx, atag, set1, i, new, h1, h2, hs1, hf, hl, hst, hval, hoth, _, _⟩ :=
    access_key hok0 hu1
  have hat : atag ≠ -1 := by
    have h2' := h2
    rw [address_tag_some cfg hsb] at h2'
    cases h2'
    exact small_tag_ne cfg hr1
  have hv1 : new.valid_bit = 1 := by
    rcases hval with e | e
    · exact e
    · exact absurd e hat
  have hstep1 : step cfg st0 r1 = some (update_timestamp sa) := by
    rw [step_load_store cfg st0 r1 ht1, hu1]
    rfl
  have hrun1 : run cfg (init cfg) (pre ++ [r1]) = some (update_timestamp sa) := by
    rw [run_append, hrun0]
    simp [run, hstep1]
  have hs1t : (update_timestamp sa).cache[idx]? = some (set1.map tick_line) := by
    rw [update_timestamp_cache, List.getElem?_map, hs1]
    rfl
  have hft : first_index (fun l => l.tag == atag) (set1.map tick_line) = some i := by
    rw [first_index_map tick_line (fun l => by simp only [tick_line_tag]) set1]
    exact hf
  have hlt : (set1.map tick_line)[i]? = some (tick_line new) := by
    rw [List.getElem?_map, hl]
    rfl
  have hstamp : (tick_line new).stamp = 1 := by
    unfold tick_line
    rw [if_pos hv1]
    show new.stamp + 1 = 1
    rw [hst]
    rfl
  have hother : ∀ (k : Nat) (l : cache_line), (set1.map tick_line)[k]? = some l → k ≠ i →
      (tick_line new).stamp < l.stamp ∨ l.stamp = -1 := by
    intro k l hkl hk
    obtain ⟨l0, hl0, rfl⟩ := getElem_map_tick hkl
    rw [hstamp]
    unfold tick_line
    rcases hoth k l0 hl0 hk with ⟨e1, e2⟩ | ⟨e1, _, e2 | ⟨e2, _⟩⟩
    · left
      rw [if_pos e1]
      show 1 < l0.stamp + 1
      omega
    · right
      rw [if_neg (by rw [e1]; decide)]
      exact e2
    · cases e2
  rw [← ha] at h1 h2
  obtain ⟨st2, new2, hu2, c1, c2, c3, _⟩ :=
    hit_double_ref (r2.type == RecType.S) h1 h2 hs1t hft hlt (by rw [hstamp]; decide)
      (by rw [hstamp]; decide) (fun k l hkl hk => hother k l hkl (by omega))
      (fun k l hkl hk => by
        rcases hother k l hkl (by omega) with e | e
        · left; omega
        · right; exact e)
  obtain ⟨stf, hrunf, _, _⟩ := run_ok hs hsb hE false (pre ++ r1 :: r2 :: post)
    (shape_init cfg) (cacheOk_init cfg false) (Or.inr hsmall)
  refine ⟨update_timestamp sa, st2, stf, hrun1, hu2, ?_, c1, c2, c3, hrunf⟩
  rw [step_load_store cfg _ r2 ht2, hu2]
  rfl

theorem repeated_address_double_ref_example :
    (1 ≤ (⟨1, 2, 2⟩ : Config).s ∧ 1 ≤ (⟨1, 2, 2⟩ : Config).E ∧
      (⟨1, 2, 2⟩ : Config).s + (⟨1, 2, 2⟩ : Config).b < 64 ∧
      (∀ r ∈ [(⟨RecType.L, 8⟩ : Record)] ++ ⟨RecType.S, 16⟩ :: ⟨RecType.L, 16⟩ ::
        [⟨RecType.M, 0⟩], r.address < 2 ^ 31)) ∧
    (∃ st1 st2 stf,
      run ⟨1, 2, 2⟩ (init ⟨1, 2, 2⟩) ([⟨RecType.L, 8⟩] ++ [⟨RecType.S, 16⟩]) = some st1 ∧
      update ⟨1, 2, 2⟩ st1 (⟨RecType.L, 16⟩ : Record).address
        ((⟨RecType.L, 16⟩ : Record).type == RecType.S) = some st2 ∧
      step ⟨1, 2, 2⟩ st1 ⟨RecType.L, 16⟩ = some (update_timestamp st2) ∧
      st2.hits_count = st1.hits_count + 1 ∧ st2.miss_count = st1.miss_count ∧
      st2.double_ref_count = st1.double_ref_count + 1 ∧
      run ⟨1, 2, 2⟩ (init ⟨1, 2, 2⟩) ([⟨RecType.L, 8⟩] ++ ⟨RecType.S, 16⟩ ::
        ⟨RecType.L, 16⟩ :: [⟨RecType.M, 0⟩]) = some stf) :=
  ⟨⟨by decide, by decide, by decide, by decide⟩,
    (repeated_address_double_ref ⟨1, 2, 2⟩ (by decide) (by decide) (by decide)
      [⟨RecType.L, 8⟩] [⟨RecType.M, 0⟩] ⟨RecType.S, 16⟩ ⟨RecType.L, 16⟩ (by decide)
      (Or.inr rfl) (Or.inl rfl) rfl).1⟩

theorem setOk_valid_stamp {m : Int} {ph : Bool} {set : List cache_line} (h : SetOk m ph set)
    {j : Nat} {l : cache_line} (hl : set[j]? = some l) (hv : l.valid_bit = 1) :
    m ≤ l.stamp := by
  obtain ⟨k, hk⟩ := h
  obtain ⟨_, q2, q3⟩ := hk j l hl
  by_cases hj : j < k
  · exact (q2 hj).2
  · have := (q3 (by omega)).1
    rw [hv] at this
    cases this

theorem validDistinct_tick {set : List cache_line} (h : ValidDistinct set) :
    ValidDistinct (set.map tick_line) := by
  intro i j li lj hi hj vi vj e
  obtain ⟨a, ha, rfl⟩ := getElem_map_tick hi
  obtain ⟨b, hb, rfl⟩ := getElem_map_tick hj
  unfold tick_line at vi vj e
  by_cases c1 : a.valid_bit = 1
  · by_cases c2 : b.valid_bit = 1
    · rw [if_pos c1, if_pos c2] at e
      exact h i j a b ha hb c1 c2 (by
        have e2 : a.stamp + 1 = b.stamp + 1 := e
        omega)
    · rw [if_neg c2] at vj
      exact absurd vj c2
  · rw [if_neg c1] at vi
    exact absurd vi c1

theorem validDistinct_access {ph : Bool} {set : List cache_line} (hok : SetOk 1 ph set)
    (h : ValidDistinct set) (i : Nat) {new : cache_line} (hs : new.stamp = 0) :
    ValidDistinct (set.set i new) := by
  intro a b la lb ha hb va vb e
  rcases getElem_set_cases ha with ⟨e1, rfl⟩ | ⟨n1, ha0⟩
  · rcases getElem_set_cases hb with ⟨e2, _⟩ | ⟨_, hb0⟩
    · omega
    · have := setOk_valid_stamp hok hb0 vb
      omega
  · rcases getElem_set_cases hb with ⟨e2, rfl⟩ | ⟨_, hb0⟩
    · have := setOk_valid_stamp hok ha0 va
      omega
    · exact h a b la lb ha0 hb0 va vb e

theorem validDistinct_same {set : List cache_line} (h : ValidDistinct set) {i : Nat}
    {old new : cache_line} (hold : set[i]? = some old) (hv : new.valid_bit = old.valid_bit)
    (hs : new.stamp = old.stamp) : ValidDistinct (set.set i new) := by
  intro a b la lb ha hb va vb e
  rcases getElem_set_cases ha with ⟨e1, rfl⟩ | ⟨n1, ha0⟩
  · rcases getElem_set_cases hb with ⟨e2, _⟩ | ⟨n2, hb0⟩
    · omega
    · subst e1
      exact h a b old lb hold hb0 (by rw [← hv]; exact va) vb (by rw [← hs]; exact e)
  · rcases getElem_set_cases hb with ⟨e2, rfl⟩ | ⟨_, hb0⟩
    · subst e2
      exact h a b la old ha0 hold va (by rw [← hv]; exact vb) (by rw [← hs] ; exact e)
    · exact h a b la lb ha0 hb0 va vb e

theorem stampsOk_init (cfg : Config) : StampsOk 1 (init cfg) := by
  refine ⟨cacheOk_init cfg true, ?_⟩
  intro set hset i j li lj hi _ vi _ _
  simp only [init, List.mem_replicate] at hset
  obtain ⟨_, rfl⟩ := hset
  have hm := List.getElem?_mem hi
  simp only [List.mem_replicate] at hm
  obtain ⟨_, rfl⟩ := hm
  cases vi

theorem stampsOk_tick {st : State} (h : StampsOk 0 st) : StampsOk 1 (update_timestamp st) := by
  refine ⟨cacheOk_tick h.1, ?_⟩
  intro set hset
  rw [update_timestamp_cache] at hset
  obtain ⟨set0, hset0, rfl⟩ := List.mem_map.1 hset
  exact validDistinct_tick (h.2 set0 hset0)

/-- One call of `update` from a state between two records. -/
theorem stampsOk_update {cfg : Config} {st st1 : State} {address : Nat} {w : Bool}
    (h : StampsOk 1 st) (hu : update cfg st address w = some st1) : StampsOk 0 st1 := by
  obtain ⟨_, _, _, _, _, _, _, _, _, _, _, _, _, _, hok1⟩ := access_key h.1 hu
  refine ⟨hok1 (Or.inl rfl), ?_⟩
  obtain ⟨idx, atag, set, i, old, new, _, _, hset, _, hcache, hst, _⟩ := update_set hu
  intro set' hset'
  rw [hcache] at hset'
  rcases mem_set_cases hset' with hm | rfl
  · exact h.2 set' hm
  · exact validDistinct_access (h.1 set (List.getElem?_mem hset))
      (h.2 set (List.getElem?_mem hset)) i hst

/-- The second call of `update` of an `M` record. -/
theorem stampsOk_second {cfg : Config} {st st1 st2 : State} {address : Nat}
    (h : StampsOk 1 st) (hu1 : update cfg st address false = some st1)
    (hu2 : update cfg st1 address true = some st2) : StampsOk 0 st2 := by
  have h1ok := stampsOk_update h hu1
  obtain ⟨idx, atag, set1, i, new, h1, h2, hs1, hf, hl, hst, _, hoth, hdirty, _⟩ :=
    access_key h.1 hu1
  obtain ⟨st2', new2, hu2', _, _, _, hcache, n1, n2, n3, n4, _⟩ :=
    hit_double_ref true h1 h2 hs1 hf hl (by rw [hst]; decide) (by rw [hst]; decide)
      (by
        intro k l hkl hk
        rcases hoth k l hkl (by omega) with ⟨_, e⟩ | ⟨_, e, _⟩
        · left; rw [hst]; omega
        · omega)
      (by
        intro k l hkl hk
        rcases hoth k l hkl (by omega) with ⟨_, e⟩ | ⟨_, _, e | ⟨_, e⟩⟩
        · left; rw [hst]; omega
        · right; exact e
        · left; rw [hst, e])
  rw [hu2] at hu2'
  cases hu2'
  have hm1 : set1 ∈ st1.cache := List.getElem?_mem hs1
  constructor
  · intro set' hset'
    rw [hcache] at hset'
    rcases mem_set_cases hset' with hm | rfl
    · exact h1ok.1 set' hm
    · apply setOk_set_same (h1ok.1 set1 hm1) hl n1 n2 (by rw [n3, hst])
      rcases n4 with e | e
      · rw [e]; exact hdirty i new hl
      · exact Or.inr e
  · intro set' hset'
    rw [hcache] at hset'
    rcases mem_set_cases hset' with hm | rfl
    · exact h1ok.2 set' hm
    · exact validDistinct_same (h1ok.2 set1 hm1) hl n1 (by rw [n3, hst])

theorem stampsOk_weaken {st : State} (h : StampsOk 1 st) : StampsOk 0 st :=
  ⟨cacheOk_weaken h.1, h.2⟩

/-- One record keeps `StampsOk 1`. -/
theorem stampsOk_step {cfg : Config} {st st1 : State} (r : Record) (h : StampsOk 1 st)
    (hs : step cfg st r = some st1) : StampsOk 1 st1 := by
  obtain ⟨t, a⟩ := r
  unfold step at hs
  cases t
  · simp only [Option.map_some', Option.some.injEq] at hs
    subst hs
    exact stampsOk_tick (stampsOk_weaken h)
  · simp only [Option.map_eq_some'] at hs
    obtain ⟨s1, hu, rfl⟩ := hs
    exact stampsOk_tick (stampsOk_update h hu)
  · simp only [Option.map_eq_some', Option.bind_eq_some] at hs
    obtain ⟨s2, ⟨s1, hu1, hu2⟩, rfl⟩ := hs
    exact stampsOk_tick (stampsOk_second h hu1 hu2)
  · simp only [Option.map_eq_some'] at hs
    obtain ⟨s1, hu, rfl⟩ := hs
    exact stampsOk_tick (stampsOk_update h hu)
  · simp only [Option.map_some', Option.some.injEq] at hs
    subst hs
    exact stampsOk_tick (stampsOk_weaken h)

theorem stampsOk_run (cfg : Config) :
    ∀ (trace : List Record) (st st1 : State), StampsOk 1 st → run cfg st trace = some st1 →
      StampsOk 1 st1
  | [], st, st1, h, hr => by
    simp only [run, Option.some.injEq] at hr
    subst hr
    exact h
  | r :: rs, st, st1, h, hr => by
    simp only [run, Option.bind_eq_some] at hr
    obtain ⟨s1, hs, hr1⟩ := hr
    exact stampsOk_run cfg rs s1 st1 (stampsOk_step r h hs) hr1

/-- Inside an `M` record the stamps of a set need not differ: after `L 0` and
`S 7fffffff8` (which hits the invalid line 1 of set 0, of tag `-1`), the read access of
`M 0` leaves the valid line 0 and the invalid line 1 of set 0 both with stamp 0, and the
MRU scan of the write access that follows takes the first of them. -/
theorem read_access_leaves_equal_stamps :
    ((run ⟨1, 2, 2⟩ (init ⟨1, 2, 2⟩) [⟨RecType.L, 0⟩, ⟨RecType.S, 34359738360⟩]).bind
      (fun st => update ⟨1, 2, 2⟩ st 0 false)).map
      (fun st => (st.cache, scan_min (st.cache.headD []) 0 (INT_MAX, -1))) =
    some ([[⟨1, 0, 0, 0⟩, ⟨0, 1, -1, 0⟩], [⟨0, 0, -1, -1⟩, ⟨0, 0, -1, -1⟩]], 0, 0) := by
  decide

/-- With stamps in the integers: in every state reached from the empty cache by a whole
trace (with `E ≥ 1`), in
every set, every line with `valid_bit = 1` has a stamp of at least 1, no two lines with
`valid_bit = 1` have equal stamps, and no two of the lines that the LRU scan and the MRU
scan consider (those with a stamp other than `-1`) have equal stamps: the maximum and the
minimum that the scans select are each attained by one line only, so the strict
comparisons of the scans never have to choose between lines of equal stamp. -/
theorem valid_stamps_distinct (cfg : Config) (hE : 1 ≤ cfg.E) (trace : List Record)
    (st : State) (hrun : run cfg (init cfg) trace = some st) :
    ∀ set ∈ st.cache,
      (∀ l ∈ set, l.valid_bit = 1 → 1 ≤ l.stamp) ∧
      (∀ (i j : Nat) (li lj : cache_line), set[i]? = some li → set[j]? = some lj →
        li.valid_bit = 1 → lj.valid_bit = 1 → li.stamp = lj.stamp → i = j) ∧
      (∀ (i j : Nat) (li lj : cache_line), set[i]? = some li → set[j]? = some lj →
        li.stamp ≠ -1 → lj.stamp ≠ -1 → li.stamp = lj.stamp → i = j) := by
  have h := stampsOk_run cfg trace (init cfg) st (stampsOk_init cfg) hrun
  intro set hset
  have hok := h.1 set hset
  have hvd := h.2 set hset
  refine ⟨?_, hvd, ?_⟩
  · intro l hl hv
    obtain ⟨j, hj⟩ := List.getElem?_of_mem hl
    exact setOk_valid_stamp hok hj hv
  · intro i j li lj hi hj ni nj e
    obtain ⟨k, hk⟩ := hok
    obtain ⟨_, a2, a3⟩ := hk i li hi
    obtain ⟨_, b2, b3⟩ := hk j lj hj
    by_cases ci : i < k
    · by_cases cj : j < k
      · exact hvd i j li lj hi hj (a2 ci).1 (b2 cj).1 e
      · rcases (b3 (by omega)).2.2 with x | ⟨_, x, _⟩
        · exact absurd x nj
        · have := (a2 ci).2
          omega
    · rcases (a3 (by omega)).2.2 with x | ⟨_, x, y⟩
      · exact absurd x ni
      · by_cases cj : j < k
        · have := (b2 cj).2
          omega
        · rcases (b3 (by omega)).2.2 with z | ⟨_, _, z⟩
          · exact absurd z nj
          · omega

/-- An instance: `s = 1`, `E = 2`, `b = 2` and the trace `L 0`, `S 7fffffff8`, `M 0`,
which ends with a valid line of stamp 1 and an invalid line of stamp 0 in set 0. -/
theorem valid_stamps_distinct_example :
    1 ≤ (⟨1, 2, 2⟩ : Config).E ∧
    run ⟨1, 2, 2⟩ (init ⟨1, 2, 2⟩)
        [⟨RecType.L, 0⟩, ⟨RecType.S, 34359738360⟩, ⟨RecType.M, 0⟩] =
      some ⟨[[⟨1, 1, 0, 1⟩, ⟨0, 1, -1, 0⟩], [⟨0, 0, -1, -1⟩, ⟨0, 0, -1, -1⟩]],
        3, 1, 0, 0, 8, 1⟩ ∧
    ∀ set ∈ [[(⟨1, 1, 0, 1⟩ : cache_line), ⟨0, 1, -1, 0⟩], [⟨0, 0, -1, -1⟩, ⟨0, 0, -1, -1⟩]],
      (∀ l ∈ set, l.valid_bit = 1 → 1 ≤ l.stamp) ∧
      (∀ (i j : Nat) (li lj : cache_line), set[i]? = some li → set[j]? = some lj →
        li.valid_bit = 1 → lj.valid_bit = 1 → li.stamp = lj.stamp → i = j) ∧
      (∀ (i j : Nat) (li lj : cache_line), set[i]? = some li → set[j]? = some lj →
        li.stamp ≠ -1 → lj.stamp ≠ -1 → li.stamp = lj.stamp → i = j) :=
  ⟨by decide, by decide,
    valid_stamps_distinct ⟨1, 2, 2⟩ (by decide)
      [⟨RecType.L, 0⟩, ⟨RecType.S, 34359738360⟩, ⟨RecType.M, 0⟩]
      ⟨[[⟨1, 1, 0, 1⟩, ⟨0, 1, -1, 0⟩], [⟨0, 0, -1, -1⟩, ⟨0, 0, -1, -1⟩]], 3, 1, 0, 0, 8, 1⟩
      (by decide)⟩

end Csim

namespace Csim32
open Csim

/-! ## The `int` simulator against the simulator in the integers -/

theorem ite_some_eq {α : Type} {c : Prop} [Decidable c] {x y : α}
    (h : (if c then some x else none) = some y) : c ∧ x = y := by
  by_cases hc : c
  · rw [if_pos hc] at h
    exact ⟨hc, Option.some.inj h⟩
  · rw [if_neg hc] at h
    cases h

theorem ite_opt_eq {α : Type} {c : Prop} [Decidable c] {x : Option α} {y : α}
    (h : (if c then x else none) = some y) : c ∧ x = some y := by
  by_cases hc : c
  · rw [if_pos hc] at h
    exact ⟨hc, h⟩
  · rw [if_neg hc] at h
    cases h

/-- For `s ≤ 30` the set index is below `2 ^ 30` and its conversion to `int` keeps it. -/
theorem address_set_index_eq (cfg : Config) (hs30 : cfg.s ≤ 30) (address : Nat) :
    Csim32.address_set_index cfg address = Csim.address_set_index cfg address := by
  unfold Csim32.address_set_index
  cases h : Csim.address_set_index cfg address with
  | none => rfl
  | some v =>
    have hv : v < 2 ^ 30 := by
      unfold Csim.address_set_index shl64 shr64 at h
      by_cases c1 : (0 : Int) ≤ 64 - (cfg.s : Int) - (cfg.b : Int) ∧
          64 - (cfg.s : Int) - (cfg.b : Int) < 64
      · by_cases c2 : (0 : Int) ≤ 64 - (cfg.s : Int) ∧ 64 - (cfg.s : Int) < 64
        · simp only [if_pos c1, if_pos c2, Option.some_bind, Option.some.injEq] at h
          have e2 : (64 - (cfg.s : Int)).toNat = 64 - cfg.s := by omega
          rw [e2] at h
          rw [← h, Nat.div_lt_iff_lt_mul (by positivity)]
          have hlt : (address * 2 ^ (64 - (cfg.s : Int) - (cfg.b : Int)).toNat) % 2 ^ 64 <
              2 ^ 64 := Nat.mod_lt _ (by positivity)
          have hp : (2 : Nat) ^ 64 ≤ 2 ^ 30 * 2 ^ (64 - cfg.s) := by
            rw [← pow_add]
            exact Nat.pow_le_pow_right (by norm_num) (by omega)
          omega
        · simp only [if_pos c1, if_neg c2, Option.some_bind] at h
          cases h
      · simp only [if_neg c1, Option.none_bind] at h
        cases h
    have e : toInt32 v = (v : Int) := toInt32_small (by omega)
    simp only [Option.some_bind, e]
    rw [if_pos (by omega)]
    simp

theorem update_hit_some {cfg : Config} {st st1 : State} {idx : Nat} {set : List cache_line}
    {i : Nat} {ln : cache_line} {w : Bool}
    (h : Csim32.update_hit cfg st idx set i ln w = some st1) :
    st1 = Csim.update_hit cfg st idx set i ln w := by
  unfold Csim32.update_hit at h
  exact (ite_some_eq h).2.symm

theorem update_cold_some {cfg : Config} {st st1 : State} {idx : Nat} {set : List cache_line}
    {i : Nat} {ln : cache_line} {atag : Int} {w : Bool}
    (h : Csim32.update_cold cfg st idx set i ln atag w = some st1) :
    st1 = Csim.update_cold cfg st idx set i ln atag w := by
  unfold Csim32.update_cold at h
  exact (ite_some_eq h).2.symm

theorem update_evict_some {cfg : Config} {st st1 : State} {idx : Nat} {set : List cache_line}
    {atag : Int} {w : Bool} (h : Csim32.update_evict cfg st idx set atag w = some st1) :
    Csim.update_evict cfg st idx set atag w = some st1 := by
  unfold Csim32.update_evict at h
  simp only [] at h
  obtain ⟨_, h⟩ := ite_opt_eq h
  by_cases c : (scan_max set 0 (INT_MIN, -1)).2 < 0
  · rw [if_pos c] at h
    cases h
  · rw [if_neg c] at h
    cases hl : set[(scan_max set 0 (INT_MIN, -1)).2.toNat]? with
    | none => rw [hl] at h; cases h
    | some ln =>
      rw [hl] at h
      exact (ite_opt_eq h).2

/-- A call of `update` that is defined with `int` arithmetic has the result computed in the
integers. -/
theorem update_some {cfg : Config} (hs30 : cfg.s ≤ 30) {st st1 : State} {address : Nat}
    {w : Bool} (h : Csim32.update cfg st address w = some st1) :
    Csim.update cfg st address w = some st1 := by
  unfold Csim32.update at h
  rw [address_set_index_eq cfg hs30] at h
  unfold Csim.update
  cases hidx : Csim.address_set_index cfg address with
  | none => rw [hidx] at h; cases h
  | some idx =>
    cases htag : address_tag cfg address with
    | none => rw [hidx, htag] at h; cases h
    | some atag =>
      rw [hidx, htag] at h
      simp only [] at h ⊢
      cases hset : st.cache[idx]? with
      | none => rw [hset] at h; cases h
      | some set =>
        rw [hset] at h
        simp only [] at h ⊢
        cases hf : first_index (fun l => l.tag == atag) set with
        | some i =>
          rw [hf] at h
          simp only [] at h ⊢
          cases hln : set[i]? with
          | none => rw [hln] at h; cases h
          | some ln =>
            rw [hln] at h
            simp only [] at h ⊢
            rw [update_hit_some h]
        | none =>
          rw [hf] at h
          simp only [] at h ⊢
          cases hv : first_index (fun l => l.valid_bit == 0) set with
          | some i =>
            rw [hv] at h
            simp only [] at h ⊢
            cases hln : set[i]? with
            | none => rw [hln] at h; cases h
            | some ln =>
              rw [hln] at h
              simp only [] at h ⊢
              rw [update_cold_some h]
          | none =>
            rw [hv] at h
            simp only [] at h ⊢
            exact update_evict_some h

theorem update_timestamp_some {st st1 : State} (h : Csim32.update_timestamp st = some st1) :
    st1 = Csim.update_timestamp st := by
  unfold Csim32.update_timestamp at h
  exact (ite_some_eq h).2.symm

theorem step_some {cfg : Config} (hs30 : cfg.s ≤ 30) {st st1 : State} {r : Record}
    (h : Csim32.step cfg st r = some st1) : Csim.step cfg st r = some st1 := by
  obtain ⟨t, a⟩ := r
  unfold Csim32.step at h
  unfold Csim.step
  rw [Option.bind_eq_some] at h
  obtain ⟨s1, h1, h2⟩ := h
  rw [update_timestamp_some h2]
  cases t
  · simp only [Option.some.injEq] at h1
    subst h1
    rfl
  · simp only [] at h1 ⊢
    rw [update_some hs30 h1]
    rfl
  · simp only [Option.bind_eq_some] at h1 ⊢
    obtain ⟨s0, h0, h1⟩ := h1
    rw [update_some hs30 h0]
    simp only [Option.some_bind]
    rw [update_some hs30 h1]
    rfl
  · simp only [] at h1 ⊢
    rw [update_some hs30 h1]
    rfl
  · simp only [Option.some.injEq] at h1
    subst h1
    rfl

/-- A run that is defined with `int` arithmetic has the result computed in the
integers. -/
theorem run_some {cfg : Config} (hs30 : cfg.s ≤ 30) :
    ∀ (trace : List Record) {st st1 : State}, Csim32.run cfg st trace = some st1 →
      Csim.run cfg st trace = some st1
  | [], st, st1, h => by
    unfold Csim32.run at h
    unfold Csim.run
    exact h
  | r :: rs, st, st1, h => by
    unfold Csim32.run at h
    unfold Csim.run
    rw [Option.bind_eq_some] at h
    obtain ⟨s1, h1, h2⟩ := h
    rw [step_some hs30 h1]
    exact run_some hs30 rs h2

theorem init_some {cfg : Config} {st : State} (h : Csim32.init cfg = some st) :
    cfg.s ≤ 30 ∧ st = Csim.init cfg := by
  unfold Csim32.init at h
  obtain ⟨h1, h2⟩ := ite_some_eq h
  exact ⟨h1, h2.symm⟩

theorem run32_append (cfg : Config) :
    ∀ (xs ys : List Record) (st : State),
      Csim32.run cfg st (xs ++ ys) =
        (Csim32.run cfg st xs).bind (fun st1 => Csim32.run cfg st1 ys)
  | [], ys, st => by simp [Csim32.run]
  | x :: xs, ys, st => by
    simp only [List.cons_append, Csim32.run]
    cases Csim32.step cfg st x with
    | none => rfl
    | some st1 => simp only [Option.some_bind]; exact run32_append cfg xs ys st1

/-! ## Definedness of a run within the `int` range -/

theorem bounded_init (cfg : Config) : Bounded cfg 0 (Csim.init cfg) := by
  simp [Bounded, Csim.init]

theorem bounded_mono {cfg : Config} {a c : Int} {st : State} (h : Bounded cfg a st)
    (hac : a ≤ c) : Bounded cfg c st := by
  have hp : (0 : Int) ≤ 2 ^ cfg.b := by positivity
  have hm : (2 : Int) ^ cfg.b * a ≤ 2 ^ cfg.b * c := mul_le_mul_of_nonneg_left hac hp
  obtain ⟨⟨a1, a2⟩, ⟨b1, b2⟩, ⟨c1, c2⟩, ⟨d1, d2⟩, ⟨e1, e2⟩, f1, f2⟩ := h
  exact ⟨⟨a1, by omega⟩, ⟨b1, by omega⟩, ⟨c1, by omega⟩, ⟨d1, by omega⟩, ⟨e1, by omega⟩,
    by omega, by omega⟩

theorem bounded_tick {cfg : Config} {a : Int} {st : State} (h : Bounded cfg a st) :
    Bounded cfg a (Csim.update_timestamp st) := h

/-- What a call of `update` does to the six counters. -/
theorem update_counters {cfg : Config} {st st1 : State} {address : Nat} {w : Bool}
    (hu : Csim.update cfg st address w = some st1) :
    (st1.hits_count = st.hits_count ∨ st1.hits_count = st.hits_count + 1) ∧
    (st1.miss_count = st.miss_count ∨ st1.miss_count = st.miss_count + 1) ∧
    (st1.eviction_count = st.eviction_count ∨
      st1.eviction_count = st.eviction_count + 1) ∧
    (st1.double_ref_count = st.double_ref_count ∨
      st1.double_ref_count = st.double_ref_count + 1) ∧
    (st1.dirty_eviction_bytes_count = st.dirty_eviction_bytes_count ∨
      st1.dirty_eviction_bytes_count = st.dirty_eviction_bytes_count + 2 ^ cfg.b) ∧
    (st1.dirty_active_bytes_count = st.dirty_active_bytes_count ∨
      st1.dirty_active_bytes_count = st.dirty_active_bytes_count + 2 ^ cfg.b ∨
      st1.dirty_active_bytes_count = st.dirty_active_bytes_count - 2 ^ cfg.b) := by
  obtain ⟨idx, atag, set, _, _, _, hbr⟩ := update_cases hu
  rcases hbr with ⟨i, ln, _, _, rfl⟩ | ⟨i, ln, _, _, _, rfl⟩ | ⟨_, _, he⟩
  · unfold Csim.update_hit
    refine ⟨?_, ?_, ?_, ?_, ?_, ?_⟩ <;> dsimp only [State.with_set] <;> (try split_ifs) <;> simp
  · unfold Csim.update_cold
    refine ⟨?_, ?_, ?_, ?_, ?_, ?_⟩ <;> dsimp only [State.with_set] <;> (try split_ifs) <;> simp
  · unfold Csim.update_evict at he
    simp only [] at he
    by_cases c : (scan_max set 0 (INT_MIN, -1)).2 < 0
    · rw [if_pos c] at he
      cases he
    · rw [if_neg c] at he
      cases hl : set[(scan_max set 0 (INT_MIN, -1)).2.toNat]? with
      | none => rw [hl] at he; cases he
      | some ln =>
        rw [hl] at he
        simp only [Option.some.injEq] at he
        subst he
        refine ⟨?_, ?_, ?_, ?_, ?_, ?_⟩ <;> dsimp only [State.with_set] <;> (try split_ifs) <;> simp

/-- A call of `update` whose counters have room for one more step is defined with `int`
arithmetic. -/
theorem update_of_room {cfg : Config} (hs30 : cfg.s ≤ 30) (hb30 : cfg.b ≤ 30)
    {st st1 : State} {address : Nat} {w : Bool}
    (hu : Csim.update cfg st address w = some st1)
    (g1 : st.hits_count + 1 ≤ INT_MAX) (g2 : st.miss_count + 1 ≤ INT_MAX)
    (g3 : st.eviction_count + 1 ≤ INT_MAX) (g4 : st.double_ref_count + 1 ≤ INT_MAX)
    (g5 : st.dirty_eviction_bytes_count + 2 ^ cfg.b ≤ INT_MAX)
    (g6 : st.dirty_active_bytes_count + 2 ^ cfg.b ≤ INT_MAX)
    (g7 : INT_MIN ≤ st.dirty_active_bytes_count - 2 ^ cfg.b) :
    Csim32.update cfg st address w = some st1 := by
  obtain ⟨idx, atag, set, h1, h2, hset, hbr⟩ := update_cases hu
  unfold Csim32.update
  rw [address_set_index_eq cfg hs30, h1, h2]
  simp only [hset]
  rcases hbr with ⟨i, ln, hf, hln, rfl⟩ | ⟨i, ln, hf, hv, hln, rfl⟩ | ⟨hf, hv, he⟩
  · simp only [hf, hln]
    unfold Csim32.update_hit
    simp only []
    rw [if_pos ⟨fun _ => ⟨hb30, g6⟩, fun _ => g4, g1⟩]
  · simp only [hf, hv, hln]
    unfold Csim32.update_cold
    rw [if_pos ⟨fun _ => ⟨hb30, g6⟩, g2⟩]
  · simp only [hf, hv]
    unfold Csim32.update_evict
    simp only []
    rw [if_pos ⟨g3, g2⟩]
    have he2 := he
    unfold Csim.update_evict at he2
    simp only [] at he2
    by_cases c : (scan_max set 0 (INT_MIN, -1)).2 < 0
    · rw [if_pos c] at he2
      cases he2
    · rw [if_neg c]
      cases hl : set[(scan_max set 0 (INT_MIN, -1)).2.toNat]? with
      | none => rw [if_neg c, hl] at he2; cases he2
      | some ln =>
        simp only []
        rw [if_pos ⟨fun _ => ⟨hb30, g5, fun _ => g7⟩, fun _ _ => ⟨hb30, g6⟩⟩]
        exact he

theorem room_of_bounded {cfg : Config} {a : Int} {st : State} (hb : Bounded cfg a st)
    (ha : 2 ^ cfg.b * (a + 1) ≤ INT_MAX) :
    st.hits_count + 1 ≤ INT_MAX ∧ st.miss_count + 1 ≤ INT_MAX ∧
    st.eviction_count + 1 ≤ INT_MAX ∧ st.double_ref_count + 1 ≤ INT_MAX ∧
    st.dirty_eviction_bytes_count + 2 ^ cfg.b ≤ INT_MAX ∧
    st.dirty_active_bytes_count + 2 ^ cfg.b ≤ INT_MAX ∧
    INT_MIN ≤ st.dirty_active_bytes_count - 2 ^ cfg.b := by
  have hp : (1 : Int) ≤ 2 ^ cfg.b := one_le_pow₀ (by norm_num)
  obtain ⟨⟨a1, a2⟩, ⟨b1, b2⟩, ⟨c1, c2⟩, ⟨d1, d2⟩, ⟨e1, e2⟩, f1, f2⟩ := hb
  have ha0 : 0 ≤ a := le_trans a1 a2
  have hm : a ≤ 2 ^ cfg.b * a := le_mul_of_one_le_left ha0 hp
  have hr : (2 : Int) ^ cfg.b * (a + 1) = 2 ^ cfg.b * a + 2 ^ cfg.b := by ring
  rw [hr] at ha
  generalize (2 : Int) ^ cfg.b * a = Q at *
  generalize (2 : Int) ^ cfg.b = P at *
  simp only [INT_MAX, INT_MIN] at *
  refine ⟨?_, ?_, ?_, ?_, ?_, ?_, ?_⟩ <;> omega

theorem bounded_update {cfg : Config} {a : Int} {st st1 : State} {address : Nat} {w : Bool}
    (hb : Bounded cfg a st) (hu : Csim.update cfg st address w = some st1) :
    Bounded cfg (a + 1) st1 := by
  obtain ⟨k1, k2, k3, k4, k5, k6⟩ := update_counters hu
  have hp : (1 : Int) ≤ 2 ^ cfg.b := one_le_pow₀ (by norm_num)
  obtain ⟨⟨a1, a2⟩, ⟨b1, b2⟩, ⟨c1, c2⟩, ⟨d1, d2⟩, ⟨e1, e2⟩, f1, f2⟩ := hb
  have hr : (2 : Int) ^ cfg.b * (a + 1) = 2 ^ cfg.b * a + 2 ^ cfg.b := by ring
  unfold Bounded
  rw [hr]
  generalize (2 : Int) ^ cfg.b * a = Q at *
  generalize (2 : Int) ^ cfg.b = P at *
  refine ⟨⟨?_, ?_⟩, ⟨?_, ?_⟩, ⟨?_, ?_⟩, ⟨?_, ?_⟩, ⟨?_, ?_⟩, ?_, ?_⟩ <;> omega

/-- Within the `int` range, a call of `update` on a well-shaped cache is defined. -/
theorem update_defined {cfg : Config} (hs : 1 ≤ cfg.s) (hsb : cfg.s + cfg.b < 64)
    (hE : 1 ≤ cfg.E) (hs30 : cfg.s ≤ 30) (hb30 : cfg.b ≤ 30) {st : State}
    (hsh : Shape cfg st) {T a : Int} (hl : Lines T st) (hT : 0 ≤ T) (hb : Bounded cfg a st)
    (ha : 2 ^ cfg.b * (a + 1) ≤ INT_MAX) (address : Nat) (w : Bool) :
    ∃ st1, Csim32.update cfg st address w = some st1 ∧ Shape cfg st1 ∧ Lines T st1 ∧
      Bounded cfg (a + 1) st1 := by
  obtain ⟨st1, hu, hsh1, _⟩ := update_spec hs hsb hE hsh address w
  obtain ⟨g1, g2, g3, g4, g5, g6, g7⟩ := room_of_bounded hb ha
  exact ⟨st1, update_of_room hs30 hb30 hu g1 g2 g3 g4 g5 g6 g7, hsh1, lines_update hl hT hu,
    bounded_update hb hu⟩

theorem tick_defined {T : Int} {st : State} (hl : Lines T st) (hT : T < INT_MAX) :
    Csim32.update_timestamp st = some (Csim.update_timestamp st) := by
  unfold Csim32.update_timestamp
  rw [if_pos]
  intro set hset l hln _
  have := (hl set hset l hln).2.2.2
  omega

/-- Within the `int` range, one iteration of the record loop is defined. -/
theorem step_defined {cfg : Config} (hs : 1 ≤ cfg.s) (hsb : cfg.s + cfg.b < 64)
    (hE : 1 ≤ cfg.E) (hs30 : cfg.s ≤ 30) (hb30 : cfg.b ≤ 30) {st : State}
    (hsh : Shape cfg st) {T a : Int} (hl : Lines T st) (hT : 0 ≤ T) (hT1 : T < INT_MAX)
    (hb : Bounded cfg a st) (r : Record)
    (ha : 2 ^ cfg.b * (a + (match r.type with
          | RecType.I => 0 | RecType.L => 1 | RecType.M => 2 | RecType.S => 1
          | RecType.X => 0)) ≤ INT_MAX) :
    ∃ st1, Csim32.step cfg st r = some st1 ∧ Shape cfg st1 ∧ Lines (T + 1) st1 ∧
      Bounded cfg (a + (match r.type with
          | RecType.I => 0 | RecType.L => 1 | RecType.M => 2 | RecType.S => 1
          | RecType.X => 0)) st1 := by
  obtain ⟨t, ad⟩ := r
  have hp : (0 : Int) ≤ 2 ^ cfg.b := by positivity
  cases t
  · refine ⟨Csim.update_timestamp st, ?_, shape_tick hsh, (lines_tick hl).1, ?_⟩
    · simp only [Csim32.step, Option.some_bind]
      exact tick_defined hl hT1
    · simpa using hb
  · simp only [] at ha ⊢
    obtain ⟨st1, h1, h2, h3, h4⟩ := update_defined hs hsb hE hs30 hb30 hsh hl hT hb ha ad false
    refine ⟨Csim.update_timestamp st1, ?_, shape_tick h2, (lines_tick h3).1, h4⟩
    simp only [Csim32.step, h1, Option.some_bind]
    exact tick_defined h3 hT1
  · simp only [] at ha ⊢
    have ha1 : 2 ^ cfg.b * (a + 1) ≤ INT_MAX := by
      have : (2 : Int) ^ cfg.b * (a + 1) ≤ 2 ^ cfg.b * (a + 2) :=
        mul_le_mul_of_nonneg_left (by omega) hp
      omega
    obtain ⟨st1, h1, h2, h3, h4⟩ := update_defined hs hsb hE hs30 hb30 hsh hl hT hb ha1 ad false
    have ha2 : 2 ^ cfg.b * (a + 1 + 1) ≤ INT_MAX := by
      have e : a + 1 + 1 = a + 2 := by ring
      rw [e]
      exact ha
    obtain ⟨st2, k1, k2, k3, k4⟩ := update_defined hs hsb hE hs30 hb30 h2 h3 hT h4 ha2 ad true
    refine ⟨Csim.update_timestamp st2, ?_, shape_tick k2, (lines_tick k3).1, ?_⟩
    · simp only [Csim32.step, h1, k1, Option.some_bind]
      exact tick_defined k3 hT1
    · have e : a + 1 + 1 = a + 2 := by ring
      rw [e] at k4
      exact k4
  · simp only [] at ha ⊢
    obtain ⟨st1, h1, h2, h3, h4⟩ := update_defined hs hsb hE hs30 hb30 hsh hl hT hb ha ad true
    refine ⟨Csim.update_timestamp st1, ?_, shape_tick h2, (lines_tick h3).1, h4⟩
    simp only [Csim32.step, h1, Option.some_bind]
    exact tick_defined h3 hT1
  · refine ⟨Csim.update_timestamp st, ?_, shape_tick hsh, (lines_tick hl).1, ?_⟩
    · simp only [Csim32.step, Option.some_bind]
      exact tick_defined hl hT1
    · simpa using hb

/-- A whole trace is defined with `int` arithmetic when the stamps and the counters have
room for it. -/
theorem run_defined {cfg : Config} (hs : 1 ≤ cfg.s) (hsb : cfg.s + cfg.b < 64)
    (hE : 1 ≤ cfg.E) (hs30 : cfg.s ≤ 30) (hb30 : cfg.b ≤ 30) :
    ∀ (trace : List Record) {st : State} {T a : Int}, Shape cfg st → Lines T st → 0 ≤ T →
      T + trace.length ≤ INT_MAX → Bounded cfg a st →
      2 ^ cfg.b * (a + accesses trace) ≤ INT_MAX →
      ∃ st1, Csim32.run cfg st trace = some st1
  | [], st, _, _, _, _, _, _, _, _ => ⟨st, rfl⟩
  | r :: rs, st, T, a, hsh, hl, hT, hlen, hb, ha => by
    have hp : (0 : Int) ≤ 2 ^ cfg.b := by positivity
    simp only [List.length_cons] at hlen
    push_cast at hlen
    rw [accesses_cons] at ha
    have hacc : (0 : Int) ≤ accesses rs := Int.natCast_nonneg _
    have hak : 2 ^ cfg.b * (a + (match r.type with
          | RecType.I => 0 | RecType.L => 1 | RecType.M => 2 | RecType.S => 1
          | RecType.X => 0)) ≤ INT_MAX :=
      le_trans (mul_le_mul_of_nonneg_left
        (add_le_add_left (le_add_of_nonneg_right hacc) a) hp) ha
    obtain ⟨st1, h1, h2, h3, h4⟩ := step_defined hs hsb hE hs30 hb30 hsh hl hT
      (by simp only [INT_MAX] at hlen ⊢; omega) hb r hak
    rw [← add_assoc] at ha
    obtain ⟨st2, h5⟩ := run_defined hs hsb hE hs30 hb30 rs h2 h3 (by omega)
      (by omega) h4 ha
    exact ⟨st2, by simp only [Csim32.run, h1, Option.some_bind, h5]⟩

/-- From the empty cache: for `1 ≤ s ≤ 30`, `b ≤ 30`, `s + b < 64`, `E ≥ 1`, a trace of
fewer than `2 ^ 31` records with `2 ^ b * (#L + #S + 2 * #M) < 2 ^ 31` runs to its end with
every `int` operation defined. -/
theorem run_init_defined {cfg : Config} (hs : 1 ≤ cfg.s) (hsb : cfg.s + cfg.b < 64)
    (hE : 1 ≤ cfg.E) (hs30 : cfg.s ≤ 30) (hb30 : cfg.b ≤ 30) (trace : List Record)
    (hlen : trace.length < 2 ^ 31) (hacc : 2 ^ cfg.b * accesses trace < 2 ^ 31) :
    ∃ st0 st, Csim32.init cfg = some st0 ∧ Csim32.run cfg st0 trace = some st := by
  obtain ⟨st, h⟩ := run_defined hs hsb hE hs30 hb30 trace (T := 0) (a := 0) (shape_init cfg)
    (lines_init cfg).1 (le_refl _) (by simp only [INT_MAX]; omega) (bounded_init cfg)
    (by
      simp only [INT_MAX, zero_add]
      have : ((2 ^ cfg.b * accesses trace : Nat) : Int) < 2 ^ 31 := by exact_mod_cast hacc
      push_cast at this
      omega)
  exact ⟨Csim.init cfg, st, by simp [Csim32.init, hs30], h⟩

/-! ## Long traces -/

theorem step_idle (cfg : Config) (k : Int) (hk : k + 1 ≤ INT_MAX) :
    Csim32.step cfg (idle_state k) ⟨RecType.I, 0⟩ = some (idle_state (k + 1)) := by
  have g : ∀ set ∈ (idle_state k).cache, ∀ l ∈ set, l.valid_bit = 1 →
      l.stamp + 1 ≤ INT_MAX := by
    intro set hset l hl hv
    simp only [idle_state, List.mem_cons, List.mem_singleton, List.not_mem_nil, or_false]
      at hset
    rcases hset with rfl | rfl
    · simp only [List.mem_singleton] at hl
      subst hl
      exact hk
    · simp only [List.mem_singleton] at hl
      subst hl
      cases hv
  simp only [Csim32.step, Option.some_bind, Csim32.update_timestamp]
  rw [if_pos g]
  rfl

theorem run32_idle (cfg : Config) (rs : List Record) :
    ∀ (n : Nat) (k : Int), k + n ≤ INT_MAX →
      Csim32.run cfg (idle_state k) (List.replicate n ⟨RecType.I, 0⟩ ++ rs) =
        Csim32.run cfg (idle_state (k + n)) rs
  | 0, k, _ => by simp
  | n + 1, k, h => by
    push_cast at h
    rw [List.replicate_succ, List.cons_append, Csim32.run, step_idle cfg k (by omega),
      Option.some_bind, run32_idle cfg rs n (k + 1) (by omega)]
    congr 2
    push_cast
    ring

theorem step_idle2 (cfg : Config) (k : Int) (hk : k + 1 ≤ INT_MAX) :
    Csim32.step cfg (idle_state2 k) ⟨RecType.I, 0⟩ = some (idle_state2 (k + 1)) := by
  have g : ∀ set ∈ (idle_state2 k).cache, ∀ l ∈ set, l.valid_bit = 1 →
      l.stamp + 1 ≤ INT_MAX := by
    intro set hset l hl hv
    simp only [idle_state2, List.mem_cons, List.mem_singleton, List.not_mem_nil, or_false]
      at hset
    rcases hset with rfl | rfl
    · simp only [List.mem_cons, List.mem_singleton, List.not_mem_nil, or_false] at hl
      rcases hl with rfl | rfl
      · exact hk
      · cases hv
    · simp only [List.mem_cons, List.mem_singleton, List.not_mem_nil, or_false] at hl
      rcases hl with rfl | rfl
      · cases hv
      · cases hv
  simp only [Csim32.step, Option.some_bind, Csim32.update_timestamp]
  rw [if_pos g]
  rfl

theorem run_idle2 (cfg : Config) (rs : List Record) :
    ∀ (n : Nat) (k : Int), k + n ≤ INT_MAX →
      Csim32.run cfg (idle_state2 k) (List.replicate n ⟨RecType.I, 0⟩ ++ rs) =
        Csim32.run cfg (idle_state2 (k + n)) rs
  | 0, k, _ => by simp
  | n + 1, k, h => by
    push_cast at h
    rw [List.replicate_succ, List.cons_append, Csim32.run, step_idle2 cfg k (by omega),
      Option.some_bind, run_idle2 cfg rs n (k + 1) (by omega)]
    congr 2
    push_cast
    ring

theorem step_modify (h : Int) (h0 : 0 ≤ h) (h2 : h + 2 ≤ INT_MAX) :
    Csim32.step ⟨1, 1, 0⟩ (modify_state h) ⟨RecType.M, 0⟩ = some (modify_state (h + 2)) := by
  have e1 : Csim.update ⟨1, 1, 0⟩ (modify_state h) 0 false =
      some { cache := [[⟨1, 1, 0, 0⟩], [⟨0, 0, -1, -1⟩]]
             hits_count := h + 1, miss_count := 1, eviction_count := 0
             dirty_eviction_bytes_count := 0, dirty_active_bytes_count := 1
             double_ref_count := h + 1 } := rfl
  have e2 : Csim.update ⟨1, 1, 0⟩
      { cache := [[⟨1, 1, 0, 0⟩], [⟨0, 0, -1, -1⟩]]
        hits_count := h + 1, miss_count := 1, eviction_count := 0
        dirty_eviction_bytes_count := 0, dirty_active_bytes_count := 1
        double_ref_count := h + 1 } 0 true =
      some { cache := [[⟨1, 1, 0, 0⟩], [⟨0, 0, -1, -1⟩]]
             hits_count := h + 1 + 1, miss_count := 1, eviction_count := 0
             dirty_eviction_bytes_count := 0, dirty_active_bytes_count := 1
             double_ref_count := h + 1 + 1 } := rfl
  have f1 := update_of_room (by decide) (by decide) e1
    (by simp only [modify_state, INT_MAX] at *; omega)
    (by norm_num [modify_state, INT_MAX]) (by norm_num [modify_state, INT_MAX])
    (by simp only [modify_state, INT_MAX] at *; omega)
    (by norm_num [modify_state, INT_MAX]) (by norm_num [modify_state, INT_MAX])
    (by norm_num [modify_state, INT_MIN])
  have f2 := update_of_room (by decide) (by decide) e2
    (by simp only [INT_MAX] at *; omega) (by norm_num [INT_MAX]) (by norm_num [INT_MAX])
    (by simp only [INT_MAX] at *; omega) (by norm_num [INT_MAX]) (by norm_num [INT_MAX])
    (by norm_num [INT_MIN])
  have g : ∀ set ∈ ([[⟨1, 1, 0, 0⟩], [⟨0, 0, -1, -1⟩]] : List (List cache_line)), ∀ l ∈ set,
      l.valid_bit = 1 → l.stamp + 1 ≤ INT_MAX := by decide
  simp only [Csim32.step, f1, f2, Option.some_bind, Csim32.update_timestamp]
  rw [if_pos g]
  have e : h + 1 + 1 = h + 2 := by ring
  rw [e]
  rfl

theorem run_modify (rs : List Record) :
    ∀ (n : Nat) (h : Int), 0 ≤ h → h + 2 * n ≤ INT_MAX →
      Csim32.run ⟨1, 1, 0⟩ (modify_state h) (List.replicate n ⟨RecType.M, 0⟩ ++ rs) =
        Csim32.run ⟨1, 1, 0⟩ (modify_state (h + 2 * n)) rs
  | 0, h, _, _ => by simp
  | n + 1, h, h0, hn => by
    push_cast at hn
    rw [List.replicate_succ, List.cons_append, Csim32.run, step_modify h h0 (by omega),
      Option.some_bind, run_modify rs n (h + 2) (by omega) (by omega)]
    congr 2
    push_cast
    ring

/-! ## The claims that depend on the range of `int` -/

/-- With a line of stamp `INT_MIN` in the set, as a wrapping `stamp++` would leave it after
`2 ^ 31` idle records, the records `L 2`, `L 2` end without a double reference: the scan
for the smallest stamp selects the line of stamp `INT_MIN`, not the line just used. -/
theorem wrapped_stamp_wins_scan :
    (Csim.run ⟨1, 2, 0⟩ wrapped_state2 [⟨RecType.L, 2⟩, ⟨RecType.L, 2⟩]).map counters =
      some (1, 2, 0, 0, 0, 0) := by
  decide

/-- C4 (as amended): for `s ≥ 1`, `E ≥ 1`, `s + b < 64` and every trace of fewer than
`2 ^ 31` records whose addresses are below `2 ^ 31`: whenever the simulator runs the trace
with every `int` operation defined (no counter or stamp leaves the range of `int`, every
`1 << s` and `1 << b` that is evaluated has a count of at most 30), its hits, misses,
evictions and double references equal those of the reference LRU model (recency list per
set, move-to-front on hit, insert-at-front on miss, eviction from the tail when full,
double reference when the hit tag is already at the front); and the run is defined
whenever `s ≤ 30`, `b ≤ 30` and `2 ^ b * (#L + #S + 2 * #M) < 2 ^ 31`. -/
theorem C4_lru_refinement (cfg : Config) (hs : 1 ≤ cfg.s) (hE : 1 ≤ cfg.E)
    (hsb : cfg.s + cfg.b < 64) (trace : List Record)
    (haddr : ∀ r ∈ trace, r.address < 2 ^ 31) (hlen : trace.length < 2 ^ 31) :
    (∀ st0 st, Csim32.init cfg = some st0 → Csim32.run cfg st0 trace = some st →
      st.hits_count = (lru_run cfg lru_init trace).hits ∧
      st.miss_count = (lru_run cfg lru_init trace).misses ∧
      st.eviction_count = (lru_run cfg lru_init trace).evictions ∧
      st.double_ref_count = (lru_run cfg lru_init trace).double_refs) ∧
    (cfg.s ≤ 30 → cfg.b ≤ 30 → 2 ^ cfg.b * accesses trace < 2 ^ 31 →
      ∃ st0 st, Csim32.init cfg = some st0 ∧ Csim32.run cfg st0 trace = some st) := by
  constructor
  · intro st0 st h0 hrun
    obtain ⟨hs30, rfl⟩ := init_some h0
    obtain ⟨st1, h1, h2⟩ := lru_refinement cfg hs hE hsb trace haddr hlen
    rw [run_some hs30 trace hrun] at h1
    cases h1
    exact h2
  · intro hs30 hb30 hacc
    exact run_init_defined hs hsb hE hs30 hb30 trace hlen hacc

/-- An instance: `s = 1`, `E = 2`, `b = 2` and the trace `S 0`, `M 8`, `L 0`, `I 4`,
`L 16`. -/
theorem C4_lru_refinement_witness :
    (1 ≤ (⟨1, 2, 2⟩ : Config).s ∧ 1 ≤ (⟨1, 2, 2⟩ : Config).E ∧
      (⟨1, 2, 2⟩ : Config).s + (⟨1, 2, 2⟩ : Config).b < 64 ∧
      (∀ r ∈ [(⟨RecType.S, 0⟩ : Record), ⟨RecType.M, 8⟩, ⟨RecType.L, 0⟩, ⟨RecType.I, 4⟩,
          ⟨RecType.L, 16⟩], r.address < 2 ^ 31) ∧
      [(⟨RecType.S, 0⟩ : Record), ⟨RecType.M, 8⟩, ⟨RecType.L, 0⟩, ⟨RecType.I, 4⟩,
          ⟨RecType.L, 16⟩].length < 2 ^ 31) ∧
    ∃ st0 st, Csim32.init ⟨1, 2, 2⟩ = some st0 ∧
      Csim32.run ⟨1, 2, 2⟩ st0
        [⟨RecType.S, 0⟩, ⟨RecType.M, 8⟩, ⟨RecType.L, 0⟩, ⟨RecType.I, 4⟩, ⟨RecType.L, 16⟩] =
          some st ∧
      st.hits_count = (lru_run ⟨1, 2, 2⟩ lru_init
        [⟨RecType.S, 0⟩, ⟨RecType.M, 8⟩, ⟨RecType.L, 0⟩, ⟨RecType.I, 4⟩, ⟨RecType.L, 16⟩]).hits ∧
      st.miss_count = (lru_run ⟨1, 2, 2⟩ lru_init
        [⟨RecType.S, 0⟩, ⟨RecType.M, 8⟩, ⟨RecType.L, 0⟩, ⟨RecType.I, 4⟩, ⟨RecType.L, 16⟩]).misses ∧
      st.eviction_count = (lru_run ⟨1, 2, 2⟩ lru_init
        [⟨RecType.S, 0⟩, ⟨RecType.M, 8⟩, ⟨RecType.L, 0⟩, ⟨RecType.I, 4⟩,
          ⟨RecType.L, 16⟩]).evictions ∧
      st.double_ref_count = (lru_run ⟨1, 2, 2⟩ lru_init
        [⟨RecType.S, 0⟩, ⟨RecType.M, 8⟩, ⟨RecType.L, 0⟩, ⟨RecType.I, 4⟩,
          ⟨RecType.L, 16⟩]).double_refs := by
  have h := C4_lru_refinement ⟨1, 2, 2⟩ (by decide) (by decide) (by decide)
    [⟨RecType.S, 0⟩, ⟨RecType.M, 8⟩, ⟨RecType.L, 0⟩, ⟨RecType.I, 4⟩, ⟨RecType.L, 16⟩]
    (by decide) (by decide)
  obtain ⟨st0, st, h0, h1⟩ := h.2 (by decide) (by decide) (by decide)
  exact ⟨⟨by decide, by decide, by decide, by decide, by decide⟩, st0, st, h0, h1,
    h.1 st0 st h0 h1⟩

/-- C4, counterexamples to the claim as stated (`s = 1`, `E = 1`, `b = 0`, all
addresses 0). A trace of `2 ^ 31` records: after `L 0` and `2 ^ 31 - 2` records that only
age the cache, every `int` operation has been defined and the line's stamp is `INT_MAX`;
the scan `stamp < min_stamp` starting from `INT_MAX` skips it, and the hit of the final
`L 0` is not counted as a double reference, while the reference model counts one. A
trace of `2 ^ 30 + 1` records `M 0`: the first `2 ^ 30` of them bring `hits_count` to
`INT_MAX`, and the next `hits_count++` has no defined result. -/
theorem C4_counterexample :
    (∃ st0 st, Csim32.init ⟨1, 1, 0⟩ = some st0 ∧
      Csim32.run ⟨1, 1, 0⟩ st0
        (⟨RecType.L, 0⟩ :: (List.replicate 2147483646 ⟨RecType.I, 0⟩ ++ [⟨RecType.L, 0⟩])) =
          some st ∧
      st.double_ref_count = 0 ∧
      (lru_run ⟨1, 1, 0⟩ lru_init
        (⟨RecType.L, 0⟩ ::
          (List.replicate 2147483646 ⟨RecType.I, 0⟩ ++ [⟨RecType.L, 0⟩]))).double_refs = 1) ∧
    (⟨RecType.M, 0⟩ ::
      (List.replicate 1073741823 (⟨RecType.M, 0⟩ : Record) ++ [⟨RecType.M, 0⟩])).length <
        2 ^ 31 ∧
    (Csim32.init ⟨1, 1, 0⟩).bind (fun st0 => Csim32.run ⟨1, 1, 0⟩ st0
      (⟨RecType.M, 0⟩ ::
        (List.replicate 1073741823 ⟨RecType.M, 0⟩ ++ [⟨RecType.M, 0⟩]))) = none := by
  have i0 : Csim32.init ⟨1, 1, 0⟩ = some (Csim.init ⟨1, 1, 0⟩) := by decide
  refine ⟨?_, ?_, ?_⟩
  · have e1 : Csim32.step ⟨1, 1, 0⟩ (Csim.init ⟨1, 1, 0⟩) ⟨RecType.L, 0⟩ =
        some (idle_state 1) := by decide
    have e2 : Csim32.run ⟨1, 1, 0⟩ (idle_state (1 + (2147483646 : Nat))) [⟨RecType.L, 0⟩] =
        some { cache := [[⟨1, 0, 0, 1⟩], [⟨0, 0, -1, -1⟩]]
               hits_count := 1, miss_count := 1, eviction_count := 0
               dirty_eviction_bytes_count := 0, dirty_active_bytes_count := 0
               double_ref_count := 0 } := by decide
    have e3 := (run32_idle ⟨1, 1, 0⟩ [⟨RecType.L, 0⟩] 2147483646 1 (by decide)).trans e2
    have e4 : (lru_run ⟨1, 1, 0⟩ lru_init
        (⟨RecType.L, 0⟩ ::
          (List.replicate 2147483646 ⟨RecType.I, 0⟩ ++ [⟨RecType.L, 0⟩]))).double_refs = 1 := by
      rw [lru_run, lru_run_idle]
      decide
    exact ⟨_, _, i0, by rw [Csim32.run, e1, Option.some_bind, e3], rfl, e4⟩
  · rw [List.length_cons, List.length_append, List.length_replicate]
    decide
  · have e1 : Csim32.step ⟨1, 1, 0⟩ (Csim.init ⟨1, 1, 0⟩) ⟨RecType.M, 0⟩ =
        some (modify_state 1) := by decide
    have e2 : Csim32.run ⟨1, 1, 0⟩ (modify_state (1 + 2 * (1073741823 : Nat)))
        [⟨RecType.M, 0⟩] = none := by decide
    have e3 := (run_modify [⟨RecType.M, 0⟩] 1073741823 1 (by decide) (by decide)).trans e2
    rw [i0, Option.some_bind, Csim32.run, e1, Option.some_bind, e3]

/-- C30 (as amended): for `s ≥ 1`, `E ≥ 1`, `s + b < 64` and a trace whose addresses are
all below `2 ^ 31`, in which the records `r1` and `r2` follow each other, both are of type
`L` or `S` and both reference the same address: whenever the simulator runs the trace with
every `int` operation defined, the access of `r2` is a hit (`hits_count` grows by one,
`miss_count` does not change) that adds exactly one to `double_ref_count`; the run is
defined whenever `s ≤ 30`, `b ≤ 30`, the trace has fewer than `2 ^ 31` records and
`2 ^ b * (#L + #S + 2 * #M) < 2 ^ 31`. The trace `L 0`, `L 0` with `s = 1`, `E = 1`,
`b = 2` ends with 1 miss, 1 hit and 1 double reference. -/
theorem C30_repeated_address_is_a_double_ref (cfg : Config) (hs : 1 ≤ cfg.s)
    (hE : 1 ≤ cfg.E) (hsb : cfg.s + cfg.b < 64) (pre post : List Record) (r1 r2 : Record)
    (hsmall : ∀ r ∈ pre ++ r1 :: r2 :: post, r.address < 2 ^ 31)
    (ht1 : r1.type = RecType.L ∨ r1.type = RecType.S)
    (ht2 : r2.type = RecType.L ∨ r2.type = RecType.S) (ha : r2.address = r1.address) :
    (∀ st0 stf, Csim32.init cfg = some st0 →
      Csim32.run cfg st0 (pre ++ r1 :: r2 :: post) = some stf →
      ∃ st1 st2, Csim32.run cfg st0 (pre ++ [r1]) = some st1 ∧
        Csim32.update cfg st1 r2.address (r2.type == RecType.S) = some st2 ∧
        Csim32.step cfg st1 r2 = some (Csim.update_timestamp st2) ∧
        st2.hits_count = st1.hits_count + 1 ∧ st2.miss_count = st1.miss_count ∧
        st2.double_ref_count = st1.double_ref_count + 1) ∧
    (cfg.s ≤ 30 → cfg.b ≤ 30 → (pre ++ r1 :: r2 :: post).length < 2 ^ 31 →
      2 ^ cfg.b * accesses (pre ++ r1 :: r2 :: post) < 2 ^ 31 →
      ∃ st0 stf, Csim32.init cfg = some st0 ∧
        Csim32.run cfg st0 (pre ++ r1 :: r2 :: post) = some stf) ∧
    ((Csim32.init ⟨1, 1, 2⟩).bind (fun st0 =>
        Csim32.run ⟨1, 1, 2⟩ st0 [⟨RecType.L, 0⟩, ⟨RecType.L, 0⟩])).map counters =
      some (1, 1, 0, 0, 0, 1) := by
  refine ⟨?_, ?_, by decide⟩
  · intro st0 stf h0 hrun
    obtain ⟨hs30, rfl⟩ := init_some h0
    obtain ⟨⟨st1, st2, _, hr1, hu2, hstep, c1, c2, c3, _⟩, _⟩ :=
      repeated_address_double_ref cfg hs hE hsb pre post r1 r2 hsmall ht1 ht2 ha
    have e : pre ++ r1 :: r2 :: post = (pre ++ [r1]) ++ r2 :: post := by simp
    rw [e, run32_append, Option.bind_eq_some] at hrun
    obtain ⟨s1, hs1, hrest⟩ := hrun
    have q1 := run_some hs30 _ hs1
    rw [hr1] at q1
    cases q1
    rw [Csim32.run, Option.bind_eq_some] at hrest
    obtain ⟨s3, hs3, _⟩ := hrest
    have q3 := step_some hs30 hs3
    rw [hstep] at q3
    cases q3
    have hst : ∃ s2, Csim32.update cfg st1 r2.address (r2.type == RecType.S) = some s2 := by
      have h3 := hs3
      obtain ⟨t, ad⟩ := r2
      unfold Csim32.step at h3
      rw [Option.bind_eq_some] at h3
      obtain ⟨s2, h4, _⟩ := h3
      rcases ht2 with ht | ht
      · simp only at ht
        subst ht
        exact ⟨s2, h4⟩
      · simp only at ht
        subst ht
        exact ⟨s2, h4⟩
    obtain ⟨s2, hs2⟩ := hst
    have q2 := update_some hs30 hs2
    rw [hu2] at q2
    cases q2
    exact ⟨st1, st2, hs1, hs2, hs3, c1, c2, c3⟩
  · intro hs30 hb30 hlen hacc
    exact run_init_defined hs hsb hE hs30 hb30 _ hlen hacc

/-- An instance: `s = 1`, `E = 2`, `b = 2` and the trace `L 8`, `S 16`, `L 16`, `M 0`. -/
theorem C30_repeated_address_is_a_double_ref_witness :
    (1 ≤ (⟨1, 2, 2⟩ : Config).s ∧ 1 ≤ (⟨1, 2, 2⟩ : Config).E ∧
      (⟨1, 2, 2⟩ : Config).s + (⟨1, 2, 2⟩ : Config).b < 64 ∧
      (∀ r ∈ [(⟨RecType.L, 8⟩ : Record)] ++ ⟨RecType.S, 16⟩ :: ⟨RecType.L, 16⟩ ::
        [⟨RecType.M, 0⟩], r.address < 2 ^ 31)) ∧
    (∃ st0 stf st1 st2, Csim32.init ⟨1, 2, 2⟩ = some st0 ∧
      Csim32.run ⟨1, 2, 2⟩ st0 ([⟨RecType.L, 8⟩] ++ ⟨RecType.S, 16⟩ ::
        ⟨RecType.L, 16⟩ :: [⟨RecType.M, 0⟩]) = some stf ∧
      Csim32.run ⟨1, 2, 2⟩ st0 ([⟨RecType.L, 8⟩] ++ [⟨RecType.S, 16⟩]) = some st1 ∧
      Csim32.update ⟨1, 2, 2⟩ st1 (⟨RecType.L, 16⟩ : Record).address
        ((⟨RecType.L, 16⟩ : Record).type == RecType.S) = some st2 ∧
      Csim32.step ⟨1, 2, 2⟩ st1 ⟨RecType.L, 16⟩ = some (Csim.update_timestamp st2) ∧
      st2.hits_count = st1.hits_count + 1 ∧ st2.miss_count = st1.miss_count ∧
      st2.double_ref_count = st1.double_ref_count + 1) := by
  have h := C30_repeated_address_is_a_double_ref ⟨1, 2, 2⟩ (by decide) (by decide)
    (by decide) [⟨RecType.L, 8⟩] [⟨RecType.M, 0⟩] ⟨RecType.S, 16⟩ ⟨RecType.L, 16⟩
    (by decide) (Or.inr rfl) (Or.inl rfl) rfl
  obtain ⟨st0, stf, h0, h1⟩ := h.2.1 (by decide) (by decide) (by decide) (by decide)
  obtain ⟨st1, st2, k⟩ := h.1 st0 stf h0 h1
  exact ⟨⟨by decide, by decide, by decide, by decide⟩, st0, stf, st1, st2, h0, h1, k⟩

/-- C30, counterexample to the claim as stated: `s = 1`, `E = 2`, `b = 0` and the
trace `L 0`, then `2 ^ 31 - 1` records `I 0`, then `L 2`, `L 2` (all addresses below
`2 ^ 31`, the last two records consecutive loads of the same address). After `L 0` and
`2 ^ 31 - 2` idle records the stamp of line 0 is `INT_MAX`, and the `stamp++` of the next
idle record has no defined result, so neither has the access of the second `L 2`. -/
theorem C30_counterexample :
    (Csim32.init ⟨1, 2, 0⟩).bind (fun st0 => Csim32.run ⟨1, 2, 0⟩ st0
      (⟨RecType.L, 0⟩ :: (List.replicate 2147483646 ⟨RecType.I, 0⟩ ++
        [⟨RecType.I, 0⟩, ⟨RecType.L, 2⟩, ⟨RecType.L, 2⟩]))) = none := by
  have i0 : Csim32.init ⟨1, 2, 0⟩ = some (Csim.init ⟨1, 2, 0⟩) := by decide
  have e1 : Csim32.step ⟨1, 2, 0⟩ (Csim.init ⟨1, 2, 0⟩) ⟨RecType.L, 0⟩ =
      some (idle_state2 1) := by decide
  have e2 : Csim32.run ⟨1, 2, 0⟩ (idle_state2 (1 + (2147483646 : Nat)))
      [⟨RecType.I, 0⟩, ⟨RecType.L, 2⟩, ⟨RecType.L, 2⟩] = none := by decide
  have e3 := (run_idle2 ⟨1, 2, 0⟩ [⟨RecType.I, 0⟩, ⟨RecType.L, 2⟩, ⟨RecType.L, 2⟩]
    2147483646 1 (by decide)).trans e2
  rw [i0, Option.some_bind, Csim32.run, e1, Option.some_bind, e3]

end Csim32


namespace Mm

/-! ## Bit operations on header words -/

theorem land_split (a b c d : Nat) (hb : b < 16) (hd : d < 16) :
    (16 * a + b) &&& (16 * c + d) = 16 * (a &&& c) + (b &&& d) := by
  have hbd : b &&& d < 2 ^ 4 := lt_of_le_of_lt Nat.and_le_left hb
  apply Nat.eq_of_testBit_eq
  intro i
  have e1 := Nat.testBit_mul_pow_two_add a (show b < 2 ^ 4 from hb) i
  have e2 := Nat.testBit_mul_pow_two_add c (show d < 2 ^ 4 from hd) i
  have e3 := Nat.testBit_mul_pow_two_add (a &&& c) hbd i
  norm_num at e1 e2 e3
  rw [Nat.testBit_and, e1, e2, e3]
  split <;> simp [Nat.testBit_and]

theorem lor_split (a b c d : Nat) (hb : b < 16) (hd : d < 16) :
    (16 * a + b) ||| (16 * c + d) = 16 * (a ||| c) + (b ||| d) := by
  have hbd : b ||| d < 2 ^ 4 := Nat.or_lt_two_pow (show b < 2 ^ 4 from hb) hd
  apply Nat.eq_of_testBit_eq
  intro i
  have e1 := Nat.testBit_mul_pow_two_add a (show b < 2 ^ 4 from hb) i
  have e2 := Nat.testBit_mul_pow_two_add c (show d < 2 ^ 4 from hd) i
  have e3 := Nat.testBit_mul_pow_two_add (a ||| c) hbd i
  norm_num at e1 e2 e3
  rw [Nat.testBit_or, e1, e2, e3]
  split <;> simp [Nat.testBit_or]

/-- OR of a flag value into a word `z + f` with `z` a multiple of 16. -/
theorem lor_flags {z f g : Nat} (hz : z % 16 = 0) (hf : f < 16) (hg : g < 16) :
    (z + f) ||| g = z + (f ||| g) := by
  obtain ⟨q, rfl⟩ : ∃ q, z = 16 * q := ⟨z / 16, by omega⟩
  have := lor_split q f 0 g hf hg
  simpa using this

/-- AND of a word `z + f` with a small mask. -/
theorem land_flags {z f g : Nat} (hz : z % 16 = 0) (hf : f < 16) (hg : g < 16) :
    (z + f) &&& g = f &&& g := by
  obtain ⟨q, rfl⟩ : ∃ q, z = 16 * q := ⟨z / 16, by omega⟩
  have := land_split q f 0 g hf hg
  simpa using this

/-- The size field of a word `z + f`. -/
theorem extract_size_add {z f : Nat} (hz : z % 16 = 0) (hlt : z < 2 ^ 64) (hf : f < 16) :
    extract_size (z + f) = z := by
  obtain ⟨q, rfl⟩ : ∃ q, z = 16 * q := ⟨z / 16, by omega⟩
  have hq : q < 2 ^ 60 := by omega
  have := land_split q f (2 ^ 60 - 1) 0 hf (by norm_num)
  have e : q &&& (2 ^ 60 - 1) = q := by
    rw [Nat.and_pow_two_sub_one_eq_mod]; exact Nat.mod_eq_of_lt hq
  unfold extract_size size_mask
  norm_num at this e ⊢
  rw [this, e]

/-- Clearing flag bits of a word `z + f`. -/
theorem land_not_flags {z f g : Nat} (hz : z % 16 = 0) (hlt : z < 2 ^ 64) (hf : f < 16)
    (hg : g < 16) : (z + f) &&& not64 g = z + (f &&& (15 - g)) := by
  obtain ⟨q, rfl⟩ : ∃ q, z = 16 * q := ⟨z / 16, by omega⟩
  have hq : q < 2 ^ 60 := by omega
  have := land_split q f (2 ^ 60 - 1) (15 - g) hf (by omega)
  have e : q &&& (2 ^ 60 - 1) = q := by
    rw [Nat.and_pow_two_sub_one_eq_mod]; exact Nat.mod_eq_of_lt hq
  have e2 : not64 g = 16 * (2 ^ 60 - 1) + (15 - g) := by
    unfold not64; norm_num; omega
  rw [e2, this, e]

/-! ## Ghost description of the heap -/

theorem flags_lt (al pa ps : Bool) : flags al pa ps < 16 := by
  cases al <;> cases pa <;> cases ps <;> decide

theorem hdr_size {b : Blk} (hz : b.size % 16 = 0) (hlt : b.size < 2 ^ 64) :
    extract_size b.hdr = b.size :=
  extract_size_add hz hlt (flags_lt _ _ _)

theorem hdr_alloc {b : Blk} (hz : b.size % 16 = 0) : extract_alloc b.hdr = b.alloc := by
  unfold extract_alloc Blk.hdr alloc_mask
  rw [land_flags hz (flags_lt _ _ _) (by norm_num)]
  cases b.alloc <;> cases b.pa <;> cases b.ps <;> decide

theorem hdr_pa {b : Blk} (hz : b.size % 16 = 0) :
    b.hdr &&& prev_alloc_mask = if b.pa then 2 else 0 := by
  unfold Blk.hdr prev_alloc_mask
  rw [land_flags hz (flags_lt _ _ _) (by norm_num)]
  cases b.alloc <;> cases b.pa <;> cases b.ps <;> decide

theorem hdr_ps {b : Blk} (hz : b.size % 16 = 0) :
    b.hdr &&& prev_sseg_mask = if b.ps then 4 else 0 := by
  unfold Blk.hdr prev_sseg_mask
  rw [land_flags hz (flags_lt _ _ _) (by norm_num)]
  cases b.alloc <;> cases b.pa <;> cases b.ps <;> decide

theorem hdr_or_pa {b : Blk} (hz : b.size % 16 = 0) :
    b.hdr ||| prev_alloc_mask = ({ b with pa := true } : Blk).hdr := by
  unfold Blk.hdr prev_alloc_mask
  rw [lor_flags hz (flags_lt _ _ _) (by norm_num)]
  cases b.alloc <;> cases b.pa <;> cases b.ps <;> rfl

theorem hdr_or_ps {b : Blk} (hz : b.size % 16 = 0) :
    b.hdr ||| prev_sseg_mask = ({ b with ps := true } : Blk).hdr := by
  unfold Blk.hdr prev_sseg_mask
  rw [lor_flags hz (flags_lt _ _ _) (by norm_num)]
  cases b.alloc <;> cases b.pa <;> cases b.ps <;> rfl

theorem hdr_clear_pa {b : Blk} (hz : b.size % 16 = 0) (hlt : b.size < 2 ^ 64) :
    b.hdr &&& not64 prev_alloc_mask = ({ b with pa := false } : Blk).hdr := by
  unfold Blk.hdr prev_alloc_mask
  rw [land_not_flags hz hlt (flags_lt _ _ _) (by norm_num)]
  cases b.alloc <;> cases b.pa <;> cases b.ps <;> rfl

theorem hdr_clear_ps {b : Blk} (hz : b.size % 16 = 0) (hlt : b.size < 2 ^ 64) :
    b.hdr &&& not64 prev_sseg_mask = ({ b with ps := false } : Blk).hdr := by
  unfold Blk.hdr prev_sseg_mask
  rw [land_not_flags hz hlt (flags_lt _ _ _) (by norm_num)]
  cases b.alloc <;> cases b.pa <;> cases b.ps <;> rfl

/-- The word `size | prev_alloc | prev_sseg` built from a size and two flag values. -/
theorem size_or_flags {z : Nat} (hz : z % 16 = 0) (pa ps : Bool) :
    (z ||| (if pa then 2 else 0)) ||| (if ps then 4 else 0) = z + flags false pa ps := by
  have h1 : z ||| (if pa then 2 else 0) = z + (if pa then 2 else 0) := by
    have := lor_flags (f := 0) (g := if pa then 2 else 0) hz (by norm_num)
      (by cases pa <;> norm_num)
    simpa using this
  rw [h1, lor_flags hz (by cases pa <;> norm_num) (by cases ps <;> norm_num)]
  cases pa <;> cases ps <;> rfl

theorem pack_flags {z : Nat} (hz : z % 16 = 0) (al pa ps : Bool) :
    pack (z + flags false pa ps) al = z + flags al pa ps := by
  unfold pack alloc_mask
  cases al
  · rfl
  · simp only [if_true]
    rw [lor_flags hz (flags_lt _ _ _) (by norm_num)]
    cases pa <;> cases ps <;> rfl

/-! ## Geometry of a chain of blocks -/

theorem chain_pairwise :
    ∀ {l : List Blk}, List.Chain' Adj l → List.Pairwise Below l
  | [], _ => List.Pairwise.nil
  | [_], _ => List.pairwise_singleton _ _
  | b :: c :: l, h => by
    rw [List.chain'_cons] at h
    have ih := chain_pairwise h.2
    rw [List.pairwise_cons]
    refine ⟨?_, ih⟩
    intro x hx
    have e := h.1.1
    have e0 := h.1.2.1
    rcases List.mem_cons.1 hx with rfl | hx
    · exact ⟨by omega, by omega⟩
    · have := (List.pairwise_cons.1 ih).1 x hx
      unfold Below at this ⊢
      omega

theorem chain_align :
    ∀ {l : List Blk} {p : Blk}, List.Chain' Adj (p :: l) → (p.addr + p.size) % 16 = 8 →
      (∀ b ∈ l, b.size % 16 = 0) → ∀ b ∈ l, b.addr % 16 = 8
  | [], _, _, _, _, b, hb => by simp at hb
  | c :: l, p, h, hp, hs, b, hb => by
    rw [List.chain'_cons] at h
    have hc : c.addr % 16 = 8 := by rw [h.1.1]; exact hp
    rcases List.mem_cons.1 hb with rfl | hb
    · exact hc
    · have hcs := hs c (by simp)
      exact chain_align h.2 (by omega) (fun x hx => hs x (by simp [hx])) b hb

section

variable {lo brk mx : Nat} {bs : List Blk}

theorem Geo.pairwise (hi : Geo lo brk mx bs) :
    List.Pairwise Below (prologue lo :: bs) := chain_pairwise hi.chain

theorem Geo.align (hi : Geo lo brk mx bs) {b : Blk} (hb : b ∈ bs) : b.addr % 16 = 8 :=
  chain_align hi.chain (by simp [prologue]; have := hi.lo_align; omega)
    (fun x hx => (hi.sizes x hx).1) b hb

theorem Geo.lo_le (hi : Geo lo brk mx bs) {b : Blk} (hb : b ∈ bs) : lo + 8 ≤ b.addr := by
  have := (List.pairwise_cons.1 hi.pairwise).1 b hb
  simpa [Below, prologue] using this.1

/-- Two blocks of the heap are equal or one lies below the other. -/
theorem Geo.disj (hi : Geo lo brk mx bs) {b c : Blk} (hb : b ∈ bs) (hc : c ∈ bs) :
    b = c ∨ Below b c ∨ Below c b := by
  have hp := (List.pairwise_cons.1 hi.pairwise).2
  by_cases e : b = c
  · exact Or.inl e
  · right
    have hsym : Symmetric (fun x y : Blk => Below x y ∨ Below y x) := fun x y hxy => hxy.symm
    exact List.Pairwise.forall hsym (hp.imp (fun hxy => Or.inl hxy)) hb hc e

theorem Geo.uniq (hi : Geo lo brk mx bs) {b c : Blk} (hb : b ∈ bs) (hc : c ∈ bs)
    (e : b.addr = c.addr) : b = c := by
  rcases hi.disj hb hc with h1 | h1 | h1
  · exact h1
  · unfold Below at h1; omega
  · unfold Below at h1; omega

theorem Geo.hi_le (hi : Geo lo brk mx bs) {b : Blk} (hb : b ∈ bs) :
    b.addr + b.size + 8 ≤ brk := by
  obtain ⟨e, he, hz⟩ := hi.epi
  have hea := ((hi.sizes e he).2.1 hz).2
  rcases hi.disj hb he with h1 | h1 | h1
  · subst h1; omega
  · unfold Below at h1; omega
  · exfalso
    unfold Below at h1
    by_cases hbz : b.size = 0
    · have := ((hi.sizes b hb).2.1 hbz).2; omega
    · obtain ⟨A, B, rfl⟩ := List.append_of_mem he
      have hch := hi.chain
      cases B with
      | nil =>
        rcases List.mem_append.1 hb with hA | hB'
        · have hp := (List.pairwise_cons.1 hi.pairwise).2
          rw [List.pairwise_append] at hp
          have := hp.2.2 b hA e (by simp)
          unfold Below at this; omega
        · simp at hB'; subst hB'; omega
      | cons n B =>
        rw [← List.cons_append, List.chain'_append] at hch
        have := (List.chain'_cons.1 hch.2.1).1.2.1
        omega

theorem Geo.size_lt (hi : Geo lo brk mx bs) {b : Blk} (hb : b ∈ bs) : b.size < 2 ^ 64 := by
  have h1 := hi.hi_le hb
  have h2 := hi.brk_le
  have h3 := hi.max_le
  omega

theorem Geo.addr_lt (hi : Geo lo brk mx bs) {b : Blk} (hb : b ∈ bs) : b.addr < 2 ^ 64 := by
  have h1 := hi.hi_le hb
  have h2 := hi.brk_le
  have h3 := hi.max_le
  omega

/-- A real block has a successor in the list. -/
theorem Geo.split_at (hi : Geo lo brk mx bs) {b : Blk} (hb : b ∈ bs) (hz : b.size ≠ 0) :
    ∃ A n B, bs = A ++ b :: n :: B := by
  obtain ⟨A, B, rfl⟩ := List.append_of_mem hb
  cases B with
  | cons n B => exact ⟨A, n, B, rfl⟩
  | nil =>
    exfalso
    obtain ⟨e, he, hez⟩ := hi.epi
    rcases List.mem_append.1 he with hA | hB
    · have hp := (List.pairwise_cons.1 hi.pairwise).2
      rw [List.pairwise_append] at hp
      have h1 := hp.2.2 e hA b (by simp)
      have h2 := ((hi.sizes e he).2.1 hez).2
      have h3 := hi.hi_le hb
      unfold Below at h1
      omega
    · simp at hB; subst hB; exact hz hez

/-- All the address facts about two blocks that the frame arguments need. -/
theorem Geo.facts (hi : Geo lo brk mx bs) {b c : Blk} (hb : b ∈ bs) (hc : c ∈ bs) :
    b.addr % 16 = 8 ∧ c.addr % 16 = 8 ∧ b.size % 16 = 0 ∧ c.size % 16 = 0 ∧
    (b.addr = c.addr → b = c) ∧
    (b.addr = c.addr ∨ b.addr + b.size ≤ c.addr ∨ c.addr + c.size ≤ b.addr) := by
  refine ⟨hi.align hb, hi.align hc, (hi.sizes b hb).1, (hi.sizes c hc).1, hi.uniq hb hc, ?_⟩
  rcases hi.disj hb hc with h1 | h1 | h1
  · left; rw [h1]
  · right; left; exact h1.1
  · right; right; exact h1.1

end

section

variable {m : Nat → Nat} {lo brk mx : Nat} {bs : List Blk}

theorem MemOk.size (hm : MemOk m bs) (hg : Geo lo brk mx bs) {b : Blk} (hb : b ∈ bs) :
    extract_size (m b.addr) = b.size := by
  rw [hm.hdrs b hb]
  exact hdr_size (hg.sizes b hb).1 (hg.size_lt hb)

theorem MemOk.alloc (hm : MemOk m bs) (hg : Geo lo brk mx bs) {b : Blk} (hb : b ∈ bs) :
    extract_alloc (m b.addr) = b.alloc := by
  rw [hm.hdrs b hb]
  exact hdr_alloc (hg.sizes b hb).1

theorem MemOk.pa (hm : MemOk m bs) (hg : Geo lo brk mx bs) {b : Blk} (hb : b ∈ bs) :
    m b.addr &&& prev_alloc_mask = if b.pa then 2 else 0 := by
  rw [hm.hdrs b hb]
  exact hdr_pa (hg.sizes b hb).1

theorem MemOk.ps (hm : MemOk m bs) (hg : Geo lo brk mx bs) {b : Blk} (hb : b ∈ bs) :
    m b.addr &&& prev_sseg_mask = if b.ps then 4 else 0 := by
  rw [hm.hdrs b hb]
  exact hdr_ps (hg.sizes b hb).1

end

/-! ## Linked lists in memory -/

theorem slist_nil {m : Nat → Nat} {head : Nat} : SList m head [] ↔ head = 0 := by
  simp [SList]

theorem slist_cons {m : Nat → Nat} {head x : Nat} {xs : List Nat} :
    SList m head (x :: xs) ↔ head = x ∧ x ≠ 0 ∧ SList m (m (x + 8)) xs := by
  cases xs with
  | nil => simp [SList]
  | cons y ys =>
    simp only [SList, List.headD_cons, List.mem_cons, forall_eq_or_imp, List.chain'_cons,
      List.getLast?_cons_cons]
    constructor
    · rintro ⟨h1, ⟨h2, h3, h4⟩, ⟨h5, h6⟩, h7⟩
      exact ⟨h1, h2, h5, ⟨h3, h4⟩, h6, h7⟩
    · rintro ⟨h1, h2, h5, ⟨h3, h4⟩, h6, h7⟩
      exact ⟨h1, ⟨h2, h3, h4⟩, ⟨h5, h6⟩, h7⟩

theorem SList.frame {m m1 : Nat → Nat} {head : Nat} :
    ∀ {xs : List Nat}, SList m head xs → (∀ y ∈ xs, m1 (y + 8) = m (y + 8)) →
      SList m1 head xs := by
  intro xs
  induction xs generalizing head with
  | nil => intro h _; exact slist_nil.2 (slist_nil.1 h)
  | cons x xs ih =>
    intro h hf
    rw [slist_cons] at h ⊢
    refine ⟨h.1, h.2.1, ?_⟩
    rw [hf x (by simp)]
    exact ih h.2.2 (fun y hy => hf y (by simp [hy]))

theorem SList.ne_zero {m : Nat → Nat} {head : Nat} {xs : List Nat} (h : SList m head xs)
    {x : Nat} (hx : x ∈ xs) : x ≠ 0 := h.2.1 x hx

theorem dlist_iff {m : Nat → Nat} {head : Nat} {xs : List Nat} :
    DList m head xs ↔ SList m head xs ∧ PrevOk m 0 xs := by
  unfold DList
  refine and_congr_right (fun _ => ?_)
  suffices H : ∀ (p : Nat) (ys : List Nat),
      (List.Chain' (fun x y => m (y + 16) = x) ys ∧ ∀ x ∈ ys.head?, m (x + 16) = p) ↔
        PrevOk m p ys from H 0 xs
  intro p ys
  induction ys generalizing p with
  | nil => simp [PrevOk]
  | cons y ys ih =>
    cases ys with
    | nil => simp [PrevOk]
    | cons z zs =>
      have := ih y
      simp only [List.chain'_cons, List.head?_cons, Option.mem_def, Option.some.injEq,
        forall_eq', PrevOk] at this ⊢
      rw [← this]
      tauto

theorem PrevOk.frame_prev {m m1 : Nat → Nat} :
    ∀ {xs : List Nat} {p : Nat}, PrevOk m p xs → (∀ y ∈ xs, m1 (y + 16) = m (y + 16)) →
      PrevOk m1 p xs
  | [], _, _, _ => trivial
  | x :: xs, p, h, hf => by
    refine ⟨by rw [hf x (by simp)]; exact h.1, ?_⟩
    exact PrevOk.frame_prev h.2 (fun y hy => hf y (by simp [hy]))

theorem DList.frame_dlist {m m1 : Nat → Nat} {head : Nat} {xs : List Nat} (h : DList m head xs)
    (h8 : ∀ y ∈ xs, m1 (y + 8) = m (y + 8)) (h16 : ∀ y ∈ xs, m1 (y + 16) = m (y + 16)) :
    DList m1 head xs := by
  rw [dlist_iff] at h ⊢
  exact ⟨h.1.frame h8, h.2.frame_prev h16⟩

/-- Pushing a block on the front of the small list. -/
theorem SList.push {m m1 : Nat → Nat} {head x : Nat} {xs : List Nat} (h : SList m head xs)
    (hx : x ≠ 0) (hn : m1 (x + 8) = head) (hf : ∀ y ∈ xs, m1 (y + 8) = m (y + 8)) :
    SList m1 x (x :: xs) := by
  rw [slist_cons]
  exact ⟨rfl, hx, by rw [hn]; exact h.frame hf⟩

/-- Pushing a block on the front of a class list. -/
theorem DList.push_dlist {m m1 : Nat → Nat} {head x : Nat} {xs : List Nat} (h : DList m head xs)
    (hnd : xs.Nodup) (hx : x ≠ 0) (hn : m1 (x + 8) = head) (hp : m1 (x + 16) = 0)
    (hr : head ≠ 0 → m1 (head + 16) = x) (h8 : ∀ y ∈ xs, m1 (y + 8) = m (y + 8))
    (h16 : ∀ y ∈ xs, y ≠ head → m1 (y + 16) = m (y + 16)) :
    DList m1 x (x :: xs) := by
  rw [dlist_iff] at h ⊢
  refine ⟨h.1.push hx hn h8, hp, ?_⟩
  cases xs with
  | nil => trivial
  | cons y ys =>
    have hy := (slist_cons.1 h.1)
    have hhead : head = y := hy.1
    subst hhead
    refine ⟨hr hy.2.1, ?_⟩
    apply PrevOk.frame_prev h.2.2
    intro z hz
    apply h16 z (by simp [hz])
    rintro rfl
    exact (List.nodup_cons.1 hnd).1 hz

theorem SList.head_eq {m : Nat → Nat} {head : Nat} {xs : List Nat} (h : SList m head xs) :
    head = xs.headD 0 := h.1

/-- The `next` field of a list member is the following member (0 at the end), the `prev`
field the preceding one (`p` at the front). -/
theorem slist_next_at {m : Nat → Nat} :
    ∀ {xs1 : List Nat} {head x : Nat} {xs2 : List Nat}, SList m head (xs1 ++ x :: xs2) →
      m (x + 8) = xs2.headD 0
  | [], _, _, _, h => ((slist_cons.1 h).2.2).head_eq
  | _ :: _, _, _, _, h => slist_next_at (slist_cons.1 h).2.2

theorem prevok_prev_at {m : Nat → Nat} :
    ∀ {xs1 : List Nat} {p x : Nat} {xs2 : List Nat}, PrevOk m p (xs1 ++ x :: xs2) →
      m (x + 16) = xs1.getLast?.getD p
  | [], _, _, _, h => h.1
  | [a], _, _, _, h => h.2.1
  | a :: b :: t, _, x, xs2, h => by
    have := @prevok_prev_at m (b :: t) _ x xs2 h.2
    simpa using this

theorem slist_remove {m m1 : Nat → Nat} :
    ∀ {xs1 : List Nat} {head x : Nat} {xs2 : List Nat}, SList m head (xs1 ++ x :: xs2) →
      (xs1 ++ x :: xs2).Nodup →
      (∀ y ∈ xs1 ++ xs2, y ≠ xs1.getLast?.getD 0 → m1 (y + 8) = m (y + 8)) →
      (∀ q ∈ xs1.getLast?, m1 (q + 8) = xs2.headD 0) →
      SList m1 (if xs1 = [] then xs2.headD 0 else head) (xs1 ++ xs2)
  | [], head, x, xs2, h, hnd, hf, _ => by
    have h1 := slist_cons.1 h
    have h2 := h1.2.2
    simp only [List.nil_append, if_true]
    rw [← h2.head_eq]
    apply h2.frame
    intro y hy
    exact hf y (by simpa using hy) (by simpa using h2.ne_zero hy)
  | [a], head, x, xs2, h, hnd, hf, hq => by
    have h1 := slist_cons.1 h
    have h2 := slist_cons.1 h1.2.2
    have h3 := h2.2.2
    simp only [List.singleton_append, List.cons_ne_nil, if_false]
    rw [slist_cons]
    refine ⟨h1.1, h1.2.1, ?_⟩
    rw [hq a (by simp), ← h3.head_eq]
    apply h3.frame
    intro y hy
    apply hf y (by simp [hy])
    simp only [List.getLast?_singleton, Option.getD_some]
    rintro rfl
    simp at hnd
    exact hnd.1.2 hy
  | a :: b :: t, head, x, xs2, h, hnd, hf, hq => by
    have h1 := slist_cons.1 h
    have ih := @slist_remove _ m1 (b :: t) _ _ _ h1.2.2 (List.nodup_cons.1 hnd).2
      (fun y hy hne => hf y (by simp at hy ⊢; tauto) (by simpa using hne))
      (fun q hq' => hq q (by simpa using hq'))
    simp only [List.cons_append, List.cons_ne_nil, if_false] at ih ⊢
    rw [slist_cons]
    refine ⟨h1.1, h1.2.1, ?_⟩
    have : m1 (a + 8) = m (a + 8) := by
      apply hf a (by simp)
      simp only [List.getLast?_cons_cons]
      intro e
      have hmem : (List.getLast? (b :: t)).getD 0 ∈ b :: t := by
        have := List.getLast?_eq_getLast (b :: t) (by simp)
        rw [this]
        simp only [Option.getD_some]
        exact List.getLast_mem _
      rw [← e] at hmem
      rw [List.cons_append] at hnd
      exact (List.nodup_cons.1 hnd).1 (List.mem_append_left _ hmem)
    rw [this]
    exact ih

theorem prevok_remove {m m1 : Nat → Nat} :
    ∀ {xs1 : List Nat} {p x : Nat} {xs2 : List Nat}, PrevOk m p (xs1 ++ x :: xs2) →
      (xs1 ++ x :: xs2).Nodup →
      (∀ y ∈ xs1 ++ xs2, y ≠ xs2.headD 0 → m1 (y + 16) = m (y + 16)) →
      (∀ y ∈ xs1 ++ xs2, y ≠ 0) →
      (∀ n ∈ xs2.head?, m1 (n + 16) = xs1.getLast?.getD p) →
      PrevOk m1 p (xs1 ++ xs2)
  | [], p, x, xs2, h, hnd, hf, hz, hn => by
    cases xs2 with
    | nil => trivial
    | cons n t =>
      refine ⟨by simpa using hn n (by simp), ?_⟩
      apply PrevOk.frame_prev h.2.2
      intro y hy
      apply hf y (by simp [hy])
      simp only [List.headD_cons]
      rintro rfl
      simp at hnd
      exact hnd.2.1 hy
  | a :: t, p, x, xs2, h, hnd, hf, hz, hn => by
    have ih := @prevok_remove _ m1 t _ _ _ h.2 (List.nodup_cons.1 hnd).2
      (fun y hy hne => hf y (by simp at hy ⊢; tauto) hne)
      (fun y hy => hz y (by simp at hy ⊢; tauto))
      (fun n hn' => by
        rw [hn n hn']
        cases t with
        | nil => simp
        | cons b t =>
          have e1 := List.getLast?_eq_getLast (b :: t) (by simp)
          simp only [List.getLast?_cons_cons, e1, Option.getD_some])
    refine ⟨?_, ih⟩
    rw [hf a (by simp)]
    · exact h.1
    · intro e
      cases xs2 with
      | nil => simp at e; exact hz a (by simp) e
      | cons n t2 =>
        simp only [List.headD_cons] at e
        subst e
        simp at hnd

/-! ## Effect of the elementary writes -/

@[simp] theorem write_mem (h : Heap) (a v x : Nat) :
    (h.write a v).mem x = if x = a then v else h.mem x := rfl

@[simp] theorem write_heap_lo (h : Heap) (a v : Nat) : (h.write a v).heap_lo = h.heap_lo := rfl

@[simp] theorem write_brk (h : Heap) (a v : Nat) : (h.write a v).brk = h.brk := rfl

@[simp] theorem write_max_addr (h : Heap) (a v : Nat) :
    (h.write a v).max_addr = h.max_addr := rfl

@[simp] theorem write_heap_start (h : Heap) (a v : Nat) :
    (h.write a v).heap_start = h.heap_start := rfl

@[simp] theorem write_seg_list (h : Heap) (a v : Nat) :
    (h.write a v).seg_list = h.seg_list := rfl

@[simp] theorem write_small (h : Heap) (a v : Nat) :
    (h.write a v).small_seg_list = h.small_seg_list := rfl

@[simp] theorem write_fuel (h : Heap) (a v : Nat) : (h.write a v).fuel = h.fuel := rfl

theorem SameGlobals.refl (h : Heap) : SameGlobals h h := ⟨rfl, rfl, rfl, rfl, rfl, rfl⟩

theorem SameGlobals.trans {h h1 h2 : Heap} (a : SameGlobals h h1) (b : SameGlobals h1 h2) :
    SameGlobals h h2 :=
  ⟨b.1.trans a.1, b.2.1.trans a.2.1, b.2.2.1.trans a.2.2.1, b.2.2.2.1.trans a.2.2.2.1,
    b.2.2.2.2.1.trans a.2.2.2.2.1, b.2.2.2.2.2.trans a.2.2.2.2.2⟩

theorem sameGlobals_write (h : Heap) (a v : Nat) : SameGlobals h (h.write a v) :=
  ⟨rfl, rfl, rfl, rfl, rfl, rfl⟩

theorem sameGlobals_write_header (h : Heap) (a s : Nat) (al : Bool) :
    SameGlobals h (write_header h a s al) := by
  unfold write_header
  simp only []
  split <;> split <;> exact ⟨rfl, rfl, rfl, rfl, rfl, rfl⟩

theorem sameGlobals_write_footer (h : Heap) (a s : Nat) (al : Bool) :
    SameGlobals h (write_footer h a s al) := by
  unfold write_footer
  split <;> exact ⟨rfl, rfl, rfl, rfl, rfl, rfl⟩

/-- Memory after `write_header(block, z + f, false)` for a size `z ≥ 16`. -/
theorem write_header_free_mem (h : Heap) {a z f : Nat} (hz : z % 16 = 0) (hlt : z < 2 ^ 64)
    (hf : f < 16) (x : Nat) :
    (write_header h a (z + f) false).mem x =
      if x = a then z + f
      else if x = a + 16 ∧ z ≤ 16 then h.mem (a + 16) ||| 4
      else h.mem x := by
  have e := extract_size_add hz hlt hf
  unfold extract_size at e
  unfold write_header
  simp only [e, min_block_size, dsize, pack, prev_sseg_mask, Bool.false_eq_true, if_false]
  by_cases hz16 : z ≤ 16
  · simp only [if_pos hz16, write_mem, hz16, and_true, if_true]
  · simp only [if_neg hz16, write_mem, hz16, and_false, if_false]

/-- Memory after `write_header` followed by `write_footer` for a free block. -/
theorem mark_free_mem (h : Heap) {a z f : Nat} (hz : z % 16 = 0) (hlt : z < 2 ^ 64)
    (hz16 : 16 ≤ z) (hf : f < 16) (x : Nat) :
    (write_footer (write_header h a (z + f) false) a (z + f) false).mem x =
      if x = a + z - 8 ∧ 16 < z + f then z + f
      else if x = a then z + f
      else if x = a + 16 ∧ z ≤ 16 then h.mem (a + 16) ||| 4
      else h.mem x := by
  have hsz : get_size (write_header h a (z + f) false) a = z := by
    unfold get_size
    rw [write_header_free_mem h hz hlt hf, if_pos rfl]
    exact extract_size_add hz hlt hf
  unfold write_footer
  simp only [min_block_size, dsize, pack, hsz, Bool.false_eq_true, if_false]
  by_cases hc : z + f ≤ 16
  · rw [if_pos hc, write_header_free_mem h hz hlt hf]
    have : ¬ (16 < z + f) := by omega
    simp only [this, and_false, if_false]
  · rw [if_neg hc]
    simp only [write_mem, write_header_free_mem h hz hlt hf]
    have e : a + 8 + z - 16 = a + z - 8 := by omega
    have : 16 < z + f := by omega
    simp only [e, this, and_true]

/-! ## Frame lemmas -/

theorem MemOk.frame_mem {m m1 : Nat → Nat} {bs : List Blk} (hm : MemOk m bs)
    (h1 : ∀ c ∈ bs, m1 c.addr = m c.addr)
    (h2 : ∀ c ∈ bs, c.alloc = false → 16 < c.size →
      m1 (c.addr + c.size - 8) = m (c.addr + c.size - 8)) : MemOk m1 bs :=
  ⟨fun c hc => by rw [h1 c hc]; exact hm.hdrs c hc,
   fun c hc ha hs => by rw [h2 c hc ha hs]; exact hm.footers c hc ha hs⟩

theorem ListsOk.frame_lists {m m1 : Nat → Nat} {sg : Nat → Nat} {sm : Nat} {fl : Nat → List Nat}
    {sl : List Nat} (hl : ListsOk m sg sm fl sl)
    (h1 : ∀ k < 11, ∀ y ∈ fl k, m1 (y + 8) = m (y + 8) ∧ m1 (y + 16) = m (y + 16))
    (h2 : ∀ y ∈ sl, m1 (y + 8) = m (y + 8)) : ListsOk m1 sg sm fl sl :=
  ⟨fun k hk => (hl.seg k hk).frame_dlist (fun y hy => (h1 k hk y hy).1) (fun y hy => (h1 k hk y hy).2),
   hl.small.frame h2⟩

/-- The pointer fields of a free block are neither a header nor a footer. -/
theorem Geo.ptr_safe {lo brk mx : Nat} {bs : List Blk} (hg : Geo lo brk mx bs) {y : Blk}
    (hy : y ∈ bs) {w : Nat} (hw : w = y.addr + 8 ∨ (w = y.addr + 16 ∧ 16 < y.size)) :
    (∀ c ∈ bs, c.addr ≠ w) ∧ (∀ c ∈ bs, 16 < c.size → c.addr + c.size - 8 ≠ w) := by
  constructor
  · intro c hc
    obtain ⟨f1, f2, f3, f4, f5, f6⟩ := hg.facts hc hy
    omega
  · intro c hc hs
    obtain ⟨f1, f2, f3, f4, f5, f6⟩ := hg.facts hc hy
    have : c.addr = y.addr → c.size = y.size := fun e => by rw [f5 e]
    omega

theorem get_seg_list_0 {z : Nat} (h1 : 16 < z) (h2 : z ≤ 32) : get_seg_list z = 0 := by
  unfold get_seg_list
  rw [if_pos (show z > 16 ∧ z ≤ 32 by omega)]

theorem get_seg_list_1 {z : Nat} (h1 : 32 < z) (h2 : z ≤ 64) : get_seg_list z = 1 := by
  unfold get_seg_list
  rw [if_neg (show ¬ (z > 16 ∧ z ≤ 32) by omega), if_pos (show z > 32 ∧ z ≤ 64 by omega)]

theorem get_seg_list_2 {z : Nat} (h1 : 64 < z) (h2 : z ≤ 128) : get_seg_list z = 2 := by
  unfold get_seg_list
  rw [if_neg (show ¬ (z > 16 ∧ z ≤ 32) by omega), if_neg (show ¬ (z > 32 ∧ z ≤ 64) by omega), if_pos (show z > 64 ∧ z ≤ 128 by omega)]

theorem get_seg_list_3 {z : Nat} (h1 : 128 < z) (h2 : z ≤ 256) : get_seg_list z = 3 := by
  unfold get_seg_list
  rw [if_neg (show ¬ (z > 16 ∧ z ≤ 32) by omega), if_neg (show ¬ (z > 32 ∧ z ≤ 64) by omega), if_neg (show ¬ (z > 64 ∧ z ≤ 128) by omega), if_pos (show z > 128 ∧ z ≤ 256 by omega)]

theorem get_seg_list_4 {z : Nat} (h1 : 256 < z) (h2 : z ≤ 512) : get_seg_list z = 4 := by
  unfold get_seg_list
  rw [if_neg (show ¬ (z > 16 ∧ z ≤ 32) by omega), if_neg (show ¬ (z > 32 ∧ z ≤ 64) by omega), if_neg (show ¬ (z > 64 ∧ z ≤ 128) by omega), if_neg (show ¬ (z > 128 ∧ z ≤ 256) by omega), if_pos (show z > 256 ∧ z ≤ 512 by omega)]

theorem get_seg_list_5 {z : Nat} (h1 : 512 < z) (h2 : z ≤ 1024) : get_seg_list z = 5 := by
  unfold get_seg_list
  rw [if_neg (show ¬ (z > 16 ∧ z ≤ 32) by omega), if_neg (show ¬ (z > 32 ∧ z ≤ 64) by omega), if_neg (show ¬ (z > 64 ∧ z ≤ 128) by omega), if_neg (show ¬ (z > 128 ∧ z ≤ 256) by omega), if_neg (show ¬ (z > 256 ∧ z ≤ 512) by omega), if_pos (show z > 512 ∧ z ≤ 1024 by omega)]

theorem get_seg_list_6 {z : Nat} (h1 : 1024 < z) (h2 : z ≤ 2048) : get_seg_list z = 6 := by
  unfold get_seg_list
  rw [if_neg (show ¬ (z > 16 ∧ z ≤ 32) by omega), if_neg (show ¬ (z > 32 ∧ z ≤ 64) by omega), if_neg (show ¬ (z > 64 ∧ z ≤ 128) by omega), if_neg (show ¬ (z > 128 ∧ z ≤ 256) by omega), if_neg (show ¬ (z > 256 ∧ z ≤ 512) by omega), if_neg (show ¬ (z > 512 ∧ z ≤ 1024) by omega), if_pos (show z > 1024 ∧ z ≤ 2048 by omega)]

theorem get_seg_list_7 {z : Nat} (h1 : 2048 < z) (h2 : z ≤ 4098) : get_seg_list z = 7 := by
  unfold get_seg_list
  rw [if_neg (show ¬ (z > 16 ∧ z ≤ 32) by omega), if_neg (show ¬ (z > 32 ∧ z ≤ 64) by omega), if_neg (show ¬ (z > 64 ∧ z ≤ 128) by omega), if_neg (show ¬ (z > 128 ∧ z ≤ 256) by omega), if_neg (show ¬ (z > 256 ∧ z ≤ 512) by omega), if_neg (show ¬ (z > 512 ∧ z ≤ 1024) by omega), if_neg (show ¬ (z > 1024 ∧ z ≤ 2048) by omega), if_pos (show z > 2048 ∧ z ≤ 4098 by omega)]

theorem get_seg_list_8 {z : Nat} (h1 : 4098 < z) (h2 : z ≤ 8192) : get_seg_list z = 8 := by
  unfold get_seg_list
  rw [if_neg (show ¬ (z > 16 ∧ z ≤ 32) by omega), if_neg (show ¬ (z > 32 ∧ z ≤ 64) by omega), if_neg (show ¬ (z > 64 ∧ z ≤ 128) by omega), if_neg (show ¬ (z > 128 ∧ z ≤ 256) by omega), if_neg (show ¬ (z > 256 ∧ z ≤ 512) by omega), if_neg (show ¬ (z > 512 ∧ z ≤ 1024) by omega), if_neg (show ¬ (z > 1024 ∧ z ≤ 2048) by omega), if_neg (show ¬ (z > 2048 ∧ z ≤ 4098) by omega), if_pos (show z > 4098 ∧ z ≤ 8192 by omega)]

theorem get_seg_list_9 {z : Nat} (h1 : 8192 < z) (h2 : z ≤ 16384) : get_seg_list z = 9 := by
  unfold get_seg_list
  rw [if_neg (show ¬ (z > 16 ∧ z ≤ 32) by omega), if_neg (show ¬ (z > 32 ∧ z ≤ 64) by omega), if_neg (show ¬ (z > 64 ∧ z ≤ 128) by omega), if_neg (show ¬ (z > 128 ∧ z ≤ 256) by omega), if_neg (show ¬ (z > 256 ∧ z ≤ 512) by omega), if_neg (show ¬ (z > 512 ∧ z ≤ 1024) by omega), if_neg (show ¬ (z > 1024 ∧ z ≤ 2048) by omega), if_neg (show ¬ (z > 2048 ∧ z ≤ 4098) by omega), if_neg (show ¬ (z > 4098 ∧ z ≤ 8192) by omega), if_pos (show z > 8192 ∧ z ≤ 16384 by omega)]

theorem get_seg_list_10 {z : Nat} (h1 : 16384 < z) : get_seg_list z = 10 := by
  unfold get_seg_list
  rw [if_neg (show ¬ (z > 16 ∧ z ≤ 32) by omega), if_neg (show ¬ (z > 32 ∧ z ≤ 64) by omega), if_neg (show ¬ (z > 64 ∧ z ≤ 128) by omega), if_neg (show ¬ (z > 128 ∧ z ≤ 256) by omega), if_neg (show ¬ (z > 256 ∧ z ≤ 512) by omega), if_neg (show ¬ (z > 512 ∧ z ≤ 1024) by omega), if_neg (show ¬ (z > 1024 ∧ z ≤ 2048) by omega), if_neg (show ¬ (z > 2048 ∧ z ≤ 4098) by omega), if_neg (show ¬ (z > 4098 ∧ z ≤ 8192) by omega), if_neg (show ¬ (z > 8192 ∧ z ≤ 16384) by omega), if_pos (show z > 16384 by omega)]

theorem get_seg_list_range {z : Nat} (hz : 16 < z) :
    ∃ k : Nat, k < 11 ∧ get_seg_list z = (k : Int) := by
  by_cases h0 : z ≤ 32
  · exact ⟨0, by norm_num, by rw [get_seg_list_0 (by omega) h0]; rfl⟩
  by_cases h1 : z ≤ 64
  · exact ⟨1, by norm_num, by rw [get_seg_list_1 (by omega) h1]; rfl⟩
  by_cases h2 : z ≤ 128
  · exact ⟨2, by norm_num, by rw [get_seg_list_2 (by omega) h2]; rfl⟩
  by_cases h3 : z ≤ 256
  · exact ⟨3, by norm_num, by rw [get_seg_list_3 (by omega) h3]; rfl⟩
  by_cases h4 : z ≤ 512
  · exact ⟨4, by norm_num, by rw [get_seg_list_4 (by omega) h4]; rfl⟩
  by_cases h5 : z ≤ 1024
  · exact ⟨5, by norm_num, by rw [get_seg_list_5 (by omega) h5]; rfl⟩
  by_cases h6 : z ≤ 2048
  · exact ⟨6, by norm_num, by rw [get_seg_list_6 (by omega) h6]; rfl⟩
  by_cases h7 : z ≤ 4098
  · exact ⟨7, by norm_num, by rw [get_seg_list_7 (by omega) h7]; rfl⟩
  by_cases h8 : z ≤ 8192
  · exact ⟨8, by norm_num, by rw [get_seg_list_8 (by omega) h8]; rfl⟩
  by_cases h9 : z ≤ 16384
  · exact ⟨9, by norm_num, by rw [get_seg_list_9 (by omega) h9]; rfl⟩
  exact ⟨10, by norm_num, by rw [get_seg_list_10 (by omega)]; rfl⟩

theorem seg_get_nat (h : Heap) {k : Nat} (hk : k < 11) :
    seg_get h (k : Int) = some (h.seg_list k) := by
  unfold seg_get
  rw [if_pos (by omega)]
  simp

theorem seg_set_nat (h : Heap) {k : Nat} (hk : k < 11) (v : Nat) :
    seg_set h (k : Int) v =
      some { h with seg_list := fun j => if j = k then v else h.seg_list j } := by
  unfold seg_set
  rw [if_pos (by omega)]
  simp

section

variable {h : Heap} {bs : List Blk} {fl : Nat → List Nat} {sl us ex : List Nat}

theorem Inv.get_size (hi : Inv h bs fl sl us ex) {b : Blk} (hb : b ∈ bs) :
    get_size h b.addr = b.size := hi.memok.size hi.geo hb

theorem Inv.listed_block (hi : Inv h bs fl sl us ex) {x z : Nat} (hl : Listed bs us x z) :
    ∃ b ∈ bs, b.addr = x ∧ b.size = z ∧ b.alloc = false ∧ x ∉ us := hl

theorem Inv.seg_block (hi : Inv h bs fl sl us ex) {k : Nat} (hk : k < 11) {x : Nat}
    (hx : x ∈ fl k) :
    ∃ b ∈ bs, b.addr = x ∧ b.alloc = false ∧ 16 < b.size ∧ get_seg_list b.size = (k : Int) ∧
      x ∉ us := by
  obtain ⟨z, ⟨b, hb, h1, h2, h3, h4⟩, h5, h6⟩ := (hi.spec.seg_mem k hk x).1 hx
  exact ⟨b, hb, h1, h3, by omega, by rw [h2]; exact h6, h4⟩

theorem Inv.small_block (hi : Inv h bs fl sl us ex) {x : Nat} (hx : x ∈ sl) :
    ∃ b ∈ bs, b.addr = x ∧ b.alloc = false ∧ b.size = 16 ∧ x ∉ us := by
  obtain ⟨b, hb, h1, h2, h3, h4⟩ := (hi.spec.small_mem x).1 hx
  exact ⟨b, hb, h1, h3, h2, h4⟩

theorem Inv.addr_pos (hi : Inv h bs fl sl us ex) {b : Blk} (hb : b ∈ bs) : b.addr ≠ 0 := by
  have := hi.geo.lo_le hb
  omega

/-- Writes into the pointer fields of a free block that is in no list leave the headers,
the footers and the lists as they are. -/
theorem Inv.ptr_frame (hi : Inv h bs fl sl us ex) {y : Blk} (hy : y ∈ bs)
    (hyu : y.addr ∈ us) {m1 : Nat → Nat}
    (hfr : ∀ w, w ≠ y.addr + 8 → (16 < y.size → w ≠ y.addr + 16) → m1 w = h.mem w)
    (hsmall : y.size ≤ 16 → m1 (y.addr + 16) = h.mem (y.addr + 16)) :
    MemOk m1 bs ∧ ListsOk m1 h.seg_list h.small_seg_list fl sl := by
  have key : ∀ w, w ≠ y.addr + 8 → w ≠ y.addr + 16 → m1 w = h.mem w := by
    intro w h8 h16
    exact hfr w h8 (fun _ => h16)
  constructor
  · apply hi.memok.frame_mem
    · intro c hc
      obtain ⟨f1, f2, f3, f4, f5, f6⟩ := hi.geo.facts hc hy
      by_cases hs : 16 < y.size
      · exact hfr _ (by omega) (fun _ => by omega)
      · by_cases e : c.addr = y.addr + 16
        · rw [e]; exact hsmall (by omega)
        · exact key _ (by omega) e
    · intro c hc _ hs
      obtain ⟨f1, f2, f3, f4, f5, f6⟩ := hi.geo.facts hc hy
      have : c.addr = y.addr → c.size = y.size := fun e => by rw [f5 e]
      exact key _ (by omega) (by omega)
  · apply hi.lists.frame_lists
    · intro k hk x hx
      obtain ⟨c, hc, h1, _, h3, _, h5⟩ := hi.seg_block hk hx
      obtain ⟨f1, f2, f3, f4, f5, f6⟩ := hi.geo.facts hc hy
      have hne : c.addr ≠ y.addr := fun e => h5 (by rw [← h1, e]; exact hyu)
      subst h1
      exact ⟨key _ (by omega) (by omega), key _ (by omega) (by omega)⟩
    · intro x hx
      obtain ⟨c, hc, h1, _, h3, h5⟩ := hi.small_block hx
      obtain ⟨f1, f2, f3, f4, f5, f6⟩ := hi.geo.facts hc hy
      have hne : c.addr ≠ y.addr := fun e => h5 (by rw [← h1, e]; exact hyu)
      subst h1
      exact key _ (by omega) (by omega)

end

section

variable {h : Heap} {bs : List Blk} {fl : Nat → List Nat} {sl us ex : List Nat}

theorem listed_unfilter {lo brk mx : Nat} (hg : Geo lo brk mx bs) {b : Blk} (hb : b ∈ bs)
    (hfree : b.alloc = false) (x z : Nat) :
    Listed bs (us.filter (· ≠ b.addr)) x z ↔ Listed bs us x z ∨ (x = b.addr ∧ z = b.size) := by
  unfold Listed
  constructor
  · rintro ⟨c, hc, h1, h2, h3, h4⟩
    by_cases hx : x ∈ us
    · right
      have : x = b.addr := by
        by_contra hne
        exact h4 (List.mem_filter.2 ⟨hx, by simpa using hne⟩)
      have hcb := hg.uniq hc hb (by rw [h1, this])
      subst hcb
      exact ⟨this, h2.symm⟩
    · left
      exact ⟨c, hc, h1, h2, h3, hx⟩
  · rintro (⟨c, hc, h1, h2, h3, h4⟩ | ⟨rfl, rfl⟩)
    · exact ⟨c, hc, h1, h2, h3, fun hm => h4 (List.mem_filter.1 hm).1⟩
    · exact ⟨b, hb, rfl, rfl, hfree, fun hm => by simpa using (List.mem_filter.1 hm).2⟩

theorem Geo.free_real {lo brk mx : Nat} (hg : Geo lo brk mx bs) {b : Blk} (hb : b ∈ bs)
    (hfree : b.alloc = false) : 16 ≤ b.size := by
  have := hg.sizes b hb
  by_cases hz : b.size = 0
  · have := (this.2.1 hz).1
    rw [hfree] at this
    cases this
  · exact this.2.2 hz

/-- `insert_freeblock` on a free block that is in no list. -/
theorem insert_spec (hi : Inv h bs fl sl us ex) {b : Blk} (hb : b ∈ bs)
    (hfree : b.alloc = false) (hus : b.addr ∈ us) :
    ∃ h1 fl1 sl1, insert_freeblock h b.addr = some h1 ∧
      Inv h1 bs fl1 sl1 (us.filter (· ≠ b.addr)) ex ∧ h1.heap_lo = h.heap_lo ∧
      h1.brk = h.brk ∧ h1.max_addr = h.max_addr := by
  have hsz := hi.get_size hb
  have hreal := hi.geo.free_real hb hfree
  have hb0 := hi.addr_pos hb
  unfold insert_freeblock
  simp only [hsz, min_block_size]
  by_cases hsmall : b.size ≤ 16
  · -- the small list
    have h16 : b.size = 16 := by omega
    rw [if_pos hsmall]
    obtain ⟨hm1, hl1⟩ := @Inv.ptr_frame _ _ _ _ _ _ hi _ hb hus
      (h.write (b.addr + 8) h.small_seg_list).mem
      (by intro w h8 _; simp [h8]) (by intro _; simp)
    have hnotin : b.addr ∉ sl := fun hm => by
      obtain ⟨c, hc, h1, _, _, h5⟩ := hi.small_block hm
      exact h5 hus
    refine ⟨_, fl, b.addr :: sl, rfl, ?_, rfl, rfl, rfl⟩
    refine ⟨hi.geo, hi.start, hm1, ⟨hl1.seg, ?_⟩, ⟨?_, ?_, hi.spec.seg_nodup, ?_⟩, hi.free_pa⟩
    · apply hi.lists.small.push hb0 (by simp)
      intro y hy
      have : y ≠ b.addr := fun e => hnotin (e ▸ hy)
      simp [this]
    · intro k hk x
      rw [hi.spec.seg_mem k hk x]
      constructor
      · rintro ⟨z, hz1, hz2, hz3⟩
        exact ⟨z, (listed_unfilter hi.geo hb hfree x z).2 (Or.inl hz1), hz2, hz3⟩
      · rintro ⟨z, hz1, hz2, hz3⟩
        rcases (listed_unfilter hi.geo hb hfree x z).1 hz1 with h1 | ⟨_, h2⟩
        · exact ⟨z, h1, hz2, hz3⟩
        · omega
    · intro x
      rw [listed_unfilter hi.geo hb hfree x 16, List.mem_cons, hi.spec.small_mem x]
      constructor
      · rintro (rfl | h1)
        · exact Or.inr ⟨rfl, h16.symm⟩
        · exact Or.inl h1
      · rintro (h1 | ⟨h1, _⟩)
        · exact Or.inr h1
        · exact Or.inl h1
    · exact List.nodup_cons.2 ⟨hnotin, hi.spec.small_nodup⟩
  · -- a class list
    rw [if_neg hsmall]
    obtain ⟨k, hk, hcls⟩ := get_seg_list_range (show 16 < b.size by omega)
    rw [hcls, seg_get_nat h hk]
    simp only [Option.some_bind]
    have hnotin : b.addr ∉ fl k := fun hm => by
      obtain ⟨c, hc, h1, _, _, _, h5⟩ := hi.seg_block hk hm
      exact h5 hus
    have hd := hi.lists.seg k hk
    have hspec : SpecOk bs (us.filter (· ≠ b.addr))
        (fun j => if j = k then b.addr :: fl k else fl j) sl := by
      refine ⟨?_, ?_, ?_, hi.spec.small_nodup⟩
      · intro j hj x
        by_cases hjk : j = k
        · subst hjk
          simp only [if_true, List.mem_cons]
          rw [hi.spec.seg_mem j hj x]
          constructor
          · rintro (rfl | ⟨z, hz1, hz2, hz3⟩)
            · exact ⟨b.size, (listed_unfilter hi.geo hb hfree _ _).2 (Or.inr ⟨rfl, rfl⟩),
                by omega, hcls⟩
            · exact ⟨z, (listed_unfilter hi.geo hb hfree x z).2 (Or.inl hz1), hz2, hz3⟩
          · rintro ⟨z, hz1, hz2, hz3⟩
            rcases (listed_unfilter hi.geo hb hfree x z).1 hz1 with h1 | ⟨h1, _⟩
            · exact Or.inr ⟨z, h1, hz2, hz3⟩
            · exact Or.inl h1
        · simp only [if_neg hjk]
          rw [hi.spec.seg_mem j hj x]
          constructor
          · rintro ⟨z, hz1, hz2, hz3⟩
            exact ⟨z, (listed_unfilter hi.geo hb hfree x z).2 (Or.inl hz1), hz2, hz3⟩
          · rintro ⟨z, hz1, hz2, hz3⟩
            rcases (listed_unfilter hi.geo hb hfree x z).1 hz1 with h1 | ⟨_, h2⟩
            · exact ⟨z, h1, hz2, hz3⟩
            · exfalso
              rw [h2, hcls] at hz3
              exact hjk (by exact_mod_cast hz3.symm)
      · intro x
        rw [listed_unfilter hi.geo hb hfree x 16, hi.spec.small_mem x]
        constructor
        · exact Or.inl
        · rintro (h1 | ⟨_, h2⟩)
          · exact h1
          · omega
      · intro j hj
        by_cases hjk : j = k
        · subst hjk
          simp only [if_true]
          exact List.nodup_cons.2 ⟨hnotin, hi.spec.seg_nodup j hj⟩
        · simp only [if_neg hjk]
          exact hi.spec.seg_nodup j hj
    have hroot : h.seg_list k = (fl k).headD 0 := hd.1.head_eq
    -- the lists other than class `k` are framed, class `k` gets the block pushed
    have finish : ∀ (m1 : Nat → Nat),
        (∀ w, w ≠ b.addr + 8 → w ≠ b.addr + 16 → w ≠ h.seg_list k + 16 → m1 w = h.mem w) →
        m1 (b.addr + 8) = h.seg_list k → m1 (b.addr + 16) = 0 →
        (h.seg_list k ≠ 0 → m1 (h.seg_list k + 16) = b.addr) →
        MemOk m1 bs ∧ ListsOk m1 (fun j => if j = k then b.addr else h.seg_list j)
          h.small_seg_list (fun j => if j = k then b.addr :: fl k else fl j) sl := by
      intro m1 hfr h8 h16 hr
      -- the root of class `k`, when there is one, is a free block in the list
      have hrootblk : h.seg_list k ≠ 0 →
          ∃ r ∈ bs, r.addr = h.seg_list k ∧ 16 < r.size ∧ r.addr ∉ us := by
        intro hne
        have : h.seg_list k ∈ fl k := by
          rw [hroot] at hne ⊢
          cases hfl : fl k with
          | nil => rw [hfl] at hne; simp at hne
          | cons y ys => simp
        obtain ⟨r, hr1, hr2, _, hr4, _, hr6⟩ := hi.seg_block hk this
        exact ⟨r, hr1, hr2, hr4, by rw [hr2]; exact hr6⟩
      constructor
      · apply hi.memok.frame_mem
        · intro c hc
          obtain ⟨f1, f2, f3, f4, f5, f6⟩ := hi.geo.facts hc hb
          apply hfr _ (by omega) (by omega)
          intro e
          by_cases hne : h.seg_list k = 0
          · have := hi.geo.lo_le hc; have := hi.geo.lo_pos; omega
          · obtain ⟨r, hr1, hr2, hr3, _⟩ := hrootblk hne
            obtain ⟨g1, g2, g3, g4, g5, g6⟩ := hi.geo.facts hc hr1
            omega
        · intro c hc _ hs
          obtain ⟨f1, f2, f3, f4, f5, f6⟩ := hi.geo.facts hc hb
          have e1 : c.addr = b.addr → c.size = b.size := fun e => by rw [f5 e]
          apply hfr _ (by omega) (by omega)
          intro e
          by_cases hne : h.seg_list k = 0
          · have := hi.geo.lo_le hc; have := hi.geo.lo_pos; omega
          · obtain ⟨r, hr1, hr2, hr3, _⟩ := hrootblk hne
            obtain ⟨g1, g2, g3, g4, g5, g6⟩ := hi.geo.facts hc hr1
            omega
      · constructor
        · intro j hj
          by_cases hjk : j = k
          · subst hjk
            simp only [if_true]
            apply hd.push_dlist (hi.spec.seg_nodup j hj) hb0 h8 h16 hr
            · intro y hy
              obtain ⟨c, hc, h1, _, _, _, h5⟩ := hi.seg_block hj hy
              obtain ⟨f1, f2, f3, f4, f5, f6⟩ := hi.geo.facts hc hb
              have hne : c.addr ≠ b.addr := fun e => h5 (by rw [← h1, e]; exact hus)
              subst h1
              apply hfr _ (by omega) (by omega)
              intro e
              by_cases hne0 : h.seg_list j = 0
              · have := hi.geo.lo_le hc; have := hi.geo.lo_pos; omega
              · obtain ⟨r, hr1, hr2, hr3, _⟩ := hrootblk hne0
                have := hi.geo.align hr1
                omega
            · intro y hy hyr
              obtain ⟨c, hc, h1, _, _, _, h5⟩ := hi.seg_block hj hy
              obtain ⟨f1, f2, f3, f4, f5, f6⟩ := hi.geo.facts hc hb
              have hne : c.addr ≠ b.addr := fun e => h5 (by rw [← h1, e]; exact hus)
              subst h1
              exact hfr _ (by omega) (by omega) (by omega)
          · simp only [if_neg hjk]
            apply (hi.lists.seg j hj).frame_dlist
            · intro y hy
              obtain ⟨c, hc, h1, _, _, _, h5⟩ := hi.seg_block hj hy
              obtain ⟨f1, f2, f3, f4, f5, f6⟩ := hi.geo.facts hc hb
              have hne : c.addr ≠ b.addr := fun e => h5 (by rw [← h1, e]; exact hus)
              subst h1
              apply hfr _ (by omega) (by omega)
              intro e
              by_cases hne0 : h.seg_list k = 0
              · have := hi.geo.lo_le hc; have := hi.geo.lo_pos; omega
              · obtain ⟨r, hr1, hr2, hr3, _⟩ := hrootblk hne0
                have := hi.geo.align hr1
                omega
            · intro y hy
              obtain ⟨c, hc, h1, _, h3, h4, h5⟩ := hi.seg_block hj hy
              obtain ⟨f1, f2, f3, f4, f5, f6⟩ := hi.geo.facts hc hb
              have hne : c.addr ≠ b.addr := fun e => h5 (by rw [← h1, e]; exact hus)
              subst h1
              apply hfr _ (by omega) (by omega)
              intro e
              -- `c` would be the root of class `k`
              have e' : c.addr = h.seg_list k := by omega
              have hne0 : h.seg_list k ≠ 0 := by
                have := hi.geo.lo_le hc; omega
              have hmem : h.seg_list k ∈ fl k := by
                rw [hroot] at hne0 ⊢
                cases hfl : fl k with
                | nil => rw [hfl] at hne0; simp at hne0
                | cons y ys => simp
              obtain ⟨r, hr1, hr2, _, _, hr5, _⟩ := hi.seg_block hk hmem
              have := hi.geo.uniq hc hr1 (by rw [hr2, e'])
              subst this
              rw [hr5] at h4
              exact hjk (by exact_mod_cast h4.symm)
        · apply hi.lists.small.frame
          intro y hy
          obtain ⟨c, hc, h1, _, h3, h5⟩ := hi.small_block hy
          obtain ⟨f1, f2, f3, f4, f5, f6⟩ := hi.geo.facts hc hb
          have hne : c.addr ≠ b.addr := fun e => h5 (by rw [← h1, e]; exact hus)
          subst h1
          apply hfr _ (by omega) (by omega)
          intro e
          by_cases hne0 : h.seg_list k = 0
          · have := hi.geo.lo_le hc; have := hi.geo.lo_pos; omega
          · have hmem : h.seg_list k ∈ fl k := by
              rw [hroot] at hne0 ⊢
              cases hfl : fl k with
              | nil => rw [hfl] at hne0; simp at hne0
              | cons y ys => simp
            obtain ⟨r, hr1, hr2, _, _, _, _⟩ := hi.seg_block hk hmem
            have := hi.geo.align hr1
            omega
    by_cases hr0 : h.seg_list k = 0
    · rw [if_pos hr0, seg_set_nat h hk]
      simp only [Option.map_some']
      obtain ⟨hm1, hl1⟩ := finish
        (({ h with seg_list := fun j => if j = k then b.addr else h.seg_list j } : Heap).write
          (b.addr + 16) 0 |>.write (b.addr + 8) 0).mem
        (by intro w h8 h16 _; simp [h8, h16])
        (by simp [hr0]) (by simp) (fun hne => absurd hr0 hne)
      exact ⟨_, _, sl, rfl, ⟨hi.geo, hi.start, hm1, hl1, hspec, hi.free_pa⟩, rfl, rfl, rfl⟩
    · rw [if_neg hr0, seg_set_nat _ hk]
      obtain ⟨hm1, hl1⟩ := finish
        (((h.write (h.seg_list k + 16) b.addr).write (b.addr + 8) (h.seg_list k)).write
          (b.addr + 16) 0).mem
        (by intro w h8 h16 hr; simp [h8, h16, hr])
        (by simp) (by simp)
        (fun _ => by
          have : h.seg_list k + 16 ≠ b.addr + 16 := by
            intro e
            have e' : h.seg_list k = b.addr := by omega
            have hmem : h.seg_list k ∈ fl k := by
              rw [hroot] at hr0 ⊢
              cases hfl : fl k with
              | nil => rw [hfl] at hr0; simp at hr0
              | cons y ys => simp
            exact hnotin (e' ▸ hmem)
          have e2 : h.seg_list k + 16 ≠ b.addr + 8 := by
            intro e
            have hmem : h.seg_list k ∈ fl k := by
              rw [hroot] at hr0 ⊢
              cases hfl : fl k with
              | nil => rw [hfl] at hr0; simp at hr0
              | cons y ys => simp
            obtain ⟨r, hr1, hr2, _, _, _, _⟩ := hi.seg_block hk hmem
            have := hi.geo.align hr1
            have := hi.geo.align hb
            omega
          simp [this, e2])
      exact ⟨_, _, sl, rfl, ⟨hi.geo, hi.start, hm1, hl1, hspec, hi.free_pa⟩, rfl, rfl, rfl⟩

end

theorem MemOk.frame2 {m m1 : Nat → Nat} {bs : List Blk} (hm : MemOk m bs)
    (hfr : ∀ w, ¬ PtrSafe bs w → m1 w = m w) : MemOk m1 bs := by
  apply hm.frame_mem
  · intro c hc
    apply hfr
    intro hs
    exact hs.1 c hc rfl
  · intro c hc ha hs
    apply hfr
    intro hsafe
    exact hsafe.2 c hc ha hs rfl

section

variable {h : Heap} {bs : List Blk} {fl : Nat → List Nat} {sl us ex : List Nat}

theorem Geo.ptrSafe_next {lo brk mx : Nat} (hg : Geo lo brk mx bs) {y : Blk} (hy : y ∈ bs)
    (hf : y.alloc = false) : PtrSafe bs (y.addr + 8) := by
  have hr := hg.free_real hy hf
  constructor
  · intro c hc
    obtain ⟨f1, f2, f3, f4, f5, f6⟩ := hg.facts hc hy
    omega
  · intro c hc _ hs
    obtain ⟨f1, f2, f3, f4, f5, f6⟩ := hg.facts hc hy
    have : c.addr = y.addr → c.size = y.size := fun e => by rw [f5 e]
    omega

theorem Geo.ptrSafe_prev {lo brk mx : Nat} (hg : Geo lo brk mx bs) {y : Blk} (hy : y ∈ bs)
    (hs : 16 < y.size) : PtrSafe bs (y.addr + 16) := by
  constructor
  · intro c hc
    obtain ⟨f1, f2, f3, f4, f5, f6⟩ := hg.facts hc hy
    omega
  · intro c hc _ hs
    obtain ⟨f1, f2, f3, f4, f5, f6⟩ := hg.facts hc hy
    omega

theorem Geo.ptrSafe_low {lo brk mx : Nat} (hg : Geo lo brk mx bs) {w : Nat} (hw : w ≤ 16) :
    PtrSafe bs w := by
  have h1 := hg.lo_pos
  have h2 := hg.lo_align
  constructor
  · intro c hc
    have := hg.lo_le hc
    omega
  · intro c hc _ hs
    have := hg.lo_le hc
    omega

/-- Members of the lists are block addresses: non-null and 8 modulo 16. -/
theorem Inv.seg_facts (hi : Inv h bs fl sl us ex) {k : Nat} (hk : k < 11) {x : Nat}
    (hx : x ∈ fl k) : x % 16 = 8 ∧ x ≠ 0 ∧ 24 ≤ x := by
  obtain ⟨c, hc, h1, _⟩ := hi.seg_block hk hx
  have := hi.geo.align hc
  have := hi.geo.lo_le hc
  have := hi.geo.lo_pos
  have := hi.geo.lo_align
  omega

theorem Inv.small_facts (hi : Inv h bs fl sl us ex) {x : Nat} (hx : x ∈ sl) :
    x % 16 = 8 ∧ x ≠ 0 ∧ 24 ≤ x := by
  obtain ⟨c, hc, h1, _⟩ := hi.small_block hx
  have := hi.geo.align hc
  have := hi.geo.lo_le hc
  have := hi.geo.lo_pos
  have := hi.geo.lo_align
  omega

theorem Inv.seg_seg_disjoint (hi : Inv h bs fl sl us ex) {j k : Nat} (hj : j < 11)
    (hk : k < 11) {x : Nat} (hx : x ∈ fl j) (hx' : x ∈ fl k) : j = k := by
  obtain ⟨c, hc, h1, _, _, h4, _⟩ := hi.seg_block hj hx
  obtain ⟨d, hd, g1, _, _, g4, _⟩ := hi.seg_block hk hx'
  have := hi.geo.uniq hc hd (by rw [h1, g1])
  subst this
  rw [h4] at g4
  exact_mod_cast g4

theorem Inv.seg_small_disjoint (hi : Inv h bs fl sl us ex) {k : Nat} (hk : k < 11) {x : Nat}
    (hx : x ∈ fl k) (hx' : x ∈ sl) : False := by
  obtain ⟨c, hc, h1, _, h3, _, _⟩ := hi.seg_block hk hx
  obtain ⟨d, hd, g1, _, g3, _⟩ := hi.small_block hx'
  have := hi.geo.uniq hc hd (by rw [h1, g1])
  subst this
  omega

theorem listed_cons {lo brk mx : Nat} (_hg : Geo lo brk mx bs) (a x z : Nat) :
    Listed bs (a :: us) x z ↔ Listed bs us x z ∧ x ≠ a := by
  unfold Listed
  constructor
  · rintro ⟨c, hc, h1, h2, h3, h4⟩
    simp only [List.mem_cons, not_or] at h4
    exact ⟨⟨c, hc, h1, h2, h3, h4.2⟩, h4.1⟩
  · rintro ⟨⟨c, hc, h1, h2, h3, h4⟩, hne⟩
    exact ⟨c, hc, h1, h2, h3, by simp [hne, h4]⟩

/-- The specification of the lists after taking `b` out of class `k`. -/
theorem spec_remove_seg (hi : Inv h bs fl sl us ex) {b : Blk} {k : Nat} (hk : k < 11)
    {xs1 xs2 : List Nat} (hfl : fl k = xs1 ++ b.addr :: xs2) :
    SpecOk bs (b.addr :: us) (fun j => if j = k then xs1 ++ xs2 else fl j) sl := by
  have hnd := hi.spec.seg_nodup k hk
  rw [hfl] at hnd
  have hnd' : (xs1 ++ xs2).Nodup ∧ b.addr ∉ xs1 ++ xs2 := by
    have := List.nodup_middle.1 hnd
    exact ⟨(List.nodup_cons.1 this).2, (List.nodup_cons.1 this).1⟩
  refine ⟨?_, ?_, ?_, hi.spec.small_nodup⟩
  · intro j hj x
    have key : (∃ z, Listed bs (b.addr :: us) x z ∧ 16 < z ∧ get_seg_list z = (j : Int)) ↔
        x ∈ fl j ∧ x ≠ b.addr := by
      rw [hi.spec.seg_mem j hj x]
      constructor
      · rintro ⟨z, hz1, hz2, hz3⟩
        have := (listed_cons hi.geo _ _ _).1 hz1
        exact ⟨⟨z, this.1, hz2, hz3⟩, this.2⟩
      · rintro ⟨⟨z, hz1, hz2, hz3⟩, hne⟩
        exact ⟨z, (listed_cons hi.geo _ _ _).2 ⟨hz1, hne⟩, hz2, hz3⟩
    rw [key]
    by_cases hjk : j = k
    · subst hjk
      simp only [if_true, hfl]
      constructor
      · intro hx
        refine ⟨by simp at hx ⊢; tauto, ?_⟩
        rintro rfl
        exact hnd'.2 hx
      · rintro ⟨hx, hne⟩
        simp at hx ⊢
        tauto
    · simp only [if_neg hjk]
      constructor
      · intro hx
        refine ⟨hx, ?_⟩
        rintro rfl
        exact hjk (hi.seg_seg_disjoint hj hk hx (by rw [hfl]; simp))
      · exact fun hx => hx.1
  · intro x
    rw [listed_cons hi.geo, ← hi.spec.small_mem x]
    constructor
    · intro hx
      refine ⟨hx, ?_⟩
      rintro rfl
      exact hi.seg_small_disjoint hk (by rw [hfl]; simp) hx
    · exact fun hx => hx.1
  · intro j hj
    by_cases hjk : j = k
    · subst hjk
      simp only [if_true]
      exact hnd'.1
    · simp only [if_neg hjk]
      exact hi.spec.seg_nodup j hj

end

section

variable {h : Heap} {bs : List Blk} {fl : Nat → List Nat} {sl us ex : List Nat}

theorem getLast?_getD_mem {xs : List Nat} (hne : xs ≠ []) : xs.getLast?.getD 0 ∈ xs := by
  rw [List.getLast?_eq_getLast xs hne]
  simp only [Option.getD_some]
  exact List.getLast_mem _

theorem headD_mem {xs : List Nat} (hne : xs ≠ []) : xs.headD 0 ∈ xs := by
  cases xs with
  | nil => exact absurd rfl hne
  | cons y ys => simp

set_option maxHeartbeats 1000000 in
/-- `remove_freeblock` on a listed free block larger than 16 bytes. -/
theorem remove_seg_spec (hi : Inv h bs fl sl us ex) {b : Blk} (hb : b ∈ bs)
    (hfree : b.alloc = false) (hnus : b.addr ∉ us) (hbig : 16 < b.size) :
    ∃ h1 fl1, remove_freeblock h b.addr = some h1 ∧
      Inv h1 bs fl1 sl (b.addr :: us) ex ∧ h1.heap_lo = h.heap_lo ∧
      h1.brk = h.brk ∧ h1.max_addr = h.max_addr := by
  have hsz := hi.get_size hb
  have hb0 := hi.addr_pos hb
  have hba := hi.geo.align hb
  obtain ⟨k, hk, hcls⟩ := get_seg_list_range hbig
  have hin : b.addr ∈ fl k :=
    (hi.spec.seg_mem k hk _).2 ⟨b.size, ⟨b, hb, rfl, rfl, hfree, hnus⟩, hbig, hcls⟩
  obtain ⟨xs1, xs2, hfl⟩ := List.append_of_mem hin
  have hd := hi.lists.seg k hk
  rw [hfl, dlist_iff] at hd
  have hnd := hi.spec.seg_nodup k hk
  rw [hfl] at hnd
  have hprev : find_prev_free h b.addr = xs1.getLast?.getD 0 := prevok_prev_at hd.2
  have hnext : find_next_free h b.addr = xs2.headD 0 := slist_next_at hd.1
  have hxs1 : ∀ y ∈ xs1, y ∈ fl k := fun y hy => by rw [hfl]; simp [hy]
  have hxs2 : ∀ y ∈ xs2, y ∈ fl k := fun y hy => by rw [hfl]; simp [hy]
  have hq0 : xs1.getLast?.getD 0 = 0 ↔ xs1 = [] := by
    constructor
    · intro e
      by_contra hne
      exact (hi.seg_facts hk (hxs1 _ (getLast?_getD_mem hne))).2.1 e
    · rintro rfl; rfl
  have hn0 : xs2.headD 0 = 0 ↔ xs2 = [] := by
    constructor
    · intro e
      by_contra hne
      exact (hi.seg_facts hk (hxs2 _ (headD_mem hne))).2.1 e
    · rintro rfl; rfl
  have hqf : xs1.getLast?.getD 0 = 0 ∨
      (xs1.getLast?.getD 0 ∈ fl k ∧ xs1.getLast?.getD 0 ≠ b.addr) := by
    by_cases hne : xs1 = []
    · left; exact hq0.2 hne
    · right
      refine ⟨hxs1 _ (getLast?_getD_mem hne), ?_⟩
      intro e
      have := getLast?_getD_mem hne
      rw [e] at this
      exact (List.disjoint_of_nodup_append hnd) this (by simp)
  have hnf : xs2.headD 0 = 0 ∨ (xs2.headD 0 ∈ fl k ∧ xs2.headD 0 ≠ b.addr) := by
    by_cases hne : xs2 = []
    · left; exact hn0.2 hne
    · right
      refine ⟨hxs2 _ (headD_mem hne), ?_⟩
      intro e
      have := headD_mem hne
      rw [e] at this
      have := (List.nodup_cons.1 (List.nodup_append.1 hnd).2.1).1
      contradiction
  have hspec := spec_remove_seg hi hk hfl
  generalize hq : xs1.getLast?.getD 0 = q at *
  generalize hn : xs2.headD 0 = n at *
  have hqfacts : q = 0 ∨ (q % 16 = 8 ∧ 24 ≤ q) := by
    rcases hqf with h0 | ⟨h1, _⟩
    · exact Or.inl h0
    · exact Or.inr ⟨(hi.seg_facts hk h1).1, (hi.seg_facts hk h1).2.2⟩
  have hnfacts : n = 0 ∨ (n % 16 = 8 ∧ 24 ≤ n) := by
    rcases hnf with h0 | ⟨h1, _⟩
    · exact Or.inl h0
    · exact Or.inr ⟨(hi.seg_facts hk h1).1, (hi.seg_facts hk h1).2.2⟩
  -- every case of the code ends in a memory and a root of class `k` of this shape
  have finish : ∀ (m1 : Nat → Nat) (r1 : Nat),
      (∀ w, w ≠ q + 8 → w ≠ n + 16 → w ≠ b.addr + 8 → w ≠ b.addr + 16 → m1 w = h.mem w) →
      (xs1 ≠ [] → m1 (q + 8) = n) → (xs2 ≠ [] → m1 (n + 16) = q) →
      r1 = (if xs1 = [] then n else h.seg_list k) →
      MemOk m1 bs ∧ ListsOk m1 (fun j => if j = k then r1 else h.seg_list j)
        h.small_seg_list (fun j => if j = k then xs1 ++ xs2 else fl j) sl := by
    intro m1 r1 hfr hq1 hn1 hr1
    have hyfr : ∀ y, y % 16 = 8 → 24 ≤ y → y ≠ b.addr →
        (y ≠ q → m1 (y + 8) = h.mem (y + 8)) ∧ (y ≠ n → m1 (y + 16) = h.mem (y + 16)) := by
      intro y hy1 hy2 hy3
      constructor
      · intro hyq
        exact hfr _ (by omega) (by omega) (by omega) (by omega)
      · intro hyn
        exact hfr _ (by omega) (by omega) (by omega) (by omega)
    constructor
    · apply hi.memok.frame2
      intro w hns
      apply hfr
      · rintro rfl
        apply hns
        rcases hqf with h0 | ⟨h1, _⟩
        · exact hi.geo.ptrSafe_low (by omega)
        · obtain ⟨c, hc, c1, c2, _⟩ := hi.seg_block hk h1
          rw [← c1]
          exact hi.geo.ptrSafe_next hc c2
      · rintro rfl
        apply hns
        rcases hnf with h0 | ⟨h1, _⟩
        · exact hi.geo.ptrSafe_low (by omega)
        · obtain ⟨c, hc, c1, c2, c3, _⟩ := hi.seg_block hk h1
          rw [← c1]
          exact hi.geo.ptrSafe_prev hc c3
      · rintro rfl
        exact hns (hi.geo.ptrSafe_next hb hfree)
      · rintro rfl
        exact hns (hi.geo.ptrSafe_prev hb hbig)
    · constructor
      · intro j hj
        by_cases hjk : j = k
        · subst hjk
          simp only [if_true]
          rw [dlist_iff, hr1]
          have hmem : ∀ y ∈ xs1 ++ xs2, y ∈ fl j ∧ y ≠ b.addr := by
            intro y hy
            constructor
            · rw [hfl]; simp at hy ⊢; tauto
            · rintro rfl
              have := List.nodup_middle.1 hnd
              exact (List.nodup_cons.1 this).1 hy
          constructor
          · rw [← hn]
            apply slist_remove hd.1 hnd
            · intro y hy hyq
              rw [hq] at hyq
              obtain ⟨hy1, hy2⟩ := hmem y hy
              have := hi.seg_facts hk hy1
              exact (hyfr y this.1 this.2.2 hy2).1 hyq
            · intro q' hq'
              have hne : xs1 ≠ [] := by rintro rfl; simp at hq'
              have : q' = q := by
                have e : xs1.getLast? = some q' := hq'
                rw [e] at hq
                exact hq
              rw [this, hn]
              exact hq1 hne
          · apply prevok_remove hd.2 hnd
            · intro y hy hyn
              rw [hn] at hyn
              obtain ⟨hy1, hy2⟩ := hmem y hy
              have := hi.seg_facts hk hy1
              exact (hyfr y this.1 this.2.2 hy2).2 hyn
            · intro y hy
              exact (hi.seg_facts hk (hmem y hy).1).2.1
            · intro n' hn'
              have hne : xs2 ≠ [] := by rintro rfl; simp at hn'
              have : n' = n := by
                have e : xs2.head? = some n' := hn'
                rw [← hn, List.headD_eq_head?_getD, e]
                rfl
              rw [this, hq]
              exact hn1 hne
        · simp only [if_neg hjk]
          apply (hi.lists.seg j hj).frame_dlist
          · intro y hy
            have hyf := hi.seg_facts hj hy
            have hyb : y ≠ b.addr := by
              rintro rfl; exact hjk (hi.seg_seg_disjoint hj hk hy hin)
            refine (hyfr y hyf.1 hyf.2.2 hyb).1 ?_
            rintro rfl
            rcases hqf with h0 | ⟨h1, _⟩
            · exact hyf.2.1 h0
            · exact hjk (hi.seg_seg_disjoint hj hk hy h1)
          · intro y hy
            have hyf := hi.seg_facts hj hy
            have hyb : y ≠ b.addr := by
              rintro rfl; exact hjk (hi.seg_seg_disjoint hj hk hy hin)
            refine (hyfr y hyf.1 hyf.2.2 hyb).2 ?_
            rintro rfl
            rcases hnf with h0 | ⟨h1, _⟩
            · exact hyf.2.1 h0
            · exact hjk (hi.seg_seg_disjoint hj hk hy h1)
      · apply hi.lists.small.frame
        intro y hy
        have hyf := hi.small_facts hy
        have hyb : y ≠ b.addr := by
          rintro rfl; exact hi.seg_small_disjoint hk hin hy
        refine (hyfr y hyf.1 hyf.2.2 hyb).1 ?_
        rintro rfl
        rcases hqf with h0 | ⟨h1, _⟩
        · exact hyf.2.1 h0
        · exact hi.seg_small_disjoint hk h1 hy
  unfold remove_freeblock
  simp only [hsz, min_block_size, hprev, hnext, hcls, hq, hn]
  rw [if_pos hb0, if_neg (by omega)]
  by_cases h1 : xs1 = [] <;> by_cases h2 : xs2 = []
  · -- only element
    have e1 : q = 0 := hq0.2 h1
    have e2 : n = 0 := hn0.2 h2
    rw [if_pos ⟨e1, e2⟩, seg_set_nat h hk]
    obtain ⟨hm1, hl1⟩ := finish h.mem 0 (fun _ _ _ _ _ => rfl) (fun hne => absurd h1 hne)
      (fun hne => absurd h2 hne) (by rw [if_pos h1, e2])
    exact ⟨_, _, rfl, ⟨hi.geo, hi.start, hm1, hl1, hspec, hi.free_pa⟩, rfl, rfl, rfl⟩
  · -- first element
    have e1 : q = 0 := hq0.2 h1
    have e2 : n ≠ 0 := fun e => h2 (hn0.1 e)
    rw [if_neg (fun hc => e2 hc.2), if_neg (fun hc => hc.1 e1), if_pos ⟨e1, e2⟩,
      seg_set_nat _ hk]
    obtain ⟨hm1, hl1⟩ := finish ((h.write (n + 16) 0).write (b.addr + 8) 0).mem n
      (by intro w _ hw2 hw3 _; simp [hw2, hw3])
      (fun hne => absurd h1 hne)
      (fun _ => by
        have : n + 16 ≠ b.addr + 8 := by omega
        simp [this, e1])
      (by rw [if_pos h1])
    exact ⟨_, _, rfl, ⟨hi.geo, hi.start, hm1, hl1, hspec, hi.free_pa⟩, rfl, rfl, rfl⟩
  · -- last element
    have e1 : q ≠ 0 := fun e => h1 (hq0.1 e)
    have e2 : n = 0 := hn0.2 h2
    rw [if_neg (fun hc => e1 hc.1), if_pos ⟨e1, e2⟩]
    obtain ⟨hm1, hl1⟩ := finish ((h.write (q + 8) 0).write (b.addr + 16) 0).mem
      (h.seg_list k)
      (by intro w hw1 _ _ hw4; simp [hw1, hw4])
      (fun _ => by
        have : q + 8 ≠ b.addr + 16 := by omega
        simp [this, e2])
      (fun hne => absurd h2 hne)
      (by rw [if_neg h1])
    have hsg : (fun j => if j = k then h.seg_list k else h.seg_list j) = h.seg_list := by
      funext j
      by_cases hjk : j = k
      · simp [hjk]
      · simp [hjk]
    rw [hsg] at hl1
    exact ⟨_, _, rfl, ⟨hi.geo, hi.start, hm1, hl1, hspec, hi.free_pa⟩, rfl, rfl, rfl⟩
  · -- inner element
    have e1 : q ≠ 0 := fun e => h1 (hq0.1 e)
    have e2 : n ≠ 0 := fun e => h2 (hn0.1 e)
    rw [if_neg (fun hc => e1 hc.1), if_neg (fun hc => e2 hc.2), if_neg (fun hc => e1 hc.1)]
    obtain ⟨hm1, hl1⟩ := finish ((h.write (q + 8) n).write (n + 16) q).mem
      (h.seg_list k)
      (by intro w hw1 hw2 _ _; simp [hw1, hw2])
      (fun _ => by
        have : q + 8 ≠ n + 16 := by omega
        simp [this])
      (fun _ => by simp)
      (by rw [if_neg h1])
    have hsg : (fun j => if j = k then h.seg_list k else h.seg_list j) = h.seg_list := by
      funext j
      by_cases hjk : j = k
      · simp [hjk]
      · simp [hjk]
    rw [hsg] at hl1
    exact ⟨_, _, rfl, ⟨hi.geo, hi.start, hm1, hl1, hspec, hi.free_pa⟩, rfl, rfl, rfl⟩

end

theorem nodup_length_le {l : List Nat} (hnd : l.Nodup) {lo hi : Nat}
    (hb : ∀ x ∈ l, lo ≤ x ∧ x < hi) : l.length ≤ hi - lo := by
  have h1 : (l.map (· - lo)).Nodup := by
    apply List.Nodup.map_on _ hnd
    intro x hx y hy e
    have := hb x hx
    have := hb y hy
    simp only at e
    omega
  have h2 : l.map (· - lo) ⊆ List.range (hi - lo) := by
    intro z hz
    obtain ⟨x, hx, rfl⟩ := List.mem_map.1 hz
    have := hb x hx
    simp only [List.mem_range]
    omega
  have := (h1.subperm h2).length_le
  simpa using this

theorem remove_small_loop_spec (h : Heap) (x : Nat) (xs2 : List Nat) :
    ∀ (ys pre : List Nat) (fuel b prev : Nat),
      SList h.mem b (ys ++ x :: xs2) →
      h.small_seg_list = (pre ++ ys ++ x :: xs2).headD 0 →
      (pre ++ ys ++ x :: xs2).Nodup →
      (pre ≠ [] → prev = pre.getLast?.getD 0) → ys.length < fuel →
      remove_small_loop h x fuel b prev =
        some (if pre ++ ys = [] then { h with small_seg_list := find_next_free h x }
          else h.write ((pre ++ ys).getLast?.getD 0 + 8) (find_next_free h x))
  | [], pre, 0, _, _, _, _, _, _, hf => by simp at hf
  | [], pre, fuel + 1, b, prev, hs, hh, hnd, hp, _ => by
    have h1 := slist_cons.1 hs
    obtain ⟨rfl, hb0, _⟩ := h1
    unfold remove_small_loop
    rw [if_neg hb0, if_pos rfl]
    cases pre with
    | nil =>
      simp only [List.append_nil, List.nil_append, List.headD_cons] at hh
      rw [if_pos hh.symm]
      simp
    | cons p t =>
      simp only [List.append_nil, List.cons_append, List.headD_cons] at hh
      have hne : b ≠ h.small_seg_list := by
        rw [hh]
        rintro rfl
        simp at hnd
      rw [if_neg hne, hp (by simp)]
      simp
  | y :: ys, pre, 0, _, _, _, _, _, _, hf => by simp at hf
  | y :: ys, pre, fuel + 1, b, prev, hs, hh, hnd, hp, hf => by
    have h1 := slist_cons.1 hs
    obtain ⟨rfl, hb0, h2⟩ := h1
    have hbx : b ≠ x := by
      rintro rfl
      have := (List.nodup_append.1 hnd).1
      have hnd2 := (List.nodup_append.1 hnd).2.2
      exact hnd2 (show b ∈ pre ++ b :: ys by simp) (show b ∈ b :: xs2 by simp)
    unfold remove_small_loop
    rw [if_neg hb0, if_neg hbx]
    have ih := remove_small_loop_spec h x xs2 ys (pre ++ [b]) fuel (find_next_free h b) b h2
      (by simpa using hh) (by simpa using hnd) (fun _ => by simp)
      (by simp at hf; omega)
    rw [ih]
    simp

section

variable {h : Heap} {bs : List Blk} {fl : Nat → List Nat} {sl us ex : List Nat}

theorem Inv.small_length (hi : Inv h bs fl sl us ex) : sl.length ≤ h.fuel := by
  apply nodup_length_le hi.spec.small_nodup
  intro x hx
  obtain ⟨c, hc, h1, _⟩ := hi.small_block hx
  have := hi.geo.lo_le hc
  have := hi.geo.hi_le hc
  omega

theorem Inv.seg_length (hi : Inv h bs fl sl us ex) {k : Nat} (hk : k < 11) :
    (fl k).length ≤ h.fuel := by
  apply nodup_length_le (hi.spec.seg_nodup k hk)
  intro x hx
  obtain ⟨c, hc, h1, _⟩ := hi.seg_block hk hx
  have := hi.geo.lo_le hc
  have := hi.geo.hi_le hc
  omega

/-- The specification of the lists after taking `b` out of the small list. -/
theorem spec_remove_small (hi : Inv h bs fl sl us ex) {b : Blk}
    {xs1 xs2 : List Nat} (hsl : sl = xs1 ++ b.addr :: xs2) :
    SpecOk bs (b.addr :: us) fl (xs1 ++ xs2) := by
  have hnd := hi.spec.small_nodup
  rw [hsl] at hnd
  have hnd' : (xs1 ++ xs2).Nodup ∧ b.addr ∉ xs1 ++ xs2 := by
    have := List.nodup_middle.1 hnd
    exact ⟨(List.nodup_cons.1 this).2, (List.nodup_cons.1 this).1⟩
  have hbin : b.addr ∈ sl := by rw [hsl]; simp
  refine ⟨?_, ?_, hi.spec.seg_nodup, hnd'.1⟩
  · intro j hj x
    rw [hi.spec.seg_mem j hj x]
    constructor
    · rintro ⟨z, hz1, hz2, hz3⟩
      refine ⟨z, (listed_cons hi.geo _ _ _).2 ⟨hz1, ?_⟩, hz2, hz3⟩
      rintro rfl
      exact hi.seg_small_disjoint hj ((hi.spec.seg_mem j hj _).2 ⟨z, hz1, hz2, hz3⟩) hbin
    · rintro ⟨z, hz1, hz2, hz3⟩
      exact ⟨z, ((listed_cons hi.geo _ _ _).1 hz1).1, hz2, hz3⟩
  · intro x
    rw [listed_cons hi.geo, ← hi.spec.small_mem x, hsl]
    constructor
    · intro hx
      refine ⟨by simp at hx ⊢; tauto, ?_⟩
      rintro rfl
      exact hnd'.2 hx
    · rintro ⟨hx, hne⟩
      simp at hx ⊢
      tauto

/-- `remove_freeblock` on a listed free block of 16 bytes. -/
theorem remove_small_spec (hi : Inv h bs fl sl us ex) {b : Blk} (hb : b ∈ bs)
    (hfree : b.alloc = false) (hnus : b.addr ∉ us) (hsm : b.size = 16) :
    ∃ h1 sl1, remove_freeblock h b.addr = some h1 ∧
      Inv h1 bs fl sl1 (b.addr :: us) ex ∧ h1.heap_lo = h.heap_lo ∧
      h1.brk = h.brk ∧ h1.max_addr = h.max_addr := by
  have hsz := hi.get_size hb
  have hb0 := hi.addr_pos hb
  have hin : b.addr ∈ sl := (hi.spec.small_mem _).2 ⟨b, hb, rfl, hsm, hfree, hnus⟩
  obtain ⟨xs1, xs2, hsl⟩ := List.append_of_mem hin
  have hs := hi.lists.small
  rw [hsl] at hs
  have hnd := hi.spec.small_nodup
  rw [hsl] at hnd
  have hnext : find_next_free h b.addr = xs2.headD 0 := slist_next_at hs
  have hlen : xs1.length < h.fuel + 1 := by
    have := hi.small_length
    rw [hsl] at this
    simp at this
    omega
  have hloop := remove_small_loop_spec h b.addr xs2 xs1 [] (h.fuel + 1) h.small_seg_list 0
    hs (by simpa using hs.head_eq) (by simpa using hnd) (fun hne => absurd rfl hne) hlen
  have hspec := spec_remove_small hi hsl
  unfold remove_freeblock
  simp only [hsz, min_block_size]
  rw [if_pos hb0, if_pos (by omega), hloop]
  simp only [List.nil_append, hnext]
  by_cases h1 : xs1 = []
  · rw [if_pos h1]
    refine ⟨_, _, rfl, ⟨hi.geo, hi.start, hi.memok, ⟨hi.lists.seg, ?_⟩, hspec, hi.free_pa⟩,
      rfl, rfl, rfl⟩
    have := @slist_remove _ h.mem _ _ _ _ hs hnd (fun _ _ _ => rfl)
      (fun q hq => by subst h1; simp at hq)
    rw [if_pos h1] at this
    exact this
  · rw [if_neg h1]
    have hqmem : xs1.getLast?.getD 0 ∈ sl := by
      rw [hsl]
      exact List.mem_append_left _ (getLast?_getD_mem h1)
    have hqne : xs1.getLast?.getD 0 ≠ b.addr := by
      intro e
      have := getLast?_getD_mem h1
      rw [e] at this
      exact (List.disjoint_of_nodup_append hnd) this (by simp)
    generalize hq : xs1.getLast?.getD 0 = q at *
    have hqf := hi.small_facts hqmem
    refine ⟨_, _, rfl, ⟨hi.geo, hi.start, ?_, ⟨?_, ?_⟩, hspec, hi.free_pa⟩, rfl, rfl, rfl⟩
    · apply hi.memok.frame2
      intro w hns
      have : w ≠ q + 8 := by
        rintro rfl
        obtain ⟨c, hc, c1, c2, _⟩ := hi.small_block hqmem
        rw [← c1] at hns
        exact hns (hi.geo.ptrSafe_next hc c2)
      simp [this]
    · intro k hk
      apply (hi.lists.seg k hk).frame_dlist
      · intro y hy
        have hyq : y ≠ q := by
          rintro rfl; exact hi.seg_small_disjoint hk hy hqmem
        have : y + 8 ≠ q + 8 := by omega
        simp [this]
      · intro y hy
        have := (hi.seg_facts hk hy).1
        have : y + 16 ≠ q + 8 := by omega
        simp [this]
    · have := @slist_remove _ (h.write (q + 8) (xs2.headD 0)).mem _ _ _ _ hs hnd
        (fun y hy hyq => by
          rw [hq] at hyq
          have : y + 8 ≠ q + 8 := by omega
          simp [this])
        (fun q' hq' => by
          have e : xs1.getLast? = some q' := hq'
          rw [e] at hq
          simp at hq
          subst hq
          simp)
      rw [if_neg h1] at this
      exact this

/-- `remove_freeblock` on a listed free block. -/
theorem remove_spec (hi : Inv h bs fl sl us ex) {b : Blk} (hb : b ∈ bs)
    (hfree : b.alloc = false) (hnus : b.addr ∉ us) :
    ∃ h1 fl1 sl1, remove_freeblock h b.addr = some h1 ∧
      Inv h1 bs fl1 sl1 (b.addr :: us) ex ∧ h1.heap_lo = h.heap_lo ∧
      h1.brk = h.brk ∧ h1.max_addr = h.max_addr := by
  have hreal := hi.geo.free_real hb hfree
  by_cases hsm : b.size = 16
  · obtain ⟨h1, sl1, e1, e2, e3⟩ := remove_small_spec hi hb hfree hnus hsm
    exact ⟨h1, fl, sl1, e1, e2, e3⟩
  · obtain ⟨h1, fl1, e1, e2, e3⟩ := remove_seg_spec hi hb hfree hnus (by omega)
    exact ⟨h1, fl1, sl, e1, e2, e3⟩

end

/-! ## Replacing a segment of the block list -/

theorem listed_append (X Y : List Blk) (us : List Nat) (x z : Nat) :
    Listed (X ++ Y) us x z ↔ Listed X us x z ∨ Listed Y us x z := by
  unfold Listed
  constructor
  · rintro ⟨c, hc, h1⟩
    rcases List.mem_append.1 hc with hc | hc
    · exact Or.inl ⟨c, hc, h1⟩
    · exact Or.inr ⟨c, hc, h1⟩
  · rintro (⟨c, hc, h1⟩ | ⟨c, hc, h1⟩)
    · exact ⟨c, List.mem_append_left _ hc, h1⟩
    · exact ⟨c, List.mem_append_right _ hc, h1⟩

theorem listed_congr_us {X : List Blk} {us us1 : List Nat}
    (h : ∀ c ∈ X, (c.addr ∈ us1 ↔ c.addr ∈ us)) (x z : Nat) :
    Listed X us1 x z ↔ Listed X us x z := by
  unfold Listed
  constructor
  · rintro ⟨c, hc, h1, h2, h3, h4⟩
    exact ⟨c, hc, h1, h2, h3, fun hx => h4 (by rw [← h1] at hx ⊢; exact (h c hc).2 hx)⟩
  · rintro ⟨c, hc, h1, h2, h3, h4⟩
    exact ⟨c, hc, h1, h2, h3, fun hx => h4 (by rw [← h1] at hx ⊢; exact (h c hc).1 hx)⟩

theorem SpecOk.congr {bs bs1 : List Blk} {us us1 : List Nat} {fl : Nat → List Nat}
    {sl : List Nat} (hs : SpecOk bs us fl sl)
    (h : ∀ x z, Listed bs1 us1 x z ↔ Listed bs us x z) : SpecOk bs1 us1 fl sl :=
  ⟨fun k hk x => by simp only [h]; exact hs.seg_mem k hk x,
   fun x => by rw [h]; exact hs.small_mem x, hs.seg_nodup, hs.small_nodup⟩

theorem chain_surgery {P M M1 B : List Blk} (h : List.Chain' Adj (P ++ M ++ B))
    (hM : M ≠ []) (hM1 : M1 ≠ []) (hch : List.Chain' Adj M1)
    (hl : ∀ x y y1, y ∈ M.head? → y1 ∈ M1.head? → Adj x y → Adj x y1)
    (hr : ∀ x x1 y, x ∈ M.getLast? → x1 ∈ M1.getLast? → Adj x y → Adj x1 y) :
    List.Chain' Adj (P ++ M1 ++ B) := by
  rw [List.chain'_append] at h
  obtain ⟨h1, h2, h3⟩ := h
  rw [List.chain'_append] at h1
  obtain ⟨h4, h5, h6⟩ := h1
  obtain ⟨m, mt, rfl⟩ := List.exists_cons_of_ne_nil hM
  obtain ⟨m1, mt1, rfl⟩ := List.exists_cons_of_ne_nil hM1
  rw [List.chain'_append]
  refine ⟨?_, h2, ?_⟩
  · rw [List.chain'_append]
    refine ⟨h4, hch, ?_⟩
    intro x hx y1 hy1
    exact hl x m y1 (by simp) hy1 (h6 x hx m (by simp))
  · intro x1 hx1 y hy
    rw [List.getLast?_append] at hx1 h3
    have e1 : ∃ q, (m1 :: mt1).getLast? = some q := by
      cases hq : (m1 :: mt1).getLast? with
      | none => simp at hq
      | some q => exact ⟨q, rfl⟩
    have e2 : ∃ q, (m :: mt).getLast? = some q := by
      cases hq : (m :: mt).getLast? with
      | none => simp at hq
      | some q => exact ⟨q, rfl⟩
    obtain ⟨q1, hq1⟩ := e1
    obtain ⟨q, hq⟩ := e2
    rw [hq1] at hx1
    rw [hq] at h3
    have hx2 : some q1 = some x1 := hx1
    have h7 : Adj q y := h3 q (show some q = some q from rfl) y hy
    have hx3 : q1 = x1 := Option.some.inj hx2
    rw [hx3] at hq1
    exact hr q x1 y hq hq1 h7

theorem Adj.left_same {x y y1 : Blk} (h : Adj x y) (h1 : y1.addr = y.addr)
    (h2 : y1.pa = y.pa) (h3 : y1.ps = y.ps) : Adj x y1 := by
  unfold Adj at h ⊢
  rw [h1, h2, h3]
  exact h

theorem Adj.left_set {x y y1 : Blk} (h : Adj x y) (h1 : y1.addr = y.addr)
    (h2 : y1.pa = true) (h3 : y1.ps = false) : Adj x y1 := by
  unfold Adj at h ⊢
  rw [h1, h2, h3]
  simp [h.1, h.2.1]

theorem Adj.right_same {x x1 y : Blk} (h : Adj x y) (h1 : x1.addr = x.addr)
    (h2 : x1.size = x.size) (h3 : x1.alloc = x.alloc) : Adj x1 y := by
  unfold Adj at h ⊢
  rw [h1, h2, h3]
  exact h

theorem Keeps.refl_keeps (X : List Nat) (bs : List Blk) : Keeps X bs bs :=
  fun c hc ha _ _ => ⟨c, hc, rfl, rfl, ha⟩

theorem Keeps.trans_keeps {X : List Nat} {bs bs1 bs2 : List Blk} (h1 : Keeps X bs bs1)
    (h2 : Keeps [] bs1 bs2) : Keeps X bs bs2 := by
  intro c hc ha hz hx
  obtain ⟨c1, hc1, e1, e2, e3⟩ := h1 c hc ha hz hx
  obtain ⟨c2, hc2, f1, f2, f3⟩ := h2 c1 hc1 e3 (by rw [e2]; exact hz) (by simp)
  exact ⟨c2, hc2, by rw [f1, e1], by rw [f2, e2], f3⟩

theorem keeps_surgery {X : List Nat} {A M M1 B : List Blk} (h : Keeps X M M1) :
    Keeps X (A ++ M ++ B) (A ++ M1 ++ B) := by
  intro c hc ha hz hx
  simp only [List.mem_append] at hc
  rcases hc with (hc | hc) | hc
  · exact ⟨c, by simp [hc], rfl, rfl, ha⟩
  · obtain ⟨c1, hc1, e⟩ := h c hc ha hz hx
    exact ⟨c1, by simp [hc1], e⟩
  · exact ⟨c, by simp [hc], rfl, rfl, ha⟩

section

variable {h : Heap} {bs : List Blk} {fl : Nat → List Nat} {sl us ex : List Nat}

theorem Geo.split_facts {lo brk mx : Nat} {A M B : List Blk}
    (hg : Geo lo brk mx (A ++ M ++ B)) :
    (∀ c ∈ A, ∀ x ∈ M, Below c x) ∧ (∀ x ∈ M, ∀ c ∈ B, Below x c) := by
  have hp := (List.pairwise_cons.1 hg.pairwise).2
  rw [List.pairwise_append] at hp
  obtain ⟨h1, _, h3⟩ := hp
  rw [List.pairwise_append] at h1
  refine ⟨h1.2.2, ?_⟩
  intro x hx c hc
  exact h3 x (List.mem_append_right _ hx) c hc

theorem Inv.change_ex (hi : Inv h bs fl sl us ex) {ex1 : List Nat}
    (hpa : ∀ c ∈ bs, c.alloc = false → c.addr ∉ ex1 → c.pa = true) :
    Inv h bs fl sl us ex1 :=
  ⟨hi.geo, hi.start, hi.memok, hi.lists, hi.spec, hpa⟩

/-- Replace the segment `M` of the block list by `M1`, the memory outside `[a0, a1)`
being unchanged. -/
theorem Inv.surgery (hi : Inv h bs fl sl us ex) {h1 : Heap} {A M M1 B : List Blk}
    {us1 ex1 : List Nat} {p q : Nat}
    (hbs : bs = A ++ M ++ B) (hM : M ≠ []) (hM1 : M1 ≠ [])
    (hlo : h1.heap_lo = h.heap_lo) (hmax : h1.max_addr = h.max_addr)
    (hst : h1.heap_start = h.heap_start) (hseg : h1.seg_list = h.seg_list)
    (hsm : h1.small_seg_list = h.small_seg_list) (hbrk : h1.brk ≤ h1.max_addr)
    (hch : List.Chain' Adj M1)
    (hl : ∀ x y y1, y ∈ M.head? → y1 ∈ M1.head? → Adj x y → Adj x y1)
    (hr : ∀ x x1 y, x ∈ M.getLast? → x1 ∈ M1.getLast? → Adj x y → Adj x1 y)
    (hsz1 : ∀ c ∈ M1, c.size % 16 = 0 ∧ (c.size = 0 → c.alloc = true ∧ c.addr + 8 = h1.brk) ∧
      (c.size ≠ 0 → 16 ≤ c.size))
    (hbrk2 : h1.brk = h.brk ∨ B = [])
    (hepi : (∃ e ∈ M, e.size = 0) → ∃ e ∈ M1, e.size = 0)
    (ha0 : ∀ c, (∀ x ∈ M, Below c x) → c.addr + c.size ≤ p)
    (ha1 : ∀ c ∈ B, (∀ x ∈ M, Below x c) → q ≤ c.addr)
    (hfr : ∀ w, w < p ∨ q ≤ w → h1.mem w = h.mem w)
    (hm1 : MemOk h1.mem M1)
    (hL : ∀ x z, Listed M1 us1 x z ↔ Listed M us x z)
    (hus : ∀ c : Blk, (∀ x ∈ M, x.addr ≠ c.addr) →
      ((∀ x ∈ M, Below c x) ∨ (∀ x ∈ M, Below x c)) → (c.addr ∈ us1 ↔ c.addr ∈ us))
    (hptr : ∀ x z, Listed M us x z →
      h1.mem (x + 8) = h.mem (x + 8) ∧ (16 < z → h1.mem (x + 16) = h.mem (x + 16)))
    (hex : ∀ a, (∀ x ∈ M, x.addr ≠ a) → a ∉ ex1 → a ∉ ex)
    (hpa1 : ∀ c ∈ M1, c.alloc = false → c.addr ∉ ex1 → c.pa = true) :
    Inv h1 (A ++ M1 ++ B) fl sl us1 ex1 := by
  subst hbs
  have hg := hi.geo
  obtain ⟨hAM, hMB⟩ := hg.split_facts
  obtain ⟨m0, hm0⟩ := List.exists_mem_of_ne_nil M hM
  have hm0bs : m0 ∈ A ++ M ++ B := by simp [hm0]
  -- blocks of `A` are real and lie below `p`
  have hA : ∀ c ∈ A, 16 ≤ c.size ∧ c.addr + c.size ≤ p := by
    intro c hc
    have hcb : c ∈ A ++ M ++ B := by simp [hc]
    have h1 := hg.sizes c hcb
    have h2 := hAM c hc m0 hm0
    have h3 := hg.hi_le hm0bs
    have h4 := ha0 c (fun x hx => hAM c hc x hx)
    unfold Below at h2
    refine ⟨?_, h4⟩
    by_cases hz : c.size = 0
    · have := (h1.2.1 hz).2
      omega
    · exact h1.2.2 hz
  have hB : ∀ c ∈ B, q ≤ c.addr := fun c hc => ha1 c hc (fun x hx => hMB x hx c hc)
  have hne : ∀ c ∈ A ++ B, ∀ x ∈ M, x.addr ≠ c.addr := by
    intro c hc x hx
    rcases List.mem_append.1 hc with hc | hc
    · have := hAM c hc x hx
      unfold Below at this
      omega
    · have := hMB x hx c hc
      unfold Below at this
      omega
  have hlisted : ∀ x z, Listed (A ++ M1 ++ B) us1 x z ↔ Listed (A ++ M ++ B) us x z := by
    intro x z
    rw [listed_append, listed_append, listed_append, listed_append, hL,
      @listed_congr_us A us us1
        (fun c hc => hus c (hne c (by simp [hc])) (Or.inl (fun x hx => hAM c hc x hx))),
      @listed_congr_us B us us1
        (fun c hc => hus c (hne c (by simp [hc])) (Or.inr (fun x hx => hMB x hx c hc)))]
  have hptr2 : ∀ x z, Listed (A ++ M ++ B) us x z →
      h1.mem (x + 8) = h.mem (x + 8) ∧ (16 < z → h1.mem (x + 16) = h.mem (x + 16)) := by
    intro x z hl
    rw [listed_append, listed_append] at hl
    rcases hl with (⟨c, hc, e1, e2, e3, e4⟩ | hl) | ⟨c, hc, e1, e2, e3, e4⟩
    · have := hA c hc
      exact ⟨hfr _ (by omega), fun hz => hfr _ (by omega)⟩
    · exact hptr x z hl
    · have := hB c hc
      exact ⟨hfr _ (by omega), fun hz => hfr _ (by omega)⟩
  refine ⟨⟨?_, ?_, ?_, hbrk, ?_, ?_, ?_⟩, ?_, ?_, ?_, hi.spec.congr hlisted, ?_⟩
  · rw [hlo]; exact hg.lo_align
  · rw [hlo]; exact hg.lo_pos
  · rw [hmax]; exact hg.max_le
  · rw [hlo]
    have := hg.chain
    rw [← List.cons_append, ← List.cons_append] at this ⊢
    exact chain_surgery this hM hM1 hch hl hr
  · intro c hc
    simp only [List.mem_append] at hc
    rcases hc with (hc | hc) | hc
    · have h1 := hg.sizes c (by simp [hc])
      have := (hA c hc).1
      exact ⟨h1.1, fun hz => by omega, fun _ => this⟩
    · exact hsz1 c hc
    · have h1 := hg.sizes c (by simp [hc])
      refine ⟨h1.1, fun hz => ⟨(h1.2.1 hz).1, ?_⟩, h1.2.2⟩
      rcases hbrk2 with e | e
      · rw [e]; exact (h1.2.1 hz).2
      · subst e; simp at hc
  · obtain ⟨e, he, hez⟩ := hg.epi
    simp only [List.mem_append] at he
    rcases he with (he | he) | he
    · have := (hA e he).1
      omega
    · obtain ⟨e1, he1, hz1⟩ := hepi ⟨e, he, hez⟩
      exact ⟨e1, by simp [he1], hz1⟩
    · exact ⟨e, by simp [he], hez⟩
  · rw [hst, hlo]; exact hi.start
  · constructor
    · intro c hc
      simp only [List.mem_append] at hc
      rcases hc with (hc | hc) | hc
      · have := hA c hc
        rw [hfr _ (by omega)]
        exact hi.memok.hdrs c (by simp [hc])
      · exact hm1.hdrs c hc
      · have := hB c hc
        rw [hfr _ (by omega)]
        exact hi.memok.hdrs c (by simp [hc])
    · intro c hc hf hs
      simp only [List.mem_append] at hc
      rcases hc with (hc | hc) | hc
      · have := hA c hc
        rw [hfr _ (by omega)]
        exact hi.memok.footers c (by simp [hc]) hf hs
      · exact hm1.footers c hc hf hs
      · have := hB c hc
        rw [hfr _ (by omega)]
        exact hi.memok.footers c (by simp [hc]) hf hs
  · rw [hseg, hsm]
    apply hi.lists.frame_lists
    · intro k hk y hy
      obtain ⟨z, hz1, hz2, _⟩ := (hi.spec.seg_mem k hk y).1 hy
      have := hptr2 y z hz1
      exact ⟨this.1, this.2 hz2⟩
    · intro y hy
      exact (hptr2 y 16 ((hi.spec.small_mem y).1 hy)).1
  · intro c hc hf hx
    simp only [List.mem_append] at hc
    rcases hc with (hc | hc) | hc
    · exact hi.free_pa c (by simp [hc]) hf
        (hex c.addr (hne c (by simp [hc])) hx)
    · exact hpa1 c hc hf hx
    · exact hi.free_pa c (by simp [hc]) hf
        (hex c.addr (hne c (by simp [hc])) hx)

end

/-! ## Header words -/

theorem flags_or_pa {z : Nat} (hz : z % 16 = 0) (al pa ps : Bool) :
    (z + flags al pa ps) ||| 2 = z + flags al true ps := by
  rw [lor_flags hz (flags_lt _ _ _) (by norm_num)]
  cases al <;> cases pa <;> cases ps <;> rfl

theorem flags_or_ps {z : Nat} (hz : z % 16 = 0) (al pa ps : Bool) :
    (z + flags al pa ps) ||| 4 = z + flags al pa true := by
  rw [lor_flags hz (flags_lt _ _ _) (by norm_num)]
  cases al <;> cases pa <;> cases ps <;> rfl

theorem flags_clear_pa {z : Nat} (hz : z % 16 = 0) (hlt : z < 2 ^ 64) (al pa ps : Bool) :
    (z + flags al pa ps) &&& not64 prev_alloc_mask = z + flags al false ps := by
  unfold prev_alloc_mask
  rw [land_not_flags hz hlt (flags_lt _ _ _) (by norm_num)]
  cases al <;> cases pa <;> cases ps <;> rfl

theorem flags_clear_ps {z : Nat} (hz : z % 16 = 0) (hlt : z < 2 ^ 64) (al pa ps : Bool) :
    (z + flags al pa ps) &&& not64 prev_sseg_mask = z + flags al pa false := by
  unfold prev_sseg_mask
  rw [land_not_flags hz hlt (flags_lt _ _ _) (by norm_num)]
  cases al <;> cases pa <;> cases ps <;> rfl

theorem or_pa_mask {z : Nat} (hz : z % 16 = 0) :
    z ||| prev_alloc_mask = z + flags false true false := by
  have := lor_flags (f := 0) (g := 2) hz (by norm_num) (by norm_num)
  simpa [prev_alloc_mask, flags] using this

theorem or_pa {z : Nat} (hz : z % 16 = 0) (pa : Bool) :
    z ||| (if pa then 2 else 0) = z + flags false pa false := by
  have := lor_flags (f := 0) (g := if pa then 2 else 0) hz (by norm_num)
    (by cases pa <;> norm_num)
  cases pa <;> simp [flags] at this ⊢ <;> exact this

theorem or_ps_pa {z : Nat} (hz : z % 16 = 0) (pa : Bool) :
    (z ||| prev_sseg_mask) ||| (if pa then 2 else 0) = z + flags false pa true := by
  have h1 : z ||| prev_sseg_mask = z + 4 := by
    have := lor_flags (f := 0) (g := 4) hz (by norm_num) (by norm_num)
    simpa [prev_sseg_mask] using this
  rw [h1, lor_flags hz (by norm_num) (by cases pa <;> norm_num)]
  cases pa <;> rfl

/-- Memory after `write_header(block, z | flags, true)` for a size `z ≥ 16`. -/
theorem write_header_alloc_mem (h : Heap) {a z : Nat} (hz : z % 16 = 0) (hlt : z < 2 ^ 64)
    (hz16 : 16 ≤ z) (pa ps : Bool) (x : Nat) :
    (write_header h a (z + flags false pa ps) true).mem x =
      if x = a + z then (if z = 16 then h.mem (a + 16) ||| 4 else h.mem (a + z)) ||| 2
      else if x = a then z + flags true pa ps
      else h.mem x := by
  have e := extract_size_add hz hlt (flags_lt false pa ps)
  have e1 := extract_size_add hz hlt (flags_lt true pa ps)
  have hp := pack_flags hz true pa ps
  unfold extract_size at e
  unfold write_header
  simp only [e, hp, min_block_size, dsize, prev_sseg_mask, prev_alloc_mask, if_true]
  by_cases h16 : z = 16
  · subst h16
    have hfn : ∀ g : Heap, find_next (g.write a (16 + flags true pa ps)) a = a + 16 := by
      intro g
      unfold find_next get_size
      simp only [write_mem, if_true, e1]
    simp only [le_refl, if_true, hfn, write_mem]
    by_cases hx : x = a + 16
    · subst hx
      have : a + 16 ≠ a := by omega
      simp [this]
    · simp [hx]
  · have hle : ¬ z ≤ 16 := by omega
    have hfn : find_next (h.write a (z + flags true pa ps)) a = a + z := by
      unfold find_next get_size
      simp only [write_mem, if_true, e1]
    simp only [hle, if_false, hfn, write_mem, h16]
    by_cases hx : x = a + z
    · subst hx
      have : a + z ≠ a := by omega
      simp [this]
    · simp [hx]

/-- Memory after `write_header(block, 0, true)`. -/
theorem write_header_epi_mem (h : Heap) (a x : Nat) :
    (write_header h a 0 true).mem x =
      if x = a then 3 else if x = a + 16 then h.mem (a + 16) ||| 4 else h.mem x := by
  have hfn : ∀ g : Heap, find_next (g.write a 1) a = a := by
    intro g
    unfold find_next get_size
    simp only [write_mem, if_true]
    have : extract_size 1 = 0 := by decide
    rw [this, Nat.add_zero]
  have hp : pack 0 true = 1 := by decide
  have h0 : (0 &&& size_mask) ≤ min_block_size := by decide
  unfold write_header
  simp only [h0, if_true, hp, hfn, write_mem, dsize, prev_sseg_mask, prev_alloc_mask]
  by_cases hx : x = a
  · subst hx
    simp
  · simp [hx]

section

variable {h : Heap} {bs : List Blk} {fl : Nat → List Nat} {sl us ex : List Nat}

theorem Inv.get_pa (hi : Inv h bs fl sl us ex) {b : Blk} (hb : b ∈ bs) :
    get_prev_alloc h b.addr = if b.pa then 2 else 0 := hi.memok.pa hi.geo hb

theorem Inv.get_ps (hi : Inv h bs fl sl us ex) {b : Blk} (hb : b ∈ bs) :
    get_prev_sseg h b.addr = if b.ps then 4 else 0 := hi.memok.ps hi.geo hb

theorem Inv.get_alloc (hi : Inv h bs fl sl us ex) {b : Blk} (hb : b ∈ bs) :
    get_alloc h b.addr = b.alloc := hi.memok.alloc hi.geo hb

theorem Inv.find_next (hi : Inv h bs fl sl us ex) {b : Blk} (hb : b ∈ bs) :
    find_next h b.addr = b.addr + b.size := by
  unfold Mm.find_next
  rw [hi.get_size hb]

theorem Geo.adj_of_split {lo brk mx : Nat} {A B : List Blk} {b n : Blk}
    (hg : Geo lo brk mx (A ++ b :: n :: B)) : Adj b n := by
  have := hg.chain
  rw [← List.cons_append, List.chain'_append] at this
  exact (List.chain'_cons.1 this.2.1).1

/-- A block whose `prev_alloc` bit is clear has a free predecessor in the list. -/
theorem Geo.pred_of_pa {lo brk mx : Nat} (hg : Geo lo brk mx bs) {b : Blk} (hb : b ∈ bs)
    (hpa : b.pa = false) : ∃ A p B, bs = A ++ p :: b :: B ∧ Adj p b := by
  obtain ⟨A, B, rfl⟩ := List.append_of_mem hb
  rcases List.eq_nil_or_concat A with rfl | ⟨A1, p, rfl⟩
  · exfalso
    have := hg.chain
    simp only [List.nil_append] at this
    have h1 := (List.chain'_cons.1 this).1
    have := h1.2.2.1 hpa
    simp [prologue] at this
  · refine ⟨A1, p, B, by simp, ?_⟩
    have : Geo lo brk mx (A1 ++ p :: b :: B) := by simpa using hg
    exact this.adj_of_split

end

section

variable {h : Heap} {bs : List Blk} {fl : Nat → List Nat} {sl us ex : List Nat}

/-- The first half of `free`: the block is marked free and the `prev_alloc` bit of its
successor is cleared. -/
theorem free_mark_spec (hi : Inv h bs fl sl us ex) {b : Blk} (hb : b ∈ bs)
    (hal : b.alloc = true) (hz : b.size ≠ 0) {h1 h2 : Heap} {w : Nat}
    (hw : w = b.size + flags false b.pa b.ps)
    (hh1 : h1 = write_footer (write_header h b.addr w false) b.addr w false)
    (hh2 : h2 = h1.write (find_next h1 b.addr)
      (h1.mem (find_next h1 b.addr) &&& not64 prev_alloc_mask)) :
    ∃ bs1 b1, Inv h2 bs1 fl sl (b.addr :: us) (b.addr :: (b.addr + b.size) :: ex) ∧
      b1 ∈ bs1 ∧ b1.addr = b.addr ∧ b1.size = b.size ∧ b1.alloc = false ∧
      Keeps [b.addr] bs bs1 ∧ h2.heap_lo = h.heap_lo ∧ h2.brk = h.brk ∧
      h2.max_addr = h.max_addr := by
  have hg := hi.geo
  obtain ⟨A, n, B, hbs⟩ := hg.split_at hb hz
  have hadj : Adj b n := by rw [hbs] at hg; exact hg.adj_of_split
  have hn : n ∈ bs := by rw [hbs]; simp
  have hsb := hg.sizes b hb
  have hsn := hg.sizes n hn
  have hb16 : 16 ≤ b.size := hsb.2.2 hz
  have hblt := hg.size_lt hb
  have hnlt := hg.size_lt hn
  have hna : n.addr = b.addr + b.size := hadj.1
  have hfl := flags_lt false b.pa b.ps
  -- memory after the header and footer of the block
  have hm1 : ∀ x, h1.mem x =
      if x = b.addr + b.size - 8 ∧ 16 < w then w
      else if x = b.addr then w
      else if x = b.addr + 16 ∧ b.size ≤ 16 then h.mem (b.addr + 16) ||| 4
      else h.mem x := by
    intro x
    rw [hh1, hw]
    exact mark_free_mem h hsb.1 hblt hb16 hfl x
  have hfn : find_next h1 b.addr = n.addr := by
    unfold find_next get_size
    rw [hm1, if_neg (by omega), if_pos rfl, hw, extract_size_add hsb.1 hblt hfl, hna]
  have hnh : h.mem n.addr = n.size + flags n.alloc n.pa n.ps := hi.memok.hdrs n hn
  have hm1n : h1.mem n.addr =
      n.size + flags n.alloc n.pa (if b.size ≤ 16 then true else n.ps) := by
    rw [hm1, if_neg (by omega), if_neg (by omega)]
    by_cases h16 : b.size ≤ 16
    · have e : n.addr = b.addr + 16 := by omega
      rw [if_pos ⟨e, h16⟩, ← e, hnh, flags_or_ps hsn.1, if_pos h16]
    · rw [if_neg (by tauto), hnh, if_neg h16]
  have hm2 : ∀ x, h2.mem x =
      if x = n.addr then n.size + flags n.alloc false (if b.size ≤ 16 then true else n.ps)
      else if x = b.addr + b.size - 8 ∧ 16 < w then w
      else if x = b.addr then w
      else h.mem x := by
    intro x
    rw [hh2, hfn, write_mem, hm1n, flags_clear_pa hsn.1 hnlt]
    by_cases hx : x = n.addr
    · rw [if_pos hx, if_pos hx]
    · rw [if_neg hx, if_neg hx, hm1]
      have : ¬ (x = b.addr + 16 ∧ b.size ≤ 16) := by omega
      rw [if_neg this]
  have hsg : SameGlobals h h2 := by
    rw [hh2, hh1]
    exact ((sameGlobals_write_header _ _ _ _).trans (sameGlobals_write_footer _ _ _ _)).trans
      (sameGlobals_write _ _ _)
  obtain ⟨g1, g2, g3, g4, g5, g6⟩ := hsg
  let b1 : Blk := ⟨b.addr, b.size, false, b.pa, b.ps⟩
  let n1 : Blk := ⟨n.addr, n.size, n.alloc, false, if b.size ≤ 16 then true else n.ps⟩
  have hbs2 : bs = A ++ [b, n] ++ B := by rw [hbs]; simp
  refine ⟨A ++ [b1, n1] ++ B, b1, ?_, by simp, rfl, rfl, rfl, ?_, g1, g2, g3⟩
  · apply hi.surgery (p := b.addr) (q := n.addr + 1) hbs2 (by simp) (by simp) g1 g3 g4 g5 g6
    · rw [g2, g3]; exact hg.brk_le
    · -- chain
      simp only [List.chain'_cons, List.chain'_singleton, and_true]
      refine ⟨hna, show 0 < b.size by omega, fun _ => rfl, fun _ h16 => ?_, fun hps => ?_⟩
      · have h16b : b.size = 16 := h16
        show (if b.size ≤ 16 then true else n.ps) = true
        rw [if_pos (by omega)]
      · have hps2 : (if b.size ≤ 16 then true else n.ps) = true := hps
        show b.size = 16
        by_cases h16 : b.size ≤ 16
        · omega
        · rw [if_neg h16] at hps2
          exact hadj.2.2.2.2 hps2
    · intro x y y1 hy hy1 ha
      simp only [List.head?_cons, Option.mem_def, Option.some.injEq] at hy hy1
      subst hy hy1
      exact ha.left_same rfl rfl rfl
    · intro x x1 y hx hx1 ha
      simp only [List.getLast?_cons_cons, List.getLast?_singleton, Option.mem_def,
        Option.some.injEq] at hx hx1
      subst hx hx1
      exact ha.right_same rfl rfl rfl
    · intro c hc
      simp only [List.mem_cons, List.mem_singleton, List.not_mem_nil, or_false] at hc
      rcases hc with rfl | rfl
      · exact ⟨hsb.1, fun e => absurd e hz, fun _ => hb16⟩
      · rw [g2]; exact hsn
    · exact Or.inl g2
    · rintro ⟨e, he, hez⟩
      simp only [List.mem_cons, List.mem_singleton, List.not_mem_nil, or_false] at he
      rcases he with rfl | rfl
      · exact absurd hez hz
      · exact ⟨n1, by simp, hez⟩
    · intro c hc
      have := hc b (by simp)
      exact this.1
    · intro c _ hc
      have := hc n (by simp)
      unfold Below at this
      omega
    · intro x hx
      rw [hm2, if_neg (by omega), if_neg (by omega), if_neg (by omega)]
    · constructor
      · intro c hc
        simp only [List.mem_cons, List.mem_singleton, List.not_mem_nil, or_false] at hc
        rcases hc with rfl | rfl
        · show h2.mem b.addr = _
          rw [hm2, if_neg (by omega), if_neg (by omega), if_pos rfl, hw]
          rfl
        · show h2.mem n.addr = _
          rw [hm2, if_pos rfl]
          rfl
      · intro c hc hf hs
        simp only [List.mem_cons, List.mem_singleton, List.not_mem_nil, or_false] at hc
        rcases hc with rfl | rfl
        · show extract_size (h2.mem (b.addr + b.size - 8)) = b.size
          have hs2 : 16 < b.size := hs
          rw [hm2, if_neg (by omega), if_pos ⟨rfl, by omega⟩, hw]
          exact extract_size_add hsb.1 hblt hfl
        · show extract_size (h2.mem (n.addr + n.size - 8)) = n.size
          have hs2 : 16 < n.size := hs
          have hf2 : n.alloc = false := hf
          rw [hm2, if_neg (by omega), if_neg (by omega), if_neg (by omega)]
          exact hi.memok.footers n hn hf2 hs2
    · intro x z
      unfold Listed
      simp only [List.mem_cons, List.mem_singleton, List.not_mem_nil, or_false, exists_eq_or_imp,
        exists_eq_left]
      constructor
      · rintro (⟨e1, _, _, e4⟩ | ⟨e1, e2, e3, e4⟩)
        · exact absurd (Or.inl e1.symm) e4
        · right
          exact ⟨e1, e2, e3, fun hx => e4 (Or.inr hx)⟩
      · rintro (⟨_, _, e3, _⟩ | ⟨e1, e2, e3, e4⟩)
        · rw [hal] at e3; cases e3
        · right
          refine ⟨e1, e2, e3, ?_⟩
          rintro (hx | hx)
          · have : x = n.addr := e1.symm
            omega
          · exact e4 hx
    · intro c ha _
      have := ha b (by simp)
      simp only [List.mem_cons]
      constructor
      · rintro (e | e)
        · exact absurd e.symm this
        · exact e
      · exact fun e => Or.inr e
    · rintro x z ⟨c, hc, e1, e2, e3, e4⟩
      simp only [List.mem_cons, List.mem_singleton, List.not_mem_nil, or_false] at hc
      rcases hc with rfl | rfl
      · rw [hal] at e3; cases e3
      · have := hg.free_real hn e3
        subst e1
        rw [hm2, hm2]
        constructor
        · rw [if_neg (by omega), if_neg (by omega), if_neg (by omega)]
        · intro _
          rw [if_neg (by omega), if_neg (by omega), if_neg (by omega)]
    · intro a _ ha hx
      exact ha (List.mem_cons_of_mem _ (List.mem_cons_of_mem _ hx))
    · intro c hc _ hx
      exfalso
      simp only [List.mem_cons, List.mem_singleton, List.not_mem_nil, or_false] at hc
      rcases hc with rfl | rfl
      · exact hx (by simp)
      · apply hx
        simp [hna]
  · rw [hbs2]
    apply keeps_surgery
    intro c hc ha hcz hx
    simp only [List.mem_cons, List.mem_singleton, List.not_mem_nil, or_false] at hc
    rcases hc with rfl | rfl
    · simp at hx
    · exact ⟨n1, by simp, rfl, rfl, ha⟩

end

section

variable {h : Heap} {bs : List Blk} {fl : Nat → List Nat} {sl us ex : List Nat}

set_option maxHeartbeats 1000000 in
/-- The header writes of `coalesce`: the free blocks `x :: F ++ [l]`, all in no list,
become one free block, and the `prev_sseg` bit of their successor `s` is cleared. -/
theorem merge_spec (hi : Inv h bs fl sl us ex) {A F B : List Blk} {x l s : Blk}
    (hbs : bs = A ++ (x :: (F ++ [l, s])) ++ B)
    (hfree : ∀ c ∈ x :: (F ++ [l]), c.alloc = false ∧ c.addr ∈ us)
    {U : List Nat} (hus1 : x.addr ∈ U)
    (hus : ∀ a, (∀ c ∈ x :: (F ++ [l, s]), c.addr ≠ a) → (a ∈ U ↔ a ∈ us))
    (hsus : s.addr ∈ U ↔ s.addr ∈ us)
    (hex : ∀ a, (∀ c ∈ x :: (F ++ [l, s]), c.addr ≠ a) → a ∉ ex)
    (hspa : s.alloc = false → s.pa = true)
    {h2 h3 : Heap} {w : Nat} (hw : w = (s.addr - x.addr) + flags false true false)
    (hh2 : h2 = write_footer (write_header h x.addr w false) x.addr w false)
    (hh3 : h3 = if get_size h2 l.addr = min_block_size then
        h2.write s.addr (h2.mem s.addr &&& not64 prev_sseg_mask) else h2) :
    Inv h3 (A ++ [⟨x.addr, s.addr - x.addr, false, true, false⟩,
        ⟨s.addr, s.size, s.alloc, s.pa, false⟩] ++ B) fl sl U [] ∧
      Keeps [] bs (A ++ [⟨x.addr, s.addr - x.addr, false, true, false⟩,
        ⟨s.addr, s.size, s.alloc, s.pa, false⟩] ++ B) ∧
      h3.heap_lo = h.heap_lo ∧ h3.brk = h.brk ∧ h3.max_addr = h.max_addr ∧
      get_size h2 l.addr = l.size := by
  have hg := hi.geo
  have hxm : x ∈ bs := by rw [hbs]; simp
  have hlm : l ∈ bs := by rw [hbs]; simp
  have hsm : s ∈ bs := by rw [hbs]; simp
  have hadj : Adj l s := by
    have e : bs = (A ++ x :: F) ++ l :: s :: B := by rw [hbs]; simp
    rw [e] at hg
    exact hg.adj_of_split
  have hxl : Below x l := by
    have hp := (List.pairwise_cons.1 hg.pairwise).2
    rw [hbs, List.pairwise_append] at hp
    have hp2 := hp.1
    rw [List.pairwise_append] at hp2
    exact (List.pairwise_cons.1 hp2.2.1).1 l (by simp)
  have hMs : ∀ c ∈ x :: (F ++ [l]), Below c s := by
    intro c hc
    have hp := (List.pairwise_cons.1 hg.pairwise).2
    rw [hbs, List.pairwise_append] at hp
    have hp2 := hp.1
    rw [List.pairwise_append] at hp2
    have hp3 := hp2.2.1
    have e : x :: (F ++ [l, s]) = (x :: (F ++ [l])) ++ [s] := by simp
    rw [e, List.pairwise_append] at hp3
    exact hp3.2.2 c hc s (by simp)
  have hxM : ∀ c ∈ F ++ [l, s], Below x c := by
    intro c hc
    have hp := (List.pairwise_cons.1 hg.pairwise).2
    rw [hbs, List.pairwise_append] at hp
    have hp2 := hp.1
    rw [List.pairwise_append] at hp2
    exact (List.pairwise_cons.1 hp2.2.1).1 c hc
  have hxf := (hfree x (by simp)).1
  have hlf := (hfree l (by simp)).1
  have hx16 := hg.free_real hxm hxf
  have hl16 := hg.free_real hlm hlf
  have hsx := hg.sizes x hxm
  have hsl := hg.sizes l hlm
  have hss := hg.sizes s hsm
  have hslt := hg.size_lt hsm
  have hsa : s.addr = l.addr + l.size := hadj.1
  have hxs := hMs x (by simp)
  unfold Below at hxl hxs
  have hax := hg.align hxm
  have has := hg.align hsm
  have hzm : (s.addr - x.addr) % 16 = 0 := by omega
  have hzlt : s.addr - x.addr < 2 ^ 64 := by
    have := hg.addr_lt hsm
    omega
  have hm2 : ∀ y, h2.mem y =
      if y = s.addr - 8 then w else if y = x.addr then w else h.mem y := by
    intro y
    rw [hh2, hw, mark_free_mem h hzm hzlt (by omega) (flags_lt _ _ _)]
    have e1 : x.addr + (s.addr - x.addr) - 8 = s.addr - 8 := by omega
    have e2 : 16 < s.addr - x.addr + flags false true false := by omega
    have e3 : ¬ (y = x.addr + 16 ∧ s.addr - x.addr ≤ 16) := by omega
    simp only [e1, e2, and_true, e3, if_false]
  have hnh : h.mem s.addr = s.size + flags s.alloc s.pa s.ps := hi.memok.hdrs s hsm
  have hgl : get_size h2 l.addr = l.size := by
    unfold get_size
    rw [hm2, if_neg (by omega), if_neg (by omega)]
    exact hi.memok.size hg hlm
  have hm3 : ∀ y, h3.mem y =
      if y = s.addr then s.size + flags s.alloc s.pa false
      else if y = s.addr - 8 then w else if y = x.addr then w else h.mem y := by
    intro y
    rw [hh3, hgl]
    have hs2 : h2.mem s.addr = s.size + flags s.alloc s.pa s.ps := by
      rw [hm2, if_neg (by omega), if_neg (by omega), hnh]
    by_cases h16 : l.size = min_block_size
    · rw [if_pos h16, write_mem, hs2, flags_clear_ps hss.1 hslt]
      by_cases hy : y = s.addr
      · rw [if_pos hy, if_pos hy]
      · rw [if_neg hy, if_neg hy, hm2]
    · rw [if_neg h16]
      by_cases hy : y = s.addr
      · have hps : s.ps = false := by
          cases hp : s.ps
          · rfl
          · exact absurd (hadj.2.2.2.2 hp) h16
        rw [if_pos hy, hy, hs2, hps]
      · rw [if_neg hy, hm2]
  have hsg : h3.heap_lo = h.heap_lo ∧ h3.brk = h.brk ∧ h3.max_addr = h.max_addr ∧
      h3.heap_start = h.heap_start ∧ h3.seg_list = h.seg_list ∧
      h3.small_seg_list = h.small_seg_list := by
    have s2 : SameGlobals h h2 := by
      rw [hh2]
      exact (sameGlobals_write_header _ _ _ _).trans (sameGlobals_write_footer _ _ _ _)
    rw [hh3]
    split
    · exact s2.trans (sameGlobals_write _ _ _)
    · exact s2
  obtain ⟨g1, g2, g3, g4, g5, g6⟩ := hsg
  refine ⟨?_, ?_, g1, g2, g3, hgl⟩
  · apply hi.surgery (p := x.addr) (q := s.addr + 1) hbs (by simp) (by simp) g1 g3 g4 g5 g6
    · rw [g2, g3]; exact hg.brk_le
    · simp only [List.chain'_cons, List.chain'_singleton, and_true]
      refine ⟨show s.addr = x.addr + (s.addr - x.addr) by omega,
        show 0 < s.addr - x.addr by omega, fun _ => rfl, fun _ h16 => ?_, fun hps => ?_⟩
      · have : s.addr - x.addr = 16 := h16
        omega
      · have : false = true := hps
        cases this
    · intro x0 y y1 hy hy1 ha
      simp only [List.head?_cons, Option.mem_def, Option.some.injEq] at hy hy1
      subst hy hy1
      exact ha.left_set rfl rfl rfl
    · intro x0 x1 y hx hx1 ha
      have e : (x :: (F ++ [l, s])).getLast? = some s := by
        have e2 : x :: (F ++ [l, s]) = (x :: (F ++ [l])) ++ [s] := by simp
        rw [e2, List.getLast?_append]
        rfl
      rw [e] at hx
      simp only [List.getLast?_cons_cons, List.getLast?_singleton, Option.mem_def,
        Option.some.injEq] at hx hx1
      subst hx hx1
      exact ha.right_same rfl rfl rfl
    · intro c hc
      simp only [List.mem_cons, List.mem_singleton, List.not_mem_nil, or_false] at hc
      rcases hc with rfl | rfl
      · exact ⟨hzm, fun e => by have : s.addr - x.addr = 0 := e; omega,
          fun _ => show 16 ≤ s.addr - x.addr by omega⟩
      · rw [g2]; exact hss
    · exact Or.inl g2
    · rintro ⟨e, he, hez⟩
      refine ⟨⟨s.addr, s.size, s.alloc, s.pa, false⟩, by simp, ?_⟩
      show s.size = 0
      have he2 : e ∈ (x :: (F ++ [l])) ++ [s] := by simpa using he
      rcases List.mem_append.1 he2 with he3 | he3
      · have heb : e ∈ bs := by
          rw [hbs]
          exact List.mem_append_left _ (List.mem_append_right _ he)
        have := hg.free_real heb (hfree e he3).1
        omega
      · simp only [List.mem_singleton] at he3
        rw [← he3]; exact hez
    · intro c hc
      exact (hc x (by simp)).1
    · intro c _ hc
      have := hc s (by simp)
      unfold Below at this
      omega
    · intro y hy
      rw [hm3, if_neg (by omega), if_neg (by omega), if_neg (by omega)]
    · constructor
      · intro c hc
        simp only [List.mem_cons, List.mem_singleton, List.not_mem_nil, or_false] at hc
        rcases hc with rfl | rfl
        · show h3.mem x.addr = _
          rw [hm3, if_neg (by omega), if_neg (by omega), if_pos rfl, hw]
          rfl
        · show h3.mem s.addr = _
          rw [hm3, if_pos rfl]
          rfl
      · intro c hc hf hs
        simp only [List.mem_cons, List.mem_singleton, List.not_mem_nil, or_false] at hc
        rcases hc with rfl | rfl
        · show extract_size (h3.mem (x.addr + (s.addr - x.addr) - 8)) = s.addr - x.addr
          have e1 : x.addr + (s.addr - x.addr) - 8 = s.addr - 8 := by omega
          rw [e1, hm3, if_neg (by omega), if_pos rfl, hw]
          exact extract_size_add hzm hzlt (flags_lt _ _ _)
        · show extract_size (h3.mem (s.addr + s.size - 8)) = s.size
          have hs2 : 16 < s.size := hs
          have hf2 : s.alloc = false := hf
          rw [hm3, if_neg (by omega), if_neg (by omega), if_neg (by omega)]
          exact hi.memok.footers s hsm hf2 hs2
    · intro a z
      unfold Listed
      constructor
      · rintro ⟨c, hc, e1, e2, e3, e4⟩
        simp only [List.mem_cons, List.mem_singleton, List.not_mem_nil, or_false] at hc
        rcases hc with rfl | rfl
        · exact absurd (show a ∈ U by rw [← e1]; exact hus1) e4
        · refine ⟨s, by simp, e1, e2, e3, ?_⟩
          have e1' : s.addr = a := e1
          rw [← e1'] at e4 ⊢
          exact fun hx => e4 (hsus.2 hx)
      · rintro ⟨c, hc, e1, e2, e3, e4⟩
        have hc2 : c ∈ (x :: (F ++ [l])) ++ [s] := by simpa using hc
        rcases List.mem_append.1 hc2 with hc3 | hc3
        · exact absurd (show a ∈ us by rw [← e1]; exact (hfree c hc3).2) e4
        · simp only [List.mem_singleton] at hc3
          subst hc3
          refine ⟨⟨c.addr, c.size, c.alloc, c.pa, false⟩, by simp, e1, e2, e3, ?_⟩
          rw [← e1] at e4 ⊢
          exact fun hx => e4 (hsus.1 hx)
    · exact fun c ha _ => hus c.addr ha
    · rintro a z ⟨c, hc, e1, e2, e3, e4⟩
      have hc2 : c ∈ (x :: (F ++ [l])) ++ [s] := by simpa using hc
      rcases List.mem_append.1 hc2 with hc3 | hc3
      · exact absurd (show a ∈ us by rw [← e1]; exact (hfree c hc3).2) e4
      · simp only [List.mem_singleton] at hc3
        subst hc3
        have := hg.free_real hsm e3
        subst e1
        rw [hm3, hm3]
        constructor
        · rw [if_neg (by omega), if_neg (by omega), if_neg (by omega)]
        · intro _
          rw [if_neg (by omega), if_neg (by omega), if_neg (by omega)]
    · intro a ha _
      exact hex a ha
    · intro c hc hf _
      simp only [List.mem_cons, List.mem_singleton, List.not_mem_nil, or_false] at hc
      rcases hc with rfl | rfl
      · rfl
      · exact hspa hf
  · rw [hbs]
    apply keeps_surgery
    intro c hc ha hcz _
    have hc2 : c ∈ (x :: (F ++ [l])) ++ [s] := by simpa using hc
    rcases List.mem_append.1 hc2 with hc3 | hc3
    · rw [(hfree c hc3).1] at ha
      cases ha
    · simp only [List.mem_singleton] at hc3
      subst hc3
      exact ⟨⟨c.addr, c.size, c.alloc, c.pa, false⟩, by simp, rfl, rfl, ha⟩

end

/-! ## The four cases of `coalesce` -/

theorem coalesce_case1 (h : Heap) (block : Nat)
    (h1 : (get_prev_alloc h block != 0) = true)
    (h2 : get_alloc h (find_next h block) = true) :
    coalesce h block = (insert_freeblock h block).map (fun h4 => (h4, block)) := by
  unfold coalesce
  simp only [h1, h2]
  rfl

theorem coalesce_case2 (h : Heap) (block : Nat)
    (h1 : (get_prev_alloc h block != 0) = true)
    (h2 : get_alloc h (find_next h block) = false) :
    coalesce h block =
      (remove_freeblock h (find_next h block)).bind (fun h1 =>
        let size := ((get_size h block + get_size h (find_next h block)) % 2 ^ 64) |||
          prev_alloc_mask
        let h2 := write_footer (write_header h1 block size false) block size false
        let h3 := if get_size h2 (find_next h block) = min_block_size then
            h2.write (find_next h2 (find_next h block))
              (h2.mem (find_next h2 (find_next h block)) &&& not64 prev_sseg_mask)
          else h2
        (insert_freeblock h3 block).map (fun h4 => (h4, block))) := by
  unfold coalesce
  simp only [h1, h2]
  rfl

theorem coalesce_case3 (h : Heap) (block : Nat)
    (h1 : (get_prev_alloc h block != 0) = false)
    (h2 : get_alloc h (find_next h block) = true) :
    coalesce h block =
      (remove_freeblock h (find_prev h block)).bind (fun h1 =>
        let size := ((get_size h block + get_size h (find_prev h block)) % 2 ^ 64) |||
          prev_alloc_mask
        let h2 := write_footer (write_header h1 (find_prev h block) size false)
          (find_prev h block) size false
        let h3 := if get_size h2 block = min_block_size then
            h2.write (find_next h block) (h2.mem (find_next h block) &&& not64 prev_sseg_mask)
          else h2
        (insert_freeblock h3 (find_prev h block)).map (fun h4 => (h4, find_prev h block))) := by
  unfold coalesce
  simp only [h1, h2]
  rfl

theorem coalesce_case4 (h : Heap) (block : Nat)
    (h1 : (get_prev_alloc h block != 0) = false)
    (h2 : get_alloc h (find_next h block) = false) :
    coalesce h block =
      (remove_freeblock h (find_prev h block)).bind (fun h0 =>
        (remove_freeblock h0 (find_next h block)).bind (fun h1 =>
          let size := ((get_size h block + (get_size h (find_prev h block) +
            get_size h (find_next h block)) % 2 ^ 64) % 2 ^ 64) ||| prev_alloc_mask
          let h2 := write_footer (write_header h1 (find_prev h block) size false)
            (find_prev h block) size false
          let h3 := if get_size h2 (find_next h block) = min_block_size then
              h2.write (find_next h2 (find_next h block))
                (h2.mem (find_next h2 (find_next h block)) &&& not64 prev_sseg_mask)
            else h2
          (insert_freeblock h3 (find_prev h block)).map
            (fun h4 => (h4, find_prev h block)))) := by
  unfold coalesce
  simp only [h1, h2]
  rfl

section

variable {h : Heap} {bs : List Blk} {fl : Nat → List Nat} {sl us ex : List Nat}

theorem Geo.succ_of_split {lo brk mx : Nat} {A B : List Blk} {b : Blk}
    (hg : Geo lo brk mx (A ++ b :: B)) (hz : b.size ≠ 0) : ∃ n B1, B = n :: B1 := by
  cases B with
  | cons n B1 => exact ⟨n, B1, rfl⟩
  | nil =>
    exfalso
    obtain ⟨e, he, hez⟩ := hg.epi
    have hb : b ∈ A ++ [b] := by simp
    rcases List.mem_append.1 he with hA | hB
    · have hp := (List.pairwise_cons.1 hg.pairwise).2
      rw [List.pairwise_append] at hp
      have h1 := hp.2.2 e hA b (by simp)
      have h2 := ((hg.sizes e he).2.1 hez).2
      have h3 := hg.hi_le hb
      unfold Below at h1
      omega
    · simp at hB; subst hB; exact hz hez

/-- The block found by `find_prev` is the predecessor in the block list. -/
theorem Inv.find_prev (hi : Inv h bs fl sl us ex) {A B : List Blk} {p b : Blk}
    (hbs : bs = A ++ p :: b :: B) (hpa : b.pa = false) :
    find_prev h b.addr = p.addr ∧ p.alloc = false := by
  have hg := hi.geo
  have hadj : Adj p b := by rw [hbs] at hg; exact hg.adj_of_split
  have hp : p ∈ bs := by rw [hbs]; simp
  have hb : b ∈ bs := by rw [hbs]; simp
  have hpf : p.alloc = false := hadj.2.2.1 hpa
  have hp16 := hg.free_real hp hpf
  refine ⟨?_, hpf⟩
  unfold Mm.find_prev
  rw [hi.get_ps hb]
  have ha := hadj.1
  cases hps : b.ps
  · have hne : p.size ≠ 16 := by
      intro e
      have := hadj.2.2.2.1 hpa e
      rw [hps] at this
      cases this
    have hft := hi.memok.footers p hp hpf (by omega)
    have e : find_prev_footer b.addr = p.addr + p.size - 8 := by
      unfold find_prev_footer
      omega
    simp only [Bool.false_eq_true, if_false, ne_eq, not_true_eq_false, e, hft]
    omega
  · have := hadj.2.2.2.2 hps
    simp only [if_true, ne_eq, OfNat.ofNat_ne_zero, not_false_eq_true, min_block_size]
    omega

theorem filter_self (a : Nat) : [a].filter (· ≠ a) = [] := by simp

theorem coalesce_spec1 {b : Blk} (hi : Inv h bs fl sl [b.addr] ex) (hb : b ∈ bs)
    (hf : b.alloc = false) (hex : ∀ a ∈ ex, a = b.addr ∨ a = b.addr + b.size)
    {A B : List Blk} {n : Blk} (hbs : bs = A ++ b :: n :: B)
    (hpa : b.pa = true) (hna : n.alloc = true) :
    ∃ h1 bs1 fl1 sl1 m, coalesce h b.addr = some (h1, m.addr) ∧ Inv h1 bs1 fl1 sl1 [] [] ∧
      m ∈ bs1 ∧ m.alloc = false ∧ m.addr ≤ b.addr ∧ b.addr + b.size ≤ m.addr + m.size ∧
      Keeps [] bs bs1 ∧ h1.heap_lo = h.heap_lo ∧ h1.brk = h.brk ∧
      h1.max_addr = h.max_addr := by
  have hg := hi.geo
  have hn : n ∈ bs := by rw [hbs]; simp
  have hadj : Adj b n := by rw [hbs] at hg; exact hg.adj_of_split
  have hfn : find_next h b.addr = n.addr := by rw [hi.find_next hb, hadj.1]
  have c1 : (get_prev_alloc h b.addr != 0) = true := by
    rw [hi.get_pa hb, hpa]; rfl
  have c2 : get_alloc h (find_next h b.addr) = true := by
    rw [hfn, hi.get_alloc hn, hna]
  obtain ⟨h1, fl1, sl1, hins, hi1, r1, r2, r3⟩ := insert_spec hi hb hf (by simp)
  rw [filter_self] at hi1
  refine ⟨h1, bs, fl1, sl1, b, ?_, ?_, hb, hf, le_refl _, le_refl _, Keeps.refl_keeps _ _,
    r1, r2, r3⟩
  · rw [coalesce_case1 h b.addr c1 c2, hins]
    rfl
  · apply hi1.change_ex
    intro c hc hcf _
    by_cases hx : c.addr ∈ ex
    · rcases hex _ hx with e | e
      · rw [hg.uniq hc hb e]; exact hpa
      · have : c = n := hg.uniq hc hn (by rw [e, hadj.1])
        rw [this, hna] at hcf
        cases hcf
    · exact hi.free_pa c hc hcf hx

set_option maxHeartbeats 1000000 in
theorem coalesce_spec2 {b : Blk} (hi : Inv h bs fl sl [b.addr] ex) (hb : b ∈ bs)
    (hf : b.alloc = false) (hex : ∀ a ∈ ex, a = b.addr ∨ a = b.addr + b.size)
    {A B : List Blk} {n : Blk} (hbs : bs = A ++ b :: n :: B)
    (hpa : b.pa = true) (hna : n.alloc = false) :
    ∃ h1 bs1 fl1 sl1 m, coalesce h b.addr = some (h1, m.addr) ∧ Inv h1 bs1 fl1 sl1 [] [] ∧
      m ∈ bs1 ∧ m.alloc = false ∧ m.addr ≤ b.addr ∧ b.addr + b.size ≤ m.addr + m.size ∧
      Keeps [] bs bs1 ∧ h1.heap_lo = h.heap_lo ∧ h1.brk = h.brk ∧
      h1.max_addr = h.max_addr := by
  have hg := hi.geo
  have hn : n ∈ bs := by rw [hbs]; simp
  have hadj : Adj b n := by rw [hbs] at hg; exact hg.adj_of_split
  have hfn : find_next h b.addr = n.addr := by rw [hi.find_next hb, hadj.1]
  have c1 : (get_prev_alloc h b.addr != 0) = true := by
    rw [hi.get_pa hb, hpa]; rfl
  have c2 : get_alloc h (find_next h b.addr) = false := by
    rw [hfn, hi.get_alloc hn, hna]
  have hn16 := hg.free_real hn hna
  have hb16 := hg.free_real hb hf
  obtain ⟨n2, B2, hB⟩ : ∃ n2 B2, B = n2 :: B2 := by
    have e : bs = (A ++ [b]) ++ n :: B := by rw [hbs]; simp
    rw [e] at hg
    exact hg.succ_of_split (by omega)
  subst hB
  have hn2 : n2 ∈ bs := by rw [hbs]; simp
  have hadj2 : Adj n n2 := by
    have e : bs = (A ++ [b]) ++ n :: n2 :: B2 := by rw [hbs]; simp
    rw [e] at hg
    exact hg.adj_of_split
  have hne : n.addr ≠ b.addr := by have := hadj.1; omega
  obtain ⟨h1, fl1, sl1, hrem, hi1, r1, r2, r3⟩ := remove_spec hi hn hna (by simp [hne])
  have hsb := hg.sizes b hb
  have hsn := hg.sizes n hn
  have hlt := hg.addr_lt hn2
  have ha1 := hadj.1
  have ha2 := hadj2.1
  have hw : ((get_size h b.addr + get_size h n.addr) % 2 ^ 64) ||| prev_alloc_mask =
      (n2.addr - b.addr) + flags false true false := by
    rw [hi.get_size hb, hi.get_size hn, Nat.mod_eq_of_lt (by omega),
      or_pa_mask (by omega)]
    congr 1
    omega
  have hbs2 : bs = A ++ (b :: ([] ++ [n, n2])) ++ B2 := by rw [hbs]; simp
  obtain ⟨hi3, hk, g1, g2, g3, hgl⟩ := merge_spec hi1 hbs2
    (by
      intro c hc
      simp only [List.nil_append, List.mem_cons, List.mem_singleton, List.not_mem_nil,
        or_false] at hc
      rcases hc with rfl | rfl
      · exact ⟨hf, by simp⟩
      · exact ⟨hna, by simp⟩)
    (U := [b.addr]) (by simp)
    (by
      intro a ha
      have h1 := ha b (by simp)
      have h2 := ha n (by simp)
      simp only [List.mem_cons, List.mem_singleton, List.not_mem_nil, or_false]
      constructor
      · intro e; exact absurd e.symm h1
      · rintro (e | e)
        · exact absurd e.symm h2
        · exact absurd e.symm h1)
    (by
      simp only [List.mem_cons, List.mem_singleton, List.not_mem_nil, or_false]
      constructor
      · intro e; omega
      · rintro (e | e) <;> omega)
    (by
      intro a ha hx
      rcases hex a hx with e | e
      · exact ha b (by simp) e.symm
      · exact ha n (by simp) (by omega))
    (by
      intro hf2
      apply hi.free_pa n2 hn2 hf2
      intro hx
      rcases hex _ hx with e | e <;> omega)
    rfl rfl rfl
  have hfn2 : find_next (write_footer (write_header h1 b.addr
        ((n2.addr - b.addr) + flags false true false) false) b.addr
        ((n2.addr - b.addr) + flags false true false) false) n.addr = n2.addr := by
    unfold find_next
    rw [hgl, ha2]
  obtain ⟨h4, fl2, sl2, hins, hi4, q1, q2, q3⟩ :=
    insert_spec hi3 (b := ⟨b.addr, n2.addr - b.addr, false, true, false⟩) (by simp) rfl
      (by simp)
  rw [filter_self] at hi4
  refine ⟨h4, _, fl2, sl2, ⟨b.addr, n2.addr - b.addr, false, true, false⟩, ?_, hi4,
    by simp, rfl, le_refl _, ?_, hk, ?_, ?_, ?_⟩
  · rw [coalesce_case2 h b.addr c1 c2, hfn, hrem]
    simp only [Option.some_bind, hw, hfn2]
    rw [hins]
    rfl
  · show b.addr + b.size ≤ b.addr + (n2.addr - b.addr)
    omega
  · rw [q1, g1, r1]
  · rw [q2, g2, r2]
  · rw [q3, g3, r3]

end

section

variable {h : Heap} {bs : List Blk} {fl : Nat → List Nat} {sl us ex : List Nat}

set_option maxHeartbeats 1000000 in
theorem coalesce_spec3 {b : Blk} (hi : Inv h bs fl sl [b.addr] ex) (hb : b ∈ bs)
    (hf : b.alloc = false) (hex : ∀ a ∈ ex, a = b.addr ∨ a = b.addr + b.size)
    {A B : List Blk} {p n : Blk} (hbs : bs = A ++ p :: b :: n :: B)
    (hpa : b.pa = false) (hna : n.alloc = true) :
    ∃ h1 bs1 fl1 sl1 m, coalesce h b.addr = some (h1, m.addr) ∧ Inv h1 bs1 fl1 sl1 [] [] ∧
      m ∈ bs1 ∧ m.alloc = false ∧ m.addr ≤ b.addr ∧ b.addr + b.size ≤ m.addr + m.size ∧
      Keeps [] bs bs1 ∧ h1.heap_lo = h.heap_lo ∧ h1.brk = h.brk ∧
      h1.max_addr = h.max_addr := by
  have hg := hi.geo
  have hp : p ∈ bs := by rw [hbs]; simp
  have hn : n ∈ bs := by rw [hbs]; simp
  have hadj : Adj b n := by
    have e : bs = (A ++ [p]) ++ b :: n :: B := by rw [hbs]; simp
    rw [e] at hg
    exact hg.adj_of_split
  have hadj0 : Adj p b := by rw [hbs] at hg; exact hg.adj_of_split
  obtain ⟨hfp, hpf⟩ := hi.find_prev hbs hpa
  have hfn : find_next h b.addr = n.addr := by rw [hi.find_next hb, hadj.1]
  have c1 : (get_prev_alloc h b.addr != 0) = false := by
    rw [hi.get_pa hb, hpa]; rfl
  have c2 : get_alloc h (find_next h b.addr) = true := by
    rw [hfn, hi.get_alloc hn, hna]
  have hp16 := hg.free_real hp hpf
  have hb16 := hg.free_real hb hf
  have ha0 := hadj0.1
  have ha1 := hadj.1
  have hne : p.addr ≠ b.addr := by omega
  obtain ⟨h1, fl1, sl1, hrem, hi1, r1, r2, r3⟩ := remove_spec hi hp hpf (by simp [hne])
  have hsb := hg.sizes b hb
  have hsp := hg.sizes p hp
  have hlt := hg.addr_lt hn
  have hw : ((get_size h b.addr + get_size h p.addr) % 2 ^ 64) ||| prev_alloc_mask =
      (n.addr - p.addr) + flags false true false := by
    rw [hi.get_size hb, hi.get_size hp, Nat.mod_eq_of_lt (by omega),
      or_pa_mask (by omega)]
    congr 1
    omega
  have hbs2 : bs = A ++ (p :: ([] ++ [b, n])) ++ B := by rw [hbs]; simp
  obtain ⟨hi3, hk, g1, g2, g3, hgl⟩ := merge_spec hi1 hbs2
    (by
      intro c hc
      simp only [List.nil_append, List.mem_cons, List.mem_singleton, List.not_mem_nil,
        or_false] at hc
      rcases hc with rfl | rfl
      · exact ⟨hpf, by simp⟩
      · exact ⟨hf, by simp⟩)
    (U := [p.addr]) (by simp)
    (by
      intro a ha
      have h1 := ha p (by simp)
      have h2 := ha b (by simp)
      simp only [List.mem_cons, List.mem_singleton, List.not_mem_nil, or_false]
      constructor
      · intro e; exact absurd e.symm h1
      · rintro (e | e)
        · exact absurd e.symm h1
        · exact absurd e.symm h2)
    (by
      simp only [List.mem_cons, List.mem_singleton, List.not_mem_nil, or_false]
      constructor
      · intro e; omega
      · rintro (e | e) <;> omega)
    (by
      intro a ha hx
      rcases hex a hx with e | e
      · exact ha b (by simp) e.symm
      · exact ha n (by simp) (by omega))
    (by
      intro hf2
      rw [hna] at hf2
      cases hf2)
    rfl rfl rfl
  obtain ⟨h4, fl2, sl2, hins, hi4, q1, q2, q3⟩ :=
    insert_spec hi3 (b := ⟨p.addr, n.addr - p.addr, false, true, false⟩) (by simp) rfl
      (by simp)
  rw [filter_self] at hi4
  refine ⟨h4, _, fl2, sl2, ⟨p.addr, n.addr - p.addr, false, true, false⟩, ?_, hi4,
    by simp, rfl, ?_, ?_, hk, ?_, ?_, ?_⟩
  · rw [coalesce_case3 h b.addr c1 c2, hfn, hfp, hrem]
    simp only [Option.some_bind, hw]
    rw [hins]
    rfl
  · show p.addr ≤ b.addr
    omega
  · show b.addr + b.size ≤ p.addr + (n.addr - p.addr)
    omega
  · rw [q1, g1, r1]
  · rw [q2, g2, r2]
  · rw [q3, g3, r3]

set_option maxHeartbeats 1000000 in
theorem coalesce_spec4 {b : Blk} (hi : Inv h bs fl sl [b.addr] ex) (hb : b ∈ bs)
    (hf : b.alloc = false) (hex : ∀ a ∈ ex, a = b.addr ∨ a = b.addr + b.size)
    {A B : List Blk} {p n : Blk} (hbs : bs = A ++ p :: b :: n :: B)
    (hpa : b.pa = false) (hna : n.alloc = false) :
    ∃ h1 bs1 fl1 sl1 m, coalesce h b.addr = some (h1, m.addr) ∧ Inv h1 bs1 fl1 sl1 [] [] ∧
      m ∈ bs1 ∧ m.alloc = false ∧ m.addr ≤ b.addr ∧ b.addr + b.size ≤ m.addr + m.size ∧
      Keeps [] bs bs1 ∧ h1.heap_lo = h.heap_lo ∧ h1.brk = h.brk ∧
      h1.max_addr = h.max_addr := by
  have hg := hi.geo
  have hp : p ∈ bs := by rw [hbs]; simp
  have hn : n ∈ bs := by rw [hbs]; simp
  have hadj : Adj b n := by
    have e : bs = (A ++ [p]) ++ b :: n :: B := by rw [hbs]; simp
    rw [e] at hg
    exact hg.adj_of_split
  have hadj0 : Adj p b := by rw [hbs] at hg; exact hg.adj_of_split
  obtain ⟨hfp, hpf⟩ := hi.find_prev hbs hpa
  have hfn : find_next h b.addr = n.addr := by rw [hi.find_next hb, hadj.1]
  have c1 : (get_prev_alloc h b.addr != 0) = false := by
    rw [hi.get_pa hb, hpa]; rfl
  have c2 : get_alloc h (find_next h b.addr) = false := by
    rw [hfn, hi.get_alloc hn, hna]
  have hp16 := hg.free_real hp hpf
  have hb16 := hg.free_real hb hf
  have hn16 := hg.free_real hn hna
  obtain ⟨n2, B2, hB⟩ : ∃ n2 B2, B = n2 :: B2 := by
    have e : bs = (A ++ [p, b]) ++ n :: B := by rw [hbs]; simp
    rw [e] at hg
    exact hg.succ_of_split (by omega)
  subst hB
  have hn2 : n2 ∈ bs := by rw [hbs]; simp
  have hadj2 : Adj n n2 := by
    have e : bs = (A ++ [p, b]) ++ n :: n2 :: B2 := by rw [hbs]; simp
    rw [e] at hg
    exact hg.adj_of_split
  have ha0 := hadj0.1
  have ha1 := hadj.1
  have ha2 := hadj2.1
  have hne : p.addr ≠ b.addr := by omega
  obtain ⟨h0, fl0, sl0, hrem0, hi0, p1, p2, p3⟩ := remove_spec hi hp hpf (by simp [hne])
  obtain ⟨h1, fl1, sl1, hrem, hi1, r1, r2, r3⟩ := remove_spec hi0 hn hna
    (by
      simp only [List.mem_cons, List.mem_singleton, List.not_mem_nil, or_false]
      omega)
  have hsb := hg.sizes b hb
  have hsp := hg.sizes p hp
  have hsn := hg.sizes n hn
  have hlt := hg.addr_lt hn2
  have hw : ((get_size h b.addr + (get_size h p.addr + get_size h n.addr) % 2 ^ 64) % 2 ^ 64)
      ||| prev_alloc_mask = (n2.addr - p.addr) + flags false true false := by
    rw [hi.get_size hb, hi.get_size hp, hi.get_size hn, Nat.mod_eq_of_lt (by omega),
      Nat.mod_eq_of_lt (by omega), or_pa_mask (by omega)]
    congr 1
    omega
  have hbs2 : bs = A ++ (p :: ([b] ++ [n, n2])) ++ B2 := by rw [hbs]; simp
  obtain ⟨hi3, hk, g1, g2, g3, hgl⟩ := merge_spec hi1 hbs2
    (by
      intro c hc
      simp only [List.cons_append, List.nil_append, List.mem_cons, List.mem_singleton,
        List.not_mem_nil, or_false] at hc
      rcases hc with rfl | rfl | rfl
      · exact ⟨hpf, by simp⟩
      · exact ⟨hf, by simp⟩
      · exact ⟨hna, by simp⟩)
    (U := [p.addr]) (by simp)
    (by
      intro a ha
      have h1 := ha p (by simp)
      have h2 := ha b (by simp)
      have h3 := ha n (by simp)
      simp only [List.mem_cons, List.mem_singleton, List.not_mem_nil, or_false]
      constructor
      · intro e; exact absurd e.symm h1
      · rintro (e | e | e)
        · exact absurd e.symm h3
        · exact absurd e.symm h1
        · exact absurd e.symm h2)
    (by
      simp only [List.mem_cons, List.mem_singleton, List.not_mem_nil, or_false]
      constructor
      · intro e; omega
      · rintro (e | e | e) <;> omega)
    (by
      intro a ha hx
      rcases hex a hx with e | e
      · exact ha b (by simp) e.symm
      · exact ha n (by simp) (by omega))
    (by
      intro hf2
      apply hi.free_pa n2 hn2 hf2
      intro hx
      rcases hex _ hx with e | e <;> omega)
    rfl rfl rfl
  have hfn2 : find_next (write_footer (write_header h1 p.addr
        ((n2.addr - p.addr) + flags false true false) false) p.addr
        ((n2.addr - p.addr) + flags false true false) false) n.addr = n2.addr := by
    unfold find_next
    rw [hgl, ha2]
  obtain ⟨h4, fl2, sl2, hins, hi4, q1, q2, q3⟩ :=
    insert_spec hi3 (b := ⟨p.addr, n2.addr - p.addr, false, true, false⟩) (by simp) rfl
      (by simp)
  rw [filter_self] at hi4
  refine ⟨h4, _, fl2, sl2, ⟨p.addr, n2.addr - p.addr, false, true, false⟩, ?_, hi4,
    by simp, rfl, ?_, ?_, hk, ?_, ?_, ?_⟩
  · rw [coalesce_case4 h b.addr c1 c2, hfn, hfp, hrem0]
    simp only [Option.some_bind, hrem, hw, hfn2]
    rw [hins]
    rfl
  · show p.addr ≤ b.addr
    omega
  · show b.addr + b.size ≤ p.addr + (n2.addr - p.addr)
    omega
  · rw [q1, g1, r1, p1]
  · rw [q2, g2, r2, p2]
  · rw [q3, g3, r3, p3]

/-- `coalesce` on a free block that is in no list: the block, merged with its free
neighbours, is put into a list. -/
theorem coalesce_spec {b : Blk} (hi : Inv h bs fl sl [b.addr] ex) (hb : b ∈ bs)
    (hf : b.alloc = false) (hex : ∀ a ∈ ex, a = b.addr ∨ a = b.addr + b.size) :
    ∃ h1 bs1 fl1 sl1 m, coalesce h b.addr = some (h1, m.addr) ∧ Inv h1 bs1 fl1 sl1 [] [] ∧
      m ∈ bs1 ∧ m.alloc = false ∧ m.addr ≤ b.addr ∧ b.addr + b.size ≤ m.addr + m.size ∧
      Keeps [] bs bs1 ∧ h1.heap_lo = h.heap_lo ∧ h1.brk = h.brk ∧
      h1.max_addr = h.max_addr := by
  have hg := hi.geo
  have hb16 := hg.free_real hb hf
  cases hpa : b.pa
  · obtain ⟨A, p, B, hbs, _⟩ := hg.pred_of_pa hb hpa
    obtain ⟨n, B1, hB⟩ : ∃ n B1, B = n :: B1 := by
      have e : bs = (A ++ [p]) ++ b :: B := by rw [hbs]; simp
      rw [e] at hg
      exact hg.succ_of_split (by omega)
    subst hB
    cases hna : n.alloc
    · exact coalesce_spec4 hi hb hf hex hbs hpa hna
    · exact coalesce_spec3 hi hb hf hex hbs hpa hna
  · obtain ⟨A, n, B, hbs⟩ := hg.split_at hb (by omega)
    cases hna : n.alloc
    · exact coalesce_spec2 hi hb hf hex hbs hpa hna
    · exact coalesce_spec1 hi hb hf hex hbs hpa hna

/-- The function `free` on the payload pointer of an allocated block. -/
theorem free_spec {b : Blk} (hi : Inv h bs fl sl [] []) (hb : b ∈ bs)
    (hal : b.alloc = true) (hz : b.size ≠ 0) :
    ∃ h1 bs1 fl1 sl1, free h (b.addr + 8) = some h1 ∧ Inv h1 bs1 fl1 sl1 [] [] ∧
      Keeps [b.addr] bs bs1 ∧ h1.heap_lo = h.heap_lo ∧ h1.brk = h.brk ∧
      h1.max_addr = h.max_addr := by
  have hg := hi.geo
  have hw : get_size h b.addr ||| get_prev_alloc h b.addr ||| get_prev_sseg h b.addr =
      b.size + flags false b.pa b.ps := by
    rw [hi.get_size hb, hi.get_pa hb, hi.get_ps hb]
    exact size_or_flags (hg.sizes b hb).1 b.pa b.ps
  obtain ⟨g1, hg1⟩ : ∃ g, g = write_footer (write_header h b.addr
      (get_size h b.addr ||| get_prev_alloc h b.addr ||| get_prev_sseg h b.addr) false) b.addr
      (get_size h b.addr ||| get_prev_alloc h b.addr ||| get_prev_sseg h b.addr) false :=
    ⟨_, rfl⟩
  obtain ⟨g2, hg2⟩ : ∃ g, g = g1.write (find_next g1 b.addr)
      (g1.mem (find_next g1 b.addr) &&& not64 prev_alloc_mask) := ⟨_, rfl⟩
  obtain ⟨bs1, b1, hi1, hb1, e1, e2, e3, hk, r1, r2, r3⟩ :=
    free_mark_spec hi hb hal hz hw hg1 hg2
  have hi2 : Inv g2 bs1 fl sl [b1.addr] (b.addr :: (b.addr + b.size) :: []) := by
    rw [e1]; exact hi1
  obtain ⟨h4, bs4, fl4, sl4, m, hco, hi4, _, _, _, _, hk4, q1, q2, q3⟩ :=
    coalesce_spec hi2 hb1 e3
      (by
        intro a ha
        simp only [List.mem_cons, List.not_mem_nil, or_false] at ha
        rw [e1, e2]
        exact ha)
  refine ⟨h4, bs4, fl4, sl4, ?_, hi4, hk.trans_keeps hk4, by rw [q1, r1], by rw [q2, r2],
    by rw [q3, r3]⟩
  unfold free
  have hne : b.addr + 8 ≠ 0 := by omega
  rw [if_neg hne]
  have hpl : payload_to_header (b.addr + 8) = b.addr := by
    unfold payload_to_header; omega
  simp only [hpl]
  rw [← hg1, ← hg2]
  rw [e1] at hco
  rw [hco]
  rfl

end

section

variable {h : Heap} {bs : List Blk} {fl : Nat → List Nat} {sl us ex : List Nat}

set_option maxHeartbeats 2000000 in
/-- The header writes of `place` when the block is split: the free block `b`, in no list,
becomes an allocated block of `asize` bytes followed by a free block. -/
theorem split_spec {b n : Blk} {A B : List Blk} (hi : Inv h bs fl sl [b.addr] [])
    (hbs : bs = A ++ [b, n] ++ B) (hf : b.alloc = false) (hpa : b.pa = true) {asize : Nat}
    (hz : asize % 16 = 0) (h16 : 16 ≤ asize) (hle : asize + 16 ≤ b.size)
    {h2 h3 h4 : Heap} {w : Nat}
    (hh2 : h2 = write_header h b.addr (asize + flags false b.pa b.ps) true)
    (hw : w = (b.size - asize) + flags false b.pa (decide (asize = 16)))
    (hh3 : h3 = write_footer (write_header h2 (b.addr + asize) w false) (b.addr + asize) w false)
    (hh4 : h4 = if b.size - asize = 16 then h3.write n.addr (h3.mem n.addr ||| prev_sseg_mask)
      else h3) :
    Inv h4 (A ++ [⟨b.addr, asize, true, b.pa, b.ps⟩,
        ⟨b.addr + asize, b.size - asize, false, b.pa, decide (asize = 16)⟩,
        ⟨n.addr, n.size, n.alloc, n.pa, decide (b.size - asize = 16)⟩] ++ B) fl sl
        [b.addr + asize] [] ∧
      Keeps [] bs (A ++ [⟨b.addr, asize, true, b.pa, b.ps⟩,
        ⟨b.addr + asize, b.size - asize, false, b.pa, decide (asize = 16)⟩,
        ⟨n.addr, n.size, n.alloc, n.pa, decide (b.size - asize = 16)⟩] ++ B) ∧
      h4.heap_lo = h.heap_lo ∧ h4.brk = h.brk ∧ h4.max_addr = h.max_addr ∧
      find_next h2 b.addr = b.addr + asize ∧ find_next h3 (b.addr + asize) = n.addr := by
  have hg := hi.geo
  have hb : b ∈ bs := by rw [hbs]; simp
  have hn : n ∈ bs := by rw [hbs]; simp
  have hadj : Adj b n := by
    have e : bs = A ++ b :: n :: B := by rw [hbs]; simp
    rw [e] at hg
    exact hg.adj_of_split
  have hsb := hg.sizes b hb
  have hsn := hg.sizes n hn
  have hblt := hg.size_lt hb
  have hnlt := hg.size_lt hn
  have hna : n.addr = b.addr + b.size := hadj.1
  have hrz : (b.size - asize) % 16 = 0 := by omega
  have hfw := flags_lt false b.pa (decide (asize = 16))
  have hfw2 : 2 ≤ flags false b.pa (decide (asize = 16)) := by
    rw [hpa]; unfold flags; simp
  have hnps : b.size - asize ≠ 16 → n.ps = false := by
    intro _
    cases hp : n.ps
    · rfl
    · have := hadj.2.2.2.2 hp
      omega
  have hm2 : ∀ x, h2.mem x =
      if x = b.addr + asize then
        (if asize = 16 then h.mem (b.addr + 16) ||| 4 else h.mem (b.addr + asize)) ||| 2
      else if x = b.addr then asize + flags true b.pa b.ps
      else h.mem x := by
    intro x
    rw [hh2]
    exact write_header_alloc_mem h hz (by omega) h16 b.pa b.ps x
  have hfn2 : find_next h2 b.addr = b.addr + asize := by
    unfold find_next get_size
    rw [hm2, if_neg (by omega), if_pos rfl, extract_size_add hz (by omega) (flags_lt _ _ _)]
  have hm3 : ∀ x, h3.mem x =
      if x = n.addr - 8 then w
      else if x = b.addr + asize then w
      else if x = b.addr + asize + 16 ∧ b.size - asize ≤ 16 then
        h2.mem (b.addr + asize + 16) ||| 4
      else h2.mem x := by
    intro x
    rw [hh3, hw, mark_free_mem h2 hrz (by omega) (by omega) hfw]
    have e1 : b.addr + asize + (b.size - asize) - 8 = n.addr - 8 := by omega
    have e2 : 16 < b.size - asize + flags false b.pa (decide (asize = 16)) := by omega
    simp only [e1, e2, and_true]
  have hfn3 : find_next h3 (b.addr + asize) = n.addr := by
    unfold find_next get_size
    rw [hm3, if_neg (by omega), if_pos rfl, hw, extract_size_add hrz (by omega) hfw]
    omega
  have hnh : h.mem n.addr = n.size + flags n.alloc n.pa n.ps := hi.memok.hdrs n hn
  have hm4 : ∀ x, h4.mem x =
      if x = n.addr then n.size + flags n.alloc n.pa (decide (b.size - asize = 16))
      else if x = n.addr - 8 then w
      else if x = b.addr + asize then w
      else if x = b.addr then asize + flags true b.pa b.ps
      else h.mem x := by
    intro x
    have h2n : h2.mem n.addr = n.size + flags n.alloc n.pa n.ps := by
      rw [hm2, if_neg (by omega), if_neg (by omega), hnh]
    rw [hh4]
    by_cases hr16 : b.size - asize = 16
    · have h3n : h3.mem n.addr = n.size + flags n.alloc n.pa true := by
        have e : n.addr = b.addr + asize + 16 := by omega
        rw [hm3, if_neg (by omega), if_neg (by omega), if_pos ⟨e, by omega⟩, ← e, h2n,
          flags_or_ps hsn.1]
      rw [if_pos hr16, write_mem, h3n]
      have hd : decide (b.size - asize = 16) = true := by simp [hr16]
      rw [hd]
      by_cases hx : x = n.addr
      · rw [if_pos hx, if_pos hx]
        exact flags_or_ps hsn.1 _ _ _
      · rw [if_neg hx, if_neg hx, hm3]
        by_cases hx1 : x = n.addr - 8
        · rw [if_pos hx1, if_pos hx1]
        · rw [if_neg hx1, if_neg hx1]
          by_cases hx2 : x = b.addr + asize
          · rw [if_pos hx2, if_pos hx2]
          · rw [if_neg hx2, if_neg hx2, if_neg (by omega), hm2, if_neg hx2]
    · rw [if_neg hr16, hm3]
      have hd : decide (b.size - asize = 16) = false := by simp [hr16]
      rw [hd]
      by_cases hx : x = n.addr
      · rw [if_pos hx, hx, if_neg (by omega), if_neg (by omega), if_neg (by omega), h2n,
          hnps hr16]
      · rw [if_neg hx]
        by_cases hx1 : x = n.addr - 8
        · rw [if_pos hx1, if_pos hx1]
        · rw [if_neg hx1, if_neg hx1]
          by_cases hx2 : x = b.addr + asize
          · rw [if_pos hx2, if_pos hx2]
          · rw [if_neg hx2, if_neg hx2, if_neg (by omega), hm2, if_neg hx2]
  have hsg : SameGlobals h h4 := by
    have s2 : SameGlobals h h2 := by rw [hh2]; exact sameGlobals_write_header _ _ _ _
    have s3 : SameGlobals h h3 := by
      rw [hh3]
      exact s2.trans ((sameGlobals_write_header _ _ _ _).trans (sameGlobals_write_footer _ _ _ _))
    rw [hh4]
    split
    · exact s3.trans (sameGlobals_write _ _ _)
    · exact s3
  obtain ⟨g1, g2, g3, g4, g5, g6⟩ := hsg
  refine ⟨?_, ?_, g1, g2, g3, hfn2, hfn3⟩
  · apply hi.surgery (p := b.addr) (q := n.addr + 1) hbs (by simp) (by simp) g1 g3 g4 g5 g6
    · rw [g2, g3]; exact hg.brk_le
    · simp only [List.chain'_cons, List.chain'_singleton, and_true]
      refine ⟨⟨rfl, show 0 < asize by omega, fun e => ?_, fun e => ?_, fun e => ?_⟩,
        ⟨show n.addr = b.addr + asize + (b.size - asize) by omega,
          show 0 < b.size - asize by omega, fun _ => rfl, fun _ e => ?_, fun e => ?_⟩⟩
      · have e1 : b.pa = false := e
        rw [hpa] at e1; cases e1
      · have e1 : b.pa = false := e
        rw [hpa] at e1; cases e1
      · have e1 : decide (asize = 16) = true := e
        simpa using e1
      · have e1 : b.size - asize = 16 := e
        show decide (b.size - asize = 16) = true
        simp [e1]
      · have e1 : decide (b.size - asize = 16) = true := e
        show b.size - asize = 16
        simpa using e1
    · intro x y y1 hy hy1 ha
      simp only [List.head?_cons, Option.mem_def, Option.some.injEq] at hy hy1
      subst hy hy1
      exact ha.left_same rfl rfl rfl
    · intro x x1 y hx hx1 ha
      simp only [List.getLast?_cons_cons, List.getLast?_singleton, Option.mem_def,
        Option.some.injEq] at hx hx1
      subst hx hx1
      exact ha.right_same rfl rfl rfl
    · intro c hc
      simp only [List.mem_cons, List.mem_singleton, List.not_mem_nil, or_false] at hc
      rcases hc with rfl | rfl | rfl
      · exact ⟨hz, fun e => by have : asize = 0 := e; omega, fun _ => h16⟩
      · exact ⟨hrz, fun e => by have : b.size - asize = 0 := e; omega,
          fun _ => show 16 ≤ b.size - asize by omega⟩
      · rw [g2]; exact hsn
    · exact Or.inl g2
    · rintro ⟨e, he, hez⟩
      simp only [List.mem_cons, List.mem_singleton, List.not_mem_nil, or_false] at he
      rcases he with rfl | rfl
      · omega
      · exact ⟨_, List.mem_cons_of_mem _ (List.mem_cons_of_mem _ (List.mem_singleton.2 rfl)),
          hez⟩
    · intro c hc
      exact (hc b (by simp)).1
    · intro c _ hc
      have := hc n (by simp)
      unfold Below at this
      omega
    · intro x hx
      rw [hm4, if_neg (by omega), if_neg (by omega), if_neg (by omega), if_neg (by omega)]
    · constructor
      · intro c hc
        simp only [List.mem_cons, List.mem_singleton, List.not_mem_nil, or_false] at hc
        rcases hc with rfl | rfl | rfl
        · show h4.mem b.addr = _
          rw [hm4, if_neg (by omega), if_neg (by omega), if_neg (by omega), if_pos rfl]
          rfl
        · show h4.mem (b.addr + asize) = _
          rw [hm4, if_neg (by omega), if_neg (by omega), if_pos rfl, hw]
          rfl
        · show h4.mem n.addr = _
          rw [hm4, if_pos rfl]
          rfl
      · intro c hc hcf hs
        simp only [List.mem_cons, List.mem_singleton, List.not_mem_nil, or_false] at hc
        rcases hc with rfl | rfl | rfl
        · cases hcf
        · show extract_size (h4.mem (b.addr + asize + (b.size - asize) - 8)) = b.size - asize
          have e1 : b.addr + asize + (b.size - asize) - 8 = n.addr - 8 := by omega
          rw [e1, hm4, if_neg (by omega), if_pos rfl, hw]
          exact extract_size_add hrz (by omega) hfw
        · show extract_size (h4.mem (n.addr + n.size - 8)) = n.size
          have hs2 : 16 < n.size := hs
          have hf2 : n.alloc = false := hcf
          rw [hm4, if_neg (by omega), if_neg (by omega), if_neg (by omega), if_neg (by omega)]
          exact hi.memok.footers n hn hf2 hs2
    · intro a z
      unfold Listed
      simp only [List.mem_cons, List.mem_singleton, List.not_mem_nil, or_false, exists_eq_or_imp,
        exists_eq_left]
      constructor
      · rintro (⟨_, _, e3, _⟩ | ⟨e1, _, _, e4⟩ | ⟨e1, e2, e3, e4⟩)
        · cases e3
        · exact absurd e1.symm e4
        · right
          refine ⟨e1, e2, e3, ?_⟩
          have : n.addr = a := e1
          omega
      · rintro (⟨e1, _, _, e4⟩ | ⟨e1, e2, e3, e4⟩)
        · exact absurd e1.symm e4
        · right; right
          refine ⟨e1, e2, e3, ?_⟩
          have : n.addr = a := e1
          omega
    · intro c ha hc
      have h1 := ha b (by simp)
      simp only [List.mem_singleton]
      constructor
      · intro e
        exfalso
        rcases hc with hc | hc
        · have := hc b (by simp)
          unfold Below at this
          omega
        · have := hc n (by simp)
          unfold Below at this
          omega
      · intro e
        exact absurd e.symm h1
    · rintro x z ⟨c, hc, e1, e2, e3, e4⟩
      simp only [List.mem_cons, List.mem_singleton, List.not_mem_nil, or_false] at hc
      rcases hc with rfl | rfl
      · exact absurd (List.mem_singleton.2 e1.symm) e4
      · have := hg.free_real hn e3
        subst e1
        rw [hm4, hm4]
        constructor
        · rw [if_neg (by omega), if_neg (by omega), if_neg (by omega), if_neg (by omega)]
        · intro _
          rw [if_neg (by omega), if_neg (by omega), if_neg (by omega), if_neg (by omega)]
    · intro a _ _
      simp
    · intro c hc hcf _
      simp only [List.mem_cons, List.mem_singleton, List.not_mem_nil, or_false] at hc
      rcases hc with rfl | rfl | rfl
      · cases hcf
      · exact hpa
      · exact hi.free_pa n hn hcf (by simp)
  · rw [hbs]
    apply keeps_surgery
    intro c hc ha hcz _
    simp only [List.mem_cons, List.mem_singleton, List.not_mem_nil, or_false] at hc
    rcases hc with rfl | rfl
    · rw [hf] at ha; cases ha
    · exact ⟨_, List.mem_cons_of_mem _ (List.mem_cons_of_mem _ (List.mem_singleton.2 rfl)),
        rfl, rfl, ha⟩

end

section

variable {h : Heap} {bs : List Blk} {fl : Nat → List Nat} {sl us ex : List Nat}

set_option maxHeartbeats 2000000 in
/-- The header writes of `place` when the whole block is used. -/
theorem whole_spec {b n : Blk} {A B : List Blk} (hi : Inv h bs fl sl [b.addr] [])
    (hbs : bs = A ++ [b, n] ++ B) (hf : b.alloc = false)
    {h2 h3 : Heap}
    (hh2 : h2 = write_header h b.addr (b.size + flags false b.pa b.ps) true)
    (hh3 : h3 = if b.size = 16 then h2.write n.addr (h2.mem n.addr ||| prev_sseg_mask)
      else h2) :
    Inv h3 (A ++ [⟨b.addr, b.size, true, b.pa, b.ps⟩,
        ⟨n.addr, n.size, n.alloc, true, if b.size = 16 then true else n.ps⟩] ++ B) fl sl
        [] [] ∧
      Keeps [] bs (A ++ [⟨b.addr, b.size, true, b.pa, b.ps⟩,
        ⟨n.addr, n.size, n.alloc, true, if b.size = 16 then true else n.ps⟩] ++ B) ∧
      h3.heap_lo = h.heap_lo ∧ h3.brk = h.brk ∧ h3.max_addr = h.max_addr ∧
      find_next h2 b.addr = n.addr := by
  have hg := hi.geo
  have hb : b ∈ bs := by rw [hbs]; simp
  have hn : n ∈ bs := by rw [hbs]; simp
  have hadj : Adj b n := by
    have e : bs = A ++ b :: n :: B := by rw [hbs]; simp
    rw [e] at hg
    exact hg.adj_of_split
  have hsb := hg.sizes b hb
  have hsn := hg.sizes n hn
  have hblt := hg.size_lt hb
  have hnlt := hg.size_lt hn
  have hna : n.addr = b.addr + b.size := hadj.1
  have hb16 := hg.free_real hb hf
  have hnh : h.mem n.addr = n.size + flags n.alloc n.pa n.ps := hi.memok.hdrs n hn
  have hm2 : ∀ x, h2.mem x =
      if x = n.addr then
        n.size + flags n.alloc true (if b.size = 16 then true else n.ps)
      else if x = b.addr then b.size + flags true b.pa b.ps
      else h.mem x := by
    intro x
    rw [hh2, write_header_alloc_mem h hsb.1 hblt hb16 b.pa b.ps x, ← hna]
    by_cases hx : x = n.addr
    · rw [if_pos hx, if_pos hx]
      by_cases hz : b.size = 16
      · have e : b.addr + 16 = n.addr := by omega
        rw [if_pos hz, if_pos hz, e, hnh, flags_or_ps hsn.1, flags_or_pa hsn.1]
      · rw [if_neg hz, if_neg hz, hnh, flags_or_pa hsn.1]
    · rw [if_neg hx, if_neg hx]
  have hfn2 : find_next h2 b.addr = n.addr := by
    unfold find_next get_size
    rw [hm2, if_neg (by omega), if_pos rfl, extract_size_add hsb.1 hblt (flags_lt _ _ _)]
    omega
  have hm3 : ∀ x, h3.mem x =
      if x = n.addr then
        n.size + flags n.alloc true (if b.size = 16 then true else n.ps)
      else if x = b.addr then b.size + flags true b.pa b.ps
      else h.mem x := by
    intro x
    rw [hh3]
    by_cases hz : b.size = 16
    · rw [if_pos hz, write_mem]
      by_cases hx : x = n.addr
      · rw [if_pos hx, if_pos hx, hm2, if_pos rfl, if_pos hz]
        exact flags_or_ps hsn.1 _ _ _
      · rw [if_neg hx, hm2]
    · rw [if_neg hz, hm2]
  have hsg : SameGlobals h h3 := by
    have s2 : SameGlobals h h2 := by rw [hh2]; exact sameGlobals_write_header _ _ _ _
    rw [hh3]
    split
    · exact s2.trans (sameGlobals_write _ _ _)
    · exact s2
  obtain ⟨g1, g2, g3, g4, g5, g6⟩ := hsg
  refine ⟨?_, ?_, g1, g2, g3, hfn2⟩
  · apply hi.surgery (p := b.addr) (q := n.addr + 1) hbs (by simp) (by simp) g1 g3 g4 g5 g6
    · rw [g2, g3]; exact hg.brk_le
    · simp only [List.chain'_cons, List.chain'_singleton, and_true]
      refine ⟨hna, show 0 < b.size by omega, fun e => ?_, fun e => ?_, fun e => ?_⟩
      · have e1 : true = false := e
        cases e1
      · have e1 : true = false := e
        cases e1
      · have e1 : (if b.size = 16 then true else n.ps) = true := e
        show b.size = 16
        by_cases hz : b.size = 16
        · exact hz
        · rw [if_neg hz] at e1
          exact hadj.2.2.2.2 e1
    · intro x y y1 hy hy1 ha
      simp only [List.head?_cons, Option.mem_def, Option.some.injEq] at hy hy1
      subst hy hy1
      exact ha.left_same rfl rfl rfl
    · intro x x1 y hx hx1 ha
      simp only [List.getLast?_cons_cons, List.getLast?_singleton, Option.mem_def,
        Option.some.injEq] at hx hx1
      subst hx hx1
      exact ha.right_same rfl rfl rfl
    · intro c hc
      simp only [List.mem_cons, List.mem_singleton, List.not_mem_nil, or_false] at hc
      rcases hc with rfl | rfl
      · exact ⟨hsb.1, fun e => by have : b.size = 0 := e; omega, fun _ => hb16⟩
      · rw [g2]; exact hsn
    · exact Or.inl g2
    · rintro ⟨e, he, hez⟩
      simp only [List.mem_cons, List.mem_singleton, List.not_mem_nil, or_false] at he
      rcases he with rfl | rfl
      · omega
      · exact ⟨_, List.mem_cons_of_mem _ (List.mem_singleton.2 rfl), hez⟩
    · intro c hc
      exact (hc b (by simp)).1
    · intro c _ hc
      have := hc n (by simp)
      unfold Below at this
      omega
    · intro x hx
      rw [hm3, if_neg (by omega), if_neg (by omega)]
    · constructor
      · intro c hc
        simp only [List.mem_cons, List.mem_singleton, List.not_mem_nil, or_false] at hc
        rcases hc with rfl | rfl
        · show h3.mem b.addr = _
          rw [hm3, if_neg (by omega), if_pos rfl]
          rfl
        · show h3.mem n.addr = _
          rw [hm3, if_pos rfl]
          rfl
      · intro c hc hcf hs
        simp only [List.mem_cons, List.mem_singleton, List.not_mem_nil, or_false] at hc
        rcases hc with rfl | rfl
        · cases hcf
        · show extract_size (h3.mem (n.addr + n.size - 8)) = n.size
          have hs2 : 16 < n.size := hs
          have hf2 : n.alloc = false := hcf
          rw [hm3, if_neg (by omega), if_neg (by omega)]
          exact hi.memok.footers n hn hf2 hs2
    · intro a z
      unfold Listed
      simp only [List.mem_cons, List.mem_singleton, List.not_mem_nil, or_false, exists_eq_or_imp,
        exists_eq_left, not_false_eq_true, and_true]
      constructor
      · rintro (⟨_, _, e3⟩ | ⟨e1, e2, e3⟩)
        · cases e3
        · right
          refine ⟨e1, e2, e3, ?_⟩
          have : n.addr = a := e1
          omega
      · rintro (⟨e1, _, _, e4⟩ | ⟨e1, e2, e3, _⟩)
        · exact absurd e1.symm e4
        · right
          exact ⟨e1, e2, e3⟩
    · intro c ha _
      have h1 := ha b (by simp)
      simp only [List.mem_singleton, List.not_mem_nil, false_iff]
      exact fun e => h1 e.symm
    · rintro x z ⟨c, hc, e1, e2, e3, e4⟩
      simp only [List.mem_cons, List.mem_singleton, List.not_mem_nil, or_false] at hc
      rcases hc with rfl | rfl
      · exact absurd (List.mem_singleton.2 e1.symm) e4
      · have := hg.free_real hn e3
        subst e1
        rw [hm3, hm3]
        constructor
        · rw [if_neg (by omega), if_neg (by omega)]
        · intro _
          rw [if_neg (by omega), if_neg (by omega)]
    · intro a _ _
      simp
    · intro c hc hcf _
      simp only [List.mem_cons, List.mem_singleton, List.not_mem_nil, or_false] at hc
      rcases hc with rfl | rfl
      · cases hcf
      · rfl
  · rw [hbs]
    apply keeps_surgery
    intro c hc ha hcz _
    simp only [List.mem_cons, List.mem_singleton, List.not_mem_nil, or_false] at hc
    rcases hc with rfl | rfl
    · rw [hf] at ha; cases ha
    · exact ⟨_, List.mem_cons_of_mem _ (List.mem_singleton.2 rfl), rfl, rfl, ha⟩

set_option maxHeartbeats 1000000 in
/-- The function `place` on a listed free block of at least `asize` bytes. -/
theorem place_spec {b : Blk} (hi : Inv h bs fl sl [] []) (hb : b ∈ bs)
    (hf : b.alloc = false) {asize : Nat} (hz : asize % 16 = 0) (h16 : 16 ≤ asize)
    (hle : asize ≤ b.size) :
    ∃ h1 bs1 fl1 sl1 b1, place h b.addr asize = some h1 ∧ Inv h1 bs1 fl1 sl1 [] [] ∧
      b1 ∈ bs1 ∧ b1.addr = b.addr ∧ b1.alloc = true ∧ asize ≤ b1.size ∧
      Keeps [] bs bs1 ∧ h1.heap_lo = h.heap_lo ∧ h1.brk = h.brk ∧
      h1.max_addr = h.max_addr := by
  have hg := hi.geo
  have hpa : b.pa = true := hi.free_pa b hb hf (by simp)
  have hblt := hg.size_lt hb
  have hsb := hg.sizes b hb
  obtain ⟨A, n, B, hbs0⟩ := hg.split_at hb (by omega)
  have hbs : bs = A ++ [b, n] ++ B := by rw [hbs0]; simp
  have hn : n ∈ bs := by rw [hbs]; simp
  have hadj : Adj b n := by rw [hbs0] at hg; exact hg.adj_of_split
  obtain ⟨h1, fl1, sl1, hrem, hi1, r1, r2, r3⟩ := remove_spec hi hb hf (by simp)
  have hsub : (get_size h b.addr + 2 ^ 64 - asize) % 2 ^ 64 = b.size - asize := by
    rw [hi.get_size hb]
    have e : b.size + 2 ^ 64 - asize = (b.size - asize) + 2 ^ 64 := by omega
    rw [e, Nat.add_mod_right, Nat.mod_eq_of_lt (by omega)]
  unfold place
  simp only [hsub, min_block_size, hrem, Option.some_bind, Option.map_some', ge_iff_le]
  by_cases hsp : 16 ≤ b.size - asize
  · rw [if_pos hsp]
    have hw2 : asize ||| get_prev_alloc h b.addr ||| get_prev_sseg h b.addr =
        asize + flags false b.pa b.ps := by
      rw [hi.get_pa hb, hi.get_ps hb]
      exact size_or_flags hz b.pa b.ps
    have hrz : (b.size - asize) % 16 = 0 := by omega
    have hw3 : (if asize = 16 then (b.size - asize) ||| prev_sseg_mask ||| get_prev_alloc h b.addr
        else (b.size - asize) ||| get_prev_alloc h b.addr) =
        (b.size - asize) + flags false b.pa (decide (asize = 16)) := by
      rw [hi.get_pa hb]
      by_cases ha : asize = 16
      · rw [if_pos ha, or_ps_pa hrz]
        simp [ha]
      · rw [if_neg ha, or_pa hrz]
        simp [ha]
    obtain ⟨hi4, hk, g1, g2, g3, hfn2, hfn3⟩ := split_spec hi1 hbs hf hpa hz h16 (by omega)
      rfl rfl rfl rfl
    obtain ⟨h5, fl2, sl2, hins, hi5, q1, q2, q3⟩ :=
      insert_spec hi4 (b := ⟨b.addr + asize, b.size - asize, false, b.pa, decide (asize = 16)⟩)
        (by simp) rfl (by simp)
    rw [filter_self] at hi5
    refine ⟨h5, _, fl2, sl2, ⟨b.addr, asize, true, b.pa, b.ps⟩, ?_, hi5, by simp, rfl, rfl,
      le_refl _, hk, by rw [q1, g1, r1], by rw [q2, g2, r2], by rw [q3, g3, r3]⟩
    simp only [hw2, hw3, hfn2, hfn3]
    exact hins
  · rw [if_neg hsp]
    have he : asize = b.size := by omega
    have hw2 : b.size ||| get_prev_alloc h b.addr ||| get_prev_sseg h b.addr =
        b.size + flags false b.pa b.ps := by
      rw [hi.get_pa hb, hi.get_ps hb]
      exact size_or_flags hsb.1 b.pa b.ps
    obtain ⟨hi4, hk, g1, g2, g3, hfn2⟩ := whole_spec hi1 hbs hf rfl rfl
    refine ⟨_, _, fl1, sl1, ⟨b.addr, b.size, true, b.pa, b.ps⟩, ?_, hi4, by simp, rfl, rfl,
      by rw [he], hk, by rw [g1, r1], by rw [g2, r2], by rw [g3, r3]⟩
    simp only [hi.get_size hb, hw2, hfn2]

end

/-! ## `find_fit` -/

theorem find_fit_small_spec (h : Heap) (asize : Nat) :
    ∀ (xs : List Nat) (fuel block : Nat), SList h.mem block xs → xs.length < fuel →
      ∃ r, find_fit_small h asize fuel block = some r ∧
        ∀ x, r = some x → x ∈ xs ∧ asize ≤ get_size h x
  | _, 0, _, _, hf => by simp at hf
  | [], fuel + 1, block, hs, _ => by
    have : block = 0 := slist_nil.1 hs
    subst this
    refine ⟨none, ?_, fun x hx => by cases hx⟩
    unfold find_fit_small
    rw [if_pos rfl]
  | y :: ys, fuel + 1, block, hs, hf => by
    obtain ⟨rfl, h0, h2⟩ := slist_cons.1 hs
    unfold find_fit_small
    rw [if_neg h0]
    by_cases hc : asize ≤ get_size h block
    · rw [if_pos hc]
      refine ⟨some block, rfl, ?_⟩
      intro x hx
      cases hx
      exact ⟨by simp, hc⟩
    · rw [if_neg hc]
      obtain ⟨r, hr, hp⟩ := find_fit_small_spec h asize ys fuel (find_next_free h block) h2
        (by simp at hf; omega)
      exact ⟨r, hr, fun x hx => ⟨List.mem_cons_of_mem _ (hp x hx).1, (hp x hx).2⟩⟩

theorem prop_ite {G : Nat → Prop} {c : Prop} [Decidable c] {a b : Nat} (ha : G a)
    (hb : G b) : G (if c then a else b) := by
  split <;> assumption

theorem find_fit_list_spec (h : Heap) (asize : Nat) (G : Nat → Prop) :
    ∀ (xs : List Nat) (fuel block : Nat) (fs : FitState), SList h.mem block xs →
      xs.length < fuel → (∀ x ∈ xs, asize ≤ get_size h x → G x) → G fs.block_bestfit →
      ∃ r, find_fit_list h asize fuel block fs = some r ∧
        match r with
        | Sum.inl b => G b
        | Sum.inr fs1 => G fs1.block_bestfit
  | _, 0, _, _, _, hf, _, _ => by simp at hf
  | [], fuel + 1, block, fs, hs, _, _, hfs => by
    have : block = 0 := slist_nil.1 hs
    subst this
    refine ⟨Sum.inr fs, ?_, hfs⟩
    unfold find_fit_list
    rw [if_pos rfl]
  | y :: ys, fuel + 1, block, fs, hs, hf, hG, hfs => by
    obtain ⟨rfl, h0, h2⟩ := slist_cons.1 hs
    have hlen : ys.length < fuel := by simp at hf; omega
    have hG2 : ∀ x ∈ ys, asize ≤ get_size h x → G x :=
      fun x hx => hG x (List.mem_cons_of_mem _ hx)
    unfold find_fit_list
    rw [if_neg h0]
    by_cases hc : asize = get_size h block
    · rw [if_pos hc]
      exact ⟨Sum.inl block, rfl, hG block (by simp) (by omega)⟩
    · rw [if_neg hc]
      by_cases hc2 : asize < get_size h block
      · rw [if_pos hc2]
        have hb : G block := hG block (by simp) (by omega)
        have key : ∀ fs3 : FitState, G fs3.block_bestfit →
            ∃ r, (if fs3.n = nth_fit then some (Sum.inl fs3.block_bestfit)
              else find_fit_list h asize fuel (find_next_free h block) fs3) = some r ∧
              match r with
              | Sum.inl b => G b
              | Sum.inr fs1 => G fs1.block_bestfit := by
          intro fs3 h3
          by_cases hn : fs3.n = nth_fit
          · rw [if_pos hn]
            exact ⟨_, rfl, h3⟩
          · rw [if_neg hn]
            exact find_fit_list_spec h asize G ys fuel _ fs3 h2 hlen hG2 h3
        apply key
        by_cases hff : fs.if_firstfit = true
        · simp only [hff, if_true]
          rw [apply_ite FitState.block_bestfit]
          exact prop_ite hb hb
        · simp only [hff]
          rw [apply_ite FitState.block_bestfit]
          exact prop_ite hb hfs
      · rw [if_neg hc2]
        exact find_fit_list_spec h asize G ys fuel _ fs h2 hlen hG2 hfs

section

variable {h : Heap} {bs : List Blk} {fl : Nat → List Nat} {sl us ex : List Nat}

theorem find_fit_classes_spec (hi : Inv h bs fl sl us ex) (asize : Nat) :
    ∀ (count k : Nat) (fs : FitState), Fit bs asize fs.block_bestfit →
      ∃ r, find_fit_classes h asize count (k : Int) fs = some r ∧ Fit bs asize r
  | 0, _, fs, hfs => ⟨_, rfl, hfs⟩
  | count + 1, k, fs, hfs => by
    unfold find_fit_classes
    by_cases hk : (k : Int) < 11
    · rw [if_pos hk]
      have hk2 : k < 11 := by omega
      rw [seg_get_nat h hk2]
      simp only [Option.some_bind]
      obtain ⟨r, hr, hp⟩ := find_fit_list_spec h asize (Fit bs asize) (fl k) (h.fuel + 1)
        (h.seg_list k) fs (hi.lists.seg k hk2).1
        (by have := hi.seg_length hk2; omega)
        (by
          intro x hx hle
          obtain ⟨c, hc, e1, e2, _⟩ := hi.seg_block hk2 hx
          right
          refine ⟨c, hc, e1, e2, ?_⟩
          rw [← e1, hi.get_size hc] at hle
          exact hle)
        hfs
      rw [hr]
      simp only [Option.some_bind]
      cases r with
      | inl b => exact ⟨b, rfl, hp⟩
      | inr fs1 =>
        have := find_fit_classes_spec hi asize count (k + 1) fs1 hp
        simpa using this
    · rw [if_neg hk]
      exact ⟨_, rfl, hfs⟩

/-- `find_fit` returns `NULL` or a listed free block of at least `asize` bytes. -/
theorem find_fit_spec (hi : Inv h bs fl sl us ex) {asize : Nat} (h16 : 16 ≤ asize) :
    ∃ r, find_fit h asize = some r ∧ Fit bs asize r := by
  unfold find_fit
  simp only [min_block_size]
  by_cases ha : asize = 16
  · rw [if_pos ha]
    obtain ⟨r, hr, hp⟩ := find_fit_small_spec h asize sl (h.fuel + 1) h.small_seg_list
      hi.lists.small (by have := hi.small_length; omega)
    rw [hr]
    simp only [Option.some_bind]
    cases r with
    | some x =>
      refine ⟨x, rfl, Or.inr ?_⟩
      obtain ⟨hx, _⟩ := hp x rfl
      obtain ⟨c, hc, e1, e2, e3, _⟩ := hi.small_block hx
      exact ⟨c, hc, e1, e2, by omega⟩
    | none =>
      have := find_fit_classes_spec hi asize 12 0 ⟨0, true, 0, 0⟩ (Or.inl rfl)
      simpa using this
  · rw [if_neg ha]
    obtain ⟨k, _, hk⟩ := get_seg_list_range (show 16 < asize by omega)
    rw [hk]
    exact find_fit_classes_spec hi asize 12 k ⟨0, true, 0, 0⟩ (Or.inl rfl)

end

theorem round_up_spec {size : Nat} (hs : size ≤ 2 ^ 64 - 16) :
    round_up size dsize % 16 = 0 ∧ size ≤ round_up size dsize ∧
      round_up size dsize < size + 16 ∧ round_up size dsize < 2 ^ 64 := by
  unfold round_up dsize
  have e1 : (size + (16 - 1)) % 2 ^ 64 = size + 15 := Nat.mod_eq_of_lt (by omega)
  rw [e1]
  have e2 : 16 * ((size + 15) / 16) < 2 ^ 64 := by omega
  rw [Nat.mod_eq_of_lt e2]
  omega

theorem round_up_of_dvd {size : Nat} (hs : size < 2 ^ 64) (hz : size % 16 = 0) :
    round_up size dsize = size := by
  have := round_up_spec (show size ≤ 2 ^ 64 - 16 by omega)
  omega

section

variable {h : Heap} {bs : List Blk} {fl : Nat → List Nat} {sl us ex : List Nat}

/-- The epilogue is the last block of the list. -/
theorem Geo.epi_last {lo brk mx : Nat} (hg : Geo lo brk mx bs) :
    ∃ A e, bs = A ++ [e] ∧ e.size = 0 ∧ e.alloc = true ∧ e.addr + 8 = brk := by
  obtain ⟨e, he, hez⟩ := hg.epi
  obtain ⟨A, B, rfl⟩ := List.append_of_mem he
  have h1 := (hg.sizes e he).2.1 hez
  cases B with
  | nil => exact ⟨A, e, rfl, hez, h1.1, h1.2⟩
  | cons c B =>
    exfalso
    have hc : c ∈ A ++ e :: c :: B := by simp
    have hadj := hg.adj_of_split
    have := hadj.2.1
    omega

set_option maxHeartbeats 2000000 in
/-- The header writes of `extend_heap`: the old epilogue becomes a free block of `sz`
bytes, followed by a new epilogue. -/
theorem grow_spec {A : List Blk} {e : Blk} (hi : Inv h bs fl sl [] []) (hbs : bs = A ++ [e])
    (hez : e.size = 0) {sz : Nat} (hz : sz % 16 = 0) (h16 : 16 ≤ sz)
    (hfit : h.brk + sz ≤ h.max_addr) {h1 h2 h3 : Heap}
    (hh1 : h1 = { h with brk := h.brk + sz })
    (hh2 : h2 = write_footer (write_header h1 e.addr (sz + flags false e.pa e.ps) false) e.addr
      (sz + flags false e.pa e.ps) false)
    (hh3 : h3 = write_header (h2.write (e.addr + sz) 0) (e.addr + sz) 0 true) :
    Inv h3 (A ++ [⟨e.addr, sz, false, e.pa, e.ps⟩, ⟨e.addr + sz, 0, true, true, false⟩] ++ [])
        fl sl [e.addr] [e.addr, e.addr + sz] ∧
      Keeps [] bs (A ++ [⟨e.addr, sz, false, e.pa, e.ps⟩,
        ⟨e.addr + sz, 0, true, true, false⟩] ++ []) ∧
      h3.heap_lo = h.heap_lo ∧ h3.brk = h.brk + sz ∧ h3.max_addr = h.max_addr ∧
      find_next h2 e.addr = e.addr + sz := by
  have hg := hi.geo
  have he : e ∈ bs := by rw [hbs]; simp
  have hse := (hg.sizes e he).2.1 hez
  have hmx := hg.max_le
  have hfl := flags_lt false e.pa e.ps
  have hm1 : h1.mem = h.mem := by rw [hh1]
  have hm2 : ∀ x, h2.mem x =
      if x = e.addr + sz - 8 ∧ 16 < sz + flags false e.pa e.ps then sz + flags false e.pa e.ps
      else if x = e.addr then sz + flags false e.pa e.ps
      else if x = e.addr + 16 ∧ sz ≤ 16 then h.mem (e.addr + 16) ||| 4
      else h.mem x := by
    intro x
    rw [hh2, mark_free_mem h1 hz (by omega) h16 hfl, hm1]
  have hfn2 : find_next h2 e.addr = e.addr + sz := by
    unfold find_next get_size
    rw [hm2, if_neg (by omega), if_pos rfl, extract_size_add hz (by omega) hfl]
  have hm3 : ∀ x, h3.mem x =
      if x = e.addr + sz then 3
      else if x = e.addr + sz + 16 then (h2.write (e.addr + sz) 0).mem (e.addr + sz + 16) ||| 4
      else h2.mem x := by
    intro x
    rw [hh3, write_header_epi_mem]
    by_cases hx : x = e.addr + sz
    · rw [if_pos hx, if_pos hx]
    · rw [if_neg hx, if_neg hx]
      by_cases hx2 : x = e.addr + sz + 16
      · rw [if_pos hx2, if_pos hx2]
      · rw [if_neg hx2, if_neg hx2, write_mem, if_neg hx]
  have hsg : h3.heap_lo = h.heap_lo ∧ h3.brk = h.brk + sz ∧ h3.max_addr = h.max_addr ∧
      h3.heap_start = h.heap_start ∧ h3.seg_list = h.seg_list ∧
      h3.small_seg_list = h.small_seg_list := by
    have s1 : SameGlobals h1 h3 := by
      rw [hh3, hh2]
      exact (((sameGlobals_write_header _ _ _ _).trans (sameGlobals_write_footer _ _ _ _)).trans
        (sameGlobals_write _ _ _)).trans (sameGlobals_write_header _ _ _ _)
    obtain ⟨g1, g2, g3, g4, g5, g6⟩ := s1
    rw [g1, g2, g3, g4, g5, g6, hh1]
    exact ⟨rfl, rfl, rfl, rfl, rfl, rfl⟩
  obtain ⟨g1, g2, g3, g4, g5, g6⟩ := hsg
  have hbs2 : bs = A ++ [e] ++ [] := by rw [hbs]; simp
  refine ⟨?_, ?_, g1, g2, g3, hfn2⟩
  · apply hi.surgery (p := e.addr) (q := e.addr + sz + 17) hbs2 (by simp) (by simp)
      g1 g3 g4 g5 g6
    · rw [g2, g3]; exact hfit
    · simp only [List.chain'_cons, List.chain'_singleton, and_true]
      refine ⟨rfl, show 0 < sz by omega, fun e1 => ?_, fun e1 => ?_, fun e1 => ?_⟩
      · have : true = false := e1
        cases this
      · have : true = false := e1
        cases this
      · have : false = true := e1
        cases this
    · intro x y y1 hy hy1 ha
      simp only [List.head?_cons, Option.mem_def, Option.some.injEq] at hy hy1
      subst hy hy1
      exact ha.left_same rfl rfl rfl
    · intro x x1 y hx hx1 ha
      simp only [List.getLast?_singleton, Option.mem_def, Option.some.injEq] at hx
      subst hx
      have := ha.2.1
      omega
    · intro c hc
      simp only [List.mem_cons, List.mem_singleton, List.not_mem_nil, or_false] at hc
      rcases hc with rfl | rfl
      · exact ⟨hz, fun e1 => by have : sz = 0 := e1; omega, fun _ => h16⟩
      · refine ⟨rfl, fun _ => ⟨rfl, ?_⟩, fun e1 => absurd rfl e1⟩
        show e.addr + sz + 8 = h3.brk
        rw [g2]
        omega
    · exact Or.inr rfl
    · intro _
      exact ⟨_, List.mem_cons_of_mem _ (List.mem_singleton.2 rfl), rfl⟩
    · intro c hc
      exact (hc e (by simp)).1
    · intro c hc
      simp at hc
    · intro x hx
      rw [hm3, if_neg (by omega), if_neg (by omega), hm2, if_neg (by omega), if_neg (by omega),
        if_neg (by omega)]
    · constructor
      · intro c hc
        simp only [List.mem_cons, List.mem_singleton, List.not_mem_nil, or_false] at hc
        rcases hc with rfl | rfl
        · show h3.mem e.addr = _
          rw [hm3, if_neg (by omega), if_neg (by omega), hm2, if_neg (by omega), if_pos rfl]
          rfl
        · show h3.mem (e.addr + sz) = _
          rw [hm3, if_pos rfl]
          rfl
      · intro c hc hcf hs
        simp only [List.mem_cons, List.mem_singleton, List.not_mem_nil, or_false] at hc
        rcases hc with rfl | rfl
        · show extract_size (h3.mem (e.addr + sz - 8)) = sz
          have hs2 : 16 < sz := hs
          rw [hm3, if_neg (by omega), if_neg (by omega), hm2, if_pos ⟨rfl, by omega⟩]
          exact extract_size_add hz (by omega) hfl
        · cases hcf
    · intro a z
      unfold Listed
      simp only [List.mem_cons, List.mem_singleton, List.not_mem_nil, or_false, exists_eq_or_imp,
        exists_eq_left]
      constructor
      · rintro (⟨e1, _, _, e4⟩ | ⟨_, _, e3, _⟩)
        · exact absurd e1.symm e4
        · cases e3
      · rintro ⟨_, _, e3, _⟩
        rw [hse.1] at e3
        cases e3
    · intro c ha _
      have h1 := ha e (by simp)
      simp only [List.mem_singleton, List.not_mem_nil, iff_false]
      exact fun e1 => h1 e1.symm
    · rintro x z ⟨c, hc, e1, e2, e3, e4⟩
      simp only [List.mem_singleton] at hc
      subst hc
      rw [hse.1] at e3
      cases e3
    · intro a _ _
      simp
    · intro c hc hcf hx
      simp only [List.mem_cons, List.mem_singleton, List.not_mem_nil, or_false] at hc
      rcases hc with rfl | rfl
      · exact absurd (List.mem_cons_self _ _) hx
      · cases hcf
  · rw [hbs2]
    apply keeps_surgery
    intro c hc ha hcz _
    simp only [List.mem_singleton] at hc
    subst hc
    exact absurd hez hcz

end

section

variable {h : Heap} {bs : List Blk} {fl : Nat → List Nat} {sl us ex : List Nat}

set_option maxHeartbeats 1000000 in
/-- The function `extend_heap` for a request whose rounded size is at least 16. -/
theorem extend_heap_spec (hi : Inv h bs fl sl [] []) {size : Nat} (hs : size ≤ 2 ^ 64 - 16)
    (h1 : 1 ≤ size) :
    ∃ r, extend_heap h size = some r ∧
      ((r.2 = 0 ∧ r.1 = h) ∨
        ∃ bs1 fl1 sl1 m, Inv r.1 bs1 fl1 sl1 [] [] ∧ m ∈ bs1 ∧ m.addr = r.2 ∧
          m.alloc = false ∧ size ≤ m.size ∧ Keeps [] bs bs1 ∧
          r.1.heap_lo = h.heap_lo ∧ r.1.max_addr = h.max_addr) := by
  have hg := hi.geo
  obtain ⟨A, e, hbs, hez, hea, heb⟩ := hg.epi_last
  have he : e ∈ bs := by rw [hbs]; simp
  obtain ⟨r1, r2, r3, r4⟩ := round_up_spec hs
  have hepi : mem_heap_hi h - 7 = e.addr := by
    unfold mem_heap_hi; omega
  unfold extend_heap
  simp only [hepi]
  unfold mem_sbrk
  by_cases hfit : h.brk + round_up size dsize ≤ h.max_addr
  · rw [if_pos hfit]
    simp only []
    have hpl : payload_to_header h.brk = e.addr := by
      unfold payload_to_header; omega
    have hw : round_up size dsize ||| get_prev_alloc h e.addr ||| get_prev_sseg h e.addr =
        round_up size dsize + flags false e.pa e.ps := by
      rw [hi.get_pa he, hi.get_ps he]
      exact size_or_flags r1 e.pa e.ps
    obtain ⟨hi3, hk, g1, g2, g3, hfn2⟩ := grow_spec hi hbs hez r1 (by omega) hfit rfl rfl rfl
    obtain ⟨h4, bs4, fl4, sl4, m, hco, hi4, hm, hmf, hm1, hm2, hk4, q1, q2, q3⟩ :=
      coalesce_spec hi3
        (b := ⟨e.addr, round_up size dsize, false, e.pa, e.ps⟩) (by simp) rfl
        (by
          intro a ha
          simp only [List.mem_cons, List.mem_singleton, List.not_mem_nil, or_false] at ha
          exact ha)
    refine ⟨(h4, m.addr), ?_, Or.inr ⟨bs4, fl4, sl4, m, hi4, hm, rfl, hmf, ?_, hk.trans_keeps hk4,
      by rw [q1, g1], by rw [q3, g3]⟩⟩
    · simp only [hpl, hw, hfn2]
      exact hco
    · have e1 : m.addr ≤ e.addr := hm1
      have e2 : e.addr + round_up size dsize ≤ m.addr + m.size := hm2
      omega
  · rw [if_neg hfit]
    exact ⟨(h, 0), rfl, Or.inl ⟨rfl, rfl⟩⟩

set_option maxHeartbeats 1000000 in
/-- The function `mm_init` on an empty heap region. -/
theorem mm_init_spec (h : Heap) (hbrk : h.brk = h.heap_lo) (hal : h.heap_lo % 16 = 0)
    (hpos : 0 < h.heap_lo) (hmax : h.max_addr ≤ 2 ^ 64) :
    ∃ r, mm_init h = some r ∧
      (r.2 = true → ∃ bs fl sl, Inv r.1 bs fl sl [] [] ∧ r.1.heap_lo = h.heap_lo ∧
        r.1.max_addr = h.max_addr) := by
  unfold mm_init mem_sbrk
  by_cases hfit : h.brk + 2 * wsize ≤ h.max_addr
  · rw [if_pos hfit]
    simp only []
    have hw8 : wsize = 8 := rfl
    obtain ⟨h4, hh4⟩ : ∃ h4 : Heap, h4 =
        { ((({ h with brk := h.brk + 2 * wsize } : Heap).write h.brk (pack 0 true)).write
            (h.brk + 8) (pack 0 true) |>.write (h.brk + 8)
              (((({ h with brk := h.brk + 2 * wsize } : Heap).write h.brk (pack 0 true)).write
                (h.brk + 8) (pack 0 true)).mem (h.brk + 8) ||| prev_alloc_mask)) with
          heap_start := h.brk + 8, small_seg_list := 0, seg_list := fun _ => 0 } := ⟨_, rfl⟩
    have hi4 : Inv h4 [⟨h.heap_lo + 8, 0, true, true, false⟩] (fun _ => []) [] [] [] := by
      have m1 : h4.mem (h.heap_lo + 8) = 3 := by
        rw [hh4, hbrk]
        simp only [write_mem, if_true]
        decide
      have e1 : h4.heap_lo = h.heap_lo := by rw [hh4]; rfl
      have e2 : h4.brk = h.heap_lo + 16 := by rw [hh4, hbrk]; rfl
      have e3 : h4.max_addr = h.max_addr := by rw [hh4]; rfl
      have e4 : h4.heap_start = h.heap_lo + 8 := by rw [hh4, hbrk]
      have e5 : h4.seg_list = fun _ => 0 := by rw [hh4]
      have e6 : h4.small_seg_list = 0 := by rw [hh4]
      refine ⟨⟨?_, ?_, ?_, ?_, ?_, ?_, ?_⟩, ?_, ⟨?_, ?_⟩, ⟨?_, ?_⟩, ⟨?_, ?_, ?_, ?_⟩, ?_⟩
      · rw [e1]; exact hal
      · rw [e1]; exact hpos
      · rw [e3]; exact hmax
      · rw [e2, e3]; rw [hbrk, hw8] at hfit; omega
      · rw [e1]
        simp only [List.chain'_cons, List.chain'_singleton, and_true]
        refine ⟨rfl, by simp [prologue], fun e => ?_, fun e => ?_, fun e => ?_⟩
        · cases e
        · cases e
        · cases e
      · intro c hc
        simp only [List.mem_singleton] at hc
        subst hc
        refine ⟨rfl, fun _ => ⟨rfl, ?_⟩, fun e => absurd rfl e⟩
        show h.heap_lo + 8 + 8 = h4.brk
        rw [e2]
      · exact ⟨_, List.mem_singleton.2 rfl, rfl⟩
      · rw [e4, e1]
      · intro c hc
        simp only [List.mem_singleton] at hc
        subst hc
        exact m1
      · intro c hc hf
        simp only [List.mem_singleton] at hc
        subst hc
        cases hf
      · intro k _
        rw [e5]
        exact ⟨slist_nil.2 rfl, List.chain'_nil, by simp⟩
      · rw [e6]
        exact slist_nil.2 rfl
      · intro k _ x
        simp only [List.not_mem_nil, false_iff]
        rintro ⟨z, ⟨c, hc, _, _, e3, _⟩, _⟩
        simp only [List.mem_singleton] at hc
        subst hc
        cases e3
      · intro x
        simp only [List.not_mem_nil, false_iff]
        rintro ⟨c, hc, _, _, e3, _⟩
        simp only [List.mem_singleton] at hc
        subst hc
        cases e3
      · intro k _
        exact List.nodup_nil
      · exact List.nodup_nil
      · intro c hc hf
        simp only [List.mem_singleton] at hc
        subst hc
        cases hf
    obtain ⟨r, hr, hp⟩ := @extend_heap_spec _ _ _ _ hi4 chunksize (by decide) (by decide)
    rw [← hh4, hr]
    refine ⟨(r.1, r.2 != 0), rfl, ?_⟩
    intro hne
    rcases hp with ⟨h0, _⟩ | ⟨bs1, fl1, sl1, m, hi1, _, _, _, _, _, q1, q2⟩
    · simp [h0] at hne
    · refine ⟨bs1, fl1, sl1, hi1, ?_, ?_⟩
      · show r.1.heap_lo = h.heap_lo
        rw [q1, hh4]; rfl
      · show r.1.max_addr = h.max_addr
        rw [q2, hh4]; rfl
  · rw [if_neg hfit]
    exact ⟨(h, false), rfl, fun e => by cases e⟩

end

theorem Live.keeps {bs bs1 : List Blk} {live : List Nat} (hl : Live bs live)
    (hk : Keeps [] bs bs1) : Live bs1 live := by
  intro p hp
  obtain ⟨b, hb, h1, h2, h3⟩ := hl p hp
  obtain ⟨c, hc, e1, e2, e3⟩ := hk b hb h1 h2 (by simp)
  exact ⟨c, hc, e3, by rw [e2]; exact h2, by rw [e1]; exact h3⟩

theorem Live.keeps_filter {bs bs1 : List Blk} {live : List Nat} {a : Nat} (hl : Live bs live)
    (hk : Keeps [a] bs bs1) : Live bs1 (live.filter (· ≠ a + 8)) := by
  intro p hp
  obtain ⟨hp1, hp2⟩ := List.mem_filter.1 hp
  obtain ⟨b, hb, h1, h2, h3⟩ := hl p hp1
  have hne : b.addr ∉ [a] := by
    simp only [List.mem_singleton]
    intro e
    simp [h3, e] at hp2
  obtain ⟨c, hc, e1, e2, e3⟩ := hk b hb h1 h2 hne
  exact ⟨c, hc, e3, by rw [e2]; exact h2, by rw [e1]; exact h3⟩

theorem Live.filter {bs : List Blk} {live : List Nat} (hl : Live bs live) (q : Nat) :
    Live bs (live.filter (· ≠ q)) :=
  fun p hp => hl p (List.mem_filter.1 hp).1

theorem Keeps.weaken {X : List Nat} {bs bs1 : List Blk} (h : Keeps [] bs bs1) :
    Keeps X bs bs1 := fun c hc ha hz _ => h c hc ha hz (by simp)

section

variable {h : Heap} {bs : List Blk} {fl : Nat → List Nat} {sl us ex : List Nat}

/-- A write into the payload of an allocated block. -/
theorem Inv.payload_write (hi : Inv h bs fl sl [] []) {b : Blk} (hb : b ∈ bs)
    (hal : b.alloc = true) {w : Nat} (hw : b.addr + 8 ≤ w) (hw2 : w < b.addr + b.size)
    (v : Nat) : Inv (h.write w v) bs fl sl [] [] := by
  have hg := hi.geo
  have key : ∀ c ∈ bs, (h.write w v).mem c.addr = h.mem c.addr := by
    intro c hc
    obtain ⟨f1, f2, f3, f4, f5, f6⟩ := hg.facts hc hb
    have : c.addr ≠ w := by omega
    simp [this]
  have key2 : ∀ c ∈ bs, c.alloc = false → ∀ d, d < c.size → (h.write w v).mem (c.addr + d) =
      h.mem (c.addr + d) := by
    intro c hc hcf d hd
    obtain ⟨f1, f2, f3, f4, f5, f6⟩ := hg.facts hc hb
    have hne : c.addr ≠ b.addr := by
      intro e
      rw [f5 e, hal] at hcf
      cases hcf
    have : c.addr + d ≠ w := by omega
    simp [this]
  refine ⟨hg, hi.start, ?_, ?_, hi.spec, hi.free_pa⟩
  · apply hi.memok.frame_mem key
    intro c hc hcf hs
    have := key2 c hc hcf (c.size - 8) (by omega)
    have e : c.addr + (c.size - 8) = c.addr + c.size - 8 := by omega
    rw [e] at this
    exact this
  · apply hi.lists.frame_lists
    · intro k hk y hy
      obtain ⟨c, hc, e1, e2, e3, _⟩ := hi.seg_block hk hy
      subst e1
      exact ⟨key2 c hc e2 8 (by omega), key2 c hc e2 16 (by omega)⟩
    · intro y hy
      obtain ⟨c, hc, e1, e2, e3, _⟩ := hi.small_block hy
      subst e1
      exact key2 c hc e2 8 (by omega)

theorem Inv.store_byte (hi : Inv h bs fl sl [] []) {b : Blk} (hb : b ∈ bs)
    (hal : b.alloc = true) {a : Nat} (ha : b.addr + 8 ≤ a) (ha2 : a < b.addr + b.size)
    (v : Nat) : Inv (store_byte h a v) bs fl sl [] [] := by
  have h8 := hi.geo.align hb
  unfold Mm.store_byte
  exact hi.payload_write hb hal (by omega) (by omega) _

theorem store_byte_region (h : Heap) (a v : Nat) :
    (store_byte h a v).heap_lo = h.heap_lo ∧ (store_byte h a v).brk = h.brk ∧
      (store_byte h a v).max_addr = h.max_addr := ⟨rfl, rfl, rfl⟩

theorem Inv.memcpy (hi : Inv h bs fl sl [] []) {b : Blk} (hb : b ∈ bs)
    (hal : b.alloc = true) (src : Nat) :
    ∀ n, n + 8 ≤ b.size → Inv (memcpy h (b.addr + 8) src n) bs fl sl [] []
  | 0, _ => hi
  | n + 1, hn => by
    have ih := Inv.memcpy hi hb hal src n (by omega)
    unfold Mm.memcpy
    exact ih.store_byte hb hal (by omega) (by omega) _

theorem memcpy_region (h : Heap) (dst src : Nat) :
    ∀ n, (memcpy h dst src n).heap_lo = h.heap_lo ∧ (memcpy h dst src n).brk = h.brk ∧
      (memcpy h dst src n).max_addr = h.max_addr
  | 0 => ⟨rfl, rfl, rfl⟩
  | n + 1 => by
    have ih := memcpy_region h dst src n
    unfold memcpy
    exact ih

theorem Inv.memset (hi : Inv h bs fl sl [] []) {b : Blk} (hb : b ∈ bs)
    (hal : b.alloc = true) (c : Nat) :
    ∀ n, n + 8 ≤ b.size → Inv (memset h (b.addr + 8) c n) bs fl sl [] []
  | 0, _ => hi
  | n + 1, hn => by
    have ih := Inv.memset hi hb hal c n (by omega)
    unfold Mm.memset
    exact ih.store_byte hb hal (by omega) (by omega) _

theorem memset_region (h : Heap) (dst c : Nat) :
    ∀ n, (memset h dst c n).heap_lo = h.heap_lo ∧ (memset h dst c n).brk = h.brk ∧
      (memset h dst c n).max_addr = h.max_addr
  | 0 => ⟨rfl, rfl, rfl⟩
  | n + 1 => by
    have ih := memset_region h dst c n
    unfold memset
    exact ih

set_option maxHeartbeats 1000000 in
/-- The function `malloc` for a request of at most `2 ^ 64 - 24` bytes. -/
theorem malloc_spec (hi : Inv h bs fl sl [] []) {size : Nat} (hs : size ≤ 2 ^ 64 - 24) :
    ∃ h1 p bs1 fl1 sl1, malloc h size = some (h1, p) ∧ Inv h1 bs1 fl1 sl1 [] [] ∧
      Keeps [] bs bs1 ∧ h1.heap_lo = h.heap_lo ∧ h1.max_addr = h.max_addr ∧
      (size = 0 → p = 0) ∧
      (p ≠ 0 → ∃ b ∈ bs1, b.alloc = true ∧ p = b.addr + 8 ∧ size + 8 ≤ b.size ∧
        ∀ c ∈ bs, c.alloc = true → c.size ≠ 0 → c.addr ≠ b.addr) := by
  have hg := hi.geo
  have hst : h.heap_start ≠ 0 := by
    rw [hi.start]
    have := hg.lo_pos
    omega
  unfold malloc
  rw [if_neg hst]
  simp only [Option.some_bind]
  by_cases h0 : size = 0
  · rw [if_pos h0]
    exact ⟨h, 0, bs, fl, sl, rfl, hi, Keeps.refl_keeps _ _, rfl, rfl, fun _ => rfl,
      fun e => absurd rfl e⟩
  rw [if_neg h0]
  have hw8 : wsize = 8 := rfl
  have e1 : (size + wsize) % 2 ^ 64 = size + 8 := by
    rw [hw8]; exact Nat.mod_eq_of_lt (by omega)
  rw [e1]
  obtain ⟨r1, r2, r3, r4⟩ := round_up_spec (show size + 8 ≤ 2 ^ 64 - 16 by omega)
  generalize hasz : round_up (size + 8) dsize = asize at *
  have ha16 : 16 ≤ asize := by omega
  obtain ⟨r, hr, hfit⟩ := find_fit_spec hi ha16
  rw [hr]
  simp only [Option.some_bind]
  by_cases hr0 : r = 0
  · rw [if_pos hr0]
    have hmx : max asize chunksize % 16 = 0 ∧ asize ≤ max asize chunksize ∧
        max asize chunksize < 2 ^ 64 ∧ 1 ≤ max asize chunksize := by
      unfold max chunksize
      split <;> omega
    obtain ⟨x, hx, hp⟩ := @extend_heap_spec _ _ _ _ hi (max asize chunksize) (by omega) hmx.2.2.2
    rw [hx]
    simp only [Option.some_bind]
    rcases hp with ⟨hx0, hxh⟩ | ⟨bs1, fl1, sl1, m, hi1, hm, hma, hmf, hms, hk, q1, q2⟩
    · rw [if_pos hx0, hxh]
      exact ⟨h, 0, bs, fl, sl, rfl, hi, Keeps.refl_keeps _ _, rfl, rfl, fun e => absurd e h0,
        fun e => absurd rfl e⟩
    · have hne : x.2 ≠ 0 := by
        rw [← hma]; exact hi1.addr_pos hm
      rw [if_neg hne, ← hma]
      obtain ⟨h2, bs2, fl2, sl2, b1, hpl, hi2, hb1, e1, e2, e3, hk2, p1, p2, p3⟩ :=
        place_spec hi1 hm hmf r1 ha16 (by omega)
      rw [hpl]
      refine ⟨h2, header_to_payload m.addr, bs2, fl2, sl2, rfl, hi2, hk.trans_keeps hk2,
        by rw [p1, q1], by rw [p3, q2], fun e => absurd e h0, fun _ => ?_⟩
      refine ⟨b1, hb1, e2, by rw [e1]; rfl, by omega, ?_⟩
      intro c hc hca hcz hce
      obtain ⟨c1, hc1, f1, _, f3⟩ := hk c hc hca hcz (by simp)
      have := hi1.geo.uniq hc1 hm (by rw [f1, hce, e1])
      rw [this, hmf] at f3
      cases f3
  · rw [if_neg hr0]
    rcases hfit with e | ⟨b, hb, hba, hbf, hbs⟩
    · exact absurd e hr0
    · rw [← hba]
      obtain ⟨h2, bs2, fl2, sl2, b1, hpl, hi2, hb1, e1, e2, e3, hk2, p1, p2, p3⟩ :=
        place_spec hi hb hbf r1 ha16 hbs
      rw [hpl]
      refine ⟨h2, header_to_payload b.addr, bs2, fl2, sl2, rfl, hi2, hk2, p1, p3,
        fun e => absurd e h0, fun _ => ?_⟩
      refine ⟨b1, hb1, e2, by rw [e1]; rfl, by omega, ?_⟩
      intro c hc hca hcz hce
      have := hg.uniq hc hb (by rw [hce, e1])
      rw [this, hbf] at hca
      cases hca

end

section

variable {h : Heap} {bs : List Blk} {fl : Nat → List Nat} {sl us ex : List Nat}

theorem malloc_step (hi : Inv h bs fl sl [] []) {live : List Nat} (hl : Live bs live)
    {size : Nat} (hs : size ≤ 2 ^ 64 - 24) :
    ∃ h1 p bs1 fl1 sl1, malloc h size = some (h1, p) ∧ Inv h1 bs1 fl1 sl1 [] [] ∧
      Live bs1 (live_malloc live p) ∧ h1.heap_lo = h.heap_lo ∧ h1.max_addr = h.max_addr ∧
      (size = 0 → p = 0) ∧ (p ≠ 0 → p ∉ live) ∧
      (p ≠ 0 → ∃ b ∈ bs1, b.alloc = true ∧ p = b.addr + 8 ∧ size + 8 ≤ b.size) := by
  obtain ⟨h1, p, bs1, fl1, sl1, e, hi1, hk, q1, q2, h0, hp⟩ := malloc_spec hi hs
  refine ⟨h1, p, bs1, fl1, sl1, e, hi1, ?_, q1, q2, h0, ?_, ?_⟩
  · unfold live_malloc
    by_cases hp0 : p = 0
    · rw [if_pos hp0]; exact hl.keeps hk
    · rw [if_neg hp0]
      obtain ⟨b, hb, a1, a2, a3, _⟩ := hp hp0
      intro x hx
      rcases List.mem_cons.1 hx with rfl | hx
      · exact ⟨b, hb, a1, by omega, a2⟩
      · exact hl.keeps hk x hx
  · intro hp0 hin
    obtain ⟨b, hb, a1, a2, a3, a4⟩ := hp hp0
    obtain ⟨c, hc, c1, c2, c3⟩ := hl p hin
    exact a4 c hc c1 c2 (by omega)
  · intro hp0
    obtain ⟨b, hb, a1, a2, a3, _⟩ := hp hp0
    exact ⟨b, hb, a1, a2, a3⟩

theorem free_step (hi : Inv h bs fl sl [] []) {live : List Nat} (hl : Live bs live)
    {p : Nat} (hp : p = 0 ∨ p ∈ live) :
    ∃ h1 bs1 fl1 sl1, free h p = some h1 ∧ Inv h1 bs1 fl1 sl1 [] [] ∧
      Live bs1 (live_free live p) ∧ h1.heap_lo = h.heap_lo ∧ h1.max_addr = h.max_addr := by
  by_cases hp0 : p = 0
  · refine ⟨h, bs, fl, sl, ?_, hi, hl.filter p, rfl, rfl⟩
    unfold free
    rw [if_pos hp0]
  · rcases hp with e | hin
    · exact absurd e hp0
    · obtain ⟨b, hb, a1, a2, a3⟩ := hl p hin
      obtain ⟨h1, bs1, fl1, sl1, e, hi1, hk, q1, _, q3⟩ := free_spec hi hb a1 a2
      refine ⟨h1, bs1, fl1, sl1, by rw [a3]; exact e, hi1, ?_, q1, q3⟩
      unfold live_free
      rw [a3]
      exact hl.keeps_filter hk

set_option maxHeartbeats 1000000 in
theorem realloc_step (hi : Inv h bs fl sl [] []) {live : List Nat} (hl : Live bs live)
    {p size : Nat} (hp : p = 0 ∨ p ∈ live) (hs : size ≤ 2 ^ 64 - 24) :
    ∃ h1 q bs1 fl1 sl1, realloc h p size = some (h1, q) ∧ Inv h1 bs1 fl1 sl1 [] [] ∧
      Live bs1 (live_realloc live p size q) ∧ h1.heap_lo = h.heap_lo ∧
      h1.max_addr = h.max_addr ∧ (size = 0 → q = 0) ∧
      (q ≠ 0 → ∃ b ∈ bs1, b.alloc = true ∧ q = b.addr + 8 ∧ size + 8 ≤ b.size) := by
  unfold realloc
  simp only []
  by_cases hs0 : size = 0
  · rw [if_pos hs0]
    obtain ⟨h1, bs1, fl1, sl1, e, hi1, hl1, q1, q2⟩ := free_step hi hl hp
    rw [e]
    refine ⟨h1, 0, bs1, fl1, sl1, rfl, hi1, ?_, q1, q2, fun _ => rfl, fun e => absurd rfl e⟩
    unfold live_realloc
    rw [if_pos hs0]
    exact hl1
  rw [if_neg hs0]
  by_cases hp0 : p = 0
  · rw [if_pos hp0]
    obtain ⟨h1, q, bs1, fl1, sl1, e, hi1, hl1, q1, q2, _, _, hq⟩ := malloc_step hi hl hs
    refine ⟨h1, q, bs1, fl1, sl1, e, hi1, ?_, q1, q2, fun e => absurd e hs0, hq⟩
    unfold live_realloc
    rw [if_neg hs0]
    unfold live_malloc at hl1
    by_cases hq0 : q = 0
    · rw [if_pos hq0] at hl1 ⊢; exact hl1
    · rw [if_neg hq0] at hl1 ⊢
      intro x hx
      rcases List.mem_cons.1 hx with rfl | hx
      · exact hl1 x (by simp)
      · exact hl1 x (List.mem_cons_of_mem _ (List.mem_filter.1 hx).1)
  rw [if_neg hp0]
  have hin : p ∈ live := by
    rcases hp with e | e
    · exact absurd e hp0
    · exact e
  obtain ⟨b, hb, b1, b2, b3⟩ := hl p hin
  obtain ⟨h1, q, bs1, fl1, sl1, e, hi1, hk, q1, q2, _, hq⟩ := malloc_spec hi hs
  rw [e]
  simp only [Option.some_bind]
  by_cases hq0 : q = 0
  · rw [if_pos hq0]
    refine ⟨h1, 0, bs1, fl1, sl1, rfl, hi1, ?_, q1, q2, fun e => absurd e hs0,
      fun e => absurd rfl e⟩
    unfold live_realloc
    rw [if_neg hs0, if_pos rfl]
    exact hl.keeps hk
  rw [if_neg hq0]
  obtain ⟨nb, hnb, n1, n2, n3, n4⟩ := hq hq0
  obtain ⟨c, hc, c1, c2, c3⟩ := hk b hb b1 b2 (by simp)
  have hpl : payload_to_header p = c.addr := by
    unfold payload_to_header
    rw [c1]; omega
  have hc16 : 16 ≤ c.size := (hi1.geo.sizes c hc).2.2 (by rw [c2]; exact b2)
  have hclt := hi1.geo.size_lt hc
  have hps : get_payload_size h1 (payload_to_header p) = c.size - 8 := by
    unfold get_payload_size wsize
    rw [hpl, hi1.get_size hc]
    have e2 : c.size + 2 ^ 64 - 8 = (c.size - 8) + 2 ^ 64 := by omega
    rw [e2, Nat.add_mod_right, Nat.mod_eq_of_lt (by omega)]
  rw [hps]
  generalize hcs : (if size < c.size - 8 then size else c.size - 8) = copysize
  have hcs2 : copysize ≤ size := by
    rw [← hcs]
    split <;> omega
  have hi2 := hi1.memcpy hnb n1 p copysize (by omega)
  rw [← n2] at hi2
  obtain ⟨m1, m2, m3⟩ := memcpy_region h1 q p copysize
  have hpc : p = c.addr + 8 := by rw [c1]; exact b3
  obtain ⟨h3, bs3, fl3, sl3, e3, hi3, hk3, r1, _, r3⟩ := free_spec hi2 hc c3
    (by rw [c2]; exact b2)
  rw [← hpc] at e3
  rw [e3]
  have hne : nb.addr ≠ c.addr := by
    rw [c1]
    exact fun e => n4 b hb b1 b2 e.symm
  obtain ⟨d, hd, d1, d2, d3⟩ := hk3 nb hnb n1 (by omega) (by simpa using hne)
  refine ⟨h3, q, bs3, fl3, sl3, rfl, hi3, ?_, by rw [r1, m1, q1], by rw [r3, m3, q2],
    fun e => absurd e hs0, fun _ => ⟨d, hd, d3, by rw [d1]; exact n2, by rw [d2]; exact n3⟩⟩
  unfold live_realloc
  rw [if_neg hs0, if_neg hq0]
  intro x hx
  rcases List.mem_cons.1 hx with rfl | hx
  · exact ⟨d, hd, d3, by rw [d2]; omega, by rw [d1]; exact n2⟩
  · have := (hl.keeps hk).keeps_filter hk3
    rw [← hpc] at this
    exact this x hx

set_option maxHeartbeats 1000000 in
theorem calloc_step (hi : Inv h bs fl sl [] []) {live : List Nat} (hl : Live bs live)
    {elements size : Nat} (he : 1 ≤ elements)
    (hv : elements * size ≤ 2 ^ 64 - 24 ∨ 2 ^ 64 ≤ elements * size) :
    ∃ h1 p bs1 fl1 sl1, calloc h elements size = some (h1, p) ∧ Inv h1 bs1 fl1 sl1 [] [] ∧
      Live bs1 (live_malloc live p) ∧ h1.heap_lo = h.heap_lo ∧ h1.max_addr = h.max_addr ∧
      (p ≠ 0 → p ∉ live) ∧
      (p ≠ 0 → ∃ b ∈ bs1, b.alloc = true ∧ p = b.addr + 8 ∧ elements * size + 8 ≤ b.size) := by
  unfold calloc
  simp only []
  rw [if_neg (by omega)]
  by_cases hc : (elements * size) % 2 ^ 64 / elements ≠ size
  · rw [if_pos hc]
    refine ⟨h, 0, bs, fl, sl, rfl, hi, ?_, rfl, rfl, fun e => absurd rfl e,
      fun e => absurd rfl e⟩
    unfold live_malloc
    rw [if_pos rfl]
    exact hl
  · rw [if_neg hc]
    have hc2 : (elements * size) % 2 ^ 64 / elements = size := not_not.1 hc
    have hno : elements * size < 2 ^ 64 := by
      by_contra hov
      have h1 := Nat.div_mul_le_self ((elements * size) % 2 ^ 64) elements
      rw [hc2] at h1
      have h2 := Nat.mod_lt (elements * size) (show 0 < 2 ^ 64 by norm_num)
      have h3 : size * elements = elements * size := Nat.mul_comm _ _
      omega
    have hmod : (elements * size) % 2 ^ 64 = elements * size := Nat.mod_eq_of_lt hno
    rw [hmod]
    have hs : elements * size ≤ 2 ^ 64 - 24 := by
      rcases hv with e | e
      · exact e
      · omega
    obtain ⟨h1, p, bs1, fl1, sl1, e, hi1, hl1, q1, q2, _, hfr, hq⟩ := malloc_step hi hl hs
    rw [e]
    simp only [Option.some_bind]
    by_cases hp0 : p = 0
    · rw [if_pos hp0]
      refine ⟨h1, 0, bs1, fl1, sl1, rfl, hi1, ?_, q1, q2, fun e => absurd rfl e,
        fun e => absurd rfl e⟩
      rw [hp0] at hl1
      exact hl1
    · rw [if_neg hp0]
      obtain ⟨nb, hnb, n1, n2, n3⟩ := hq hp0
      have hi2 := hi1.memset hnb n1 0 (elements * size) n3
      rw [← n2] at hi2
      obtain ⟨m1, m2, m3⟩ := memset_region h1 p 0 (elements * size)
      exact ⟨_, p, bs1, fl1, sl1, rfl, hi2, hl1, by rw [m1, q1], by rw [m3, q2], hfr,
        fun _ => ⟨nb, hnb, n1, n2, n3⟩⟩

end

theorem free_list_spec (h : Heap) :
    ∀ (xs : List Nat) (fuel head : Nat), SList h.mem head xs → xs.length ≤ fuel →
      free_list h fuel head = xs
  | [], 0, _, _, _ => rfl
  | [], fuel + 1, head, hs, _ => by
    have : head = 0 := slist_nil.1 hs
    unfold free_list
    rw [if_pos this]
  | x :: xs, 0, _, _, hf => by simp at hf
  | x :: xs, fuel + 1, head, hs, hf => by
    obtain ⟨rfl, h0, h2⟩ := slist_cons.1 hs
    unfold free_list
    rw [if_neg h0]
    congr 1
    exact free_list_spec h xs fuel _ h2 (by simp at hf; omega)

theorem walk_spec (h : Heap) :
    ∀ (R : List Blk) (e : Blk) (fuel : Nat), List.Chain' Adj (R ++ [e]) →
      (∀ b ∈ R ++ [e], get_size h b.addr = b.size ∧ get_alloc h b.addr = b.alloc) →
      (∀ b ∈ R, b.size ≠ 0) → e.size = 0 → R.length ≤ fuel →
      walk h fuel ((R ++ [e]).headD e).addr = R.map (fun b => (b.addr, b.size, b.alloc))
  | [], e, 0, _, _, _, _, _ => rfl
  | [], e, fuel + 1, _, hm, _, hz, _ => by
    simp only [List.nil_append, List.headD_cons, List.map_nil]
    unfold walk
    rw [(hm e (by simp)).1, if_pos hz]
  | b :: R, e, 0, _, _, _, _, hf => by simp at hf
  | b :: R, e, fuel + 1, hc, hm, hr, hz, hf => by
    simp only [List.cons_append, List.headD_cons, List.map_cons]
    have hb := hm b (by simp)
    unfold walk
    rw [hb.1, hb.2, if_neg (hr b (by simp))]
    congr 1
    have hc2 : List.Chain' Adj (R ++ [e]) := by
      simp only [List.cons_append] at hc
      exact (List.chain'_cons'.1 hc).2
    have ih := walk_spec h R e fuel hc2 (fun c hc => hm c (by simp at hc ⊢; tauto))
      (fun c hc => hr c (by simp [hc])) hz (by simp at hf; omega)
    have hnext : find_next h b.addr = ((R ++ [e]).headD e).addr := by
      unfold find_next
      rw [hb.1]
      simp only [List.cons_append] at hc
      cases R with
      | nil =>
        simp only [List.nil_append, List.headD_cons]
        exact ((List.chain'_cons.1 hc).1.1).symm
      | cons c R =>
        simp only [List.cons_append, List.headD_cons]
        exact ((List.chain'_cons.1 hc).1.1).symm
    rw [hnext]
    exact ih

section

variable {h : Heap} {bs : List Blk} {fl : Nat → List Nat} {sl us ex : List Nat}

theorem Inv.class_list_eq (hi : Inv h bs fl sl us ex) {k : Nat} (hk : k < 11) :
    class_list h k = fl k :=
  free_list_spec h (fl k) _ _ (hi.lists.seg k hk).1 (by have := hi.seg_length hk; omega)

theorem Inv.small_list_eq (hi : Inv h bs fl sl us ex) : small_list h = sl :=
  free_list_spec h sl _ _ hi.lists.small (by have := hi.small_length; omega)

/-- The walk over the heap finds the blocks of the ghost list, the epilogue excepted. -/
theorem Inv.heap_blocks_eq (hi : Inv h bs fl sl us ex) :
    ∃ R e, bs = R ++ [e] ∧ e.size = 0 ∧ e.alloc = true ∧
      heap_blocks h = R.map (fun b => (b.addr, b.size, b.alloc)) := by
  have hg := hi.geo
  obtain ⟨R, e, hbs, hez, hea, heb⟩ := hg.epi_last
  refine ⟨R, e, hbs, hez, hea, ?_⟩
  have he : e ∈ bs := by rw [hbs]; simp
  have hRe : ∀ b ∈ R, Below b e := by
    intro b hb
    have hp := (List.pairwise_cons.1 hg.pairwise).2
    rw [hbs, List.pairwise_append] at hp
    exact hp.2.2 b hb e (by simp)
  have hnz : ∀ b ∈ R, b.size ≠ 0 := by
    intro b hb hz
    have hbm : b ∈ bs := by rw [hbs]; simp [hb]
    have h1 := ((hg.sizes b hbm).2.1 hz).2
    have h2 := hRe b hb
    unfold Below at h2
    omega
  have hlen : R.length ≤ h.fuel := by
    have hnd : (R.map Blk.addr).Nodup := by
      have hp := (List.pairwise_cons.1 hg.pairwise).2
      rw [hbs, List.pairwise_append] at hp
      show List.Pairwise (· ≠ ·) (R.map Blk.addr)
      rw [List.pairwise_map]
      apply hp.1.imp
      intro a b hab
      unfold Below at hab
      omega
    have := @nodup_length_le _ hnd h.heap_lo h.brk (by
      intro x hx
      obtain ⟨b, hb, rfl⟩ := List.mem_map.1 hx
      have hbm : b ∈ bs := by rw [hbs]; simp [hb]
      have h1 := hg.lo_le hbm
      have h2 := hg.hi_le hbm
      omega)
    simpa [Heap.fuel] using this
  have hstart : h.heap_start = ((R ++ [e]).headD e).addr := by
    rw [hi.start]
    have hc := hg.chain
    rw [hbs] at hc
    cases R with
    | nil =>
      simp only [List.nil_append, List.headD_cons]
      have := (List.chain'_cons.1 hc).1.1
      simpa [prologue] using this.symm
    | cons c R =>
      simp only [List.cons_append, List.headD_cons]
      have := (List.chain'_cons.1 hc).1.1
      simpa [prologue] using this.symm
  unfold heap_blocks
  rw [hstart]
  apply walk_spec h R e h.fuel
  · have hc := hg.chain
    rw [hbs] at hc
    exact (List.chain'_cons'.1 hc).2
  · intro b hb
    have hbm : b ∈ bs := by rw [hbs]; exact hb
    exact ⟨hi.get_size hbm, hi.get_alloc hbm⟩
  · exact hnz
  · exact hez
  · exact hlen

/-- Every reachable state satisfies the heap invariant. -/
theorem reach_good {h : Heap} {live : List Nat} (hr : Reach h live) :
    ∃ bs fl sl, Inv h bs fl sl [] [] ∧ Live bs live := by
  induction hr with
  | @init h0 h hb ha hp hm e =>
    obtain ⟨r, hr, hgood⟩ := mm_init_spec h0 hb ha hp hm
    rw [e] at hr
    cases hr
    obtain ⟨bs, fl, sl, hi, _⟩ := hgood rfl
    exact ⟨bs, fl, sl, hi, fun p hp => by simp at hp⟩
  | malloc _ hn e ih =>
    obtain ⟨bs, fl, sl, hi, hl⟩ := ih
    obtain ⟨h1, p, bs1, fl1, sl1, e1, hi1, hl1, _⟩ := malloc_step hi hl hn
    rw [e] at e1
    cases e1
    exact ⟨bs1, fl1, sl1, hi1, hl1⟩
  | calloc _ hk hv e ih =>
    obtain ⟨bs, fl, sl, hi, hl⟩ := ih
    obtain ⟨h1, p, bs1, fl1, sl1, e1, hi1, hl1, _⟩ := calloc_step hi hl hk hv
    rw [e] at e1
    cases e1
    exact ⟨bs1, fl1, sl1, hi1, hl1⟩
  | realloc _ hp hn e ih =>
    obtain ⟨bs, fl, sl, hi, hl⟩ := ih
    obtain ⟨h1, q, bs1, fl1, sl1, e1, hi1, hl1, _⟩ := realloc_step hi hl hp hn
    rw [e] at e1
    cases e1
    exact ⟨bs1, fl1, sl1, hi1, hl1⟩
  | free _ hp e ih =>
    obtain ⟨bs, fl, sl, hi, hl⟩ := ih
    obtain ⟨h1, bs1, fl1, sl1, e1, hi1, hl1, _⟩ := free_step hi hl hp
    rw [e] at e1
    cases e1
    exact ⟨bs1, fl1, sl1, hi1, hl1⟩
  | @store h live p a v _ hp ha ha2 ih =>
    obtain ⟨bs, fl, sl, hi, hl⟩ := ih
    obtain ⟨b, hb, b1, b2, b3⟩ := hl p hp
    have hb16 := (hi.geo.sizes b hb).2.2 b2
    have hblt := hi.geo.size_lt hb
    have hps : get_payload_size h (payload_to_header p) = b.size - 8 := by
      have hpl : payload_to_header p = b.addr := by unfold payload_to_header; omega
      unfold get_payload_size wsize
      rw [hpl, hi.get_size hb]
      have e2 : b.size + 2 ^ 64 - 8 = (b.size - 8) + 2 ^ 64 := by omega
      rw [e2, Nat.add_mod_right, Nat.mod_eq_of_lt (by omega)]
    rw [hps] at ha2
    exact ⟨bs, fl, sl, hi.store_byte hb b1 (by omega) (by omega) v, hl⟩

end

theorem option_eq_of_snd {α : Type} (o : Option (α × Bool)) (d : α × Bool)
    (h : o.map (·.2) = some true) : o = some ((o.getD d).1, true) := by
  cases o with
  | none => cases h
  | some r =>
    obtain ⟨a, b⟩ := r
    simp only [Option.map_some', Option.some.injEq] at h
    subst h
    rfl

theorem option_eq_of_isSome {α β : Type} (o : Option (α × β)) (d : α × β)
    (h : o.isSome = true) : o = some ((o.getD d).1, (o.getD d).2) := by
  cases o with
  | none => cases h
  | some r => rfl

set_option maxRecDepth 100000 in
theorem sample_reach1 : Reach sample1 [] :=
  Reach.init (show sample0.brk = sample0.heap_lo from rfl) (by decide) (by decide) (by decide)
    (option_eq_of_snd (mm_init sample0) (sample0, false) (by decide))

set_option maxRecDepth 100000 in
theorem sample_reach2 : Reach sample2.1 [4112] := by
  have h := Reach.malloc sample_reach1 (show 1 ≤ 2 ^ 64 - 24 by decide)
    (option_eq_of_isSome (malloc sample1 1) (sample1, 0) (by decide))
  have e : live_malloc [] sample2.2 = [4112] := by decide
  rw [← e]
  exact h

set_option maxRecDepth 100000 in
theorem sample_reach3 : Reach sample3.1 [4128, 4112] := by
  have h := Reach.malloc sample_reach2 (show 24 ≤ 2 ^ 64 - 24 by decide)
    (option_eq_of_isSome (malloc sample2.1 24) (sample2.1, 0) (by decide))
  have e : live_malloc [4112] sample3.2 = [4128, 4112] := by decide
  rw [← e]
  exact h

/-- C5: after `mm_init` and any sequence of valid `malloc`/`calloc`/`realloc`/`free` calls
(and stores of the user into live payloads), the payload ranges
`[p, p + get_payload_size(block p))` and `[q, q + get_payload_size(block q))` of two
distinct live pointers are disjoint. -/
theorem C5_live_payloads_disjoint {h : Heap} {live : List Nat} (hr : Reach h live)
    {p q : Nat} (hp : p ∈ live) (hq : q ∈ live) (hne : p ≠ q) :
    p + get_payload_size h (payload_to_header p) ≤ q ∨
      q + get_payload_size h (payload_to_header q) ≤ p := by
  obtain ⟨bs, fl, sl, hi, hl⟩ := reach_good hr
  obtain ⟨b, hb, b1, b2, b3⟩ := hl p hp
  obtain ⟨c, hc, c1, c2, c3⟩ := hl q hq
  have hg := hi.geo
  have key : ∀ d ∈ bs, d.size ≠ 0 →
      get_payload_size h (payload_to_header (d.addr + 8)) = d.size - 8 := by
    intro d hd hz
    have hd16 := (hg.sizes d hd).2.2 hz
    have hdlt := hg.size_lt hd
    have hpl : payload_to_header (d.addr + 8) = d.addr := by unfold payload_to_header; omega
    unfold get_payload_size wsize
    rw [hpl, hi.get_size hd]
    have e2 : d.size + 2 ^ 64 - 8 = (d.size - 8) + 2 ^ 64 := by omega
    rw [e2, Nat.add_mod_right, Nat.mod_eq_of_lt (by omega)]
  rw [b3, c3, key b hb b2, key c hc c2]
  have hb16 := (hg.sizes b hb).2.2 b2
  have hc16 := (hg.sizes c hc).2.2 c2
  rcases hg.disj hb hc with e | e | e
  · exact absurd (by rw [b3, c3, e]) hne
  · unfold Below at e; left; omega
  · unfold Below at e; right; omega

set_option maxRecDepth 100000 in
theorem C5_live_payloads_disjoint_witness :
    Reach sample3.1 [4128, 4112] ∧ (4128 : Nat) ∈ [4128, 4112] ∧ (4112 : Nat) ∈ [4128, 4112] ∧
      (4128 : Nat) ≠ 4112 ∧
      (4128 + get_payload_size sample3.1 (payload_to_header 4128) ≤ 4112 ∨
        4112 + get_payload_size sample3.1 (payload_to_header 4112) ≤ 4128) :=
  ⟨sample_reach3, by decide, by decide, by decide,
    C5_live_payloads_disjoint sample_reach3 (by decide) (by decide) (by decide)⟩

/-- C6: the heap region starting at a 16-byte aligned address, in every state reached by
valid calls each of `malloc`, `calloc` and `realloc` returns, and the pointer it returns
is congruent to 0 modulo 16; every block header met walking the heap lies at an offset
congruent to 8 modulo 16 from `heap_lo`. -/
theorem C6_returned_pointers_aligned {h : Heap} {live : List Nat} (hr : Reach h live) :
    (∀ n, n ≤ 2 ^ 64 - 24 → ∃ h1 p, malloc h n = some (h1, p) ∧ p % 16 = 0) ∧
    (∀ k n, 1 ≤ k → (k * n ≤ 2 ^ 64 - 24 ∨ 2 ^ 64 ≤ k * n) →
      ∃ h1 p, calloc h k n = some (h1, p) ∧ p % 16 = 0) ∧
    (∀ p n, (p = 0 ∨ p ∈ live) → n ≤ 2 ^ 64 - 24 →
      ∃ h1 q, realloc h p n = some (h1, q) ∧ q % 16 = 0) ∧
    (∀ t ∈ heap_blocks h, (t.1 - h.heap_lo) % 16 = 8) := by
  obtain ⟨bs, fl, sl, hi, hl⟩ := reach_good hr
  have key : ∀ {g : Heap} {bs1 : List Blk} {fl1 : Nat → List Nat} {sl1 : List Nat} {p : Nat},
      Inv g bs1 fl1 sl1 [] [] → (p ≠ 0 → ∃ b ∈ bs1, b.alloc = true ∧ p = b.addr + 8 ∧ True) →
      p % 16 = 0 := by
    intro g bs1 fl1 sl1 p hg hp
    by_cases h0 : p = 0
    · rw [h0]
    · obtain ⟨b, hb, _, e, _⟩ := hp h0
      have := hg.geo.align hb
      omega
  refine ⟨?_, ?_, ?_, ?_⟩
  · intro n hn
    obtain ⟨h1, p, bs1, fl1, sl1, e, hi1, _, _, _, _, _, hq⟩ := malloc_step hi hl hn
    refine ⟨h1, p, e, key hi1 (fun h0 => ?_)⟩
    obtain ⟨b, hb, b1, b2, _⟩ := hq h0
    exact ⟨b, hb, b1, b2, trivial⟩
  · intro k n hk hv
    obtain ⟨h1, p, bs1, fl1, sl1, e, hi1, _, _, _, _, hq⟩ := calloc_step hi hl hk hv
    refine ⟨h1, p, e, key hi1 (fun h0 => ?_)⟩
    obtain ⟨b, hb, b1, b2, _⟩ := hq h0
    exact ⟨b, hb, b1, b2, trivial⟩
  · intro p n hp hn
    obtain ⟨h1, q, bs1, fl1, sl1, e, hi1, _, _, _, _, hq⟩ := realloc_step hi hl hp hn
    refine ⟨h1, q, e, key hi1 (fun h0 => ?_)⟩
    obtain ⟨b, hb, b1, b2, _⟩ := hq h0
    exact ⟨b, hb, b1, b2, trivial⟩
  · intro t ht
    obtain ⟨R, e, hbs, _, _, hw⟩ := hi.heap_blocks_eq
    rw [hw] at ht
    obtain ⟨b, hb, rfl⟩ := List.mem_map.1 ht
    have hbm : b ∈ bs := by rw [hbs]; simp [hb]
    have h1 := hi.geo.align hbm
    have h2 := hi.geo.lo_le hbm
    have h3 := hi.geo.lo_align
    show (b.addr - h.heap_lo) % 16 = 8
    omega

theorem C6_returned_pointers_aligned_witness :
    Reach sample3.1 [4128, 4112] ∧
      (∃ h1 p, malloc sample3.1 100 = some (h1, p) ∧ p % 16 = 0) ∧
      (∃ h1 q, realloc sample3.1 4112 200 = some (h1, q) ∧ q % 16 = 0) :=
  ⟨sample_reach3,
    (C6_returned_pointers_aligned sample_reach3).1 100 (by decide),
    (C6_returned_pointers_aligned sample_reach3).2.2.1 4112 200 (Or.inr (by decide))
      (by decide)⟩

/-- C7: in every state reached by valid calls, `malloc(n)` with `1 ≤ n ≤ 2 ^ 64 - 24`
returns, and if the pointer `p` it returns is not `NULL` then the block of `p` is marked
allocated, its payload capacity `get_size(block) - 8` is at least `n`, and the bytes
`[p, p + n)` lie inside the block and inside `[heap_lo, heap_hi]`. -/
theorem C7_malloc_block_holds_request {h : Heap} {live : List Nat} (hr : Reach h live)
    {n : Nat} (h1n : 1 ≤ n) (hn : n ≤ 2 ^ 64 - 24) :
    ∃ h1 p, malloc h n = some (h1, p) ∧
      (p ≠ 0 → get_alloc h1 (payload_to_header p) = true ∧
        n ≤ get_size h1 (payload_to_header p) - 8 ∧
        payload_to_header p + 8 = p ∧
        p + n ≤ payload_to_header p + get_size h1 (payload_to_header p) ∧
        h1.heap_lo ≤ p ∧ p + n - 1 ≤ mem_heap_hi h1) := by
  obtain ⟨bs, fl, sl, hi, hl⟩ := reach_good hr
  obtain ⟨h1, p, bs1, fl1, sl1, e, hi1, _, _, _, _, _, hq⟩ := malloc_step hi hl hn
  refine ⟨h1, p, e, fun h0 => ?_⟩
  obtain ⟨b, hb, b1, b2, b3⟩ := hq h0
  have hpl : payload_to_header p = b.addr := by unfold payload_to_header; omega
  have h2 := hi1.geo.lo_le hb
  have h3 := hi1.geo.hi_le hb
  rw [hpl, hi1.get_alloc hb, hi1.get_size hb]
  unfold mem_heap_hi
  refine ⟨b1, by omega, by omega, by omega, by omega, by omega⟩

theorem C7_malloc_block_holds_request_witness :
    Reach sample3.1 [4128, 4112] ∧ 1 ≤ 100 ∧ 100 ≤ 2 ^ 64 - 24 ∧
      ∃ h1 p, malloc sample3.1 100 = some (h1, p) ∧
        (p ≠ 0 → get_alloc h1 (payload_to_header p) = true ∧
          100 ≤ get_size h1 (payload_to_header p) - 8 ∧
          payload_to_header p + 8 = p ∧
          p + 100 ≤ payload_to_header p + get_size h1 (payload_to_header p) ∧
          h1.heap_lo ≤ p ∧ p + 100 - 1 ≤ mem_heap_hi h1) :=
  ⟨sample_reach3, by decide, by decide,
    C7_malloc_block_holds_request sample_reach3 (by decide) (by decide)⟩

set_option maxRecDepth 100000 in
/-- C8: after `mm_init`, `p = malloc(5000)` and `free(p)` on an empty heap region at
address 4096, the heap consists of a free block of 4096 bytes at 4104 directly followed
by a free block of 5008 bytes at 8200: two physically adjacent blocks are both free after
`free` has returned. -/
theorem C8_adjacent_free_blocks_after_free :
    ((mm_init (fresh 4096 (2 ^ 20) (fun _ => 0))).bind (fun r =>
      (malloc r.1 5000).bind (fun m => (free m.1 m.2).map heap_blocks))) =
      some [(4104, 4096, false), (8200, 5008, false)] := by decide

set_option maxRecDepth 100000 in
/-- C9: after `mm_init` and `malloc(5000)` on an empty heap region at address 4096 the
block at 8200 has its `prev_alloc` bit set although the preceding block, at 4104, is
free; after `mm_init`, `malloc(1)`, `b = malloc(24)` and `free(b)` the block at 4120 has
its `prev_sseg` bit clear although the preceding block, at 4104, has size 16. -/
theorem C9_flags_do_not_match_predecessor :
    ((mm_init (fresh 4096 (2 ^ 20) (fun _ => 0))).bind (fun r =>
      (malloc r.1 5000).map (fun m => (heap_blocks m.1, get_prev_alloc m.1 8200)))) =
      some ([(4104, 4096, false), (8200, 5008, true)], 2) ∧
    ((mm_init (fresh 4096 (2 ^ 20) (fun _ => 0))).bind (fun r =>
      (malloc r.1 1).bind (fun a => (malloc a.1 24).bind (fun b =>
        (free b.1 b.2).map (fun h => (heap_blocks h, get_prev_sseg h 4120)))))) =
      some ([(4104, 16, true), (4120, 4080, false)], 0) := by
  constructor <;> decide

/-- C10: in every state reached by valid calls, every free block met walking the heap
is, if its size is 16, exactly once in `small_seg_list` and in no class list, and
otherwise its size exceeds 16 and it is exactly once in the class list given by
`get_seg_list` of its size, in no other class list and not in `small_seg_list`; every
member of a list is a block of the heap whose alloc bit is clear. -/
theorem C10_free_lists_complete {h : Heap} {live : List Nat} (hr : Reach h live) :
    (∀ a z, (a, z, false) ∈ heap_blocks h →
      (z = 16 ∧ (small_list h).count a = 1 ∧ ∀ k < 11, a ∉ class_list h k) ∨
      (16 < z ∧ ∃ k : Nat, k < 11 ∧ get_seg_list z = (k : Int) ∧
        (class_list h k).count a = 1 ∧ a ∉ small_list h ∧
        ∀ j : Nat, j < 11 → j ≠ k → a ∉ class_list h j)) ∧
    (∀ x, (x ∈ small_list h ∨ ∃ k < 11, x ∈ class_list h k) →
      ∃ z, (x, z, false) ∈ heap_blocks h) := by
  obtain ⟨bs, fl, sl, hi, hl⟩ := reach_good hr
  obtain ⟨R, e, hbs, hez, hea, hw⟩ := hi.heap_blocks_eq
  have hcl : ∀ k < 11, class_list h k = fl k := fun k hk => hi.class_list_eq hk
  have hsl : small_list h = sl := hi.small_list_eq
  have hg := hi.geo
  have hR : ∀ b ∈ bs, b.alloc = false → b ∈ R := by
    intro b hb hf
    rw [hbs] at hb
    rcases List.mem_append.1 hb with hb | hb
    · exact hb
    · simp only [List.mem_singleton] at hb
      rw [hb, hea] at hf
      cases hf
  constructor
  · intro a z hm
    rw [hw] at hm
    obtain ⟨b, hb, e1⟩ := List.mem_map.1 hm
    simp only [Prod.mk.injEq] at e1
    obtain ⟨e1, e2, e3⟩ := e1
    have hbm : b ∈ bs := by rw [hbs]; simp [hb]
    have h16 := hg.free_real hbm e3
    have hlisted : Listed bs [] a z := ⟨b, hbm, e1, e2, e3, by simp⟩
    by_cases hz : z = 16
    · left
      subst hz
      have hin : a ∈ sl := (hi.spec.small_mem a).2 hlisted
      refine ⟨rfl, ?_, ?_⟩
      · rw [hsl]
        exact List.count_eq_one_of_mem hi.spec.small_nodup hin
      · intro k hk hx
        rw [hcl k hk] at hx
        exact hi.seg_small_disjoint hk hx hin
    · right
      have hz2 : 16 < z := by omega
      obtain ⟨k, hk, hkz⟩ := get_seg_list_range hz2
      have hin : a ∈ fl k := (hi.spec.seg_mem k hk a).2 ⟨z, hlisted, hz2, hkz⟩
      refine ⟨hz2, k, hk, hkz, ?_, ?_, ?_⟩
      · rw [hcl k hk]
        exact List.count_eq_one_of_mem (hi.spec.seg_nodup k hk) hin
      · rw [hsl]
        exact fun hx => hi.seg_small_disjoint hk hin hx
      · intro j hj hjk hx
        rw [hcl j hj] at hx
        exact hjk (hi.seg_seg_disjoint hj hk hx hin)
  · rintro x (hx | ⟨k, hk, hx⟩)
    · rw [hsl] at hx
      obtain ⟨c, hc, c1, c2, c3, _⟩ := hi.small_block hx
      refine ⟨c.size, ?_⟩
      rw [hw]
      exact List.mem_map.2 ⟨c, hR c hc c2, by rw [c1, c2]⟩
    · rw [hcl k hk] at hx
      obtain ⟨c, hc, c1, c2, _⟩ := hi.seg_block hk hx
      refine ⟨c.size, ?_⟩
      rw [hw]
      exact List.mem_map.2 ⟨c, hR c hc c2, by rw [c1, c2]⟩

set_option maxRecDepth 100000 in
theorem C10_free_lists_complete_witness :
    Reach sample3.1 [4128, 4112] ∧ ((4152 : Nat), (4048 : Nat), false) ∈ heap_blocks sample3.1 ∧
      ((4048 = 16 ∧ (small_list sample3.1).count 4152 = 1 ∧
          ∀ k < 11, 4152 ∉ class_list sample3.1 k) ∨
        (16 < 4048 ∧ ∃ k : Nat, k < 11 ∧ get_seg_list 4048 = (k : Int) ∧
          (class_list sample3.1 k).count 4152 = 1 ∧ 4152 ∉ small_list sample3.1 ∧
          ∀ j : Nat, j < 11 → j ≠ k → 4152 ∉ class_list sample3.1 j)) :=
  ⟨sample_reach3, by decide,
    (C10_free_lists_complete sample_reach3).1 4152 4048 (by decide)⟩

set_option maxRecDepth 100000 in
/-- C12 (code bug): for `n = 2 ^ 64 - 8` the sum `n + 8` wraps to 0 and `asize` is 0,
below 16; for `n = 2 ^ 64 - 1` the sum wraps to 7 and `asize` is 16, while the least
multiple of 16 that is at least `n + 8` is `2 ^ 64 + 16`. After `mm_init` on an empty
region, `malloc(2 ^ 64 - 1)` returns the non-null pointer 4112 to a block of 16 bytes. -/
theorem C12_asize_wraps :
    round_up ((18446744073709551608 + wsize) % 2 ^ 64) dsize = 0 ∧
    round_up ((18446744073709551615 + wsize) % 2 ^ 64) dsize = 16 ∧
    (malloc sample1 18446744073709551615).map
      (fun r => (r.2, get_size r.1 (payload_to_header r.2))) = some (4112, 16) := by
  refine ⟨by decide, by decide, by decide⟩

/-- C13: for `k ≥ 1` the check `asize / elements != size` of `calloc`, on the product
reduced modulo `2 ^ 64`, is true exactly when the integer product `k * n` is at least
`2 ^ 64`; in that case `calloc` returns `NULL` and leaves the heap as it was, and
otherwise the check is passed and `calloc` goes on to `malloc(k * n)`. -/
theorem C13_calloc_overflow_check (h : Heap) (k n : Nat) (hk : 1 ≤ k) :
    ((k * n % 2 ^ 64) / k ≠ n ↔ 2 ^ 64 ≤ k * n) ∧
    (2 ^ 64 ≤ k * n → calloc h k n = some (h, 0)) ∧
    (k * n < 2 ^ 64 → calloc h k n = (malloc h (k * n)).bind (fun r =>
      if r.2 = 0 then some (r.1, 0) else some (memset r.1 r.2 0 (k * n), r.2))) := by
  have key : (k * n % 2 ^ 64) / k ≠ n ↔ 2 ^ 64 ≤ k * n := by
    constructor
    · intro hne
      by_contra hlt
      rw [Nat.mod_eq_of_lt (by omega), Nat.mul_div_cancel_left n (by omega)] at hne
      exact hne rfl
    · intro hge heq
      have h1 : k * n % 2 ^ 64 < k * n :=
        lt_of_lt_of_le (Nat.mod_lt _ (by positivity)) hge
      have h2 : k * n % 2 ^ 64 / k < n := by
        rw [Nat.div_lt_iff_lt_mul (by omega), Nat.mul_comm n k]
        exact h1
      omega
  refine ⟨key, ?_, ?_⟩
  · intro hge
    unfold calloc
    simp only []
    rw [if_neg (by omega), if_pos (key.2 hge)]
  · intro hlt
    unfold calloc
    simp only []
    rw [if_neg (by omega), if_neg (by rw [not_not]; by_contra hc; exact absurd (key.1 hc) (by omega))]
    rw [Nat.mod_eq_of_lt hlt]

/-- The call `calloc(SIZE_MAX, 2)` returns `NULL` on the heap after `mm_init`. -/
theorem C13_calloc_overflow_check_witness :
    1 ≤ 18446744073709551615 ∧
    ((18446744073709551615 * 2 % 2 ^ 64) / 18446744073709551615 ≠ 2 ↔
      2 ^ 64 ≤ 18446744073709551615 * 2) ∧
    (2 ^ 64 ≤ 18446744073709551615 * 2 → calloc sample1 18446744073709551615 2 =
      some (sample1, 0)) :=
  ⟨by decide, (C13_calloc_overflow_check sample1 18446744073709551615 2 (by decide)).1,
    (C13_calloc_overflow_check sample1 18446744073709551615 2 (by decide)).2.1⟩

/-- C14: on an initialized heap, when `find_fit` found no block for `malloc(n)` and
`mem_sbrk` refuses the extension by `max(asize, chunksize)` bytes, `malloc(n)` returns
`NULL` in the very state it was called in, and so does `realloc(p, n)` for a non-null
`p`: no heap word, list head or header has changed, and the block of `p` is as before. -/
theorem C14_refused_extension (h : Heap) (n : Nat) (hinit : h.heap_start ≠ 0) (hn : 1 ≤ n)
    (hfit : find_fit h (round_up ((n + wsize) % 2 ^ 64) dsize) = some 0)
    (hsbrk : mem_sbrk h
      (round_up (max (round_up ((n + wsize) % 2 ^ 64) dsize) chunksize) dsize) = none) :
    malloc h n = some (h, 0) ∧ ∀ p, p ≠ 0 → realloc h p n = some (h, 0) := by
  have hm : malloc h n = some (h, 0) := by
    unfold malloc
    rw [if_neg hinit]
    simp only [Option.some_bind]
    rw [if_neg (by omega), hfit]
    simp only [Option.some_bind, if_true]
    unfold extend_heap
    simp only []
    rw [hsbrk]
    simp
  refine ⟨hm, ?_⟩
  intro p hp
  unfold realloc
  simp only []
  rw [if_neg (by omega), if_neg hp, hm]
  simp

set_option maxRecDepth 100000 in
/-- On a heap region that is full after `mm_init`, `malloc(5000)` and `realloc(p, 5000)`
return `NULL` and leave the state as it was. -/
theorem C14_refused_extension_witness :
    sample_full.heap_start ≠ 0 ∧ 1 ≤ 5000 ∧
    find_fit sample_full (round_up ((5000 + wsize) % 2 ^ 64) dsize) = some 0 ∧
    (malloc sample_full 5000 = some (sample_full, 0) ∧
      ∀ p, p ≠ 0 → realloc sample_full p 5000 = some (sample_full, 0)) :=
  ⟨by decide, by decide, by decide,
    C14_refused_extension sample_full 5000 (by decide) (by decide) (by decide)
      (by unfold mem_sbrk; rw [if_neg (by decide)])⟩

/-- C15: `malloc(0)` returns `NULL`, on an initialized heap and on an empty aligned heap
region that it initializes first; on an initialized heap the state after the call is the
state before it. -/
theorem C15_malloc_zero (h : Heap)
    (hh : h.heap_start ≠ 0 ∨ (h.brk = h.heap_lo ∧ h.heap_lo % 16 = 0 ∧ 0 < h.heap_lo ∧
      h.max_addr ≤ 2 ^ 64)) :
    ∃ h1, malloc h 0 = some (h1, 0) ∧ (h.heap_start ≠ 0 → h1 = h) := by
  by_cases h0 : h.heap_start = 0
  · rcases hh with hh | ⟨hb, ha, hp, hm⟩
    · exact absurd h0 hh
    · obtain ⟨r, hr, _⟩ := mm_init_spec h hb ha hp hm
      refine ⟨r.1, ?_, fun hne => absurd h0 hne⟩
      unfold malloc
      rw [if_pos h0, hr]
      simp
  · refine ⟨h, ?_, fun _ => rfl⟩
    unfold malloc
    rw [if_neg h0]
    simp

set_option maxRecDepth 100000 in
/-- The call `malloc(0)` on the heap after `mm_init`. -/
theorem C15_malloc_zero_witness :
    sample1.heap_start ≠ 0 ∧
    ∃ h1, malloc sample1 0 = some (h1, 0) ∧ (sample1.heap_start ≠ 0 → h1 = sample1) :=
  ⟨by decide, C15_malloc_zero sample1 (Or.inl (by decide))⟩

set_option maxRecDepth 100000 in
/-- C20 (code bug): on an empty heap region at address 4096, `mm_checkheap` returns true
after `mm_init`, after `p = malloc(24)` and after `free(p)`; for `n = 5000` it returns
true after `mm_init` and after `p = malloc(5000)` but false after `free(p)`: the heap is
then a free block of 4096 bytes followed by a free block of 5008 bytes, and test 10
(contiguous free blocks) fails. -/
theorem C20_checkheap_fails_after_free :
    (mm_init sample0).bind (fun r => mm_checkheap r.1) = some true ∧
    (mm_init sample0).bind (fun r => (malloc r.1 24).bind (fun m => mm_checkheap m.1)) =
      some true ∧
    (mm_init sample0).bind (fun r => (malloc r.1 24).bind (fun m =>
      (free m.1 m.2).bind mm_checkheap)) = some true ∧
    (mm_init sample0).bind (fun r => (malloc r.1 5000).bind (fun m => mm_checkheap m.1)) =
      some true ∧
    (mm_init sample0).bind (fun r => (malloc r.1 5000).bind (fun m =>
      (free m.1 m.2).bind mm_checkheap)) = some false := by
  refine ⟨by decide, by decide, by decide, by decide, by decide⟩

theorem PFrame.refl_frame (X : List Nat) (bs : List Blk) (m : Nat → Nat) : PFrame X bs m m :=
  fun _ _ => rfl

theorem Prot.keeps_prot {X : List Nat} {bs bs1 : List Blk} {w : Nat} (hp : Prot X bs w)
    (hk : Keeps X bs bs1) : Prot X bs1 w := by
  obtain ⟨c, hc, h1, h2, h3, h4⟩ := hp
  obtain ⟨c1, hc1, e1, e2, e3⟩ := hk c hc h1 (by omega) h2
  exact ⟨c1, hc1, e3, by rw [e1]; exact h2, by rw [e1]; exact h3, by rw [e1, e2]; exact h4⟩

theorem Prot.weaken_prot {X : List Nat} {bs : List Blk} {w : Nat} (hp : Prot X bs w) :
    Prot [] bs w := by
  obtain ⟨c, hc, h1, h2, h3, h4⟩ := hp
  exact ⟨c, hc, h1, by simp, h3, h4⟩

theorem PFrame.trans_frame {X : List Nat} {bs bs1 : List Blk} {m m1 m2 : Nat → Nat}
    (h1 : PFrame X bs m m1) (hk : Keeps X bs bs1) (h2 : PFrame X bs1 m1 m2) :
    PFrame X bs m m2 :=
  fun w hp => (h2 w (hp.keeps_prot hk)).trans (h1 w hp)

theorem PFrame.weaken_frame {X : List Nat} {bs : List Blk} {m m1 : Nat → Nat}
    (h : PFrame [] bs m m1) : PFrame X bs m m1 :=
  fun w hp => h w hp.weaken_prot

section

variable {lo brk mx : Nat} {bs : List Blk}

/-- A protected word is no header, no end of a block, lies in no free block and in no
block at an address of `X`, and lies between the first block and the epilogue. -/
theorem Geo.prot_facts (hg : Geo lo brk mx bs) {X : List Nat} {w : Nat} (hp : Prot X bs w)
    {x : Blk} (hx : x ∈ bs) :
    w ≠ x.addr ∧ w ≠ x.addr + x.size ∧
      ((x.alloc = false ∨ x.addr ∈ X) → ¬ (x.addr ≤ w ∧ w ≤ x.addr + x.size)) ∧
      lo + 16 ≤ w ∧ w + 8 < brk ∧ 32 ≤ w := by
  obtain ⟨c, hc, h1, h2, h3, h4⟩ := hp
  obtain ⟨f1, f2, f3, f4, f5, f6⟩ := hg.facts hc hx
  have hlo := hg.lo_le hc
  have hhi := hg.hi_le hc
  have hl1 := hg.lo_align
  have hl2 := hg.lo_pos
  have hsz : c.addr = x.addr → c.size = x.size := fun e => by rw [f5 e]
  refine ⟨by omega, by omega, ?_, by omega, by omega, by omega⟩
  intro hfx
  have hne : c.addr ≠ x.addr := by
    intro e
    have e2 := f5 e
    rcases hfx with hfx | hfx
    · rw [e2, hfx] at h1; cases h1
    · rw [e] at h2; exact h2 hfx
  omega

end

/-! ## The words that `insert_freeblock` and `remove_freeblock` write -/

theorem insert_footprint {h h1 : Heap} {b : Nat} (e : insert_freeblock h b = some h1)
    (w : Nat) (h8 : w ≠ b + 8) (h16 : w ≠ b + 16)
    (hr : ∀ k, k < 11 → w ≠ h.seg_list k + 16) : h1.mem w = h.mem w := by
  unfold insert_freeblock at e
  simp only [] at e
  by_cases hs : get_size h b ≤ min_block_size
  · rw [if_pos hs] at e
    simp only [Option.some.injEq] at e
    subst e
    show (h.write (b + 8) h.small_seg_list).mem w = h.mem w
    simp [h8]
  · rw [if_neg hs] at e
    unfold seg_get at e
    by_cases hk : 0 ≤ get_seg_list (get_size h b) ∧ get_seg_list (get_size h b) < 11
    · rw [if_pos hk] at e
      simp only [Option.some_bind] at e
      have hr1 := hr (get_seg_list (get_size h b)).toNat (by omega)
      unfold seg_set at e
      rw [if_pos hk] at e
      by_cases h0 : h.seg_list (get_seg_list (get_size h b)).toNat = 0
      · rw [if_pos h0] at e
        simp only [Option.map_some', Option.some.injEq] at e
        subst e
        simp [h8, h16]
      · rw [if_neg h0] at e
        simp only [if_pos hk, Option.some.injEq] at e
        subst e
        simp [h8, h16, hr1]
    · rw [if_neg hk] at e
      cases e

theorem remove_small_loop_footprint (h : Heap) (block : Nat) :
    ∀ (fuel b prev : Nat) (h1 : Heap), remove_small_loop h block fuel b prev = some h1 →
      ∀ w, w ≠ prev + 8 → (∀ y ∈ free_list h fuel b, w ≠ y + 8) → h1.mem w = h.mem w
  | 0, _, _, _, e, _, _, _ => by cases e
  | fuel + 1, b, prev, h1, e, w, hp, hl => by
    unfold remove_small_loop at e
    by_cases h0 : b = 0
    · rw [if_pos h0] at e
      cases e
      rfl
    · rw [if_neg h0] at e
      by_cases hb : b = block
      · rw [if_pos hb] at e
        by_cases hh : b = h.small_seg_list
        · rw [if_pos hh] at e
          cases e
          rfl
        · rw [if_neg hh] at e
          cases e
          simp [hp]
      · rw [if_neg hb] at e
        have hfl : free_list h (fuel + 1) b = b :: free_list h fuel (find_next_free h b) := by
          rw [free_list, if_neg h0]
        rw [hfl] at hl
        exact remove_small_loop_footprint h block fuel _ b h1 e w (hl b (by simp))
          (fun y hy => hl y (by simp [hy]))

theorem remove_footprint {h h1 : Heap} {b : Nat} (e : remove_freeblock h b = some h1)
    (w : Nat) (h8 : w ≠ b + 8) (h16 : w ≠ b + 16) (hw8 : w ≠ 8)
    (hp : 16 < get_size h b → w ≠ find_prev_free h b + 8 ∧ w ≠ find_next_free h b + 16)
    (hs : get_size h b ≤ 16 → ∀ y ∈ small_list h, w ≠ y + 8) : h1.mem w = h.mem w := by
  unfold remove_freeblock at e
  simp only [min_block_size] at e
  by_cases hb0 : b ≠ 0
  · rw [if_pos hb0] at e
    by_cases hsm : get_size h b ≤ 16
    · rw [if_pos hsm] at e
      exact remove_small_loop_footprint h b _ _ _ h1 e w (by omega) (hs hsm)
    · rw [if_neg hsm] at e
      obtain ⟨hp1, hp2⟩ := hp (by omega)
      unfold seg_set at e
      by_cases c1 : find_prev_free h b = 0 ∧ find_next_free h b = 0
      · rw [if_pos c1] at e
        split at e
        · cases e; rfl
        · cases e
      · rw [if_neg c1] at e
        by_cases c2 : find_prev_free h b ≠ 0 ∧ find_next_free h b = 0
        · rw [if_pos c2] at e
          cases e
          simp [hp1, h16]
        · rw [if_neg c2] at e
          by_cases c3 : find_prev_free h b = 0 ∧ find_next_free h b ≠ 0
          · rw [if_pos c3] at e
            split at e
            · cases e
              simp [hp2, h8]
            · cases e
          · rw [if_neg c3] at e
            cases e
            simp [hp1, hp2]
  · rw [if_neg hb0] at e
    cases e
    rfl

section

variable {h : Heap} {bs : List Blk} {fl : Nat → List Nat} {sl us ex : List Nat}

/-- The function `insert_freeblock` writes into free blocks only. -/
theorem insert_frame (hi : Inv h bs fl sl us ex) {b : Blk} (hb : b ∈ bs)
    (hfree : b.alloc = false) {h1 : Heap} (e : insert_freeblock h b.addr = some h1)
    (X : List Nat) : PFrame X bs h.mem h1.mem := by
  intro w hp
  have hg := hi.geo
  have hreal := hg.free_real hb hfree
  obtain ⟨f1, f2, f3, f4, f5, f6⟩ := hg.prot_facts hp hb
  have f3b := f3 (Or.inl hfree)
  apply insert_footprint e w (by omega) (by omega)
  intro k hk
  have hd := (hi.lists.seg k hk).1.head_eq
  rw [hd]
  cases hfl : fl k with
  | nil => simp only [List.headD_nil]; omega
  | cons y ys =>
    simp only [List.headD_cons]
    obtain ⟨c, hc, e1, e2, e3, _⟩ := hi.seg_block hk (show y ∈ fl k by rw [hfl]; simp)
    obtain ⟨g1, g2, g3, g4, g5, g6⟩ := hg.prot_facts hp hc
    have := g3 (Or.inl e2)
    omega

/-- The function `remove_freeblock` writes into free blocks only. -/
theorem remove_frame (hi : Inv h bs fl sl us ex) {b : Blk} (hb : b ∈ bs)
    (hfree : b.alloc = false) (hnus : b.addr ∉ us) {h1 : Heap}
    (e : remove_freeblock h b.addr = some h1) (X : List Nat) : PFrame X bs h.mem h1.mem := by
  intro w hp
  have hg := hi.geo
  have hreal := hg.free_real hb hfree
  have hsz := hi.get_size hb
  obtain ⟨f1, f2, f3, f4, f5, f6⟩ := hg.prot_facts hp hb
  have f3b := f3 (Or.inl hfree)
  apply remove_footprint e w (by omega) (by omega) (by omega)
  · intro hbig
    rw [hsz] at hbig
    obtain ⟨k, hk, hcls⟩ := get_seg_list_range hbig
    have hin : b.addr ∈ fl k :=
      (hi.spec.seg_mem k hk _).2 ⟨b.size, ⟨b, hb, rfl, rfl, hfree, hnus⟩, hbig, hcls⟩
    obtain ⟨xs1, xs2, hfl⟩ := List.append_of_mem hin
    have hd := hi.lists.seg k hk
    rw [hfl, dlist_iff] at hd
    have hprev : find_prev_free h b.addr = xs1.getLast?.getD 0 := prevok_prev_at hd.2
    have hnext : find_next_free h b.addr = xs2.headD 0 := slist_next_at hd.1
    rw [hprev, hnext]
    constructor
    · by_cases hx : xs1 = []
      · subst hx; simp; omega
      · have hm : xs1.getLast?.getD 0 ∈ fl k := by
          rw [hfl]
          exact List.mem_append_left _ (getLast?_getD_mem hx)
        obtain ⟨c, hc, e1, e2, e3, _⟩ := hi.seg_block hk hm
        obtain ⟨g1, g2, g3, g4, g5, g6⟩ := hg.prot_facts hp hc
        have := g3 (Or.inl e2)
        omega
    · by_cases hx : xs2 = []
      · subst hx; simp; omega
      · have hm : xs2.headD 0 ∈ fl k := by
          rw [hfl]
          exact List.mem_append_right _ (List.mem_cons_of_mem _ (headD_mem hx))
        obtain ⟨c, hc, e1, e2, e3, _⟩ := hi.seg_block hk hm
        obtain ⟨g1, g2, g3, g4, g5, g6⟩ := hg.prot_facts hp hc
        have := g3 (Or.inl e2)
        omega
  · intro _ y hy
    rw [hi.small_list_eq] at hy
    obtain ⟨c, hc, e1, e2, e3, _⟩ := hi.small_block hy
    obtain ⟨g1, g2, g3, g4, g5, g6⟩ := hg.prot_facts hp hc
    have := g3 (Or.inl e2)
    omega

end

/-! ## The words that the header writes change -/

theorem mark_free_far (h : Heap) {a z f : Nat} (hz : z % 16 = 0) (hlt : z < 2 ^ 64)
    (hz16 : 16 ≤ z) (hf : f < 16) {x : Nat} (h1 : x ≠ a) (h2 : x ≠ a + 16)
    (h3 : x ≠ a + z - 8) :
    (write_footer (write_header h a (z + f) false) a (z + f) false).mem x = h.mem x := by
  rw [mark_free_mem h hz hlt hz16 hf, if_neg (fun hc => h3 hc.1), if_neg h1,
    if_neg (fun hc => h2 hc.1)]

theorem write_header_alloc_far (h : Heap) {a z : Nat} (hz : z % 16 = 0) (hlt : z < 2 ^ 64)
    (hz16 : 16 ≤ z) (pa ps : Bool) {x : Nat} (h1 : x ≠ a) (h2 : x ≠ a + z) :
    (write_header h a (z + flags false pa ps) true).mem x = h.mem x := by
  rw [write_header_alloc_mem h hz hlt hz16, if_neg h2, if_neg h1]

theorem write_header_epi_far (h : Heap) (a : Nat) {x : Nat} (h1 : x ≠ a) (h2 : x ≠ a + 16) :
    (write_header h a 0 true).mem x = h.mem x := by
  rw [write_header_epi_mem, if_neg h1, if_neg h2]

theorem ite_write_far (g : Heap) (c : Prop) [Decidable c] (t v y : Nat) (hy : y ≠ t) :
    (if c then g.write t v else g).mem y = g.mem y := by
  split
  · simp [hy]
  · rfl

/-- The words that a merge of the free blocks from `x` to `l` writes are not protected. -/
theorem Geo.merge_prot {lo brk mx : Nat} {bs : List Blk} (hg : Geo lo brk mx bs)
    {X : List Nat} {w : Nat} (hp : Prot X bs w) {x l s : Blk} (hx : x ∈ bs) (hl : l ∈ bs)
    (hs : s ∈ bs) (hxf : x.alloc = false) (hlf : l.alloc = false) (hxl : x.addr ≤ l.addr)
    (hls : s.addr = l.addr + l.size) :
    w ≠ x.addr ∧ w ≠ x.addr + 16 ∧ w ≠ x.addr + (s.addr - x.addr) - 8 ∧ w ≠ s.addr ∧
      (s.addr - x.addr) % 16 = 0 ∧ s.addr - x.addr < 2 ^ 64 ∧ 16 ≤ s.addr - x.addr := by
  obtain ⟨f1, f2, f3, _⟩ := hg.prot_facts hp hx
  obtain ⟨k1, k2, k3, _⟩ := hg.prot_facts hp hl
  obtain ⟨j1, _⟩ := hg.prot_facts hp hs
  have f3b := f3 (Or.inl hxf)
  have k3b := k3 (Or.inl hlf)
  have hax := hg.align hx
  have has := hg.align hs
  have hx16 := hg.free_real hx hxf
  have hl16 := hg.free_real hl hlf
  have hlt := hg.addr_lt hs
  clear f3 k3 hp hg
  refine ⟨f1, ?_, ?_, j1, ?_, ?_, ?_⟩ <;> omega

theorem merge_far (h : Heap) {a z f : Nat} (hz : z % 16 = 0) (hlt : z < 2 ^ 64)
    (hz16 : 16 ≤ z) (hf : f < 16) (c : Prop) [Decidable c] (t v : Nat) {x : Nat}
    (h1 : x ≠ a) (h2 : x ≠ a + 16) (h3 : x ≠ a + z - 8) (h4 : x ≠ t) :
    (if c then (write_footer (write_header h a (z + f) false) a (z + f) false).write t v
      else write_footer (write_header h a (z + f) false) a (z + f) false).mem x = h.mem x :=
  (ite_write_far _ c t v x h4).trans (mark_free_far h hz hlt hz16 hf h1 h2 h3)

section

variable {h : Heap} {bs : List Blk} {fl : Nat → List Nat} {sl us ex : List Nat}

theorem coalesce_frame1 {b : Blk} (hi : Inv h bs fl sl [b.addr] ex) (hb : b ∈ bs)
    (hf : b.alloc = false) (hex : ∀ a ∈ ex, a = b.addr ∨ a = b.addr + b.size)
    {A B : List Blk} {n : Blk} (hbs : bs = A ++ b :: n :: B)
    (hpa : b.pa = true) (hna : n.alloc = true) :
    ∃ h1 bs1 fl1 sl1 m, coalesce h b.addr = some (h1, m.addr) ∧ Inv h1 bs1 fl1 sl1 [] [] ∧
      m ∈ bs1 ∧ m.alloc = false ∧ m.addr ≤ b.addr ∧ b.addr + b.size ≤ m.addr + m.size ∧
      Keeps [] bs bs1 ∧ h1.heap_lo = h.heap_lo ∧ h1.brk = h.brk ∧
      h1.max_addr = h.max_addr ∧ PFrame [] bs h.mem h1.mem := by
  have hg := hi.geo
  have hn : n ∈ bs := by rw [hbs]; simp
  have hadj : Adj b n := by rw [hbs] at hg; exact hg.adj_of_split
  have hfn : find_next h b.addr = n.addr := by rw [hi.find_next hb, hadj.1]
  have c1 : (get_prev_alloc h b.addr != 0) = true := by
    rw [hi.get_pa hb, hpa]; rfl
  have c2 : get_alloc h (find_next h b.addr) = true := by
    rw [hfn, hi.get_alloc hn, hna]
  obtain ⟨h1, fl1, sl1, hins, hi1, r1, r2, r3⟩ := insert_spec hi hb hf (by simp)
  rw [filter_self] at hi1
  refine ⟨h1, bs, fl1, sl1, b, ?_, ?_, hb, hf, le_refl _, le_refl _, Keeps.refl_keeps _ _,
    r1, r2, r3, insert_frame hi hb hf hins []⟩
  · rw [coalesce_case1 h b.addr c1 c2, hins]
    rfl
  · apply hi1.change_ex
    intro c hc hcf _
    by_cases hx : c.addr ∈ ex
    · rcases hex _ hx with e | e
      · rw [hg.uniq hc hb e]; exact hpa
      · have : c = n := hg.uniq hc hn (by rw [e, hadj.1])
        rw [this, hna] at hcf
        cases hcf
    · exact hi.free_pa c hc hcf hx

set_option maxHeartbeats 1000000 in
theorem coalesce_frame2 {b : Blk} (hi : Inv h bs fl sl [b.addr] ex) (hb : b ∈ bs)
    (hf : b.alloc = false) (hex : ∀ a ∈ ex, a = b.addr ∨ a = b.addr + b.size)
    {A B : List Blk} {n : Blk} (hbs : bs = A ++ b :: n :: B)
    (hpa : b.pa = true) (hna : n.alloc = false) :
    ∃ h1 bs1 fl1 sl1 m, coalesce h b.addr = some (h1, m.addr) ∧ Inv h1 bs1 fl1 sl1 [] [] ∧
      m ∈ bs1 ∧ m.alloc = false ∧ m.addr ≤ b.addr ∧ b.addr + b.size ≤ m.addr + m.size ∧
      Keeps [] bs bs1 ∧ h1.heap_lo = h.heap_lo ∧ h1.brk = h.brk ∧
      h1.max_addr = h.max_addr ∧ PFrame [] bs h.mem h1.mem := by
  have hg := hi.geo
  have hn : n ∈ bs := by rw [hbs]; simp
  have hadj : Adj b n := by rw [hbs] at hg; exact hg.adj_of_split
  have hfn : find_next h b.addr = n.addr := by rw [hi.find_next hb, hadj.1]
  have c1 : (get_prev_alloc h b.addr != 0) = true := by
    rw [hi.get_pa hb, hpa]; rfl
  have c2 : get_alloc h (find_next h b.addr) = false := by
    rw [hfn, hi.get_alloc hn, hna]
  have hn16 := hg.free_real hn hna
  have hb16 := hg.free_real hb hf
  obtain ⟨n2, B2, hB⟩ : ∃ n2 B2, B = n2 :: B2 := by
    have e : bs = (A ++ [b]) ++ n :: B := by rw [hbs]; simp
    rw [e] at hg
    exact hg.succ_of_split (by omega)
  subst hB
  have hn2 : n2 ∈ bs := by rw [hbs]; simp
  have hadj2 : Adj n n2 := by
    have e : bs = (A ++ [b]) ++ n :: n2 :: B2 := by rw [hbs]; simp
    rw [e] at hg
    exact hg.adj_of_split
  have hne : n.addr ≠ b.addr := by have := hadj.1; omega
  obtain ⟨h1, fl1, sl1, hrem, hi1, r1, r2, r3⟩ := remove_spec hi hn hna (by simp [hne])
  have hsb := hg.sizes b hb
  have hsn := hg.sizes n hn
  have hlt := hg.addr_lt hn2
  have ha1 := hadj.1
  have ha2 := hadj2.1
  have hw : ((get_size h b.addr + get_size h n.addr) % 2 ^ 64) ||| prev_alloc_mask =
      (n2.addr - b.addr) + flags false true false := by
    rw [hi.get_size hb, hi.get_size hn, Nat.mod_eq_of_lt (by omega),
      or_pa_mask (by omega)]
    congr 1
    omega
  have hbs2 : bs = A ++ (b :: ([] ++ [n, n2])) ++ B2 := by rw [hbs]; simp
  obtain ⟨hi3, hk, g1, g2, g3, hgl⟩ := merge_spec hi1 hbs2
    (by
      intro c hc
      simp only [List.nil_append, List.mem_cons, List.mem_singleton, List.not_mem_nil,
        or_false] at hc
      rcases hc with rfl | rfl
      · exact ⟨hf, by simp⟩
      · exact ⟨hna, by simp⟩)
    (U := [b.addr]) (by simp)
    (by
      intro a ha
      have h1 := ha b (by simp)
      have h2 := ha n (by simp)
      simp only [List.mem_cons, List.mem_singleton, List.not_mem_nil, or_false]
      constructor
      · intro e; exact absurd e.symm h1
      · rintro (e | e)
        · exact absurd e.symm h2
        · exact absurd e.symm h1)
    (by
      simp only [List.mem_cons, List.mem_singleton, List.not_mem_nil, or_false]
      constructor
      · intro e; omega
      · rintro (e | e) <;> omega)
    (by
      intro a ha hx
      rcases hex a hx with e | e
      · exact ha b (by simp) e.symm
      · exact ha n (by simp) (by omega))
    (by
      intro hf2
      apply hi.free_pa n2 hn2 hf2
      intro hx
      rcases hex _ hx with e | e <;> omega)
    rfl rfl rfl
  have hfn2 : find_next (write_footer (write_header h1 b.addr
        ((n2.addr - b.addr) + flags false true false) false) b.addr
        ((n2.addr - b.addr) + flags false true false) false) n.addr = n2.addr := by
    unfold find_next
    rw [hgl, ha2]
  obtain ⟨h4, fl2, sl2, hins, hi4, q1, q2, q3⟩ :=
    insert_spec hi3 (b := ⟨b.addr, n2.addr - b.addr, false, true, false⟩) (by simp) rfl
      (by simp)
  rw [filter_self] at hi4
  refine ⟨h4, _, fl2, sl2, ⟨b.addr, n2.addr - b.addr, false, true, false⟩, ?_, hi4,
    by simp, rfl, le_refl _, ?_, hk, ?_, ?_, ?_, ?_⟩
  · rw [coalesce_case2 h b.addr c1 c2, hfn, hrem]
    simp only [Option.some_bind, hw, hfn2]
    rw [hins]
    rfl
  · show b.addr + b.size ≤ b.addr + (n2.addr - b.addr)
    omega
  · rw [q1, g1, r1]
  · rw [q2, g2, r2]
  · rw [q3, g3, r3]
  · have F1 := remove_frame hi hn hna (by simp [hne]) hrem []
    have F3 := insert_frame hi3 (b := ⟨b.addr, n2.addr - b.addr, false, true, false⟩)
      (by simp) rfl hins []
    refine (F1.trans_frame (Keeps.refl_keeps _ _) ?_).trans_frame hk F3
    intro w hp
    obtain ⟨m1, m2, m3, m4, m5, m6, m7⟩ := hg.merge_prot hp hb hn hn2 hf hna
      (by rw [ha1]; exact Nat.le_add_right _ _) ha2
    exact merge_far h1 m5 m6 m7 (flags_lt _ _ _) _ _ _ m1 m2 m3 m4

set_option maxHeartbeats 1000000 in
theorem coalesce_frame3 {b : Blk} (hi : Inv h bs fl sl [b.addr] ex) (hb : b ∈ bs)
    (hf : b.alloc = false) (hex : ∀ a ∈ ex, a = b.addr ∨ a = b.addr + b.size)
    {A B : List Blk} {p n : Blk} (hbs : bs = A ++ p :: b :: n :: B)
    (hpa : b.pa = false) (hna : n.alloc = true) :
    ∃ h1 bs1 fl1 sl1 m, coalesce h b.addr = some (h1, m.addr) ∧ Inv h1 bs1 fl1 sl1 [] [] ∧
      m ∈ bs1 ∧ m.alloc = false ∧ m.addr ≤ b.addr ∧ b.addr + b.size ≤ m.addr + m.size ∧
      Keeps [] bs bs1 ∧ h1.heap_lo = h.heap_lo ∧ h1.brk = h.brk ∧
      h1.max_addr = h.max_addr ∧ PFrame [] bs h.mem h1.mem := by
  have hg := hi.geo
  have hp : p ∈ bs := by rw [hbs]; simp
  have hn : n ∈ bs := by rw [hbs]; simp
  have hadj : Adj b n := by
    have e : bs = (A ++ [p]) ++ b :: n :: B := by rw [hbs]; simp
    rw [e] at hg
    exact hg.adj_of_split
  have hadj0 : Adj p b := by rw [hbs] at hg; exact hg.adj_of_split
  obtain ⟨hfp, hpf⟩ := hi.find_prev hbs hpa
  have hfn : find_next h b.addr = n.addr := by rw [hi.find_next hb, hadj.1]
  have c1 : (get_prev_alloc h b.addr != 0) = false := by
    rw [hi.get_pa hb, hpa]; rfl
  have c2 : get_alloc h (find_next h b.addr) = true := by
    rw [hfn, hi.get_alloc hn, hna]
  have hp16 := hg.free_real hp hpf
  have hb16 := hg.free_real hb hf
  have ha0 := hadj0.1
  have ha1 := hadj.1
  have hne : p.addr ≠ b.addr := by omega
  obtain ⟨h1, fl1, sl1, hrem, hi1, r1, r2, r3⟩ := remove_spec hi hp hpf (by simp [hne])
  have hsb := hg.sizes b hb
  have hsp := hg.sizes p hp
  have hlt := hg.addr_lt hn
  have hw : ((get_size h b.addr + get_size h p.addr) % 2 ^ 64) ||| prev_alloc_mask =
      (n.addr - p.addr) + flags false true false := by
    rw [hi.get_size hb, hi.get_size hp, Nat.mod_eq_of_lt (by omega),
      or_pa_mask (by omega)]
    congr 1
    omega
  have hbs2 : bs = A ++ (p :: ([] ++ [b, n])) ++ B := by rw [hbs]; simp
  obtain ⟨hi3, hk, g1, g2, g3, hgl⟩ := merge_spec hi1 hbs2
    (by
      intro c hc
      simp only [List.nil_append, List.mem_cons, List.mem_singleton, List.not_mem_nil,
        or_false] at hc
      rcases hc with rfl | rfl
      · exact ⟨hpf, by simp⟩
      · exact ⟨hf, by simp⟩)
    (U := [p.addr]) (by simp)
    (by
      intro a ha
      have h1 := ha p (by simp)
      have h2 := ha b (by simp)
      simp only [List.mem_cons, List.mem_singleton, List.not_mem_nil, or_false]
      constructor
      · intro e; exact absurd e.symm h1
      · rintro (e | e)
        · exact absurd e.symm h1
        · exact absurd e.symm h2)
    (by
      simp only [List.mem_cons, List.mem_singleton, List.not_mem_nil, or_false]
      constructor
      · intro e; omega
      · rintro (e | e) <;> omega)
    (by
      intro a ha hx
      rcases hex a hx with e | e
      · exact ha b (by simp) e.symm
      · exact ha n (by simp) (by omega))
    (by
      intro hf2
      rw [hna] at hf2
      cases hf2)
    rfl rfl rfl
  obtain ⟨h4, fl2, sl2, hins, hi4, q1, q2, q3⟩ :=
    insert_spec hi3 (b := ⟨p.addr, n.addr - p.addr, false, true, false⟩) (by simp) rfl
      (by simp)
  rw [filter_self] at hi4
  refine ⟨h4, _, fl2, sl2, ⟨p.addr, n.addr - p.addr, false, true, false⟩, ?_, hi4,
    by simp, rfl, ?_, ?_, hk, ?_, ?_, ?_, ?_⟩
  · rw [coalesce_case3 h b.addr c1 c2, hfn, hfp, hrem]
    simp only [Option.some_bind, hw]
    rw [hins]
    rfl
  · show p.addr ≤ b.addr
    omega
  · show b.addr + b.size ≤ p.addr + (n.addr - p.addr)
    omega
  · rw [q1, g1, r1]
  · rw [q2, g2, r2]
  · rw [q3, g3, r3]
  · have F1 := remove_frame hi hp hpf (by simp [hne]) hrem []
    have F3 := insert_frame hi3 (b := ⟨p.addr, n.addr - p.addr, false, true, false⟩)
      (by simp) rfl hins []
    refine (F1.trans_frame (Keeps.refl_keeps _ _) ?_).trans_frame hk F3
    intro w hq
    obtain ⟨m1, m2, m3, m4, m5, m6, m7⟩ := hg.merge_prot hq hp hb hn hpf hf
      (by rw [ha0]; exact Nat.le_add_right _ _) ha1
    exact merge_far h1 m5 m6 m7 (flags_lt _ _ _) _ _ _ m1 m2 m3 m4

set_option maxHeartbeats 1000000 in
theorem coalesce_frame4 {b : Blk} (hi : Inv h bs fl sl [b.addr] ex) (hb : b ∈ bs)
    (hf : b.alloc = false) (hex : ∀ a ∈ ex, a = b.addr ∨ a = b.addr + b.size)
    {A B : List Blk} {p n : Blk} (hbs : bs = A ++ p :: b :: n :: B)
    (hpa : b.pa = false) (hna : n.alloc = false) :
    ∃ h1 bs1 fl1 sl1 m, coalesce h b.addr = some (h1, m.addr) ∧ Inv h1 bs1 fl1 sl1 [] [] ∧
      m ∈ bs1 ∧ m.alloc = false ∧ m.addr ≤ b.addr ∧ b.addr + b.size ≤ m.addr + m.size ∧
      Keeps [] bs bs1 ∧ h1.heap_lo = h.heap_lo ∧ h1.brk = h.brk ∧
      h1.max_addr = h.max_addr ∧ PFrame [] bs h.mem h1.mem := by
  have hg := hi.geo
  have hp : p ∈ bs := by rw [hbs]; simp
  have hn : n ∈ bs := by rw [hbs]; simp
  have hadj : Adj b n := by
    have e : bs = (A ++ [p]) ++ b :: n :: B := by rw [hbs]; simp
    rw [e] at hg
    exact hg.adj_of_split
  have hadj0 : Adj p b := by rw [hbs] at hg; exact hg.adj_of_split
  obtain ⟨hfp, hpf⟩ := hi.find_prev hbs hpa
  have hfn : find_next h b.addr = n.addr := by rw [hi.find_next hb, hadj.1]
  have c1 : (get_prev_alloc h b.addr != 0) = false := by
    rw [hi.get_pa hb, hpa]; rfl
  have c2 : get_alloc h (find_next h b.addr) = false := by
    rw [hfn, hi.get_alloc hn, hna]
  have hp16 := hg.free_real hp hpf
  have hb16 := hg.free_real hb hf
  have hn16 := hg.free_real hn hna
  obtain ⟨n2, B2, hB⟩ : ∃ n2 B2, B = n2 :: B2 := by
    have e : bs = (A ++ [p, b]) ++ n :: B := by rw [hbs]; simp
    rw [e] at hg
    exact hg.succ_of_split (by omega)
  subst hB
  have hn2 : n2 ∈ bs := by rw [hbs]; simp
  have hadj2 : Adj n n2 := by
    have e : bs = (A ++ [p, b]) ++ n :: n2 :: B2 := by rw [hbs]; simp
    rw [e] at hg
    exact hg.adj_of_split
  have ha0 := hadj0.1
  have ha1 := hadj.1
  have ha2 := hadj2.1
  have hne : p.addr ≠ b.addr := by omega
  obtain ⟨h0, fl0, sl0, hrem0, hi0, p1, p2, p3⟩ := remove_spec hi hp hpf (by simp [hne])
  obtain ⟨h1, fl1, sl1, hrem, hi1, r1, r2, r3⟩ := remove_spec hi0 hn hna
    (by
      simp only [List.mem_cons, List.mem_singleton, List.not_mem_nil, or_false]
      omega)
  have hsb := hg.sizes b hb
  have hsp := hg.sizes p hp
  have hsn := hg.sizes n hn
  have hlt := hg.addr_lt hn2
  have hw : ((get_size h b.addr + (get_size h p.addr + get_size h n.addr) % 2 ^ 64) % 2 ^ 64)
      ||| prev_alloc_mask = (n2.addr - p.addr) + flags false true false := by
    rw [hi.get_size hb, hi.get_size hp, hi.get_size hn, Nat.mod_eq_of_lt (by omega),
      Nat.mod_eq_of_lt (by omega), or_pa_mask (by omega)]
    congr 1
    omega
  have hbs2 : bs = A ++ (p :: ([b] ++ [n, n2])) ++ B2 := by rw [hbs]; simp
  obtain ⟨hi3, hk, g1, g2, g3, hgl⟩ := merge_spec hi1 hbs2
    (by
      intro c hc
      simp only [List.cons_append, List.nil_append, List.mem_cons, List.mem_singleton,
        List.not_mem_nil, or_false] at hc
      rcases hc with rfl | rfl | rfl
      · exact ⟨hpf, by simp⟩
      · exact ⟨hf, by simp⟩
      · exact ⟨hna, by simp⟩)
    (U := [p.addr]) (by simp)
    (by
      intro a ha
      have h1 := ha p (by simp)
      have h2 := ha b (by simp)
      have h3 := ha n (by simp)
      simp only [List.mem_cons, List.mem_singleton, List.not_mem_nil, or_false]
      constructor
      · intro e; exact absurd e.symm h1
      · rintro (e | e | e)
        · exact absurd e.symm h3
        · exact absurd e.symm h1
        · exact absurd e.symm h2)
    (by
      simp only [List.mem_cons, List.mem_singleton, List.not_mem_nil, or_false]
      constructor
      · intro e; omega
      · rintro (e | e | e) <;> omega)
    (by
      intro a ha hx
      rcases hex a hx with e | e
      · exact ha b (by simp) e.symm
      · exact ha n (by simp) (by omega))
    (by
      intro hf2
      apply hi.free_pa n2 hn2 hf2
      intro hx
      rcases hex _ hx with e | e <;> omega)
    rfl rfl rfl
  have hfn2 : find_next (write_footer (write_header h1 p.addr
        ((n2.addr - p.addr) + flags false true false) false) p.addr
        ((n2.addr - p.addr) + flags false true false) false) n.addr = n2.addr := by
    unfold find_next
    rw [hgl, ha2]
  obtain ⟨h4, fl2, sl2, hins, hi4, q1, q2, q3⟩ :=
    insert_spec hi3 (b := ⟨p.addr, n2.addr - p.addr, false, true, false⟩) (by simp) rfl
      (by simp)
  rw [filter_self] at hi4
  refine ⟨h4, _, fl2, sl2, ⟨p.addr, n2.addr - p.addr, false, true, false⟩, ?_, hi4,
    by simp, rfl, ?_, ?_, hk, ?_, ?_, ?_, ?_⟩
  · rw [coalesce_case4 h b.addr c1 c2, hfn, hfp, hrem0]
    simp only [Option.some_bind, hrem, hw, hfn2]
    rw [hins]
    rfl
  · show p.addr ≤ b.addr
    omega
  · show b.addr + b.size ≤ p.addr + (n2.addr - p.addr)
    omega
  · rw [q1, g1, r1, p1]
  · rw [q2, g2, r2, p2]
  · rw [q3, g3, r3, p3]
  · have F0 := remove_frame hi hp hpf (by simp [hne]) hrem0 []
    have F1 := remove_frame hi0 hn hna
      (by
        simp only [List.mem_cons, List.mem_singleton, List.not_mem_nil, or_false]
        omega) hrem []
    have F3 := insert_frame hi3 (b := ⟨p.addr, n2.addr - p.addr, false, true, false⟩)
      (by simp) rfl hins []
    refine ((F0.trans_frame (Keeps.refl_keeps _ _) F1).trans_frame (Keeps.refl_keeps _ _)
      ?_).trans_frame hk F3
    intro w hq
    obtain ⟨m1, m2, m3, m4, m5, m6, m7⟩ := hg.merge_prot hq hp hn hn2 hpf hna
      (by rw [ha1, ha0]; omega) ha2
    exact merge_far h1 m5 m6 m7 (flags_lt _ _ _) _ _ _ m1 m2 m3 m4

/-- The function `coalesce` on a free block that is in no list changes no word in the
payload of an allocated block. -/
theorem coalesce_frame {b : Blk} (hi : Inv h bs fl sl [b.addr] ex) (hb : b ∈ bs)
    (hf : b.alloc = false) (hex : ∀ a ∈ ex, a = b.addr ∨ a = b.addr + b.size) :
    ∃ h1 bs1 fl1 sl1 m, coalesce h b.addr = some (h1, m.addr) ∧ Inv h1 bs1 fl1 sl1 [] [] ∧
      m ∈ bs1 ∧ m.alloc = false ∧ m.addr ≤ b.addr ∧ b.addr + b.size ≤ m.addr + m.size ∧
      Keeps [] bs bs1 ∧ h1.heap_lo = h.heap_lo ∧ h1.brk = h.brk ∧
      h1.max_addr = h.max_addr ∧ PFrame [] bs h.mem h1.mem := by
  have hg := hi.geo
  have hb16 := hg.free_real hb hf
  cases hpa : b.pa
  · obtain ⟨A, p, B, hbs, _⟩ := hg.pred_of_pa hb hpa
    obtain ⟨n, B1, hB⟩ : ∃ n B1, B = n :: B1 := by
      have e : bs = (A ++ [p]) ++ b :: B := by rw [hbs]; simp
      rw [e] at hg
      exact hg.succ_of_split (by omega)
    subst hB
    cases hna : n.alloc
    · exact coalesce_frame4 hi hb hf hex hbs hpa hna
    · exact coalesce_frame3 hi hb hf hex hbs hpa hna
  · obtain ⟨A, n, B, hbs⟩ := hg.split_at hb (by omega)
    cases hna : n.alloc
    · exact coalesce_frame2 hi hb hf hex hbs hpa hna
    · exact coalesce_frame1 hi hb hf hex hbs hpa hna

end

/-- No address from the header of a free or excluded block up to the header of the next
block is protected. -/
theorem Geo.block_prot {lo brk mx : Nat} {bs : List Blk} (hg : Geo lo brk mx bs)
    {X : List Nat} {w : Nat} (hp : Prot X bs w) {x : Blk} (hx : x ∈ bs)
    (hxf : x.alloc = false ∨ x.addr ∈ X) : ∀ d, d ≤ x.size → w ≠ x.addr + d := by
  obtain ⟨f1, f2, f3, _⟩ := hg.prot_facts hp hx
  have f3b := f3 hxf
  intro d hd
  clear f3 hp hg
  omega

/-- The words changed by the first three statements of `free`. -/
theorem free_mark_far (h : Heap) {a z f W : Nat} (hW : W = z + f) (hz : z % 16 = 0)
    (hlt : z < 2 ^ 64) (hz16 : 16 ≤ z) (hf : f < 16) {g1 g2 : Heap}
    (hg1 : g1 = write_footer (write_header h a W false) a W false)
    (hg2 : g2 = g1.write (find_next g1 a) (g1.mem (find_next g1 a) &&& not64 prev_alloc_mask))
    {x : Nat} (h1 : x ≠ a) (h2 : x ≠ a + 16) (h3 : x ≠ a + z - 8) (h4 : x ≠ a + z) :
    g2.mem x = h.mem x := by
  subst hW
  have hfn : find_next g1 a = a + z := by
    unfold find_next get_size
    rw [hg1, mark_free_mem h hz hlt hz16 hf, if_neg (by omega), if_pos rfl,
      extract_size_add hz hlt hf]
  rw [hg2, hfn, write_mem, if_neg h4, hg1]
  exact mark_free_far h hz hlt hz16 hf h1 h2 h3

section

variable {h : Heap} {bs : List Blk} {fl : Nat → List Nat} {sl us ex : List Nat}

/-- The function `free` on the payload pointer of an allocated block: the block lies in a
free block afterwards, and the payloads of the other allocated blocks are unchanged. -/
theorem free_frame {b : Blk} (hi : Inv h bs fl sl [] []) (hb : b ∈ bs)
    (hal : b.alloc = true) (hz : b.size ≠ 0) :
    ∃ h1 bs1 fl1 sl1 m, free h (b.addr + 8) = some h1 ∧ Inv h1 bs1 fl1 sl1 [] [] ∧
      Keeps [b.addr] bs bs1 ∧ h1.heap_lo = h.heap_lo ∧ h1.brk = h.brk ∧
      h1.max_addr = h.max_addr ∧ m ∈ bs1 ∧ m.alloc = false ∧ m.addr ≤ b.addr ∧
      b.addr + b.size ≤ m.addr + m.size ∧ PFrame [b.addr] bs h.mem h1.mem := by
  have hg := hi.geo
  have hw : get_size h b.addr ||| get_prev_alloc h b.addr ||| get_prev_sseg h b.addr =
      b.size + flags false b.pa b.ps := by
    rw [hi.get_size hb, hi.get_pa hb, hi.get_ps hb]
    exact size_or_flags (hg.sizes b hb).1 b.pa b.ps
  obtain ⟨g1, hg1⟩ : ∃ g, g = write_footer (write_header h b.addr
      (get_size h b.addr ||| get_prev_alloc h b.addr ||| get_prev_sseg h b.addr) false) b.addr
      (get_size h b.addr ||| get_prev_alloc h b.addr ||| get_prev_sseg h b.addr) false :=
    ⟨_, rfl⟩
  obtain ⟨g2, hg2⟩ : ∃ g, g = g1.write (find_next g1 b.addr)
      (g1.mem (find_next g1 b.addr) &&& not64 prev_alloc_mask) := ⟨_, rfl⟩
  obtain ⟨bs1, b1, hi1, hb1, e1, e2, e3, hk, r1, r2, r3⟩ :=
    free_mark_spec hi hb hal hz hw hg1 hg2
  have hi2 : Inv g2 bs1 fl sl [b1.addr] (b.addr :: (b.addr + b.size) :: []) := by
    rw [e1]; exact hi1
  obtain ⟨h4, bs4, fl4, sl4, m, hco, hi4, hm, hmf, hm1, hm2, hk4, q1, q2, q3, F2⟩ :=
    coalesce_frame hi2 hb1 e3
      (by
        intro a ha
        simp only [List.mem_cons, List.not_mem_nil, or_false] at ha
        rw [e1, e2]
        exact ha)
  have hb16 : 16 ≤ b.size := (hg.sizes b hb).2.2 hz
  have F1 : PFrame [b.addr] bs h.mem g2.mem := by
    intro w hp
    have hbp := hg.block_prot hp hb (Or.inr (by simp))
    have k1 := hbp 0 (by omega)
    have k2 := hbp 16 hb16
    have k3 := hbp (b.size - 8) (by omega)
    have k4 := hbp b.size (le_refl _)
    exact free_mark_far h hw (hg.sizes b hb).1 (hg.size_lt hb) hb16 (flags_lt _ _ _) hg1 hg2
      k1 k2 (by omega) k4
  refine ⟨h4, bs4, fl4, sl4, m, ?_, hi4, hk.trans_keeps hk4, by rw [q1, r1], by rw [q2, r2],
    by rw [q3, r3], hm, hmf, by rw [← e1]; exact hm1, by rw [← e1, ← e2]; exact hm2,
    F1.trans_frame hk F2.weaken_frame⟩
  unfold free
  have hne : b.addr + 8 ≠ 0 := by omega
  rw [if_neg hne]
  have hpl : payload_to_header (b.addr + 8) = b.addr := by
    unfold payload_to_header; omega
  simp only [hpl]
  rw [← hg1, ← hg2]
  rw [e1] at hco
  rw [hco]
  rfl

end

/-- The words changed by the header writes of `place` when the block is split. -/
theorem split_far (h : Heap) {a asize z : Nat} (pa ps ps2 : Bool) (hz1 : asize % 16 = 0)
    (hlt1 : asize < 2 ^ 64) (h16 : 16 ≤ asize) (hz2 : z % 16 = 0) (hlt2 : z < 2 ^ 64)
    (hz16 : 16 ≤ z) (c : Prop) [Decidable c] (t v : Nat) {x : Nat} (k1 : x ≠ a)
    (k2 : x ≠ a + asize) (k3 : x ≠ a + asize + 16) (k4 : x ≠ a + asize + z - 8)
    (k5 : x ≠ t) :
    (if c then
        (write_footer (write_header (write_header h a (asize + flags false pa ps) true)
          (a + asize) (z + flags false pa ps2) false) (a + asize) (z + flags false pa ps2)
          false).write t v
      else write_footer (write_header (write_header h a (asize + flags false pa ps) true)
          (a + asize) (z + flags false pa ps2) false) (a + asize) (z + flags false pa ps2)
          false).mem x = h.mem x :=
  (ite_write_far _ c t v x k5).trans
    ((mark_free_far _ hz2 hlt2 hz16 (flags_lt _ _ _) k2 k3 k4).trans
      (write_header_alloc_far h hz1 hlt1 h16 pa ps k1 k2))

/-- The words changed by the header writes of `place` when the whole block is used. -/
theorem whole_far (h : Heap) {a z : Nat} (pa ps : Bool) (hz : z % 16 = 0) (hlt : z < 2 ^ 64)
    (hz16 : 16 ≤ z) (c : Prop) [Decidable c] (t v : Nat) {x : Nat} (k1 : x ≠ a)
    (k2 : x ≠ a + z) (k5 : x ≠ t) :
    (if c then (write_header h a (z + flags false pa ps) true).write t v
      else write_header h a (z + flags false pa ps) true).mem x = h.mem x :=
  (ite_write_far _ c t v x k5).trans (write_header_alloc_far h hz hlt hz16 pa ps k1 k2)

/-- The words changed by the header writes of `extend_heap`. -/
theorem grow_far (h : Heap) {a z f : Nat} (hz : z % 16 = 0) (hlt : z < 2 ^ 64)
    (hz16 : 16 ≤ z) (hf : f < 16) (k : Nat) {x : Nat} (k1 : x ≠ a) (k2 : x ≠ a + 16)
    (k3 : x ≠ a + z - 8) (k4 : x ≠ a + z) (k5 : x ≠ a + z + 16) :
    (write_header ((write_footer (write_header ({ h with brk := k } : Heap) a (z + f) false) a
      (z + f) false).write (a + z) 0) (a + z) 0 true).mem x = h.mem x := by
  rw [write_header_epi_far _ _ k4 k5, write_mem, if_neg k4]
  exact mark_free_far ({ h with brk := k } : Heap) hz hlt hz16 hf k1 k2 k3

/-- The addresses that `place` writes in a free block are not protected. -/
theorem Geo.place_prot {lo brk mx : Nat} {bs : List Blk} (hg : Geo lo brk mx bs)
    {X : List Nat} {w : Nat} (hp : Prot X bs w) {b n : Blk} (hb : b ∈ bs)
    (hf : b.alloc = false) (hna : n.addr = b.addr + b.size) {asize : Nat}
    (hle : asize ≤ b.size) :
    w ≠ b.addr ∧ w ≠ b.addr + asize ∧ (asize + 16 ≤ b.size → w ≠ b.addr + asize + 16) ∧
      w ≠ b.addr + asize + (b.size - asize) - 8 ∧ w ≠ n.addr ∧ w ≠ b.addr + b.size := by
  have hbp := hg.block_prot hp hb (Or.inl hf)
  have h16 := hg.free_real hb hf
  have k1 := hbp 0 (by omega)
  have k2 := hbp asize hle
  have k4 := hbp (b.size - 8) (by omega)
  have k5 := hbp b.size (le_refl _)
  refine ⟨k1, k2, fun h => ?_, ?_, ?_, k5⟩
  · have := hbp (asize + 16) h
    omega
  · omega
  · omega

/-- The header writes of `place`, split case, change no protected word. -/
theorem Geo.split_frame {lo brk mx : Nat} {bs : List Blk} (hg : Geo lo brk mx bs)
    {b n : Blk} (hb : b ∈ bs) (hf : b.alloc = false)
    (hna : n.addr = b.addr + b.size) {asize : Nat} (hz : asize % 16 = 0) (h16 : 16 ≤ asize)
    (hle : asize + 16 ≤ b.size) {h1 h2 h3 : Heap} (h4 : Heap) {w : Nat} {ps2 : Bool}
    (hh2 : h2 = write_header h1 b.addr (asize + flags false b.pa b.ps) true)
    (hw : w = (b.size - asize) + flags false b.pa ps2)
    (hh3 : h3 = write_footer (write_header h2 (b.addr + asize) w false) (b.addr + asize) w false)
    {c : Prop} [Decidable c] {v : Nat}
    (hh4 : h4 = if c then h3.write n.addr v else h3) (X : List Nat) :
    PFrame X bs h1.mem h4.mem := by
  intro x hp
  obtain ⟨k1, k2, k3, k4, k5, k6⟩ := hg.place_prot hp hb hf hna
    (show asize ≤ b.size by omega)
  have hblt := hg.size_lt hb
  have hsb := (hg.sizes b hb).1
  subst hh4 hh3 hw hh2
  exact split_far h1 b.pa b.ps ps2 hz (by omega) h16 (by omega) (by omega) (by omega)
    c n.addr v k1 k2 (k3 hle) k4 k5

/-- The header writes of `place`, whole block, change no protected word. -/
theorem Geo.whole_frame {lo brk mx : Nat} {bs : List Blk} (hg : Geo lo brk mx bs)
    {b n : Blk} (hb : b ∈ bs) (hf : b.alloc = false)
    (hna : n.addr = b.addr + b.size) {h1 h2 h3 : Heap}
    (hh2 : h2 = write_header h1 b.addr (b.size + flags false b.pa b.ps) true)
    {c : Prop} [Decidable c] {v : Nat}
    (hh3 : h3 = if c then h2.write n.addr v else h2) (X : List Nat) :
    PFrame X bs h1.mem h3.mem := by
  intro x hp
  obtain ⟨k1, k2, k3, k4, k5, k6⟩ := hg.place_prot hp hb hf hna (le_refl b.size)
  have hblt := hg.size_lt hb
  have hsb := (hg.sizes b hb).1
  have h16 := hg.free_real hb hf
  subst hh3 hh2
  exact whole_far h1 b.pa b.ps hsb hblt h16 c n.addr v k1 k6 k5

/-- The header writes of `extend_heap` change no protected word. -/
theorem Geo.grow_frame {lo brk mx : Nat} {bs : List Blk} (hg : Geo lo brk mx bs)
    {e : Blk} (he : e ∈ bs) (heb : e.addr + 8 = brk) {z f : Nat} (hz : z % 16 = 0)
    (hlt : z < 2 ^ 64) (hz16 : 16 ≤ z) (hf : f < 16) {h h1 h2 h3 : Heap} {k : Nat}
    (hh1 : h1 = { h with brk := k })
    (hh2 : h2 = write_footer (write_header h1 e.addr (z + f) false) e.addr (z + f) false)
    (hh3 : h3 = write_header (h2.write (e.addr + z) 0) (e.addr + z) 0 true) (X : List Nat) :
    PFrame X bs h.mem h3.mem := by
  intro x hp
  obtain ⟨f1, f2, f3, f4, f5, f6⟩ := hg.prot_facts hp he
  subst hh3 hh2 hh1
  clear f3 hp hg
  exact grow_far h hz hlt hz16 hf k (by omega) (by omega) (by omega) (by omega) (by omega)

section

variable {h : Heap} {bs : List Blk} {fl : Nat → List Nat} {sl us ex : List Nat}

set_option maxHeartbeats 1000000 in
/-- The function `place` on a listed free block of at least `asize` bytes changes no word
in the payload of an allocated block. -/
theorem place_frame {b : Blk} (hi : Inv h bs fl sl [] []) (hb : b ∈ bs)
    (hf : b.alloc = false) {asize : Nat} (hz : asize % 16 = 0) (h16 : 16 ≤ asize)
    (hle : asize ≤ b.size) :
    ∃ h1 bs1 fl1 sl1 b1, place h b.addr asize = some h1 ∧ Inv h1 bs1 fl1 sl1 [] [] ∧
      b1 ∈ bs1 ∧ b1.addr = b.addr ∧ b1.alloc = true ∧ asize ≤ b1.size ∧
      Keeps [] bs bs1 ∧ h1.heap_lo = h.heap_lo ∧ h1.brk = h.brk ∧
      h1.max_addr = h.max_addr ∧ PFrame [] bs h.mem h1.mem := by
  have hg := hi.geo
  have hpa : b.pa = true := hi.free_pa b hb hf (by simp)
  have hblt := hg.size_lt hb
  have hsb := hg.sizes b hb
  obtain ⟨A, n, B, hbs0⟩ := hg.split_at hb (by omega)
  have hbs : bs = A ++ [b, n] ++ B := by rw [hbs0]; simp
  have hn : n ∈ bs := by rw [hbs]; simp
  have hadj : Adj b n := by rw [hbs0] at hg; exact hg.adj_of_split
  obtain ⟨h1, fl1, sl1, hrem, hi1, r1, r2, r3⟩ := remove_spec hi hb hf (by simp)
  have hsub : (get_size h b.addr + 2 ^ 64 - asize) % 2 ^ 64 = b.size - asize := by
    rw [hi.get_size hb]
    have e : b.size + 2 ^ 64 - asize = (b.size - asize) + 2 ^ 64 := by omega
    rw [e, Nat.add_mod_right, Nat.mod_eq_of_lt (by omega)]
  unfold place
  simp only [hsub, min_block_size, hrem, Option.some_bind, Option.map_some', ge_iff_le]
  by_cases hsp : 16 ≤ b.size - asize
  · rw [if_pos hsp]
    have hw2 : asize ||| get_prev_alloc h b.addr ||| get_prev_sseg h b.addr =
        asize + flags false b.pa b.ps := by
      rw [hi.get_pa hb, hi.get_ps hb]
      exact size_or_flags hz b.pa b.ps
    have hrz : (b.size - asize) % 16 = 0 := by omega
    have hw3 : (if asize = 16 then (b.size - asize) ||| prev_sseg_mask ||| get_prev_alloc h b.addr
        else (b.size - asize) ||| get_prev_alloc h b.addr) =
        (b.size - asize) + flags false b.pa (decide (asize = 16)) := by
      rw [hi.get_pa hb]
      by_cases ha : asize = 16
      · rw [if_pos ha, or_ps_pa hrz]
        simp [ha]
      · rw [if_neg ha, or_pa hrz]
        simp [ha]
    obtain ⟨hi4, hk, g1, g2, g3, hfn2, hfn3⟩ := split_spec hi1 hbs hf hpa hz h16 (by omega)
      rfl rfl rfl rfl
    obtain ⟨h5, fl2, sl2, hins, hi5, q1, q2, q3⟩ :=
      insert_spec hi4 (b := ⟨b.addr + asize, b.size - asize, false, b.pa, decide (asize = 16)⟩)
        (by simp) rfl (by simp)
    rw [filter_self] at hi5
    have FR : PFrame [] bs h.mem h5.mem := by
      have F1 := remove_frame hi hb hf (by simp) hrem []
      have F3 := insert_frame hi4
        (b := ⟨b.addr + asize, b.size - asize, false, b.pa, decide (asize = 16)⟩)
        (by simp) rfl hins []
      have hle2 : asize + 16 ≤ b.size := by omega
      have F2 := hg.split_frame hb hf hadj.1 hz h16 hle2
        (if b.size - asize = 16 then
          (write_footer (write_header
            (write_header h1 b.addr (asize + flags false b.pa b.ps) true) (b.addr + asize)
            ((b.size - asize) + flags false b.pa (decide (asize = 16))) false)
            (b.addr + asize)
            ((b.size - asize) + flags false b.pa (decide (asize = 16))) false).write n.addr
            ((write_footer (write_header
            (write_header h1 b.addr (asize + flags false b.pa b.ps) true) (b.addr + asize)
            ((b.size - asize) + flags false b.pa (decide (asize = 16))) false)
            (b.addr + asize)
            ((b.size - asize) + flags false b.pa (decide (asize = 16))) false).mem n.addr |||
              prev_sseg_mask)
          else write_footer (write_header
            (write_header h1 b.addr (asize + flags false b.pa b.ps) true) (b.addr + asize)
            ((b.size - asize) + flags false b.pa (decide (asize = 16))) false)
            (b.addr + asize)
            ((b.size - asize) + flags false b.pa (decide (asize = 16))) false)
        rfl rfl rfl rfl []
      exact (F1.trans_frame (Keeps.refl_keeps _ _) F2).trans_frame hk F3
    refine ⟨h5, _, fl2, sl2, ⟨b.addr, asize, true, b.pa, b.ps⟩, ?_, hi5, by simp, rfl, rfl,
      le_refl _, hk, by rw [q1, g1, r1], by rw [q2, g2, r2], by rw [q3, g3, r3], FR⟩
    simp only [hw2, hw3, hfn2, hfn3]
    exact hins
  · rw [if_neg hsp]
    have he : asize = b.size := by omega
    have hw2 : b.size ||| get_prev_alloc h b.addr ||| get_prev_sseg h b.addr =
        b.size + flags false b.pa b.ps := by
      rw [hi.get_pa hb, hi.get_ps hb]
      exact size_or_flags hsb.1 b.pa b.ps
    obtain ⟨hi4, hk, g1, g2, g3, hfn2⟩ := whole_spec hi1 hbs hf rfl rfl
    have FR : PFrame [] bs h.mem (if b.size = 16 then
          (write_header h1 b.addr (b.size + flags false b.pa b.ps) true).write n.addr
            ((write_header h1 b.addr (b.size + flags false b.pa b.ps) true).mem n.addr |||
              prev_sseg_mask)
        else write_header h1 b.addr (b.size + flags false b.pa b.ps) true).mem := by
      have F1 := remove_frame hi hb hf (by simp) hrem []
      exact F1.trans_frame (Keeps.refl_keeps _ _)
        (hg.whole_frame hb hf hadj.1 rfl rfl [])
    refine ⟨_, _, fl1, sl1, ⟨b.addr, b.size, true, b.pa, b.ps⟩, ?_, hi4, by simp, rfl, rfl,
      by rw [he], hk, by rw [g1, r1], by rw [g2, r2], by rw [g3, r3], FR⟩
    simp only [hi.get_size hb, hw2, hfn2]

set_option maxHeartbeats 1000000 in
/-- The function `extend_heap` changes no word in the payload of an allocated block. -/
theorem extend_heap_frame (hi : Inv h bs fl sl [] []) {size : Nat} (hs : size ≤ 2 ^ 64 - 16)
    (h1 : 1 ≤ size) :
    ∃ r, extend_heap h size = some r ∧
      ((r.2 = 0 ∧ r.1 = h) ∨
        ∃ bs1 fl1 sl1 m, Inv r.1 bs1 fl1 sl1 [] [] ∧ m ∈ bs1 ∧ m.addr = r.2 ∧
          m.alloc = false ∧ size ≤ m.size ∧ Keeps [] bs bs1 ∧
          r.1.heap_lo = h.heap_lo ∧ r.1.max_addr = h.max_addr) ∧
      PFrame [] bs h.mem r.1.mem := by
  have hg := hi.geo
  obtain ⟨A, e, hbs, hez, hea, heb⟩ := hg.epi_last
  have he : e ∈ bs := by rw [hbs]; simp
  obtain ⟨r1, r2, r3, r4⟩ := round_up_spec hs
  have hepi : mem_heap_hi h - 7 = e.addr := by
    unfold mem_heap_hi; omega
  unfold extend_heap
  simp only [hepi]
  unfold mem_sbrk
  by_cases hfit : h.brk + round_up size dsize ≤ h.max_addr
  · rw [if_pos hfit]
    simp only []
    have hpl : payload_to_header h.brk = e.addr := by
      unfold payload_to_header; omega
    have hw : round_up size dsize ||| get_prev_alloc h e.addr ||| get_prev_sseg h e.addr =
        round_up size dsize + flags false e.pa e.ps := by
      rw [hi.get_pa he, hi.get_ps he]
      exact size_or_flags r1 e.pa e.ps
    obtain ⟨hi3, hk, g1, g2, g3, hfn2⟩ := grow_spec hi hbs hez r1 (by omega) hfit rfl rfl rfl
    obtain ⟨h4, bs4, fl4, sl4, m, hco, hi4, hm, hmf, hm1, hm2, hk4, q1, q2, q3, F2⟩ :=
      coalesce_frame hi3
        (b := ⟨e.addr, round_up size dsize, false, e.pa, e.ps⟩) (by simp) rfl
        (by
          intro a ha
          simp only [List.mem_cons, List.mem_singleton, List.not_mem_nil, or_false] at ha
          exact ha)
    have FR : PFrame [] bs h.mem h4.mem := by
      have h16r : 16 ≤ round_up size dsize := by omega
      exact PFrame.trans_frame
        (hg.grow_frame he heb r1 r4 h16r (flags_lt false e.pa e.ps) rfl rfl rfl []) hk F2
    refine ⟨(h4, m.addr), ?_, Or.inr ⟨bs4, fl4, sl4, m, hi4, hm, rfl, hmf, ?_, hk.trans_keeps hk4,
      by rw [q1, g1], by rw [q3, g3]⟩, FR⟩
    · simp only [hpl, hw, hfn2]
      exact hco
    · have e1 : m.addr ≤ e.addr := hm1
      have e2 : e.addr + round_up size dsize ≤ m.addr + m.size := hm2
      omega
  · rw [if_neg hfit]
    exact ⟨(h, 0), rfl, Or.inl ⟨rfl, rfl⟩, PFrame.refl_frame _ _ _⟩

set_option maxHeartbeats 1000000 in
/-- The function `malloc` for a request of at most `2 ^ 64 - 24` bytes changes no word in
the payload of a block that was allocated before the call. -/
theorem malloc_frame (hi : Inv h bs fl sl [] []) {size : Nat} (hs : size ≤ 2 ^ 64 - 24) :
    ∃ h1 p bs1 fl1 sl1, malloc h size = some (h1, p) ∧ Inv h1 bs1 fl1 sl1 [] [] ∧
      Keeps [] bs bs1 ∧ h1.heap_lo = h.heap_lo ∧ h1.max_addr = h.max_addr ∧
      (size = 0 → p = 0) ∧
      (p ≠ 0 → ∃ b ∈ bs1, b.alloc = true ∧ p = b.addr + 8 ∧ size + 8 ≤ b.size ∧
        ∀ c ∈ bs, c.alloc = true → c.size ≠ 0 → c.addr ≠ b.addr) ∧
      PFrame [] bs h.mem h1.mem := by
  have hg := hi.geo
  have hst : h.heap_start ≠ 0 := by
    rw [hi.start]
    have := hg.lo_pos
    omega
  unfold malloc
  rw [if_neg hst]
  simp only [Option.some_bind]
  by_cases h0 : size = 0
  · rw [if_pos h0]
    exact ⟨h, 0, bs, fl, sl, rfl, hi, Keeps.refl_keeps _ _, rfl, rfl, fun _ => rfl,
      fun e => absurd rfl e, PFrame.refl_frame _ _ _⟩
  rw [if_neg h0]
  have hw8 : wsize = 8 := rfl
  have e1 : (size + wsize) % 2 ^ 64 = size + 8 := by
    rw [hw8]; exact Nat.mod_eq_of_lt (by omega)
  rw [e1]
  obtain ⟨r1, r2, r3, r4⟩ := round_up_spec (show size + 8 ≤ 2 ^ 64 - 16 by omega)
  generalize hasz : round_up (size + 8) dsize = asize at *
  have ha16 : 16 ≤ asize := by omega
  obtain ⟨r, hr, hfit⟩ := find_fit_spec hi ha16
  rw [hr]
  simp only [Option.some_bind]
  by_cases hr0 : r = 0
  · rw [if_pos hr0]
    have hmx : max asize chunksize % 16 = 0 ∧ asize ≤ max asize chunksize ∧
        max asize chunksize < 2 ^ 64 ∧ 1 ≤ max asize chunksize := by
      unfold max chunksize
      split <;> omega
    obtain ⟨x, hx, hp, FE⟩ :=
      @extend_heap_frame _ _ _ _ hi (max asize chunksize) (by omega) hmx.2.2.2
    rw [hx]
    simp only [Option.some_bind]
    rcases hp with ⟨hx0, hxh⟩ | ⟨bs1, fl1, sl1, m, hi1, hm, hma, hmf, hms, hk, q1, q2⟩
    · rw [if_pos hx0, hxh]
      exact ⟨h, 0, bs, fl, sl, rfl, hi, Keeps.refl_keeps _ _, rfl, rfl, fun e => absurd e h0,
        fun e => absurd rfl e, PFrame.refl_frame _ _ _⟩
    · have hne : x.2 ≠ 0 := by
        rw [← hma]; exact hi1.addr_pos hm
      rw [if_neg hne, ← hma]
      obtain ⟨h2, bs2, fl2, sl2, b1, hpl, hi2, hb1, e1, e2, e3, hk2, p1, p2, p3, FP⟩ :=
        place_frame hi1 hm hmf r1 ha16 (by omega)
      rw [hpl]
      refine ⟨h2, header_to_payload m.addr, bs2, fl2, sl2, rfl, hi2, hk.trans_keeps hk2,
        by rw [p1, q1], by rw [p3, q2], fun e => absurd e h0, fun _ => ?_,
        FE.trans_frame hk FP⟩
      refine ⟨b1, hb1, e2, by rw [e1]; rfl, by omega, ?_⟩
      intro c hc hca hcz hce
      obtain ⟨c1, hc1, f1, _, f3⟩ := hk c hc hca hcz (by simp)
      have := hi1.geo.uniq hc1 hm (by rw [f1, hce, e1])
      rw [this, hmf] at f3
      cases f3
  · rw [if_neg hr0]
    rcases hfit with e | ⟨b, hb, hba, hbf, hbs⟩
    · exact absurd e hr0
    · rw [← hba]
      obtain ⟨h2, bs2, fl2, sl2, b1, hpl, hi2, hb1, e1, e2, e3, hk2, p1, p2, p3, FP⟩ :=
        place_frame hi hb hbf r1 ha16 hbs
      rw [hpl]
      refine ⟨h2, header_to_payload b.addr, bs2, fl2, sl2, rfl, hi2, hk2, p1, p3,
        fun e => absurd e h0, fun _ => ?_, FP⟩
      refine ⟨b1, hb1, e2, by rw [e1]; rfl, by omega, ?_⟩
      intro c hc hca hcz hce
      have := hg.uniq hc hb (by rw [hce, e1])
      rw [this, hbf] at hca
      cases hca

end

/-! ## Bytes -/

/-- Replacing byte `i` of a word changes byte `i` only. -/
theorem byte_set (w v i j : Nat) (hi : i < 8) (hj : j < 8) :
    ((w % 2 ^ (8 * i) + (v % 256) * 2 ^ (8 * i) + (w / 2 ^ (8 * i + 8)) * 2 ^ (8 * i + 8)) /
      2 ^ (8 * j)) % 256 = if j = i then v % 256 else (w / 2 ^ (8 * j)) % 256 := by
  interval_cases i <;> interval_cases j <;> norm_num <;> omega

theorem load_store_byte (h : Heap) (a v b : Nat) :
    load_byte (store_byte h a v) b = if b = a then v % 256 else load_byte h b := by
  unfold load_byte store_byte
  simp only [write_mem]
  by_cases hw : b - b % 8 = a - a % 8
  · rw [if_pos hw, byte_set _ _ _ _ (Nat.mod_lt _ (by decide)) (Nat.mod_lt _ (by decide))]
    by_cases hab : b = a
    · rw [if_pos hab, if_pos (by rw [hab])]
    · rw [if_neg hab, if_neg (by omega), hw]
  · rw [if_neg hw, if_neg (by intro e; rw [e] at hw; exact hw rfl)]

theorem load_byte_lt (h : Heap) (a : Nat) : load_byte h a < 256 :=
  Nat.mod_lt _ (by decide)

theorem load_byte_congr {h h1 : Heap} {a : Nat} (e : h1.mem (a - a % 8) = h.mem (a - a % 8)) :
    load_byte h1 a = load_byte h a := by
  unfold load_byte
  rw [e]

/-- After `memcpy(dst, src, n)` the first `n` bytes at `dst` are the bytes that were at
`src`. -/
theorem memcpy_load (h : Heap) (dst src : Nat) :
    ∀ n i, i < n → load_byte (memcpy h dst src n) (dst + i) = load_byte h (src + i)
  | 0, i, hi => by omega
  | n + 1, i, hi => by
    unfold memcpy
    simp only []
    rw [load_store_byte]
    by_cases e : i = n
    · subst e
      rw [if_pos rfl]
      exact Nat.mod_eq_of_lt (load_byte_lt _ _)
    · rw [if_neg (by omega)]
      exact memcpy_load h dst src n i (by omega)

section

variable {h : Heap} {bs : List Blk} {fl : Nat → List Nat} {sl us ex : List Nat}

/-- The payload capacity that `get_payload_size` reads for a real block. -/
theorem Inv.payload_size (hi : Inv h bs fl sl us ex) {b : Blk} (hb : b ∈ bs)
    (hz : b.size ≠ 0) : get_payload_size h (payload_to_header (b.addr + 8)) = b.size - 8 := by
  have hb16 := (hi.geo.sizes b hb).2.2 hz
  have hblt := hi.geo.size_lt hb
  have hpl : payload_to_header (b.addr + 8) = b.addr := by unfold payload_to_header; omega
  unfold get_payload_size wsize
  rw [hpl, hi.get_size hb]
  have e2 : b.size + 2 ^ 64 - 8 = (b.size - 8) + 2 ^ 64 := by omega
  rw [e2, Nat.add_mod_right, Nat.mod_eq_of_lt (by omega)]

/-- A byte of the payload of an allocated block lies in a protected word. -/
theorem Geo.byte_prot {lo brk mx : Nat} (hg : Geo lo brk mx bs) {b : Blk} (hb : b ∈ bs)
    (hal : b.alloc = true) {X : List Nat} (hX : b.addr ∉ X) {i : Nat} (hi : i + 8 < b.size) :
    Prot X bs (b.addr + 8 + i - (b.addr + 8 + i) % 8) := by
  have ha := hg.align hb
  exact ⟨b, hb, hal, hX, by omega, by omega⟩

/-- A free block of the ghost list is met by the walk over the heap. -/
theorem Inv.free_in_heap_blocks (hi : Inv h bs fl sl us ex) {m : Blk} (hm : m ∈ bs)
    (hmf : m.alloc = false) : (m.addr, m.size, false) ∈ heap_blocks h := by
  obtain ⟨R, e, hbs, hez, hea, hw⟩ := hi.heap_blocks_eq
  rw [hw]
  have hmR : m ∈ R := by
    rw [hbs] at hm
    rcases List.mem_append.1 hm with h1 | h1
    · exact h1
    · simp only [List.mem_singleton] at h1
      rw [h1, hea] at hmf
      cases hmf
  exact List.mem_map.2 ⟨m, hmR, by rw [hmf]⟩

set_option maxHeartbeats 1000000 in
/-- The function `realloc` on a live pointer and a non-zero size: the bytes of the old
payload are copied, and the old block ends up inside a free block. -/
theorem realloc_frame (hi : Inv h bs fl sl [] []) {b : Blk} (hb : b ∈ bs)
    (hal : b.alloc = true) (hbz : b.size ≠ 0) {size : Nat} (hs0 : size ≠ 0)
    (hs : size ≤ 2 ^ 64 - 24) :
    ∃ h1 q, realloc h (b.addr + 8) size = some (h1, q) ∧
      (q ≠ 0 →
        (∀ i, i < min (b.size - 8) size → load_byte h1 (q + i) = load_byte h (b.addr + 8 + i)) ∧
        ∃ blk ∈ heap_blocks h1, blk.2.2 = false ∧ blk.1 ≤ b.addr ∧
          b.addr + b.size ≤ blk.1 + blk.2.1) := by
  have hg := hi.geo
  have hb16 := (hg.sizes b hb).2.2 hbz
  unfold realloc
  simp only []
  rw [if_neg hs0, if_neg (show b.addr + 8 ≠ 0 by omega)]
  obtain ⟨h1, q, bs1, fl1, sl1, e, hi1, hk, q1, q2, _, hq, FM⟩ := malloc_frame hi hs
  rw [e]
  simp only [Option.some_bind]
  by_cases hq0 : q = 0
  · rw [if_pos hq0]
    exact ⟨h1, 0, rfl, fun e => absurd rfl e⟩
  rw [if_neg hq0]
  obtain ⟨nb, hnb, n1, n2, n3, n4⟩ := hq hq0
  obtain ⟨c, hc, c1, c2, c3⟩ := hk b hb hal hbz (by simp)
  have hps : get_payload_size h1 (payload_to_header (b.addr + 8)) = b.size - 8 := by
    have := hi1.payload_size hc (by rw [c2]; exact hbz)
    rw [c1, c2] at this
    exact this
  rw [hps]
  generalize hcs : (if size < b.size - 8 then size else b.size - 8) = copysize
  have hcs2 : copysize = min (b.size - 8) size := by
    rw [← hcs]
    split <;> omega
  have hi2 := hi1.memcpy hnb n1 (b.addr + 8) copysize (by omega)
  rw [← n2] at hi2
  have hne : nb.addr ≠ c.addr := by
    rw [c1]
    exact fun e => n4 b hb hal hbz e.symm
  obtain ⟨h3, bs3, fl3, sl3, m, e3, hi3, hk3, r1, _, r3, hm, hmf, hm1, hm2, FF⟩ :=
    free_frame hi2 hc c3 (by rw [c2]; exact hbz)
  rw [c1] at e3
  rw [e3]
  refine ⟨h3, q, rfl, fun _ => ⟨?_, (m.addr, m.size, false), hi3.free_in_heap_blocks hm hmf,
    rfl, by rw [← c1]; exact hm1, by rw [← c1, ← c2]; exact hm2⟩⟩
  intro i hi
  have hnbp : Prot [c.addr] bs1 (nb.addr + 8 + i - (nb.addr + 8 + i) % 8) :=
    hi1.geo.byte_prot hnb n1 (by simpa using hne) (by omega)
  have hbp : Prot [] bs (b.addr + 8 + i - (b.addr + 8 + i) % 8) :=
    hg.byte_prot hb hal (by simp) (by omega)
  have k1 : load_byte h3 (q + i) = load_byte (memcpy h1 q (b.addr + 8) copysize) (q + i) := by
    apply load_byte_congr
    rw [n2]
    have := FF _ hnbp
    rw [n2] at this
    exact this
  have k2 : load_byte (memcpy h1 q (b.addr + 8) copysize) (q + i) =
      load_byte h1 (b.addr + 8 + i) := memcpy_load h1 q (b.addr + 8) copysize i (by omega)
  have k3 : load_byte h1 (b.addr + 8 + i) = load_byte h (b.addr + 8 + i) :=
    load_byte_congr (FM _ hbp)
  rw [k1, k2, k3]

end

/-- A `memset` into the payload of a live block is a sequence of user stores. -/
theorem reach_memset {h : Heap} {live : List Nat} {p c : Nat} (hr : Reach h live)
    (hp : p ∈ live) :
    ∀ n, (∀ k, k < n → k < get_payload_size (memset h p c k) (payload_to_header p)) →
      Reach (memset h p c n) live
  | 0, _ => hr
  | n + 1, hk => by
    have ih := reach_memset hr hp n (fun k hkn => hk k (by omega))
    unfold memset
    exact Reach.store ih hp (Nat.le_add_right _ _) (Nat.add_lt_add_left (hk n (by omega)) _)

set_option maxRecDepth 100000 in
theorem sample_reach4 : Reach sample4.1 [4112] := by
  have h := Reach.malloc sample_reach1 (show 10 ≤ 2 ^ 64 - 24 by decide)
    (option_eq_of_isSome (malloc sample1 10) (sample1, 0) (by decide))
  have e : live_malloc [] sample4.2 = [4112] := by decide
  rw [← e]
  exact h

set_option maxRecDepth 100000 in
theorem sample_reach5 : Reach sample5 [4112] := by
  have e : sample4.2 = 4112 := by decide
  have h := @reach_memset sample4.1 [4112] 4112 0xAB sample_reach4 (by simp) 10 (by decide)
  unfold sample5
  rw [e]
  exact h

/-- C11: for a live pointer `p` of a reachable heap and `1 ≤ n ≤ 2 ^ 64 - 24`,
`realloc(p, n)` returns, and if the result `q` is not `NULL` then the first
`min(c, n)` bytes at `q` are the bytes that were at `p` before the call, where `c` is
the payload capacity of the block of `p`, and afterwards the old block lies inside a free
block of the heap. -/
theorem C11_realloc_preserves {h : Heap} {live : List Nat} (hr : Reach h live) {p n : Nat}
    (hp : p ∈ live) (h1 : 1 ≤ n) (hn : n ≤ 2 ^ 64 - 24) :
    ∃ h1 q, realloc h p n = some (h1, q) ∧
      (q ≠ 0 →
        (∀ i, i < min (get_payload_size h (payload_to_header p)) n →
          load_byte h1 (q + i) = load_byte h (p + i)) ∧
        ∃ blk ∈ heap_blocks h1, blk.2.2 = false ∧ blk.1 + 8 ≤ p ∧
          p + get_payload_size h (payload_to_header p) ≤ blk.1 + blk.2.1) := by
  obtain ⟨bs, fl, sl, hi, hl⟩ := reach_good hr
  obtain ⟨b, hb, b1, b2, b3⟩ := hl p hp
  have hb16 := (hi.geo.sizes b hb).2.2 b2
  obtain ⟨h1, q, e, hq⟩ := realloc_frame hi hb b1 b2 (show n ≠ 0 by omega) hn
  have hps := hi.payload_size hb b2
  rw [← b3] at e hps
  refine ⟨h1, q, e, fun hq0 => ?_⟩
  obtain ⟨k1, blk, k2, k3, k4, k5⟩ := hq hq0
  rw [hps]
  refine ⟨fun i hi2 => ?_, blk, k2, k3, by omega, by omega⟩
  rw [b3]
  exact k1 i hi2

set_option maxRecDepth 100000 in
/-- The example of the claim: after `p = malloc(10)`, filling the ten bytes at `p` with
`0xAB` and `q = realloc(p, 100)`, `q` is not `NULL` and the first ten bytes at `q` are
`0xAB`. -/
theorem C11_realloc_preserves_witness :
    Reach sample5 [4112] ∧ 4112 ∈ [4112] ∧ 1 ≤ 100 ∧ 100 ≤ 2 ^ 64 - 24 ∧
    (∃ h1 q, realloc sample5 4112 100 = some (h1, q) ∧
      (q ≠ 0 →
        (∀ i, i < min (get_payload_size sample5 (payload_to_header 4112)) 100 →
          load_byte h1 (q + i) = load_byte sample5 (4112 + i)) ∧
        ∃ blk ∈ heap_blocks h1, blk.2.2 = false ∧ blk.1 + 8 ≤ 4112 ∧
          4112 + get_payload_size sample5 (payload_to_header 4112) ≤ blk.1 + blk.2.1)) ∧
    (realloc sample5 4112 100).map (fun r =>
      (r.2, (List.range 10).map (fun i => load_byte r.1 (r.2 + i)))) =
      some (4144, [171, 171, 171, 171, 171, 171, 171, 171, 171, 171]) :=
  ⟨sample_reach5, by decide, by decide, by decide,
    C11_realloc_preserves sample_reach5 (by decide) (by decide) (by decide), by decide⟩

theorem find_fit_small_none (h : Heap) (asize : Nat) :
    ∀ (xs : List Nat) (fuel block : Nat), SList h.mem block xs → xs.length < fuel →
      find_fit_small h asize fuel block = some none → ∀ x ∈ xs, get_size h x < asize
  | _, 0, _, _, hf, _ => by simp at hf
  | [], fuel + 1, block, _, _, _ => by simp
  | y :: ys, fuel + 1, block, hs, hf, e => by
    obtain ⟨rfl, h0, h2⟩ := slist_cons.1 hs
    unfold find_fit_small at e
    rw [if_neg h0] at e
    by_cases hc : asize ≤ get_size h block
    · rw [if_pos hc] at e
      cases e
    · rw [if_neg hc] at e
      have ih := find_fit_small_none h asize ys fuel _ h2 (by simp at hf; omega) e
      intro x hx
      rcases List.mem_cons.1 hx with rfl | hx
      · omega
      · exact ih x hx

/-- The loop over one class list keeps the relation between the two locals
`if_firstfit` and `block_bestfit`, and leaves `if_firstfit` set only if no member of the
list has at least `asize` bytes. -/
theorem find_fit_list_complete (h : Heap) (asize : Nat) :
    ∀ (xs : List Nat) (fuel block : Nat) (fs : FitState), SList h.mem block xs →
      xs.length < fuel → (fs.if_firstfit = false → fs.block_bestfit ≠ 0) →
      ∃ r, find_fit_list h asize fuel block fs = some r ∧
        match r with
        | Sum.inl b => b ≠ 0
        | Sum.inr fs1 => (fs1.if_firstfit = false → fs1.block_bestfit ≠ 0) ∧
            (fs1.if_firstfit = true → fs.if_firstfit = true ∧
              ∀ x ∈ xs, get_size h x < asize)
  | _, 0, _, _, _, hf, _ => by simp at hf
  | [], fuel + 1, block, fs, hs, _, hJ => by
    have : block = 0 := slist_nil.1 hs
    subst this
    refine ⟨Sum.inr fs, ?_, hJ, fun e => ⟨e, by simp⟩⟩
    unfold find_fit_list
    rw [if_pos rfl]
  | y :: ys, fuel + 1, block, fs, hs, hf, hJ => by
    obtain ⟨rfl, h0, h2⟩ := slist_cons.1 hs
    have hlen : ys.length < fuel := by simp at hf; omega
    unfold find_fit_list
    rw [if_neg h0]
    by_cases hc : asize = get_size h block
    · rw [if_pos hc]
      exact ⟨Sum.inl block, rfl, h0⟩
    · rw [if_neg hc]
      by_cases hc2 : asize < get_size h block
      · rw [if_pos hc2]
        have key : ∀ fs3 : FitState, fs3.if_firstfit = false → fs3.block_bestfit ≠ 0 →
            ∃ r, (if fs3.n = nth_fit then some (Sum.inl fs3.block_bestfit)
              else find_fit_list h asize fuel (find_next_free h block) fs3) = some r ∧
              match r with
              | Sum.inl b => b ≠ 0
              | Sum.inr fs1 => (fs1.if_firstfit = false → fs1.block_bestfit ≠ 0) ∧
                  (fs1.if_firstfit = true → fs.if_firstfit = true ∧
                    ∀ x ∈ block :: ys, get_size h x < asize) := by
          intro fs3 hff h3
          by_cases hn : fs3.n = nth_fit
          · rw [if_pos hn]
            exact ⟨_, rfl, h3⟩
          · rw [if_neg hn]
            obtain ⟨r, hr, hp⟩ := find_fit_list_complete h asize ys fuel _ fs3 h2 hlen
              (fun _ => h3)
            refine ⟨r, hr, ?_⟩
            cases r with
            | inl b => exact hp
            | inr fs1 =>
              refine ⟨hp.1, fun e => ?_⟩
              have := (hp.2 e).1
              rw [hff] at this
              cases this
        apply key
        · by_cases hff : fs.if_firstfit = true
          · simp only [hff, if_true]
            rw [apply_ite FitState.if_firstfit]
            simp
          · simp only [hff]
            rw [apply_ite FitState.if_firstfit]
            simp
        · by_cases hff : fs.if_firstfit = true
          · simp only [hff, if_true]
            rw [apply_ite FitState.block_bestfit]
            exact @prop_ite (fun r => r ≠ 0) _ _ _ _ h0 h0
          · simp only [hff]
            rw [apply_ite FitState.block_bestfit]
            exact @prop_ite (fun r => r ≠ 0) _ _ _ _ h0 (hJ (by simpa using hff))
      · rw [if_neg hc2]
        obtain ⟨r, hr, hp⟩ := find_fit_list_complete h asize ys fuel _ fs h2 hlen hJ
        refine ⟨r, hr, ?_⟩
        cases r with
        | inl b => exact hp
        | inr fs1 =>
          refine ⟨hp.1, fun e => ⟨(hp.2 e).1, ?_⟩⟩
          intro x hx
          rcases List.mem_cons.1 hx with rfl | hx
          · omega
          · exact (hp.2 e).2 x hx

theorem get_seg_list_cases {z : Nat} (hz : 16 < z) :
    (get_seg_list z = 0 ∧ z ≤ 32) ∨ (get_seg_list z = 1 ∧ 32 < z ∧ z ≤ 64) ∨
    (get_seg_list z = 2 ∧ 64 < z ∧ z ≤ 128) ∨ (get_seg_list z = 3 ∧ 128 < z ∧ z ≤ 256) ∨
    (get_seg_list z = 4 ∧ 256 < z ∧ z ≤ 512) ∨ (get_seg_list z = 5 ∧ 512 < z ∧ z ≤ 1024) ∨
    (get_seg_list z = 6 ∧ 1024 < z ∧ z ≤ 2048) ∨ (get_seg_list z = 7 ∧ 2048 < z ∧ z ≤ 4098) ∨
    (get_seg_list z = 8 ∧ 4098 < z ∧ z ≤ 8192) ∨
    (get_seg_list z = 9 ∧ 8192 < z ∧ z ≤ 16384) ∨ (get_seg_list z = 10 ∧ 16384 < z) := by
  by_cases h0 : z ≤ 32
  · exact Or.inl ⟨get_seg_list_0 hz h0, h0⟩
  by_cases h1 : z ≤ 64
  · exact Or.inr (Or.inl ⟨get_seg_list_1 (by omega) h1, by omega, h1⟩)
  by_cases h2 : z ≤ 128
  · exact Or.inr (Or.inr (Or.inl ⟨get_seg_list_2 (by omega) h2, by omega, h2⟩))
  by_cases h3 : z ≤ 256
  · exact Or.inr (Or.inr (Or.inr (Or.inl ⟨get_seg_list_3 (by omega) h3, by omega, h3⟩)))
  by_cases h4 : z ≤ 512
  · exact Or.inr (Or.inr (Or.inr (Or.inr (Or.inl
      ⟨get_seg_list_4 (by omega) h4, by omega, h4⟩))))
  by_cases h5 : z ≤ 1024
  · exact Or.inr (Or.inr (Or.inr (Or.inr (Or.inr (Or.inl
      ⟨get_seg_list_5 (by omega) h5, by omega, h5⟩)))))
  by_cases h6 : z ≤ 2048
  · exact Or.inr (Or.inr (Or.inr (Or.inr (Or.inr (Or.inr (Or.inl
      ⟨get_seg_list_6 (by omega) h6, by omega, h6⟩))))))
  by_cases h7 : z ≤ 4098
  · exact Or.inr (Or.inr (Or.inr (Or.inr (Or.inr (Or.inr (Or.inr (Or.inl
      ⟨get_seg_list_7 (by omega) h7, by omega, h7⟩)))))))
  by_cases h8 : z ≤ 8192
  · exact Or.inr (Or.inr (Or.inr (Or.inr (Or.inr (Or.inr (Or.inr (Or.inr (Or.inl
      ⟨get_seg_list_8 (by omega) h8, by omega, h8⟩))))))))
  by_cases h9 : z ≤ 16384
  · exact Or.inr (Or.inr (Or.inr (Or.inr (Or.inr (Or.inr (Or.inr (Or.inr (Or.inr (Or.inl
      ⟨get_seg_list_9 (by omega) h9, by omega, h9⟩)))))))))
  · exact Or.inr (Or.inr (Or.inr (Or.inr (Or.inr (Or.inr (Or.inr (Or.inr (Or.inr (Or.inr
      ⟨get_seg_list_10 (by omega), by omega⟩)))))))))

/-- The class index grows with the size. -/
theorem get_seg_list_mono {a z : Nat} (ha : 16 < a) (hz : a ≤ z) :
    get_seg_list a ≤ get_seg_list z := by
  have h1 := get_seg_list_cases ha
  have h2 := get_seg_list_cases (show 16 < z by omega)
  omega

section

variable {h : Heap} {fl : Nat → List Nat} {sl : List Nat}

theorem ListsWf.seg_len_le (hw : ListsWf h fl sl) {k : Nat} (hk : k < 11) :
    (fl k).length ≤ h.fuel := by
  apply nodup_length_le (hw.seg_nodup k hk)
  intro x hx
  have := hw.seg_heap k hk x hx
  omega

theorem ListsWf.small_len_le (hw : ListsWf h fl sl) : sl.length ≤ h.fuel := by
  apply nodup_length_le hw.small_nodup
  intro x hx
  have := hw.small_heap x hx
  omega

/-- The loop of `find_fit` over the classes `k .. 10`. -/
theorem find_fit_classes_wf (hw : ListsWf h fl sl) (asize : Nat) :
    ∀ (count k : Nat) (fs : FitState), 11 ≤ count + k →
      (fs.if_firstfit = false → fs.block_bestfit ≠ 0) →
      (fs.block_bestfit ≠ 0 →
        InLists fl sl fs.block_bestfit ∧ asize ≤ get_size h fs.block_bestfit) →
      ∃ r, find_fit_classes h asize count (k : Int) fs = some r ∧
        (r ≠ 0 → InLists fl sl r ∧ asize ≤ get_size h r) ∧
        (r = 0 → fs.if_firstfit = true ∧
          ∀ j, k ≤ j → j < 11 → ∀ x ∈ fl j, get_size h x < asize)
  | 0, k, fs, hc, hJ, hG => by
    refine ⟨_, rfl, hG, fun e => ⟨?_, fun j h1 h2 => by omega⟩⟩
    cases hff : fs.if_firstfit
    · exact absurd e (hJ hff)
    · rfl
  | count + 1, k, fs, hc, hJ, hG => by
    unfold find_fit_classes
    by_cases hk : (k : Int) < 11
    · rw [if_pos hk]
      have hk2 : k < 11 := by omega
      rw [seg_get_nat h hk2]
      simp only [Option.some_bind]
      have hlen : (fl k).length < h.fuel + 1 := by have := hw.seg_len_le hk2; omega
      obtain ⟨r, hr, hp⟩ := find_fit_list_spec h asize
        (fun r => r ≠ 0 → InLists fl sl r ∧ asize ≤ get_size h r) (fl k) (h.fuel + 1)
        (h.seg_list k) fs (hw.seg k hk2) hlen
        (fun x hx hle _ => ⟨Or.inr ⟨k, hk2, hx⟩, hle⟩) hG
      obtain ⟨r1, hr1, hp1⟩ := find_fit_list_complete h asize (fl k) (h.fuel + 1)
        (h.seg_list k) fs (hw.seg k hk2) hlen hJ
      rw [hr] at hr1
      cases hr1
      rw [hr]
      simp only [Option.some_bind]
      cases r with
      | inl b => exact ⟨b, rfl, hp, fun e => absurd e hp1⟩
      | inr fs1 =>
        obtain ⟨r2, hr2, q1, q2⟩ := find_fit_classes_wf hw asize count (k + 1) fs1
          (by omega) hp1.1 hp
        refine ⟨r2, by simpa using hr2, q1, fun e => ?_⟩
        obtain ⟨e1, e2⟩ := q2 e
        obtain ⟨e3, e4⟩ := hp1.2 e1
        refine ⟨e3, fun j h1 h2 => ?_⟩
        by_cases hjk : j = k
        · subst hjk; exact e4
        · exact e2 j (by omega) h2
    · rw [if_neg hk]
      refine ⟨_, rfl, hG, fun e => ⟨?_, fun j h1 h2 => by omega⟩⟩
      cases hff : fs.if_firstfit
      · exact absurd e (hJ hff)
      · rfl

/-- On well-formed free lists `find_fit` returns `NULL` or a listed block of at least
`asize` bytes, and `NULL` only if no listed block has `asize` bytes. -/
theorem find_fit_wf (hw : ListsWf h fl sl) {asize : Nat} (h16 : 16 ≤ asize) :
    ∃ r, find_fit h asize = some r ∧
      (r ≠ 0 → InLists fl sl r ∧ asize ≤ get_size h r) ∧
      (r = 0 ↔ ∀ x, InLists fl sl x → get_size h x < asize) := by
  have hnz : ∀ x, InLists fl sl x → x ≠ 0 := by
    rintro x (hx | ⟨k, hk, hx⟩)
    · exact hw.small.ne_zero hx
    · exact (hw.seg k hk).ne_zero hx
  suffices H : ∃ r, find_fit h asize = some r ∧
      (r ≠ 0 → InLists fl sl r ∧ asize ≤ get_size h r) ∧
      (r = 0 → ∀ x, InLists fl sl x → get_size h x < asize) by
    obtain ⟨r, hr, h1, h2⟩ := H
    refine ⟨r, hr, h1, h2, fun hall => ?_⟩
    by_contra hne
    have := h1 hne
    have := hall r this.1
    omega
  unfold find_fit
  simp only [min_block_size]
  by_cases ha : asize = 16
  · rw [if_pos ha]
    have hlen : sl.length < h.fuel + 1 := by have := hw.small_len_le; omega
    obtain ⟨r, hr, hp⟩ := find_fit_small_spec h asize sl (h.fuel + 1) h.small_seg_list
      hw.small hlen
    rw [hr]
    simp only [Option.some_bind]
    cases r with
    | some x =>
      obtain ⟨hx, hle⟩ := hp x rfl
      exact ⟨x, rfl, fun _ => ⟨Or.inl hx, hle⟩, fun e => absurd e (hnz x (Or.inl hx))⟩
    | none =>
      have hsm := find_fit_small_none h asize sl (h.fuel + 1) h.small_seg_list hw.small
        hlen hr
      obtain ⟨r2, hr2, q1, q2⟩ := find_fit_classes_wf hw asize 12 0 ⟨0, true, 0, 0⟩
        (by omega) (by simp) (by simp)
      refine ⟨r2, by simpa using hr2, q1, fun e => ?_⟩
      rintro x (hx | ⟨k, hk, hx⟩)
      · exact hsm x hx
      · exact (q2 e).2 k (by omega) hk x hx
  · rw [if_neg ha]
    obtain ⟨k, hk11, hk⟩ := get_seg_list_range (show 16 < asize by omega)
    rw [hk]
    obtain ⟨r2, hr2, q1, q2⟩ := find_fit_classes_wf hw asize 12 k ⟨0, true, 0, 0⟩
      (by omega) (by simp) (by simp)
    refine ⟨r2, hr2, q1, fun e => ?_⟩
    rintro x (hx | ⟨j, hj, hx⟩)
    · have := (hw.small_class x hx).2
      omega
    · by_cases hjk : k ≤ j
      · exact (q2 e).2 j hjk hj x hx
      · by_contra hge
        have hc := hw.seg_class j hj x hx
        have hm := get_seg_list_mono (show 16 < asize by omega)
          (show asize ≤ get_size h x by omega)
        rw [hk, hc.2.2] at hm
        omega

end

section

variable {h : Heap} {bs : List Blk} {fl : Nat → List Nat} {sl us ex : List Nat}

/-- The lists of a heap that satisfies the invariant are well-formed. -/
theorem Inv.lists_wf (hi : Inv h bs fl sl us ex) : ListsWf h fl sl := by
  refine ⟨fun k hk => (hi.lists.seg k hk).1, hi.lists.small, ?_, ?_, hi.spec.seg_nodup,
    hi.spec.small_nodup, ?_, ?_⟩
  · intro k hk x hx
    obtain ⟨z, ⟨c, hc, e1, e2, e3, _⟩, hz, hcl⟩ := (hi.spec.seg_mem k hk x).1 hx
    subst e1
    rw [hi.get_alloc hc, hi.get_size hc, e2]
    exact ⟨e3, hz, hcl⟩
  · intro x hx
    obtain ⟨c, hc, e1, e2, e3, _⟩ := (hi.spec.small_mem x).1 hx
    subst e1
    rw [hi.get_alloc hc, hi.get_size hc]
    exact ⟨e3, e2⟩
  · intro k hk x hx
    obtain ⟨c, hc, h1, _⟩ := hi.seg_block hk hx
    have := hi.geo.lo_le hc
    have := hi.geo.hi_le hc
    omega
  · intro x hx
    obtain ⟨c, hc, h1, _⟩ := hi.small_block hx
    have := hi.geo.lo_le hc
    have := hi.geo.hi_le hc
    omega

/-- A free block of the heap is a member of a list. -/
theorem Inv.free_in_lists (hi : Inv h bs fl sl [] ex) {c : Blk} (hc : c ∈ bs)
    (hf : c.alloc = false) : InLists fl sl c.addr := by
  have hreal := hi.geo.free_real hc hf
  by_cases h16 : c.size = 16
  · exact Or.inl ((hi.spec.small_mem c.addr).2 ⟨c, hc, rfl, h16, hf, by simp⟩)
  · obtain ⟨k, hk, hcl⟩ := get_seg_list_range (show 16 < c.size by omega)
    exact Or.inr ⟨k, hk, (hi.spec.seg_mem k hk c.addr).2
      ⟨c.size, ⟨c, hc, rfl, rfl, hf, by simp⟩, by omega, hcl⟩⟩

/-- If a free block of the heap has room for the request, `malloc` does not grow the
heap. -/
theorem malloc_no_growth (hi : Inv h bs fl sl [] []) {size : Nat} (h1 : 1 ≤ size)
    (hs : size ≤ 2 ^ 64 - 24) {c : Blk} (hc : c ∈ bs) (hf : c.alloc = false)
    (hle : round_up ((size + wsize) % 2 ^ 64) dsize ≤ c.size) :
    ∃ h1 p, malloc h size = some (h1, p) ∧ p ≠ 0 ∧ h1.brk = h.brk := by
  have hg := hi.geo
  have hst : h.heap_start ≠ 0 := by
    rw [hi.start]
    have := hg.lo_pos
    omega
  have hw8 : wsize = 8 := rfl
  have e1 : (size + wsize) % 2 ^ 64 = size + 8 := by
    rw [hw8]; exact Nat.mod_eq_of_lt (by omega)
  rw [e1] at hle
  obtain ⟨r1, r2, r3, r4⟩ := round_up_spec (show size + 8 ≤ 2 ^ 64 - 16 by omega)
  obtain ⟨r, hr, q1, q2⟩ := find_fit_wf hi.lists_wf
    (show 16 ≤ round_up (size + 8) dsize by omega)
  have hr0 : r ≠ 0 := by
    intro e
    have := (q2.1 e) c.addr (hi.free_in_lists hc hf)
    rw [hi.get_size hc] at this
    omega
  obtain ⟨r', hr', hfit⟩ := find_fit_spec hi (show 16 ≤ round_up (size + 8) dsize by omega)
  rw [hr] at hr'
  cases hr'
  rcases hfit with e | ⟨b, hb, e1b, hbf, hble⟩
  · exact absurd e hr0
  obtain ⟨h2, bs1, fl1, sl1, b1, hpl, hi2, hb1, ea, eal, esz, hk, m1, m2, m3⟩ :=
    place_spec hi hb hbf r1 (by omega) hble
  refine ⟨h2, header_to_payload r, ?_, ?_, m2⟩
  · unfold malloc
    rw [if_neg hst]
    simp only [Option.some_bind]
    rw [if_neg (by omega), e1, hr]
    simp only [Option.some_bind]
    rw [if_neg hr0, ← e1b, hpl]
    rfl
  · unfold header_to_payload
    omega

end

theorem ListsWf.canonical {h : Heap} {fl : Nat → List Nat} {sl : List Nat}
    (hw : ListsWf h fl sl) : ListsWf h (class_list h) (small_list h) := by
  have e1 : ∀ k, k < 11 → class_list h k = fl k := fun k hk =>
    free_list_spec h (fl k) _ _ (hw.seg k hk) (by have := hw.seg_len_le hk; omega)
  have e2 : small_list h = sl :=
    free_list_spec h sl _ _ hw.small (by have := hw.small_len_le; omega)
  rw [e2]
  refine ⟨?_, hw.small, ?_, hw.small_class, ?_, hw.small_nodup, ?_, hw.small_heap⟩
  · intro k hk; rw [e1 k hk]; exact hw.seg k hk
  · intro k hk; rw [e1 k hk]; exact hw.seg_class k hk
  · intro k hk; rw [e1 k hk]; exact hw.seg_nodup k hk
  · intro k hk; rw [e1 k hk]; exact hw.seg_heap k hk

theorem Inv.block_of_walk {h : Heap} {bs : List Blk} {fl : Nat → List Nat}
    {sl us ex : List Nat} (hi : Inv h bs fl sl us ex) {a z : Nat} {al : Bool}
    (hm : (a, z, al) ∈ heap_blocks h) :
    ∃ c ∈ bs, c.addr = a ∧ c.size = z ∧ c.alloc = al := by
  obtain ⟨R, e, hbs, _, _, hw⟩ := hi.heap_blocks_eq
  rw [hw] at hm
  obtain ⟨c, hc, e1⟩ := List.mem_map.1 hm
  simp only [Prod.mk.injEq] at e1
  exact ⟨c, by rw [hbs]; simp [hc], e1.1, e1.2.1, e1.2.2⟩

set_option maxRecDepth 100000 in
/-- C22 (code bug): in the heap `sample_fit` the class list 2 holds the free blocks at
4328, 4232 and 4104, of 128, 80 and 112 bytes, in this order, class 7 holds the block at
4472 of 3728 bytes and all other lists are empty; no block has 48 bytes and four blocks
are larger. `find_fit(48)` returns the block at 4104, of 112 bytes, although the listed
block at 4232 has 80 bytes: `size_diff` keeps the excess of the first candidate, so every
later candidate with a smaller excess than the first replaces the best one. -/
theorem C22_find_fit_is_not_best_fit :
    sample_fit.map heap_blocks =
      some [(4104, 112, false), (4216, 16, true), (4232, 80, false), (4312, 16, true),
        (4328, 128, false), (4456, 16, true), (4472, 3728, false)] ∧
    sample_fit.map (fun h => (List.range 11).map (class_list h)) =
      some [[], [], [4328, 4232, 4104], [], [], [], [], [4472], [], [], []] ∧
    sample_fit.map small_list = some [] ∧
    get_seg_list 48 = 1 ∧
    sample_fit.bind (fun h => find_fit h 48) = some 4104 ∧
    sample_fit.map (fun h => (get_size h 4104, get_size h 4232)) = some (112, 80) := by
  refine ⟨by decide, by decide, by decide, by decide, by decide, by decide⟩

set_option maxRecDepth 100000 in
/-- C23: on well-formed free lists and for every `asize` that is a multiple of 16 and at
least 16, `find_fit` returns `NULL` or a member of a list of at least `asize` bytes, and
it returns `NULL` if and only if no member of a list has `asize` bytes; in a reachable
state `malloc` of `n` bytes does not move the end of the heap when a free block of the
heap has the adjusted size; after `mm_init`, `p = malloc(5000)` and `free(p)` on
`sample0` the heap ends at 13216, and it still does after a second `malloc(5000)`, which
returns 8208. -/
theorem C23_find_fit_finds_a_listed_fit :
    (∀ (h : Heap) (fl : Nat → List Nat) (sl : List Nat) (asize : Nat), ListsWf h fl sl →
      asize % 16 = 0 → 16 ≤ asize →
      ∃ r, find_fit h asize = some r ∧
        (r ≠ 0 → InLists fl sl r ∧ asize ≤ get_size h r) ∧
        (r = 0 ↔ ∀ x, InLists fl sl x → get_size h x < asize)) ∧
    (∀ (h : Heap) (live : List Nat) (n a z : Nat), Reach h live → 1 ≤ n →
      n ≤ 2 ^ 64 - 24 → (a, z, false) ∈ heap_blocks h →
      round_up ((n + wsize) % 2 ^ 64) dsize ≤ z →
      ∃ h1 p, malloc h n = some (h1, p) ∧ p ≠ 0 ∧ h1.brk = h.brk) ∧
    (mm_init sample0).bind (fun r => (malloc r.1 5000).bind (fun m =>
      (free m.1 m.2).bind (fun h => (malloc h 5000).map (fun r2 =>
        (h.brk, r2.1.brk, r2.2))))) = some (13216, 13216, 8208) := by
  refine ⟨fun h fl sl asize hw _ h16 => find_fit_wf hw h16, ?_, by decide⟩
  intro h live n a z hr h1 hn hm hle
  obtain ⟨bs, fl, sl, hi, _⟩ := reach_good hr
  obtain ⟨c, hc, e1, e2, e3⟩ := hi.block_of_walk hm
  exact malloc_no_growth hi h1 hn hc e3 (by rw [e2]; exact hle)

set_option maxRecDepth 100000 in
theorem C23_find_fit_finds_a_listed_fit_witness :
    (ListsWf sample3.1 (class_list sample3.1) (small_list sample3.1) ∧ 32 % 16 = 0 ∧
      16 ≤ 32 ∧
      ∃ r, find_fit sample3.1 32 = some r ∧
        (r ≠ 0 → InLists (class_list sample3.1) (small_list sample3.1) r ∧
          32 ≤ get_size sample3.1 r) ∧
        (r = 0 ↔ ∀ x, InLists (class_list sample3.1) (small_list sample3.1) x →
          get_size sample3.1 x < 32)) ∧
    (Reach sample3.1 [4128, 4112] ∧ 1 ≤ 100 ∧ 100 ≤ 2 ^ 64 - 24 ∧
      ((4152 : Nat), (4048 : Nat), false) ∈ heap_blocks sample3.1 ∧
      round_up ((100 + wsize) % 2 ^ 64) dsize ≤ 4048 ∧
      ∃ h1 p, malloc sample3.1 100 = some (h1, p) ∧ p ≠ 0 ∧ h1.brk = sample3.1.brk) := by
  have hw : ListsWf sample3.1 (class_list sample3.1) (small_list sample3.1) := by
    obtain ⟨bs, fl, sl, hi, _⟩ := reach_good sample_reach3
    exact hi.lists_wf.canonical
  exact ⟨⟨hw, by decide, by decide,
      C23_find_fit_finds_a_listed_fit.1 sample3.1 _ _ 32 hw (by decide) (by decide)⟩,
    sample_reach3, by decide, by decide, by decide, by decide,
    C23_find_fit_finds_a_listed_fit.2.1 sample3.1 _ 100 4152 4048 sample_reach3 (by decide)
      (by decide) (by decide) (by decide)⟩

set_option maxRecDepth 100000 in
/-- C26 (code bug): right after `mm_init` on `sample0` the heap holds one free block of
4096 bytes at 4104; the epilogue word at `heap_hi - 7 = 8200` has size 0 and its alloc
bit set, but its `prev_alloc` bit is set although the last block is free:
`write_header(block_next, 0, true)` sets the `prev_alloc` bit of the block that follows
a block of size 0, which is the epilogue itself. -/
theorem C26_epilogue_prev_alloc_wrong :
    (mm_init sample0).map (fun r => (heap_blocks r.1, mem_heap_hi r.1 - 7,
      get_size r.1 (mem_heap_hi r.1 - 7), get_alloc r.1 (mem_heap_hi r.1 - 7),
      get_prev_alloc r.1 (mem_heap_hi r.1 - 7))) =
      some ([(4104, 4096, false)], 8200, 0, true, 2) := by decide

theorem walk_end_spec (h : Heap) :
    ∀ (R : List Blk) (e : Blk) (fuel : Nat), List.Chain' Adj (R ++ [e]) →
      (∀ b ∈ R ++ [e], get_size h b.addr = b.size) →
      (∀ b ∈ R, b.size ≠ 0) → e.size = 0 → R.length < fuel →
      walk_end h fuel ((R ++ [e]).headD e).addr = some e.addr ∧
        ((R ++ [e]).headD e).addr + (R.map Blk.size).sum = e.addr
  | _, _, 0, _, _, _, _, hf => by simp at hf
  | [], e, fuel + 1, _, hm, _, hz, _ => by
    simp only [List.nil_append, List.headD_cons, List.map_nil, List.sum_nil, add_zero,
      and_true]
    unfold walk_end
    rw [hm e (by simp), if_pos hz]
  | b :: R, e, fuel + 1, hc, hm, hr, hz, hf => by
    simp only [List.cons_append, List.headD_cons, List.map_cons, List.sum_cons]
    have hb := hm b (by simp)
    have hc2 : List.Chain' Adj (R ++ [e]) := by
      simp only [List.cons_append] at hc
      exact (List.chain'_cons'.1 hc).2
    obtain ⟨ih1, ih2⟩ := walk_end_spec h R e fuel hc2
      (fun c hc => hm c (by simp at hc ⊢; tauto))
      (fun c hc => hr c (by simp [hc])) hz (by simp at hf; omega)
    have hnext : ((R ++ [e]).headD e).addr = b.addr + b.size := by
      simp only [List.cons_append] at hc
      cases R with
      | nil =>
        simp only [List.nil_append, List.headD_cons]
        exact (List.chain'_cons.1 hc).1.1
      | cons c R =>
        simp only [List.cons_append, List.headD_cons]
        exact (List.chain'_cons.1 hc).1.1
    constructor
    · unfold walk_end
      rw [hb, if_neg (hr b (by simp))]
      unfold find_next
      rw [hb, ← hnext]
      exact ih1
    · omega

/-- The walk over a heap that satisfies the invariant. -/
theorem walk_tiles {h : Heap} {bs : List Blk} {fl : Nat → List Nat}
    {sl us ex : List Nat} (hi : Inv h bs fl sl us ex) :
    (∀ blk ∈ heap_blocks h, 16 ≤ blk.2.1 ∧ blk.2.1 % 16 = 0) ∧
    List.Chain' (fun x y => y.1 = x.1 + x.2.1) (heap_blocks h) ∧
    (∀ blk ∈ (heap_blocks h).head?, blk.1 = h.heap_lo + 8) ∧
    h.heap_start = h.heap_lo + 8 ∧
    walk_end h h.fuel h.heap_start = some (mem_heap_hi h - 7) ∧
    h.heap_start + ((heap_blocks h).map (fun blk => blk.2.1)).sum = mem_heap_hi h - 7 ∧
    get_size h (mem_heap_hi h - 7) = 0 ∧ get_alloc h (mem_heap_hi h - 7) = true := by
  have hg := hi.geo
  obtain ⟨R, e, hbs, hez, hea, hw⟩ := hi.heap_blocks_eq
  have he : e ∈ bs := by rw [hbs]; simp
  have heb : e.addr + 8 = h.brk := ((hg.sizes e he).2.1 hez).2
  have hepi : mem_heap_hi h - 7 = e.addr := by unfold mem_heap_hi; omega
  have hchain : List.Chain' Adj (R ++ [e]) := by
    have hc := hg.chain
    rw [hbs] at hc
    exact (List.chain'_cons'.1 hc).2
  have hnz : ∀ b ∈ R, b.size ≠ 0 := by
    intro b hb hz
    have hbm : b ∈ bs := by rw [hbs]; simp [hb]
    have hp := (List.pairwise_cons.1 hg.pairwise).2
    rw [hbs, List.pairwise_append] at hp
    have h2 := hp.2.2 b hb e (by simp)
    have h1 := ((hg.sizes b hbm).2.1 hz).2
    unfold Below at h2
    omega
  have hlen : R.length < h.fuel := by
    have hnd : (bs.map Blk.addr).Nodup := by
      have hp := (List.pairwise_cons.1 hg.pairwise).2
      show List.Pairwise (· ≠ ·) (bs.map Blk.addr)
      rw [List.pairwise_map]
      apply hp.imp
      intro a b hab
      unfold Below at hab
      omega
    have := @nodup_length_le _ hnd h.heap_lo h.brk (by
      intro x hx
      obtain ⟨b, hb, rfl⟩ := List.mem_map.1 hx
      have h1 := hg.lo_le hb
      have h2 := hg.hi_le hb
      omega)
    rw [hbs] at this
    simp only [List.map_append, List.length_append, List.length_map, List.length_singleton]
      at this
    simpa [Heap.fuel] using this
  have hstart : h.heap_start = ((R ++ [e]).headD e).addr := by
    rw [hi.start]
    have hc := hg.chain
    rw [hbs] at hc
    cases R with
    | nil =>
      simp only [List.nil_append, List.headD_cons]
      have := (List.chain'_cons.1 hc).1.1
      simpa [prologue] using this.symm
    | cons c R =>
      simp only [List.cons_append, List.headD_cons]
      have := (List.chain'_cons.1 hc).1.1
      simpa [prologue] using this.symm
  obtain ⟨w1, w2⟩ := walk_end_spec h R e h.fuel hchain
    (fun b hb => hi.get_size (by rw [hbs]; exact hb)) hnz hez hlen
  refine ⟨?_, ?_, ?_, hi.start, ?_, ?_, ?_, ?_⟩
  · intro blk hblk
    rw [hw] at hblk
    obtain ⟨c, hc, rfl⟩ := List.mem_map.1 hblk
    have hcm : c ∈ bs := by rw [hbs]; simp [hc]
    have := hg.sizes c hcm
    have := hnz c hc
    simp only
    omega
  · rw [hw, List.chain'_map]
    have hc3 : List.Chain' Adj R := (List.chain'_append.1 hchain).1
    exact hc3.imp (fun a b hab => hab.1)
  · rw [hw]
    intro blk hblk
    cases R with
    | nil => simp at hblk
    | cons c R =>
      simp only [List.map_cons, List.head?_cons, Option.mem_def, Option.some.injEq] at hblk
      subst hblk
      simp only [List.cons_append, List.headD_cons] at hstart
      rw [← hi.start, hstart]
  · rw [hepi, hstart]; exact w1
  · rw [hepi, hstart, hw, List.map_map]
    exact w2
  · rw [hepi, hi.get_size he, hez]
  · rw [hepi, hi.get_alloc he, hea]

/-- C27: in every state reached by valid calls, the walk from `heap_start` (the address 8
bytes after `heap_lo`, where the prologue word is) visits only blocks whose size is a
multiple of 16 and at least 16, each block starts where the one before it ends, and the
walk stops exactly at the epilogue word at `heap_hi - 7`, whose size is 0 and whose alloc
bit is set: the sizes of the blocks add up to the distance from `heap_start` to the
epilogue. -/
theorem C27_blocks_tile_the_heap {h : Heap} {live : List Nat} (hr : Reach h live) :
    (∀ blk ∈ heap_blocks h, 16 ≤ blk.2.1 ∧ blk.2.1 % 16 = 0) ∧
    List.Chain' (fun x y => y.1 = x.1 + x.2.1) (heap_blocks h) ∧
    (∀ blk ∈ (heap_blocks h).head?, blk.1 = h.heap_lo + 8) ∧
    h.heap_start = h.heap_lo + 8 ∧
    walk_end h h.fuel h.heap_start = some (mem_heap_hi h - 7) ∧
    h.heap_start + ((heap_blocks h).map (fun blk => blk.2.1)).sum = mem_heap_hi h - 7 ∧
    get_size h (mem_heap_hi h - 7) = 0 ∧ get_alloc h (mem_heap_hi h - 7) = true := by
  obtain ⟨bs, fl, sl, hi, _⟩ := reach_good hr
  exact walk_tiles hi

theorem C27_blocks_tile_the_heap_witness :
    Reach sample3.1 [4128, 4112] ∧
    (∀ blk ∈ heap_blocks sample3.1, 16 ≤ blk.2.1 ∧ blk.2.1 % 16 = 0) ∧
    List.Chain' (fun x y => y.1 = x.1 + x.2.1) (heap_blocks sample3.1) ∧
    (∀ blk ∈ (heap_blocks sample3.1).head?, blk.1 = sample3.1.heap_lo + 8) ∧
    sample3.1.heap_start = sample3.1.heap_lo + 8 ∧
    walk_end sample3.1 sample3.1.fuel sample3.1.heap_start =
      some (mem_heap_hi sample3.1 - 7) ∧
    sample3.1.heap_start + ((heap_blocks sample3.1).map (fun blk => blk.2.1)).sum =
      mem_heap_hi sample3.1 - 7 ∧
    get_size sample3.1 (mem_heap_hi sample3.1 - 7) = 0 ∧
    get_alloc sample3.1 (mem_heap_hi sample3.1 - 7) = true :=
  ⟨sample_reach3, C27_blocks_tile_the_heap sample_reach3⟩

set_option maxRecDepth 100000 in
/-- C28 (code bug): after `mm_init`, `p = malloc(5000)`, `free(p)` and `malloc(4072)` on
`sample0` the heap holds an allocated block of 4080 bytes, a free block of 16 bytes and
the free block of 5008 bytes at 8200, whose header word is 5014 and whose footer word, at
13200, is 5010: `place` set the `prev_sseg` bit in the header of the block that follows
the 16-byte remainder, and that block is free because `free(p)` did not merge it with
the free block before it. -/
theorem C28_footer_differs_from_header :
    sample_footer.map (fun h => (heap_blocks h, h.mem 8200, h.mem (8200 + 5008 - 8))) =
      some ([(4104, 4080, true), (8184, 16, false), (8200, 5008, false)], 5014, 5010) := by
  decide

theorem mark_words (h : Heap) {a z f : Nat} (hz : z % 16 = 0) (hlt : z < 2 ^ 64)
    (hz32 : 32 ≤ z) (hf : f < 16) (c : Prop) [Decidable c] (t v : Nat) (h1 : t ≠ a)
    (h2 : t ≠ a + z - 8) :
    (if c then (write_footer (write_header h a (z + f) false) a (z + f) false).write t v
      else write_footer (write_header h a (z + f) false) a (z + f) false).mem (a + z - 8) =
    (if c then (write_footer (write_header h a (z + f) false) a (z + f) false).write t v
      else write_footer (write_header h a (z + f) false) a (z + f) false).mem a := by
  rw [ite_write_far _ c t v _ (Ne.symm h2), ite_write_far _ c t v _ (Ne.symm h1),
    mark_free_mem h hz hlt (by omega) hf, mark_free_mem h hz hlt (by omega) hf,
    if_pos ⟨rfl, by omega⟩, if_neg (fun hc => by omega), if_pos rfl]

section

variable {h : Heap} {bs : List Blk} {fl : Nat → List Nat} {sl us ex : List Nat}

/-- `insert_freeblock` writes neither the header nor the footer of the block. -/
theorem insert_keeps_words (hi : Inv h bs fl sl us ex) {b : Blk} (hb : b ∈ bs) {h1 : Heap}
    (e : insert_freeblock h b.addr = some h1) :
    h1.mem b.addr = h.mem b.addr ∧
      (16 < b.size → h1.mem (b.addr + b.size - 8) = h.mem (b.addr + b.size - 8)) := by
  have hg := hi.geo
  have hroot : ∀ k, k < 11 → h.seg_list k = 0 ∨
      ∃ c ∈ bs, c.addr = h.seg_list k ∧ 16 < c.size := by
    intro k hk
    have hh := (hi.lists.seg k hk).1.head_eq
    cases hfl : fl k with
    | nil => left; rw [hh, hfl]; rfl
    | cons y ys =>
      right
      have hy : y ∈ fl k := by rw [hfl]; simp
      obtain ⟨c, hc, e1, _, e3, _⟩ := hi.seg_block hk hy
      refine ⟨c, hc, ?_, e3⟩
      rw [hh, hfl, e1]
      rfl
  have hlo := hg.lo_le hb
  have hlp := hg.lo_pos
  have hla := hg.lo_align
  have hsz := hg.sizes b hb
  constructor
  · apply insert_footprint e _ (by omega) (by omega)
    intro k hk
    rcases hroot k hk with h0 | ⟨c, hc, e1, e2⟩
    · omega
    · obtain ⟨_, _, _, _, _, f6⟩ := hg.facts hb hc
      omega
  · intro h16
    apply insert_footprint e _ (by omega) (by omega)
    intro k hk
    rcases hroot k hk with h0 | ⟨c, hc, e1, e2⟩
    · omega
    · obtain ⟨f1, f2, f3, f4, _, f6⟩ := hg.facts hb hc
      omega

theorem coalesce_exact1 {b : Blk} (hi : Inv h bs fl sl [b.addr] ex) (hb : b ∈ bs)
    (hf : b.alloc = false) (hex : ∀ a ∈ ex, a = b.addr ∨ a = b.addr + b.size)
    {A B : List Blk} {n : Blk} (hbs : bs = A ++ b :: n :: B)
    (hpa : b.pa = true) (hna : n.alloc = true)
    (hfoot : 16 < b.size → h.mem (b.addr + b.size - 8) = h.mem b.addr) :
    ∃ h1 bs1 fl1 sl1 m, coalesce h b.addr = some (h1, m.addr) ∧ Inv h1 bs1 fl1 sl1 [] [] ∧
      m ∈ bs1 ∧ m.alloc = false ∧ m.addr = b.addr ∧ m.addr + m.size = n.addr ∧
      (16 < m.size → h1.mem (m.addr + m.size - 8) = h1.mem m.addr) := by
  have hg := hi.geo
  have hn : n ∈ bs := by rw [hbs]; simp
  have hadj : Adj b n := by rw [hbs] at hg; exact hg.adj_of_split
  have hfn : find_next h b.addr = n.addr := by rw [hi.find_next hb, hadj.1]
  have c1 : (get_prev_alloc h b.addr != 0) = true := by
    rw [hi.get_pa hb, hpa]; rfl
  have c2 : get_alloc h (find_next h b.addr) = true := by
    rw [hfn, hi.get_alloc hn, hna]
  obtain ⟨h1, fl1, sl1, hins, hi1, r1, r2, r3⟩ := insert_spec hi hb hf (by simp)
  rw [filter_self] at hi1
  obtain ⟨k1, k2⟩ := insert_keeps_words hi hb hins
  refine ⟨h1, bs, fl1, sl1, b, ?_, ?_, hb, hf, rfl, hadj.1.symm,
    fun h16 => by rw [k1, k2 h16]; exact hfoot h16⟩
  · rw [coalesce_case1 h b.addr c1 c2, hins]
    rfl
  · apply hi1.change_ex
    intro c hc hcf _
    by_cases hx : c.addr ∈ ex
    · rcases hex _ hx with e | e
      · rw [hg.uniq hc hb e]; exact hpa
      · have : c = n := hg.uniq hc hn (by rw [e, hadj.1])
        rw [this, hna] at hcf
        cases hcf
    · exact hi.free_pa c hc hcf hx

set_option maxHeartbeats 1000000 in
theorem coalesce_exact2 {b : Blk} (hi : Inv h bs fl sl [b.addr] ex) (hb : b ∈ bs)
    (hf : b.alloc = false) (hex : ∀ a ∈ ex, a = b.addr ∨ a = b.addr + b.size)
    {A B : List Blk} {n : Blk} (hbs : bs = A ++ b :: n :: B)
    (hpa : b.pa = true) (hna : n.alloc = false) :
    ∃ h1 bs1 fl1 sl1 m, coalesce h b.addr = some (h1, m.addr) ∧ Inv h1 bs1 fl1 sl1 [] [] ∧
      m ∈ bs1 ∧ m.alloc = false ∧ m.addr = b.addr ∧ m.addr + m.size = n.addr + n.size ∧
      (16 < m.size → h1.mem (m.addr + m.size - 8) = h1.mem m.addr) := by
  have hg := hi.geo
  have hn : n ∈ bs := by rw [hbs]; simp
  have hadj : Adj b n := by rw [hbs] at hg; exact hg.adj_of_split
  have hfn : find_next h b.addr = n.addr := by rw [hi.find_next hb, hadj.1]
  have c1 : (get_prev_alloc h b.addr != 0) = true := by
    rw [hi.get_pa hb, hpa]; rfl
  have c2 : get_alloc h (find_next h b.addr) = false := by
    rw [hfn, hi.get_alloc hn, hna]
  have hn16 := hg.free_real hn hna
  have hb16 := hg.free_real hb hf
  obtain ⟨n2, B2, hB⟩ : ∃ n2 B2, B = n2 :: B2 := by
    have e : bs = (A ++ [b]) ++ n :: B := by rw [hbs]; simp
    rw [e] at hg
    exact hg.succ_of_split (by omega)
  subst hB
  have hn2 : n2 ∈ bs := by rw [hbs]; simp
  have hadj2 : Adj n n2 := by
    have e : bs = (A ++ [b]) ++ n :: n2 :: B2 := by rw [hbs]; simp
    rw [e] at hg
    exact hg.adj_of_split
  have hne : n.addr ≠ b.addr := by have := hadj.1; omega
  obtain ⟨h1, fl1, sl1, hrem, hi1, r1, r2, r3⟩ := remove_spec hi hn hna (by simp [hne])
  have hsb := hg.sizes b hb
  have hsn := hg.sizes n hn
  have hlt := hg.addr_lt hn2
  have ha1 := hadj.1
  have ha2 := hadj2.1
  have hw : ((get_size h b.addr + get_size h n.addr) % 2 ^ 64) ||| prev_alloc_mask =
      (n2.addr - b.addr) + flags false true false := by
    rw [hi.get_size hb, hi.get_size hn, Nat.mod_eq_of_lt (by omega),
      or_pa_mask (by omega)]
    congr 1
    omega
  have hbs2 : bs = A ++ (b :: ([] ++ [n, n2])) ++ B2 := by rw [hbs]; simp
  obtain ⟨hi3, hk, g1, g2, g3, hgl⟩ := merge_spec hi1 hbs2
    (by
      intro c hc
      simp only [List.nil_append, List.mem_cons, List.mem_singleton, List.not_mem_nil,
        or_false] at hc
      rcases hc with rfl | rfl
      · exact ⟨hf, by simp⟩
      · exact ⟨hna, by simp⟩)
    (U := [b.addr]) (by simp)
    (by
      intro a ha
      have h1 := ha b (by simp)
      have h2 := ha n (by simp)
      simp only [List.mem_cons, List.mem_singleton, List.not_mem_nil, or_false]
      constructor
      · intro e; exact absurd e.symm h1
      · rintro (e | e)
        · exact absurd e.symm h2
        · exact absurd e.symm h1)
    (by
      simp only [List.mem_cons, List.mem_singleton, List.not_mem_nil, or_false]
      constructor
      · intro e; omega
      · rintro (e | e) <;> omega)
    (by
      intro a ha hx
      rcases hex a hx with e | e
      · exact ha b (by simp) e.symm
      · exact ha n (by simp) (by omega))
    (by
      intro hf2
      apply hi.free_pa n2 hn2 hf2
      intro hx
      rcases hex _ hx with e | e <;> omega)
    rfl rfl rfl
  have hfn2 : find_next (write_footer (write_header h1 b.addr
        ((n2.addr - b.addr) + flags false true false) false) b.addr
        ((n2.addr - b.addr) + flags false true false) false) n.addr = n2.addr := by
    unfold find_next
    rw [hgl, ha2]
  obtain ⟨h4, fl2, sl2, hins, hi4, q1, q2, q3⟩ :=
    insert_spec hi3 (b := ⟨b.addr, n2.addr - b.addr, false, true, false⟩) (by simp) rfl
      (by simp)
  rw [filter_self] at hi4
  obtain ⟨k1, k2⟩ := insert_keeps_words hi3
    (b := ⟨b.addr, n2.addr - b.addr, false, true, false⟩) (by simp) hins
  refine ⟨h4, _, fl2, sl2, ⟨b.addr, n2.addr - b.addr, false, true, false⟩, ?_, hi4,
    by simp, rfl, rfl, ?_, ?_⟩
  · rw [coalesce_case2 h b.addr c1 c2, hfn, hrem]
    simp only [Option.some_bind, hw, hfn2]
    rw [hins]
    rfl
  · show b.addr + (n2.addr - b.addr) = n.addr + n.size
    omega
  · intro h16
    rw [k1, k2 h16]
    exact mark_words h1 (by omega) (by omega) (by omega) (flags_lt false true false) _ _ _
      (by omega) (by omega)

set_option maxHeartbeats 1000000 in
theorem coalesce_exact3 {b : Blk} (hi : Inv h bs fl sl [b.addr] ex) (hb : b ∈ bs)
    (hf : b.alloc = false) (hex : ∀ a ∈ ex, a = b.addr ∨ a = b.addr + b.size)
    {A B : List Blk} {p n : Blk} (hbs : bs = A ++ p :: b :: n :: B)
    (hpa : b.pa = false) (hna : n.alloc = true) :
    ∃ h1 bs1 fl1 sl1 m, coalesce h b.addr = some (h1, m.addr) ∧ Inv h1 bs1 fl1 sl1 [] [] ∧
      m ∈ bs1 ∧ m.alloc = false ∧ m.addr = p.addr ∧ m.addr + m.size = n.addr ∧
      (16 < m.size → h1.mem (m.addr + m.size - 8) = h1.mem m.addr) := by
  have hg := hi.geo
  have hp : p ∈ bs := by rw [hbs]; simp
  have hn : n ∈ bs := by rw [hbs]; simp
  have hadj : Adj b n := by
    have e : bs = (A ++ [p]) ++ b :: n :: B := by rw [hbs]; simp
    rw [e] at hg
    exact hg.adj_of_split
  have hadj0 : Adj p b := by rw [hbs] at hg; exact hg.adj_of_split
  obtain ⟨hfp, hpf⟩ := hi.find_prev hbs hpa
  have hfn : find_next h b.addr = n.addr := by rw [hi.find_next hb, hadj.1]
  have c1 : (get_prev_alloc h b.addr != 0) = false := by
    rw [hi.get_pa hb, hpa]; rfl
  have c2 : get_alloc h (find_next h b.addr) = true := by
    rw [hfn, hi.get_alloc hn, hna]
  have hp16 := hg.free_real hp hpf
  have hb16 := hg.free_real hb hf
  have ha0 := hadj0.1
  have ha1 := hadj.1
  have hne : p.addr ≠ b.addr := by omega
  obtain ⟨h1, fl1, sl1, hrem, hi1, r1, r2, r3⟩ := remove_spec hi hp hpf (by simp [hne])
  have hsb := hg.sizes b hb
  have hsp := hg.sizes p hp
  have hlt := hg.addr_lt hn
  have hw : ((get_size h b.addr + get_size h p.addr) % 2 ^ 64) ||| prev_alloc_mask =
      (n.addr - p.addr) + flags false true false := by
    rw [hi.get_size hb, hi.get_size hp, Nat.mod_eq_of_lt (by omega),
      or_pa_mask (by omega)]
    congr 1
    omega
  have hbs2 : bs = A ++ (p :: ([] ++ [b, n])) ++ B := by rw [hbs]; simp
  obtain ⟨hi3, hk, g1, g2, g3, hgl⟩ := merge_spec hi1 hbs2
    (by
      intro c hc
      simp only [List.nil_append, List.mem_cons, List.mem_singleton, List.not_mem_nil,
        or_false] at hc
      rcases hc with rfl | rfl
      · exact ⟨hpf, by simp⟩
      · exact ⟨hf, by simp⟩)
    (U := [p.addr]) (by simp)
    (by
      intro a ha
      have h1 := ha p (by simp)
      have h2 := ha b (by simp)
      simp only [List.mem_cons, List.mem_singleton, List.not_mem_nil, or_false]
      constructor
      · intro e; exact absurd e.symm h1
      · rintro (e | e)
        · exact absurd e.symm h1
        · exact absurd e.symm h2)
    (by
      simp only [List.mem_cons, List.mem_singleton, List.not_mem_nil, or_false]
      constructor
      · intro e; omega
      · rintro (e | e) <;> omega)
    (by
      intro a ha hx
      rcases hex a hx with e | e
      · exact ha b (by simp) e.symm
      · exact ha n (by simp) (by omega))
    (by
      intro hf2
      rw [hna] at hf2
      cases hf2)
    rfl rfl rfl
  obtain ⟨h4, fl2, sl2, hins, hi4, q1, q2, q3⟩ :=
    insert_spec hi3 (b := ⟨p.addr, n.addr - p.addr, false, true, false⟩) (by simp) rfl
      (by simp)
  rw [filter_self] at hi4
  obtain ⟨k1, k2⟩ := insert_keeps_words hi3
    (b := ⟨p.addr, n.addr - p.addr, false, true, false⟩) (by simp) hins
  refine ⟨h4, _, fl2, sl2, ⟨p.addr, n.addr - p.addr, false, true, false⟩, ?_, hi4,
    by simp, rfl, rfl, ?_, ?_⟩
  · rw [coalesce_case3 h b.addr c1 c2, hfn, hfp, hrem]
    simp only [Option.some_bind, hw]
    rw [hins]
    rfl
  · show p.addr + (n.addr - p.addr) = n.addr
    omega
  · intro h16
    rw [k1, k2 h16]
    exact mark_words h1 (by omega) (by omega) (by omega) (flags_lt false true false) _ _ _
      (by omega) (by omega)

set_option maxHeartbeats 1000000 in
theorem coalesce_exact4 {b : Blk} (hi : Inv h bs fl sl [b.addr] ex) (hb : b ∈ bs)
    (hf : b.alloc = false) (hex : ∀ a ∈ ex, a = b.addr ∨ a = b.addr + b.size)
    {A B : List Blk} {p n : Blk} (hbs : bs = A ++ p :: b :: n :: B)
    (hpa : b.pa = false) (hna : n.alloc = false) :
    ∃ h1 bs1 fl1 sl1 m, coalesce h b.addr = some (h1, m.addr) ∧ Inv h1 bs1 fl1 sl1 [] [] ∧
      m ∈ bs1 ∧ m.alloc = false ∧ m.addr = p.addr ∧ m.addr + m.size = n.addr + n.size ∧
      (16 < m.size → h1.mem (m.addr + m.size - 8) = h1.mem m.addr) := by
  have hg := hi.geo
  have hp : p ∈ bs := by rw [hbs]; simp
  have hn : n ∈ bs := by rw [hbs]; simp
  have hadj : Adj b n := by
    have e : bs = (A ++ [p]) ++ b :: n :: B := by rw [hbs]; simp
    rw [e] at hg
    exact hg.adj_of_split
  have hadj0 : Adj p b := by rw [hbs] at hg; exact hg.adj_of_split
  obtain ⟨hfp, hpf⟩ := hi.find_prev hbs hpa
  have hfn : find_next h b.addr = n.addr := by rw [hi.find_next hb, hadj.1]
  have c1 : (get_prev_alloc h b.addr != 0) = false := by
    rw [hi.get_pa hb, hpa]; rfl
  have c2 : get_alloc h (find_next h b.addr) = false := by
    rw [hfn, hi.get_alloc hn, hna]
  have hp16 := hg.free_real hp hpf
  have hb16 := hg.free_real hb hf
  have hn16 := hg.free_real hn hna
  obtain ⟨n2, B2, hB⟩ : ∃ n2 B2, B = n2 :: B2 := by
    have e : bs = (A ++ [p, b]) ++ n :: B := by rw [hbs]; simp
    rw [e] at hg
    exact hg.succ_of_split (by omega)
  subst hB
  have hn2 : n2 ∈ bs := by rw [hbs]; simp
  have hadj2 : Adj n n2 := by
    have e : bs = (A ++ [p, b]) ++ n :: n2 :: B2 := by rw [hbs]; simp
    rw [e] at hg
    exact hg.adj_of_split
  have ha0 := hadj0.1
  have ha1 := hadj.1
  have ha2 := hadj2.1
  have hne : p.addr ≠ b.addr := by omega
  obtain ⟨h0, fl0, sl0, hrem0, hi0, p1, p2, p3⟩ := remove_spec hi hp hpf (by simp [hne])
  obtain ⟨h1, fl1, sl1, hrem, hi1, r1, r2, r3⟩ := remove_spec hi0 hn hna
    (by
      simp only [List.mem_cons, List.mem_singleton, List.not_mem_nil, or_false]
      omega)
  have hsb := hg.sizes b hb
  have hsp := hg.sizes p hp
  have hsn := hg.sizes n hn
  have hlt := hg.addr_lt hn2
  have hw : ((get_size h b.addr + (get_size h p.addr + get_size h n.addr) % 2 ^ 64) % 2 ^ 64)
      ||| prev_alloc_mask = (n2.addr - p.addr) + flags false true false := by
    rw [hi.get_size hb, hi.get_size hp, hi.get_size hn, Nat.mod_eq_of_lt (by omega),
      Nat.mod_eq_of_lt (by omega), or_pa_mask (by omega)]
    congr 1
    omega
  have hbs2 : bs = A ++ (p :: ([b] ++ [n, n2])) ++ B2 := by rw [hbs]; simp
  obtain ⟨hi3, hk, g1, g2, g3, hgl⟩ := merge_spec hi1 hbs2
    (by
      intro c hc
      simp only [List.cons_append, List.nil_append, List.mem_cons, List.mem_singleton,
        List.not_mem_nil, or_false] at hc
      rcases hc with rfl | rfl | rfl
      · exact ⟨hpf, by simp⟩
      · exact ⟨hf, by simp⟩
      · exact ⟨hna, by simp⟩)
    (U := [p.addr]) (by simp)
    (by
      intro a ha
      have h1 := ha p (by simp)
      have h2 := ha b (by simp)
      have h3 := ha n (by simp)
      simp only [List.mem_cons, List.mem_singleton, List.not_mem_nil, or_false]
      constructor
      · intro e; exact absurd e.symm h1
      · rintro (e | e | e)
        · exact absurd e.symm h3
        · exact absurd e.symm h1
        · exact absurd e.symm h2)
    (by
      simp only [List.mem_cons, List.mem_singleton, List.not_mem_nil, or_false]
      constructor
      · intro e; omega
      · rintro (e | e | e) <;> omega)
    (by
      intro a ha hx
      rcases hex a hx with e | e
      · exact ha b (by simp) e.symm
      · exact ha n (by simp) (by omega))
    (by
      intro hf2
      apply hi.free_pa n2 hn2 hf2
      intro hx
      rcases hex _ hx with e | e <;> omega)
    rfl rfl rfl
  have hfn2 : find_next (write_footer (write_header h1 p.addr
        ((n2.addr - p.addr) + flags false true false) false) p.addr
        ((n2.addr - p.addr) + flags false true false) false) n.addr = n2.addr := by
    unfold find_next
    rw [hgl, ha2]
  obtain ⟨h4, fl2, sl2, hins, hi4, q1, q2, q3⟩ :=
    insert_spec hi3 (b := ⟨p.addr, n2.addr - p.addr, false, true, false⟩) (by simp) rfl
      (by simp)
  rw [filter_self] at hi4
  obtain ⟨k1, k2⟩ := insert_keeps_words hi3
    (b := ⟨p.addr, n2.addr - p.addr, false, true, false⟩) (by simp) hins
  refine ⟨h4, _, fl2, sl2, ⟨p.addr, n2.addr - p.addr, false, true, false⟩, ?_, hi4,
    by simp, rfl, rfl, ?_, ?_⟩
  · rw [coalesce_case4 h b.addr c1 c2, hfn, hfp, hrem0]
    simp only [Option.some_bind, hrem, hw, hfn2]
    rw [hins]
    rfl
  · show p.addr + (n2.addr - p.addr) = n.addr + n.size
    omega
  · intro h16
    rw [k1, k2 h16]
    exact mark_words h1 (by omega) (by omega) (by omega) (flags_lt false true false) _ _ _
      (by omega) (by omega)

end

/-- What the invariant says about a free block that is in a list. -/
theorem free_block_facts {h1 : Heap} {bs1 : List Blk} {fl1 : Nat → List Nat} {sl1 : List Nat}
    (hi1 : Inv h1 bs1 fl1 sl1 [] []) {m : Blk} (hm : m ∈ bs1) (hmf : m.alloc = false) :
    get_size h1 m.addr = m.size ∧ get_alloc h1 m.addr = false ∧
    get_prev_alloc h1 m.addr ≠ 0 ∧
    (if m.size = 16 then m.addr ∈ small_list h1
      else m.addr ∈ class_list h1 (get_seg_list m.size).toNat) ∧
    (∀ a, m.addr < a → a < m.addr + m.size →
      a ∉ small_list h1 ∧ ∀ k, k < 11 → a ∉ class_list h1 k) := by
  have hg := hi1.geo
  have hreal := hg.free_real hm hmf
  refine ⟨hi1.get_size hm, by rw [hi1.get_alloc hm, hmf], ?_, ?_, ?_⟩
  · rw [hi1.get_pa hm, hi1.free_pa m hm hmf (by simp)]
    simp
  · by_cases h16 : m.size = 16
    · rw [if_pos h16, hi1.small_list_eq]
      exact (hi1.spec.small_mem m.addr).2 ⟨m, hm, rfl, h16, hmf, by simp⟩
    · rw [if_neg h16]
      obtain ⟨k, hk, hcl⟩ := get_seg_list_range (show 16 < m.size by omega)
      rw [hcl, Int.toNat_ofNat, hi1.class_list_eq hk]
      exact (hi1.spec.seg_mem k hk m.addr).2
        ⟨m.size, ⟨m, hm, rfl, rfl, hmf, by simp⟩, by omega, hcl⟩
  · intro a h1a h2a
    constructor
    · rw [hi1.small_list_eq]
      intro hx
      obtain ⟨c, hc, e1, _⟩ := hi1.small_block hx
      obtain ⟨_, _, _, _, _, f6⟩ := hg.facts hm hc
      omega
    · intro k hk
      rw [hi1.class_list_eq hk]
      intro hx
      obtain ⟨c, hc, e1, _⟩ := hi1.seg_block hk hx
      obtain ⟨_, _, _, _, _, f6⟩ := hg.facts hm hc
      omega

/-- Every real block has a physical predecessor, possibly the prologue, and a physical
successor, possibly the epilogue. -/
theorem Geo.neighbours {lo brk mx : Nat} {bs : List Blk} (hg : Geo lo brk mx bs) {b : Blk}
    (hb : b ∈ bs) (hz : b.size ≠ 0) :
    ∃ A p n B, prologue lo :: bs = A ++ p :: b :: n :: B ∧ b.addr = p.addr + p.size ∧
      n.addr = b.addr + b.size ∧ n ∈ bs ∧ (p = prologue lo ∨ p ∈ bs) := by
  obtain ⟨A, n, B, hbs⟩ := hg.split_at hb hz
  have hn : n ∈ bs := by rw [hbs]; simp
  have hadj : Adj b n := by rw [hbs] at hg; exact hg.adj_of_split
  have hc := hg.chain
  rcases List.eq_nil_or_concat A with rfl | ⟨A1, p, rfl⟩
  · refine ⟨[], prologue lo, n, B, by rw [hbs]; simp, ?_, hadj.1, hn, Or.inl rfl⟩
    rw [hbs] at hc
    exact (List.chain'_cons.1 hc).1.1
  · have hp : p ∈ bs := by rw [hbs]; simp
    refine ⟨prologue lo :: A1, p, n, B, by rw [hbs]; simp, ?_, hadj.1, hn, Or.inr hp⟩
    have e : bs = A1 ++ p :: b :: n :: B := by rw [hbs]; simp
    rw [e] at hg
    exact hg.adj_of_split.1

theorem free_eq_coalesce (h : Heap) (bp : Nat) :
    free h bp = if bp = 0 then some h
      else (coalesce (free_mark h (payload_to_header bp)) (payload_to_header bp)).map
        (fun r => r.1) := rfl

set_option maxHeartbeats 1000000 in
/-- C24: on a heap that satisfies the invariant, for a free block `b` that is in no list,
whose footer equals its header when it is larger than 16 bytes and whose `prev_alloc` bit
is clear when its physical predecessor `p` is free, `coalesce` returns a block `r` that
starts at `p` if `p` is free and at `b` otherwise; its size is the size of `b` plus the
sizes of its free physical neighbours `p` and `n`, its alloc bit is clear, its
`prev_alloc` bit is set, its footer word equals its header word when the size exceeds
16, it is a member of the list for its size, and the absorbed blocks are in no list. -/
theorem C24_coalesce_merges_free_neighbours {h : Heap} {bs : List Blk}
    {fl : Nat → List Nat} {sl ex : List Nat} {b : Blk} (hi : Inv h bs fl sl [b.addr] ex)
    (hb : b ∈ bs) (hf : b.alloc = false)
    (hex : ∀ a ∈ ex, a = b.addr ∨ a = b.addr + b.size)
    {A B : List Blk} {p n : Blk} (hbs : prologue h.heap_lo :: bs = A ++ p :: b :: n :: B)
    (hcoh : p.alloc = false → b.pa = false)
    (hfoot : 16 < b.size → h.mem (b.addr + b.size - 8) = h.mem b.addr) :
    ∃ h1 r, coalesce h b.addr = some (h1, r) ∧
      r = (if p.alloc then b.addr else p.addr) ∧
      get_size h1 r = (if p.alloc then 0 else p.size) + b.size +
        (if n.alloc then 0 else n.size) ∧
      get_alloc h1 r = false ∧ get_prev_alloc h1 r ≠ 0 ∧
      (16 < get_size h1 r → h1.mem (r + get_size h1 r - 8) = h1.mem r) ∧
      (if get_size h1 r = 16 then r ∈ small_list h1
        else r ∈ class_list h1 (get_seg_list (get_size h1 r)).toNat) ∧
      (∀ a, (a = b.addr ∧ p.alloc = false) ∨ (a = n.addr ∧ n.alloc = false) →
        a ∉ small_list h1 ∧ ∀ k, k < 11 → a ∉ class_list h1 k) := by
  have hg := hi.geo
  have hchain := hg.chain
  rw [hbs] at hchain
  have hc2 := (List.chain'_append.1 hchain).2.1
  have hadj0 : Adj p b := (List.chain'_cons.1 hc2).1
  have hadj : Adj b n := (List.chain'_cons.1 (List.chain'_cons.1 hc2).2).1
  have hb16 := hg.free_real hb hf
  have hn : n ∈ bs := by
    have : n ∈ prologue h.heap_lo :: bs := by rw [hbs]; simp
    rcases List.mem_cons.1 this with e | e
    · exfalso
      have h1 := hadj.1
      have h2 := hg.lo_le hb
      rw [e] at h1
      simp only [prologue] at h1
      omega
    · exact e
  have hnsz := hg.sizes n hn
  have fin : ∀ {h1 : Heap} {bs1 : List Blk} {fl1 : Nat → List Nat} {sl1 : List Nat} {m : Blk},
      Inv h1 bs1 fl1 sl1 [] [] → m ∈ bs1 → m.alloc = false →
      (16 < m.size → h1.mem (m.addr + m.size - 8) = h1.mem m.addr) →
      get_size h1 m.addr = m.size ∧ get_alloc h1 m.addr = false ∧
        get_prev_alloc h1 m.addr ≠ 0 ∧
        (16 < get_size h1 m.addr →
          h1.mem (m.addr + get_size h1 m.addr - 8) = h1.mem m.addr) ∧
        (if get_size h1 m.addr = 16 then m.addr ∈ small_list h1
          else m.addr ∈ class_list h1 (get_seg_list (get_size h1 m.addr)).toNat) ∧
        (∀ a, m.addr < a → a < m.addr + m.size →
          a ∉ small_list h1 ∧ ∀ k, k < 11 → a ∉ class_list h1 k) := by
    intro h1 bs1 fl1 sl1 m hi1 hm hmf hft
    obtain ⟨f1, f2, f3, f4, f5⟩ := free_block_facts hi1 hm hmf
    rw [f1]
    exact ⟨rfl, f2, f3, hft, f4, f5⟩
  cases hpa : b.pa
  · -- the predecessor is free
    have hpf : p.alloc = false := hadj0.2.2.1 hpa
    obtain ⟨A1, hA⟩ : ∃ A1, bs = A1 ++ p :: b :: n :: B := by
      cases A with
      | nil =>
        exfalso
        simp only [List.nil_append, List.cons.injEq] at hbs
        rw [← hbs.1] at hpf
        simp [prologue] at hpf
      | cons a A1 =>
        simp only [List.cons_append, List.cons.injEq] at hbs
        exact ⟨A1, hbs.2⟩
    have hp : p ∈ bs := by rw [hA]; simp
    have hp16 := hg.free_real hp hpf
    cases hna : n.alloc
    · obtain ⟨h1, bs1, fl1, sl1, m, hco, hi1, hm, hmf, hma, hme, hft⟩ :=
        coalesce_exact4 hi hb hf hex hA hpa hna
      obtain ⟨f1, f2, f3, f4, f5, f6⟩ := fin hi1 hm hmf hft
      have e0 := hadj0.1
      have e1 := hadj.1
      have hn16 := hg.free_real hn hna
      refine ⟨h1, m.addr, hco, by simp [hpf, hma], ?_, f2, f3, f4, f5, ?_⟩
      · rw [f1]
        simp only [hpf, hna, Bool.false_eq_true, if_false]
        omega
      · rintro a (⟨rfl, _⟩ | ⟨rfl, _⟩)
        · exact f6 _ (by omega) (by omega)
        · exact f6 _ (by omega) (by omega)
    · obtain ⟨h1, bs1, fl1, sl1, m, hco, hi1, hm, hmf, hma, hme, hft⟩ :=
        coalesce_exact3 hi hb hf hex hA hpa hna
      obtain ⟨f1, f2, f3, f4, f5, f6⟩ := fin hi1 hm hmf hft
      have e0 := hadj0.1
      have e1 := hadj.1
      refine ⟨h1, m.addr, hco, by simp [hpf, hma], ?_, f2, f3, f4, f5, ?_⟩
      · rw [f1]
        simp only [hpf, hna, Bool.false_eq_true, if_false, if_true]
        omega
      · rintro a (⟨rfl, _⟩ | ⟨rfl, hc⟩)
        · exact f6 _ (by omega) (by omega)
        · cases hc
  · -- the predecessor is allocated
    have hpt : p.alloc = true := by
      cases hpp : p.alloc
      · have := hcoh hpp
        rw [hpa] at this
        cases this
      · rfl
    obtain ⟨A1, hA⟩ : ∃ A1, bs = A1 ++ b :: n :: B := by
      cases A with
      | nil =>
        simp only [List.nil_append, List.cons.injEq] at hbs
        exact ⟨[], by rw [hbs.2]; rfl⟩
      | cons a A1 =>
        simp only [List.cons_append, List.cons.injEq] at hbs
        exact ⟨A1 ++ [p], by rw [hbs.2]; simp⟩
    cases hna : n.alloc
    · obtain ⟨h1, bs1, fl1, sl1, m, hco, hi1, hm, hmf, hma, hme, hft⟩ :=
        coalesce_exact2 hi hb hf hex hA hpa hna
      obtain ⟨f1, f2, f3, f4, f5, f6⟩ := fin hi1 hm hmf hft
      have e1 := hadj.1
      have hn16 := hg.free_real hn hna
      refine ⟨h1, m.addr, hco, by simp [hpt, hma], ?_, f2, f3, f4, f5, ?_⟩
      · rw [f1]
        simp only [hpt, hna, Bool.false_eq_true, if_false, if_true]
        omega
      · rintro a (⟨rfl, hc⟩ | ⟨rfl, _⟩)
        · rw [hpt] at hc; cases hc
        · exact f6 _ (by omega) (by omega)
    · obtain ⟨h1, bs1, fl1, sl1, m, hco, hi1, hm, hmf, hma, hme, hft⟩ :=
        coalesce_exact1 hi hb hf hex hA hpa hna hfoot
      obtain ⟨f1, f2, f3, f4, f5, f6⟩ := fin hi1 hm hmf hft
      have e1 := hadj.1
      refine ⟨h1, m.addr, hco, by simp [hpt, hma], ?_, f2, f3, f4, f5, ?_⟩
      · rw [f1]
        simp only [hpt, hna, if_true]
        omega
      · rintro a (⟨rfl, hc⟩ | ⟨rfl, hc⟩)
        · rw [hpt] at hc; cases hc
        · cases hc

set_option maxRecDepth 100000 in
theorem C24_coalesce_merges_free_neighbours_witness :
    ∃ h1 r, coalesce (free_mark sample2.1 4104) 4104 = some (h1, r) ∧ r = 4104 ∧
      get_size h1 r = 4096 ∧ get_alloc h1 r = false ∧ get_prev_alloc h1 r ≠ 0 ∧
      (16 < get_size h1 r → h1.mem (r + get_size h1 r - 8) = h1.mem r) ∧
      r ∈ class_list h1 7 ∧ 4120 ∉ small_list h1 ∧ ∀ k, k < 11 → 4120 ∉ class_list h1 k := by
  obtain ⟨bs, fl, sl, hi, hl⟩ := reach_good sample_reach2
  obtain ⟨b, hb, hal, hz, hp⟩ := hl 4112 (by simp)
  have hba : b.addr = 4104 := by omega
  have hbsz : b.size = 16 := by
    have h1 := hi.get_size hb
    rw [hba] at h1
    rw [← h1]
    decide
  have hw : get_size sample2.1 b.addr ||| get_prev_alloc sample2.1 b.addr |||
      get_prev_sseg sample2.1 b.addr = b.size + flags false b.pa b.ps := by
    rw [hi.get_size hb, hi.get_pa hb, hi.get_ps hb]
    exact size_or_flags (hi.geo.sizes b hb).1 b.pa b.ps
  obtain ⟨bs1, b1, hi1, hb1, e1, e2, e3, _⟩ := free_mark_spec hi hb hal hz hw rfl rfl
  have hi2 : Inv (free_mark sample2.1 4104) bs1 fl sl [b1.addr]
      [b1.addr, b1.addr + b1.size] := by
    rw [e1, e2, ← hba]
    exact hi1
  have hlo : (free_mark sample2.1 4104).heap_lo = 4096 := by decide
  obtain ⟨A, p, n, B, hbs, a1, a2, hn, hpp⟩ := hi2.geo.neighbours hb1 (by omega)
  have hpt : p.alloc = true := by
    rcases hpp with e | hpm
    · rw [e]; rfl
    · exfalso
      have h1 := hi2.geo.lo_le hpm
      have h2 := hi2.geo.free_real hb1 e3
      have h3 := (hi2.geo.sizes p hpm).2.2
      have h4 : p.addr + p.size = 4104 := by omega
      rw [hlo] at h1
      by_cases hp0 : p.size = 0
      · have h5 := hi2.geo.uniq hpm hb1 (by omega)
        rw [h5] at hp0
        omega
      · have := h3 hp0
        omega
  have hna : n.alloc = false := by
    have h1 := hi2.get_alloc hn
    have h2 : n.addr = 4120 := by omega
    rw [h2] at h1
    rw [← h1]
    decide
  have hnz : n.size = 4080 := by
    have h1 := hi2.get_size hn
    have h2 : n.addr = 4120 := by omega
    rw [h2] at h1
    rw [← h1]
    decide
  obtain ⟨h1, r, hco, hr, hsz, c1, c2, c3, c4, c5⟩ :=
    C24_coalesce_merges_free_neighbours hi2 hb1 e3 (by simp) hbs
      (fun hpf => by rw [hpt] at hpf; cases hpf) (fun h16 => by omega)
  rw [hpt] at hr hsz
  rw [hna, hnz, e2, hbsz] at hsz
  simp only [if_true, Bool.false_eq_true, if_false] at hr hsz
  rw [e1, hba] at hr hco
  have hsz2 : get_size h1 r = 4096 := by rw [hsz]
  have hcl : get_seg_list 4096 = 7 := by decide
  rw [hsz2, if_neg (by decide), hcl] at c4
  have c6 := c5 4120 (Or.inr ⟨by omega, hna⟩)
  exact ⟨h1, r, hco, hr, hsz2, c1, c2, c3, c4, c6.1, c6.2⟩

section

variable {h : Heap} {bs : List Blk} {fl : Nat → List Nat} {sl : List Nat}

set_option maxHeartbeats 1000000 in
/-- The blocks that `place` leaves where the free block `b` was. -/
theorem place_exact {b : Blk} (hi : Inv h bs fl sl [] []) (hb : b ∈ bs)
    (hf : b.alloc = false) {asize : Nat} (hz : asize % 16 = 0) (h16 : 16 ≤ asize)
    (hle : asize ≤ b.size) :
    ∃ (h1 : Heap) (bs1 : List Blk) (fl1 : Nat → List Nat) (sl1 : List Nat) (n : Blk),
      place h b.addr asize = some h1 ∧ Inv h1 bs1 fl1 sl1 [] [] ∧
      n.addr = b.addr + b.size ∧ (n.ps = true → b.size = 16) ∧
      (⟨b.addr, asize, true, b.pa, b.ps⟩ : Blk) ∈ bs1 ∧
      (asize < b.size →
        (⟨b.addr + asize, b.size - asize, false, b.pa, decide (asize = 16)⟩ : Blk) ∈ bs1 ∧
        (⟨n.addr, n.size, n.alloc, n.pa, decide (b.size - asize = 16)⟩ : Blk) ∈ bs1) ∧
      (asize = b.size →
        (⟨n.addr, n.size, n.alloc, true, if b.size = 16 then true else n.ps⟩ : Blk) ∈ bs1) := by
  have hg := hi.geo
  have hpa : b.pa = true := hi.free_pa b hb hf (by simp)
  have hblt := hg.size_lt hb
  have hsb := hg.sizes b hb
  obtain ⟨A, n, B, hbs0⟩ := hg.split_at hb (by omega)
  have hbs : bs = A ++ [b, n] ++ B := by rw [hbs0]; simp
  have hn : n ∈ bs := by rw [hbs]; simp
  have hadj : Adj b n := by rw [hbs0] at hg; exact hg.adj_of_split
  obtain ⟨h1, fl1, sl1, hrem, hi1, r1, r2, r3⟩ := remove_spec hi hb hf (by simp)
  have hsub : (get_size h b.addr + 2 ^ 64 - asize) % 2 ^ 64 = b.size - asize := by
    rw [hi.get_size hb]
    have e : b.size + 2 ^ 64 - asize = (b.size - asize) + 2 ^ 64 := by omega
    rw [e, Nat.add_mod_right, Nat.mod_eq_of_lt (by omega)]
  unfold place
  simp only [hsub, min_block_size, hrem, Option.some_bind, Option.map_some', ge_iff_le]
  by_cases hsp : 16 ≤ b.size - asize
  · rw [if_pos hsp]
    have hw2 : asize ||| get_prev_alloc h b.addr ||| get_prev_sseg h b.addr =
        asize + flags false b.pa b.ps := by
      rw [hi.get_pa hb, hi.get_ps hb]
      exact size_or_flags hz b.pa b.ps
    have hrz : (b.size - asize) % 16 = 0 := by omega
    have hw3 : (if asize = 16 then (b.size - asize) ||| prev_sseg_mask ||| get_prev_alloc h b.addr
        else (b.size - asize) ||| get_prev_alloc h b.addr) =
        (b.size - asize) + flags false b.pa (decide (asize = 16)) := by
      rw [hi.get_pa hb]
      by_cases ha : asize = 16
      · rw [if_pos ha, or_ps_pa hrz]
        simp [ha]
      · rw [if_neg ha, or_pa hrz]
        simp [ha]
    obtain ⟨hi4, hk, g1, g2, g3, hfn2, hfn3⟩ := split_spec hi1 hbs hf hpa hz h16 (by omega)
      rfl rfl rfl rfl
    obtain ⟨h5, fl2, sl2, hins, hi5, q1, q2, q3⟩ :=
      insert_spec hi4 (b := ⟨b.addr + asize, b.size - asize, false, b.pa, decide (asize = 16)⟩)
        (by simp) rfl (by simp)
    rw [filter_self] at hi5
    refine ⟨h5, _, fl2, sl2, n, ?_, hi5, hadj.1, hadj.2.2.2.2, by simp,
      fun _ => ⟨by simp, by simp⟩, fun e => by omega⟩
    simp only [hw2, hw3, hfn2, hfn3]
    exact hins
  · rw [if_neg hsp]
    have he : asize = b.size := by omega
    have hw2 : b.size ||| get_prev_alloc h b.addr ||| get_prev_sseg h b.addr =
        b.size + flags false b.pa b.ps := by
      rw [hi.get_pa hb, hi.get_ps hb]
      exact size_or_flags hsb.1 b.pa b.ps
    obtain ⟨hi4, hk, g1, g2, g3, hfn2⟩ := whole_spec hi1 hbs hf rfl rfl
    refine ⟨_, _, fl1, sl1, n, ?_, hi4, hadj.1, hadj.2.2.2.2, by rw [he]; simp,
      fun hlt => by omega, fun _ => by simp⟩
    simp only [hi.get_size hb, hw2, hfn2]

/-- An allocated block is in no list. -/
theorem alloc_block_unlisted (hi : Inv h bs fl sl [] []) {c : Blk} (hc : c ∈ bs)
    (hal : c.alloc = true) :
    c.addr ∉ small_list h ∧ ∀ k, k < 11 → c.addr ∉ class_list h k := by
  constructor
  · rw [hi.small_list_eq]
    intro hx
    obtain ⟨d, hd, e1, e2, _⟩ := hi.small_block hx
    rw [hi.geo.uniq hd hc e1, hal] at e2
    cases e2
  · intro k hk
    rw [hi.class_list_eq hk]
    intro hx
    obtain ⟨d, hd, e1, e2, _⟩ := hi.seg_block hk hx
    rw [hi.geo.uniq hd hc e1, hal] at e2
    cases e2

theorem flag_ne_zero (c : Bool) (v : Nat) (hv : v ≠ 0) : (if c then v else 0) ≠ 0 ↔ c = true := by
  cases c <;> simp [hv]

/-- C25: on a heap that satisfies the invariant, for a listed free block `b` (its
`prev_alloc` bit is then set) and every `asize` that is a multiple of 16 with
`16 ≤ asize ≤ b.size`, `place(b, asize)` leaves `b` allocated, of exactly `asize` bytes,
with its `prev_alloc` and `prev_sseg` bits unchanged and in no list; if `asize` is less
than the old size, the block at `b + asize` is free, of the remaining size, with
`prev_alloc` set and `prev_sseg` set iff `asize = 16`, and it is a member of the list for
its size; the block after the original region has `prev_sseg` set iff the part directly
before it has 16 bytes. -/
theorem C25_place_splits_the_block (hi : Inv h bs fl sl [] []) {b : Blk} (hb : b ∈ bs)
    (hf : b.alloc = false) {asize : Nat} (hz : asize % 16 = 0) (h16 : 16 ≤ asize)
    (hle : asize ≤ b.size) :
    get_size h b.addr = b.size ∧ get_prev_alloc h b.addr ≠ 0 ∧
    (if b.size = 16 then b.addr ∈ small_list h
      else b.addr ∈ class_list h (get_seg_list b.size).toNat) ∧
    ∃ h1, place h b.addr asize = some h1 ∧
      get_size h1 b.addr = asize ∧ get_alloc h1 b.addr = true ∧
      get_prev_alloc h1 b.addr = get_prev_alloc h b.addr ∧
      get_prev_sseg h1 b.addr = get_prev_sseg h b.addr ∧
      (b.addr ∉ small_list h1 ∧ ∀ k, k < 11 → b.addr ∉ class_list h1 k) ∧
      (asize < b.size →
        get_size h1 (b.addr + asize) = b.size - asize ∧
        get_alloc h1 (b.addr + asize) = false ∧
        get_prev_alloc h1 (b.addr + asize) ≠ 0 ∧
        (get_prev_sseg h1 (b.addr + asize) ≠ 0 ↔ asize = 16) ∧
        (if b.size - asize = 16 then b.addr + asize ∈ small_list h1
          else b.addr + asize ∈ class_list h1 (get_seg_list (b.size - asize)).toNat)) ∧
      (get_prev_sseg h1 (b.addr + b.size) ≠ 0 ↔
        (if asize < b.size then b.size - asize else asize) = 16) := by
  obtain ⟨p1, _, p3, p4, _⟩ := free_block_facts hi hb hf
  refine ⟨p1, p3, p4, ?_⟩
  obtain ⟨h1, bs1, fl1, sl1, n, hpl, hi1, hna, hnps, hb1, hsplit, hwhole⟩ :=
    place_exact hi hb hf hz h16 hle
  have k1 := hi1.get_size hb1
  have k2 := hi1.get_alloc hb1
  have k3 := hi1.get_pa hb1
  have k4 := hi1.get_ps hb1
  simp only at k1 k2 k3 k4
  refine ⟨h1, hpl, k1, k2, by rw [k3, hi.get_pa hb], by rw [k4, hi.get_ps hb],
    alloc_block_unlisted hi1 (c := ⟨b.addr, asize, true, b.pa, b.ps⟩) hb1 rfl, ?_, ?_⟩
  · intro hlt
    obtain ⟨hr, _⟩ := hsplit hlt
    obtain ⟨f1, f2, f3, f4, _⟩ := free_block_facts hi1 hr rfl
    have k5 := hi1.get_ps hr
    simp only at f1 f2 f3 f4 k5
    refine ⟨f1, f2, f3, ?_, f4⟩
    rw [k5, flag_ne_zero _ 4 (by decide)]
    simp
  · by_cases hlt : asize < b.size
    · obtain ⟨_, hn1⟩ := hsplit hlt
      have k5 := hi1.get_ps hn1
      simp only at k5
      rw [← hna, k5, if_pos hlt, flag_ne_zero _ 4 (by decide)]
      simp
    · have he : asize = b.size := by omega
      have hn1 := hwhole he
      have k5 := hi1.get_ps hn1
      simp only at k5
      rw [← hna, k5, if_neg hlt, flag_ne_zero _ 4 (by decide), he]
      by_cases h6 : b.size = 16
      · simp [h6]
      · simp only [h6, if_false, iff_false]
        intro hps
        exact h6 (hnps hps)

end

set_option maxRecDepth 100000 in
theorem C25_place_splits_the_block_witness :
    get_size sample1 4104 = 4096 ∧ get_prev_alloc sample1 4104 ≠ 0 ∧
    4104 ∈ class_list sample1 7 ∧
    ∃ h1, place sample1 4104 32 = some h1 ∧
      get_size h1 4104 = 32 ∧ get_alloc h1 4104 = true ∧
      get_prev_alloc h1 4104 = get_prev_alloc sample1 4104 ∧
      get_prev_sseg h1 4104 = get_prev_sseg sample1 4104 ∧
      (4104 ∉ small_list h1 ∧ ∀ k, k < 11 → 4104 ∉ class_list h1 k) ∧
      (32 < 4096 →
        get_size h1 (4104 + 32) = 4096 - 32 ∧
        get_alloc h1 (4104 + 32) = false ∧
        get_prev_alloc h1 (4104 + 32) ≠ 0 ∧
        (get_prev_sseg h1 (4104 + 32) ≠ 0 ↔ 32 = 16) ∧
        (if 4096 - 32 = 16 then 4104 + 32 ∈ small_list h1
          else 4104 + 32 ∈ class_list h1 (get_seg_list (4096 - 32)).toNat)) ∧
      (get_prev_sseg h1 (4104 + 4096) ≠ 0 ↔
        (if 32 < 4096 then 4096 - 32 else 32) = 16) := by
  obtain ⟨bs, fl, sl, hi, _⟩ := reach_good sample_reach1
  obtain ⟨b, hb, e1, e2, e3⟩ := hi.block_of_walk
    (show ((4104 : Nat), (4096 : Nat), false) ∈ heap_blocks sample1 by decide)
  have key := C25_place_splits_the_block hi hb e3 (show 32 % 16 = 0 by decide)
    (show 16 ≤ 32 by decide) (by rw [e2]; decide)
  rw [e1, e2] at key
  have hcl : (get_seg_list 4096).toNat = 7 := by decide
  rw [if_neg (by decide), hcl] at key
  exact key

theorem get_seg_list_small {z : Nat} (hz : z ≤ 16) : get_seg_list z = -1 := by
  unfold get_seg_list
  simp only [gt_iff_lt]
  iterate 11 rw [if_neg (by omega)]

theorem seg_class_4096_cases {z : Nat} (hz : 16 < z) :
    (seg_class_4096 z = 0 ∧ z ≤ 32) ∨ (seg_class_4096 z = 1 ∧ 32 < z ∧ z ≤ 64) ∨
    (seg_class_4096 z = 2 ∧ 64 < z ∧ z ≤ 128) ∨ (seg_class_4096 z = 3 ∧ 128 < z ∧ z ≤ 256) ∨
    (seg_class_4096 z = 4 ∧ 256 < z ∧ z ≤ 512) ∨
    (seg_class_4096 z = 5 ∧ 512 < z ∧ z ≤ 1024) ∨
    (seg_class_4096 z = 6 ∧ 1024 < z ∧ z ≤ 2048) ∨
    (seg_class_4096 z = 7 ∧ 2048 < z ∧ z ≤ 4096) ∨
    (seg_class_4096 z = 8 ∧ 4096 < z ∧ z ≤ 8192) ∨
    (seg_class_4096 z = 9 ∧ 8192 < z ∧ z ≤ 16384) ∨ (seg_class_4096 z = 10 ∧ 16384 < z) := by
  by_cases c0 : z ≤ 32
  · left
    refine ⟨?_, c0⟩
    unfold seg_class_4096
    rw [if_pos (by omega)]
  by_cases c1 : z ≤ 64
  · right; left
    refine ⟨?_, by omega, c1⟩
    unfold seg_class_4096
    iterate 1 rw [if_neg (by omega)]
    rw [if_pos (by omega)]
  by_cases c2 : z ≤ 128
  · right; right; left
    refine ⟨?_, by omega, c2⟩
    unfold seg_class_4096
    iterate 2 rw [if_neg (by omega)]
    rw [if_pos (by omega)]
  by_cases c3 : z ≤ 256
  · right; right; right; left
    refine ⟨?_, by omega, c3⟩
    unfold seg_class_4096
    iterate 3 rw [if_neg (by omega)]
    rw [if_pos (by omega)]
  by_cases c4 : z ≤ 512
  · right; right; right; right; left
    refine ⟨?_, by omega, c4⟩
    unfold seg_class_4096
    iterate 4 rw [if_neg (by omega)]
    rw [if_pos (by omega)]
  by_cases c5 : z ≤ 1024
  · right; right; right; right; right; left
    refine ⟨?_, by omega, c5⟩
    unfold seg_class_4096
    iterate 5 rw [if_neg (by omega)]
    rw [if_pos (by omega)]
  by_cases c6 : z ≤ 2048
  · right; right; right; right; right; right; left
    refine ⟨?_, by omega, c6⟩
    unfold seg_class_4096
    iterate 6 rw [if_neg (by omega)]
    rw [if_pos (by omega)]
  by_cases c7 : z ≤ 4096
  · right; right; right; right; right; right; right; left
    refine ⟨?_, by omega, c7⟩
    unfold seg_class_4096
    iterate 7 rw [if_neg (by omega)]
    rw [if_pos (by omega)]
  by_cases c8 : z ≤ 8192
  · right; right; right; right; right; right; right; right; left
    refine ⟨?_, by omega, c8⟩
    unfold seg_class_4096
    iterate 8 rw [if_neg (by omega)]
    rw [if_pos (by omega)]
  by_cases c9 : z ≤ 16384
  · right; right; right; right; right; right; right; right; right; left
    refine ⟨?_, by omega, c9⟩
    unfold seg_class_4096
    iterate 9 rw [if_neg (by omega)]
    rw [if_pos (by omega)]
  · right; right; right; right; right; right; right; right; right; right
    refine ⟨?_, by omega⟩
    unfold seg_class_4096
    iterate 10 rw [if_neg (by omega)]
    rw [if_pos (by omega)]

/-- The word that `write_header(block, 0, true)` touches 16 bytes above the block. -/
theorem write_header_zero_mem (h : Heap) (block : Nat) :
    (write_header h block 0 true).mem (block + dsize) =
      h.mem (block + dsize) ||| prev_sseg_mask := by
  have e : find_next ((h.write (block + dsize)
      (h.mem (block + dsize) ||| prev_sseg_mask)).write block (pack 0 true)) block = block := by
    simp [find_next, get_size, Heap.write, pack, extract_size, alloc_mask, size_mask]
  unfold write_header
  simp only [Nat.zero_and, Nat.zero_le, if_true]
  rw [e]
  simp [Heap.write, dsize]

set_option maxRecDepth 100000 in
/-- C31 (code bug): in the heap `sample_unlisted` the walk from `heap_start` meets a free
block of 48 bytes at 4104, an allocated block of 16 bytes and a free block of 4032 bytes
at 4168; class list 1 is `[4104]` and every other list is empty, so the free block at
4168 is a member of no list, and `mm_checkheap` returns true: the variable
`free_list_is_complete` is set when the first free block is found in its list and is
never reset, so test 11 passes for every later free block. -/
theorem C31_checkheap_misses_unlisted_block :
    sample_unlisted.map heap_blocks =
      some [(4104, 48, false), (4152, 16, true), (4168, 4032, false)] ∧
    sample_unlisted.map (fun h => (List.range 11).map (class_list h)) =
      some [[], [4104], [], [], [], [], [], [], [], [], []] ∧
    sample_unlisted.map small_list = some [] ∧
    sample_unlisted.bind mm_checkheap = some true := by
  refine ⟨by decide, by decide, by decide, by decide⟩

set_option maxRecDepth 100000 in
/-- C32 (code bug): `write_header(block, 0, true)`, the call that writes the new epilogue
in `extend_heap`, ORs `prev_sseg_mask` into the word 16 bytes above `block`, because
`0 <= min_block_size`. In `mm_init` on `sample0` the heap ends at `heap_hi = 8207`, the
epilogue is at 8200, and the word at 8216, which was 0, is 4 afterwards; in a further
`extend_heap(4096)` the heap ends at 12303 and the word at 12312 is written. -/
theorem C32_write_header_writes_past_heap_hi :
    (∀ (h : Heap) (block : Nat), (write_header h block 0 true).mem (block + dsize) =
      h.mem (block + dsize) ||| prev_sseg_mask) ∧
    sample0.mem 8216 = 0 ∧
    (mm_init sample0).map (fun r => (r.1.heap_lo, mem_heap_hi r.1, mem_heap_hi r.1 - 7,
      r.1.mem 8216)) = some (4096, 8207, 8200, 4) ∧
    sample1.mem 12312 = 0 ∧
    (extend_heap sample1 4096).map (fun r => (mem_heap_hi r.1, mem_heap_hi r.1 - 7,
      r.1.mem 12312)) = some (12303, 12296, 4) := by
  refine ⟨write_header_zero_mem, by decide, by decide, by decide, by decide⟩

/-- C33 (code bug): `calloc(0, n)` evaluates `asize / elements` with `elements = 0` before
any test of its arguments: the division by zero has no defined result, for every heap and
every `n`. -/
theorem C33_calloc_zero_divides_by_zero (h : Heap) (n : Nat) : calloc h 0 n = none := by
  unfold calloc
  simp

/-- C35: `get_seg_list(size)` is `-1` iff `size ≤ 16`; for `size > 16` it is the index
`k` in `0 .. 10` of the one range of `seg_ranges` that contains `size`; and it is
monotonically non-decreasing in `size`. At the boundary, 4098 is in class 7 and 4099 in
class 8. -/
theorem C35_get_seg_list_ranges (size : Nat) :
    (get_seg_list size = -1 ↔ size ≤ 16) ∧
    (16 < size → ∃ k : Nat, k < 11 ∧ get_seg_list size = (k : Int) ∧
      ∀ j : Nat, j < 11 → (in_seg_range (seg_ranges.getD j (0, none)) size ↔ j = k)) ∧
    (∀ z : Nat, size ≤ z → get_seg_list size ≤ get_seg_list z) ∧
    get_seg_list 4098 = 7 ∧ get_seg_list 4099 = 8 := by
  refine ⟨?_, ?_, ?_, by decide, by decide⟩
  · constructor
    · intro h
      by_contra hc
      have := get_seg_list_cases (show 16 < size by omega)
      omega
    · exact get_seg_list_small
  · intro h16
    have key : ∀ k : Nat, k < 11 → get_seg_list size = (k : Int) →
        (∀ j : Nat, j < 11 → (in_seg_range (seg_ranges.getD j (0, none)) size ↔ j = k)) →
        ∃ k : Nat, k < 11 ∧ get_seg_list size = (k : Int) ∧
          ∀ j : Nat, j < 11 → (in_seg_range (seg_ranges.getD j (0, none)) size ↔ j = k) :=
      fun k a b c => ⟨k, a, b, c⟩
    have hr : ∀ j : Nat, j < 11 → ∀ lo hi : Nat, ∀ k : Nat,
        seg_ranges.getD j (0, none) = (lo, some hi) →
        ((lo < size ∧ size ≤ hi) ↔ j = k) →
        (in_seg_range (seg_ranges.getD j (0, none)) size ↔ j = k) := by
      intro j _ lo hi k e h
      rw [e, ← h]
      unfold in_seg_range
      simp
    have hl : ∀ k : Nat, ((16384 < size) ↔ 10 = k) →
        (in_seg_range (seg_ranges.getD 10 (0, none)) size ↔ 10 = k) := by
      intro k h
      rw [← h]
      unfold in_seg_range
      simp [seg_ranges]
    rcases get_seg_list_cases h16 with c | c | c | c | c | c | c | c | c | c | c
    all_goals first
      | refine key 0 (by norm_num) (by rw [c.1]; rfl) ?_
      | refine key 1 (by norm_num) (by rw [c.1]; rfl) ?_
      | refine key 2 (by norm_num) (by rw [c.1]; rfl) ?_
      | refine key 3 (by norm_num) (by rw [c.1]; rfl) ?_
      | refine key 4 (by norm_num) (by rw [c.1]; rfl) ?_
      | refine key 5 (by norm_num) (by rw [c.1]; rfl) ?_
      | refine key 6 (by norm_num) (by rw [c.1]; rfl) ?_
      | refine key 7 (by norm_num) (by rw [c.1]; rfl) ?_
      | refine key 8 (by norm_num) (by rw [c.1]; rfl) ?_
      | refine key 9 (by norm_num) (by rw [c.1]; rfl) ?_
      | refine key 10 (by norm_num) (by rw [c.1]; rfl) ?_
    all_goals
      intro j hj
      interval_cases j
      all_goals first
        | exact hl _ (by omega)
        | exact hr _ (by norm_num) _ _ _ rfl (by omega)
  · intro z hz
    by_cases h16 : 16 < size
    · exact get_seg_list_mono h16 hz
    · rw [get_seg_list_small (by omega)]
      by_cases hz16 : 16 < z
      · have := get_seg_list_cases hz16
        omega
      · rw [get_seg_list_small (by omega)]

/-- C36: for a multiple of 16 greater than 16, `get_seg_list(size)` is `i` in `0 .. 9` iff
`2^(i+4) < size ≤ 2^(i+5)`, it is 10 iff `size > 16384`, and it is the class that the
boundary 4096 would give. -/
theorem C36_get_seg_list_power_of_two (size : Nat) (hz : size % 16 = 0) (h16 : 16 < size) :
    (∀ i : Nat, i < 10 →
      (get_seg_list size = (i : Int) ↔ 2 ^ (i + 4) < size ∧ size ≤ 2 ^ (i + 5))) ∧
    (get_seg_list size = 10 ↔ 16384 < size) ∧
    get_seg_list size = seg_class_4096 size := by
  have h1 := get_seg_list_cases h16
  have h2 := seg_class_4096_cases h16
  refine ⟨?_, by omega, by omega⟩
  intro i hi
  interval_cases i <;> norm_num <;> omega

/-- C36, an instance: the block size 4096. -/
theorem C36_get_seg_list_power_of_two_witness :
    (4096 % 16 = 0 ∧ 16 < 4096) ∧
    (∀ i : Nat, i < 10 →
      (get_seg_list 4096 = (i : Int) ↔ 2 ^ (i + 4) < 4096 ∧ 4096 ≤ 2 ^ (i + 5))) ∧
    (get_seg_list 4096 = 10 ↔ 16384 < 4096) ∧
    get_seg_list 4096 = seg_class_4096 4096 :=
  ⟨by decide, C36_get_seg_list_power_of_two 4096 (by decide) (by decide)⟩

/-- C37: for a size that is a multiple of 16 below `2^64` and all booleans, the header
word `w = pack(size | (pa ? 2 : 0) | (ps ? 4 : 0), alloc)` has `extract_size(w) = size`,
`extract_alloc(w) = alloc`, `w & prev_alloc_mask` non-zero iff `pa`, and
`w & prev_sseg_mask` non-zero iff `ps`. -/
theorem C37_header_round_trip (size : Nat) (hz : size % 16 = 0) (hlt : size < 2 ^ 64)
    (alloc pa ps : Bool) :
    extract_size (pack (size ||| (if pa then 2 else 0) ||| (if ps then 4 else 0)) alloc) =
      size ∧
    extract_alloc (pack (size ||| (if pa then 2 else 0) ||| (if ps then 4 else 0)) alloc) =
      alloc ∧
    (pack (size ||| (if pa then 2 else 0) ||| (if ps then 4 else 0)) alloc &&&
      prev_alloc_mask ≠ 0 ↔ pa = true) ∧
    (pack (size ||| (if pa then 2 else 0) ||| (if ps then 4 else 0)) alloc &&&
      prev_sseg_mask ≠ 0 ↔ ps = true) := by
  rw [size_or_flags hz, pack_flags hz]
  refine ⟨extract_size_add hz hlt (flags_lt _ _ _), ?_, ?_, ?_⟩
  · unfold extract_alloc alloc_mask
    rw [land_flags hz (flags_lt _ _ _) (by norm_num)]
    cases alloc <;> cases pa <;> cases ps <;> decide
  · unfold prev_alloc_mask
    rw [land_flags hz (flags_lt _ _ _) (by norm_num)]
    cases alloc <;> cases pa <;> cases ps <;> decide
  · unfold prev_sseg_mask
    rw [land_flags hz (flags_lt _ _ _) (by norm_num)]
    cases alloc <;> cases pa <;> cases ps <;> decide

/-- C37, an instance: an allocated block of 4096 bytes after an allocated block. -/
theorem C37_header_round_trip_witness :
    (4096 % 16 = 0 ∧ 4096 < 2 ^ 64) ∧
    extract_size (pack (4096 ||| (if true then 2 else 0) ||| (if false then 4 else 0)) true) =
      4096 ∧
    extract_alloc (pack (4096 ||| (if true then 2 else 0) ||| (if false then 4 else 0)) true) =
      true ∧
    (pack (4096 ||| (if true then 2 else 0) ||| (if false then 4 else 0)) true &&&
      prev_alloc_mask ≠ 0 ↔ true = true) ∧
    (pack (4096 ||| (if true then 2 else 0) ||| (if false then 4 else 0)) true &&&
      prev_sseg_mask ≠ 0 ↔ false = true) :=
  ⟨by decide, C37_header_round_trip 4096 (by decide) (by decide) true true false⟩

end Mm

namespace Trans

theorem iadd_some {a b : Int} (h1 : -2147483648 ≤ a + b) (h2 : a + b ≤ 2147483647) :
    iadd a b = some (a + b) := by
  unfold iadd
  rw [if_pos ⟨h1, h2⟩]

theorem getA_some {M N : Int} (s : Arrays) {i j : Int} (h1 : 0 ≤ i) (h2 : i < N) (h3 : 0 ≤ j)
    (h4 : j < M) : getA M N s i j = some (s.A i j) := by
  unfold getA
  rw [if_pos ⟨h1, h2, h3, h4⟩]

theorem getB_some {M N : Int} (s : Arrays) {j i : Int} (h1 : 0 ≤ j) (h2 : j < M) (h3 : 0 ≤ i)
    (h4 : i < N) : getB M N s j i = some (s.B j i) := by
  unfold getB
  rw [if_pos ⟨h1, h2, h3, h4⟩]

theorem setB_some {M N : Int} (s : Arrays) {j i : Int} (v : Int) (h1 : 0 ≤ j) (h2 : j < M)
    (h3 : 0 ≤ i) (h4 : i < N) :
    setB M N s j i v =
      some { s with B := fun j1 i1 => if j1 = j ∧ i1 = i then v else s.B j1 i1 } := by
  unfold setB
  rw [if_pos ⟨h1, h2, h3, h4⟩]

/-- A loop that runs `n` times: `P k` holds after `k` iterations. -/
theorem for_loop_spec {σ : Type} (cond : Int → Option Bool) (inc : Int)
    (body : Int → σ → Option σ) :
    ∀ (n : Nat) (P : Nat → σ → Prop) (fuel : Nat) (lo : Int) (s0 : σ), n < fuel → P 0 s0 →
      (∀ k : Nat, k < n → cond (lo + k * inc) = some true) →
      cond (lo + n * inc) = some false →
      (∀ k : Nat, k < n → iadd (lo + k * inc) inc = some (lo + k * inc + inc)) →
      (∀ (k : Nat) (s : σ), k < n → P k s →
        ∃ s1, body (lo + k * inc) s = some s1 ∧ P (k + 1) s1) →
      ∃ s1, for_loop cond inc body fuel lo s0 = some (lo + n * inc, s1) ∧ P n s1
  | 0, P, fuel, lo, s0, hf, h0, _, hc, _, _ => by
    cases fuel with
    | zero => omega
    | succ f =>
      simp only [Nat.cast_zero, zero_mul, add_zero] at hc ⊢
      unfold for_loop
      rw [hc]
      exact ⟨s0, rfl, h0⟩
  | n + 1, P, fuel, lo, s0, hf, h0, ht, hc, hi, hb => by
    cases fuel with
    | zero => omega
    | succ f =>
      have ht0 := ht 0 (by omega)
      have hi0 := hi 0 (by omega)
      obtain ⟨s1, hb0, hp1⟩ := hb 0 s0 (by omega) h0
      simp only [Nat.cast_zero, zero_mul, add_zero] at ht0 hi0 hb0
      have e : ∀ k : Nat, lo + inc + (k : Int) * inc = lo + ((k + 1 : Nat) : Int) * inc := by
        intro k
        push_cast
        ring
      obtain ⟨s2, h2, hp2⟩ := for_loop_spec cond inc body n (fun k s => P (k + 1) s) f
        (lo + inc) s1 (by omega) hp1
        (fun k hk => by rw [e]; exact ht (k + 1) (by omega))
        (by rw [e]; exact hc)
        (fun k hk => by rw [e]; exact hi (k + 1) (by omega))
        (fun k s hk hp => by rw [e]; exact hb (k + 1) s (by omega) hp)
      refine ⟨s2, ?_, hp2⟩
      unfold for_loop
      rw [ht0]
      simp only [Option.some_bind, if_true, hb0, hi0]
      rw [h2, e]

/-- A loop whose condition has no defined result after `n` iterations. -/
theorem for_loop_none {σ : Type} (cond : Int → Option Bool) (inc : Int)
    (body : Int → σ → Option σ) :
    ∀ (n : Nat) (P : Nat → σ → Prop) (fuel : Nat) (lo : Int) (s0 : σ), n < fuel → P 0 s0 →
      (∀ k : Nat, k < n → cond (lo + k * inc) = some true) →
      cond (lo + n * inc) = none →
      (∀ k : Nat, k < n → iadd (lo + k * inc) inc = some (lo + k * inc + inc)) →
      (∀ (k : Nat) (s : σ), k < n → P k s →
        ∃ s1, body (lo + k * inc) s = some s1 ∧ P (k + 1) s1) →
      for_loop cond inc body fuel lo s0 = none
  | 0, P, fuel, lo, s0, hf, h0, _, hc, _, _ => by
    cases fuel with
    | zero => omega
    | succ f =>
      simp only [Nat.cast_zero, zero_mul, add_zero] at hc
      unfold for_loop
      rw [hc]
      rfl
  | n + 1, P, fuel, lo, s0, hf, h0, ht, hc, hi, hb => by
    cases fuel with
    | zero => omega
    | succ f =>
      have ht0 := ht 0 (by omega)
      have hi0 := hi 0 (by omega)
      obtain ⟨s1, hb0, hp1⟩ := hb 0 s0 (by omega) h0
      simp only [Nat.cast_zero, zero_mul, add_zero] at ht0 hi0 hb0
      have e : ∀ k : Nat, lo + inc + (k : Int) * inc = lo + ((k + 1 : Nat) : Int) * inc := by
        intro k
        push_cast
        ring
      have h2 := for_loop_none cond inc body n (fun k s => P (k + 1) s) f
        (lo + inc) s1 (by omega) hp1
        (fun k hk => by rw [e]; exact ht (k + 1) (by omega))
        (by rw [e]; exact hc)
        (fun k hk => by rw [e]; exact hi (k + 1) (by omega))
        (fun k s hk hp => by rw [e]; exact hb (k + 1) s (by omega) hp)
      unfold for_loop
      rw [ht0]
      simp only [Option.some_bind, if_true, hb0, hi0]
      exact h2

theorem Agree.mono {A0 : Int → Int → Int} {D D1 : Int → Int → Prop} {s : Arrays}
    (h : Agree A0 D s) (hd : ∀ i j, D1 i j → D i j) : Agree A0 D1 s :=
  ⟨h.1, fun i j hij => h.2 i j (hd i j hij)⟩

/-- The statement `B[j][i] = A[i][j]` makes one more cell agree. -/
theorem copy_agree {M N : Int} {A0 : Int → Int → Int} {D : Int → Int → Prop} {s : Arrays}
    (h : Agree A0 D s) {i j : Int} (h1 : 0 ≤ i) (h2 : i < N) (h3 : 0 ≤ j) (h4 : j < M) :
    ∃ s1, copy M N i j s = some s1 ∧
      Agree A0 (fun i1 j1 => D i1 j1 ∨ (i1 = i ∧ j1 = j)) s1 := by
  unfold copy
  rw [getA_some s h1 h2 h3 h4]
  simp only [Option.some_bind]
  rw [setB_some s _ h3 h4 h1 h2]
  refine ⟨_, rfl, h.1, ?_⟩
  intro i1 j1 hd
  simp only
  by_cases hc : j1 = j ∧ i1 = i
  · rw [if_pos hc, hc.1, hc.2, h.1]
  · rw [if_neg hc]
    rcases hd with hd | hd
    · exact h.2 i1 j1 hd
    · exact absurd ⟨hd.2, hd.1⟩ hc

/-- Eight loads and eight stores make eight more cells agree. -/
theorem row8_agree {M N : Int} {A0 : Int → Int → Int} {D : Int → Int → Prop} {s : Arrays}
    (h : Agree A0 D s) (i jj : Int) (h1 : 0 ≤ i) (h2 : i < N) (h3 : 0 ≤ jj)
    (h4 : jj + 8 ≤ M) :
    ∃ s1, row8 M N s i jj = some s1 ∧
      Agree A0 (fun i1 j1 => D i1 j1 ∨ (i1 = i ∧ jj ≤ j1 ∧ j1 < jj + 8)) s1 := by
  unfold row8 load_row store_col
  simp (disch := omega) only [getA_some, setB_some, Option.some_bind]
  refine ⟨_, rfl, h.1, ?_⟩
  intro i1 j1 hd
  simp only [h.1]
  split_ifs with c7 c6 c5 c4 c3 c2 c1 c0
  · rw [c7.1, c7.2]
  · rw [c6.1, c6.2]
  · rw [c5.1, c5.2]
  · rw [c4.1, c4.2]
  · rw [c3.1, c3.2]
  · rw [c2.1, c2.2]
  · rw [c1.1, c1.2]
  · rw [c0.1, c0.2]
  · rcases hd with hd | hd
    · exact h.2 i1 j1 hd
    · omega

theorem cond_true {p : Prop} [Decidable p] (h : p) : some (decide p) = some true := by
  simp [h]

theorem cond_false {p : Prop} [Decidable p] (h : ¬ p) : some (decide p) = some false := by
  simp [h]

theorem fuel_gt {n : Nat} (h : n ≤ 2147483648) : n < loop_fuel := by
  unfold loop_fuel
  norm_num
  omega

section

variable {A0 : Int → Int → Int} {D R R1 R2 R3 : Int → Int → Prop} {s : Arrays}

theorem Agree.mono0 (h : Agree A0 D s) (hr : ∀ i j, R i j → False) :
    Agree A0 (fun i j => D i j ∨ R i j) s :=
  h.mono (fun i j hd => hd.elim id (fun x => (hr i j x).elim))

theorem Agree.mono1 (h : Agree A0 (fun i j => D i j ∨ R1 i j) s)
    (hr : ∀ i j, R i j → R1 i j) : Agree A0 (fun i j => D i j ∨ R i j) s :=
  h.mono (fun i j hd => hd.elim Or.inl (fun x => Or.inr (hr i j x)))

theorem Agree.mono2 (h : Agree A0 (fun i j => (D i j ∨ R1 i j) ∨ R2 i j) s)
    (hr : ∀ i j, R i j → R1 i j ∨ R2 i j) : Agree A0 (fun i j => D i j ∨ R i j) s :=
  h.mono (fun i j hd => hd.elim (fun x => Or.inl (Or.inl x))
    (fun x => (hr i j x).elim (fun y => Or.inl (Or.inr y)) Or.inr))

theorem Agree.mono3 (h : Agree A0 (fun i j => ((D i j ∨ R1 i j) ∨ R2 i j) ∨ R3 i j) s)
    (hr : ∀ i j, R i j → R1 i j ∨ R2 i j ∨ R3 i j) : Agree A0 (fun i j => D i j ∨ R i j) s :=
  h.mono (fun i j hd => hd.elim (fun x => Or.inl (Or.inl (Or.inl x)))
    (fun x => (hr i j x).elim (fun y => Or.inl (Or.inl (Or.inr y)))
      (fun y => y.elim (fun z => Or.inl (Or.inr z)) Or.inr)))

end

/-- The innermost loop of `trans_61_67`: sixteen rows of a block of sixteen columns. -/
theorem block16 {M N : Int} {A0 : Int → Int → Int} {D : Int → Int → Prop} {s : Arrays}
    (h : Agree A0 D s) (ii jj : Int) (hii : 0 ≤ ii) (hiN : ii + 16 ≤ N)
    (hN : N ≤ 2147483647) (hjj : 0 ≤ jj) (hjM : jj + 16 ≤ M) :
    ∃ s1, (for_loop (fun i => (iadd ii 16).map (fun t => decide (i < t))) 1
        (fun i s => (row8 M N s i jj).bind (fun s1 => row8 M N s1 i (jj + 8)))
        loop_fuel ii s).map (fun r => r.2) = some s1 ∧
      Agree A0 (fun i1 j1 => D i1 j1 ∨ (ii ≤ i1 ∧ i1 < ii + 16 ∧ jj ≤ j1 ∧ j1 < jj + 16)) s1 := by
  have hc : ∀ i : Int, (fun i => (iadd ii 16).map (fun t => decide (i < t))) i =
      some (decide (i < ii + 16)) := by
    intro i
    simp only [iadd_some (show -2147483648 ≤ ii + 16 by omega) (show ii + 16 ≤ 2147483647 by omega),
      Option.map_some']
  obtain ⟨s1, h1, h2⟩ := for_loop_spec (fun i => (iadd ii 16).map (fun t => decide (i < t))) 1
    (fun i s => (row8 M N s i jj).bind (fun s1 => row8 M N s1 i (jj + 8))) 16
    (fun k s => Agree A0 (fun i1 j1 => D i1 j1 ∨
      (ii ≤ i1 ∧ i1 < ii + k ∧ jj ≤ j1 ∧ j1 < jj + 16)) s)
    loop_fuel ii s (fuel_gt (by omega)) (h.mono0 (fun i j hd => by omega))
    (fun k hk => by rw [hc]; exact cond_true (by omega))
    (by rw [hc]; exact cond_false (by norm_num))
    (fun k hk => iadd_some (by omega) (by omega))
    (fun k s hk hp => by
      obtain ⟨s1, e1, a1⟩ := row8_agree (M := M) (N := N) hp (ii + k * 1) jj
        (by omega) (by omega) hjj (by omega)
      obtain ⟨s2, e2, a2⟩ := row8_agree (M := M) (N := N) a1 (ii + k * 1) (jj + 8)
        (by omega) (by omega) (by omega) (by omega)
      refine ⟨s2, by simp only [e1, Option.some_bind, e2], a2.mono3 ?_⟩
      intro i j hd
      push_cast at hd
      omega)
  refine ⟨s1, by rw [h1]; rfl, h2.mono1 ?_⟩
  intro i j hd
  push_cast
  omega

/-- The loop of `trans_61_67` over `jj` for one value of `ii`: the blocks of sixteen
columns of the rows `ii .. ii + 15`. The loop ends with `jj = 16 * ((M - 1) / 16)`. -/
theorem strip16 {M N : Int} {A0 : Int → Int → Int} {D : Int → Int → Prop} {s : Arrays}
    (h : Agree A0 D s) (ii : Int) (hii : 0 ≤ ii) (hiN : ii + 16 ≤ N)
    (hN : N ≤ 2147483647) (hM1 : 1 ≤ M) (hM : M ≤ 2147483632) :
    ∃ s1, (for_loop (fun jj => (iadd jj 16).map (fun t => decide (t < M))) 16
        (fun jj s =>
          (for_loop (fun i => (iadd ii 16).map (fun t => decide (i < t))) 1
            (fun i s => (row8 M N s i jj).bind (fun s1 => row8 M N s1 i (jj + 8)))
            loop_fuel ii s).map (fun r => r.2))
        loop_fuel 0 s).map (fun r => (r.2, some r.1)) =
        some (s1, some (16 * ((M - 1) / 16))) ∧
      Agree A0 (fun i1 j1 => D i1 j1 ∨
        (ii ≤ i1 ∧ i1 < ii + 16 ∧ 0 ≤ j1 ∧ j1 < 16 * ((M - 1) / 16))) s1 := by
  obtain ⟨n, hn⟩ : ∃ n : Nat, (n : Int) = (M - 1) / 16 := ⟨((M - 1) / 16).toNat, by omega⟩
  obtain ⟨s1, h1, h2⟩ := for_loop_spec (fun jj => (iadd jj 16).map (fun t => decide (t < M))) 16
    (fun jj s =>
      (for_loop (fun i => (iadd ii 16).map (fun t => decide (i < t))) 1
        (fun i s => (row8 M N s i jj).bind (fun s1 => row8 M N s1 i (jj + 8)))
        loop_fuel ii s).map (fun r => r.2)) n
    (fun k s => Agree A0 (fun i1 j1 => D i1 j1 ∨
      (ii ≤ i1 ∧ i1 < ii + 16 ∧ 0 ≤ j1 ∧ j1 < 16 * k)) s)
    loop_fuel 0 s (fuel_gt (by omega)) (h.mono0 (fun i j hd => by omega))
    (fun k hk => by
      simp only [iadd_some (show -2147483648 ≤ 0 + (k : Int) * 16 + 16 by omega)
        (show 0 + (k : Int) * 16 + 16 ≤ 2147483647 by omega), Option.map_some']
      exact cond_true (by omega))
    (by
      simp only [iadd_some (show -2147483648 ≤ 0 + (n : Int) * 16 + 16 by omega)
        (show 0 + (n : Int) * 16 + 16 ≤ 2147483647 by omega), Option.map_some']
      exact cond_false (by omega))
    (fun k hk => iadd_some (by omega) (by omega))
    (fun k s hk hp => by
      obtain ⟨s1, e1, a1⟩ := block16 (M := M) (N := N) hp ii (0 + k * 16) hii hiN
        hN (by omega) (by omega)
      refine ⟨s1, e1, a1.mono2 ?_⟩
      intro i j hd
      push_cast at hd
      omega)
  refine ⟨s1, ?_, h2.mono1 (fun i j hd => by omega)⟩
  rw [h1]
  simp only [Option.map_some', Option.some.injEq, Prod.mk.injEq, true_and]
  omega

/-- The first loop nest of `trans_61_67`: it ends with `ii = 16 * ((N - 1) / 16)`, and
with `jj = 16 * ((M - 1) / 16)` if its body has run. -/
theorem blocks16 {M N : Int} (s : Arrays) (hN1 : 1 ≤ N) (hN : N ≤ 2147483632) (hM1 : 1 ≤ M)
    (hM : 16 < N → M ≤ 2147483632) :
    ∃ s1 jj, for_loop (fun ii => (iadd ii 16).map (fun t => decide (t < N))) 16
        (fun ii (st : Arrays × Option Int) =>
          (for_loop (fun jj => (iadd jj 16).map (fun t => decide (t < M))) 16
            (fun jj s =>
              (for_loop (fun i => (iadd ii 16).map (fun t => decide (i < t))) 1
                (fun i s => (row8 M N s i jj).bind (fun s1 => row8 M N s1 i (jj + 8)))
                loop_fuel ii s).map (fun r => r.2))
            loop_fuel 0 st.1).map (fun r => (r.2, some r.1)))
        loop_fuel 0 (s, none) = some (16 * ((N - 1) / 16), (s1, jj)) ∧
      (0 < 16 * ((N - 1) / 16) → jj = some (16 * ((M - 1) / 16))) ∧
      Agree s.A (fun i1 j1 => False ∨
        (0 ≤ i1 ∧ i1 < 16 * ((N - 1) / 16) ∧ 0 ≤ j1 ∧ j1 < 16 * ((M - 1) / 16))) s1 := by
  obtain ⟨n, hn⟩ : ∃ n : Nat, (n : Int) = (N - 1) / 16 := ⟨((N - 1) / 16).toNat, by omega⟩
  obtain ⟨st1, h1, h2, h3⟩ := for_loop_spec
    (fun ii => (iadd ii 16).map (fun t => decide (t < N))) 16
    (fun ii (st : Arrays × Option Int) =>
      (for_loop (fun jj => (iadd jj 16).map (fun t => decide (t < M))) 16
        (fun jj s =>
          (for_loop (fun i => (iadd ii 16).map (fun t => decide (i < t))) 1
            (fun i s => (row8 M N s i jj).bind (fun s1 => row8 M N s1 i (jj + 8)))
            loop_fuel ii s).map (fun r => r.2))
        loop_fuel 0 st.1).map (fun r => (r.2, some r.1))) n
    (fun k st => (0 < k → st.2 = some (16 * ((M - 1) / 16))) ∧
      Agree s.A (fun i1 j1 => False ∨
        (0 ≤ i1 ∧ i1 < 16 * k ∧ 0 ≤ j1 ∧ j1 < 16 * ((M - 1) / 16))) st.1)
    loop_fuel 0 (s, none) (fuel_gt (by omega))
    ⟨fun hk => by omega, ⟨rfl, fun i j hd => by
      rcases hd with hd | hd
      · exact hd.elim
      · omega⟩⟩
    (fun k hk => by
      simp only [iadd_some (show -2147483648 ≤ 0 + (k : Int) * 16 + 16 by omega)
        (show 0 + (k : Int) * 16 + 16 ≤ 2147483647 by omega), Option.map_some']
      exact cond_true (by omega))
    (by
      simp only [iadd_some (show -2147483648 ≤ 0 + (n : Int) * 16 + 16 by omega)
        (show 0 + (n : Int) * 16 + 16 ≤ 2147483647 by omega), Option.map_some']
      exact cond_false (by omega))
    (fun k hk => iadd_some (by omega) (by omega))
    (fun k st hk hp => by
      obtain ⟨s1, e1, a1⟩ := strip16 (M := M) (N := N) hp.2 (0 + k * 16) (by omega)
        (by omega) (by omega) hM1 (hM (by omega))
      refine ⟨(s1, some (16 * ((M - 1) / 16))), e1, fun _ => rfl, a1.mono2 ?_⟩
      intro i j hd
      push_cast at hd
      omega)
  refine ⟨st1.1, st1.2, ?_, ?_, h3.mono1 (fun i j hd => by omega)⟩
  · rw [h1]
    simp only [Option.some.injEq, Prod.mk.injEq, and_true]
    omega
  · intro hpos
    exact h2 (by omega)

/-- The loop `for (j = j0; j < M; j++) B[j][i] = A[i][j]`. -/
theorem copy_row {M N : Int} {A0 : Int → Int → Int} {D : Int → Int → Prop} {s : Arrays}
    (h : Agree A0 D s) (i j0 : Int) (h1 : 0 ≤ i) (h2 : i < N) (h3 : 0 ≤ j0) (h4 : j0 ≤ M)
    (hM : M ≤ 2147483647) :
    ∃ s1, (for_loop (fun j => some (decide (j < M))) 1 (fun j s => copy M N i j s)
        loop_fuel j0 s).map (fun r => r.2) = some s1 ∧
      Agree A0 (fun i1 j1 => D i1 j1 ∨ (i1 = i ∧ j0 ≤ j1 ∧ j1 < M)) s1 := by
  obtain ⟨n, hn⟩ : ∃ n : Nat, (n : Int) = M - j0 := ⟨(M - j0).toNat, by omega⟩
  obtain ⟨s1, e1, a1⟩ := for_loop_spec (fun j => some (decide (j < M))) 1
    (fun j s => copy M N i j s) n
    (fun k s => Agree A0 (fun i1 j1 => D i1 j1 ∨ (i1 = i ∧ j0 ≤ j1 ∧ j1 < j0 + k)) s)
    loop_fuel j0 s (fuel_gt (by omega)) (h.mono0 (fun i j hd => by omega))
    (fun k hk => cond_true (by omega))
    (cond_false (by omega))
    (fun k hk => iadd_some (by omega) (by omega))
    (fun k s hk hp => by
      obtain ⟨s1, e1, a1⟩ := copy_agree (M := M) (N := N) hp (i := i) (j := j0 + k * 1) h1 h2
        (by omega) (by omega)
      refine ⟨s1, e1, a1.mono2 ?_⟩
      intro i j hd
      push_cast at hd
      omega)
  exact ⟨s1, by rw [e1]; rfl, a1.mono1 (fun i j hd => by omega)⟩

/-- The second loop nest of `trans_61_67`: the rows from `ii` on. -/
theorem copy_rows {M N : Int} {A0 : Int → Int → Int} {D : Int → Int → Prop} {s : Arrays}
    (h : Agree A0 D s) (ii : Int) (h1 : 0 ≤ ii) (h2 : ii ≤ N) (hN : N ≤ 2147483647)
    (hM0 : 0 ≤ M) (hM : M ≤ 2147483647) :
    ∃ s1, (for_loop (fun i => some (decide (i < N))) 1
        (fun i s =>
          (for_loop (fun j => some (decide (j < M))) 1 (fun j s => copy M N i j s)
            loop_fuel 0 s).map (fun r => r.2))
        loop_fuel ii s).map (fun r => r.2) = some s1 ∧
      Agree A0 (fun i1 j1 => D i1 j1 ∨ (ii ≤ i1 ∧ i1 < N ∧ 0 ≤ j1 ∧ j1 < M)) s1 := by
  obtain ⟨n, hn⟩ : ∃ n : Nat, (n : Int) = N - ii := ⟨(N - ii).toNat, by omega⟩
  obtain ⟨s1, e1, a1⟩ := for_loop_spec (fun i => some (decide (i < N))) 1
    (fun i s =>
      (for_loop (fun j => some (decide (j < M))) 1 (fun j s => copy M N i j s)
        loop_fuel 0 s).map (fun r => r.2)) n
    (fun k s => Agree A0 (fun i1 j1 => D i1 j1 ∨
      (ii ≤ i1 ∧ i1 < ii + k ∧ 0 ≤ j1 ∧ j1 < M)) s)
    loop_fuel ii s (fuel_gt (by omega)) (h.mono0 (fun i j hd => by omega))
    (fun k hk => cond_true (by omega))
    (cond_false (by omega))
    (fun k hk => iadd_some (by omega) (by omega))
    (fun k s hk hp => by
      obtain ⟨s1, e1, a1⟩ := copy_row (M := M) (N := N) hp (ii + k * 1) 0
        (by omega) (by omega) (le_refl _) hM0 hM
      refine ⟨s1, e1, a1.mono2 ?_⟩
      intro i j hd
      push_cast at hd
      omega)
  exact ⟨s1, by rw [e1]; rfl, a1.mono1 (fun i j hd => by omega)⟩

/-- The third loop nest of `trans_61_67`: the columns from `jj` on of the rows before
`ii`; `jj` is read only if there is such a row. -/
theorem copy_cols {M N : Int} {A0 : Int → Int → Int} {D : Int → Int → Prop} {s : Arrays}
    (h : Agree A0 D s) (ii : Int) (h1 : 0 ≤ ii) (h2 : ii ≤ N) (hN : N ≤ 2147483647)
    (hM : M ≤ 2147483647) {jj : Option Int} (j0 : Int) (hj : 0 < ii → jj = some j0)
    (h3 : 0 ≤ j0) (h4 : j0 ≤ M) :
    ∃ s1, (for_loop (fun i => some (decide (i < ii))) 1
        (fun i s =>
          jj.bind (fun jj =>
            (for_loop (fun j => some (decide (j < M))) 1 (fun j s => copy M N i j s)
              loop_fuel jj s).map (fun r => r.2)))
        loop_fuel 0 s).map (fun r => r.2) = some s1 ∧
      Agree A0 (fun i1 j1 => D i1 j1 ∨ (0 ≤ i1 ∧ i1 < ii ∧ j0 ≤ j1 ∧ j1 < M)) s1 := by
  obtain ⟨n, hn⟩ : ∃ n : Nat, (n : Int) = ii := ⟨ii.toNat, by omega⟩
  obtain ⟨s1, e1, a1⟩ := for_loop_spec (fun i => some (decide (i < ii))) 1
    (fun i s =>
      jj.bind (fun jj =>
        (for_loop (fun j => some (decide (j < M))) 1 (fun j s => copy M N i j s)
          loop_fuel jj s).map (fun r => r.2))) n
    (fun k s => Agree A0 (fun i1 j1 => D i1 j1 ∨
      (0 ≤ i1 ∧ i1 < k ∧ j0 ≤ j1 ∧ j1 < M)) s)
    loop_fuel 0 s (fuel_gt (by omega)) (h.mono0 (fun i j hd => by omega))
    (fun k hk => cond_true (by omega))
    (cond_false (by omega))
    (fun k hk => iadd_some (by omega) (by omega))
    (fun k s hk hp => by
      obtain ⟨s1, e1, a1⟩ := copy_row (M := M) (N := N) hp (0 + k * 1) j0
        (by omega) (by omega) h3 h4 hM
      rw [hj (by omega)]
      refine ⟨s1, e1, a1.mono2 ?_⟩
      intro i j hd
      push_cast at hd
      omega)
  exact ⟨s1, by rw [e1]; rfl, a1.mono1 (fun i j hd => by omega)⟩

/-- The function `trans_61_67` transposes `A` into `B` for all dimensions for which no
loop header overflows. -/
theorem trans_61_67_spec {M N : Int} (s : Arrays) (hN1 : 1 ≤ N) (hN : N ≤ 2147483632)
    (hM1 : 1 ≤ M) (hM : M ≤ 2147483647) (hMN : 16 < N → M ≤ 2147483632) :
    ∃ s1, trans_61_67 M N s = some s1 ∧ s1.A = s.A ∧
      ∀ i j, 0 ≤ i → i < N → 0 ≤ j → j < M → s1.B j i = s.A i j := by
  obtain ⟨s1, jj, e1, hjj, a1⟩ := blocks16 (M := M) (N := N) s hN1 hN hM1 hMN
  obtain ⟨s2, e2, a2⟩ := copy_rows (M := M) (N := N) a1 (16 * ((N - 1) / 16))
    (by omega) (by omega) (by omega) (by omega) hM
  obtain ⟨s3, e3, a3⟩ := copy_cols (M := M) (N := N) a2 (16 * ((N - 1) / 16))
    (by omega) (by omega) (by omega) hM (16 * ((M - 1) / 16)) hjj (by omega) (by omega)
  refine ⟨s3, ?_, a3.1, ?_⟩
  · unfold trans_61_67
    rw [e1]
    simp only [Option.some_bind]
    rw [Option.map_eq_some'] at e2
    obtain ⟨r2, hr2, rfl⟩ := e2
    rw [hr2]
    simp only [Option.some_bind]
    exact e3
  · intro i j hi0 hi1 hj0 hj1
    apply a3.2
    by_cases c1 : i < 16 * ((N - 1) / 16)
    · by_cases c2 : j < 16 * ((M - 1) / 16)
      · exact Or.inl (Or.inl (Or.inr ⟨hi0, c1, hj0, c2⟩))
      · exact Or.inr ⟨hi0, c1, by omega, hj1⟩
    · exact Or.inl (Or.inr ⟨by omega, hi1, hj0, hj1⟩)

/-- The innermost loop of `trans_32_32`: eight rows of a block of eight columns. -/
theorem block8 {M N : Int} {A0 : Int → Int → Int} {D : Int → Int → Prop} {s : Arrays}
    (h : Agree A0 D s) (ii jj : Int) (hii : 0 ≤ ii) (hiN : ii + 8 ≤ N)
    (hN : N ≤ 2147483647) (hjj : 0 ≤ jj) (hjM : jj + 8 ≤ M) :
    ∃ s1, (for_loop (fun i => (iadd ii 8).map (fun t => decide (i < t))) 1
        (fun i s => row8 M N s i jj) loop_fuel ii s).map (fun r => r.2) = some s1 ∧
      Agree A0 (fun i1 j1 => D i1 j1 ∨ (ii ≤ i1 ∧ i1 < ii + 8 ∧ jj ≤ j1 ∧ j1 < jj + 8)) s1 := by
  have hc : ∀ i : Int, (fun i => (iadd ii 8).map (fun t => decide (i < t))) i =
      some (decide (i < ii + 8)) := by
    intro i
    simp only [iadd_some (show -2147483648 ≤ ii + 8 by omega) (show ii + 8 ≤ 2147483647 by omega),
      Option.map_some']
  obtain ⟨s1, h1, h2⟩ := for_loop_spec (fun i => (iadd ii 8).map (fun t => decide (i < t))) 1
    (fun i s => row8 M N s i jj) 8
    (fun k s => Agree A0 (fun i1 j1 => D i1 j1 ∨
      (ii ≤ i1 ∧ i1 < ii + k ∧ jj ≤ j1 ∧ j1 < jj + 8)) s)
    loop_fuel ii s (fuel_gt (by omega)) (h.mono0 (fun i j hd => by omega))
    (fun k hk => by rw [hc]; exact cond_true (by omega))
    (by rw [hc]; exact cond_false (by norm_num))
    (fun k hk => iadd_some (by omega) (by omega))
    (fun k s hk hp => by
      obtain ⟨s1, e1, a1⟩ := row8_agree (M := M) (N := N) hp (ii + k * 1) jj
        (by omega) (by omega) hjj (by omega)
      refine ⟨s1, e1, a1.mono2 ?_⟩
      intro i j hd
      push_cast at hd
      omega)
  refine ⟨s1, by rw [h1]; rfl, h2.mono1 ?_⟩
  intro i j hd
  push_cast
  omega

/-- The loop of `trans_32_32` over `ii` for one value of `jj`. -/
theorem strip8 {A0 : Int → Int → Int} {D : Int → Int → Prop} {s : Arrays}
    (h : Agree A0 D s) (jj : Int) (hjj : 0 ≤ jj) (hjM : jj + 8 ≤ 32) :
    ∃ s1, (for_loop (fun ii => some (decide (ii < 32))) 8
        (fun ii s =>
          (for_loop (fun i => (iadd ii 8).map (fun t => decide (i < t))) 1
            (fun i s => row8 32 32 s i jj) loop_fuel ii s).map (fun r => r.2))
        loop_fuel 0 s).map (fun r => r.2) = some s1 ∧
      Agree A0 (fun i1 j1 => D i1 j1 ∨ (0 ≤ i1 ∧ i1 < 32 ∧ jj ≤ j1 ∧ j1 < jj + 8)) s1 := by
  obtain ⟨s1, h1, h2⟩ := for_loop_spec (fun ii => some (decide (ii < 32))) 8
    (fun ii s =>
      (for_loop (fun i => (iadd ii 8).map (fun t => decide (i < t))) 1
        (fun i s => row8 32 32 s i jj) loop_fuel ii s).map (fun r => r.2)) 4
    (fun k s => Agree A0 (fun i1 j1 => D i1 j1 ∨
      (0 ≤ i1 ∧ i1 < 8 * k ∧ jj ≤ j1 ∧ j1 < jj + 8)) s)
    loop_fuel 0 s (fuel_gt (by omega)) (h.mono0 (fun i j hd => by omega))
    (fun k hk => cond_true (by omega))
    (cond_false (by norm_num))
    (fun k hk => iadd_some (by omega) (by omega))
    (fun k s hk hp => by
      obtain ⟨s1, e1, a1⟩ := block8 (M := 32) (N := 32) hp (0 + k * 8) jj
        (by omega) (by omega) (by norm_num) hjj hjM
      refine ⟨s1, e1, a1.mono2 ?_⟩
      intro i j hd
      push_cast at hd
      omega)
  refine ⟨s1, by rw [h1]; rfl, h2.mono1 ?_⟩
  intro i j hd
  push_cast
  omega

/-- The function `trans_32_32` transposes a 32 x 32 matrix. -/
theorem trans_32_32_spec (s : Arrays) :
    ∃ s1, trans_32_32 32 32 s = some s1 ∧ s1.A = s.A ∧
      ∀ i j, 0 ≤ i → i < 32 → 0 ≤ j → j < 32 → s1.B j i = s.A i j := by
  obtain ⟨s1, h1, h2⟩ := for_loop_spec (fun jj => some (decide (jj < 32))) 8
    (fun jj s =>
      (for_loop (fun ii => some (decide (ii < 32))) 8
        (fun ii s =>
          (for_loop (fun i => (iadd ii 8).map (fun t => decide (i < t))) 1
            (fun i s => row8 32 32 s i jj) loop_fuel ii s).map (fun r => r.2))
        loop_fuel 0 s).map (fun r => r.2)) 4
    (fun k s1 => Agree s.A (fun i1 j1 => False ∨
      (0 ≤ i1 ∧ i1 < 32 ∧ 0 ≤ j1 ∧ j1 < 8 * k)) s1)
    loop_fuel 0 s (fuel_gt (by omega))
    ⟨rfl, fun i j hd => by
      rcases hd with hd | hd
      · exact hd.elim
      · omega⟩
    (fun k hk => cond_true (by omega))
    (cond_false (by norm_num))
    (fun k hk => iadd_some (by omega) (by omega))
    (fun k s hk hp => by
      obtain ⟨s1, e1, a1⟩ := strip8 hp (0 + k * 8) (by omega) (by omega)
      refine ⟨s1, e1, a1.mono2 ?_⟩
      intro i j hd
      push_cast at hd
      omega)
  refine ⟨s1, ?_, h2.1, ?_⟩
  · unfold trans_32_32
    rw [h1]
    rfl
  · intro i j hi0 hi1 hj0 hj1
    exact h2.2 i j (Or.inr ⟨hi0, hi1, hj0, by push_cast; omega⟩)

theorem fun2_congr (f : Int → Int → Int) {a b c d : Int} (h1 : a = c) (h2 : b = d) :
    f a b = f c d := by
  rw [h1, h2]

theorem load_row_eq {M N : Int} (s : Arrays) {i jj : Int} (h1 : 0 ≤ i) (h2 : i < N)
    (h3 : 0 ≤ jj) (h4 : jj + 8 ≤ M) :
    load_row M N s i jj = some ⟨s.A i jj, s.A i (jj + 1), s.A i (jj + 2), s.A i (jj + 3),
      s.A i (jj + 4), s.A i (jj + 5), s.A i (jj + 6), s.A i (jj + 7)⟩ := by
  unfold load_row
  simp (disch := omega) only [getA_some, Option.some_bind]

theorem store1_64_eq {M N : Int} (s : Arrays) {ii jj i : Int} (v : Vals) (hii : 0 ≤ ii)
    (hiN : ii + 8 ≤ N) (hjj : 0 ≤ jj) (hjM : jj + 8 ≤ M) (hi0 : 0 ≤ i) (hi4 : i < 4) :
    ∃ s1, store1_64 M N s ii jj i v = some s1 ∧ s1.A = s.A ∧
      ∀ j1 i1 : Int, s1.B j1 i1 =
        if j1 = jj + 3 ∧ i1 = ii + 4 + i then v.val7
        else if j1 = jj + 2 ∧ i1 = ii + 4 + i then v.val6
        else if j1 = jj + 1 ∧ i1 = ii + 4 + i then v.val5
        else if j1 = jj + 0 ∧ i1 = ii + 4 + i then v.val4
        else if j1 = jj + 3 ∧ i1 = ii + i then v.val3
        else if j1 = jj + 2 ∧ i1 = ii + i then v.val2
        else if j1 = jj + 1 ∧ i1 = ii + i then v.val1
        else if j1 = jj + 0 ∧ i1 = ii + i then v.val0
        else s.B j1 i1 := by
  unfold store1_64
  simp (disch := omega) only [setB_some, Option.some_bind]
  exact ⟨_, rfl, rfl, fun j1 i1 => rfl⟩

/-- The effect of the first inner loop body of `trans_64_64`. -/
theorem step1_64_eq {M N : Int} (s : Arrays) (ii jj i : Int) (hii : 0 ≤ ii)
    (hiN : ii + 8 ≤ N) (hjj : 0 ≤ jj) (hjM : jj + 8 ≤ M) (hi0 : 0 ≤ i) (hi4 : i < 4) :
    ∃ s1, step1_64 M N ii jj i s = some s1 ∧ s1.A = s.A ∧
      ∀ j1 i1 : Int, s1.B j1 i1 =
        if j1 = jj + 3 ∧ i1 = ii + 4 + i then s.A (ii + i) (jj + 7)
        else if j1 = jj + 2 ∧ i1 = ii + 4 + i then s.A (ii + i) (jj + 6)
        else if j1 = jj + 1 ∧ i1 = ii + 4 + i then s.A (ii + i) (jj + 5)
        else if j1 = jj + 0 ∧ i1 = ii + 4 + i then s.A (ii + i) (jj + 4)
        else if j1 = jj + 3 ∧ i1 = ii + i then s.A (ii + i) (jj + 3)
        else if j1 = jj + 2 ∧ i1 = ii + i then s.A (ii + i) (jj + 2)
        else if j1 = jj + 1 ∧ i1 = ii + i then s.A (ii + i) (jj + 1)
        else if j1 = jj + 0 ∧ i1 = ii + i then s.A (ii + i) jj
        else s.B j1 i1 := by
  unfold step1_64
  rw [load_row_eq s (by omega) (by omega) hjj hjM]
  simp only [Option.some_bind]
  exact store1_64_eq s _ hii hiN hjj hjM hi0 hi4

/-- One iteration of the first inner loop of `trans_64_64`. -/
theorem step1_inv {M N : Int} {A0 : Int → Int → Int} (s0 : Arrays) {s : Arrays} {ii jj : Int}
    (hii : 0 ≤ ii) (hiN : ii + 8 ≤ N) (hjj : 0 ≤ jj) (hjM : jj + 8 ≤ M) {k : Int}
    (hk0 : 0 ≤ k) (hk : k < 4) (pA : s.A = A0)
    (pT : ∀ c r : Int, 0 ≤ c → c < 4 → 0 ≤ r → r < k →
      s.B (jj + c) (ii + r) = A0 (ii + r) (jj + c) ∧
      s.B (jj + c) (ii + 4 + r) = A0 (ii + r) (jj + 4 + c))
    (pF : ∀ j i : Int, ¬ (jj ≤ j ∧ j < jj + 8 ∧ ii ≤ i ∧ i < ii + 8) → s.B j i = s0.B j i) :
    ∃ s1, step1_64 M N ii jj k s = some s1 ∧ s1.A = A0 ∧
      (∀ c r : Int, 0 ≤ c → c < 4 → 0 ≤ r → r < k + 1 →
        s1.B (jj + c) (ii + r) = A0 (ii + r) (jj + c) ∧
        s1.B (jj + c) (ii + 4 + r) = A0 (ii + r) (jj + 4 + c)) ∧
      (∀ j i : Int, ¬ (jj ≤ j ∧ j < jj + 8 ∧ ii ≤ i ∧ i < ii + 8) → s1.B j i = s0.B j i) := by
  obtain ⟨s1, e1, eA, eB⟩ := step1_64_eq (M := M) (N := N) s ii jj k
    hii hiN hjj hjM hk0 hk
  refine ⟨s1, e1, eA.trans pA, ?_, ?_⟩
  · intro c r hc0 hc4 hr0 hrk
    rw [eB, eB, pA]
    by_cases hr : r = k
    · subst hr
      constructor
      · iterate 4 rw [if_neg (by omega)]
        split_ifs <;>
          first
          | exact fun2_congr _ (by omega) (by omega)
          | omega
      · split_ifs <;>
          first
          | exact fun2_congr _ (by omega) (by omega)
          | omega
    · have ih := pT c r hc0 hc4 hr0 (by omega)
      constructor
      · iterate 8 rw [if_neg (by omega)]
        exact ih.1
      · iterate 8 rw [if_neg (by omega)]
        exact ih.2
  · intro j i hn
    rw [eB]
    iterate 8 rw [if_neg (by omega)]
    exact pF j i hn

/-- The first inner loop of `trans_64_64` on the block at `(ii, jj)`: the first four rows
of the block of `A` are in the first four rows of the block of `B`, the right half of each
in the columns `ii + 4 .. ii + 7`. -/
theorem step1_loop {M N : Int} {A0 : Int → Int → Int} {s0 : Arrays} (hA : s0.A = A0)
    {ii jj : Int} (hii : 0 ≤ ii) (hiN : ii + 8 ≤ N) (hjj : 0 ≤ jj) (hjM : jj + 8 ≤ M) :
    ∃ s1, for_loop (fun i => some (decide (i < 4))) 1 (step1_64 M N ii jj) loop_fuel 0 s0 =
        some (4, s1) ∧ s1.A = A0 ∧
      (∀ c r : Int, 0 ≤ c → c < 4 → 0 ≤ r → r < 4 →
        s1.B (jj + c) (ii + r) = A0 (ii + r) (jj + c) ∧
        s1.B (jj + c) (ii + 4 + r) = A0 (ii + r) (jj + 4 + c)) ∧
      (∀ j i : Int, ¬ (jj ≤ j ∧ j < jj + 8 ∧ ii ≤ i ∧ i < ii + 8) → s1.B j i = s0.B j i) := by
  obtain ⟨s1, h1, h2, h3, h4⟩ := for_loop_spec (fun i => some (decide (i < 4))) 1
    (step1_64 M N ii jj) 4
    (fun k s => s.A = A0 ∧
      (∀ c r : Int, 0 ≤ c → c < 4 → 0 ≤ r → r < k →
        s.B (jj + c) (ii + r) = A0 (ii + r) (jj + c) ∧
        s.B (jj + c) (ii + 4 + r) = A0 (ii + r) (jj + 4 + c)) ∧
      (∀ j i : Int, ¬ (jj ≤ j ∧ j < jj + 8 ∧ ii ≤ i ∧ i < ii + 8) → s.B j i = s0.B j i))
    loop_fuel 0 s0 (fuel_gt (by omega))
    ⟨hA, fun c r _ _ h0 hk => by omega, fun j i _ => rfl⟩
    (fun k hk => cond_true (by omega))
    (cond_false (by norm_num))
    (fun k hk => iadd_some (by omega) (by omega))
    (fun k s hk hp => by
      obtain ⟨pA, pT, pF⟩ := hp
      obtain ⟨s1, e1, q1, q2, q3⟩ := step1_inv (M := M) (N := N) s0 hii hiN hjj hjM
        (k := 0 + k * 1) (by omega) (by omega) pA
        (fun c r a b c1 d => pT c r a b c1 (by omega)) pF
      exact ⟨s1, e1, q1, fun c r a b c1 d => q2 c r a b c1 (by push_cast at d; omega), q3⟩)
  exact ⟨s1, h1, h2, fun c r a b c1 d => h3 c r a b c1 (by push_cast; omega), h4⟩

theorem load2_64_eq {M N : Int} (s : Arrays) {ii jj i : Int} (hii : 0 ≤ ii)
    (hiN : ii + 8 ≤ N) (hjj : 0 ≤ jj) (hjM : jj + 8 ≤ M) (hi0 : 0 ≤ i) (hi4 : i < 4) :
    load2_64 M N s ii jj i = some ⟨s.B (jj + i) (ii + 4), s.B (jj + i) (ii + 5),
      s.B (jj + i) (ii + 6), s.B (jj + i) (ii + 7), s.A (ii + 4) (jj + i),
      s.A (ii + 5) (jj + i), s.A (ii + 6) (jj + i), s.A (ii + 7) (jj + i)⟩ := by
  unfold load2_64
  simp (disch := omega) only [getA_some, getB_some, Option.some_bind]

theorem store2_64_eq {M N : Int} (s : Arrays) {ii jj i : Int} (v : Vals) (hii : 0 ≤ ii)
    (hiN : ii + 8 ≤ N) (hjj : 0 ≤ jj) (hjM : jj + 8 ≤ M) (hi0 : 0 ≤ i) (hi4 : i < 4) :
    ∃ s1, store2_64 M N s ii jj i v = some s1 ∧ s1.A = s.A ∧
      ∀ j1 i1 : Int, s1.B j1 i1 =
        if j1 = jj + 4 + i ∧ i1 = ii + 3 then v.val3
        else if j1 = jj + 4 + i ∧ i1 = ii + 2 then v.val2
        else if j1 = jj + 4 + i ∧ i1 = ii + 1 then v.val1
        else if j1 = jj + 4 + i ∧ i1 = ii then v.val0
        else if j1 = jj + i ∧ i1 = ii + 7 then v.val7
        else if j1 = jj + i ∧ i1 = ii + 6 then v.val6
        else if j1 = jj + i ∧ i1 = ii + 5 then v.val5
        else if j1 = jj + i ∧ i1 = ii + 4 then v.val4
        else s.B j1 i1 := by
  unfold store2_64
  simp (disch := omega) only [setB_some, Option.some_bind]
  exact ⟨_, rfl, rfl, fun j1 i1 => rfl⟩

/-- The effect of the second inner loop body of `trans_64_64`. -/
theorem step2_64_eq {M N : Int} (s : Arrays) (ii jj i : Int) (hii : 0 ≤ ii)
    (hiN : ii + 8 ≤ N) (hjj : 0 ≤ jj) (hjM : jj + 8 ≤ M) (hi0 : 0 ≤ i) (hi4 : i < 4) :
    ∃ s1, step2_64 M N ii jj i s = some s1 ∧ s1.A = s.A ∧
      ∀ j1 i1 : Int, s1.B j1 i1 =
        if j1 = jj + 4 + i ∧ i1 = ii + 3 then s.B (jj + i) (ii + 7)
        else if j1 = jj + 4 + i ∧ i1 = ii + 2 then s.B (jj + i) (ii + 6)
        else if j1 = jj + 4 + i ∧ i1 = ii + 1 then s.B (jj + i) (ii + 5)
        else if j1 = jj + 4 + i ∧ i1 = ii then s.B (jj + i) (ii + 4)
        else if j1 = jj + i ∧ i1 = ii + 7 then s.A (ii + 7) (jj + i)
        else if j1 = jj + i ∧ i1 = ii + 6 then s.A (ii + 6) (jj + i)
        else if j1 = jj + i ∧ i1 = ii + 5 then s.A (ii + 5) (jj + i)
        else if j1 = jj + i ∧ i1 = ii + 4 then s.A (ii + 4) (jj + i)
        else s.B j1 i1 := by
  unfold step2_64
  rw [load2_64_eq s hii hiN hjj hjM hi0 hi4]
  simp only [Option.some_bind]
  exact store2_64_eq s _ hii hiN hjj hjM hi0 hi4

/-- One iteration of the second inner loop of `trans_64_64`. -/
theorem step2_inv {M N : Int} {A0 : Int → Int → Int} (s0 : Arrays) {s : Arrays} {ii jj : Int}
    (hii : 0 ≤ ii) (hiN : ii + 8 ≤ N) (hjj : 0 ≤ jj) (hjM : jj + 8 ≤ M) {k : Int}
    (hk0 : 0 ≤ k) (hk : k < 4) (pA : s.A = A0)
    (pT : ∀ c r : Int, 0 ≤ c → c < k → 0 ≤ r → r < 8 →
      s.B (jj + c) (ii + r) = A0 (ii + r) (jj + c))
    (pU : ∀ c r : Int, k ≤ c → c < 4 → 0 ≤ r → r < 4 →
      s.B (jj + c) (ii + r) = A0 (ii + r) (jj + c) ∧
      s.B (jj + c) (ii + 4 + r) = A0 (ii + r) (jj + 4 + c))
    (pV : ∀ c r : Int, 0 ≤ c → c < k → 0 ≤ r → r < 4 →
      s.B (jj + 4 + c) (ii + r) = A0 (ii + r) (jj + 4 + c))
    (pF : ∀ j i : Int, ¬ (jj ≤ j ∧ j < jj + 8 ∧ ii ≤ i ∧ i < ii + 8) → s.B j i = s0.B j i) :
    ∃ s1, step2_64 M N ii jj k s = some s1 ∧ s1.A = A0 ∧
      (∀ c r : Int, 0 ≤ c → c < k + 1 → 0 ≤ r → r < 8 →
        s1.B (jj + c) (ii + r) = A0 (ii + r) (jj + c)) ∧
      (∀ c r : Int, k + 1 ≤ c → c < 4 → 0 ≤ r → r < 4 →
        s1.B (jj + c) (ii + r) = A0 (ii + r) (jj + c) ∧
        s1.B (jj + c) (ii + 4 + r) = A0 (ii + r) (jj + 4 + c)) ∧
      (∀ c r : Int, 0 ≤ c → c < k + 1 → 0 ≤ r → r < 4 →
        s1.B (jj + 4 + c) (ii + r) = A0 (ii + r) (jj + 4 + c)) ∧
      (∀ j i : Int, ¬ (jj ≤ j ∧ j < jj + 8 ∧ ii ≤ i ∧ i < ii + 8) → s1.B j i = s0.B j i) := by
  obtain ⟨s1, e1, eA, eB⟩ := step2_64_eq (M := M) (N := N) s ii jj k
    hii hiN hjj hjM hk0 hk
  have u0 : s.B (jj + k) (ii + 4) = A0 ii (jj + 4 + k) :=
    (fun2_congr s.B rfl (by omega)).trans
      (((pU k 0 (by omega) hk (by omega) (by omega)).2).trans
        (fun2_congr A0 (by omega) rfl))
  have u1 : s.B (jj + k) (ii + 5) = A0 (ii + 1) (jj + 4 + k) :=
    (fun2_congr s.B rfl (by omega)).trans (pU k 1 (by omega) hk (by omega) (by omega)).2
  have u2 : s.B (jj + k) (ii + 6) = A0 (ii + 2) (jj + 4 + k) :=
    (fun2_congr s.B rfl (by omega)).trans (pU k 2 (by omega) hk (by omega) (by omega)).2
  have u3 : s.B (jj + k) (ii + 7) = A0 (ii + 3) (jj + 4 + k) :=
    (fun2_congr s.B rfl (by omega)).trans (pU k 3 (by omega) hk (by omega) (by omega)).2
  refine ⟨s1, e1, eA.trans pA, ?_, ?_, ?_, ?_⟩
  · intro c r hc0 hck hr0 hr8
    rw [eB, pA]
    iterate 4 rw [if_neg (by omega)]
    by_cases hc : c = k
    · subst hc
      split_ifs
      · exact fun2_congr _ (by omega) (by omega)
      · exact fun2_congr _ (by omega) (by omega)
      · exact fun2_congr _ (by omega) (by omega)
      · exact fun2_congr _ (by omega) (by omega)
      · exact (pU c r (by omega) hk hr0 (by omega)).1
    · iterate 4 rw [if_neg (by omega)]
      exact pT c r hc0 (by omega) hr0 hr8
  · intro c r hc0 hc4 hr0 hr4
    rw [eB, eB]
    iterate 16 rw [if_neg (by omega)]
    exact pU c r (by omega) hc4 hr0 hr4
  · intro c r hc0 hck hr0 hr4
    rw [eB]
    by_cases hc : c = k
    · subst hc
      split_ifs
      · exact u3.trans (fun2_congr _ (by omega) (by omega))
      · exact u2.trans (fun2_congr _ (by omega) (by omega))
      · exact u1.trans (fun2_congr _ (by omega) (by omega))
      · exact u0.trans (fun2_congr _ (by omega) (by omega))
      all_goals omega
    · iterate 8 rw [if_neg (by omega)]
      exact pV c r hc0 (by omega) hr0 hr4
  · intro j i hn
    rw [eB]
    iterate 8 rw [if_neg (by omega)]
    exact pF j i hn

/-- The second inner loop of `trans_64_64` on the block at `(ii, jj)`, run after the first:
the first four rows of the block of `B` and the left half of its last four rows hold the
transpose. -/
theorem step2_loop {M N : Int} {A0 : Int → Int → Int} (s0 : Arrays) {s : Arrays}
    {ii jj : Int} (hii : 0 ≤ ii) (hiN : ii + 8 ≤ N) (hjj : 0 ≤ jj) (hjM : jj + 8 ≤ M)
    (pA : s.A = A0)
    (pU : ∀ c r : Int, 0 ≤ c → c < 4 → 0 ≤ r → r < 4 →
      s.B (jj + c) (ii + r) = A0 (ii + r) (jj + c) ∧
      s.B (jj + c) (ii + 4 + r) = A0 (ii + r) (jj + 4 + c))
    (pF : ∀ j i : Int, ¬ (jj ≤ j ∧ j < jj + 8 ∧ ii ≤ i ∧ i < ii + 8) → s.B j i = s0.B j i) :
    ∃ s1, for_loop (fun i => some (decide (i < 4))) 1 (step2_64 M N ii jj) loop_fuel 0 s =
        some (4, s1) ∧ s1.A = A0 ∧
      (∀ c r : Int, 0 ≤ c → c < 4 → 0 ≤ r → r < 8 →
        s1.B (jj + c) (ii + r) = A0 (ii + r) (jj + c)) ∧
      (∀ c r : Int, 0 ≤ c → c < 4 → 0 ≤ r → r < 4 →
        s1.B (jj + 4 + c) (ii + r) = A0 (ii + r) (jj + 4 + c)) ∧
      (∀ j i : Int, ¬ (jj ≤ j ∧ j < jj + 8 ∧ ii ≤ i ∧ i < ii + 8) → s1.B j i = s0.B j i) := by
  obtain ⟨s1, h1, h2, h3, _, h5, h6⟩ := for_loop_spec (fun i => some (decide (i < 4))) 1
    (step2_64 M N ii jj) 4
    (fun k s => s.A = A0 ∧
      (∀ c r : Int, 0 ≤ c → c < k → 0 ≤ r → r < 8 →
        s.B (jj + c) (ii + r) = A0 (ii + r) (jj + c)) ∧
      (∀ c r : Int, (k : Int) ≤ c → c < 4 → 0 ≤ r → r < 4 →
        s.B (jj + c) (ii + r) = A0 (ii + r) (jj + c) ∧
        s.B (jj + c) (ii + 4 + r) = A0 (ii + r) (jj + 4 + c)) ∧
      (∀ c r : Int, 0 ≤ c → c < k → 0 ≤ r → r < 4 →
        s.B (jj + 4 + c) (ii + r) = A0 (ii + r) (jj + 4 + c)) ∧
      (∀ j i : Int, ¬ (jj ≤ j ∧ j < jj + 8 ∧ ii ≤ i ∧ i < ii + 8) → s.B j i = s0.B j i))
    loop_fuel 0 s (fuel_gt (by omega))
    ⟨pA, fun c r _ _ h0 hk => by omega, fun c r a b c1 d => pU c r (by omega) b c1 d,
      fun c r _ _ h0 hk => by omega, pF⟩
    (fun k hk => cond_true (by omega))
    (cond_false (by norm_num))
    (fun k hk => iadd_some (by omega) (by omega))
    (fun k s hk hp => by
      obtain ⟨qA, qT, qU, qV, qF⟩ := hp
      obtain ⟨s1, e1, q1, q2, q3, q4, q5⟩ := step2_inv (M := M) (N := N) s0 hii hiN hjj hjM
        (k := 0 + k * 1) (by omega) (by omega) qA
        (fun c r a b c1 d => qT c r a (by omega) c1 d)
        (fun c r a b c1 d => qU c r (by omega) b c1 d)
        (fun c r a b c1 d => qV c r a (by omega) c1 d) qF
      exact ⟨s1, e1, q1, fun c r a b c1 d => q2 c r a (by push_cast at b; omega) c1 d,
        fun c r a b c1 d => q3 c r (by push_cast at a; omega) b c1 d,
        fun c r a b c1 d => q4 c r a (by push_cast at b; omega) c1 d, q5⟩)
  exact ⟨s1, h1, h2, fun c r a b c1 d => h3 c r a (by push_cast; omega) c1 d,
    fun c r a b c1 d => h5 c r a (by push_cast; omega) c1 d, h6⟩

/-- The innermost loop of the third step of `trans_64_64`: the last four cells of one row
of the block. -/
theorem copy_row64 {M N : Int} {A0 : Int → Int → Int} {D : Int → Int → Prop} {s : Arrays}
    (h : Agree A0 D s) (i jj : Int) (h1 : 0 ≤ i) (h2 : i < N) (h3 : 0 ≤ jj)
    (h4 : jj + 8 ≤ M) :
    ∃ s1, (for_loop (fun j => some (decide (j < 8))) 1 (fun j s => copy M N i (jj + j) s)
        loop_fuel 4 s).map (fun r => r.2) = some s1 ∧
      Agree A0 (fun i1 j1 => D i1 j1 ∨ (i1 = i ∧ jj + 4 ≤ j1 ∧ j1 < jj + 8)) s1 := by
  obtain ⟨s1, e1, a1⟩ := for_loop_spec (fun j => some (decide (j < 8))) 1
    (fun j s => copy M N i (jj + j) s) 4
    (fun k s => Agree A0 (fun i1 j1 => D i1 j1 ∨ (i1 = i ∧ jj + 4 ≤ j1 ∧ j1 < jj + 4 + k)) s)
    loop_fuel 4 s (fuel_gt (by omega)) (h.mono0 (fun i j hd => by omega))
    (fun k hk => cond_true (by omega))
    (cond_false (by norm_num))
    (fun k hk => iadd_some (by omega) (by omega))
    (fun k s hk hp => by
      obtain ⟨s1, e1, a1⟩ := copy_agree (M := M) (N := N) hp (i := i) (j := jj + (4 + k * 1))
        h1 h2 (by omega) (by omega)
      refine ⟨s1, e1, a1.mono2 ?_⟩
      intro i j hd
      push_cast at hd
      omega)
  exact ⟨s1, by rw [e1]; rfl, a1.mono1 (fun i j hd => by push_cast; omega)⟩

/-- The third step of `trans_64_64`: the last four rows of the block of `A`, columns
`jj + 4 .. jj + 7`. -/
theorem copy_block64 {M N : Int} {A0 : Int → Int → Int} {D : Int → Int → Prop} {s : Arrays}
    (h : Agree A0 D s) (ii jj : Int) (hii : 0 ≤ ii) (hiN : ii + 8 ≤ N) (hjj : 0 ≤ jj)
    (hjM : jj + 8 ≤ M) :
    ∃ s1, (for_loop (fun i => some (decide (i < 8))) 1
        (fun i s =>
          (for_loop (fun j => some (decide (j < 8))) 1
            (fun j s => copy M N (ii + i) (jj + j) s) loop_fuel 4 s).map (fun r => r.2))
        loop_fuel 4 s).map (fun r => r.2) = some s1 ∧
      Agree A0 (fun i1 j1 => D i1 j1 ∨
        (ii + 4 ≤ i1 ∧ i1 < ii + 8 ∧ jj + 4 ≤ j1 ∧ j1 < jj + 8)) s1 := by
  obtain ⟨s1, e1, a1⟩ := for_loop_spec (fun i => some (decide (i < 8))) 1
    (fun i s =>
      (for_loop (fun j => some (decide (j < 8))) 1
        (fun j s => copy M N (ii + i) (jj + j) s) loop_fuel 4 s).map (fun r => r.2)) 4
    (fun k s => Agree A0 (fun i1 j1 => D i1 j1 ∨
      (ii + 4 ≤ i1 ∧ i1 < ii + 4 + k ∧ jj + 4 ≤ j1 ∧ j1 < jj + 8)) s)
    loop_fuel 4 s (fuel_gt (by omega)) (h.mono0 (fun i j hd => by omega))
    (fun k hk => cond_true (by omega))
    (cond_false (by norm_num))
    (fun k hk => iadd_some (by omega) (by omega))
    (fun k s hk hp => by
      obtain ⟨s1, e1, a1⟩ := copy_row64 (M := M) (N := N) hp (ii + (4 + k * 1)) jj
        (by omega) (by omega) hjj hjM
      refine ⟨s1, e1, a1.mono2 ?_⟩
      intro i j hd
      push_cast at hd
      omega)
  exact ⟨s1, by rw [e1]; rfl, a1.mono1 (fun i j hd => by push_cast; omega)⟩

/-- The body of the loops of `trans_64_64` over `ii` and `jj`: one block of eight rows
and eight columns. -/
theorem block64 {M N : Int} {A0 : Int → Int → Int} {D : Int → Int → Prop} {s : Arrays}
    (h : Agree A0 D s) (ii jj : Int) (hii : 0 ≤ ii) (hiN : ii + 8 ≤ N) (hjj : 0 ≤ jj)
    (hjM : jj + 8 ≤ M) :
    ∃ s1, ((for_loop (fun i => some (decide (i < 4))) 1 (step1_64 M N ii jj) loop_fuel 0
          s).bind (fun r1 =>
        (for_loop (fun i => some (decide (i < 4))) 1 (step2_64 M N ii jj) loop_fuel 0
          r1.2).bind (fun r2 =>
        (for_loop (fun i => some (decide (i < 8))) 1
          (fun i s =>
            (for_loop (fun j => some (decide (j < 8))) 1
              (fun j s => copy M N (ii + i) (jj + j) s) loop_fuel 4 s).map (fun r => r.2))
          loop_fuel 4 r2.2).map (fun r => r.2)))) = some s1 ∧
      Agree A0 (fun i1 j1 => D i1 j1 ∨
        (ii ≤ i1 ∧ i1 < ii + 8 ∧ jj ≤ j1 ∧ j1 < jj + 8)) s1 := by
  obtain ⟨s1, e1, a1, u1, f1⟩ := step1_loop (M := M) (N := N) h.1 hii hiN hjj hjM
  obtain ⟨s2, e2, a2, t2, v2, f2⟩ := step2_loop (M := M) (N := N) s hii hiN hjj hjM a1 u1 f1
  have g2 : Agree A0 (fun i1 j1 =>
      (D i1 j1 ∧ ¬ (jj ≤ j1 ∧ j1 < jj + 8 ∧ ii ≤ i1 ∧ i1 < ii + 8)) ∨
      (ii ≤ i1 ∧ i1 < ii + 8 ∧ jj ≤ j1 ∧ j1 < jj + 8 ∧ ¬ (ii + 4 ≤ i1 ∧ jj + 4 ≤ j1))) s2 := by
    refine ⟨a2, ?_⟩
    intro i1 j1 hd
    rcases hd with hd | hd
    · rw [f2 j1 i1 hd.2]
      exact h.2 i1 j1 hd.1
    · by_cases hj : j1 < jj + 4
      · have := t2 (j1 - jj) (i1 - ii) (by omega) (by omega) (by omega) (by omega)
        rw [fun2_congr s2.B (show j1 = jj + (j1 - jj) by omega)
          (show i1 = ii + (i1 - ii) by omega), this]
        exact fun2_congr _ (by omega) (by omega)
      · have := v2 (j1 - jj - 4) (i1 - ii) (by omega) (by omega) (by omega) (by omega)
        rw [fun2_congr s2.B (show j1 = jj + 4 + (j1 - jj - 4) by omega)
          (show i1 = ii + (i1 - ii) by omega), this]
        exact fun2_congr _ (by omega) (by omega)
  obtain ⟨s3, e3, a3⟩ := copy_block64 (M := M) (N := N) g2 ii jj hii hiN hjj hjM
  refine ⟨s3, ?_, a3.mono ?_⟩
  · rw [e1]
    simp only [Option.some_bind]
    rw [e2]
    simp only [Option.some_bind]
    exact e3
  · intro i1 j1 hd
    by_cases hb : ii ≤ i1 ∧ i1 < ii + 8 ∧ jj ≤ j1 ∧ j1 < jj + 8
    · by_cases hq : ii + 4 ≤ i1 ∧ jj + 4 ≤ j1
      · exact Or.inr ⟨hq.1, hb.2.1, hq.2, hb.2.2.2⟩
      · exact Or.inl (Or.inr ⟨hb.1, hb.2.1, hb.2.2.1, hb.2.2.2, hq⟩)
    · rcases hd with hd | hd
      · exact Or.inl (Or.inl ⟨hd, fun x => hb ⟨x.2.2.1, x.2.2.2, x.1, x.2.1⟩⟩)
      · exact absurd hd hb

/-- The loop of `trans_64_64` over `jj` for one value of `ii`, for 64 columns. -/
theorem strip64 {A0 : Int → Int → Int} {D : Int → Int → Prop} {s : Arrays}
    (h : Agree A0 D s) (ii : Int) (hii : 0 ≤ ii) (hiN : ii + 8 ≤ 64) :
    ∃ s1, (for_loop (fun jj => some (decide (jj < 64))) 8
        (fun jj s =>
          (for_loop (fun i => some (decide (i < 4))) 1 (step1_64 64 64 ii jj) loop_fuel 0
            s).bind (fun r1 =>
          (for_loop (fun i => some (decide (i < 4))) 1 (step2_64 64 64 ii jj) loop_fuel 0
            r1.2).bind (fun r2 =>
          (for_loop (fun i => some (decide (i < 8))) 1
            (fun i s =>
              (for_loop (fun j => some (decide (j < 8))) 1
                (fun j s => copy 64 64 (ii + i) (jj + j) s) loop_fuel 4 s).map (fun r => r.2))
            loop_fuel 4 r2.2).map (fun r => r.2))))
        loop_fuel 0 s).map (fun r => r.2) = some s1 ∧
      Agree A0 (fun i1 j1 => D i1 j1 ∨ (ii ≤ i1 ∧ i1 < ii + 8 ∧ 0 ≤ j1 ∧ j1 < 64)) s1 := by
  obtain ⟨s1, e1, a1⟩ := for_loop_spec (fun jj => some (decide (jj < 64))) 8
    (fun jj s =>
      (for_loop (fun i => some (decide (i < 4))) 1 (step1_64 64 64 ii jj) loop_fuel 0
        s).bind (fun r1 =>
      (for_loop (fun i => some (decide (i < 4))) 1 (step2_64 64 64 ii jj) loop_fuel 0
        r1.2).bind (fun r2 =>
      (for_loop (fun i => some (decide (i < 8))) 1
        (fun i s =>
          (for_loop (fun j => some (decide (j < 8))) 1
            (fun j s => copy 64 64 (ii + i) (jj + j) s) loop_fuel 4 s).map (fun r => r.2))
        loop_fuel 4 r2.2).map (fun r => r.2)))) 8
    (fun k s => Agree A0 (fun i1 j1 => D i1 j1 ∨
      (ii ≤ i1 ∧ i1 < ii + 8 ∧ 0 ≤ j1 ∧ j1 < 8 * k)) s)
    loop_fuel 0 s (fuel_gt (by omega)) (h.mono0 (fun i j hd => by omega))
    (fun k hk => cond_true (by omega))
    (cond_false (by norm_num))
    (fun k hk => iadd_some (by omega) (by omega))
    (fun k s hk hp => by
      obtain ⟨s1, e1, a1⟩ := block64 (M := 64) (N := 64) hp ii (0 + k * 8) hii hiN
        (by omega) (by omega)
      refine ⟨s1, e1, a1.mono2 ?_⟩
      intro i j hd
      push_cast at hd
      omega)
  exact ⟨s1, by rw [e1]; rfl, a1.mono1 (fun i j hd => by push_cast; omega)⟩

/-- The function `trans_64_64` transposes a 64 x 64 array. -/
theorem trans_64_64_spec (s : Arrays) :
    ∃ s1, trans_64_64 64 64 s = some s1 ∧ s1.A = s.A ∧
      ∀ i j, 0 ≤ i → i < 64 → 0 ≤ j → j < 64 → s1.B j i = s.A i j := by
  obtain ⟨s1, e1, a1⟩ := for_loop_spec (fun ii => some (decide (ii < (64 : Int)))) 8
    (fun ii s =>
      (for_loop (fun jj => some (decide (jj < (64 : Int)))) 8
        (fun jj s =>
          (for_loop (fun i => some (decide (i < 4))) 1 (step1_64 64 64 ii jj) loop_fuel 0
            s).bind (fun r1 =>
          (for_loop (fun i => some (decide (i < 4))) 1 (step2_64 64 64 ii jj) loop_fuel 0
            r1.2).bind (fun r2 =>
          (for_loop (fun i => some (decide (i < 8))) 1
            (fun i s =>
              (for_loop (fun j => some (decide (j < 8))) 1
                (fun j s => copy 64 64 (ii + i) (jj + j) s) loop_fuel 4 s).map (fun r => r.2))
            loop_fuel 4 r2.2).map (fun r => r.2))))
        loop_fuel 0 s).map (fun r => r.2)) 8
    (fun k s1 => Agree s.A (fun i1 j1 => False ∨
      (0 ≤ i1 ∧ i1 < 8 * k ∧ 0 ≤ j1 ∧ j1 < 64)) s1)
    loop_fuel 0 s (fuel_gt (by omega))
    ⟨rfl, fun i j hd => by
      rcases hd with hd | hd
      · exact hd.elim
      · omega⟩
    (fun k hk => cond_true (by omega))
    (cond_false (by norm_num))
    (fun k hk => iadd_some (by omega) (by omega))
    (fun k s hk hp => by
      obtain ⟨s1, e1, a1⟩ := strip64 hp (0 + k * 8) (by omega) (by omega)
      refine ⟨s1, e1, a1.mono2 ?_⟩
      intro i j hd
      push_cast at hd
      omega)
  refine ⟨s1, ?_, a1.1, fun i j h1 h2 h3 h4 => a1.2 i j (Or.inr ⟨h1, by push_cast; omega, h3, h4⟩)⟩
  unfold trans_64_64
  rw [e1]
  rfl

/-- The inner loop of `is_transpose` reaches its end on a row whose cells agree. -/
theorem is_transpose_row_true {M N : Int} (s : Arrays) {i : Int} (hi0 : 0 ≤ i) (hiN : i < N)
    (hM : M ≤ 2147483647) (hB : ∀ j, 0 ≤ j → j < M → s.B j i = s.A i j) :
    ∀ (n fuel : Nat) (j : Int), 0 ≤ j → M - j ≤ n → n < fuel →
      is_transpose_row M N s i fuel j = some true
  | 0, fuel, j, hj0, hn, hf => by
    cases fuel with
    | zero => omega
    | succ f =>
      unfold is_transpose_row
      rw [if_neg (by omega)]
  | n + 1, fuel, j, hj0, hn, hf => by
    cases fuel with
    | zero => omega
    | succ f =>
      unfold is_transpose_row
      by_cases hj : j < M
      · rw [if_pos hj, getA_some s hi0 hiN hj0 hj, getB_some s hj0 hj hi0 hiN]
        simp only [Option.some_bind]
        rw [if_neg (by rw [hB j hj0 hj]; exact fun h => h rfl),
          iadd_some (by omega) (by omega)]
        simp only [Option.some_bind]
        exact is_transpose_row_true s hi0 hiN hM hB n f (j + 1) (by omega)
          (by push_cast at hn; omega) (by omega)
      · rw [if_neg hj]

/-- The outer loop of `is_transpose` returns 1 when the remaining rows agree. -/
theorem is_transpose_rows_one {M N : Int} (s : Arrays) (hM0 : 0 ≤ M) (hM : M ≤ 2147483647)
    (hN : N ≤ 2147483647)
    (hB : ∀ i j, 0 ≤ i → i < N → 0 ≤ j → j < M → s.B j i = s.A i j) :
    ∀ (n fuel : Nat) (i : Int), 0 ≤ i → N - i ≤ n → n < fuel →
      is_transpose_rows M N s fuel i = some 1
  | 0, fuel, i, hi0, hn, hf => by
    cases fuel with
    | zero => omega
    | succ f =>
      unfold is_transpose_rows
      rw [if_neg (by omega)]
  | n + 1, fuel, i, hi0, hn, hf => by
    cases fuel with
    | zero => omega
    | succ f =>
      unfold is_transpose_rows
      by_cases hi : i < N
      · rw [if_pos hi, is_transpose_row_true s hi0 hi hM (fun j a b => hB i j hi0 hi a b)
          M.toNat loop_fuel 0 (le_refl _) (by omega) (fuel_gt (by omega))]
        simp only [Option.some_bind, if_true]
        rw [iadd_some (by omega) (by omega)]
        simp only [Option.some_bind]
        exact is_transpose_rows_one s hM0 hM hN hB n f (i + 1) (by omega)
          (by push_cast at hn; omega) (by omega)
      · rw [if_neg hi]

/-- The function `is_transpose` returns 1 when `B` is the transpose of `A`. -/
theorem is_transpose_one {M N : Int} (s : Arrays) (hM0 : 0 ≤ M) (hM : M ≤ 2147483647)
    (hN0 : 0 ≤ N) (hN : N ≤ 2147483647)
    (hB : ∀ i j, 0 ≤ i → i < N → 0 ≤ j → j < M → s.B j i = s.A i j) :
    is_transpose M N s = some 1 :=
  is_transpose_rows_one s hM0 hM hN hB N.toNat loop_fuel 0 (le_refl _) (by omega)
    (fuel_gt (by omega))

/-- The function `transpose_submit` transposes `A` into `B` for all dimensions for which
no loop header of the generic kernel overflows. -/
theorem transpose_submit_spec (M N : Int) (s : Arrays) (hM1 : 1 ≤ M) (hN1 : 1 ≤ N)
    (hM : M ≤ 2147483647) (hN : N ≤ 2147483632) (hMN : 16 < N → M ≤ 2147483632) :
    ∃ s1, transpose_submit M N s = some s1 ∧ s1.A = s.A ∧
      ∀ i j, 0 ≤ i → i < N → 0 ≤ j → j < M → s1.B j i = s.A i j := by
  unfold transpose_submit
  by_cases h32 : M = 32 ∧ N = 32
  · rw [if_pos h32]
    obtain ⟨rfl, rfl⟩ := h32
    exact trans_32_32_spec s
  · rw [if_neg h32]
    by_cases h64 : M = 64 ∧ N = 64
    · rw [if_pos h64]
      obtain ⟨rfl, rfl⟩ := h64
      exact trans_64_64_spec s
    · rw [if_neg h64]
      exact trans_61_67_spec s hN1 hN hM1 hM hMN

/-- C21 (as amended): for all dimensions `1 ≤ M ≤ 2^31 - 1` and `1 ≤ N ≤ 2^31 - 16`, with
`M ≤ 2^31 - 16` when `N > 16`, and every `N x M` array `A`, `transpose_submit` returns with
every array index within bounds and without signed overflow, `A` is unchanged, `B[j][i]` is
`A[i][j]` for all `0 ≤ i < N` and `0 ≤ j < M`, and `is_transpose` returns 1; this covers
the 32 x 32 kernel, the 64 x 64 kernel and the generic kernel. -/
theorem C21_transpose_submit_transposes (M N : Int) (s : Arrays) (hM1 : 1 ≤ M) (hN1 : 1 ≤ N)
    (hM : M ≤ 2147483647) (hN : N ≤ 2147483632) (hMN : 16 < N → M ≤ 2147483632) :
    (∃ s1, transpose_submit M N s = some s1 ∧ s1.A = s.A ∧
      (∀ i j, 0 ≤ i → i < N → 0 ≤ j → j < M → s1.B j i = s.A i j) ∧
      is_transpose M N s1 = some 1) ∧
    (∃ s1, trans_32_32 32 32 s = some s1 ∧ s1.A = s.A ∧
      ∀ i j, 0 ≤ i → i < 32 → 0 ≤ j → j < 32 → s1.B j i = s.A i j) ∧
    (∃ s1, trans_64_64 64 64 s = some s1 ∧ s1.A = s.A ∧
      ∀ i j, 0 ≤ i → i < 64 → 0 ≤ j → j < 64 → s1.B j i = s.A i j) ∧
    (∃ s1, trans_61_67 M N s = some s1 ∧ s1.A = s.A ∧
      ∀ i j, 0 ≤ i → i < N → 0 ≤ j → j < M → s1.B j i = s.A i j) := by
  refine ⟨?_, trans_32_32_spec s, trans_64_64_spec s, trans_61_67_spec s hN1 hN hM1 hM hMN⟩
  obtain ⟨s1, e1, a1, b1⟩ := transpose_submit_spec M N s hM1 hN1 hM hN hMN
  refine ⟨s1, e1, a1, b1, is_transpose_one s1 (by omega) hM (by omega) (by omega) ?_⟩
  intro i j h1 h2 h3 h4
  rw [b1 i j h1 h2 h3 h4, a1]

/-- C21, an instance: the 67 x 61 array of the third test size. -/
theorem C21_transpose_submit_transposes_witness :
    ((1 : Int) ≤ 61 ∧ (1 : Int) ≤ 67 ∧ (61 : Int) ≤ 2147483647 ∧ (67 : Int) ≤ 2147483632 ∧
      ((16 : Int) < 67 → (61 : Int) ≤ 2147483632)) ∧
    ∃ s1, transpose_submit 61 67 sample_arrays = some s1 ∧ s1.A = sample_arrays.A ∧
      (∀ i j, 0 ≤ i → i < 67 → 0 ≤ j → j < 61 → s1.B j i = sample_arrays.A i j) ∧
      is_transpose 61 67 s1 = some 1 :=
  ⟨⟨by decide, by decide, by decide, by decide, fun _ => by decide⟩,
    (C21_transpose_submit_transposes 61 67 sample_arrays (by decide) (by decide) (by decide)
      (by decide) (fun _ => by decide)).1⟩

/-- C21, counterexample to the claim as stated: with `M = 1` and `N = 2^31 - 1` the loop
header `ii + 16 < N` of the generic kernel is evaluated with `ii = 2^31 - 16`, a signed
overflow, so `transpose_submit` has no defined result. -/
theorem C21_counterexample :
    (1 : Int) ≤ 1 ∧ (1 : Int) ≤ 2147483647 ∧
      transpose_submit 1 2147483647 sample_arrays = none := by
  refine ⟨by decide, by decide, ?_⟩
  unfold transpose_submit
  rw [if_neg (by decide), if_neg (by decide)]
  unfold trans_61_67
  rw [for_loop_none _ 16 _ 134217727 (fun _ _ => True) loop_fuel 0 (sample_arrays, none)
    (fuel_gt (by omega)) trivial]
  · rfl
  · intro k hk
    simp only [iadd_some (show -2147483648 ≤ 0 + (k : Int) * 16 + 16 by omega)
      (show 0 + (k : Int) * 16 + 16 ≤ 2147483647 by omega), Option.map_some']
    exact cond_true (by omega)
  · simp only [iadd, Nat.cast_ofNat]
    rfl
  · intro k hk
    exact iadd_some (by omega) (by omega)
  · intro k st hk _
    obtain ⟨s1, e1, _⟩ := for_loop_spec
      (fun jj => (iadd jj 16).map (fun t => decide (t < (1 : Int)))) 16
      (fun jj s =>
        (for_loop (fun i => (iadd (0 + (k : Int) * 16) 16).map (fun t => decide (i < t))) 1
          (fun i s => (row8 1 2147483647 s i jj).bind
            (fun s1 => row8 1 2147483647 s1 i (jj + 8)))
          loop_fuel (0 + (k : Int) * 16) s).map (fun r => r.2)) 0
      (fun _ _ => True) loop_fuel 0 st.1 (fuel_gt (by omega)) trivial
      (fun k hk => by omega)
      (by decide)
      (fun k hk => by omega)
      (fun k s hk _ => by omega)
    exact ⟨_, by rw [e1]; rfl, trivial⟩

end Trans
